import Mathlib

namespace GammaGame

/-!
# The gamma game engine (`gamma.c`, `stack.c`, `field.h`, `int_to_string_util.c`)

A shallow embedding of the engine state and of its operations, followed by the
invariants of the engine and the properties of the public calls.

Conventions of the embedding.
* `uint32_t` and `uint64_t` values are natural numbers; every arithmetic
  operation of the source that can wrap is written with an explicit
  remainder (`UINT32_MOD`, `UINT64_MOD`).
* The two-dimensional arrays `player_arr`, `parents`, `areas_size` and
  `visited` (allocated with `calloc`) are total functions of the two indices.
* The traversal stack is the list of its `count` live entries (top first)
  together with its capacity `size`.
* `find_parent` (recursive in C) and the two flood-fill loops take their
  fuel from the board: `width * height`.
* Memory allocation never fails.
-/


/-! ## Constants and plain data -/

/-- Embeds `NO_PLAYER`: the owner entry of an unowned cell. -/
def NO_PLAYER : Nat := 0

/-- Embeds `DIRECTIONS`: the number of edge neighbours of a cell. -/
def DIRECTIONS : Nat := 4

/-- Modulus of `uint32_t` arithmetic. -/
def UINT32_MOD : Nat := 4294967296

/-- Modulus of `uint64_t` arithmetic. -/
def UINT64_MOD : Nat := 18446744073709551616

/-- Embeds `x_dir[i]`: the `int` entries `0, 1, 0, -1`. -/
def x_dir (i : Nat) : Int :=
  match i with
  | 0 => 0
  | 1 => 1
  | 2 => 0
  | _ => -1

/-- Embeds `y_dir[i]`: the `int` entries `1, 0, -1, 0`. -/
def y_dir (i : Nat) : Int :=
  match i with
  | 0 => 1
  | 1 => 0
  | 2 => -1
  | _ => 0

/-- Embeds `a + d` for a `uint32_t` `a` and an `int` `d`, stored in a `uint32_t`: the sum
modulo `2^32`. -/
def add32 (a : Nat) (d : Int) : Nat := Int.toNat (((a : Int) + d) % 4294967296)

/-- Embeds `n++` on a `uint64_t`. -/
def inc64 (n : Nat) : Nat := (n + 1) % UINT64_MOD

/-- Embeds `n--` on a `uint64_t`. -/
def dec64 (n : Nat) : Nat := if n = 0 then UINT64_MOD - 1 else n - 1

/-- Embeds `struct field` of `field.h`. -/
structure field_t where
  x : Nat
  y : Nat
deriving DecidableEq, Repr

/-- Embeds `field_equals` of `field.h`. -/
def field_equals (f1 f2 : field_t) : Bool := f1.x == f2.x && f1.y == f2.y

/-- Embeds `struct m_player`. -/
structure player_t where
  has_played_golden_move : Bool
  num_of_areas : Nat
  busy_fields : Nat
deriving DecidableEq, Repr

/-- Embeds `struct m_stack`: `items` are the entries `arr[count-1], ..., arr[0]`. -/
structure stack_t where
  items : List field_t
  size : Nat
deriving DecidableEq, Repr

/-- Embeds `struct gamma`. -/
structure gamma where
  width : Nat
  height : Nat
  num_of_players : Nat
  max_num_of_areas : Nat
  empty_fields : Nat
  players : Nat → player_t
  player_arr : Nat → Nat → Nat
  parents : Nat → Nat → field_t
  areas_size : Nat → Nat → Nat
  visited : Nat → Nat → Nat
  stack : stack_t

/-- Assignment `a[x][y] = v` to a two-dimensional array. -/
def set2D {α : Type} (a : Nat → Nat → α) (x y : Nat) (v : α) : Nat → Nat → α :=
  fun i j => if i = x ∧ j = y then v else a i j

/-- Assignment `a[i] = v` to a one-dimensional array. -/
def set1D {α : Type} (a : Nat → α) (i : Nat) (v : α) : Nat → α :=
  fun k => if k = i then v else a k

/-! ## The stack (`stack.c`) -/

/-- Embeds `init_stack`. -/
def init_stack (size : Nat) : stack_t := { items := [], size := size }

/-- Embeds `is_full`. -/
def is_full (s : stack_t) : Bool := s.size == s.items.length

/-- Embeds `is_stack_empty`. -/
def is_stack_empty (s : stack_t) : Bool := s.items.length == 0

/-- Embeds `resize`. -/
def resize (s : stack_t) : stack_t := { s with size := (2 * s.size + 1) % UINT64_MOD }

/-- Embeds `stack_push`. -/
def stack_push (s : stack_t) (x y : Nat) : stack_t :=
  let s1 := if is_full s then resize s else s
  { s1 with items := { x := x, y := y } :: s1.items }

/-- Embeds `stack_pop`: the popped entry and the remaining stack. -/
def stack_pop (s : stack_t) : field_t × stack_t :=
  match s.items with
  | [] => ({ x := 0, y := 0 }, s)
  | f :: rest => (f, { s with items := rest })

/-! ## Decimal helpers (`int_to_string_util.c`) -/

/-- The `while (n != 0)` loop of `digit_count`. -/
def digit_count_loop : Nat → Nat → Nat → Nat
  | 0, _, count => count
  | fuel + 1, n, count =>
    if n = 0 then count else digit_count_loop fuel (n / 10) ((count + 1) % UINT32_MOD)

/-- Embeds `digit_count`. -/
def digit_count (n : Nat) : Nat :=
  if n = 0 then 1 else digit_count_loop 20 n 0

/-- The digits written by `write_int`, most significant first. -/
def write_int_digits : Nat → Nat → List Char
  | 0, _ => []
  | count + 1, n => write_int_digits count (n / 10) ++ [Char.ofNat (n % 10 + 48)]

/-! ## Validity checks -/

/-- Embeds `wrong_field`. -/
def wrong_field (x y : Nat) (g : gamma) : Bool :=
  !(decide (x < g.width) && decide (y < g.height))

/-- Embeds `wrong_player`. -/
def wrong_player (player : Nat) (g : gamma) : Bool :=
  decide (g.num_of_players < player) || decide (player < 1)

/-- Embeds `no_field`. -/
def no_field (x y : Nat) (g : gamma) : Bool := g.player_arr x y == NO_PLAYER

/-- Embeds `gamma_new`; `none` stands for `NULL`. -/
def gamma_new (width height players areas : Nat) : Option gamma :=
  if width < 1 ∨ height < 1 ∨ players < 1 ∨ areas < 1 then none
  else some {
    width := width
    height := height
    num_of_players := players
    max_num_of_areas := areas
    empty_fields := (width * height) % UINT64_MOD
    players := fun _ => { has_played_golden_move := false, num_of_areas := 0, busy_fields := 0 }
    player_arr := fun _ _ => 0
    parents := fun _ _ => { x := 0, y := 0 }
    areas_size := fun _ _ => 0
    visited := fun _ _ => 0
    stack := init_stack ((width * height) % UINT64_MOD) }

/-- Embeds `count_neighbours`. -/
def count_neighbours (g : gamma) (x y player : Nat) : Nat :=
  (List.range DIRECTIONS).foldl (fun l i =>
    let x_i := add32 x (x_dir i)
    let y_i := add32 y (y_dir i)
    if !wrong_field x_i y_i g && g.player_arr x_i y_i == player then l + 1 else l) 0

/-! ## Union-find -/

/-- Embeds `find_parent` with recursion depth bounded by the fuel. -/
def find_parent_fuel : Nat → gamma → field_t → gamma × field_t
  | 0, g, f => (g, g.parents f.x f.y)
  | fuel + 1, g, f =>
    if field_equals f (g.parents f.x f.y) then (g, g.parents f.x f.y)
    else
      let r := find_parent_fuel fuel g (g.parents f.x f.y)
      ({ r.1 with parents := set2D r.1.parents f.x f.y r.2 }, r.2)

/-- Embeds `find_parent`. -/
def find_parent (g : gamma) (f : field_t) : gamma × field_t :=
  find_parent_fuel (g.width * g.height) g f

/-- Embeds `gamma_busy_fields`. -/
def gamma_busy_fields (g : gamma) (player : Nat) : Nat :=
  if wrong_player player g then 0 else (g.players (player - 1)).busy_fields

/-- Embeds `parents_compare`. -/
def parents_compare (g : gamma) (f1 f2 : field_t) : Bool :=
  decide (g.areas_size f1.x f1.y < g.areas_size f2.x f2.y)

/-- Body of the inner loop of `sort_n_parents`. -/
def sort_inner_step (g : gamma) (n_parents : Nat → field_t) (j : Nat) : Nat → field_t :=
  if parents_compare g (n_parents j) (n_parents (j + 1)) then
    let tmp := n_parents (j + 1)
    set1D (set1D n_parents (j + 1) (n_parents j)) j tmp
  else n_parents

/-- Embeds `sort_n_parents`. -/
def sort_n_parents (g : gamma) (n_parents : Nat → field_t) (l : Nat) : Nat → field_t :=
  (List.range l).foldl (fun np i =>
    (List.range (l - i - 1)).foldl (fun np2 j => sort_inner_step g np2 j) np) n_parents

/-- Embeds `union_areas`. -/
def union_areas (g : gamma) (bigger smaller : field_t) : gamma :=
  let s2 := g.areas_size smaller.x smaller.y
  let g1 := { g with parents := set2D g.parents smaller.x smaller.y bigger }
  let s1 := (g1.areas_size bigger.x bigger.y + s2) % UINT64_MOD
  let g2 := { g1 with areas_size := set2D g1.areas_size bigger.x bigger.y s1 }
  { g2 with areas_size := set2D g2.areas_size smaller.x smaller.y 0 }

/-- Embeds `g->players[player - 1].num_of_areas--`. -/
def dec_areas (g : gamma) (player : Nat) : gamma :=
  let pl := g.players (player - 1)
  { g with players := set1D g.players (player - 1) { pl with num_of_areas := dec64 pl.num_of_areas } }

/-- Embeds `g->players[player - 1].num_of_areas++`. -/
def inc_areas (g : gamma) (player : Nat) : gamma :=
  let pl := g.players (player - 1)
  { g with players := set1D g.players (player - 1) { pl with num_of_areas := inc64 pl.num_of_areas } }

/-- First loop of `remove_same_areas`: `n_parents[i] = find_parent(g, neighbours[i])`. -/
def remove_same_areas_find (g : gamma) (neighbours : Nat → field_t) (l : Nat) :
    gamma × (Nat → field_t) :=
  (List.range l).foldl (fun (st : gamma × (Nat → field_t)) i =>
    let r := find_parent st.1 (neighbours i)
    (r.1, set1D st.2 i r.2)) (g, fun _ => { x := 0, y := 0 })

/-- Body of the `while (it < l)` loop of `remove_same_areas`. -/
def remove_same_areas_step (accumulator : field_t) (player : Nat)
    (st : gamma × (Nat → field_t)) (it : Nat) : gamma × (Nat → field_t) :=
  let r := find_parent st.1 (st.2 it)
  let np := set1D st.2 it r.2
  if !field_equals (np it) accumulator then
    (dec_areas (union_areas r.1 accumulator (np it)) player, np)
  else (r.1, np)

/-- Embeds `remove_same_areas`. -/
def remove_same_areas (g : gamma) (neighbours : Nat → field_t) (l player : Nat) : gamma :=
  let st := remove_same_areas_find g neighbours l
  let n_parents := sort_n_parents st.1 st.2 l
  let accumulator := n_parents 0
  ((List.range' 1 (l - 1)).foldl (remove_same_areas_step accumulator player) (st.1, n_parents)).1

/-! ## Placing a stone -/

/-- Embeds `take_field`. -/
def take_field (g : gamma) (x y player : Nat) : gamma :=
  let pl := g.players (player - 1)
  { g with
    player_arr := set2D g.player_arr x y player
    players := set1D g.players (player - 1)
      { pl with busy_fields := inc64 pl.busy_fields, num_of_areas := inc64 pl.num_of_areas }
    empty_fields := dec64 g.empty_fields }

/-- Loop state of `move_util`: the game, the array `neigbours` and its length `l`. -/
structure move_loop_t where
  g : gamma
  neigbours : Nat → field_t
  l : Nat

/-- Body of the `for` loop of `move_util`. -/
def move_util_step (x y player : Nat) (st : move_loop_t) (i : Nat) : move_loop_t :=
  let f_i : field_t := { x := add32 x (x_dir i), y := add32 y (y_dir i) }
  if !wrong_field f_i.x f_i.y st.g && st.g.player_arr f_i.x f_i.y == player then
    let nb := set1D st.neigbours st.l f_i
    let g1 :=
      if st.l = 0 then
        let ga := dec_areas st.g player
        let r := find_parent ga f_i
        let gb := { r.1 with parents := set2D r.1.parents x y r.2 }
        { gb with areas_size := set2D gb.areas_size r.2.x r.2.y (inc64 (gb.areas_size r.2.x r.2.y)) }
      else st.g
    { g := g1, neigbours := nb, l := st.l + 1 }
  else st

/-- Embeds `move_util`. -/
def move_util (g : gamma) (x y player : Nat) : gamma :=
  let g0 := take_field g x y player
  let st := (List.range DIRECTIONS).foldl (move_util_step x y player)
    { g := g0, neigbours := fun _ => { x := 0, y := 0 }, l := 0 }
  if st.l = 0 then
    let g1 := { st.g with parents := set2D st.g.parents x y { x := x, y := y } }
    { g1 with areas_size := set2D g1.areas_size x y 1 }
  else remove_same_areas st.g st.neigbours st.l player

/-- Embeds `gamma_move`: the returned flag and the state after the call. -/
def gamma_move (g : gamma) (player x y : Nat) : Bool × gamma :=
  if wrong_player player g || wrong_field x y g then (false, g)
  else if g.player_arr x y != NO_PLAYER then (false, g)
  else if decide ((g.players (player - 1)).num_of_areas ≥ g.max_num_of_areas)
      && count_neighbours g x y player == 0 then (false, g)
  else (true, move_util g x y player)

/-- Inner loop of `gamma_free_fields` for column `i`. -/
def free_fields_column (g : gamma) (player i : Nat) (count : Nat) : Nat :=
  (List.range g.height).foldl (fun c j =>
    if no_field i j g && decide (count_neighbours g i j player > 0) then inc64 c else c) count

/-- Embeds `gamma_free_fields`. -/
def gamma_free_fields (g : gamma) (player : Nat) : Nat :=
  if wrong_player player g then 0
  else if (g.players (player - 1)).num_of_areas > g.max_num_of_areas then 0
  else if (g.players (player - 1)).num_of_areas = g.max_num_of_areas then
    (List.range g.width).foldl (fun c i => free_fields_column g player i c) 0
  else g.empty_fields

/-! ## Removing a stone -/

/-- Embeds `delete_field`. -/
def delete_field (g : gamma) (player x y : Nat) : gamma :=
  let r := find_parent g { x := x, y := y }
  let pl := r.1.players (player - 1)
  { r.1 with
    areas_size := set2D r.1.areas_size r.2.x r.2.y 0
    player_arr := set2D r.1.player_arr x y NO_PLAYER
    empty_fields := inc64 r.1.empty_fields
    players := set1D r.1.players (player - 1)
      { pl with busy_fields := dec64 pl.busy_fields, num_of_areas := dec64 pl.num_of_areas } }

/-- Embeds `dfs_condition`. -/
def dfs_condition (g : gamma) (x y p : Nat) : Bool :=
  !wrong_field x y g && g.visited x y == 0 && g.player_arr x y == p

/-- Body of the `for` loop of `init_visited` for the popped cell `f`. -/
def init_visited_step (f : field_t) (g : gamma) (i : Nat) : gamma :=
  let x_i := add32 f.x (x_dir i)
  let y_i := add32 f.y (y_dir i)
  if !wrong_field x_i y_i g && g.visited x_i y_i != 0 then
    let g1 := { g with visited := set2D g.visited x_i y_i 0 }
    { g1 with stack := stack_push g1.stack x_i y_i }
  else g

/-- The `while (!is_stack_empty(g->stack))` loop of `init_visited`. -/
def init_visited_loop : Nat → gamma → gamma
  | 0, g => g
  | fuel + 1, g =>
    if is_stack_empty g.stack then g
    else
      let r := stack_pop g.stack
      let g1 := { g with stack := r.2 }
      init_visited_loop fuel ((List.range DIRECTIONS).foldl (init_visited_step r.1) g1)

/-- Embeds `init_visited`. -/
def init_visited (g : gamma) (x y : Nat) : gamma :=
  let g1 := { g with stack := stack_push g.stack x y }
  let g2 := { g1 with visited := set2D g1.visited x y 0 }
  init_visited_loop (g.width * g.height) g2

/-- Body of the `for` loop of `set_parent_dfs` for the popped cell `f`. -/
def set_parent_dfs_step (f : field_t) (p : Nat) (g : gamma) (i : Nat) : gamma :=
  let x_i := add32 f.x (x_dir i)
  let y_i := add32 f.y (y_dir i)
  if dfs_condition g x_i y_i p then
    let g1 := { g with visited := set2D g.visited x_i y_i 1 }
    { g1 with stack := stack_push g1.stack x_i y_i }
  else g

/-- The `while (!is_stack_empty(g->stack))` loop of `set_parent_dfs`. -/
def set_parent_dfs_loop (parent : field_t) (p : Nat) : Nat → gamma → Nat → gamma × Nat
  | 0, g, count => (g, count)
  | fuel + 1, g, count =>
    if is_stack_empty g.stack then (g, count)
    else
      let count1 := inc64 count
      let r := stack_pop g.stack
      let g1 := { g with stack := r.2 }
      let g2 := { g1 with parents := set2D g1.parents r.1.x r.1.y parent }
      set_parent_dfs_loop parent p fuel
        ((List.range DIRECTIONS).foldl (set_parent_dfs_step r.1 p) g2) count1

/-- Embeds `set_parent_dfs`: the state after the call and the returned count. -/
def set_parent_dfs (g : gamma) (parent : field_t) (x y p : Nat) : gamma × Nat :=
  let g1 := { g with stack := stack_push g.stack x y }
  let g2 := { g1 with visited := set2D g1.visited x y 1 }
  set_parent_dfs_loop parent p (g.width * g.height) g2 0

/-- Body of the `for` loop of `delete_util`. -/
def delete_util_step (x y player : Nat) (g : gamma) (i : Nat) : gamma :=
  let f_i : field_t := { x := add32 x (x_dir i), y := add32 y (y_dir i) }
  if dfs_condition g f_i.x f_i.y player then
    let r := set_parent_dfs g f_i f_i.x f_i.y player
    let g1 := inc_areas r.1 player
    { g1 with areas_size := set2D g1.areas_size f_i.x f_i.y r.2 }
  else g

/-- Embeds `delete_util`. -/
def delete_util (g : gamma) (x y player : Nat) : gamma :=
  let g1 := delete_field g player x y
  let g2 := (List.range DIRECTIONS).foldl (delete_util_step x y player) g1
  init_visited g2 x y

/-! ## The golden move -/

/-- Embeds `delete_and_move`. -/
def delete_and_move (g : gamma) (x y n_player : Nat) : Bool × gamma :=
  if decide ((g.players (n_player - 1)).num_of_areas ≥ g.max_num_of_areas)
      && count_neighbours g x y n_player == 0 then (false, g)
  else
    let player := g.player_arr x y
    let g1 := delete_util g x y player
    if (g1.players (player - 1)).num_of_areas > g1.max_num_of_areas then
      (false, (gamma_move g1 player x y).2)
    else
      let r := gamma_move g1 n_player x y
      if !r.1 then (false, (gamma_move r.2 player x y).2)
      else (true, r.2)

/-- Embeds `g->players[player - 1].has_played_golden_move = b`. -/
def set_golden (g : gamma) (player : Nat) (b : Bool) : gamma :=
  let pl := g.players (player - 1)
  { g with players := set1D g.players (player - 1) { pl with has_played_golden_move := b } }

/-- Embeds `gamma_golden_move`: the returned flag and the state after the call. -/
def gamma_golden_move (g : gamma) (player x y : Nat) : Bool × gamma :=
  if wrong_player player g || wrong_field x y g then (false, g)
  else if (g.players (player - 1)).has_played_golden_move then (false, g)
  else if g.player_arr x y == player then (false, g)
  else if no_field x y g then (false, g)
  else
    let r := delete_and_move g x y player
    if r.1 then (true, set_golden r.2 player true)
    else (false, r.2)

/-- Embeds `golden_no_checking_nor_changing`. -/
def golden_no_checking_nor_changing (g : gamma) (player x y : Nat) : Bool × gamma :=
  if wrong_player player g || wrong_field x y g then (false, g)
  else
    let has_played_save := (g.players (player - 1)).has_played_golden_move
    let g1 := set_golden g player false
    let r := gamma_golden_move g1 player x y
    (r.1, set_golden r.2 player has_played_save)

/-- The `player_heurisic` loop of `gamma_golden_possible`. -/
def golden_possible_heuristic (g : gamma) (player : Nat) : Bool :=
  (List.range g.num_of_players).foldl (fun b i =>
    if i != player - 1 && decide ((g.players i).busy_fields > 0) then true else b) false

/-- The board scan of `gamma_golden_possible` over the listed cells `(i, j)`. -/
def golden_possible_scan (player : Nat) : List (Nat × Nat) → gamma → Bool × gamma
  | [], g => (false, g)
  | (i, j) :: rest, g =>
    let player_it := g.player_arr i j
    let r := golden_no_checking_nor_changing g player i j
    if r.1 then (true, (golden_no_checking_nor_changing r.2 player_it i j).2)
    else golden_possible_scan player rest r.2

/-- The cells in the order of the loops `for i < width`, `for j < height`. -/
def scan_order (width height : Nat) : List (Nat × Nat) :=
  (List.range width).flatMap (fun i => (List.range height).map (fun j => (i, j)))

/-- Embeds `gamma_golden_possible`: the returned flag and the state after the call. -/
def gamma_golden_possible (g : gamma) (player : Nat) : Bool × gamma :=
  if wrong_player player g then (false, g)
  else if (g.players (player - 1)).has_played_golden_move then (false, g)
  else if !golden_possible_heuristic g player then (false, g)
  else if (g.players (player - 1)).num_of_areas < g.max_num_of_areas then (true, g)
  else golden_possible_scan player (scan_order g.width g.height) g

/-- Embeds `gamma_move_possible`: the returned flag and the state after the call. -/
def gamma_move_possible (g : gamma) (player x y : Nat) : Bool × gamma :=
  if wrong_field x y g || wrong_player player g then (false, g)
  else
    let r := gamma_move g player x y
    if !r.1 then (false, r.2)
    else (true, delete_util r.2 x y player)

/-- Embeds `gamma_player_areas` (the `uint64_t` counter returned as `uint32_t`). -/
def gamma_player_areas (g : gamma) (player : Nat) : Nat :=
  if wrong_player player g then 0 else (g.players (player - 1)).num_of_areas % UINT32_MOD

/-- Embeds `gamma_max_areas`. -/
def gamma_max_areas (g : gamma) : Nat := g.max_num_of_areas

/-! ## Rendering -/

/-- Embeds `find_max_number_width`. -/
def find_max_number_width (g : gamma) : Nat :=
  let max_width := (List.range g.num_of_players).foldl (fun mw i =>
    if (g.players i).busy_fields > 0 then
      let d := digit_count ((i + 1) % UINT32_MOD)
      if d > mw then d else mw
    else mw) 1
  if max_width > 1 then (max_width + 1) % UINT32_MOD else max_width

/-- Embeds `gamma_field_width_interactive`. -/
def gamma_field_width_interactive (g : gamma) : Nat :=
  let width := digit_count g.num_of_players
  if width > 1 then (width + 1) % UINT32_MOD else width

/-- Render state of `gamma_board_helper`: the characters written so far (in
increasing index order) and the write index `it`. -/
structure render_t where
  buffer : List Char
  it : Nat

/-- The padding loop `while (it - old_it < max_width)`; `old_it` is a `uint32_t`,
the difference is computed in `uint64_t`. -/
def pad_loop (max_width old_it : Nat) : Nat → render_t → render_t
  | 0, r => r
  | fuel + 1, r =>
    if (r.it + (UINT64_MOD - old_it)) % UINT64_MOD < max_width then
      pad_loop max_width old_it fuel { buffer := r.buffer ++ [' '], it := inc64 r.it }
    else r

/-- One cell of `gamma_board_helper`. -/
def board_cell (g : gamma) (max_width : Nat) (r : render_t) (i j : Nat) : render_t :=
  let old_it := r.it % UINT32_MOD
  let owner := g.player_arr j (g.height - i - 1)
  let r1 : render_t :=
    if owner = NO_PLAYER then { buffer := r.buffer ++ ['.'], it := inc64 r.it }
    else
      { buffer := r.buffer ++ write_int_digits (digit_count owner) owner,
        it := (r.it + digit_count owner) % UINT64_MOD }
  pad_loop max_width old_it max_width r1

/-- Embeds `gamma_board_helper`: the characters written before the final NUL. -/
def gamma_board_helper (g : gamma) (max_width : Nat) : List Char :=
  ((List.range g.height).foldl (fun r i =>
    let r1 := (List.range g.width).foldl (fun r2 j => board_cell g max_width r2 i j) r
    { buffer := r1.buffer ++ ['\n'], it := inc64 r1.it }) { buffer := [], it := 0 }).buffer

/-- Embeds `gamma_board`. -/
def gamma_board (g : gamma) : List Char :=
  gamma_board_helper g (find_max_number_width g)

/-! ## Specification vocabulary -/

/-- The cell `c` lies on the board of `g`. -/
def on_board (g : gamma) (c : field_t) : Prop := c.x < g.width ∧ c.y < g.height

/-- The owner entry `player_arr[c.x][c.y]`. -/
def owner (g : gamma) (c : field_t) : Nat := g.player_arr c.x c.y

/-- The parent entry `parents[c.x][c.y]`. -/
def par (g : gamma) (c : field_t) : field_t := g.parents c.x c.y

/-- The cell `c` is on the board and `player_arr` holds `p` for it. -/
def owns (g : gamma) (p : Nat) (c : field_t) : Prop := on_board g c ∧ owner g c = p

/-- Edge adjacency of two cells: they share a side. -/
def adjacent (a b : field_t) : Prop :=
  (a.x = b.x ∧ (a.y + 1 = b.y ∨ b.y + 1 = a.y)) ∨ (a.y = b.y ∧ (a.x + 1 = b.x ∨ b.x + 1 = a.x))

/-- Two edge-adjacent cells both owned by `p`. -/
def link (g : gamma) (p : Nat) (a b : field_t) : Prop :=
  adjacent a b ∧ owns g p a ∧ owns g p b

/-- Connection by a path of edge-adjacent cells owned by `p`. -/
def Conn (g : gamma) (p : Nat) : field_t → field_t → Prop := Relation.ReflTransGen (link g p)

/-- The areas of player `p`: the cells owned by `p` modulo edge adjacency, that is the
connected components of the set of `p`-owned cells. Their number is `Nat.card (Area g p)`. -/
def Area (g : gamma) (p : Nat) : Type :=
  Quot (fun a b : { c : field_t // owns g p c } => adjacent a.1 b.1)

/-- A player number accepted by the engine. -/
def valid_player (g : gamma) (p : Nat) : Prop := 1 ≤ p ∧ p ≤ g.num_of_players

/-- The cells of a `w` by `h` board. -/
def cells (w h : Nat) : Finset field_t :=
  (Finset.range w ×ˢ Finset.range h).image (fun q : Nat × Nat => ({ x := q.1, y := q.2 } : field_t))

/-- The cells of the board of `g`. -/
def board (g : gamma) : Finset field_t := cells g.width g.height

/-- The on-board cells whose owner entry is `p` (`p = 0`: the unowned cells). -/
def cells_of (g : gamma) (p : Nat) : Finset field_t := (board g).filter (fun c => owner g c = p)

/-- The roots among the cells of `p` that satisfy `D`: the cells that are their own parent. -/
def roots_in (g : gamma) (D : field_t → Prop) [DecidablePred D] (p : Nat) : Finset field_t :=
  (board g).filter (fun c => D c ∧ owner g c = p ∧ par g c = c)

/-- The roots among the cells of `p`. -/
def roots (g : gamma) (p : Nat) : Finset field_t :=
  (board g).filter (fun c => owner g c = p ∧ par g c = c)

/-- An owned on-board cell of the region `D`. -/
def live (g : gamma) (D : field_t → Prop) (c : field_t) : Prop :=
  D c ∧ on_board g c ∧ owner g c ≠ 0

/-- The parent links restricted to the region `D` form a forest whose trees are exactly
described by `rep` (the root of each cell) and are ranked by `rk`; cells of one tree are
connected on the board, and adjacent cells of one owner inside `D` lie in one tree. -/
structure ForestOn (g : gamma) (D : field_t → Prop) (rep : field_t → field_t)
    (rk : field_t → Nat) : Prop where
  par_live : ∀ c, live g D c → live g D (par g c) ∧ owner g (par g c) = owner g c
  rank_lt : ∀ c, live g D c → par g c ≠ c → rk c < rk (par g c)
  rep_par : ∀ c, live g D c → rep (par g c) = rep c
  rep_self : ∀ c, live g D c → par g c = c → rep c = c
  rep_live : ∀ c, live g D c → live g D (rep c) ∧ owner g (rep c) = owner g c
  rep_root : ∀ c, live g D c → par g (rep c) = rep c
  rep_conn : ∀ c, live g D c → Conn g (owner g c) c (rep c)
  rep_adj : ∀ a b, live g D a → live g D b → owner g a = owner g b → adjacent a b →
    rep a = rep b
  rank_rep : ∀ c, live g D c → rep c ≠ c → rk c < rk (rep c)

/-- The engine invariant without the cap on the number of areas. -/
structure Core (g : gamma) : Prop where
  width_pos : 1 ≤ g.width
  width_lt : g.width < UINT32_MOD
  height_pos : 1 ≤ g.height
  height_lt : g.height < UINT32_MOD
  players_pos : 1 ≤ g.num_of_players
  players_lt : g.num_of_players < UINT32_MOD
  areas_pos : 1 ≤ g.max_num_of_areas
  areas_lt : g.max_num_of_areas < UINT32_MOD
  owner_le : ∀ c, on_board g c → owner g c ≤ g.num_of_players
  empty_eq : g.empty_fields = (cells_of g 0).card
  busy_eq : ∀ p, valid_player g p → (g.players (p - 1)).busy_fields = (cells_of g p).card
  areas_eq : ∀ p, valid_player g p → (g.players (p - 1)).num_of_areas = (roots g p).card
  forest : ∃ rep rk, ForestOn g (fun _ => True) rep rk
  visited_zero : ∀ x y, g.visited x y = 0
  stack_empty : g.stack.items = []
  stack_size : g.stack.size = g.width * g.height

/-- The engine invariant. -/
structure Inv (g : gamma) : Prop where
  core : Core g
  areas_le : ∀ p, valid_player g p → (g.players (p - 1)).num_of_areas ≤ g.max_num_of_areas

/-- The states of a game: those produced from a successful `gamma_new` by the public calls
that can change the state, with arbitrary arguments. The remaining public calls
(`gamma_busy_fields`, `gamma_free_fields`, `gamma_player_areas`, `gamma_max_areas`,
`gamma_board`, `gamma_board_interactive`, `gamma_field_width_interactive`,
`gamma_write_field`) only read the state. -/
inductive Reachable : gamma → Prop
  | new (width height players areas : Nat) (g : gamma) :
      width < UINT32_MOD → height < UINT32_MOD → players < UINT32_MOD → areas < UINT32_MOD →
      gamma_new width height players areas = some g → Reachable g
  | move (g : gamma) (player x y : Nat) :
      Reachable g → Reachable (gamma_move g player x y).2
  | golden_move (g : gamma) (player x y : Nat) :
      Reachable g → Reachable (gamma_golden_move g player x y).2
  | golden_possible (g : gamma) (player : Nat) :
      Reachable g → Reachable (gamma_golden_possible g player).2
  | move_possible (g : gamma) (player x y : Nat) :
      Reachable g → Reachable (gamma_move_possible g player x y).2

/-- The board of `g` with the owner entry of `(x, y)` replaced by `p`. -/
def reassign (g : gamma) (x y p : Nat) : gamma :=
  { g with player_arr := set2D g.player_arr x y p }

/-- Two states that no public query can tell apart: same dimensions and limits, same owner
of every cell, same empty-cell count and the same counters and golden flag of every
player. -/
def same_observable (g g1 : gamma) : Prop :=
  g1.width = g.width ∧ g1.height = g.height ∧ g1.num_of_players = g.num_of_players ∧
  g1.max_num_of_areas = g.max_num_of_areas ∧ g1.empty_fields = g.empty_fields ∧
  g1.players = g.players ∧ g1.player_arr = g.player_arr

/-- The state `h` differs from `g` at most in the parents, the area sizes and the area
counter of player `p`. -/
structure FrameP (p : Nat) (g h : gamma) : Prop where
  width : h.width = g.width
  height : h.height = g.height
  num_of_players : h.num_of_players = g.num_of_players
  max_num_of_areas : h.max_num_of_areas = g.max_num_of_areas
  empty_fields : h.empty_fields = g.empty_fields
  player_arr : h.player_arr = g.player_arr
  visited : h.visited = g.visited
  stack : h.stack = g.stack
  busy : ∀ i, (h.players i).busy_fields = (g.players i).busy_fields
  golden : ∀ i, (h.players i).has_played_golden_move = (g.players i).has_played_golden_move
  areas : ∀ i, i ≠ p - 1 → (h.players i).num_of_areas = (g.players i).num_of_areas

/-- The neighbour of `c` in direction `i`, in `uint32_t` arithmetic. -/
def nbr (c : field_t) (i : Nat) : field_t :=
  { x := add32 c.x (x_dir i), y := add32 c.y (y_dir i) }

instance adjacent_decidable (a b : field_t) : Decidable (adjacent a b) := by
  unfold adjacent
  infer_instance

/-- The on-board cells owned by `p` that are edge-adjacent to `c`. -/
def p_neighbours (g : gamma) (c : field_t) (p : Nat) : Finset field_t :=
  (board g).filter (fun n => owner g n = p ∧ adjacent c n)

/-- Invariant of the `for` loop of `move_util` after the directions below `k`: `g0` is the
state after `take_field`, `c0` the placed cell, `rep` and `rk` describe the forest of the
cells other than `c0`. -/
structure MoveLoopInv (g0 : gamma) (c0 : field_t) (p : Nat) (rep : field_t → field_t)
    (rk : field_t → Nat) (k : Nat) (st : move_loop_t) : Prop where
  frame : FrameP p g0 st.g
  forest : ForestOn st.g (fun c => c ≠ c0) rep rk
  roots : ∀ q, q ≠ 0 →
    roots_in st.g (fun c => c ≠ c0) q = roots_in g0 (fun c => c ≠ c0) q
  nb_ok : ∀ j, j < st.l → owns g0 p (st.neigbours j) ∧ adjacent c0 (st.neigbours j)
  nb_all : ∀ i, i < k → owns g0 p (nbr c0 i) → ∃ j, j < st.l ∧ st.neigbours j = nbr c0 i
  none : st.l = 0 → st.g = g0
  some : 0 < st.l →
    (st.g.players (p - 1)).num_of_areas = dec64 (g0.players (p - 1)).num_of_areas ∧
    par st.g c0 = rep (st.neigbours 0)

/-- The root map after the roots in `T` have been merged into `acc`. -/
def merged_rep (rep : field_t → field_t) (T : Finset field_t) (acc : field_t) :
    field_t → field_t :=
  fun c => if rep c ∈ T then acc else rep c

/-- The array `b` holds on the indices below `l` the same cells as the array `a`. -/
def same_entries (l : Nat) (a b : Nat → field_t) : Prop :=
  (∀ j, j < l → ∃ i, i < l ∧ b j = a i) ∧ (∀ i, i < l → ∃ j, j < l ∧ b j = a i)

/-- The visible effect of placing a stone of `p` on the free cell `c0`: `g1` is `g` with
`c0` owned by `p`, one empty cell less and one more busy cell for `p`; the other players,
the golden flags, the visited markers and the stack are untouched. -/
structure Placed (g : gamma) (p : Nat) (c0 : field_t) (g1 : gamma) : Prop where
  width : g1.width = g.width
  height : g1.height = g.height
  num_of_players : g1.num_of_players = g.num_of_players
  max_num_of_areas : g1.max_num_of_areas = g.max_num_of_areas
  player_arr : g1.player_arr = set2D g.player_arr c0.x c0.y p
  empty_fields : g1.empty_fields + 1 = g.empty_fields
  others : ∀ i, i ≠ p - 1 → g1.players i = g.players i
  busy : (g1.players (p - 1)).busy_fields = (g.players (p - 1)).busy_fields + 1
  golden : (g1.players (p - 1)).has_played_golden_move =
    (g.players (p - 1)).has_played_golden_move
  visited : g1.visited = g.visited
  stack : g1.stack = g.stack

/-- The visited marker `visited[c.x][c.y]`. -/
def vis (g : gamma) (c : field_t) : Nat := g.visited c.x c.y

/-- The state `h` differs from `g` at most in the parents, the visited markers and the
stack. -/
structure FrameV (g h : gamma) : Prop where
  width : h.width = g.width
  height : h.height = g.height
  num_of_players : h.num_of_players = g.num_of_players
  max_num_of_areas : h.max_num_of_areas = g.max_num_of_areas
  empty_fields : h.empty_fields = g.empty_fields
  players : h.players = g.players
  player_arr : h.player_arr = g.player_arr
  areas_size : h.areas_size = g.areas_size

/-- Every cell owned by `q` next to `c` carries a visited marker in `h`. -/
def closed_at (q : Nat) (h : gamma) (c : field_t) : Prop :=
  ∀ d, owns h q d → adjacent c d → vis h d ≠ 0

/-- The on-board cells of `q` without a visited marker. -/
def unvisited (h : gamma) (q : Nat) : Finset field_t :=
  (board h).filter (fun c => vis h c = 0 ∧ owner h c = q)

/-- The on-board cells with a visited marker. -/
def marked (h : gamma) : Finset field_t :=
  (board h).filter (fun c => vis h c ≠ 0)

/-- Invariant of the flood fill `set_parent_dfs` started in state `h0` from the seed `s`
for player `q`; `pend` is the popped cell whose neighbours are being scanned. -/
structure DfsInv (h0 : gamma) (s : field_t) (q : Nat) (pend : field_t → Prop) (h : gamma) :
    Prop where
  frame : FrameV h0 h
  size : h.stack.size = h0.stack.size
  seed_vis : vis h s ≠ 0
  old_vis : ∀ c, vis h0 c ≠ 0 → vis h c ≠ 0
  new_conn : ∀ c, vis h0 c = 0 → vis h c ≠ 0 → owns h0 q c ∧ Conn h0 q s c
  par_keep : ∀ c, (vis h0 c ≠ 0 ∨ vis h c = 0) → par h c = par h0 c
  stack_new : ∀ c, c ∈ h.stack.items → vis h0 c = 0 ∧ vis h c ≠ 0
  done : ∀ c, vis h0 c = 0 → vis h c ≠ 0 →
    c ∈ h.stack.items ∨ pend c ∨ (par h c = s ∧ closed_at q h c)

/-- Invariant of the traversal `init_visited` started in state `h0` from the cell `c0`;
`pend` is the popped cell whose neighbours are being scanned. -/
structure ClearInv (h0 : gamma) (c0 : field_t) (pend : field_t → Prop) (h : gamma) : Prop where
  frame : FrameV h0 h
  parents : h.parents = h0.parents
  size : h.stack.size = h0.stack.size
  start : vis h c0 = 0
  mono : ∀ c, vis h c ≠ 0 → vis h c = vis h0 c
  stack_on : ∀ c, c ∈ h.stack.items → on_board h0 c
  done : ∀ c, (c = c0 ∨ (vis h0 c ≠ 0 ∧ vis h c = 0)) →
    c ∈ h.stack.items ∨ pend c ∨ (∀ d, on_board h0 d → adjacent c d → vis h d = 0)

/-- Reachability from `c0` through on-board cells carrying a visited marker. -/
def VReach (h : gamma) (c0 : field_t) : field_t → Prop :=
  Relation.ReflTransGen (fun a b => adjacent a b ∧ on_board h b ∧ vis h b ≠ 0) c0

/-- The region in which the forest is valid while the cell `c0` of player `q` is being
removed from the state `g` (with root map `rep`): the cells outside the former area of
`c0`, and the cells of that area already covered by a flood fill of the current state `h`. -/
def region (g : gamma) (rep : field_t → field_t) (c0 : field_t) (q : Nat) (h : gamma) :
    field_t → Prop :=
  fun c => ¬ (owner g c = q ∧ rep c = rep c0) ∨ vis h c ≠ 0

instance region_decidable (g : gamma) (rep : field_t → field_t) (c0 : field_t) (q : Nat)
    (h : gamma) : DecidablePred (region g rep c0 q h) := by
  intro c
  unfold region
  infer_instance

/-- Invariant of the `for` loop of `delete_util` after the directions below `k`: `g` is the
state before the call, `rep` its root map, `c0` the vacated cell and `q` its former
owner. -/
structure DelInv (g : gamma) (rep : field_t → field_t) (c0 : field_t) (q : Nat) (k : Nat)
    (h : gamma) : Prop where
  width : h.width = g.width
  height : h.height = g.height
  num_of_players : h.num_of_players = g.num_of_players
  max_num_of_areas : h.max_num_of_areas = g.max_num_of_areas
  player_arr : h.player_arr = set2D g.player_arr c0.x c0.y 0
  empty_fields : h.empty_fields = g.empty_fields + 1
  others : ∀ i, i ≠ q - 1 → h.players i = g.players i
  busy : (h.players (q - 1)).busy_fields + 1 = (g.players (q - 1)).busy_fields
  golden : (h.players (q - 1)).has_played_golden_move =
    (g.players (q - 1)).has_played_golden_move
  stack : h.stack = g.stack
  vis_in : ∀ c, vis h c ≠ 0 → owns h q c ∧ rep c = rep c0
  vis_closed : ∀ a b, vis h a ≠ 0 → owns h q a → owns h q b → adjacent a b → vis h b ≠ 0
  vis_reach : ∀ c, vis h c ≠ 0 → VReach h c0 c
  forest : ∃ rep1 rk1, ForestOn h (region g rep c0 q h) rep1 rk1
  areas : (h.players (q - 1)).num_of_areas = (roots_in h (region g rep c0 q h) q).card
  roots_other : ∀ p, p ≠ 0 → p ≠ q → roots h p = roots g p
  nb_done : ∀ i, i < k → owns h q (nbr c0 i) → vis h (nbr c0 i) ≠ 0

/-- The visible effect of removing the stone of `q` from the cell `c0`: `g1` is `g` with
`c0` unowned, one more empty cell and one busy cell less for `q`; the other players and the
golden flags are untouched. -/
structure Removed (g : gamma) (q : Nat) (c0 : field_t) (g1 : gamma) : Prop where
  width : g1.width = g.width
  height : g1.height = g.height
  num_of_players : g1.num_of_players = g.num_of_players
  max_num_of_areas : g1.max_num_of_areas = g.max_num_of_areas
  player_arr : g1.player_arr = set2D g.player_arr c0.x c0.y 0
  empty_fields : g1.empty_fields = g.empty_fields + 1
  others : ∀ i, i ≠ q - 1 → g1.players i = g.players i
  busy : (g1.players (q - 1)).busy_fields + 1 = (g.players (q - 1)).busy_fields
  golden : (g1.players (q - 1)).has_played_golden_move =
    (g.players (q - 1)).has_played_golden_move

/-- The conditions under which `gamma_move` places the stone. -/
def move_ok (g : gamma) (p x y : Nat) : Prop :=
  valid_player g p ∧ on_board g { x := x, y := y } ∧ g.player_arr x y = 0 ∧
    ¬ ((g.players (p - 1)).num_of_areas ≥ g.max_num_of_areas ∧ count_neighbours g x y p = 0)

/-- The states `g` and `h` have the same dimensions and limits, the same golden flags and
the same player records outside the range of the valid players. -/
structure SameShape (g h : gamma) : Prop where
  width : h.width = g.width
  height : h.height = g.height
  num_of_players : h.num_of_players = g.num_of_players
  max_num_of_areas : h.max_num_of_areas = g.max_num_of_areas
  outside : ∀ i, g.num_of_players ≤ i → h.players i = g.players i
  golden : ∀ i, (h.players i).has_played_golden_move = (g.players i).has_played_golden_move

/-- The conditions, apart from the golden flag, under which the golden move of `p` on
`(x, y)` is legal: the cell is on the board and owned by another player, and on the board
with the cell reassigned to `p` neither the former owner nor `p` exceeds the cap. -/
def golden_ok (g : gamma) (p x y : Nat) : Prop :=
  valid_player g p ∧ on_board g { x := x, y := y } ∧ g.player_arr x y ≠ p ∧
    g.player_arr x y ≠ 0 ∧
    Nat.card (Area (reassign g x y p) (g.player_arr x y)) ≤ g.max_num_of_areas ∧
    Nat.card (Area (reassign g x y p) p) ≤ g.max_num_of_areas

/-- Connection by a path of edge-adjacent cells inside the finite set `S`. -/
def SConn (S : Finset field_t) : field_t → field_t → Prop :=
  Relation.ReflTransGen (fun a b => adjacent a b ∧ a ∈ S ∧ b ∈ S)

/-- The areas of `p` that contain a cell edge-adjacent to `c0`. -/
def neighbour_areas (g : gamma) (p : Nat) (c0 : field_t) : Set (Area g p) :=
  { A | ∃ c : { c : field_t // owns g p c }, adjacent c0 c.1 ∧ Quot.mk _ c = A }

/-- The states that the public calls able to change the state produce from the state
`g0`. -/
inductive Steps (g0 : gamma) : gamma → Prop
  | start : Steps g0 g0
  | move (g : gamma) (player x y : Nat) :
      Steps g0 g → Steps g0 (gamma_move g player x y).2
  | golden_move (g : gamma) (player x y : Nat) :
      Steps g0 g → Steps g0 (gamma_golden_move g player x y).2
  | golden_possible (g : gamma) (player : Nat) :
      Steps g0 g → Steps g0 (gamma_golden_possible g player).2
  | move_possible (g : gamma) (player x y : Nat) :
      Steps g0 g → Steps g0 (gamma_move_possible g player x y).2

/-- The state returned by `gamma_new(2, 2, 2, 1)`: an empty 2 by 2 board for two players
with at most one area each. -/
def new_2x2 : gamma := (gamma_new 2 2 2 1).get rfl

/-- The state returned by `gamma_new(3, 3, 2, 1)`. -/
def new_3x3 : gamma := (gamma_new 3 3 2 1).get rfl

/-- The state returned by `gamma_new(4, 4, 2, 2)`. -/
def new_4x4 : gamma := (gamma_new 4 4 2 2).get rfl

/-- The state returned by `gamma_new(6, 1, 2, 2)`. -/
def new_6x1 : gamma := (gamma_new 6 1 2 2).get rfl

/-! ## Writing a single field (`int_to_string_util.c`, `gamma_write_field`) -/

/-- The `while (it < count)` loop of `write_int` on the character array `s`:
`s[count + l - it - 1] = (n % 10) + '0'; n /= 10; it++`. -/
def write_int_loop (count l : Nat) : Nat → (Nat → Char) → Nat → Nat → (Nat → Char)
  | 0, s, _, _ => s
  | fuel + 1, s, n, it =>
    if it < count then
      write_int_loop count l fuel
        (set1D s ((count + l - it - 1) % UINT64_MOD) (Char.ofNat (n % 10 + 48)))
        (n / 10) ((it + 1) % UINT32_MOD)
    else s

/-- Embeds `write_int`: the array after the call and the returned index `l + count`. -/
def write_int (s : Nat → Char) (l n : Nat) : (Nat → Char) × Nat :=
  (write_int_loop (digit_count n) l (digit_count n) s n 0, (l + digit_count n) % UINT64_MOD)

/-- The loop `while (it < width) s[it++] = SPACE` of `gamma_write_field`; `it` is a
`uint32_t`. -/
def space_loop (width : Nat) : Nat → (Nat → Char) × Nat → (Nat → Char) × Nat
  | 0, r => r
  | fuel + 1, r =>
    if r.2 < width then space_loop width fuel (set1D r.1 r.2 ' ', (r.2 + 1) % UINT32_MOD)
    else r

/-- Embeds `gamma_write_field`: the returned flag and the array `s` after the call. -/
def gamma_write_field (g : gamma) (s : Nat → Char) (x y : Nat) : Bool × (Nat → Char) :=
  if wrong_field x y g then (false, s)
  else
    let player := g.player_arr x y
    let r : (Nat → Char) × Nat :=
      if player = NO_PLAYER then (set1D s 0 '.', 1)
      else ((write_int s 0 player).1, (write_int s 0 player).2 % UINT32_MOD)
    let width := gamma_field_width_interactive g
    (true, (space_loop width width r).1)

/-- Embeds `gamma_board_interactive`. -/
def gamma_board_interactive (g : gamma) : List Char :=
  gamma_board_helper g (gamma_field_width_interactive g)

/-! ## Specification vocabulary: parent chains, decimal text -/

/-- The cell reached from `c` by following `k` parent links. -/
def chain (g : gamma) (c : field_t) (k : Nat) : field_t := (par g)^[k] c

/-- Following parent links from `a` reaches the root `r`, a cell that is its own parent. -/
def reaches_root (g : gamma) (a r : field_t) : Prop := ∃ k, chain g a k = r ∧ par g r = r

/-- Following parent links from `a` and from `b` reaches the same root. -/
def same_root (g : gamma) (a b : field_t) : Prop :=
  ∃ r, reaches_root g a r ∧ reaches_root g b r

/-- The decimal digits of `n`, most significant first, as characters. -/
def decimal (n : Nat) : List Char :=
  (Nat.digits 10 n).reverse.map (fun d => Char.ofNat (d + 48))

/-- The text of one field of width `w` for the owner entry `o`: a dot for an unowned
cell or the decimal id of the owner, padded on the right with spaces to `w` characters. -/
def field_text (w o : Nat) : List Char :=
  (if o = 0 then ['.'] else decimal o) ++
    List.replicate (w - (if o = 0 then ['.'] else decimal o).length) ' '

/-- The text of the board with fields of width `w`: one line per row, the row
`y = height - 1` first, each line made of the fields of the cells `x = 0, ..., width - 1`
followed by a newline. -/
def board_text (g : gamma) (w : Nat) : List Char :=
  (List.range g.height).flatMap (fun i =>
    (List.range g.width).flatMap (fun j => field_text w (g.player_arr j (g.height - 1 - i)))
      ++ ['\n'])

/-- The state returned by `gamma_new(2147483648, 1, 10, 1)`: one row of `2^31` cells for
ten players. -/
def new_wide : gamma := (gamma_new 2147483648 1 10 1).get rfl

/-- The unpadded text of a field for the owner entry `o`: a dot for an unowned cell or the
decimal id of the owner. -/
def cell_text (o : Nat) : List Char := if o = 0 then ['.'] else decimal o

/-- The state after `gamma_move(g, 10, 0, 0)` on `new_wide`. -/
def wide_played : gamma := (gamma_move new_wide 10 0 0).2

/-- An area root: an owned on-board cell that is its own parent. -/
def is_root (g : gamma) (c : field_t) : Prop := on_board g c ∧ owner g c ≠ 0 ∧ par g c = c

/-- The area of the cell `c`: the cells of the owner of `c` connected to `c` by a path of
edge-adjacent cells of that owner. -/
def comp (g : gamma) (c : field_t) : Set field_t :=
  { d | owns g (owner g c) d ∧ Conn g (owner g c) d c }

/-- The invariant of the area sizes: the entry of a root is the number of cells of its
area and every other entry is 0. -/
def SizeInv (g : gamma) : Prop :=
  ∀ c, (is_root g c → g.areas_size c.x c.y = Set.ncard (comp g c)) ∧
    (¬ is_root g c → g.areas_size c.x c.y = 0)

/-- The owned on-board cells whose root under the root map `rep` is `c`. -/
def tree (g : gamma) (rep : field_t → field_t) (c : field_t) : Finset field_t :=
  (board g).filter (fun d => owner g d ≠ 0 ∧ rep d = c)

/-- The invariant of the area sizes stated with a root map: the entry of a root is the
number of cells of its tree and every other entry is 0. -/
def SizeOn (g : gamma) (rep : field_t → field_t) : Prop :=
  ∀ c, (is_root g c → g.areas_size c.x c.y = (tree g rep c).card) ∧
    (¬ is_root g c → g.areas_size c.x c.y = 0)

/-- The sum of the area sizes over the cells of `R`. -/
def size_sum (g : gamma) (R : Finset field_t) : Nat := R.sum (fun r => g.areas_size r.x r.y)

/-- Invariant of the area sizes during the `for` loop of `delete_util`: `g` is the state
before the call, `rep` its root map, `c0` the vacated cell, `q` its former owner. Outside
the former area of `c0` the sizes and the roots are those of `g`; inside it an entry is the
size of the new area for the seed of a finished flood fill and 0 everywhere else. -/
structure DelSize (g : gamma) (rep : field_t → field_t) (c0 : field_t) (q : Nat) (h : gamma) :
    Prop where
  out_size : ∀ c : field_t, ¬ (on_board g c ∧ owner g c = q ∧ rep c = rep c0) →
    h.areas_size c.x c.y = g.areas_size c.x c.y
  out_root : ∀ c, live g (fun _ => True) c → ¬ (owner g c = q ∧ rep c = rep c0) →
    (par h c = c ↔ par g c = c)
  in_root : ∀ c : field_t, on_board g c → owner g c = q → rep c = rep c0 → vis h c ≠ 0 →
    par h c = c → h.areas_size c.x c.y = Set.ncard (comp (reassign g c0.x c0.y 0) c)
  in_zero : ∀ c : field_t, on_board g c → owner g c = q → rep c = rep c0 →
    ¬ (vis h c ≠ 0 ∧ par h c = c) → h.areas_size c.x c.y = 0

/-- The states in which the internal calls of a public call on `g` run: `g` itself, the
state left by a call of `golden_no_checking_nor_changing` (a trial of the scan of
`gamma_golden_possible` or its reversal), and the state with the golden flag of a player
overwritten, as `golden_no_checking_nor_changing` does before it calls
`gamma_golden_move`. -/
inductive ScanState (g : gamma) : gamma → Prop
  | start : ScanState g g
  | trial (h : gamma) (player i j : Nat) :
      ScanState g h → ScanState g (golden_no_checking_nor_changing h player i j).2
  | flag (h : gamma) (player : Nat) (b : Bool) :
      ScanState g h → ScanState g (set_golden h player b)

/-- The states in which `gamma_move` runs during a public call on `g`: the states of
`ScanState`, and such a state after `delete_util` has vacated an owned on-board cell, as
`delete_and_move` does before it calls `gamma_move`. -/
inductive MoveState (g : gamma) : gamma → Prop
  | scan (h : gamma) : ScanState g h → MoveState g h
  | vacated (h : gamma) (x y : Nat) : ScanState g h → on_board h { x := x, y := y } →
      h.player_arr x y ≠ 0 → MoveState g (delete_util h x y (h.player_arr x y))

/-- The loop state of `move_util` after its `for` loop: the game, the array `neigbours`
and its length `l` with which `remove_same_areas` is called. -/
def move_loop (g : gamma) (x y player : Nat) : move_loop_t :=
  (List.range DIRECTIONS).foldl (move_util_step x y player)
    { g := take_field g x y player, neigbours := fun _ => { x := 0, y := 0 }, l := 0 }

/-- The state of `remove_same_areas` when its `while` loop starts: the game after the
`find_parent` calls of the first loop and the array `n_parents` after `sort_n_parents`. -/
def merge_start (g : gamma) (neighbours : Nat → field_t) (l : Nat) : gamma × (Nat → field_t) :=
  ((remove_same_areas_find g neighbours l).1,
    sort_n_parents (remove_same_areas_find g neighbours l).1
      (remove_same_areas_find g neighbours l).2 l)

/-- The state of the `while` loop of `remove_same_areas` after `m` iterations
(`it = 1, ..., m`). -/
def merge_state (g : gamma) (neighbours : Nat → field_t) (l player m : Nat) :
    gamma × (Nat → field_t) :=
  (List.range' 1 m).foldl (remove_same_areas_step ((merge_start g neighbours l).2 0) player)
    (merge_start g neighbours l)

/-- The accumulator of `remove_same_areas`: the entry `n_parents[0]` after sorting. -/
def merge_acc (g : gamma) (neighbours : Nat → field_t) (l : Nat) : field_t :=
  (merge_start g neighbours l).2 0

/-- The call `n_parents[it] = find_parent(g, n_parents[it])` of the iteration `it = m + 1` of
the `while` loop of `remove_same_areas`: the state after the call and the root found. -/
def merge_found (g : gamma) (neighbours : Nat → field_t) (l player m : Nat) : gamma × field_t :=
  find_parent (merge_state g neighbours l player m).1
    ((merge_state g neighbours l player m).2 (m + 1))

/-- Invariant of the parent entries during the `for` loop of `delete_util` after the
directions below `k`: `g` is the state before the call, `rep` its root map, `c0` the vacated
cell, `q` its former owner. Outside the former area of `c0` the parent entries are those of
`g`; a cell covered by a flood fill has as parent the first neighbour of `c0`, in the order
of the directions, that is connected to it on the board without `c0`. -/
structure DelPar (g : gamma) (rep : field_t → field_t) (c0 : field_t) (q k : Nat) (h : gamma) :
    Prop where
  out_par : ∀ c : field_t, ¬ (on_board g c ∧ owner g c = q ∧ rep c = rep c0) →
    par h c = par g c
  in_par : ∀ c, vis h c ≠ 0 → ∃ i, i < k ∧ owns g q (nbr c0 i) ∧
    Conn (reassign g c0.x c0.y 0) q (nbr c0 i) c ∧
    (∀ j, j < i → ¬ (owns g q (nbr c0 j) ∧ Conn (reassign g c0.x c0.y 0) q (nbr c0 j) c)) ∧
    par h c = nbr c0 i

/-- The parent links of `g` are acyclic: the parent of an owned on-board cell is an owned
on-board cell, and following one or more parent links from an owned on-board cell leads
back to the cell only when the cell is its own parent. -/
def acyclic_parents (g : gamma) : Prop :=
  (∀ c, on_board g c → owner g c ≠ 0 → on_board g (par g c) ∧ owner g (par g c) ≠ 0) ∧
  ∀ c k, on_board g c → owner g c ≠ 0 → chain g c (k + 1) = c → par g c = c

/-! ## The flood fills with the bound on the stack made explicit

A second embedding of `set_parent_dfs`, `init_visited` and `delete_util` in which every
`stack_push` is guarded: the call yields a result only when the stack still has its
initial capacity `width * height` and holds fewer entries, so that `is_full` fails and
`resize` is not executed. -/

/-- Embeds `stack_push` under the bound `cap`: the result of `stack_push` when the stack
has capacity `cap` and fewer than `cap` entries; `none` otherwise. -/
def stack_push_bounded (cap : Nat) (s : stack_t) (x y : Nat) : Option stack_t :=
  if s.items.length < cap ∧ s.size = cap then some (stack_push s x y) else none

/-- Runs the loop body `f` for the listed indices, stopping at the first `none`. -/
def fold_bounded {α : Type} (f : α → Nat → Option α) : List Nat → α → Option α
  | [], a => some a
  | i :: rest, a => (f a i).bind (fold_bounded f rest)

/-- Body of the `for` loop of `set_parent_dfs` with the guarded `stack_push`. -/
def set_parent_dfs_step_bounded (f : field_t) (p : Nat) (g : gamma) (i : Nat) : Option gamma :=
  let x_i := add32 f.x (x_dir i)
  let y_i := add32 f.y (y_dir i)
  if dfs_condition g x_i y_i p then
    let g1 := { g with visited := set2D g.visited x_i y_i 1 }
    (stack_push_bounded (g.width * g.height) g1.stack x_i y_i).map
      (fun s => { g1 with stack := s })
  else some g

/-- The `while` loop of `set_parent_dfs` with the guarded `stack_push`. -/
def set_parent_dfs_loop_bounded (parent : field_t) (p : Nat) :
    Nat → gamma → Nat → Option (gamma × Nat)
  | 0, g, count => some (g, count)
  | fuel + 1, g, count =>
    if is_stack_empty g.stack then some (g, count)
    else
      let count1 := inc64 count
      let r := stack_pop g.stack
      let g1 := { g with stack := r.2 }
      let g2 := { g1 with parents := set2D g1.parents r.1.x r.1.y parent }
      (fold_bounded (set_parent_dfs_step_bounded r.1 p) (List.range DIRECTIONS) g2).bind
        (fun g3 => set_parent_dfs_loop_bounded parent p fuel g3 count1)

/-- Embeds `set_parent_dfs` with the guarded `stack_push`. -/
def set_parent_dfs_bounded (g : gamma) (parent : field_t) (x y p : Nat) :
    Option (gamma × Nat) :=
  (stack_push_bounded (g.width * g.height) g.stack x y).bind (fun s =>
    let g1 := { g with stack := s }
    let g2 := { g1 with visited := set2D g1.visited x y 1 }
    set_parent_dfs_loop_bounded parent p (g.width * g.height) g2 0)

/-- Body of the `for` loop of `init_visited` with the guarded `stack_push`. -/
def init_visited_step_bounded (f : field_t) (g : gamma) (i : Nat) : Option gamma :=
  let x_i := add32 f.x (x_dir i)
  let y_i := add32 f.y (y_dir i)
  if !wrong_field x_i y_i g && g.visited x_i y_i != 0 then
    let g1 := { g with visited := set2D g.visited x_i y_i 0 }
    (stack_push_bounded (g.width * g.height) g1.stack x_i y_i).map
      (fun s => { g1 with stack := s })
  else some g

/-- The `while` loop of `init_visited` with the guarded `stack_push`. -/
def init_visited_loop_bounded : Nat → gamma → Option gamma
  | 0, g => some g
  | fuel + 1, g =>
    if is_stack_empty g.stack then some g
    else
      let r := stack_pop g.stack
      let g1 := { g with stack := r.2 }
      (fold_bounded (init_visited_step_bounded r.1) (List.range DIRECTIONS) g1).bind
        (fun g2 => init_visited_loop_bounded fuel g2)

/-- Embeds `init_visited` with the guarded `stack_push`. -/
def init_visited_bounded (g : gamma) (x y : Nat) : Option gamma :=
  (stack_push_bounded (g.width * g.height) g.stack x y).bind (fun s =>
    let g1 := { g with stack := s }
    let g2 := { g1 with visited := set2D g1.visited x y 0 }
    init_visited_loop_bounded (g.width * g.height) g2)

/-- Body of the `for` loop of `delete_util` with the guarded `stack_push`. -/
def delete_util_step_bounded (x y player : Nat) (g : gamma) (i : Nat) : Option gamma :=
  let f_i : field_t := { x := add32 x (x_dir i), y := add32 y (y_dir i) }
  if dfs_condition g f_i.x f_i.y player then
    (set_parent_dfs_bounded g f_i f_i.x f_i.y player).map (fun r =>
      let g1 := inc_areas r.1 player
      { g1 with areas_size := set2D g1.areas_size f_i.x f_i.y r.2 })
  else some g

/-- Embeds `delete_util` with the guarded `stack_push`. -/
def delete_util_bounded (g : gamma) (x y player : Nat) : Option gamma :=
  let g1 := delete_field g player x y
  (fold_bounded (delete_util_step_bounded x y player) (List.range DIRECTIONS) g1).bind
    (fun g2 => init_visited_bounded g2 x y)

/-- The number of trials `golden_no_checking_nor_changing(g, player, i, j)` made by the
board scan of `gamma_golden_possible` over the listed cells: the scan stops at the first
trial that returns true. -/
def golden_possible_trials (player : Nat) : List (Nat × Nat) → gamma → Nat
  | [], _ => 0
  | (i, j) :: rest, g =>
    let r := golden_no_checking_nor_changing g player i j
    if r.1 then 1 else 1 + golden_possible_trials player rest r.2

/-! ## Counting the iterations of the loops -/

/-- The number of iterations of the `while (!is_stack_empty(g->stack))` loop of
`set_parent_dfs` started in `g`, each of which pops one cell, when at most `fuel` of them
are allowed. -/
def set_parent_dfs_pops (parent : field_t) (p : Nat) : Nat → gamma → Nat
  | 0, _ => 0
  | fuel + 1, g =>
    if is_stack_empty g.stack then 0
    else
      let r := stack_pop g.stack
      let g1 := { g with stack := r.2 }
      let g2 := { g1 with parents := set2D g1.parents r.1.x r.1.y parent }
      1 + set_parent_dfs_pops parent p fuel
        ((List.range DIRECTIONS).foldl (set_parent_dfs_step r.1 p) g2)

/-- The number of iterations of the `while (!is_stack_empty(g->stack))` loop of
`init_visited` started in `g`, each of which pops one cell, when at most `fuel` of them
are allowed. -/
def init_visited_pops : Nat → gamma → Nat
  | 0, _ => 0
  | fuel + 1, g =>
    if is_stack_empty g.stack then 0
    else
      let r := stack_pop g.stack
      let g1 := { g with stack := r.2 }
      1 + init_visited_pops fuel ((List.range DIRECTIONS).foldl (init_visited_step r.1) g1)

/-- The number of nested calls of `find_parent(g, f)`, the outermost included, when at
most `fuel` of them are allowed. -/
def find_parent_calls : Nat → gamma → field_t → Nat
  | 0, _, _ => 0
  | fuel + 1, g, f =>
    if field_equals f (g.parents f.x f.y) then 1
    else 1 + find_parent_calls fuel g (g.parents f.x f.y)

/-- The state of `set_parent_dfs(g, parent, x, y, p)` when its `while` loop starts: the
seed `(x, y)` pushed and marked. -/
def set_parent_dfs_start (g : gamma) (x y : Nat) : gamma :=
  let g1 := { g with stack := stack_push g.stack x y }
  { g1 with visited := set2D g1.visited x y 1 }

/-- The state of `init_visited(g, x, y)` when its `while` loop starts: the cell `(x, y)`
pushed and its marker cleared. -/
def init_visited_start (g : gamma) (x y : Nat) : gamma :=
  let g1 := { g with stack := stack_push g.stack x y }
  { g1 with visited := set2D g1.visited x y 0 }

/-- The number of owned cells of the board. -/
def owned_cells (g : gamma) : Nat := ((board g).filter (fun c => owner g c ≠ 0)).card

/-- The call `find_parent(g, f)` nests at most as many calls as there are owned cells, and
with that many calls allowed (or more) it yields the result of `find_parent`. -/
def find_parent_bounded (g : gamma) (f : field_t) : Prop :=
  (∀ n, find_parent_calls n g f ≤ owned_cells g) ∧
  ∀ n, owned_cells g ≤ n → find_parent_fuel n g f = find_parent g f

/-- The loop state of `move_util` before the iteration `i` of its `for` loop. -/
def move_loop_upto (g : gamma) (x y player i : Nat) : move_loop_t :=
  (List.range i).foldl (move_util_step x y player)
    { g := take_field g x y player, neigbours := fun _ => { x := 0, y := 0 }, l := 0 }

/-- The state of `delete_util` before the iteration `i` of its `for` loop. -/
def delete_loop_upto (g : gamma) (x y player i : Nat) : gamma :=
  (List.range i).foldl (delete_util_step x y player) (delete_field g player x y)

/-! ## Arrays, counters and cells -/

@[simp] theorem set2D_same {α : Type} (a : Nat → Nat → α) (x y : Nat) (v : α) :
    set2D a x y v x y = v := by simp [set2D]

theorem set2D_cell {α : Type} (a : Nat → Nat → α) (f c : field_t) (v : α) :
    set2D a f.x f.y v c.x c.y = if c = f then v else a c.x c.y := by
  unfold set2D
  by_cases h : c = f
  · subst h; simp
  · have : ¬ (c.x = f.x ∧ c.y = f.y) := by
      rintro ⟨h1, h2⟩
      apply h
      cases c; cases f; simp_all
    simp [h, this]

theorem set2D_xy {α : Type} (a : Nat → Nat → α) (x y : Nat) (c : field_t) (v : α) :
    set2D a x y v c.x c.y = if c = { x := x, y := y } then v else a c.x c.y :=
  set2D_cell a { x := x, y := y } c v

@[simp] theorem set1D_same {α : Type} (a : Nat → α) (i : Nat) (v : α) : set1D a i v i = v := by
  simp [set1D]

theorem set1D_ne {α : Type} (a : Nat → α) (i k : Nat) (v : α) (h : k ≠ i) :
    set1D a i v k = a k := by
  simp [set1D, h]

theorem field_equals_iff (a b : field_t) : field_equals a b = true ↔ a = b := by
  cases a; cases b; simp [field_equals]

theorem field_equals_false_iff (a b : field_t) : field_equals a b = false ↔ a ≠ b := by
  rw [Ne, ← field_equals_iff]; simp

theorem inc64_of_lt {n : Nat} (h : n + 1 < UINT64_MOD) : inc64 n = n + 1 := by
  unfold inc64; exact Nat.mod_eq_of_lt h

theorem dec64_of_pos {n : Nat} (h0 : 1 ≤ n) : dec64 n = n - 1 := by
  unfold dec64
  rw [if_neg (by omega)]

theorem dec64_lt {n : Nat} (h : n < UINT64_MOD) : dec64 n < UINT64_MOD := by
  unfold dec64 UINT64_MOD at *
  split <;> omega

theorem inc64_lt (n : Nat) : inc64 n < UINT64_MOD := by
  unfold inc64 UINT64_MOD
  omega

theorem dec64_inc64 {n : Nat} (h : n < UINT64_MOD) : dec64 (inc64 n) = n := by
  unfold dec64 inc64 UINT64_MOD at *
  split <;> omega

theorem inc64_dec64 {n : Nat} (h : n < UINT64_MOD) : inc64 (dec64 n) = n := by
  unfold dec64 inc64 UINT64_MOD at *
  split <;> omega

theorem mem_cells {w h : Nat} {c : field_t} : c ∈ cells w h ↔ c.x < w ∧ c.y < h := by
  unfold cells
  constructor
  · intro hc
    rcases Finset.mem_image.mp hc with ⟨q, hq, rfl⟩
    simpa using hq
  · intro hc
    exact Finset.mem_image.mpr ⟨(c.x, c.y), by simpa using hc, rfl⟩

theorem mem_board {g : gamma} {c : field_t} : c ∈ board g ↔ on_board g c := mem_cells

theorem card_cells (w h : Nat) : (cells w h).card = w * h := by
  unfold cells
  rw [Finset.card_image_of_injective]
  · simp
  · intro a b hab
    cases a; cases b
    simp only [field_t.mk.injEq] at hab
    simp [hab.1, hab.2]

theorem card_board (g : gamma) : (board g).card = g.width * g.height := card_cells _ _

theorem mem_cells_of {g : gamma} {p : Nat} {c : field_t} :
    c ∈ cells_of g p ↔ on_board g c ∧ owner g c = p := by
  simp [cells_of, mem_board]

theorem mem_roots {g : gamma} {p : Nat} {c : field_t} :
    c ∈ roots g p ↔ on_board g c ∧ owner g c = p ∧ par g c = c := by
  simp [roots, mem_board]

theorem card_cells_of_le (g : gamma) (p : Nat) : (cells_of g p).card ≤ g.width * g.height := by
  rw [← card_board]; exact Finset.card_filter_le _ _

theorem card_roots_le (g : gamma) (p : Nat) : (roots g p).card ≤ (cells_of g p).card := by
  apply Finset.card_le_card
  intro c hc
  rw [mem_roots] at hc
  rw [mem_cells_of]
  exact ⟨hc.1, hc.2.1⟩

/-! ## Geometry of the four directions -/

theorem adjacent_symm {a b : field_t} (h : adjacent a b) : adjacent b a := by
  unfold adjacent at *; omega

theorem adjacent_ne {a b : field_t} (h : adjacent a b) : a ≠ b := by
  rintro rfl
  unfold adjacent at h; omega

theorem range_directions : List.range DIRECTIONS = [0, 1, 2, 3] := by decide

theorem nbr_adjacent {g : gamma} {f : field_t} {i : Nat} (hw : g.width < UINT32_MOD)
    (hh : g.height < UINT32_MOD) (hf : on_board g f) (hi : i < 4)
    (hn : on_board g { x := add32 f.x (x_dir i), y := add32 f.y (y_dir i) }) :
    adjacent f { x := add32 f.x (x_dir i), y := add32 f.y (y_dir i) } := by
  unfold on_board at *
  unfold adjacent
  simp only at hn ⊢
  unfold add32 at *
  unfold UINT32_MOD at *
  have h4 : i = 0 ∨ i = 1 ∨ i = 2 ∨ i = 3 := by omega
  rcases h4 with rfl | rfl | rfl | rfl <;> simp only [x_dir, y_dir] at * <;> omega

theorem adjacent_nbr {g : gamma} {f d : field_t} (hw : g.width < UINT32_MOD)
    (hh : g.height < UINT32_MOD) (hf : on_board g f) (hd : on_board g d) (ha : adjacent f d) :
    ∃ i, i < 4 ∧ d = { x := add32 f.x (x_dir i), y := add32 f.y (y_dir i) } := by
  unfold on_board at *
  unfold adjacent at ha
  cases d with
  | mk dx dy =>
    simp only at ha hd
    unfold add32
    unfold UINT32_MOD at hw hh
    rcases ha with ⟨h1, h2 | h2⟩ | ⟨h1, h2 | h2⟩
    · refine ⟨0, by omega, ?_⟩
      simp only [x_dir, y_dir, field_t.mk.injEq]; omega
    · refine ⟨2, by omega, ?_⟩
      simp only [x_dir, y_dir, field_t.mk.injEq]; omega
    · refine ⟨1, by omega, ?_⟩
      simp only [x_dir, y_dir, field_t.mk.injEq]; omega
    · refine ⟨3, by omega, ?_⟩
      simp only [x_dir, y_dir, field_t.mk.injEq]; omega

theorem wrong_field_false_iff {g : gamma} {x y : Nat} :
    wrong_field x y g = false ↔ on_board g { x := x, y := y } := by
  simp [wrong_field, on_board]

theorem wrong_player_false_iff {g : gamma} {p : Nat} :
    wrong_player p g = false ↔ valid_player g p := by
  simp [wrong_player, valid_player]; omega

/-! ## Connection on the board -/

theorem link_symm {g : gamma} {p : Nat} {a b : field_t} (h : link g p a b) : link g p b a :=
  ⟨adjacent_symm h.1, h.2.2, h.2.1⟩

theorem Conn.conn_refl (g : gamma) (p : Nat) (a : field_t) : Conn g p a a :=
  Relation.ReflTransGen.refl

theorem Conn.conn_trans {g : gamma} {p : Nat} {a b c : field_t} (h1 : Conn g p a b)
    (h2 : Conn g p b c) : Conn g p a c :=
  Relation.ReflTransGen.trans h1 h2

theorem Conn.conn_symm {g : gamma} {p : Nat} {a b : field_t} (h : Conn g p a b) : Conn g p b a := by
  induction h with
  | refl => exact Relation.ReflTransGen.refl
  | tail _ hbc ih => exact Relation.ReflTransGen.head (link_symm hbc) ih

theorem Conn.single {g : gamma} {p : Nat} {a b : field_t} (h : link g p a b) : Conn g p a b :=
  Relation.ReflTransGen.single h

theorem Conn.owns_right {g : gamma} {p : Nat} {a b : field_t} (h : Conn g p a b)
    (ha : owns g p a) : owns g p b := by
  induction h with
  | refl => exact ha
  | tail _ hbc _ => exact hbc.2.2

theorem Conn.owns_left {g : gamma} {p : Nat} {a b : field_t} (h : Conn g p a b)
    (hb : owns g p b) : owns g p a :=
  h.conn_symm.owns_right hb

theorem Conn.conn_mono {g g1 : gamma} {p : Nat} (hsub : ∀ c, owns g p c → owns g1 p c)
    {a b : field_t} (h : Conn g p a b) : Conn g1 p a b :=
  Relation.ReflTransGen.mono (fun _ _ hl => ⟨hl.1, hsub _ hl.2.1, hsub _ hl.2.2⟩) h

/-- Two states with the same board dimensions and the same owner entries. -/
theorem owns_congr {g g1 : gamma} (hw : g1.width = g.width) (hh : g1.height = g.height)
    (hp : g1.player_arr = g.player_arr) (p : Nat) (c : field_t) : owns g1 p c ↔ owns g p c := by
  simp [owns, on_board, owner, hw, hh, hp]

theorem Conn_congr {g g1 : gamma} (hw : g1.width = g.width) (hh : g1.height = g.height)
    (hp : g1.player_arr = g.player_arr) (p : Nat) (a b : field_t) :
    Conn g1 p a b ↔ Conn g p a b :=
  ⟨Conn.conn_mono (fun c hc => (owns_congr hw hh hp p c).mp hc),
   Conn.conn_mono (fun c hc => (owns_congr hw hh hp p c).mpr hc)⟩

theorem live_congr {g g1 : gamma} (hw : g1.width = g.width) (hh : g1.height = g.height)
    (hp : g1.player_arr = g.player_arr) (D : field_t → Prop) (c : field_t) :
    live g1 D c ↔ live g D c := by
  simp [live, on_board, owner, hw, hh, hp]

theorem area_mk_eq_of_conn {g : gamma} {p : Nat} {a b : field_t} (h : Conn g p a b)
    (ha : owns g p a) (hb : owns g p b) :
    (Quot.mk _ ⟨a, ha⟩ : Area g p) = Quot.mk _ ⟨b, hb⟩ := by
  induction h with
  | refl => rfl
  | tail hab hbc ih =>
    exact (ih hbc.2.1).trans (Quot.sound hbc.1)

theorem conn_of_area_mk_eq {g : gamma} {p : Nat} {a b : { c : field_t // owns g p c }}
    (h : (Quot.mk _ a : Area g p) = Quot.mk _ b) : Conn g p a.1 b.1 := by
  have h2 := Quot.eqvGen_exact h
  clear h
  induction h2 with
  | rel x y hxy => exact Conn.single ⟨hxy, x.2, y.2⟩
  | refl x => exact Conn.conn_refl _ _ _
  | symm x y _ ih => exact ih.conn_symm
  | trans x y z _ _ ih1 ih2 => exact ih1.conn_trans ih2

/-- Counting areas through a system of representatives: if `rep` sends every cell of `p`
to a connected cell of the finite set `R`, fixes `R` and agrees on adjacent cells, then `p`
has exactly `R.card` areas. -/
theorem card_area_eq {g : gamma} {p : Nat} (R : Finset field_t) (rep : field_t → field_t)
    (h1 : ∀ c, owns g p c → rep c ∈ R)
    (h2 : ∀ r, r ∈ R → owns g p r ∧ rep r = r)
    (h3 : ∀ c, owns g p c → Conn g p c (rep c))
    (h4 : ∀ a b, owns g p a → owns g p b → adjacent a b → rep a = rep b) :
    Nat.card (Area g p) = R.card := by
  have e : Area g p ≃ { r : field_t // r ∈ R } :=
    { toFun := Quot.lift (fun c => (⟨rep c.1, h1 c.1 c.2⟩ : { r : field_t // r ∈ R }))
        (fun a b hab => Subtype.ext (h4 a.1 b.1 a.2 b.2 hab))
      invFun := fun r => Quot.mk _ ⟨r.1, (h2 r.1 r.2).1⟩
      left_inv := by
        intro q
        induction q using Quot.ind with
        | mk c =>
          exact (area_mk_eq_of_conn (h3 c.1 c.2) c.2 (h2 _ (h1 c.1 c.2)).1).symm
      right_inv := by
        intro r
        exact Subtype.ext (h2 r.1 r.2).2 }
  rw [Nat.card_congr e, Nat.card_eq_fintype_card, Fintype.card_coe]

/-! ## The area forest: `find_parent` -/

theorem rank_filter_lt {g : gamma} {rk : field_t → Nat} {c d : field_t} (hd : on_board g d)
    (hlt : rk c < rk d) :
    ((board g).filter (fun e => rk d < rk e)).card <
      ((board g).filter (fun e => rk c < rk e)).card := by
  apply Finset.card_lt_card
  rw [Finset.ssubset_iff_of_subset]
  · refine ⟨d, ?_, ?_⟩
    · simp [mem_board, hd, hlt]
    · simp
  · intro e he
    simp only [Finset.mem_filter] at he ⊢
    exact ⟨he.1, lt_trans hlt he.2⟩

theorem rank_filter_lt_board {g : gamma} {rk : field_t → Nat} {c : field_t}
    (hc : on_board g c) :
    ((board g).filter (fun e => rk c < rk e)).card < g.width * g.height := by
  rw [← card_board]
  apply Finset.card_lt_card
  rw [Finset.ssubset_iff_of_subset (Finset.filter_subset _ _)]
  exact ⟨c, mem_board.mpr hc, by simp⟩

/-- With enough fuel `find_parent` returns the root of the cell and changes nothing but
parent entries, each of which either stays or becomes the root of its cell. -/
theorem find_parent_fuel_spec {g : gamma} {D : field_t → Prop} {rep : field_t → field_t}
    {rk : field_t → Nat} (hF : ForestOn g D rep rk) :
    ∀ (n : Nat) (c : field_t), live g D c →
      ((board g).filter (fun e => rk c < rk e)).card < n →
      ∃ ps : Nat → Nat → field_t,
        find_parent_fuel n g c = ({ g with parents := ps }, rep c) ∧
        ∀ d : field_t, ps d.x d.y = par g d ∨ (live g D d ∧ ps d.x d.y = rep d) := by
  intro n
  induction n with
  | zero => intro c _ h; exact absurd h (Nat.not_lt_zero _)
  | succ n ih =>
    intro c hc hn
    unfold find_parent_fuel
    by_cases hroot : c = g.parents c.x c.y
    · have h1 : field_equals c (g.parents c.x c.y) = true := (field_equals_iff _ _).mpr hroot
      have h2 : rep c = c := hF.rep_self c hc hroot.symm
      refine ⟨g.parents, ?_, fun d => Or.inl rfl⟩
      rw [if_pos h1, ← hroot, h2]
    · have h1 : ¬ (field_equals c (g.parents c.x c.y) = true) := by
        rw [field_equals_iff]; exact hroot
      rw [if_neg h1]
      have hp := hF.par_live c hc
      have hlt : rk c < rk (par g c) := hF.rank_lt c hc (fun h => hroot h.symm)
      have hcard := rank_filter_lt (g := g) hp.1.2.1 hlt
      obtain ⟨ps, hps1, hps2⟩ := ih (par g c) hp.1 (by omega)
      have hrep : rep (par g c) = rep c := hF.rep_par c hc
      change find_parent_fuel n g (par g c) = _ at hps1
      change ∃ ps1, ({ (find_parent_fuel n g (par g c)).1 with
        parents := set2D (find_parent_fuel n g (par g c)).1.parents c.x c.y
          (find_parent_fuel n g (par g c)).2 }, (find_parent_fuel n g (par g c)).2) = _ ∧ _
      rw [hps1, hrep]
      refine ⟨set2D ps c.x c.y (rep c), rfl, ?_⟩
      intro d
      rw [set2D_cell]
      by_cases hdc : d = c
      · subst hdc
        rw [if_pos rfl]
        exact Or.inr ⟨hc, rfl⟩
      · rw [if_neg hdc]
        exact hps2 d

theorem find_parent_spec {g : gamma} {D : field_t → Prop} {rep : field_t → field_t}
    {rk : field_t → Nat} (hF : ForestOn g D rep rk) (c : field_t) (hc : live g D c) :
    ∃ ps : Nat → Nat → field_t,
      find_parent g c = ({ g with parents := ps }, rep c) ∧
      ∀ d : field_t, ps d.x d.y = par g d ∨ (live g D d ∧ ps d.x d.y = rep d) :=
  find_parent_fuel_spec hF _ c hc (rank_filter_lt_board hc.2.1)

theorem ForestOn.rep_rep {g : gamma} {D : field_t → Prop} {rep : field_t → field_t}
    {rk : field_t → Nat} (hF : ForestOn g D rep rk) (c : field_t) (hc : live g D c) :
    rep (rep c) = rep c :=
  hF.rep_self (rep c) (hF.rep_live c hc).1 (hF.rep_root c hc)

/-- Path compression keeps the forest and its roots. -/
theorem ForestOn.compress {g : gamma} {D : field_t → Prop} {rep : field_t → field_t}
    {rk : field_t → Nat} (hF : ForestOn g D rep rk) (ps : Nat → Nat → field_t)
    (hps : ∀ d : field_t, live g D d → (ps d.x d.y = par g d ∨ ps d.x d.y = rep d)) :
    ForestOn { g with parents := ps } D rep rk := by
  have hl : ∀ c, live { g with parents := ps } D c ↔ live g D c := fun c => Iff.rfl
  have ho : ∀ c, owner { g with parents := ps } c = owner g c := fun c => rfl
  have hpar : ∀ c, par { g with parents := ps } c = ps c.x c.y := fun c => rfl
  have hconn : ∀ p a b, Conn { g with parents := ps } p a b ↔ Conn g p a b :=
    fun p a b => Conn_congr rfl rfl rfl p a b
  constructor
  · intro c hc
    rw [hl] at hc
    rw [hpar, hl, ho, ho]
    rcases hps c hc with h | h
    · rw [h]; exact hF.par_live c hc
    · rw [h]; exact hF.rep_live c hc
  · intro c hc hne
    rw [hl] at hc
    rw [hpar] at hne ⊢
    rcases hps c hc with h | h
    · rw [h] at hne ⊢; exact hF.rank_lt c hc hne
    · rw [h] at hne ⊢; exact hF.rank_rep c hc hne
  · intro c hc
    rw [hl] at hc
    rw [hpar]
    rcases hps c hc with h | h
    · rw [h]; exact hF.rep_par c hc
    · rw [h]; exact hF.rep_rep c hc
  · intro c hc hself
    rw [hl] at hc
    rw [hpar] at hself
    rcases hps c hc with h | h
    · rw [h] at hself; exact hF.rep_self c hc hself
    · rw [h] at hself; exact hself
  · intro c hc
    rw [hl] at hc
    rw [hl, ho, ho]
    exact hF.rep_live c hc
  · intro c hc
    rw [hl] at hc
    rw [hpar]
    have hr := (hF.rep_live c hc).1
    rcases hps (rep c) hr with h | h
    · rw [h]; exact hF.rep_root c hc
    · rw [h]; exact hF.rep_rep c hc
  · intro c hc
    rw [hl] at hc
    rw [hconn, ho]
    exact hF.rep_conn c hc
  · intro a b ha hb hab hadj
    rw [hl] at ha hb
    exact hF.rep_adj a b ha hb hab hadj
  · intro c hc hne
    rw [hl] at hc
    exact hF.rank_rep c hc hne

/-- Path compression does not change which cells are roots. -/
theorem compress_root_iff {g : gamma} {D : field_t → Prop} {rep : field_t → field_t}
    {rk : field_t → Nat} (hF : ForestOn g D rep rk) (ps : Nat → Nat → field_t)
    (hps : ∀ d : field_t, live g D d → (ps d.x d.y = par g d ∨ ps d.x d.y = rep d))
    (c : field_t) (hc : live g D c) : ps c.x c.y = c ↔ par g c = c := by
  rcases hps c hc with h | h
  · rw [h]
  · rw [h]
    constructor
    · intro h2
      have := hF.rep_root c hc
      rw [h2] at this
      exact this
    · intro h2
      exact hF.rep_self c hc h2

/-! ## The area forest: frame and union -/

/-- The forest only reads the dimensions, the owners and the parents. -/
theorem ForestOn.forest_congr {g g1 : gamma} {D : field_t → Prop} {rep : field_t → field_t}
    {rk : field_t → Nat} (hF : ForestOn g D rep rk) (hw : g1.width = g.width)
    (hh : g1.height = g.height) (hp : g1.player_arr = g.player_arr)
    (hpar : g1.parents = g.parents) : ForestOn g1 D rep rk := by
  cases g; cases g1
  simp only at hw hh hp hpar
  subst hw hh hp hpar
  exact ⟨hF.par_live, hF.rank_lt, hF.rep_par, hF.rep_self, hF.rep_live, hF.rep_root,
    hF.rep_conn, hF.rep_adj, hF.rank_rep⟩

theorem roots_in_congr {g g1 : gamma} (D : field_t → Prop) [DecidablePred D] (p : Nat)
    (hw : g1.width = g.width) (hh : g1.height = g.height)
    (hp : g1.player_arr = g.player_arr) (hpar : g1.parents = g.parents) :
    roots_in g1 D p = roots_in g D p := by
  cases g; cases g1
  simp only at hw hh hp hpar
  subst hw hh hp hpar
  rfl

theorem mem_roots_in {g : gamma} {D : field_t → Prop} [DecidablePred D] {p : Nat}
    {c : field_t} : c ∈ roots_in g D p ↔ on_board g c ∧ D c ∧ owner g c = p ∧ par g c = c := by
  simp [roots_in, mem_board]

theorem roots_in_true (g : gamma) (p : Nat) : roots_in g (fun _ => True) p = roots g p := by
  ext c
  simp [mem_roots_in, mem_roots]

@[simp] theorem union_areas_width (g : gamma) (a b : field_t) :
    (union_areas g a b).width = g.width := rfl
@[simp] theorem union_areas_height (g : gamma) (a b : field_t) :
    (union_areas g a b).height = g.height := rfl
@[simp] theorem union_areas_num_of_players (g : gamma) (a b : field_t) :
    (union_areas g a b).num_of_players = g.num_of_players := rfl
@[simp] theorem union_areas_max (g : gamma) (a b : field_t) :
    (union_areas g a b).max_num_of_areas = g.max_num_of_areas := rfl
@[simp] theorem union_areas_empty_fields (g : gamma) (a b : field_t) :
    (union_areas g a b).empty_fields = g.empty_fields := rfl
@[simp] theorem union_areas_players (g : gamma) (a b : field_t) :
    (union_areas g a b).players = g.players := rfl
@[simp] theorem union_areas_player_arr (g : gamma) (a b : field_t) :
    (union_areas g a b).player_arr = g.player_arr := rfl
@[simp] theorem union_areas_visited (g : gamma) (a b : field_t) :
    (union_areas g a b).visited = g.visited := rfl
@[simp] theorem union_areas_stack (g : gamma) (a b : field_t) :
    (union_areas g a b).stack = g.stack := rfl
theorem union_areas_parents (g : gamma) (a b : field_t) :
    (union_areas g a b).parents = set2D g.parents b.x b.y a := rfl

theorem union_areas_par (g : gamma) (a b c : field_t) :
    par (union_areas g a b) c = if c = b then a else par g c := by
  unfold par
  rw [union_areas_parents, set2D_cell]

@[simp] theorem dec_areas_width (g : gamma) (p : Nat) : (dec_areas g p).width = g.width := rfl
@[simp] theorem dec_areas_height (g : gamma) (p : Nat) : (dec_areas g p).height = g.height := rfl
@[simp] theorem dec_areas_num_of_players (g : gamma) (p : Nat) :
    (dec_areas g p).num_of_players = g.num_of_players := rfl
@[simp] theorem dec_areas_max (g : gamma) (p : Nat) :
    (dec_areas g p).max_num_of_areas = g.max_num_of_areas := rfl
@[simp] theorem dec_areas_empty_fields (g : gamma) (p : Nat) :
    (dec_areas g p).empty_fields = g.empty_fields := rfl
@[simp] theorem dec_areas_player_arr (g : gamma) (p : Nat) :
    (dec_areas g p).player_arr = g.player_arr := rfl
@[simp] theorem dec_areas_parents (g : gamma) (p : Nat) :
    (dec_areas g p).parents = g.parents := rfl
@[simp] theorem dec_areas_areas_size (g : gamma) (p : Nat) :
    (dec_areas g p).areas_size = g.areas_size := rfl
@[simp] theorem dec_areas_visited (g : gamma) (p : Nat) :
    (dec_areas g p).visited = g.visited := rfl
@[simp] theorem dec_areas_stack (g : gamma) (p : Nat) : (dec_areas g p).stack = g.stack := rfl
theorem dec_areas_players (g : gamma) (p : Nat) :
    (dec_areas g p).players = set1D g.players (p - 1)
      { g.players (p - 1) with num_of_areas := dec64 (g.players (p - 1)).num_of_areas } := rfl

@[simp] theorem inc_areas_width (g : gamma) (p : Nat) : (inc_areas g p).width = g.width := rfl
@[simp] theorem inc_areas_height (g : gamma) (p : Nat) : (inc_areas g p).height = g.height := rfl
@[simp] theorem inc_areas_num_of_players (g : gamma) (p : Nat) :
    (inc_areas g p).num_of_players = g.num_of_players := rfl
@[simp] theorem inc_areas_max (g : gamma) (p : Nat) :
    (inc_areas g p).max_num_of_areas = g.max_num_of_areas := rfl
@[simp] theorem inc_areas_empty_fields (g : gamma) (p : Nat) :
    (inc_areas g p).empty_fields = g.empty_fields := rfl
@[simp] theorem inc_areas_player_arr (g : gamma) (p : Nat) :
    (inc_areas g p).player_arr = g.player_arr := rfl
@[simp] theorem inc_areas_parents (g : gamma) (p : Nat) :
    (inc_areas g p).parents = g.parents := rfl
@[simp] theorem inc_areas_areas_size (g : gamma) (p : Nat) :
    (inc_areas g p).areas_size = g.areas_size := rfl
@[simp] theorem inc_areas_visited (g : gamma) (p : Nat) :
    (inc_areas g p).visited = g.visited := rfl
@[simp] theorem inc_areas_stack (g : gamma) (p : Nat) : (inc_areas g p).stack = g.stack := rfl
theorem inc_areas_players (g : gamma) (p : Nat) :
    (inc_areas g p).players = set1D g.players (p - 1)
      { g.players (p - 1) with num_of_areas := inc64 (g.players (p - 1)).num_of_areas } := rfl

/-- Merging the tree of the root `r2` into the tree of the root `r1`. -/
theorem union_areas_forest {g : gamma} {D : field_t → Prop} {rep : field_t → field_t}
    {rk : field_t → Nat} (hF : ForestOn g D rep rk) {r1 r2 : field_t}
    (h1 : live g D r1) (h2 : live g D r2) (hr1 : par g r1 = r1) (hr2 : par g r2 = r2)
    (hne : r1 ≠ r2) (ho : owner g r1 = owner g r2) (hconn : Conn g (owner g r2) r2 r1) :
    ForestOn (union_areas g r1 r2) D (fun c => if rep c = r2 then r1 else rep c)
      (fun c => if c = r1 then max (rk r1) (rk r2 + 1) else rk c) := by
  have hl : ∀ c, live (union_areas g r1 r2) D c ↔ live g D c := fun c => Iff.rfl
  have hown : ∀ c, owner (union_areas g r1 r2) c = owner g c := fun c => rfl
  have hconn2 : ∀ p a b, Conn (union_areas g r1 r2) p a b ↔ Conn g p a b :=
    fun p a b => Conn_congr rfl rfl rfl p a b
  have e1 : rep r1 = r1 := hF.rep_self r1 h1 hr1
  have e2 : rep r2 = r2 := hF.rep_self r2 h2 hr2
  have hrk_le : ∀ c, rk c ≤ (if c = r1 then max (rk r1) (rk r2 + 1) else rk c) := by
    intro c
    by_cases h : c = r1
    · subst h; simp
    · simp [h]
  constructor
  · intro c hc
    rw [hl] at hc
    rw [union_areas_par, hl, hown, hown]
    by_cases hc2 : c = r2
    · subst hc2
      rw [if_pos rfl]
      exact ⟨h1, ho⟩
    · rw [if_neg hc2]
      exact hF.par_live c hc
  · intro c hc hpne
    rw [hl] at hc
    rw [union_areas_par] at hpne ⊢
    by_cases hc2 : c = r2
    · subst hc2
      rw [if_pos rfl]
      simp only [if_neg hne.symm, if_true]
      omega
    · rw [if_neg hc2] at hpne ⊢
      have hc1 : c ≠ r1 := by
        rintro rfl
        exact hpne hr1
      have := hF.rank_lt c hc hpne
      have := hrk_le (par g c)
      simp only [if_neg hc1]
      omega
  · intro c hc
    rw [hl] at hc
    rw [union_areas_par]
    by_cases hc2 : c = r2
    · subst hc2
      rw [if_pos rfl]
      simp only [e1, e2, if_true, if_neg hne]
    · rw [if_neg hc2]
      simp only [hF.rep_par c hc]
  · intro c hc hself
    rw [hl] at hc
    rw [union_areas_par] at hself
    by_cases hc2 : c = r2
    · subst hc2
      rw [if_pos rfl] at hself
      exact absurd hself hne
    · rw [if_neg hc2] at hself
      have := hF.rep_self c hc hself
      simp only [this, if_neg hc2]
  · intro c hc
    rw [hl] at hc
    rw [hl, hown, hown]
    by_cases hr : rep c = r2
    · simp only [if_pos hr]
      have := hF.rep_live c hc
      rw [hr] at this
      exact ⟨h1, ho.trans this.2⟩
    · simp only [if_neg hr]
      exact hF.rep_live c hc
  · intro c hc
    rw [hl] at hc
    rw [union_areas_par]
    by_cases hr : rep c = r2
    · simp only [if_pos hr, if_neg hne]
      exact hr1
    · simp only [if_neg hr]
      exact hF.rep_root c hc
  · intro c hc
    rw [hl] at hc
    rw [hconn2, hown]
    by_cases hr : rep c = r2
    · simp only [if_pos hr]
      have h3 := hF.rep_conn c hc
      have h4 := (hF.rep_live c hc).2
      rw [hr] at h3 h4
      rw [← h4] at h3 ⊢
      exact h3.conn_trans hconn
    · simp only [if_neg hr]
      exact hF.rep_conn c hc
  · intro a b ha hb hab hadj
    rw [hl] at ha hb
    rw [hown, hown] at hab
    simp only [hF.rep_adj a b ha hb hab hadj]
  · intro c hc hrne
    rw [hl] at hc
    by_cases hr : rep c = r2
    · simp only [if_pos hr] at hrne ⊢
      have hc1 : c ≠ r1 := fun h => hrne h.symm
      simp only [if_neg hc1, if_true]
      by_cases hc2 : c = r2
      · subst hc2; omega
      · have := hF.rank_rep c hc (by rw [hr]; exact fun h => hc2 h.symm)
        rw [hr] at this
        omega
    · simp only [if_neg hr] at hrne ⊢
      have hc1 : c ≠ r1 := by
        rintro rfl
        exact hrne e1
      simp only [if_neg hc1]
      have := hF.rank_rep c hc hrne
      have := hrk_le (rep c)
      omega

/-- The merge removes exactly the absorbed root from the roots of its owner. -/
theorem union_areas_roots {g : gamma} (D : field_t → Prop) [DecidablePred D] {r1 r2 : field_t}
    (p : Nat) (hne : r1 ≠ r2) :
    roots_in (union_areas g r1 r2) D p = (roots_in g D p).erase r2 := by
  ext c
  rw [Finset.mem_erase, mem_roots_in, mem_roots_in, union_areas_par]
  change on_board g c ∧ D c ∧ owner g c = p ∧ _ ↔ _
  by_cases hc2 : c = r2
  · subst hc2
    simp [hne]
  · simp [hc2]

/-! ## Frames -/

theorem FrameP.framep_refl (p : Nat) (g : gamma) : FrameP p g g :=
  ⟨rfl, rfl, rfl, rfl, rfl, rfl, rfl, rfl, fun _ => rfl, fun _ => rfl, fun _ _ => rfl⟩

theorem FrameP.framep_trans {p : Nat} {g h k : gamma} (h1 : FrameP p g h) (h2 : FrameP p h k) :
    FrameP p g k :=
  ⟨h2.width.trans h1.width, h2.height.trans h1.height,
   h2.num_of_players.trans h1.num_of_players, h2.max_num_of_areas.trans h1.max_num_of_areas,
   h2.empty_fields.trans h1.empty_fields, h2.player_arr.trans h1.player_arr,
   h2.visited.trans h1.visited, h2.stack.trans h1.stack,
   fun i => (h2.busy i).trans (h1.busy i), fun i => (h2.golden i).trans (h1.golden i),
   fun i hi => (h2.areas i hi).trans (h1.areas i hi)⟩

theorem FrameP.parents (p : Nat) (g : gamma) (ps : Nat → Nat → field_t) :
    FrameP p g { g with parents := ps } :=
  ⟨rfl, rfl, rfl, rfl, rfl, rfl, rfl, rfl, fun _ => rfl, fun _ => rfl, fun _ _ => rfl⟩

theorem FrameP.areas_size (p : Nat) (g : gamma) (sz : Nat → Nat → Nat) :
    FrameP p g { g with areas_size := sz } :=
  ⟨rfl, rfl, rfl, rfl, rfl, rfl, rfl, rfl, fun _ => rfl, fun _ => rfl, fun _ _ => rfl⟩

theorem FrameP.union_areas (p : Nat) (g : gamma) (a b : field_t) :
    FrameP p g (union_areas g a b) :=
  ⟨rfl, rfl, rfl, rfl, rfl, rfl, rfl, rfl, fun _ => rfl, fun _ => rfl, fun _ _ => rfl⟩

theorem dec_areas_players_ne (g : gamma) (p i : Nat) (h : i ≠ p - 1) :
    (dec_areas g p).players i = g.players i := by
  rw [dec_areas_players, set1D_ne _ _ _ _ h]

theorem dec_areas_players_same (g : gamma) (p : Nat) :
    (dec_areas g p).players (p - 1) =
      { g.players (p - 1) with num_of_areas := dec64 (g.players (p - 1)).num_of_areas } := by
  rw [dec_areas_players, set1D_same]

theorem inc_areas_players_ne (g : gamma) (p i : Nat) (h : i ≠ p - 1) :
    (inc_areas g p).players i = g.players i := by
  rw [inc_areas_players, set1D_ne _ _ _ _ h]

theorem inc_areas_players_same (g : gamma) (p : Nat) :
    (inc_areas g p).players (p - 1) =
      { g.players (p - 1) with num_of_areas := inc64 (g.players (p - 1)).num_of_areas } := by
  rw [inc_areas_players, set1D_same]

theorem FrameP.dec_areas (p : Nat) (g : gamma) : FrameP p g (dec_areas g p) := by
  refine ⟨rfl, rfl, rfl, rfl, rfl, rfl, rfl, rfl, ?_, ?_, ?_⟩
  · intro i
    by_cases h : i = p - 1
    · subst h; rw [dec_areas_players_same]
    · rw [dec_areas_players_ne _ _ _ h]
  · intro i
    by_cases h : i = p - 1
    · subst h; rw [dec_areas_players_same]
    · rw [dec_areas_players_ne _ _ _ h]
  · intro i h
    rw [dec_areas_players_ne _ _ _ h]

theorem FrameP.inc_areas (p : Nat) (g : gamma) : FrameP p g (inc_areas g p) := by
  refine ⟨rfl, rfl, rfl, rfl, rfl, rfl, rfl, rfl, ?_, ?_, ?_⟩
  · intro i
    by_cases h : i = p - 1
    · subst h; rw [inc_areas_players_same]
    · rw [inc_areas_players_ne _ _ _ h]
  · intro i
    by_cases h : i = p - 1
    · subst h; rw [inc_areas_players_same]
    · rw [inc_areas_players_ne _ _ _ h]
  · intro i h
    rw [inc_areas_players_ne _ _ _ h]

theorem FrameP.live_iff {p : Nat} {g h : gamma} (hf : FrameP p g h) (D : field_t → Prop)
    (c : field_t) : live h D c ↔ live g D c :=
  live_congr hf.width hf.height hf.player_arr D c

theorem FrameP.framep_owner_eq {p : Nat} {g h : gamma} (hf : FrameP p g h) (c : field_t) :
    owner h c = owner g c := by
  unfold owner; rw [hf.player_arr]

theorem FrameP.framep_on_board_iff {p : Nat} {g h : gamma} (hf : FrameP p g h) (c : field_t) :
    on_board h c ↔ on_board g c := by
  unfold on_board; rw [hf.width, hf.height]

theorem FrameP.framep_owns_iff {p : Nat} {g h : gamma} (hf : FrameP p g h) (q : Nat) (c : field_t) :
    owns h q c ↔ owns g q c :=
  owns_congr hf.width hf.height hf.player_arr q c

theorem FrameP.framep_conn_iff {p : Nat} {g h : gamma} (hf : FrameP p g h) (q : Nat)
    (a b : field_t) : Conn h q a b ↔ Conn g q a b :=
  Conn_congr hf.width hf.height hf.player_arr q a b

/-! ## Roots under path compression -/

theorem roots_in_compress {g : gamma} {D : field_t → Prop} [DecidablePred D]
    {rep : field_t → field_t} {rk : field_t → Nat} (hF : ForestOn g D rep rk)
    (ps : Nat → Nat → field_t)
    (hps : ∀ d : field_t, live g D d → (ps d.x d.y = par g d ∨ ps d.x d.y = rep d))
    (p : Nat) (hp : p ≠ 0) :
    roots_in { g with parents := ps } D p = roots_in g D p := by
  ext c
  rw [mem_roots_in, mem_roots_in]
  change on_board g c ∧ D c ∧ owner g c = p ∧ ps c.x c.y = c ↔ _
  constructor
  · rintro ⟨h1, h2, h3, h4⟩
    have hl : live g D c := ⟨h2, h1, by rw [h3]; exact hp⟩
    exact ⟨h1, h2, h3, (compress_root_iff hF ps hps c hl).mp h4⟩
  · rintro ⟨h1, h2, h3, h4⟩
    have hl : live g D c := ⟨h2, h1, by rw [h3]; exact hp⟩
    exact ⟨h1, h2, h3, (compress_root_iff hF ps hps c hl).mpr h4⟩

/-! ## `take_field` -/

@[simp] theorem take_field_width (g : gamma) (x y p : Nat) :
    (take_field g x y p).width = g.width := rfl
@[simp] theorem take_field_height (g : gamma) (x y p : Nat) :
    (take_field g x y p).height = g.height := rfl
@[simp] theorem take_field_num_of_players (g : gamma) (x y p : Nat) :
    (take_field g x y p).num_of_players = g.num_of_players := rfl
@[simp] theorem take_field_max (g : gamma) (x y p : Nat) :
    (take_field g x y p).max_num_of_areas = g.max_num_of_areas := rfl
@[simp] theorem take_field_parents (g : gamma) (x y p : Nat) :
    (take_field g x y p).parents = g.parents := rfl
@[simp] theorem take_field_areas_size (g : gamma) (x y p : Nat) :
    (take_field g x y p).areas_size = g.areas_size := rfl
@[simp] theorem take_field_visited (g : gamma) (x y p : Nat) :
    (take_field g x y p).visited = g.visited := rfl
@[simp] theorem take_field_stack (g : gamma) (x y p : Nat) :
    (take_field g x y p).stack = g.stack := rfl
theorem take_field_player_arr (g : gamma) (x y p : Nat) :
    (take_field g x y p).player_arr = set2D g.player_arr x y p := rfl
theorem take_field_empty_fields (g : gamma) (x y p : Nat) :
    (take_field g x y p).empty_fields = dec64 g.empty_fields := rfl

theorem take_field_players_ne (g : gamma) (x y p i : Nat) (h : i ≠ p - 1) :
    (take_field g x y p).players i = g.players i := by
  change set1D _ _ _ i = _
  exact set1D_ne _ _ _ _ h

theorem take_field_players_same (g : gamma) (x y p : Nat) :
    (take_field g x y p).players (p - 1) =
      { has_played_golden_move := (g.players (p - 1)).has_played_golden_move,
        num_of_areas := inc64 (g.players (p - 1)).num_of_areas,
        busy_fields := inc64 (g.players (p - 1)).busy_fields } := by
  change set1D _ _ _ (p - 1) = _
  rw [set1D_same]

theorem take_field_owner (g : gamma) (x y p : Nat) (c : field_t) :
    owner (take_field g x y p) c = if c = { x := x, y := y } then p else owner g c := by
  unfold owner
  rw [take_field_player_arr, set2D_xy]

theorem take_field_on_board (g : gamma) (x y p : Nat) (c : field_t) :
    on_board (take_field g x y p) c ↔ on_board g c := Iff.rfl

theorem take_field_par (g : gamma) (x y p : Nat) (c : field_t) :
    par (take_field g x y p) c = par g c := rfl

/-- After `take_field` the old forest is a forest of the region without the new cell. -/
theorem take_field_forest {g : gamma} {rep : field_t → field_t} {rk : field_t → Nat}
    (hF : ForestOn g (fun _ => True) rep rk) (x y p : Nat)
    (hfree : owner g { x := x, y := y } = 0) :
    ForestOn (take_field g x y p) (fun c => c ≠ { x := x, y := y }) rep rk := by
  have hl : ∀ c, live (take_field g x y p) (fun c => c ≠ { x := x, y := y }) c →
      live g (fun _ => True) c ∧ c ≠ { x := x, y := y } ∧
        owner (take_field g x y p) c = owner g c := by
    intro c hc
    obtain ⟨h1, h2, h3⟩ := hc
    rw [take_field_owner, if_neg h1] at h3
    exact ⟨⟨trivial, h2, h3⟩, h1, by rw [take_field_owner, if_neg h1]⟩
  have hl2 : ∀ c, live g (fun _ => True) c →
      live (take_field g x y p) (fun c => c ≠ { x := x, y := y }) c ∧
        owner (take_field g x y p) c = owner g c := by
    intro c hc
    have hne : c ≠ { x := x, y := y } := by
      rintro rfl
      exact hc.2.2 hfree
    refine ⟨⟨hne, hc.2.1, ?_⟩, ?_⟩
    · rw [take_field_owner, if_neg hne]; exact hc.2.2
    · rw [take_field_owner, if_neg hne]
  have hmono : ∀ q a b, q ≠ 0 → Conn g q a b → Conn (take_field g x y p) q a b := by
    intro q a b hq
    apply Conn.conn_mono
    intro c hc
    have hne : c ≠ { x := x, y := y } := by
      rintro rfl
      exact hq (hc.2.symm.trans hfree)
    refine ⟨hc.1, ?_⟩
    rw [take_field_owner, if_neg hne]; exact hc.2
  constructor
  · intro c hc
    obtain ⟨h1, _, h3⟩ := hl c hc
    have h4 := hF.par_live c h1
    have h5 := hl2 _ h4.1
    rw [take_field_par, h3]
    exact ⟨h5.1, h5.2.trans h4.2⟩
  · intro c hc hne
    exact hF.rank_lt c (hl c hc).1 hne
  · intro c hc
    exact hF.rep_par c (hl c hc).1
  · intro c hc hs
    exact hF.rep_self c (hl c hc).1 hs
  · intro c hc
    obtain ⟨h1, _, h3⟩ := hl c hc
    have h4 := hF.rep_live c h1
    have h5 := hl2 _ h4.1
    rw [h3]
    exact ⟨h5.1, h5.2.trans h4.2⟩
  · intro c hc
    exact hF.rep_root c (hl c hc).1
  · intro c hc
    obtain ⟨h1, _, h3⟩ := hl c hc
    rw [h3]
    exact hmono _ _ _ h1.2.2 (hF.rep_conn c h1)
  · intro a b ha hb hab hadj
    obtain ⟨h1, _, h3⟩ := hl a ha
    obtain ⟨h1b, _, h3b⟩ := hl b hb
    rw [h3, h3b] at hab
    exact hF.rep_adj a b h1 h1b hab hadj
  · intro c hc hne
    exact hF.rank_rep c (hl c hc).1 hne

theorem take_field_roots_in (g : gamma) (x y p q : Nat) (hq : q ≠ 0)
    (hfree : owner g { x := x, y := y } = 0) :
    roots_in (take_field g x y p) (fun c => c ≠ { x := x, y := y }) q = roots g q := by
  ext c
  rw [mem_roots_in, mem_roots, take_field_owner, take_field_par]
  constructor
  · rintro ⟨h1, h2, h3, h4⟩
    rw [if_neg h2] at h3
    exact ⟨h1, h3, h4⟩
  · rintro ⟨h1, h3, h4⟩
    have h2 : c ≠ { x := x, y := y } := by
      rintro rfl
      exact hq (h3.symm.trans hfree)
    rw [if_neg h2]
    exact ⟨h1, h2, h3, h4⟩

/-! ## The `for` loop of `move_util` -/

theorem owned_cond_iff (g : gamma) (f : field_t) (p : Nat) :
    (!wrong_field f.x f.y g && g.player_arr f.x f.y == p) = true ↔ owns g p f := by
  simp [wrong_field, owns, on_board, owner]

theorem move_util_step_skip (x y p : Nat) (st : move_loop_t) (i : Nat)
    (h : ¬ owns st.g p (nbr { x := x, y := y } i)) : move_util_step x y p st i = st := by
  unfold move_util_step
  have h2 := (owned_cond_iff st.g (nbr { x := x, y := y } i) p).not.mpr h
  change ¬ ((!wrong_field (add32 x (x_dir i)) (add32 y (y_dir i)) st.g &&
    st.g.player_arr (add32 x (x_dir i)) (add32 y (y_dir i)) == p) = true) at h2
  simp only [h2]
  rfl

theorem move_util_step_more (x y p : Nat) (st : move_loop_t) (i : Nat)
    (h : owns st.g p (nbr { x := x, y := y } i)) (hl : st.l ≠ 0) :
    move_util_step x y p st i =
      { g := st.g, neigbours := set1D st.neigbours st.l (nbr { x := x, y := y } i),
        l := st.l + 1 } := by
  unfold move_util_step
  have h2 := (owned_cond_iff st.g (nbr { x := x, y := y } i) p).mpr h
  change ((!wrong_field (add32 x (x_dir i)) (add32 y (y_dir i)) st.g &&
    st.g.player_arr (add32 x (x_dir i)) (add32 y (y_dir i)) == p) = true) at h2
  simp only [h2, if_true, if_neg hl]
  rfl

theorem move_util_step_first (x y p : Nat) (st : move_loop_t) (i : Nat)
    (h : owns st.g p (nbr { x := x, y := y } i)) (hl : st.l = 0) :
    move_util_step x y p st i =
      { g :=
          { (find_parent (dec_areas st.g p) (nbr { x := x, y := y } i)).1 with
            parents := set2D (find_parent (dec_areas st.g p) (nbr { x := x, y := y } i)).1.parents
              x y (find_parent (dec_areas st.g p) (nbr { x := x, y := y } i)).2
            areas_size := set2D
              (find_parent (dec_areas st.g p) (nbr { x := x, y := y } i)).1.areas_size
              (find_parent (dec_areas st.g p) (nbr { x := x, y := y } i)).2.x
              (find_parent (dec_areas st.g p) (nbr { x := x, y := y } i)).2.y
              (inc64 ((find_parent (dec_areas st.g p) (nbr { x := x, y := y } i)).1.areas_size
                (find_parent (dec_areas st.g p) (nbr { x := x, y := y } i)).2.x
                (find_parent (dec_areas st.g p) (nbr { x := x, y := y } i)).2.y)) },
        neigbours := set1D st.neigbours st.l (nbr { x := x, y := y } i),
        l := st.l + 1 } := by
  unfold move_util_step
  have h2 := (owned_cond_iff st.g (nbr { x := x, y := y } i) p).mpr h
  change ((!wrong_field (add32 x (x_dir i)) (add32 y (y_dir i)) st.g &&
    st.g.player_arr (add32 x (x_dir i)) (add32 y (y_dir i)) == p) = true) at h2
  simp only [h2, if_true, if_pos hl]
  rfl

theorem nbr_on_board_adjacent {g : gamma} {c : field_t} {i : Nat}
    (hw : g.width < UINT32_MOD) (hh : g.height < UINT32_MOD) (hc : on_board g c) (hi : i < 4)
    (hn : on_board g (nbr c i)) : adjacent c (nbr c i) :=
  nbr_adjacent hw hh hc hi hn

theorem adjacent_is_nbr {g : gamma} {c d : field_t} (hw : g.width < UINT32_MOD)
    (hh : g.height < UINT32_MOD) (hc : on_board g c) (hd : on_board g d)
    (ha : adjacent c d) : ∃ i, i < 4 ∧ d = nbr c i :=
  adjacent_nbr hw hh hc hd ha

theorem move_loop_step {g0 : gamma} {c0 : field_t} {p : Nat} {rep : field_t → field_t}
    {rk : field_t → Nat} {k : Nat} {st : move_loop_t}
    (hw : g0.width < UINT32_MOD) (hh : g0.height < UINT32_MOD) (hc0 : on_board g0 c0)
    (hp : p ≠ 0) (hk : k < 4) (hI : MoveLoopInv g0 c0 p rep rk k st) :
    MoveLoopInv g0 c0 p rep rk (k + 1) (move_util_step c0.x c0.y p st k) := by
  have hc0eq : ({ x := c0.x, y := c0.y } : field_t) = c0 := rfl
  by_cases hown : owns st.g p (nbr c0 k)
  · have hown0 : owns g0 p (nbr c0 k) := (hI.frame.framep_owns_iff p _).mp hown
    have hadj : adjacent c0 (nbr c0 k) := nbr_on_board_adjacent hw hh hc0 hk hown0.1
    have hne : nbr c0 k ≠ c0 := fun h => adjacent_ne hadj h.symm
    by_cases hl : st.l = 0
    · -- the first neighbour
      have hst : st.g = g0 := hI.none hl
      have e := move_util_step_first c0.x c0.y p st k hown hl
      rw [hc0eq, hst] at e
      rw [e]
      have hFa : ForestOn (dec_areas g0 p) (fun c => c ≠ c0) rep rk := by
        have := hI.forest
        rw [hst] at this
        exact this.forest_congr rfl rfl rfl rfl
      have hlive : live (dec_areas g0 p) (fun c => c ≠ c0) (nbr c0 k) := by
        refine ⟨hne, hown0.1, ?_⟩
        change owner g0 (nbr c0 k) ≠ 0
        rw [hown0.2]; exact hp
      obtain ⟨ps, hps1, hps2⟩ := find_parent_spec hFa (nbr c0 k) hlive
      rw [hps1]
      have hps3 : ∀ d : field_t, live (dec_areas g0 p) (fun c => c ≠ c0) d →
          (set2D ps c0.x c0.y (rep (nbr c0 k)) d.x d.y = par (dec_areas g0 p) d ∨
           set2D ps c0.x c0.y (rep (nbr c0 k)) d.x d.y = rep d) := by
        intro d hd
        rw [set2D_cell, if_neg hd.1]
        rcases hps2 d with h | ⟨_, h⟩
        · exact Or.inl h
        · exact Or.inr h
      have hFb := hFa.compress _ hps3
      constructor
      · refine ⟨rfl, rfl, rfl, rfl, rfl, rfl, rfl, rfl, ?_, ?_, ?_⟩
        · intro i; exact (FrameP.dec_areas p g0).busy i
        · intro i; exact (FrameP.dec_areas p g0).golden i
        · intro i hi; exact (FrameP.dec_areas p g0).areas i hi
      · exact hFb.forest_congr rfl rfl rfl rfl
      · intro q hq
        have h1 := roots_in_compress hFa _ hps3 q hq
        have h2 : roots_in (dec_areas g0 p) (fun c => c ≠ c0) q =
            roots_in g0 (fun c => c ≠ c0) q :=
          roots_in_congr (fun c => c ≠ c0) q rfl rfl rfl rfl
        exact (roots_in_congr (fun c => c ≠ c0) q rfl rfl rfl rfl).trans (h1.trans h2)
      · intro j hj
        simp only [hl] at hj ⊢
        have hj0 : j = 0 := by omega
        subst hj0
        rw [set1D_same]
        exact ⟨hown0, hadj⟩
      · intro i hi hio
        by_cases hik : i = k
        · subst hik
          refine ⟨0, by simp [hl], ?_⟩
          simp only [hl, set1D_same]
        · obtain ⟨j, hj, _⟩ := hI.nb_all i (by omega) hio
          omega
      · intro h; simp at h
      · intro _
        refine ⟨?_, ?_⟩
        · change ((dec_areas g0 p).players (p - 1)).num_of_areas = _
          rw [dec_areas_players_same]
        · simp only [hl, set1D_same]
          change set2D ps c0.x c0.y (rep (nbr c0 k)) c0.x c0.y = _
          rw [set2D_same]
    · -- a further neighbour
      have e := move_util_step_more c0.x c0.y p st k hown hl
      rw [hc0eq] at e
      rw [e]
      have hpos : 0 < st.l := Nat.pos_of_ne_zero hl
      constructor
      · exact hI.frame
      · exact hI.forest
      · exact hI.roots
      · intro j hj
        simp only at hj ⊢
        by_cases hjl : j = st.l
        · subst hjl
          rw [set1D_same]
          exact ⟨hown0, hadj⟩
        · rw [set1D_ne _ _ _ _ hjl]
          exact hI.nb_ok j (by omega)
      · intro i hi hio
        by_cases hik : i = k
        · subst hik
          exact ⟨st.l, by simp, by simp only [set1D_same]⟩
        · obtain ⟨j, hj, hj2⟩ := hI.nb_all i (by omega) hio
          refine ⟨j, by simp only; omega, ?_⟩
          simp only
          rw [set1D_ne _ _ _ _ (by omega)]
          exact hj2
      · intro h; simp at h
      · intro _
        have := hI.some hpos
        refine ⟨this.1, ?_⟩
        simp only
        rw [set1D_ne _ _ _ _ (by omega)]
        exact this.2
  · have e := move_util_step_skip c0.x c0.y p st k hown
    rw [e]
    have hown0 : ¬ owns g0 p (nbr c0 k) := fun h => hown ((hI.frame.framep_owns_iff p _).mpr h)
    constructor
    · exact hI.frame
    · exact hI.forest
    · exact hI.roots
    · exact hI.nb_ok
    · intro i hi hio
      by_cases hik : i = k
      · subst hik; exact absurd hio hown0
      · exact hI.nb_all i (by omega) hio
    · exact hI.none
    · exact hI.some

/-- The state of `move_util` after its `for` loop. -/
theorem move_loop_spec {g0 : gamma} {c0 : field_t} {p : Nat} {rep : field_t → field_t}
    {rk : field_t → Nat} (hw : g0.width < UINT32_MOD) (hh : g0.height < UINT32_MOD)
    (hc0 : on_board g0 c0) (hp : p ≠ 0)
    (hF : ForestOn g0 (fun c => c ≠ c0) rep rk) :
    MoveLoopInv g0 c0 p rep rk 4
      ((List.range DIRECTIONS).foldl (move_util_step c0.x c0.y p)
        { g := g0, neigbours := fun _ => { x := 0, y := 0 }, l := 0 }) := by
  have h0 : MoveLoopInv g0 c0 p rep rk 0
      { g := g0, neigbours := fun _ => { x := 0, y := 0 }, l := 0 } := by
    constructor
    · exact FrameP.framep_refl p g0
    · exact hF
    · intro q _; rfl
    · intro j hj; simp at hj
    · intro i hi; omega
    · intro _; rfl
    · intro h; simp at h
  rw [range_directions]
  simp only [List.foldl]
  exact move_loop_step hw hh hc0 hp (by omega)
    (move_loop_step hw hh hc0 hp (by omega)
      (move_loop_step hw hh hc0 hp (by omega)
        (move_loop_step hw hh hc0 hp (by omega) h0)))

/-! ## `remove_same_areas`: the roots of the neighbours -/

theorem remove_same_areas_find_succ (g : gamma) (nb : Nat → field_t) (l : Nat) :
    remove_same_areas_find g nb (l + 1) =
      ((find_parent (remove_same_areas_find g nb l).1 (nb l)).1,
        set1D (remove_same_areas_find g nb l).2 l
          (find_parent (remove_same_areas_find g nb l).1 (nb l)).2) := by
  unfold remove_same_areas_find
  rw [List.range_succ, List.foldl_append]
  rfl

theorem remove_same_areas_find_spec {h : gamma} {D : field_t → Prop} {rep : field_t → field_t}
    {rk : field_t → Nat} (hF : ForestOn h D rep rk) (nb : Nat → field_t) :
    ∀ l, (∀ j, j < l → live h D (nb j)) →
      ∃ (ps : Nat → Nat → field_t) (np : Nat → field_t),
        remove_same_areas_find h nb l = ({ h with parents := ps }, np) ∧
        (∀ j, j < l → np j = rep (nb j)) ∧
        (∀ d : field_t, ps d.x d.y = par h d ∨ (live h D d ∧ ps d.x d.y = rep d)) := by
  intro l
  induction l with
  | zero =>
    intro _
    exact ⟨h.parents, fun _ => { x := 0, y := 0 }, rfl, fun j hj => absurd hj (Nat.not_lt_zero _),
      fun d => Or.inl rfl⟩
  | succ l ih =>
    intro hlive
    obtain ⟨ps, np, h1, h2, h3⟩ := ih (fun j hj => hlive j (by omega))
    have h3b : ∀ d : field_t, live h D d → (ps d.x d.y = par h d ∨ ps d.x d.y = rep d) := by
      intro d _
      rcases h3 d with e | ⟨_, e⟩
      · exact Or.inl e
      · exact Or.inr e
    have hF2 := hF.compress ps h3b
    obtain ⟨ps2, e1, e2⟩ := find_parent_spec hF2 (nb l) (hlive l (by omega))
    rw [remove_same_areas_find_succ, h1]
    simp only
    rw [e1]
    refine ⟨ps2, set1D np l (rep (nb l)), rfl, ?_, ?_⟩
    · intro j hj
      by_cases hjl : j = l
      · subst hjl; rw [set1D_same]
      · rw [set1D_ne _ _ _ _ hjl]; exact h2 j (by omega)
    · intro d
      rcases e2 d with e | ⟨hl, e⟩
      · change ps2 d.x d.y = ps d.x d.y at e
        rw [e]; exact h3 d
      · exact Or.inr ⟨hl, e⟩

/-! ## `sort_n_parents` rearranges the array -/

theorem same_entries_refl (l : Nat) (a : Nat → field_t) : same_entries l a a :=
  ⟨fun j hj => ⟨j, hj, rfl⟩, fun i hi => ⟨i, hi, rfl⟩⟩

theorem same_entries_trans {l : Nat} {a b c : Nat → field_t} (h1 : same_entries l a b)
    (h2 : same_entries l b c) : same_entries l a c := by
  constructor
  · intro j hj
    obtain ⟨i, hi, e⟩ := h2.1 j hj
    obtain ⟨i2, hi2, e2⟩ := h1.1 i hi
    exact ⟨i2, hi2, e.trans e2⟩
  · intro i hi
    obtain ⟨j, hj, e⟩ := h1.2 i hi
    obtain ⟨j2, hj2, e2⟩ := h2.2 j hj
    exact ⟨j2, hj2, e2.trans e⟩

theorem sort_inner_step_same (g : gamma) (np : Nat → field_t) (j l : Nat) (hj : j + 1 < l) :
    same_entries l np (sort_inner_step g np j) := by
  unfold sort_inner_step
  by_cases hc : parents_compare g (np j) (np (j + 1)) = true
  · rw [if_pos hc]
    simp only
    constructor
    · intro i hi
      by_cases h1 : i = j
      · subst h1
        exact ⟨i + 1, hj, by rw [set1D_same]⟩
      · by_cases h2 : i = j + 1
        · subst h2
          refine ⟨j, by omega, ?_⟩
          rw [set1D_ne _ _ _ _ h1, set1D_same]
        · exact ⟨i, hi, by rw [set1D_ne _ _ _ _ h1, set1D_ne _ _ _ _ h2]⟩
    · intro i hi
      by_cases h1 : i = j
      · subst h1
        refine ⟨i + 1, hj, ?_⟩
        rw [set1D_ne _ _ _ _ (by omega), set1D_same]
      · by_cases h2 : i = j + 1
        · subst h2
          exact ⟨j, by omega, by rw [set1D_same]⟩
        · exact ⟨i, hi, by rw [set1D_ne _ _ _ _ h1, set1D_ne _ _ _ _ h2]⟩
  · rw [if_neg hc]
    exact same_entries_refl l np

theorem sort_inner_same (g : gamma) (l : Nat) :
    ∀ (L : List Nat) (np : Nat → field_t), (∀ j, j ∈ L → j + 1 < l) →
      same_entries l np (L.foldl (fun np2 j => sort_inner_step g np2 j) np) := by
  intro L
  induction L with
  | nil => intro np _; exact same_entries_refl l np
  | cons a L ih =>
    intro np hL
    rw [List.foldl_cons]
    exact same_entries_trans (sort_inner_step_same g np a l (hL a (List.mem_cons_self a L)))
      (ih _ (fun j hj => hL j (List.mem_cons_of_mem a hj)))

theorem sort_outer_same (g : gamma) (l : Nat) :
    ∀ (L : List Nat) (np : Nat → field_t),
      same_entries l np (L.foldl (fun np i =>
        (List.range (l - i - 1)).foldl (fun np2 j => sort_inner_step g np2 j) np) np) := by
  intro L
  induction L with
  | nil => intro np; exact same_entries_refl l np
  | cons a L ih =>
    intro np
    rw [List.foldl_cons]
    refine same_entries_trans (sort_inner_same g l _ np ?_) (ih _)
    intro j hj
    rw [List.mem_range] at hj
    omega

theorem sort_n_parents_same (g : gamma) (np : Nat → field_t) (l : Nat) :
    same_entries l np (sort_n_parents g np l) :=
  sort_outer_same g l _ np

/-! ## `remove_same_areas`: the merging loop -/

theorem merged_rep_insert_mem (rep : field_t → field_t) (T : Finset field_t) (acc r0 : field_t)
    (h : r0 ∈ T) : merged_rep rep (insert r0 T) acc = merged_rep rep T acc := by
  rw [Finset.insert_eq_of_mem h]

theorem merged_rep_single (rep : field_t → field_t) (acc : field_t) :
    merged_rep rep {acc} acc = rep := by
  funext c
  unfold merged_rep
  by_cases h : rep c = acc
  · simp [h]
  · simp [h]

theorem remove_same_areas_step_eq (acc : field_t) (p : Nat) (h : gamma) (np : Nat → field_t)
    (it : Nat) (ps : Nat → Nat → field_t) (r : field_t)
    (e : find_parent h (np it) = ({ h with parents := ps }, r)) :
    remove_same_areas_step acc p (h, np) it =
      if r = acc then ({ h with parents := ps }, set1D np it r)
      else (dec_areas (union_areas { h with parents := ps } acc r) p, set1D np it r) := by
  unfold remove_same_areas_step
  simp only [e, set1D_same]
  by_cases hr : r = acc
  · have : field_equals r acc = true := (field_equals_iff _ _).mpr hr
    rw [if_pos hr, this]
    rfl
  · have : field_equals r acc = false := (field_equals_false_iff _ _).mpr hr
    rw [if_neg hr, this]
    rfl

theorem accumulate_step {h : gamma} {c0 acc r0 : field_t} {p : Nat} {rep : field_t → field_t}
    {rk : field_t → Nat} {T : Finset field_t} {np : Nat → field_t} {it : Nat} (hp : p ≠ 0)
    (hF : ForestOn h (fun c => c ≠ c0) (merged_rep rep T acc) rk)
    (hacc : acc ∈ T) (hacc_live : live h (fun c => c ≠ c0) acc) (hacc_rep : rep acc = acc)
    (hacc_own : owner h acc = p)
    (hr0 : np it = r0) (hr0_live : live h (fun c => c ≠ c0) r0) (hr0_rep : rep r0 = r0)
    (hr0_own : owner h r0 = p) (hr0_conn : Conn h p r0 acc)
    (hareas : (h.players (p - 1)).num_of_areas = (roots_in h (fun c => c ≠ c0) p).card) :
    FrameP p h (remove_same_areas_step acc p (h, np) it).1 ∧
    (∃ rk1, ForestOn (remove_same_areas_step acc p (h, np) it).1 (fun c => c ≠ c0)
      (merged_rep rep (insert r0 T) acc) rk1) ∧
    (∀ j, j ≠ it → (remove_same_areas_step acc p (h, np) it).2 j = np j) ∧
    roots_in (remove_same_areas_step acc p (h, np) it).1 (fun c => c ≠ c0) p =
      (roots_in h (fun c => c ≠ c0) p).filter (fun r => r ≠ r0 ∨ r = acc) ∧
    (∀ q, q ≠ 0 → q ≠ p →
      roots_in (remove_same_areas_step acc p (h, np) it).1 (fun c => c ≠ c0) q =
        roots_in h (fun c => c ≠ c0) q) ∧
    ((remove_same_areas_step acc p (h, np) it).1.players (p - 1)).num_of_areas =
      (roots_in (remove_same_areas_step acc p (h, np) it).1 (fun c => c ≠ c0) p).card ∧
    par (remove_same_areas_step acc p (h, np) it).1 c0 = par h c0 := by
  obtain ⟨ps, e1, e2⟩ := find_parent_spec hF (np it) (by rw [hr0]; exact hr0_live)
  have e2b : ∀ d : field_t, live h (fun c => c ≠ c0) d →
      (ps d.x d.y = par h d ∨ ps d.x d.y = merged_rep rep T acc d) := by
    intro d _
    rcases e2 d with e | ⟨_, e⟩
    · exact Or.inl e
    · exact Or.inr e
  have hpc0 : ps c0.x c0.y = par h c0 := by
    rcases e2 c0 with e | ⟨hl, _⟩
    · exact e
    · exact absurd rfl hl.1
  have hF2 := hF.compress ps e2b
  have hroots2 : ∀ q, q ≠ 0 → roots_in { h with parents := ps } (fun c => c ≠ c0) q =
      roots_in h (fun c => c ≠ c0) q := fun q hq => roots_in_compress hF ps e2b q hq
  have hmacc : merged_rep rep T acc acc = acc := by
    unfold merged_rep; rw [hacc_rep, if_pos hacc]
  rw [hr0] at e1
  rw [remove_same_areas_step_eq acc p h np it ps _ (by rw [hr0]; exact e1)]
  by_cases hmem : r0 ∈ T
  · -- already merged
    have hm : merged_rep rep T acc r0 = acc := by
      unfold merged_rep; rw [hr0_rep, if_pos hmem]
    rw [hm, if_pos rfl]
    refine ⟨FrameP.parents p h ps, ⟨rk, ?_⟩, ?_, ?_, ?_, ?_, hpc0⟩
    · rw [merged_rep_insert_mem rep T acc r0 hmem]; exact hF2
    · intro j hj; exact set1D_ne _ _ _ _ hj
    · rw [hroots2 p hp]
      ext r
      rw [Finset.mem_filter]
      constructor
      · intro hr
        refine ⟨hr, ?_⟩
        by_cases hrr : r = r0
        · right
          subst hrr
          rw [mem_roots_in] at hr
          have hl : live h (fun c => c ≠ c0) r := ⟨hr.2.1, hr.1, by rw [hr.2.2.1]; exact hp⟩
          have := hF.rep_self r hl hr.2.2.2
          rw [hm] at this
          exact this.symm
        · left; exact hrr
      · intro hr; exact hr.1
    · intro q hq _; exact hroots2 q hq
    · change (h.players (p - 1)).num_of_areas = _
      rw [hroots2 p hp]; exact hareas
  · -- a new root is absorbed
    have hm : merged_rep rep T acc r0 = r0 := by
      unfold merged_rep; rw [hr0_rep, if_neg hmem]
    have hne : r0 ≠ acc := fun e => hmem (e ▸ hacc)
    rw [hm, if_neg hne]
    have hl_acc : live { h with parents := ps } (fun c => c ≠ c0) acc := hacc_live
    have hl_r0 : live { h with parents := ps } (fun c => c ≠ c0) r0 := hr0_live
    have hp_acc : par { h with parents := ps } acc = acc := by
      have := hF2.rep_root acc hl_acc
      rw [hmacc] at this; exact this
    have hp_r0 : par { h with parents := ps } r0 = r0 := by
      have := hF2.rep_root r0 hl_r0
      rw [hm] at this; exact this
    have hown2 : owner { h with parents := ps } acc = owner { h with parents := ps } r0 := by
      change owner h acc = owner h r0
      rw [hacc_own, hr0_own]
    have hconn2 : Conn { h with parents := ps } (owner { h with parents := ps } r0) r0 acc := by
      change Conn { h with parents := ps } (owner h r0) r0 acc
      rw [hr0_own]
      exact (Conn_congr rfl rfl rfl p r0 acc).mpr hr0_conn
    have hFu := union_areas_forest hF2 hl_acc hl_r0 hp_acc hp_r0 hne.symm hown2 hconn2
    have hrep_eq : (fun c => if merged_rep rep T acc c = r0 then acc else merged_rep rep T acc c)
        = merged_rep rep (insert r0 T) acc := by
      funext c
      unfold merged_rep
      by_cases hc : rep c ∈ T
      · have : rep c ∈ insert r0 T := Finset.mem_insert_of_mem hc
        simp only [if_pos hc, if_pos this, if_neg hne.symm]
      · by_cases hc2 : rep c = r0
        · have : rep c ∈ insert r0 T := by rw [hc2]; exact Finset.mem_insert_self _ _
          simp only [if_neg hc, if_pos this, if_pos hc2]
        · have : rep c ∉ insert r0 T := by
            rw [Finset.mem_insert]; push_neg; exact ⟨hc2, hc⟩
          simp only [if_neg hc, if_neg this, if_neg hc2]
    rw [hrep_eq] at hFu
    have hr0_root : r0 ∈ roots_in h (fun c => c ≠ c0) p := by
      rw [mem_roots_in]
      refine ⟨hr0_live.2.1, hr0_live.1, hr0_own, ?_⟩
      have := hF.rep_root r0 hr0_live
      rw [hm] at this; exact this
    have hroots3 : ∀ q, q ≠ 0 →
        roots_in (dec_areas (union_areas { h with parents := ps } acc r0) p) (fun c => c ≠ c0) q
          = (roots_in h (fun c => c ≠ c0) q).erase r0 := by
      intro q hq
      have a1 : roots_in (dec_areas (union_areas { h with parents := ps } acc r0) p)
          (fun c => c ≠ c0) q =
          roots_in (union_areas { h with parents := ps } acc r0) (fun c => c ≠ c0) q :=
        roots_in_congr (fun c => c ≠ c0) q rfl rfl rfl rfl
      have a2 := union_areas_roots (g := { h with parents := ps }) (fun c => c ≠ c0) q hne.symm
      rw [a1, a2, hroots2 q hq]
    have hfilter : (roots_in h (fun c => c ≠ c0) p).filter (fun r => r ≠ r0 ∨ r = acc) =
        (roots_in h (fun c => c ≠ c0) p).erase r0 := by
      ext r
      rw [Finset.mem_filter, Finset.mem_erase]
      constructor
      · rintro ⟨h1, h2 | h2⟩
        · exact ⟨h2, h1⟩
        · exact ⟨by rw [h2]; exact hne.symm, h1⟩
      · rintro ⟨h1, h2⟩
        exact ⟨h2, Or.inl h1⟩
    refine ⟨?_, ⟨_, hFu.forest_congr rfl rfl rfl rfl⟩, ?_, ?_, ?_, ?_, ?_⟩
    · exact (FrameP.parents p h ps).framep_trans
        ((FrameP.union_areas p _ acc r0).framep_trans (FrameP.dec_areas p _))
    · intro j hj; exact set1D_ne _ _ _ _ hj
    · rw [hroots3 p hp, hfilter]
    · intro q hq hqp
      rw [hroots3 q hq]
      apply Finset.erase_eq_of_not_mem
      rw [mem_roots_in]
      rintro ⟨_, _, h3, _⟩
      exact hqp (h3.symm.trans hr0_own)
    · change ((dec_areas (union_areas { h with parents := ps } acc r0) p).players (p - 1)).num_of_areas = _
      rw [dec_areas_players_same, hroots3 p hp, Finset.card_erase_of_mem hr0_root]
      change dec64 (h.players (p - 1)).num_of_areas = _
      rw [hareas]
      apply dec64_of_pos
      exact Finset.card_pos.mpr ⟨r0, hr0_root⟩
    · change par (union_areas { h with parents := ps } acc r0) c0 = _
      rw [union_areas_par, if_neg (fun e => hr0_live.1 e.symm)]
      exact hpc0

/-! ## `remove_same_areas`: the whole call -/

theorem accumulate_loop {h1 : gamma} {c0 : field_t} {p : Nat} {rep : field_t → field_t}
    {rk : field_t → Nat} (sorted : Nat → field_t) (l : Nat) (hp : p ≠ 0)
    (hF1 : ForestOn h1 (fun c => c ≠ c0) rep rk)
    (hs : ∀ j, j < l → live h1 (fun c => c ≠ c0) (sorted j) ∧ rep (sorted j) = sorted j ∧
      owner h1 (sorted j) = p ∧ Conn h1 p (sorted j) (sorted 0))
    (hareas : (h1.players (p - 1)).num_of_areas = (roots_in h1 (fun c => c ≠ c0) p).card) :
    ∀ m, m + 1 ≤ l →
      FrameP p h1
        ((List.range' 1 m).foldl (remove_same_areas_step (sorted 0) p) (h1, sorted)).1 ∧
      (∃ rk1, ForestOn
        ((List.range' 1 m).foldl (remove_same_areas_step (sorted 0) p) (h1, sorted)).1
        (fun c => c ≠ c0)
        (merged_rep rep ((Finset.range (m + 1)).image sorted) (sorted 0)) rk1) ∧
      (∀ j, m < j →
        ((List.range' 1 m).foldl (remove_same_areas_step (sorted 0) p) (h1, sorted)).2 j =
          sorted j) ∧
      roots_in ((List.range' 1 m).foldl (remove_same_areas_step (sorted 0) p) (h1, sorted)).1
          (fun c => c ≠ c0) p =
        (roots_in h1 (fun c => c ≠ c0) p).filter
          (fun r => r ∉ (Finset.range (m + 1)).image sorted ∨ r = sorted 0) ∧
      (∀ q, q ≠ 0 → q ≠ p →
        roots_in ((List.range' 1 m).foldl (remove_same_areas_step (sorted 0) p) (h1, sorted)).1
          (fun c => c ≠ c0) q = roots_in h1 (fun c => c ≠ c0) q) ∧
      (((List.range' 1 m).foldl (remove_same_areas_step (sorted 0) p)
          (h1, sorted)).1.players (p - 1)).num_of_areas =
        (roots_in ((List.range' 1 m).foldl (remove_same_areas_step (sorted 0) p) (h1, sorted)).1
          (fun c => c ≠ c0) p).card ∧
      par ((List.range' 1 m).foldl (remove_same_areas_step (sorted 0) p) (h1, sorted)).1 c0 =
        par h1 c0 := by
  intro m
  induction m with
  | zero =>
    intro _
    simp only [List.range'_zero, List.foldl_nil]
    have himg : (Finset.range (0 + 1)).image sorted = {sorted 0} := by
      simp
    rw [himg, merged_rep_single]
    refine ⟨FrameP.framep_refl p h1, ⟨rk, hF1⟩, fun _ _ => trivial, ?_, fun _ _ _ => trivial, hareas, trivial⟩
    symm
    apply Finset.filter_true_of_mem
    intro r _
    by_cases h : r = sorted 0
    · right; exact h
    · left; simpa using h
  | succ m ih =>
    intro hm
    obtain ⟨f1, ⟨rk1, f2⟩, f3, f4, f5, f6, f7⟩ := ih (by omega)
    rw [List.range'_1_concat, List.foldl_append]
    simp only [List.foldl_cons, List.foldl_nil]
    generalize hst : (List.range' 1 m).foldl (remove_same_areas_step (sorted 0) p) (h1, sorted)
      = st at f1 f2 f3 f4 f5 f6 f7 ⊢
    have h0 := hs 0 (by omega)
    have hm1 := hs (m + 1) (by omega)
    have hacc : sorted 0 ∈ (Finset.range (m + 1)).image sorted :=
      Finset.mem_image.mpr ⟨0, Finset.mem_range.mpr (by omega), rfl⟩
    have hstep := @accumulate_step st.1 c0 (sorted 0) (sorted (m + 1)) _ _ _ _
      st.2 (1 + m) hp f2 hacc ((f1.live_iff _ _).mpr h0.1) h0.2.1
      ((f1.framep_owner_eq _).trans h0.2.2.1) (by rw [f3 (1 + m) (by omega)]; congr 1; omega)
      ((f1.live_iff _ _).mpr hm1.1) hm1.2.1
      ((f1.framep_owner_eq _).trans hm1.2.2.1) ((f1.framep_conn_iff _ _ _).mpr hm1.2.2.2) f6
    obtain ⟨s1, ⟨rk2, s2⟩, s3, s4, s5, s6, s7⟩ := hstep
    have himg : (Finset.range (m + 1 + 1)).image sorted =
        insert (sorted (m + 1)) ((Finset.range (m + 1)).image sorted) := by
      rw [Finset.range_succ, Finset.image_insert]
    rw [himg]
    refine ⟨f1.framep_trans s1, ⟨rk2, s2⟩, ?_, ?_, ?_, s6, s7.trans f7⟩
    · intro j hj
      exact (s3 j (by omega)).trans (f3 j (by omega))
    · refine s4.trans ?_
      rw [f4, Finset.filter_filter]
      apply Finset.filter_congr
      intro r _
      rw [Finset.mem_insert]
      constructor
      · rintro ⟨a | a, b | b⟩
        · left; push_neg; exact ⟨b, a⟩
        · right; exact b
        · right; exact a
        · right; exact a
      · rintro (a | a)
        · push_neg at a
          exact ⟨Or.inl a.2, Or.inl a.1⟩
        · exact ⟨Or.inr a, Or.inr a⟩
    · intro q hq hqp
      exact (s5 q hq hqp).trans (f5 q hq hqp)

theorem image_same_entries {l : Nat} {a b : Nat → field_t} (h : same_entries l a b) :
    (Finset.range l).image b = (Finset.range l).image a := by
  ext r
  simp only [Finset.mem_image, Finset.mem_range]
  constructor
  · rintro ⟨j, hj, rfl⟩
    obtain ⟨i, hi, e⟩ := h.1 j hj
    exact ⟨i, hi, e.symm⟩
  · rintro ⟨i, hi, rfl⟩
    obtain ⟨j, hj, e⟩ := h.2 i hi
    exact ⟨j, hj, e⟩

/-- The call `remove_same_areas` merges the trees of all listed neighbours into one tree and lowers
the area counter once for every absorbed root. -/
theorem remove_same_areas_spec {h : gamma} {c0 : field_t} {p : Nat} {rep : field_t → field_t}
    {rk : field_t → Nat} {nb : Nat → field_t} {l : Nat} (hp : p ≠ 0) (hl : 0 < l)
    (hF : ForestOn h (fun c => c ≠ c0) rep rk) (hc0 : owns h p c0)
    (hnb : ∀ j, j < l → owns h p (nb j) ∧ adjacent c0 (nb j))
    (hareas : (h.players (p - 1)).num_of_areas = (roots_in h (fun c => c ≠ c0) p).card) :
    ∃ (acc : field_t) (rk1 : field_t → Nat),
      FrameP p h (remove_same_areas h nb l p) ∧
      ForestOn (remove_same_areas h nb l p) (fun c => c ≠ c0)
        (merged_rep rep ((Finset.range l).image (fun j => rep (nb j))) acc) rk1 ∧
      acc ∈ (Finset.range l).image (fun j => rep (nb j)) ∧
      roots_in (remove_same_areas h nb l p) (fun c => c ≠ c0) p =
        (roots_in h (fun c => c ≠ c0) p).filter
          (fun r => r ∉ (Finset.range l).image (fun j => rep (nb j)) ∨ r = acc) ∧
      (∀ q, q ≠ 0 → q ≠ p →
        roots_in (remove_same_areas h nb l p) (fun c => c ≠ c0) q =
          roots_in h (fun c => c ≠ c0) q) ∧
      ((remove_same_areas h nb l p).players (p - 1)).num_of_areas =
        (roots_in (remove_same_areas h nb l p) (fun c => c ≠ c0) p).card ∧
      par (remove_same_areas h nb l p) c0 = par h c0 := by
  have hlive : ∀ j, j < l → live h (fun c => c ≠ c0) (nb j) := by
    intro j hj
    obtain ⟨h1, h2⟩ := hnb j hj
    exact ⟨fun e => adjacent_ne h2 e.symm, h1.1, by rw [h1.2]; exact hp⟩
  obtain ⟨ps, np, e1, e2, e3⟩ := remove_same_areas_find_spec hF nb l hlive
  have e3b : ∀ d : field_t, live h (fun c => c ≠ c0) d →
      (ps d.x d.y = par h d ∨ ps d.x d.y = rep d) := by
    intro d _
    rcases e3 d with e | ⟨_, e⟩
    · exact Or.inl e
    · exact Or.inr e
  have hpc0 : ps c0.x c0.y = par h c0 := by
    rcases e3 c0 with e | ⟨hl, _⟩
    · exact e
    · exact absurd rfl hl.1
  have hF1 := hF.compress ps e3b
  have hroots1 : ∀ q, q ≠ 0 → roots_in { h with parents := ps } (fun c => c ≠ c0) q =
      roots_in h (fun c => c ≠ c0) q := fun q hq => roots_in_compress hF ps e3b q hq
  have hse := sort_n_parents_same { h with parents := ps } np l
  have himg : (Finset.range l).image (sort_n_parents { h with parents := ps } np l) =
      (Finset.range l).image (fun j => rep (nb j)) := by
    rw [image_same_entries hse]
    apply Finset.image_congr
    intro j hj
    exact e2 j (Finset.mem_range.mp (Finset.mem_coe.mp hj))
  have hsorted : ∀ j, j < l → ∃ i, i < l ∧
      sort_n_parents { h with parents := ps } np l j = rep (nb i) := by
    intro j hj
    obtain ⟨i, hi, e⟩ := hse.1 j hj
    exact ⟨i, hi, e.trans (e2 i hi)⟩
  have hconn0 : ∀ i, i < l → Conn h p (rep (nb i)) c0 := by
    intro i hi
    have a1 := hF.rep_conn (nb i) (hlive i hi)
    rw [(hnb i hi).1.2] at a1
    exact a1.conn_symm.conn_trans (Conn.single ⟨adjacent_symm (hnb i hi).2, (hnb i hi).1, hc0⟩)
  have hs : ∀ j, j < l →
      live { h with parents := ps } (fun c => c ≠ c0)
        (sort_n_parents { h with parents := ps } np l j) ∧
      rep (sort_n_parents { h with parents := ps } np l j) =
        sort_n_parents { h with parents := ps } np l j ∧
      owner { h with parents := ps } (sort_n_parents { h with parents := ps } np l j) = p ∧
      Conn { h with parents := ps } p (sort_n_parents { h with parents := ps } np l j)
        (sort_n_parents { h with parents := ps } np l 0) := by
    intro j hj
    obtain ⟨i, hi, e⟩ := hsorted j hj
    obtain ⟨i0, hi0, e0⟩ := hsorted 0 hl
    rw [e, e0]
    have a1 := hF.rep_live (nb i) (hlive i hi)
    refine ⟨a1.1, hF.rep_rep (nb i) (hlive i hi), a1.2.trans (hnb i hi).1.2, ?_⟩
    exact (Conn_congr rfl rfl rfl p _ _).mpr ((hconn0 i hi).conn_trans (hconn0 i0 hi0).conn_symm)
  have hareas1 : (({ h with parents := ps } : gamma).players (p - 1)).num_of_areas =
      (roots_in { h with parents := ps } (fun c => c ≠ c0) p).card := by
    rw [hroots1 p hp]; exact hareas
  have hloop := accumulate_loop (sort_n_parents { h with parents := ps } np l) l hp hF1 hs
    hareas1 (l - 1) (by omega)
  have hl1 : l - 1 + 1 = l := by omega
  rw [hl1, himg] at hloop
  obtain ⟨f1, ⟨rk1, f2⟩, _, f4, f5, f6, f7⟩ := hloop
  have hdef : remove_same_areas h nb l p =
      ((List.range' 1 (l - 1)).foldl
        (remove_same_areas_step (sort_n_parents { h with parents := ps } np l 0) p)
        ({ h with parents := ps }, sort_n_parents { h with parents := ps } np l)).1 := by
    unfold remove_same_areas
    simp only [e1]
  rw [hdef]
  refine ⟨_, rk1, (FrameP.parents p h ps).framep_trans f1, f2, ?_, ?_, ?_, f6, f7.trans hpc0⟩
  · rw [← himg]
    exact Finset.mem_image.mpr ⟨0, Finset.mem_range.mpr hl, rfl⟩
  · rw [f4, hroots1 p hp]
  · intro q hq hqp
    rw [f5 q hq hqp, hroots1 q hq]

/-! ## Closing the forest over the placed cell -/

/-- The placed cell `c0` hangs below a root of the remaining forest into which all its
neighbours of the same owner have been merged. -/
theorem extend_forest {g : gamma} {c0 r acc : field_t} {p : Nat} {rep1 : field_t → field_t}
    {rk1 : field_t → Nat} (hF : ForestOn g (fun c => c ≠ c0) rep1 rk1)
    (hown : owner g c0 = p)
    (hpar : par g c0 = r) (hr : live g (fun c => c ≠ c0) r) (hro : owner g r = p)
    (hracc : rep1 r = acc) (hconn : Conn g p c0 acc)
    (hadj : ∀ d, owns g p d → adjacent c0 d → rep1 d = acc) :
    ForestOn g (fun _ => True) (fun c => if c = c0 then acc else rep1 c)
      (fun c => if c = c0 then 0 else rk1 c + 1) := by
  have hacc_live : live g (fun c => c ≠ c0) acc ∧ owner g acc = owner g r := by
    have := hF.rep_live r hr
    rw [hracc] at this; exact this
  have hacc_root : par g acc = acc := by
    have := hF.rep_root r hr
    rw [hracc] at this; exact this
  have hacc_rep : rep1 acc = acc := hF.rep_self acc hacc_live.1 hacc_root
  have hl : ∀ c, c ≠ c0 → live g (fun _ => True) c → live g (fun c => c ≠ c0) c :=
    fun c hc h => ⟨hc, h.2.1, h.2.2⟩
  have hl2 : ∀ c, live g (fun c => c ≠ c0) c → live g (fun _ => True) c :=
    fun c h => ⟨trivial, h.2.1, h.2.2⟩
  constructor
  · intro c hc
    by_cases h : c = c0
    · subst h
      rw [hpar, hro, hown]
      exact ⟨hl2 r hr, rfl⟩
    · have := hF.par_live c (hl c h hc)
      exact ⟨hl2 _ this.1, this.2⟩
  · intro c hc hne
    by_cases h : c = c0
    · subst h
      rw [hpar]
      simp only [if_neg hr.1, if_true]
      omega
    · have h1 := hF.par_live c (hl c h hc)
      have h2 := hF.rank_lt c (hl c h hc) hne
      simp only [if_neg h, if_neg h1.1.1]
      omega
  · intro c hc
    by_cases h : c = c0
    · subst h
      rw [hpar]
      simp only [if_neg hr.1, if_true]
      exact hracc
    · have h1 := hF.par_live c (hl c h hc)
      simp only [if_neg h, if_neg h1.1.1]
      exact hF.rep_par c (hl c h hc)
  · intro c hc hs
    by_cases h : c = c0
    · subst h
      rw [hpar] at hs
      exact absurd hs hr.1
    · simp only [if_neg h]
      exact hF.rep_self c (hl c h hc) hs
  · intro c hc
    by_cases h : c = c0
    · subst h
      simp only [if_true]
      refine ⟨hl2 _ hacc_live.1, ?_⟩
      rw [hacc_live.2, hro, hown]
    · simp only [if_neg h]
      have := hF.rep_live c (hl c h hc)
      exact ⟨hl2 _ this.1, this.2⟩
  · intro c hc
    by_cases h : c = c0
    · subst h
      simp only [if_true, if_neg hacc_live.1.1]
      exact hacc_root
    · have h1 := hF.rep_live c (hl c h hc)
      simp only [if_neg h, if_neg h1.1.1]
      exact hF.rep_root c (hl c h hc)
  · intro c hc
    by_cases h : c = c0
    · subst h
      simp only [if_true]
      rw [hown]; exact hconn
    · simp only [if_neg h]
      exact hF.rep_conn c (hl c h hc)
  · intro a b ha hb hab hadjab
    by_cases h1 : a = c0
    · subst h1
      have hbne : b ≠ a := fun e => adjacent_ne hadjab e.symm
      simp only [if_true, if_neg hbne]
      exact (hadj b ⟨hb.2.1, by rw [← hab, hown]⟩ hadjab).symm
    · by_cases h2 : b = c0
      · subst h2
        simp only [if_true, if_neg h1]
        exact hadj a ⟨ha.2.1, by rw [hab, hown]⟩ (adjacent_symm hadjab)
      · simp only [if_neg h1, if_neg h2]
        exact hF.rep_adj a b (hl a h1 ha) (hl b h2 hb) hab hadjab
  · intro c hc hne
    by_cases h : c = c0
    · subst h
      simp only [if_true, if_neg hacc_live.1.1]
      omega
    · simp only [if_neg h] at hne ⊢
      have h1 := hF.rep_live c (hl c h hc)
      simp only [if_neg h1.1.1]
      have := hF.rank_rep c (hl c h hc) hne
      omega

/-- The placed cell `c0` has no neighbour of its owner and becomes a root. -/
theorem extend_forest_single {g : gamma} {c0 : field_t} {p : Nat} {rep1 : field_t → field_t}
    {rk1 : field_t → Nat} (hF : ForestOn g (fun c => c ≠ c0) rep1 rk1)
    (hown : owner g c0 = p) (hpar : par g c0 = c0)
    (hadj : ∀ d, owns g p d → adjacent c0 d → False) :
    ForestOn g (fun _ => True) (fun c => if c = c0 then c0 else rep1 c) rk1 := by
  have hl : ∀ c, c ≠ c0 → live g (fun _ => True) c → live g (fun c => c ≠ c0) c :=
    fun c hc h => ⟨hc, h.2.1, h.2.2⟩
  have hl2 : ∀ c, live g (fun c => c ≠ c0) c → live g (fun _ => True) c :=
    fun c h => ⟨trivial, h.2.1, h.2.2⟩
  constructor
  · intro c hc
    by_cases h : c = c0
    · subst h
      rw [hpar]
      exact ⟨hc, rfl⟩
    · have := hF.par_live c (hl c h hc)
      exact ⟨hl2 _ this.1, this.2⟩
  · intro c hc hne
    by_cases h : c = c0
    · subst h
      exact absurd hpar hne
    · exact hF.rank_lt c (hl c h hc) hne
  · intro c hc
    by_cases h : c = c0
    · subst h
      rw [hpar]
    · have h1 := hF.par_live c (hl c h hc)
      simp only [if_neg h, if_neg h1.1.1]
      exact hF.rep_par c (hl c h hc)
  · intro c hc hs
    by_cases h : c = c0
    · subst h
      simp only [if_true]
    · simp only [if_neg h]
      exact hF.rep_self c (hl c h hc) hs
  · intro c hc
    by_cases h : c = c0
    · subst h
      rw [if_pos rfl]
      exact ⟨hc, rfl⟩
    · simp only [if_neg h]
      have := hF.rep_live c (hl c h hc)
      exact ⟨hl2 _ this.1, this.2⟩
  · intro c hc
    by_cases h : c = c0
    · subst h
      simp only [if_true]
      exact hpar
    · have h1 := hF.rep_live c (hl c h hc)
      simp only [if_neg h, if_neg h1.1.1]
      exact hF.rep_root c (hl c h hc)
  · intro c hc
    by_cases h : c = c0
    · subst h
      simp only [if_true]
      exact Conn.conn_refl _ _ _
    · simp only [if_neg h]
      exact hF.rep_conn c (hl c h hc)
  · intro a b ha hb hab hadjab
    by_cases h1 : a = c0
    · subst h1
      exact absurd hadjab (fun hh => hadj b ⟨hb.2.1, by rw [← hab, hown]⟩ hh)
    · by_cases h2 : b = c0
      · subst h2
        exact absurd (adjacent_symm hadjab) (fun hh => hadj a ⟨ha.2.1, by rw [hab, hown]⟩ hh)
      · simp only [if_neg h1, if_neg h2]
        exact hF.rep_adj a b (hl a h1 ha) (hl b h2 hb) hab hadjab
  · intro c hc hne
    by_cases h : c = c0
    · subst h
      simp only [if_true] at hne
      exact absurd rfl hne
    · simp only [if_neg h] at hne ⊢
      exact hF.rank_rep c (hl c h hc) hne

/-! ## Counting roots -/

theorem roots_eq_roots_in_of_not_root {g : gamma} {c0 : field_t} (q : Nat)
    (h : owner g c0 ≠ q ∨ par g c0 ≠ c0) :
    roots g q = roots_in g (fun c => c ≠ c0) q := by
  ext c
  rw [mem_roots, mem_roots_in]
  constructor
  · rintro ⟨h1, h2, h3⟩
    refine ⟨h1, ?_, h2, h3⟩
    rintro rfl
    rcases h with h | h
    · exact h h2
    · exact h h3
  · rintro ⟨h1, _, h2, h3⟩
    exact ⟨h1, h2, h3⟩

theorem roots_eq_insert_of_root {g : gamma} {c0 : field_t} {p : Nat} (hb : on_board g c0)
    (ho : owner g c0 = p) (hpar : par g c0 = c0) :
    roots g p = insert c0 (roots_in g (fun c => c ≠ c0) p) := by
  ext c
  rw [mem_roots, Finset.mem_insert, mem_roots_in]
  constructor
  · rintro ⟨h1, h2, h3⟩
    by_cases h : c = c0
    · left; exact h
    · right; exact ⟨h1, h, h2, h3⟩
  · rintro (h | ⟨h1, _, h2, h3⟩)
    · subst h; exact ⟨hb, ho, hpar⟩
    · exact ⟨h1, h2, h3⟩

theorem card_filter_merged {R S : Finset field_t} {acc : field_t} (hS : S ⊆ R)
    (hacc : acc ∈ S) : (R.filter (fun r => r ∉ S ∨ r = acc)).card + S.card = R.card + 1 := by
  have h1 : R.filter (fun r => r ∉ S ∨ r = acc) = R \ (S.erase acc) := by
    ext r
    rw [Finset.mem_filter, Finset.mem_sdiff, Finset.mem_erase]
    constructor
    · rintro ⟨a, b | b⟩
      · exact ⟨a, fun h => b h.2⟩
      · exact ⟨a, fun h => h.1 b⟩
    · rintro ⟨a, b⟩
      refine ⟨a, ?_⟩
      by_cases h : r = acc
      · right; exact h
      · left; exact fun hs => b ⟨h, hs⟩
  have h2 : S.erase acc ⊆ R := (Finset.erase_subset _ _).trans hS
  rw [h1, Finset.card_sdiff h2, Finset.card_erase_of_mem hacc]
  have h3 : 1 ≤ S.card := Finset.card_pos.mpr ⟨acc, hacc⟩
  have h4 : S.card ≤ R.card := Finset.card_le_card hS
  omega

/-! ## `move_util` -/

theorem player_ext {a b : player_t} (h1 : a.has_played_golden_move = b.has_played_golden_move)
    (h2 : a.num_of_areas = b.num_of_areas) (h3 : a.busy_fields = b.busy_fields) : a = b := by
  cases a; cases b; simp_all

theorem FrameP.players_ne {p : Nat} {g h : gamma} (hf : FrameP p g h) (i : Nat)
    (hi : i ≠ p - 1) : h.players i = g.players i :=
  player_ext (hf.golden i) (hf.areas i hi) (hf.busy i)

theorem board_bound {g : gamma} (hw : g.width < UINT32_MOD) (hh : g.height < UINT32_MOD) :
    g.width * g.height + 1 < UINT64_MOD := by
  unfold UINT32_MOD at hw hh
  unfold UINT64_MOD
  have h1 : g.width ≤ 4294967295 := by omega
  have h2 : g.height ≤ 4294967295 := by omega
  have := Nat.mul_le_mul h1 h2
  omega

theorem Core.busy_lt {g : gamma} (hC : Core g) {p : Nat} (hp : valid_player g p) :
    (g.players (p - 1)).busy_fields + 1 < UINT64_MOD := by
  rw [hC.busy_eq p hp]
  have := card_cells_of_le g p
  have := board_bound hC.width_lt hC.height_lt
  omega

theorem Core.num_areas_lt {g : gamma} (hC : Core g) {p : Nat} (hp : valid_player g p) :
    (g.players (p - 1)).num_of_areas + 1 < UINT64_MOD := by
  rw [hC.areas_eq p hp]
  have := card_roots_le g p
  have := card_cells_of_le g p
  have := board_bound hC.width_lt hC.height_lt
  omega

theorem Core.empty_lt {g : gamma} (hC : Core g) : g.empty_fields + 1 < UINT64_MOD := by
  rw [hC.empty_eq]
  have := card_cells_of_le g 0
  have := board_bound hC.width_lt hC.height_lt
  omega

theorem player_index_ne {p q : Nat} (hp : 1 ≤ p) (hq : 1 ≤ q) (h : q ≠ p) : q - 1 ≠ p - 1 := by
  omega

theorem cells_of_take_field_same (g : gamma) (c0 : field_t) (p : Nat) (hb : on_board g c0) :
    cells_of (take_field g c0.x c0.y p) p = insert c0 (cells_of g p) := by
  ext c
  rw [mem_cells_of, Finset.mem_insert, mem_cells_of, take_field_owner]
  change on_board g c ∧ _ ↔ _
  by_cases h : c = c0
  · subst h; simp [hb]
  · have h2 : c ≠ { x := c0.x, y := c0.y } := h
    simp [h, h2]

theorem cells_of_take_field_other (g : gamma) (c0 : field_t) (p q : Nat)
    (hfree : owner g c0 = 0) (hq : q ≠ p) (hq0 : q ≠ 0) :
    cells_of (take_field g c0.x c0.y p) q = cells_of g q := by
  ext c
  rw [mem_cells_of, mem_cells_of, take_field_owner]
  change on_board g c ∧ _ ↔ _
  by_cases h : c = c0
  · subst h
    have h2 : c = { x := c.x, y := c.y } := rfl
    rw [if_pos h2]
    constructor
    · rintro ⟨_, e⟩; exact absurd e.symm hq
    · rintro ⟨_, e⟩; exact absurd (e.symm.trans hfree) hq0
  · have h2 : c ≠ { x := c0.x, y := c0.y } := h
    rw [if_neg h2]

theorem cells_of_take_field_zero (g : gamma) (c0 : field_t) (p : Nat) (hp : p ≠ 0) :
    cells_of (take_field g c0.x c0.y p) 0 = (cells_of g 0).erase c0 := by
  ext c
  rw [mem_cells_of, Finset.mem_erase, mem_cells_of, take_field_owner]
  change on_board g c ∧ _ ↔ _
  by_cases h : c = c0
  · subst h
    have h2 : c = { x := c.x, y := c.y } := rfl
    rw [if_pos h2]
    simp [hp]
  · have h2 : c ≠ { x := c0.x, y := c0.y } := h
    rw [if_neg h2]
    simp [h]

theorem cells_of_congr {g g1 : gamma} (hw : g1.width = g.width) (hh : g1.height = g.height)
    (hp : g1.player_arr = g.player_arr) (q : Nat) : cells_of g1 q = cells_of g q := by
  ext c
  rw [mem_cells_of, mem_cells_of]
  exact owns_congr hw hh hp q c

theorem image_neighbours {g0 g : gamma} {c0 : field_t} {p : Nat} {rep : field_t → field_t}
    {nb : Nat → field_t} {l : Nat}
    (hw : g0.width < UINT32_MOD) (hh : g0.height < UINT32_MOD) (hb : on_board g0 c0)
    (hown : ∀ d, d ≠ c0 → (owns g0 p d ↔ owns g p d))
    (hnb : ∀ j, j < l → owns g0 p (nb j) ∧ adjacent c0 (nb j))
    (hall : ∀ i, i < 4 → owns g0 p (nbr c0 i) → ∃ j, j < l ∧ nb j = nbr c0 i) :
    (Finset.range l).image (fun j => rep (nb j)) = (p_neighbours g c0 p).image rep := by
  ext r
  simp only [Finset.mem_image, Finset.mem_range, p_neighbours, Finset.mem_filter, mem_board]
  constructor
  · rintro ⟨j, hj, rfl⟩
    obtain ⟨h1, h2⟩ := hnb j hj
    have hne : nb j ≠ c0 := fun e => adjacent_ne h2 e.symm
    have h3 := (hown _ hne).mp h1
    exact ⟨nb j, ⟨h3.1, h3.2, h2⟩, rfl⟩
  · rintro ⟨d, ⟨h1, h2, h3⟩, rfl⟩
    have hne : d ≠ c0 := fun e => adjacent_ne h3 e.symm
    have h4 : owns g0 p d := (hown d hne).mpr ⟨h1, h2⟩
    obtain ⟨i, hi, e⟩ := adjacent_is_nbr hw hh hb h4.1 h3
    obtain ⟨j, hj, e2⟩ := hall i hi (e ▸ h4)
    exact ⟨j, hj, by rw [e2, ← e]⟩

theorem move_util_unfold (g : gamma) (x y p : Nat) :
    move_util g x y p =
      if ((List.range DIRECTIONS).foldl (move_util_step x y p)
          { g := take_field g x y p, neigbours := fun _ => { x := 0, y := 0 }, l := 0 }).l = 0
      then
        { ((List.range DIRECTIONS).foldl (move_util_step x y p)
            { g := take_field g x y p, neigbours := fun _ => { x := 0, y := 0 }, l := 0 }).g with
          parents := set2D ((List.range DIRECTIONS).foldl (move_util_step x y p)
            { g := take_field g x y p, neigbours := fun _ => { x := 0, y := 0 },
              l := 0 }).g.parents x y { x := x, y := y }
          areas_size := set2D ((List.range DIRECTIONS).foldl (move_util_step x y p)
            { g := take_field g x y p, neigbours := fun _ => { x := 0, y := 0 },
              l := 0 }).g.areas_size x y 1 }
      else
        remove_same_areas
          ((List.range DIRECTIONS).foldl (move_util_step x y p)
            { g := take_field g x y p, neigbours := fun _ => { x := 0, y := 0 }, l := 0 }).g
          ((List.range DIRECTIONS).foldl (move_util_step x y p)
            { g := take_field g x y p, neigbours := fun _ => { x := 0, y := 0 },
              l := 0 }).neigbours
          ((List.range DIRECTIONS).foldl (move_util_step x y p)
            { g := take_field g x y p, neigbours := fun _ => { x := 0, y := 0 }, l := 0 }).l
          p := rfl

/-- Closing the forest when the placed cell has no neighbour of its owner. -/
theorem move_single_post {g0 G1 : gamma} {c0 : field_t} {p : Nat} {rep : field_t → field_t}
    {rk : field_t → Nat} (hF0 : ForestOn g0 (fun c => c ≠ c0) rep rk) (hb0 : on_board g0 c0)
    (hown0 : owner g0 c0 = p) (hw : G1.width = g0.width) (hh : G1.height = g0.height)
    (hpa : G1.player_arr = g0.player_arr)
    (hpar : G1.parents = set2D g0.parents c0.x c0.y c0)
    (hnone : ∀ d, owns g0 p d → adjacent c0 d → False) :
    (∃ rep1 rk1, ForestOn G1 (fun _ => True) rep1 rk1) ∧
    (∀ q, q ≠ 0 → q ≠ p → roots G1 q = roots_in g0 (fun c => c ≠ c0) q) ∧
    (p ≠ 0 → (roots G1 p).card = (roots_in g0 (fun c => c ≠ c0) p).card + 1) := by
  have hps : ∀ d : field_t, live g0 (fun c => c ≠ c0) d →
      (set2D g0.parents c0.x c0.y c0 d.x d.y = par g0 d ∨
       set2D g0.parents c0.x c0.y c0 d.x d.y = rep d) := by
    intro d hd
    left
    rw [set2D_cell, if_neg hd.1]
    rfl
  have hF1 : ForestOn G1 (fun c => c ≠ c0) rep rk :=
    (hF0.compress _ hps).forest_congr hw hh hpa hpar
  have hroots1 : ∀ q, q ≠ 0 →
      roots_in G1 (fun c => c ≠ c0) q = roots_in g0 (fun c => c ≠ c0) q := by
    intro q hq
    rw [← roots_in_compress hF0 _ hps q hq]
    exact roots_in_congr (fun c => c ≠ c0) q hw hh hpa hpar
  have hown1 : owner G1 c0 = p := by
    unfold owner at hown0 ⊢
    rw [hpa]; exact hown0
  have hb1 : on_board G1 c0 := by
    unfold on_board at hb0 ⊢
    rw [hw, hh]; exact hb0
  have hpar1 : par G1 c0 = c0 := by
    unfold par
    rw [hpar, set2D_same]
  have hnone1 : ∀ d, owns G1 p d → adjacent c0 d → False :=
    fun d hd => hnone d ((owns_congr hw hh hpa p d).mp hd)
  refine ⟨⟨_, _, extend_forest_single hF1 hown1 hpar1 hnone1⟩, ?_, ?_⟩
  · intro q hq hqp
    rw [@roots_eq_roots_in_of_not_root _ c0 q (Or.inl (fun e => hqp (e.symm.trans hown1))),
      hroots1 q hq]
  · intro hp0
    rw [roots_eq_insert_of_root hb1 hown1 hpar1, hroots1 p hp0, Finset.card_insert_of_not_mem]
    rw [mem_roots_in]
    rintro ⟨_, h2, _⟩
    exact h2 rfl

/-- The forest and the area counters after `move_util`. -/
theorem move_util_post {g : gamma} {p : Nat} {c0 : field_t} {rep : field_t → field_t}
    {rk : field_t → Nat} (hC : Core g) (hF : ForestOn g (fun _ => True) rep rk)
    (hp : valid_player g p) (hb : on_board g c0) (hfree : owner g c0 = 0) :
    FrameP p (take_field g c0.x c0.y p) (move_util g c0.x c0.y p) ∧
    (∃ rep1 rk1, ForestOn (move_util g c0.x c0.y p) (fun _ => True) rep1 rk1) ∧
    (∀ q, q ≠ 0 → q ≠ p → roots (move_util g c0.x c0.y p) q = roots g q) ∧
    ((move_util g c0.x c0.y p).players (p - 1)).num_of_areas =
      (roots (move_util g c0.x c0.y p) p).card ∧
    ((move_util g c0.x c0.y p).players (p - 1)).num_of_areas +
      ((p_neighbours g c0 p).image rep).card = (g.players (p - 1)).num_of_areas + 1 := by
  have hp0 : p ≠ 0 := by have := hp.1; omega
  have hw := hC.width_lt
  have hh := hC.height_lt
  have hb0 : on_board (take_field g c0.x c0.y p) c0 := hb
  have hown0 : owner (take_field g c0.x c0.y p) c0 = p := by
    rw [take_field_owner]
    exact if_pos rfl
  have hF0 : ForestOn (take_field g c0.x c0.y p) (fun c => c ≠ c0) rep rk :=
    take_field_forest hF c0.x c0.y p hfree
  have hI := @move_loop_spec (take_field g c0.x c0.y p) _ _ _ _ hw hh hb0 hp0 hF0
  have hroots0 : ∀ q, q ≠ 0 →
      roots_in (take_field g c0.x c0.y p) (fun c => c ≠ c0) q = roots g q :=
    fun q hq => take_field_roots_in g c0.x c0.y p q hq hfree
  have hareas_g := hC.areas_eq p hp
  have hareas0 : ((take_field g c0.x c0.y p).players (p - 1)).num_of_areas =
      (g.players (p - 1)).num_of_areas + 1 := by
    rw [take_field_players_same]
    exact inc64_of_lt (hC.num_areas_lt hp)
  have hown_iff : ∀ d, d ≠ c0 → (owns (take_field g c0.x c0.y p) p d ↔ owns g p d) := by
    intro d hd
    unfold owns
    rw [take_field_owner, if_neg hd]
    exact Iff.rfl
  rw [move_util_unfold]
  generalize hst : (List.range DIRECTIONS).foldl (move_util_step c0.x c0.y p)
    { g := take_field g c0.x c0.y p, neigbours := fun _ => { x := 0, y := 0 }, l := 0 } = st
    at hI ⊢
  by_cases hl : st.l = 0
  · -- no neighbour of `p`: a new area
    rw [if_pos hl]
    have hg := hI.none hl
    rw [hg]
    have hnone : ∀ d, owns (take_field g c0.x c0.y p) p d → adjacent c0 d → False := by
      intro d hd hadj
      obtain ⟨i, hi, e⟩ := adjacent_is_nbr hw hh hb0 hd.1 hadj
      obtain ⟨j, hj, _⟩ := hI.nb_all i hi (e ▸ hd)
      omega
    obtain ⟨s1, s2, s3⟩ := @move_single_post _
      { take_field g c0.x c0.y p with
        parents := set2D (take_field g c0.x c0.y p).parents c0.x c0.y { x := c0.x, y := c0.y }
        areas_size := set2D (take_field g c0.x c0.y p).areas_size c0.x c0.y 1 }
      _ _ _ _ hF0 hb0 hown0 rfl rfl rfl rfl hnone
    refine ⟨?_, s1, ?_, ?_, ?_⟩
    · exact ⟨rfl, rfl, rfl, rfl, rfl, rfl, rfl, rfl, fun _ => rfl, fun _ => rfl, fun _ _ => rfl⟩
    · intro q hq hqp
      rw [s2 q hq hqp, hroots0 q hq]
    · rw [s3 hp0, hroots0 p hp0]
      change ((take_field g c0.x c0.y p).players (p - 1)).num_of_areas = _
      rw [hareas0, hareas_g]
    · have hempty : p_neighbours g c0 p = ∅ := by
        apply Finset.eq_empty_of_forall_not_mem
        intro d hd
        simp only [p_neighbours, Finset.mem_filter, mem_board] at hd
        have hne : d ≠ c0 := fun e => adjacent_ne hd.2.2 e.symm
        exact hnone d ((hown_iff d hne).mpr ⟨hd.1, hd.2.1⟩) hd.2.2
      rw [hempty]
      change ((take_field g c0.x c0.y p).players (p - 1)).num_of_areas + _ = _
      rw [hareas0]
      simp
  · -- some neighbour of `p`: join and merge
    rw [if_neg hl]
    have hpos : 0 < st.l := Nat.pos_of_ne_zero hl
    have hsome := hI.some hpos
    have hc0s : owns st.g p c0 := (hI.frame.framep_owns_iff p c0).mpr ⟨hb0, hown0⟩
    have hnb : ∀ j, j < st.l → owns st.g p (st.neigbours j) ∧ adjacent c0 (st.neigbours j) := by
      intro j hj
      have := hI.nb_ok j hj
      exact ⟨(hI.frame.framep_owns_iff p _).mpr this.1, this.2⟩
    have hareas_s : (st.g.players (p - 1)).num_of_areas =
        (roots_in st.g (fun c => c ≠ c0) p).card := by
      rw [hsome.1, hareas0, hI.roots p hp0, hroots0 p hp0, ← hareas_g]
      rw [dec64_of_pos (by omega)]
      omega
    obtain ⟨acc, rk1, f1, f2, f3, f4, f5, f6, f7⟩ :=
      remove_same_areas_spec hp0 hpos hI.forest hc0s hnb hareas_s
    have hfr : FrameP p (take_field g c0.x c0.y p)
        (remove_same_areas st.g st.neigbours st.l p) := hI.frame.framep_trans f1
    have himg : (Finset.range st.l).image (fun j => rep (st.neigbours j)) =
        (p_neighbours g c0 p).image rep :=
      @image_neighbours (take_field g c0.x c0.y p) _ _ _ _ _ _ hw hh hb0 hown_iff hI.nb_ok hI.nb_all
    have hl0 : live st.g (fun c => c ≠ c0) (st.neigbours 0) := by
      obtain ⟨a1, a2⟩ := hnb 0 hpos
      exact ⟨fun e => adjacent_ne a2 e.symm, a1.1, by rw [a1.2]; exact hp0⟩
    have hr_live := hI.forest.rep_live _ hl0
    have hr_rep : rep (rep (st.neigbours 0)) = rep (st.neigbours 0) := hI.forest.rep_rep _ hl0
    have hmem0 : rep (st.neigbours 0) ∈ (Finset.range st.l).image (fun j => rep (st.neigbours j)) :=
      Finset.mem_image.mpr ⟨0, Finset.mem_range.mpr hpos, rfl⟩
    have hown1 : owner (remove_same_areas st.g st.neigbours st.l p) c0 = p :=
      (hfr.framep_owner_eq c0).trans hown0
    have hpar1 : par (remove_same_areas st.g st.neigbours st.l p) c0 = rep (st.neigbours 0) :=
      f7.trans hsome.2
    have hr1 : live (remove_same_areas st.g st.neigbours st.l p) (fun c => c ≠ c0)
        (rep (st.neigbours 0)) := (f1.live_iff _ _).mpr hr_live.1
    have hro1 : owner (remove_same_areas st.g st.neigbours st.l p) (rep (st.neigbours 0)) = p := by
      rw [f1.framep_owner_eq, hr_live.2, (hnb 0 hpos).1.2]
    have hracc : merged_rep rep ((Finset.range st.l).image (fun j => rep (st.neigbours j))) acc
        (rep (st.neigbours 0)) = acc := by
      unfold merged_rep
      rw [hr_rep, if_pos hmem0]
    have hconn_nb : ∀ j, j < st.l → Conn st.g p c0 (rep (st.neigbours j)) := by
      intro j hj
      obtain ⟨a1, a2⟩ := hnb j hj
      have hlj : live st.g (fun c => c ≠ c0) (st.neigbours j) :=
        ⟨fun e => adjacent_ne a2 e.symm, a1.1, by rw [a1.2]; exact hp0⟩
      have a3 := hI.forest.rep_conn _ hlj
      rw [a1.2] at a3
      exact (Conn.single ⟨a2, hc0s, a1⟩).conn_trans a3
    have hconn1 : Conn (remove_same_areas st.g st.neigbours st.l p) p c0 acc := by
      rw [f1.framep_conn_iff]
      obtain ⟨j, hj, e⟩ := Finset.mem_image.mp f3
      rw [← e]
      exact hconn_nb j (Finset.mem_range.mp hj)
    have hadj1 : ∀ d, owns (remove_same_areas st.g st.neigbours st.l p) p d → adjacent c0 d →
        merged_rep rep ((Finset.range st.l).image (fun j => rep (st.neigbours j))) acc d
          = acc := by
      intro d hd hadj
      have hd0 : owns (take_field g c0.x c0.y p) p d := (hfr.framep_owns_iff p d).mp hd
      obtain ⟨i, hi, e⟩ := adjacent_is_nbr hw hh hb0 hd0.1 hadj
      obtain ⟨j, hj, e2⟩ := hI.nb_all i hi (e ▸ hd0)
      unfold merged_rep
      rw [if_pos]
      rw [e, ← e2]
      exact Finset.mem_image.mpr ⟨j, Finset.mem_range.mpr hj, rfl⟩
    have hFfull := extend_forest f2 hown1 hpar1 hr1 hro1 hracc hconn1 hadj1
    have hnotroot : par (remove_same_areas st.g st.neigbours st.l p) c0 ≠ c0 := by
      rw [hpar1]; exact hr_live.1.1
    have hS : (Finset.range st.l).image (fun j => rep (st.neigbours j)) ⊆
        roots_in st.g (fun c => c ≠ c0) p := by
      intro r hr
      obtain ⟨j, hj, e⟩ := Finset.mem_image.mp hr
      obtain ⟨a1, a2⟩ := hnb j (Finset.mem_range.mp hj)
      have hlj : live st.g (fun c => c ≠ c0) (st.neigbours j) :=
        ⟨fun e => adjacent_ne a2 e.symm, a1.1, by rw [a1.2]; exact hp0⟩
      have b1 := hI.forest.rep_live _ hlj
      rw [← e, mem_roots_in]
      exact ⟨b1.1.2.1, b1.1.1, b1.2.trans a1.2, hI.forest.rep_root _ hlj⟩
    refine ⟨hfr, ⟨_, _, hFfull⟩, ?_, ?_, ?_⟩
    · intro q hq hqp
      rw [@roots_eq_roots_in_of_not_root _ c0 q (Or.inr hnotroot), f5 q hq hqp,
        hI.roots q hq, hroots0 q hq]
    · rw [@roots_eq_roots_in_of_not_root _ c0 p (Or.inr hnotroot)]
      exact f6
    · rw [f6, f4, ← himg]
      have := card_filter_merged hS f3
      rw [this, ← hareas_s, hsome.1, hareas0]
      rw [dec64_of_pos (by omega)]
      omega

/-- The call `move_util` on a free on-board cell keeps the invariant, has exactly the visible effect
of a placement, and changes the area counter of `p` by one minus the number of distinct
roots among the neighbours owned by `p`. -/
theorem move_util_spec {g : gamma} {p : Nat} {c0 : field_t} {rep : field_t → field_t}
    {rk : field_t → Nat} (hC : Core g) (hF : ForestOn g (fun _ => True) rep rk)
    (hp : valid_player g p) (hb : on_board g c0) (hfree : owner g c0 = 0) :
    Core (move_util g c0.x c0.y p) ∧ Placed g p c0 (move_util g c0.x c0.y p) ∧
    ((move_util g c0.x c0.y p).players (p - 1)).num_of_areas +
      ((p_neighbours g c0 p).image rep).card = (g.players (p - 1)).num_of_areas + 1 := by
  obtain ⟨hfr, hfo, hro, har, hcount⟩ := move_util_post hC hF hp hb hfree
  have hp0 : p ≠ 0 := by have := hp.1; omega
  have hmem0 : c0 ∈ cells_of g 0 := mem_cells_of.mpr ⟨hb, hfree⟩
  have hempty_pos : 1 ≤ g.empty_fields := by
    rw [hC.empty_eq]
    exact Finset.card_pos.mpr ⟨c0, hmem0⟩
  have hempty : (move_util g c0.x c0.y p).empty_fields = g.empty_fields - 1 := by
    rw [hfr.empty_fields, take_field_empty_fields, dec64_of_pos hempty_pos]
  have hbusy : ((move_util g c0.x c0.y p).players (p - 1)).busy_fields =
      (g.players (p - 1)).busy_fields + 1 := by
    rw [hfr.busy, take_field_players_same]
    exact inc64_of_lt (hC.busy_lt hp)
  have hothers : ∀ i, i ≠ p - 1 → (move_util g c0.x c0.y p).players i = g.players i := by
    intro i hi
    rw [hfr.players_ne i hi, take_field_players_ne _ _ _ _ _ hi]
  have hpa : (move_util g c0.x c0.y p).player_arr = set2D g.player_arr c0.x c0.y p := by
    rw [hfr.player_arr, take_field_player_arr]
  have hcells : ∀ q, cells_of (move_util g c0.x c0.y p) q =
      cells_of (take_field g c0.x c0.y p) q :=
    fun q => cells_of_congr hfr.width hfr.height hfr.player_arr q
  refine ⟨?_, ?_, hcount⟩
  · constructor
    · rw [hfr.width]; exact hC.width_pos
    · rw [hfr.width]; exact hC.width_lt
    · rw [hfr.height]; exact hC.height_pos
    · rw [hfr.height]; exact hC.height_lt
    · rw [hfr.num_of_players]; exact hC.players_pos
    · rw [hfr.num_of_players]; exact hC.players_lt
    · rw [hfr.max_num_of_areas]; exact hC.areas_pos
    · rw [hfr.max_num_of_areas]; exact hC.areas_lt
    · intro c hc
      rw [hfr.framep_owner_eq, take_field_owner, hfr.num_of_players]
      change c0.x < _ ∧ _ at hb
      split
      · exact hp.2
      · exact hC.owner_le c ((hfr.framep_on_board_iff c).mp hc)
    · rw [hempty, hcells, cells_of_take_field_zero g c0 p hp0, Finset.card_erase_of_mem hmem0,
        hC.empty_eq]
    · intro q hq
      have hq' : valid_player g q := ⟨hq.1, hfr.num_of_players ▸ hq.2⟩
      by_cases hqp : q = p
      · subst hqp
        rw [hbusy, hcells, cells_of_take_field_same g c0 q hb, Finset.card_insert_of_not_mem,
          hC.busy_eq q hp]
        rw [mem_cells_of]
        rintro ⟨_, h2⟩
        exact hp0 (h2.symm.trans hfree)
      · rw [hothers _ (player_index_ne hp.1 hq.1 hqp), hcells,
          cells_of_take_field_other g c0 p q hfree hqp (by have := hq.1; omega)]
        exact hC.busy_eq q hq'
    · intro q hq
      have hq' : valid_player g q := ⟨hq.1, hfr.num_of_players ▸ hq.2⟩
      by_cases hqp : q = p
      · subst hqp
        exact har
      · rw [hothers _ (player_index_ne hp.1 hq.1 hqp), hro q (by have := hq.1; omega) hqp]
        exact hC.areas_eq q hq'
    · exact hfo
    · intro x y
      rw [hfr.visited]
      exact hC.visited_zero x y
    · rw [hfr.stack]
      exact hC.stack_empty
    · rw [hfr.stack, hfr.width, hfr.height]
      exact hC.stack_size
  · constructor
    · exact hfr.width
    · exact hfr.height
    · exact hfr.num_of_players
    · exact hfr.max_num_of_areas
    · exact hpa
    · rw [hempty]; omega
    · exact hothers
    · exact hbusy
    · rw [hfr.golden, take_field_players_same]
    · exact hfr.visited
    · exact hfr.stack

/-! ## `gamma_move` -/

theorem count_fold_ge (cond : Nat → Bool) :
    ∀ (L : List Nat) (init : Nat),
      init ≤ L.foldl (fun l i => if cond i then l + 1 else l) init := by
  intro L
  induction L with
  | nil => intro init; exact Nat.le_refl _
  | cons a L ih =>
    intro init
    rw [List.foldl_cons]
    refine Nat.le_trans ?_ (ih _)
    split <;> omega

theorem count_fold_gt (cond : Nat → Bool) :
    ∀ (L : List Nat) (init : Nat) (i : Nat), i ∈ L → cond i = true →
      init < L.foldl (fun l i => if cond i then l + 1 else l) init := by
  intro L
  induction L with
  | nil => intro init i hi; simp at hi
  | cons a L ih =>
    intro init i hi hc
    rw [List.foldl_cons]
    rcases List.mem_cons.mp hi with e | e
    · subst e
      rw [if_pos hc]
      have := count_fold_ge cond L (init + 1)
      omega
    · have h1 := ih (if cond a = true then init + 1 else init) i e hc
      have h2 : init ≤ (if cond a = true then init + 1 else init) := by split <;> omega
      omega

theorem count_fold_zero (cond : Nat → Bool) :
    ∀ (L : List Nat) (init : Nat), (∀ i, i ∈ L → cond i = false) →
      L.foldl (fun l i => if cond i then l + 1 else l) init = init := by
  intro L
  induction L with
  | nil => intro init _; rfl
  | cons a L ih =>
    intro init h
    rw [List.foldl_cons, h a (List.mem_cons_self a L)]
    exact ih init (fun i hi => h i (List.mem_cons_of_mem a hi))

theorem count_neighbours_eq_zero_iff {g : gamma} {c : field_t} {p : Nat}
    (hw : g.width < UINT32_MOD) (hh : g.height < UINT32_MOD) (hc : on_board g c) :
    count_neighbours g c.x c.y p = 0 ↔ ∀ d, owns g p d → adjacent c d → False := by
  have key : ∀ i, (!wrong_field (add32 c.x (x_dir i)) (add32 c.y (y_dir i)) g &&
      g.player_arr (add32 c.x (x_dir i)) (add32 c.y (y_dir i)) == p) = true ↔
      owns g p (nbr c i) := fun i => owned_cond_iff g (nbr c i) p
  have hdef : count_neighbours g c.x c.y p =
      (List.range DIRECTIONS).foldl (fun l i =>
        if (!wrong_field (add32 c.x (x_dir i)) (add32 c.y (y_dir i)) g &&
          g.player_arr (add32 c.x (x_dir i)) (add32 c.y (y_dir i)) == p) then l + 1 else l) 0 :=
    rfl
  rw [hdef]
  constructor
  · intro h d hd hadj
    obtain ⟨i, hi, e⟩ := adjacent_is_nbr hw hh hc hd.1 hadj
    have hk := (key i).mpr (e ▸ hd)
    have hmem : i ∈ List.range DIRECTIONS := List.mem_range.mpr hi
    have := count_fold_gt (fun i => !wrong_field (add32 c.x (x_dir i)) (add32 c.y (y_dir i)) g &&
          g.player_arr (add32 c.x (x_dir i)) (add32 c.y (y_dir i)) == p) _ 0 i hmem hk
    beta_reduce at this
    omega
  · intro h
    apply count_fold_zero (fun i => !wrong_field (add32 c.x (x_dir i)) (add32 c.y (y_dir i)) g &&
          g.player_arr (add32 c.x (x_dir i)) (add32 c.y (y_dir i)) == p)
    intro i hi
    have hi4 : i < 4 := List.mem_range.mp hi
    by_contra hk
    rw [Bool.not_eq_false] at hk
    have ho := (key i).mp hk
    exact h _ ho (nbr_on_board_adjacent hw hh hc hi4 ho.1)

/-! ## The stack -/

theorem stack_push_items (s : stack_t) (x y : Nat) :
    (stack_push s x y).items = { x := x, y := y } :: s.items := by
  unfold stack_push
  by_cases h : is_full s = true
  · simp only [if_pos h]; rfl
  · simp only [if_neg h]

theorem stack_push_size (s : stack_t) (x y : Nat) (h : s.items.length < s.size) :
    (stack_push s x y).size = s.size := by
  unfold stack_push
  have : ¬ (is_full s = true) := by
    unfold is_full
    simp
    omega
  simp only [if_neg this]

theorem is_stack_empty_iff (s : stack_t) : is_stack_empty s = true ↔ s.items = [] := by
  unfold is_stack_empty
  cases s.items <;> simp

theorem stack_pop_cons (s : stack_t) (f : field_t) (rest : List field_t)
    (h : s.items = f :: rest) : stack_pop s = (f, { s with items := rest }) := by
  unfold stack_pop
  rw [h]

/-! ## The flood fill `set_parent_dfs` -/

theorem dfs_condition_iff (h : gamma) (d : field_t) (q : Nat) :
    dfs_condition h d.x d.y q = true ↔ on_board h d ∧ vis h d = 0 ∧ owner h d = q := by
  simp [dfs_condition, wrong_field, on_board, vis, owner, and_assoc]

theorem FrameV.framev_refl (g : gamma) : FrameV g g := ⟨rfl, rfl, rfl, rfl, rfl, rfl, rfl, rfl⟩

theorem FrameV.framev_trans {g h k : gamma} (h1 : FrameV g h) (h2 : FrameV h k) : FrameV g k :=
  ⟨h2.width.trans h1.width, h2.height.trans h1.height,
   h2.num_of_players.trans h1.num_of_players, h2.max_num_of_areas.trans h1.max_num_of_areas,
   h2.empty_fields.trans h1.empty_fields, h2.players.trans h1.players,
   h2.player_arr.trans h1.player_arr, h2.areas_size.trans h1.areas_size⟩

theorem FrameV.framev_owns_iff {g h : gamma} (hf : FrameV g h) (q : Nat) (c : field_t) :
    owns h q c ↔ owns g q c :=
  owns_congr hf.width hf.height hf.player_arr q c

theorem FrameV.framev_on_board_iff {g h : gamma} (hf : FrameV g h) (c : field_t) :
    on_board h c ↔ on_board g c := by
  unfold on_board; rw [hf.width, hf.height]

theorem FrameV.framev_owner_eq {g h : gamma} (hf : FrameV g h) (c : field_t) :
    owner h c = owner g c := by
  unfold owner; rw [hf.player_arr]

theorem FrameV.framev_conn_iff {g h : gamma} (hf : FrameV g h) (q : Nat) (a b : field_t) :
    Conn h q a b ↔ Conn g q a b :=
  Conn_congr hf.width hf.height hf.player_arr q a b

theorem FrameV.board_eq {g h : gamma} (hf : FrameV g h) : board h = board g := by
  unfold board; rw [hf.width, hf.height]

theorem mem_unvisited {h : gamma} {q : Nat} {c : field_t} :
    c ∈ unvisited h q ↔ on_board h c ∧ vis h c = 0 ∧ owner h c = q := by
  simp [unvisited, mem_board]

theorem mem_marked {h : gamma} {c : field_t} : c ∈ marked h ↔ on_board h c ∧ vis h c ≠ 0 := by
  simp [marked, mem_board]

theorem closed_at_mono {q : Nat} {h h1 : gamma} {c : field_t}
    (ho : ∀ d, owns h1 q d ↔ owns h q d) (hv : ∀ d, vis h d ≠ 0 → vis h1 d ≠ 0)
    (hc : closed_at q h c) : closed_at q h1 c :=
  fun d hd hadj => hv d (hc d ((ho d).mp hd) hadj)

theorem set_parent_dfs_step_skip (f : field_t) (q : Nat) (h : gamma) (i : Nat)
    (hc : ¬ (on_board h (nbr f i) ∧ vis h (nbr f i) = 0 ∧ owner h (nbr f i) = q)) :
    set_parent_dfs_step f q h i = h := by
  unfold set_parent_dfs_step
  have h2 := (dfs_condition_iff h (nbr f i) q).not.mpr hc
  change ¬ (dfs_condition h (add32 f.x (x_dir i)) (add32 f.y (y_dir i)) q = true) at h2
  simp only [h2]
  rfl

theorem set_parent_dfs_step_push (f : field_t) (q : Nat) (h : gamma) (i : Nat)
    (hc : on_board h (nbr f i) ∧ vis h (nbr f i) = 0 ∧ owner h (nbr f i) = q) :
    set_parent_dfs_step f q h i =
      { h with
        visited := set2D h.visited (nbr f i).x (nbr f i).y 1
        stack := stack_push h.stack (nbr f i).x (nbr f i).y } := by
  unfold set_parent_dfs_step
  have h2 := (dfs_condition_iff h (nbr f i) q).mpr hc
  change (dfs_condition h (add32 f.x (x_dir i)) (add32 f.y (y_dir i)) q = true) at h2
  simp only [h2, if_true]
  rfl

theorem unvisited_mark {h h1 : gamma} {q : Nat} {d : field_t} (hw : h1.width = h.width)
    (hh : h1.height = h.height) (hp : h1.player_arr = h.player_arr)
    (hv : h1.visited = set2D h.visited d.x d.y 1) :
    unvisited h1 q = (unvisited h q).erase d := by
  ext c
  rw [Finset.mem_erase, mem_unvisited, mem_unvisited]
  unfold on_board owner vis
  rw [hw, hh, hp, hv, set2D_cell]
  by_cases hcd : c = d
  · subst hcd; simp
  · simp [hcd]

/-- Marking and pushing the unvisited neighbour `nbr f k` owned by `q`. -/
theorem dfs_push {h0 : gamma} {s f : field_t} {q k : Nat} {h h1 : gamma}
    (hw : h0.width < UINT32_MOD) (hh : h0.height < UINT32_MOD)
    (hI : DfsInv h0 s q (fun c => c = f) h)
    (hf : owns h0 q f) (hf0 : vis h0 f = 0) (hf1 : vis h f ≠ 0) (hk : k < 4)
    (hdone : ∀ i, i < k → owns h0 q (nbr f i) → vis h (nbr f i) ≠ 0)
    (hB : h.stack.items.length + (unvisited h q).card < h.stack.size)
    (hc : on_board h (nbr f k) ∧ vis h (nbr f k) = 0 ∧ owner h (nbr f k) = q)
    (e1 : FrameV h h1) (e2 : h1.parents = h.parents)
    (e3 : h1.visited = set2D h.visited (nbr f k).x (nbr f k).y 1)
    (e4 : h1.stack = stack_push h.stack (nbr f k).x (nbr f k).y) :
    DfsInv h0 s q (fun c => c = f) h1 ∧
    (∀ i, i < k + 1 → owns h0 q (nbr f i) → vis h1 (nbr f i) ≠ 0) ∧
    h1.stack.items.length + (unvisited h1 q).card =
      h.stack.items.length + (unvisited h q).card ∧
    vis h1 f ≠ 0 ∧ par h1 f = par h f := by
  have hd0 : owns h0 q (nbr f k) := (hI.frame.framev_owns_iff q _).mp ⟨hc.1, hc.2.2⟩
  have hadj : adjacent f (nbr f k) := nbr_on_board_adjacent hw hh hf.1 hk hd0.1
  have hv0 : vis h0 (nbr f k) = 0 := by
    by_contra hne
    exact hI.old_vis _ hne hc.2.1
  have hvis : ∀ c, vis h1 c = if c = nbr f k then 1 else vis h c := by
    intro c
    unfold vis
    rw [e3]
    exact set2D_cell _ _ _ _
  have hvmono : ∀ c, vis h c ≠ 0 → vis h1 c ≠ 0 := by
    intro c hcv
    rw [hvis]
    split
    · omega
    · exact hcv
  have hpar : ∀ c, par h1 c = par h c := by
    intro c; unfold par; rw [e2]
  have hmem : nbr f k ∈ unvisited h q := mem_unvisited.mpr hc
  have hlen : h.stack.items.length < h.stack.size := by omega
  have hitems : h1.stack.items = nbr f k :: h.stack.items := by
    rw [e4, stack_push_items]
  refine ⟨?_, ?_, ?_, hvmono f hf1, hpar f⟩
  · constructor
    · exact hI.frame.framev_trans e1
    · rw [e4, stack_push_size _ _ _ hlen]
      exact hI.size
    · exact hvmono s hI.seed_vis
    · intro c hcv
      exact hvmono c (hI.old_vis c hcv)
    · intro c hc0 hc1
      rw [hvis] at hc1
      by_cases hcd : c = nbr f k
      · subst hcd
        refine ⟨hd0, ?_⟩
        exact (hI.new_conn f hf0 hf1).2.conn_trans (Conn.single ⟨hadj, hf, hd0⟩)
      · rw [if_neg hcd] at hc1
        exact hI.new_conn c hc0 hc1
    · intro c hcc
      rw [hpar]
      apply hI.par_keep
      rcases hcc with a | a
      · exact Or.inl a
      · right
        rw [hvis] at a
        by_cases hcd : c = nbr f k
        · rw [if_pos hcd] at a; omega
        · rw [if_neg hcd] at a; exact a
    · intro c hcs
      rw [hitems, List.mem_cons] at hcs
      rcases hcs with e | e
      · subst e
        refine ⟨hv0, ?_⟩
        rw [hvis, if_pos rfl]
        omega
      · have := hI.stack_new c e
        exact ⟨this.1, hvmono c this.2⟩
    · intro c hc0 hc1
      rw [hitems, List.mem_cons]
      by_cases hcd : c = nbr f k
      · left; left; exact hcd
      · rw [hvis, if_neg hcd] at hc1
        rcases hI.done c hc0 hc1 with a | a | a
        · left; right; exact a
        · right; left; exact a
        · right; right
          refine ⟨(hpar c).trans a.1, ?_⟩
          exact @closed_at_mono _ h h1 _ (fun d => e1.framev_owns_iff q d) hvmono a.2
  · intro i hi ho
    by_cases hik : i = k
    · subst hik
      rw [hvis, if_pos rfl]
      omega
    · exact hvmono _ (hdone i (by omega) ho)
  · rw [hitems, @unvisited_mark h h1 _ (nbr f k) e1.width e1.height
      e1.player_arr e3, Finset.card_erase_of_mem hmem]
    have : 1 ≤ (unvisited h q).card := Finset.card_pos.mpr ⟨_, hmem⟩
    simp only [List.length_cons]
    omega

/-- One direction of the scan of the neighbours of the popped cell `f`. -/
theorem dfs_step {h0 : gamma} {s f : field_t} {q k : Nat} {h : gamma}
    (hw : h0.width < UINT32_MOD) (hh : h0.height < UINT32_MOD)
    (hI : DfsInv h0 s q (fun c => c = f) h)
    (hf : owns h0 q f) (hf0 : vis h0 f = 0) (hf1 : vis h f ≠ 0) (hk : k < 4)
    (hdone : ∀ i, i < k → owns h0 q (nbr f i) → vis h (nbr f i) ≠ 0)
    (hB : h.stack.items.length + (unvisited h q).card < h.stack.size) :
    DfsInv h0 s q (fun c => c = f) (set_parent_dfs_step f q h k) ∧
    (∀ i, i < k + 1 → owns h0 q (nbr f i) → vis (set_parent_dfs_step f q h k) (nbr f i) ≠ 0) ∧
    (set_parent_dfs_step f q h k).stack.items.length +
      (unvisited (set_parent_dfs_step f q h k) q).card =
      h.stack.items.length + (unvisited h q).card ∧
    vis (set_parent_dfs_step f q h k) f ≠ 0 ∧
    par (set_parent_dfs_step f q h k) f = par h f := by
  by_cases hc : on_board h (nbr f k) ∧ vis h (nbr f k) = 0 ∧ owner h (nbr f k) = q
  · rw [set_parent_dfs_step_push f q h k hc]
    exact dfs_push hw hh hI hf hf0 hf1 hk hdone hB hc
      ⟨rfl, rfl, rfl, rfl, rfl, rfl, rfl, rfl⟩ rfl rfl rfl
  · rw [set_parent_dfs_step_skip f q h k hc]
    refine ⟨hI, ?_, rfl, hf1, rfl⟩
    intro i hi ho
    by_cases hik : i = k
    · subst hik
      have ho2 : owns h q (nbr f i) := (hI.frame.framev_owns_iff q _).mpr ho
      by_contra hv
      exact hc ⟨ho2.1, hv, ho2.2⟩
    · exact hdone i (by omega) ho

/-- The scan of the four neighbours of the popped cell `f`. -/
theorem dfs_scan {h0 : gamma} {s f : field_t} {q : Nat} {h : gamma}
    (hw : h0.width < UINT32_MOD) (hh : h0.height < UINT32_MOD)
    (hI : DfsInv h0 s q (fun c => c = f) h)
    (hf : owns h0 q f) (hf0 : vis h0 f = 0) (hf1 : vis h f ≠ 0) (hfs : par h f = s)
    (hB : h.stack.items.length + (unvisited h q).card < h.stack.size) :
    DfsInv h0 s q (fun _ => False)
      ((List.range DIRECTIONS).foldl (set_parent_dfs_step f q) h) ∧
    ((List.range DIRECTIONS).foldl (set_parent_dfs_step f q) h).stack.items.length +
      (unvisited ((List.range DIRECTIONS).foldl (set_parent_dfs_step f q) h) q).card =
      h.stack.items.length + (unvisited h q).card := by
  rw [range_directions]
  simp only [List.foldl]
  have hsz : ∀ {a b : gamma}, DfsInv h0 s q (fun c => c = f) a →
      DfsInv h0 s q (fun c => c = f) b → b.stack.size = a.stack.size :=
    fun ha hb => hb.size.trans ha.size.symm
  obtain ⟨a1, a2, a3, a4, a5⟩ := dfs_step hw hh hI hf hf0 hf1 (k := 0) (by omega)
    (fun i hi => absurd hi (Nat.not_lt_zero _)) hB
  obtain ⟨b1, b2, b3, b4, b5⟩ := dfs_step hw hh a1 hf hf0 a4 (k := 1) (by omega) a2
    (by rw [a3, hsz hI a1]; exact hB)
  obtain ⟨c1, c2, c3, c4, c5⟩ := dfs_step hw hh b1 hf hf0 b4 (k := 2) (by omega) b2
    (by rw [b3, a3, hsz hI b1]; exact hB)
  obtain ⟨d1, d2, d3, d4, d5⟩ := dfs_step hw hh c1 hf hf0 c4 (k := 3) (by omega) c2
    (by rw [c3, b3, a3, hsz hI c1]; exact hB)
  refine ⟨?_, by rw [d3, c3, b3, a3]⟩
  constructor
  · exact d1.frame
  · exact d1.size
  · exact d1.seed_vis
  · exact d1.old_vis
  · exact d1.new_conn
  · exact d1.par_keep
  · exact d1.stack_new
  · intro c hc0 hc1
    rcases d1.done c hc0 hc1 with a | a | a
    · left; exact a
    · right; right
      subst a
      refine ⟨by rw [d5, c5, b5, a5]; exact hfs, ?_⟩
      intro d hd hadj
      have hd0 : owns h0 q d := (d1.frame.framev_owns_iff q d).mp hd
      obtain ⟨i, hi, e⟩ := adjacent_is_nbr hw hh hf.1 hd0.1 hadj
      rw [e]
      exact d2 i (by omega) (e ▸ hd0)
    · right; right; exact a

theorem set_parent_dfs_loop_nil (parent : field_t) (p fuel : Nat) (g : gamma) (count : Nat)
    (h : g.stack.items = []) :
    set_parent_dfs_loop parent p fuel g count = (g, count) := by
  cases fuel with
  | zero => rfl
  | succ n =>
    unfold set_parent_dfs_loop
    rw [if_pos ((is_stack_empty_iff _).mpr h)]

theorem set_parent_dfs_loop_cons (parent : field_t) (p fuel : Nat) (g : gamma) (count : Nat)
    (f : field_t) (rest : List field_t) (h : g.stack.items = f :: rest) :
    set_parent_dfs_loop parent p (fuel + 1) g count =
      set_parent_dfs_loop parent p fuel
        ((List.range DIRECTIONS).foldl (set_parent_dfs_step f p)
          { g with
            stack := { g.stack with items := rest }
            parents := set2D g.parents f.x f.y parent })
        (inc64 count) := by
  have hne : ¬ (is_stack_empty g.stack = true) := by
    rw [is_stack_empty_iff, h]; simp
  rw [set_parent_dfs_loop, if_neg hne]
  simp only [stack_pop_cons g.stack f rest h]

/-- Popping the cell `f` and making the seed its parent. -/
theorem dfs_pop {h0 : gamma} {s f : field_t} {q : Nat} {h h1 : gamma} {rest : List field_t}
    (hI : DfsInv h0 s q (fun _ => False) h) (hst : h.stack.items = f :: rest)
    (e1 : FrameV h h1) (e2 : h1.parents = set2D h.parents f.x f.y s)
    (e3 : h1.visited = h.visited) (e4 : h1.stack.items = rest)
    (e5 : h1.stack.size = h.stack.size) :
    DfsInv h0 s q (fun c => c = f) h1 ∧ owns h0 q f ∧ vis h0 f = 0 ∧ vis h1 f ≠ 0 ∧
    par h1 f = s ∧ unvisited h1 q = unvisited h q := by
  have hfN := hI.stack_new f (by rw [hst]; exact List.mem_cons_self _ _)
  have hvis : ∀ c, vis h1 c = vis h c := by
    intro c; unfold vis; rw [e3]
  have hpar : ∀ c, par h1 c = if c = f then s else par h c := by
    intro c; unfold par; rw [e2]; exact set2D_cell _ _ _ _
  refine ⟨?_, (hI.new_conn f hfN.1 hfN.2).1, hfN.1, by rw [hvis]; exact hfN.2, ?_, ?_⟩
  · constructor
    · exact hI.frame.framev_trans e1
    · rw [e5]; exact hI.size
    · rw [hvis]; exact hI.seed_vis
    · intro c hc; rw [hvis]; exact hI.old_vis c hc
    · intro c hc0 hc1
      rw [hvis] at hc1
      exact hI.new_conn c hc0 hc1
    · intro c hcc
      rw [hvis] at hcc
      have hcf : c ≠ f := by
        rintro rfl
        rcases hcc with a | a
        · exact a hfN.1
        · exact hfN.2 a
      rw [hpar, if_neg hcf]
      exact hI.par_keep c hcc
    · intro c hcs
      rw [e4] at hcs
      have := hI.stack_new c (by rw [hst]; exact List.mem_cons_of_mem _ hcs)
      exact ⟨this.1, by rw [hvis]; exact this.2⟩
    · intro c hc0 hc1
      rw [hvis] at hc1
      rw [e4]
      by_cases hcf : c = f
      · right; left; exact hcf
      · rcases hI.done c hc0 hc1 with a | a | a
        · rw [hst, List.mem_cons] at a
          rcases a with a | a
          · exact absurd a hcf
          · left; exact a
        · exact absurd a id
        · right; right
          refine ⟨by rw [hpar, if_neg hcf]; exact a.1, ?_⟩
          exact @closed_at_mono _ h h1 _ (fun d => e1.framev_owns_iff q d)
            (fun d hd => by rw [hvis]; exact hd) a.2
  · rw [hpar, if_pos rfl]
  · ext c
    rw [mem_unvisited, mem_unvisited, hvis, e1.framev_on_board_iff, e1.framev_owner_eq]

/-- One iteration of the loop of `set_parent_dfs`. -/
theorem dfs_iter {h0 : gamma} {s f : field_t} {q : Nat} {h h1 : gamma} {rest : List field_t}
    (hw : h0.width < UINT32_MOD) (hh : h0.height < UINT32_MOD)
    (hI : DfsInv h0 s q (fun _ => False) h) (hst : h.stack.items = f :: rest)
    (e1 : FrameV h h1) (e2 : h1.parents = set2D h.parents f.x f.y s)
    (e3 : h1.visited = h.visited) (e4 : h1.stack.items = rest)
    (e5 : h1.stack.size = h.stack.size)
    (hsize : rest.length + 1 + (unvisited h q).card ≤ h.stack.size) :
    DfsInv h0 s q (fun _ => False)
      ((List.range DIRECTIONS).foldl (set_parent_dfs_step f q) h1) ∧
    ((List.range DIRECTIONS).foldl (set_parent_dfs_step f q) h1).stack.items.length +
      (unvisited ((List.range DIRECTIONS).foldl (set_parent_dfs_step f q) h1) q).card =
      rest.length + (unvisited h q).card ∧
    ((List.range DIRECTIONS).foldl (set_parent_dfs_step f q) h1).stack.size = h.stack.size := by
  obtain ⟨p1, p2, p3, p4, p5, p6⟩ := dfs_pop hI hst e1 e2 e3 e4 e5
  have hB : h1.stack.items.length + (unvisited h1 q).card < h1.stack.size := by
    rw [p6, e4, e5]
    omega
  obtain ⟨s1, s2⟩ := dfs_scan hw hh p1 p2 p3 p4 p5 hB
  refine ⟨s1, ?_, s1.size.trans hI.size.symm⟩
  rw [s2, p6, e4]

/-- The loop of `set_parent_dfs` runs until the stack is empty and keeps the invariant. -/
theorem dfs_loop_spec {h0 : gamma} {s : field_t} {q : Nat}
    (hw : h0.width < UINT32_MOD) (hh : h0.height < UINT32_MOD) :
    ∀ (fuel : Nat) (h : gamma) (count : Nat),
      DfsInv h0 s q (fun _ => False) h →
      h.stack.items.length + (unvisited h q).card ≤ fuel →
      h.stack.items.length + (unvisited h q).card ≤ h.stack.size →
      count + h.stack.items.length + (unvisited h q).card < UINT64_MOD →
      DfsInv h0 s q (fun _ => False) (set_parent_dfs_loop s q fuel h count).1 ∧
      (set_parent_dfs_loop s q fuel h count).1.stack.items = [] ∧
      (set_parent_dfs_loop s q fuel h count).2 +
        (unvisited (set_parent_dfs_loop s q fuel h count).1 q).card =
        count + h.stack.items.length + (unvisited h q).card := by
  intro fuel
  induction fuel with
  | zero =>
    intro h count hI hfuel _ _
    have hnil : h.stack.items = [] := by
      apply List.eq_nil_of_length_eq_zero
      omega
    rw [set_parent_dfs_loop_nil s q 0 h count hnil]
    refine ⟨hI, hnil, ?_⟩
    simp [hnil]
  | succ n ih =>
    intro h count hI hfuel hsize hcount
    rcases List.eq_nil_or_concat h.stack.items with hs | hs
    · rw [set_parent_dfs_loop_nil s q (n + 1) h count hs]
      refine ⟨hI, hs, ?_⟩
      simp [hs]
    · have hne : h.stack.items ≠ [] := by
        obtain ⟨L, b, e⟩ := hs
        rw [e]; simp
      obtain ⟨f, rest, hs2⟩ := List.exists_cons_of_ne_nil hne
      rw [set_parent_dfs_loop_cons s q n h count f rest hs2]
      have hlen : h.stack.items.length = rest.length + 1 := by rw [hs2]; rfl
      obtain ⟨s1, s2, s3⟩ := @dfs_iter _ _ _ _ _
        { h with
          stack := { h.stack with items := rest }
          parents := set2D h.parents f.x f.y s }
        _ hw hh hI hs2 ⟨rfl, rfl, rfl, rfl, rfl, rfl, rfl, rfl⟩ rfl rfl rfl rfl (by omega)
      generalize (List.range DIRECTIONS).foldl (set_parent_dfs_step f q)
        { h with
          stack := { h.stack with items := rest }
          parents := set2D h.parents f.x f.y s } = h2 at s1 s2 s3 ⊢
      have hinc : inc64 count = count + 1 := inc64_of_lt (by omega)
      obtain ⟨r1, r2, r3⟩ := ih h2 (inc64 count) s1 (by omega) (by omega) (by omega)
      refine ⟨r1, r2, ?_⟩
      omega

theorem stack_ext {a b : stack_t} (h1 : a.items = b.items) (h2 : a.size = b.size) : a = b := by
  cases a; cases b; simp_all

theorem unvisited_card_le (h : gamma) (q : Nat) : (unvisited h q).card ≤ h.width * h.height := by
  rw [← card_board]; exact Finset.card_filter_le _ _

/-- The start of `set_parent_dfs`: the seed is pushed and marked. -/
theorem dfs_start {h0 h2 : gamma} {s : field_t} {q : Nat}
    (hs : owns h0 q s) (hv : vis h0 s = 0) (hst : h0.stack.items = [])
    (hsz : h0.stack.size = h0.width * h0.height)
    (e1 : FrameV h0 h2) (e2 : h2.parents = h0.parents)
    (e3 : h2.visited = set2D h0.visited s.x s.y 1)
    (e4 : h2.stack = stack_push h0.stack s.x s.y) :
    DfsInv h0 s q (fun _ => False) h2 ∧
    h2.stack.items.length + (unvisited h2 q).card = (unvisited h0 q).card := by
  have hvis : ∀ c, vis h2 c = if c = s then 1 else vis h0 c := by
    intro c
    unfold vis
    rw [e3]
    exact set2D_cell _ _ _ _
  have hitems : h2.stack.items = [s] := by
    rw [e4, stack_push_items, hst]
  have hpos : 0 < h0.width * h0.height := by
    have := hs.1
    unfold on_board at this
    exact Nat.mul_pos (by omega) (by omega)
  have hmem : s ∈ unvisited h0 q := mem_unvisited.mpr ⟨hs.1, hv, hs.2⟩
  constructor
  · constructor
    · exact e1
    · rw [e4, stack_push_size _ _ _ (by rw [hst, hsz]; exact hpos)]
    · rw [hvis, if_pos rfl]; omega
    · intro c hc
      rw [hvis]
      split
      · omega
      · exact hc
    · intro c hc0 hc1
      rw [hvis] at hc1
      by_cases hcs : c = s
      · subst hcs
        exact ⟨hs, Conn.conn_refl _ _ _⟩
      · rw [if_neg hcs] at hc1
        exact absurd hc0 hc1
    · intro c _
      unfold par
      rw [e2]
    · intro c hc
      rw [hitems, List.mem_singleton] at hc
      subst hc
      refine ⟨hv, ?_⟩
      rw [hvis, if_pos rfl]; omega
    · intro c hc0 hc1
      rw [hvis] at hc1
      by_cases hcs : c = s
      · left
        rw [hitems, hcs]
        exact List.mem_singleton.mpr rfl
      · rw [if_neg hcs] at hc1
        exact absurd hc0 hc1
  · rw [hitems, @unvisited_mark h0 h2 _ s e1.width e1.height e1.player_arr e3,
      Finset.card_erase_of_mem hmem]
    have : 1 ≤ (unvisited h0 q).card := Finset.card_pos.mpr ⟨_, hmem⟩
    simp only [List.length_singleton]
    omega

theorem set_parent_dfs_unfold (g : gamma) (parent : field_t) (x y p : Nat) :
    set_parent_dfs g parent x y p =
      set_parent_dfs_loop parent p (g.width * g.height)
        { g with
          stack := stack_push g.stack x y
          visited := set2D g.visited x y 1 } 0 := rfl

/-- The flood fill marks exactly the area of the seed in the board of `h0`, makes the seed
the parent of every cell of that area and leaves everything else as it was. -/
theorem set_parent_dfs_spec {h0 : gamma} {s : field_t} {q : Nat}
    (hw : h0.width < UINT32_MOD) (hh : h0.height < UINT32_MOD)
    (hs : owns h0 q s) (hv : vis h0 s = 0) (hst : h0.stack.items = [])
    (hsz : h0.stack.size = h0.width * h0.height)
    (hclosed : ∀ a b, vis h0 a ≠ 0 → owns h0 q a → owns h0 q b → adjacent a b →
      vis h0 b ≠ 0) :
    FrameV h0 (set_parent_dfs h0 s s.x s.y q).1 ∧
    (set_parent_dfs h0 s s.x s.y q).1.stack = h0.stack ∧
    (∀ c, vis h0 c ≠ 0 → vis (set_parent_dfs h0 s s.x s.y q).1 c ≠ 0) ∧
    (∀ c, vis h0 c = 0 →
      (vis (set_parent_dfs h0 s s.x s.y q).1 c ≠ 0 ↔ owns h0 q c ∧ Conn h0 q s c)) ∧
    (∀ c, vis h0 c = 0 → owns h0 q c → Conn h0 q s c →
      par (set_parent_dfs h0 s s.x s.y q).1 c = s) ∧
    (∀ c, (vis h0 c ≠ 0 ∨ ¬ (owns h0 q c ∧ Conn h0 q s c)) →
      par (set_parent_dfs h0 s s.x s.y q).1 c = par h0 c) ∧
    (set_parent_dfs h0 s s.x s.y q).2 +
      (unvisited (set_parent_dfs h0 s s.x s.y q).1 q).card = (unvisited h0 q).card := by
  obtain ⟨i1, i2⟩ := @dfs_start _
    { h0 with
      stack := stack_push h0.stack s.x s.y
      visited := set2D h0.visited s.x s.y 1 }
    _ _ hs hv hst hsz ⟨rfl, rfl, rfl, rfl, rfl, rfl, rfl, rfl⟩ rfl rfl rfl
  rw [set_parent_dfs_unfold]
  generalize ({ h0 with
      stack := stack_push h0.stack s.x s.y
      visited := set2D h0.visited s.x s.y 1 } : gamma) = h2 at i1 i2 ⊢
  have hU := unvisited_card_le h0 q
  have hbb := board_bound hw hh
  have hsz2 : h2.stack.size = h0.stack.size := i1.size
  obtain ⟨r1, r2, r3⟩ := dfs_loop_spec hw hh (h0.width * h0.height) h2 0 i1
    (by omega) (by omega) (by omega)
  generalize set_parent_dfs_loop s q (h0.width * h0.height) h2 0 = res at r1 r2 r3 ⊢
  have hin : ∀ c, owns h0 q c → Conn h0 q s c → vis res.1 c ≠ 0 := by
    intro c hc hconn
    induction hconn with
    | refl => exact r1.seed_vis
    | tail hab hbc ih =>
      rename_i a b
      have ha := ih hbc.2.1
      by_cases ha0 : vis h0 a = 0
      · rcases r1.done a ha0 ha with e | e | e
        · rw [r2] at e; simp at e
        · exact absurd e id
        · exact e.2 b ((r1.frame.framev_owns_iff q b).mpr hbc.2.2) hbc.1
      · exact r1.old_vis b (hclosed a b ha0 hbc.2.1 hbc.2.2 hbc.1)
  refine ⟨r1.frame, stack_ext (by rw [r2, hst]) r1.size, r1.old_vis, ?_, ?_, ?_, ?_⟩
  · intro c hc0
    constructor
    · intro hc1; exact r1.new_conn c hc0 hc1
    · rintro ⟨a, b⟩; exact hin c a b
  · intro c hc0 hc hconn
    rcases r1.done c hc0 (hin c hc hconn) with e | e | e
    · rw [r2] at e; simp at e
    · exact absurd e id
    · exact e.1
  · intro c hcc
    apply r1.par_keep
    rcases hcc with a | a
    · exact Or.inl a
    · by_cases hc0 : vis h0 c = 0
      · right
        by_contra hne
        exact a (r1.new_conn c hc0 hne)
      · exact Or.inl hc0
  · rw [r3]
    omega

/-! ## The traversal `init_visited` -/

theorem clear_cond_iff (h : gamma) (d : field_t) :
    (!wrong_field d.x d.y h && h.visited d.x d.y != 0) = true ↔ on_board h d ∧ vis h d ≠ 0 := by
  simp [wrong_field, on_board, vis]

theorem init_visited_step_skip (f : field_t) (h : gamma) (i : Nat)
    (hc : ¬ (on_board h (nbr f i) ∧ vis h (nbr f i) ≠ 0)) :
    init_visited_step f h i = h := by
  unfold init_visited_step
  have h2 := (clear_cond_iff h (nbr f i)).not.mpr hc
  change ¬ ((!wrong_field (add32 f.x (x_dir i)) (add32 f.y (y_dir i)) h &&
    h.visited (add32 f.x (x_dir i)) (add32 f.y (y_dir i)) != 0) = true) at h2
  simp only [h2]
  rfl

theorem init_visited_step_push (f : field_t) (h : gamma) (i : Nat)
    (hc : on_board h (nbr f i) ∧ vis h (nbr f i) ≠ 0) :
    init_visited_step f h i =
      { h with
        visited := set2D h.visited (nbr f i).x (nbr f i).y 0
        stack := stack_push h.stack (nbr f i).x (nbr f i).y } := by
  unfold init_visited_step
  have h2 := (clear_cond_iff h (nbr f i)).mpr hc
  change ((!wrong_field (add32 f.x (x_dir i)) (add32 f.y (y_dir i)) h &&
    h.visited (add32 f.x (x_dir i)) (add32 f.y (y_dir i)) != 0) = true) at h2
  simp only [h2, if_true]
  rfl

theorem marked_clear {h h1 : gamma} {d : field_t} (hw : h1.width = h.width)
    (hh : h1.height = h.height) (hv : h1.visited = set2D h.visited d.x d.y 0) :
    marked h1 = (marked h).erase d := by
  ext c
  rw [Finset.mem_erase, mem_marked, mem_marked]
  unfold on_board vis
  rw [hw, hh, hv, set2D_cell]
  by_cases hcd : c = d
  · subst hcd; simp
  · simp [hcd]

/-- Clearing and pushing the marked neighbour `nbr f k`. -/
theorem clear_push {h0 : gamma} {c0 f : field_t} {k : Nat} {h h1 : gamma}
    (hI : ClearInv h0 c0 (fun c => c = f) h)
    (hdone : ∀ i, i < k → on_board h0 (nbr f i) → vis h (nbr f i) = 0)
    (hB : h.stack.items.length + (marked h).card < h.stack.size)
    (hc : on_board h (nbr f k) ∧ vis h (nbr f k) ≠ 0)
    (e1 : FrameV h h1) (e2 : h1.parents = h.parents)
    (e3 : h1.visited = set2D h.visited (nbr f k).x (nbr f k).y 0)
    (e4 : h1.stack = stack_push h.stack (nbr f k).x (nbr f k).y) :
    ClearInv h0 c0 (fun c => c = f) h1 ∧
    (∀ i, i < k + 1 → on_board h0 (nbr f i) → vis h1 (nbr f i) = 0) ∧
    h1.stack.items.length + (marked h1).card = h.stack.items.length + (marked h).card := by
  have hvis : ∀ c, vis h1 c = if c = nbr f k then 0 else vis h c := by
    intro c
    unfold vis
    rw [e3]
    exact set2D_cell _ _ _ _
  have hvmono : ∀ c, vis h c = 0 → vis h1 c = 0 := by
    intro c hcv
    rw [hvis]
    split
    · rfl
    · exact hcv
  have hmem : nbr f k ∈ marked h := mem_marked.mpr hc
  have hlen : h.stack.items.length < h.stack.size := by omega
  have hitems : h1.stack.items = nbr f k :: h.stack.items := by
    rw [e4, stack_push_items]
  refine ⟨?_, ?_, ?_⟩
  · constructor
    · exact hI.frame.framev_trans e1
    · rw [e2]; exact hI.parents
    · rw [e4, stack_push_size _ _ _ hlen]
      exact hI.size
    · exact hvmono c0 hI.start
    · intro c hcv
      rw [hvis] at hcv ⊢
      by_cases hcd : c = nbr f k
      · rw [if_pos hcd] at hcv; exact absurd rfl hcv
      · rw [if_neg hcd] at hcv ⊢
        exact hI.mono c hcv
    · intro c hcs
      rw [hitems, List.mem_cons] at hcs
      rcases hcs with e | e
      · subst e
        exact (hI.frame.framev_on_board_iff _).mp hc.1
      · exact hI.stack_on c e
    · intro c hcc
      rw [hitems, List.mem_cons]
      by_cases hcd : c = nbr f k
      · left; left; exact hcd
      · have hcc2 : c = c0 ∨ (vis h0 c ≠ 0 ∧ vis h c = 0) := by
          rcases hcc with a | a
          · exact Or.inl a
          · right
            have := a.2
            rw [hvis, if_neg hcd] at this
            exact ⟨a.1, this⟩
        rcases hI.done c hcc2 with a | a | a
        · left; right; exact a
        · right; left; exact a
        · right; right
          intro d hd hadj
          exact hvmono d (a d hd hadj)
  · intro i hi ho
    by_cases hik : i = k
    · subst hik
      rw [hvis, if_pos rfl]
    · exact hvmono _ (hdone i (by omega) ho)
  · rw [hitems, @marked_clear h h1 (nbr f k) e1.width e1.height e3,
      Finset.card_erase_of_mem hmem]
    have : 1 ≤ (marked h).card := Finset.card_pos.mpr ⟨_, hmem⟩
    simp only [List.length_cons]
    omega

/-- One direction of the scan of the neighbours of the popped cell `f`. -/
theorem clear_step {h0 : gamma} {c0 f : field_t} {k : Nat} {h : gamma}
    (hI : ClearInv h0 c0 (fun c => c = f) h)
    (hdone : ∀ i, i < k → on_board h0 (nbr f i) → vis h (nbr f i) = 0)
    (hB : h.stack.items.length + (marked h).card < h.stack.size) :
    ClearInv h0 c0 (fun c => c = f) (init_visited_step f h k) ∧
    (∀ i, i < k + 1 → on_board h0 (nbr f i) → vis (init_visited_step f h k) (nbr f i) = 0) ∧
    (init_visited_step f h k).stack.items.length + (marked (init_visited_step f h k)).card =
      h.stack.items.length + (marked h).card := by
  by_cases hc : on_board h (nbr f k) ∧ vis h (nbr f k) ≠ 0
  · rw [init_visited_step_push f h k hc]
    exact clear_push hI hdone hB hc ⟨rfl, rfl, rfl, rfl, rfl, rfl, rfl, rfl⟩ rfl rfl rfl
  · rw [init_visited_step_skip f h k hc]
    refine ⟨hI, ?_, rfl⟩
    intro i hi ho
    by_cases hik : i = k
    · subst hik
      have ho2 : on_board h (nbr f i) := (hI.frame.framev_on_board_iff _).mpr ho
      by_contra hv
      exact hc ⟨ho2, hv⟩
    · exact hdone i (by omega) ho

/-- The scan of the four neighbours of the popped cell `f`. -/
theorem clear_scan {h0 : gamma} {c0 f : field_t} {h : gamma}
    (hw : h0.width < UINT32_MOD) (hh : h0.height < UINT32_MOD)
    (hI : ClearInv h0 c0 (fun c => c = f) h) (hf : on_board h0 f)
    (hB : h.stack.items.length + (marked h).card < h.stack.size) :
    ClearInv h0 c0 (fun _ => False) ((List.range DIRECTIONS).foldl (init_visited_step f) h) ∧
    ((List.range DIRECTIONS).foldl (init_visited_step f) h).stack.items.length +
      (marked ((List.range DIRECTIONS).foldl (init_visited_step f) h)).card =
      h.stack.items.length + (marked h).card := by
  rw [range_directions]
  simp only [List.foldl]
  have hsz : ∀ {a b : gamma}, ClearInv h0 c0 (fun c => c = f) a →
      ClearInv h0 c0 (fun c => c = f) b → b.stack.size = a.stack.size :=
    fun ha hb => hb.size.trans ha.size.symm
  obtain ⟨a1, a2, a3⟩ := clear_step hI (k := 0) (fun i hi => absurd hi (Nat.not_lt_zero _)) hB
  obtain ⟨b1, b2, b3⟩ := clear_step a1 (k := 1) a2 (by rw [a3, hsz hI a1]; exact hB)
  obtain ⟨c1, c2, c3⟩ := clear_step b1 (k := 2) b2 (by rw [b3, a3, hsz hI b1]; exact hB)
  obtain ⟨d1, d2, d3⟩ := clear_step c1 (k := 3) c2 (by rw [c3, b3, a3, hsz hI c1]; exact hB)
  refine ⟨?_, by rw [d3, c3, b3, a3]⟩
  constructor
  · exact d1.frame
  · exact d1.parents
  · exact d1.size
  · exact d1.start
  · exact d1.mono
  · exact d1.stack_on
  · intro c hcc
    rcases d1.done c hcc with a | a | a
    · left; exact a
    · right; right
      subst a
      intro d hd hadj
      obtain ⟨i, hi, e⟩ := adjacent_is_nbr hw hh hf hd hadj
      rw [e]
      exact d2 i (by omega) (e ▸ hd)
    · right; right; exact a

theorem init_visited_loop_nil (fuel : Nat) (g : gamma) (h : g.stack.items = []) :
    init_visited_loop fuel g = g := by
  cases fuel with
  | zero => rfl
  | succ n =>
    unfold init_visited_loop
    rw [if_pos ((is_stack_empty_iff _).mpr h)]

theorem init_visited_loop_cons (fuel : Nat) (g : gamma) (f : field_t) (rest : List field_t)
    (h : g.stack.items = f :: rest) :
    init_visited_loop (fuel + 1) g =
      init_visited_loop fuel
        ((List.range DIRECTIONS).foldl (init_visited_step f)
          { g with stack := { g.stack with items := rest } }) := by
  have hne : ¬ (is_stack_empty g.stack = true) := by
    rw [is_stack_empty_iff, h]; simp
  rw [init_visited_loop, if_neg hne]
  simp only [stack_pop_cons g.stack f rest h]

/-- One iteration of the loop of `init_visited`. -/
theorem clear_iter {h0 : gamma} {c0 f : field_t} {h h1 : gamma} {rest : List field_t}
    (hw : h0.width < UINT32_MOD) (hh : h0.height < UINT32_MOD)
    (hI : ClearInv h0 c0 (fun _ => False) h) (hst : h.stack.items = f :: rest)
    (e1 : FrameV h h1) (e2 : h1.parents = h.parents)
    (e3 : h1.visited = h.visited) (e4 : h1.stack.items = rest)
    (e5 : h1.stack.size = h.stack.size)
    (hsize : rest.length + 1 + (marked h).card ≤ h.stack.size) :
    ClearInv h0 c0 (fun _ => False) ((List.range DIRECTIONS).foldl (init_visited_step f) h1) ∧
    ((List.range DIRECTIONS).foldl (init_visited_step f) h1).stack.items.length +
      (marked ((List.range DIRECTIONS).foldl (init_visited_step f) h1)).card =
      rest.length + (marked h).card ∧
    ((List.range DIRECTIONS).foldl (init_visited_step f) h1).stack.size = h.stack.size := by
  have hvis : ∀ c, vis h1 c = vis h c := by
    intro c; unfold vis; rw [e3]
  have hf : on_board h0 f := hI.stack_on f (by rw [hst]; exact List.mem_cons_self _ _)
  have hm : marked h1 = marked h := by
    ext c
    rw [mem_marked, mem_marked, hvis, e1.framev_on_board_iff]
  have hI1 : ClearInv h0 c0 (fun c => c = f) h1 := by
    constructor
    · exact hI.frame.framev_trans e1
    · rw [e2]; exact hI.parents
    · rw [e5]; exact hI.size
    · rw [hvis]; exact hI.start
    · intro c hc
      rw [hvis] at hc ⊢
      exact hI.mono c hc
    · intro c hcs
      rw [e4] at hcs
      exact hI.stack_on c (by rw [hst]; exact List.mem_cons_of_mem _ hcs)
    · intro c hcc
      rw [hvis] at hcc
      rw [e4]
      rcases hI.done c hcc with a | a | a
      · rw [hst, List.mem_cons] at a
        rcases a with a | a
        · right; left; exact a
        · left; exact a
      · exact absurd a id
      · right; right
        intro d hd hadj
        rw [hvis]
        exact a d hd hadj
  have hB : h1.stack.items.length + (marked h1).card < h1.stack.size := by
    rw [hm, e4, e5]
    omega
  obtain ⟨s1, s2⟩ := clear_scan hw hh hI1 hf hB
  refine ⟨s1, ?_, s1.size.trans hI.size.symm⟩
  rw [s2, hm, e4]

/-- The loop of `init_visited` runs until the stack is empty and keeps the invariant. -/
theorem clear_loop_spec {h0 : gamma} {c0 : field_t}
    (hw : h0.width < UINT32_MOD) (hh : h0.height < UINT32_MOD) :
    ∀ (fuel : Nat) (h : gamma),
      ClearInv h0 c0 (fun _ => False) h →
      h.stack.items.length + (marked h).card ≤ fuel →
      h.stack.items.length + (marked h).card ≤ h.stack.size →
      ClearInv h0 c0 (fun _ => False) (init_visited_loop fuel h) ∧
      (init_visited_loop fuel h).stack.items = [] := by
  intro fuel
  induction fuel with
  | zero =>
    intro h hI hfuel _
    have hnil : h.stack.items = [] := by
      apply List.eq_nil_of_length_eq_zero
      omega
    rw [init_visited_loop_nil 0 h hnil]
    exact ⟨hI, hnil⟩
  | succ n ih =>
    intro h hI hfuel hsize
    by_cases hs : h.stack.items = []
    · rw [init_visited_loop_nil (n + 1) h hs]
      exact ⟨hI, hs⟩
    · obtain ⟨f, rest, hs2⟩ := List.exists_cons_of_ne_nil hs
      rw [init_visited_loop_cons n h f rest hs2]
      have hlen : h.stack.items.length = rest.length + 1 := by rw [hs2]; rfl
      obtain ⟨s1, s2, s3⟩ := @clear_iter _ _ _ _
        { h with stack := { h.stack with items := rest } }
        _ hw hh hI hs2 ⟨rfl, rfl, rfl, rfl, rfl, rfl, rfl, rfl⟩ rfl rfl rfl rfl (by omega)
      generalize (List.range DIRECTIONS).foldl (init_visited_step f)
        { h with stack := { h.stack with items := rest } } = h2 at s1 s2 s3 ⊢
      exact ih h2 s1 (by omega) (by omega)

theorem init_visited_unfold (g : gamma) (x y : Nat) :
    init_visited g x y =
      init_visited_loop (g.width * g.height)
        { g with
          stack := stack_push g.stack x y
          visited := set2D g.visited x y 0 } := rfl

/-- The call `init_visited` clears every visited marker when every marked cell can be reached from
the start cell through marked on-board cells; it changes nothing else. -/
theorem init_visited_spec {h0 : gamma} {c0 : field_t}
    (hw : h0.width < UINT32_MOD) (hh : h0.height < UINT32_MOD)
    (hc0 : on_board h0 c0) (hst : h0.stack.items = [])
    (hsz : h0.stack.size = h0.width * h0.height)
    (hreach : ∀ c, vis h0 c ≠ 0 → VReach h0 c0 c) :
    FrameV h0 (init_visited h0 c0.x c0.y) ∧
    (init_visited h0 c0.x c0.y).parents = h0.parents ∧
    (init_visited h0 c0.x c0.y).stack = h0.stack ∧
    (∀ x y, (init_visited h0 c0.x c0.y).visited x y = 0) := by
  have hpos : 0 < h0.width * h0.height := by
    unfold on_board at hc0
    exact Nat.mul_pos (by omega) (by omega)
  have hstart : ∀ h2 : gamma, FrameV h0 h2 → h2.parents = h0.parents →
      h2.visited = set2D h0.visited c0.x c0.y 0 → h2.stack = stack_push h0.stack c0.x c0.y →
      ClearInv h0 c0 (fun _ => False) h2 ∧
        h2.stack.items.length + (marked h2).card ≤ h0.width * h0.height := by
    intro h2 e1 e2 e3 e4
    have hvis : ∀ c, vis h2 c = if c = c0 then 0 else vis h0 c := by
      intro c
      unfold vis
      rw [e3]
      exact set2D_cell _ _ _ _
    have hitems : h2.stack.items = [c0] := by
      rw [e4, stack_push_items, hst]
    constructor
    · constructor
      · exact e1
      · exact e2
      · rw [e4, stack_push_size _ _ _ (by rw [hst, hsz]; exact hpos)]
      · rw [hvis, if_pos rfl]
      · intro c hc
        rw [hvis] at hc ⊢
        by_cases hcc : c = c0
        · rw [if_pos hcc] at hc; exact absurd rfl hc
        · rw [if_neg hcc]
      · intro c hc
        rw [hitems, List.mem_singleton] at hc
        rw [hc]; exact hc0
      · intro c hcc
        left
        rw [hitems, List.mem_singleton]
        rcases hcc with a | a
        · exact a
        · by_contra hne
          have := a.2
          rw [hvis, if_neg hne] at this
          exact a.1 this
    · rw [hitems]
      have hsub : marked h2 ⊆ (board h0).erase c0 := by
        intro c hc
        rw [mem_marked] at hc
        rw [Finset.mem_erase, mem_board]
        refine ⟨?_, (e1.framev_on_board_iff c).mp hc.1⟩
        rintro rfl
        have := hc.2
        rw [hvis, if_pos rfl] at this
        exact this rfl
      have := Finset.card_le_card hsub
      rw [Finset.card_erase_of_mem (mem_board.mpr hc0), card_board] at this
      simp only [List.length_singleton]
      omega
  obtain ⟨i1, i2⟩ := hstart
    { h0 with
      stack := stack_push h0.stack c0.x c0.y
      visited := set2D h0.visited c0.x c0.y 0 }
    ⟨rfl, rfl, rfl, rfl, rfl, rfl, rfl, rfl⟩ rfl rfl rfl
  rw [init_visited_unfold]
  generalize ({ h0 with
      stack := stack_push h0.stack c0.x c0.y
      visited := set2D h0.visited c0.x c0.y 0 } : gamma) = h2 at i1 i2 ⊢
  have hsz2 : h2.stack.size = h0.stack.size := i1.size
  obtain ⟨r1, r2⟩ := clear_loop_spec hw hh (h0.width * h0.height) h2 i1 i2 (by omega)
  generalize init_visited_loop (h0.width * h0.height) h2 = res at r1 r2 ⊢
  have hin : ∀ c, VReach h0 c0 c → (c = c0 ∨ (vis h0 c ≠ 0 ∧ vis res c = 0)) := by
    intro c hc
    induction hc with
    | refl => exact Or.inl rfl
    | tail hab hbc ih =>
      rename_i a b
      rcases r1.done a ih with e | e | e
      · rw [r2] at e; simp at e
      · exact absurd e id
      · exact Or.inr ⟨hbc.2.2, e b hbc.2.1 hbc.1⟩
  have hzero : ∀ c, vis res c = 0 := by
    intro c
    by_contra hne
    have h1 := r1.mono c hne
    have h2 : vis h0 c ≠ 0 := by rw [← h1]; exact hne
    rcases hin c (hreach c h2) with e | e
    · subst e
      exact hne r1.start
    · exact hne e.2
  refine ⟨r1.frame, r1.parents, stack_ext (by rw [r2, hst]) r1.size, ?_⟩
  intro x y
  exact hzero { x := x, y := y }

/-! ## Removing a cell: connection lemmas -/

theorem ForestOn.rep_of_conn {g : gamma} {rep : field_t → field_t} {rk : field_t → Nat}
    (hF : ForestOn g (fun _ => True) rep rk) {p : Nat} {a b : field_t} (hp : p ≠ 0)
    (h : Conn g p a b) : rep a = rep b := by
  induction h with
  | refl => rfl
  | tail hab hbc ih =>
    rename_i b1 b2
    have l1 : live g (fun _ => True) b1 := ⟨trivial, hbc.2.1.1, by rw [hbc.2.1.2]; exact hp⟩
    have l2 : live g (fun _ => True) b2 := ⟨trivial, hbc.2.2.1, by rw [hbc.2.2.2]; exact hp⟩
    exact ih.trans (hF.rep_adj b1 b2 l1 l2 (hbc.2.1.2.trans hbc.2.2.2.symm) hbc.1)

/-- A path to `c0` passes through a neighbour of `c0` that it reaches without `c0`. -/
theorem conn_through {g h : gamma} {q : Nat} {c0 : field_t}
    (hown : ∀ d, owns h q d ↔ (owns g q d ∧ d ≠ c0)) {c : field_t}
    (hconn : Conn g q c c0) (hc : c ≠ c0) :
    ∃ n, adjacent n c0 ∧ owns h q n ∧ Conn h q c n := by
  induction hconn using Relation.ReflTransGen.head_induction_on with
  | refl => exact absurd rfl hc
  | head hab hbc ih =>
    rename_i a b
    by_cases hb : b = c0
    · subst hb
      exact ⟨a, hab.1, (hown a).mpr ⟨hab.2.1, hc⟩, Conn.conn_refl _ _ _⟩
    · obtain ⟨n, n1, n2, n3⟩ := ih hb
      refine ⟨n, n1, n2, ?_⟩
      exact (Conn.single ⟨hab.1, (hown a).mpr ⟨hab.2.1, hc⟩, (hown b).mpr ⟨hab.2.2, hb⟩⟩).conn_trans n3

/-- A path that cannot meet `c0` survives the removal of `c0`. -/
theorem conn_avoid {g h : gamma} {p : Nat} {c0 : field_t}
    (hown : ∀ d, d ≠ c0 → (owns h p d ↔ owns g p d)) {a b : field_t}
    (hconn : Conn g p a b) (hav : ∀ d, Conn g p a d → d ≠ c0) : Conn h p a b := by
  induction hconn with
  | refl => exact Conn.conn_refl _ _ _
  | tail hab hbc ih =>
    rename_i b1 b2
    have n1 : b1 ≠ c0 := hav b1 hab
    have n2 : b2 ≠ c0 := hav b2 (hab.trans (Conn.single hbc))
    exact ih.conn_trans (Conn.single ⟨hbc.1, (hown b1 n1).mpr hbc.2.1, (hown b2 n2).mpr hbc.2.2⟩)

theorem closed_conn {h : gamma} {q : Nat}
    (hcl : ∀ a b, vis h a ≠ 0 → owns h q a → owns h q b → adjacent a b → vis h b ≠ 0)
    {a b : field_t} (hconn : Conn h q a b) (ha : vis h a ≠ 0) :
    vis h b ≠ 0 := by
  induction hconn with
  | refl => exact ha
  | tail hab hbc ih =>
    rename_i b1 b2
    exact hcl b1 b2 ih hbc.2.1 hbc.2.2 hbc.1

theorem ForestOn.weaken {g : gamma} {D D1 : field_t → Prop} {rep : field_t → field_t}
    {rk : field_t → Nat} (hF : ForestOn g D rep rk)
    (h1 : ∀ c, live g D1 c → live g D c) (h2 : ∀ c, live g D c → live g D1 c) :
    ForestOn g D1 rep rk := by
  constructor
  · intro c hc
    have := hF.par_live c (h1 c hc)
    exact ⟨h2 _ this.1, this.2⟩
  · intro c hc; exact hF.rank_lt c (h1 c hc)
  · intro c hc; exact hF.rep_par c (h1 c hc)
  · intro c hc; exact hF.rep_self c (h1 c hc)
  · intro c hc
    have := hF.rep_live c (h1 c hc)
    exact ⟨h2 _ this.1, this.2⟩
  · intro c hc; exact hF.rep_root c (h1 c hc)
  · intro c hc; exact hF.rep_conn c (h1 c hc)
  · intro a b ha hb; exact hF.rep_adj a b (h1 a ha) (h1 b hb)
  · intro c hc; exact hF.rank_rep c (h1 c hc)

/-! ## `delete_field` -/

theorem delete_field_inv {g g1 : gamma} {rep : field_t → field_t} {rk : field_t → Nat}
    {c0 : field_t} {q : Nat} {ps : Nat → Nat → field_t}
    (hC : Core g) (hF : ForestOn g (fun _ => True) rep rk) (hq : valid_player g q)
    (hown : owns g q c0)
    (hps : ∀ d : field_t, live g (fun _ => True) d →
      (ps d.x d.y = par g d ∨ ps d.x d.y = rep d))
    (e1 : g1.width = g.width) (e2 : g1.height = g.height)
    (e3 : g1.num_of_players = g.num_of_players)
    (e4 : g1.max_num_of_areas = g.max_num_of_areas)
    (e5 : g1.parents = ps) (e6 : g1.player_arr = set2D g.player_arr c0.x c0.y 0)
    (e7 : g1.empty_fields = inc64 g.empty_fields)
    (e8 : g1.players = set1D g.players (q - 1)
      { has_played_golden_move := (g.players (q - 1)).has_played_golden_move,
        num_of_areas := dec64 (g.players (q - 1)).num_of_areas,
        busy_fields := dec64 (g.players (q - 1)).busy_fields })
    (e9 : g1.visited = g.visited) (e10 : g1.stack = g.stack) :
    DelInv g rep c0 q 0 g1 := by
  have hq0 : q ≠ 0 := by have := hq.1; omega
  have hl0 : live g (fun _ => True) c0 := ⟨trivial, hown.1, by rw [hown.2]; exact hq0⟩
  have hvis : ∀ c, vis g1 c = 0 := by
    intro c; unfold vis; rw [e9]; exact hC.visited_zero _ _
  have howner : ∀ c, owner g1 c = if c = c0 then 0 else owner g c := by
    intro c; unfold owner; rw [e6]; exact set2D_cell _ _ _ _
  have hboard : ∀ c, on_board g1 c ↔ on_board g c := by
    intro c; unfold on_board; rw [e1, e2]
  have hpar : ∀ c, par g1 c = ps c.x c.y := by
    intro c; unfold par; rw [e5]
  have hF2 : ForestOn { g with parents := ps } (fun _ => True) rep rk := hF.compress ps hps
  have hlive : ∀ c, live g1 (region g rep c0 q g1) c →
      live g (fun _ => True) c ∧ c ≠ c0 ∧ owner g1 c = owner g c ∧
        ¬ (owner g c = q ∧ rep c = rep c0) := by
    intro c hc
    obtain ⟨h1, h2, h3⟩ := hc
    have hne : c ≠ c0 := by
      rintro rfl
      rw [howner, if_pos rfl] at h3
      exact h3 rfl
    rw [howner, if_neg hne] at h3
    refine ⟨⟨trivial, (hboard c).mp h2, h3⟩, hne, by rw [howner, if_neg hne], ?_⟩
    rcases h1 with a | a
    · exact a
    · exact absurd (hvis c) a
  have hlive2 : ∀ c, live g (fun _ => True) c → ¬ (owner g c = q ∧ rep c = rep c0) →
      live g1 (region g rep c0 q g1) c ∧ owner g1 c = owner g c := by
    intro c hc hn
    have hne : c ≠ c0 := by
      rintro rfl
      exact hn ⟨hown.2, rfl⟩
    refine ⟨⟨Or.inl hn, (hboard c).mpr hc.2.1, ?_⟩, by rw [howner, if_neg hne]⟩
    rw [howner, if_neg hne]; exact hc.2.2
  have hcard_busy : 1 ≤ (g.players (q - 1)).busy_fields := by
    rw [hC.busy_eq q hq]
    exact Finset.card_pos.mpr ⟨c0, mem_cells_of.mpr hown⟩
  have hroot0 : rep c0 ∈ roots g q := by
    rw [mem_roots]
    have := hF.rep_live c0 hl0
    exact ⟨this.1.2.1, this.2.trans hown.2, hF.rep_root c0 hl0⟩
  have hpl : g1.players (q - 1) =
      { has_played_golden_move := (g.players (q - 1)).has_played_golden_move,
        num_of_areas := dec64 (g.players (q - 1)).num_of_areas,
        busy_fields := dec64 (g.players (q - 1)).busy_fields } := by
    rw [e8, set1D_same]
  constructor
  · exact e1
  · exact e2
  · exact e3
  · exact e4
  · exact e6
  · rw [e7]; exact inc64_of_lt hC.empty_lt
  · intro i hi
    rw [e8, set1D_ne _ _ _ _ hi]
  · rw [hpl]
    simp only
    rw [dec64_of_pos hcard_busy]
    omega
  · rw [hpl]
  · exact e10
  · intro c hc; exact absurd (hvis c) hc
  · intro a b ha; exact absurd (hvis a) ha
  · intro c hc; exact absurd (hvis c) hc
  · refine ⟨rep, rk, ?_⟩
    constructor
    · intro c hc
      obtain ⟨l1, _, l3, l4⟩ := hlive c hc
      have p1 := hF2.par_live c l1
      have p2 := hF2.rep_par c l1
      rw [hpar, l3]
      change live g (fun _ => True) (ps c.x c.y) ∧ owner g (ps c.x c.y) = owner g c at p1
      change rep (ps c.x c.y) = rep c at p2
      have := hlive2 _ p1.1 (by rw [p1.2, p2]; exact l4)
      exact ⟨this.1, this.2.trans p1.2⟩
    · intro c hc hne
      rw [hpar] at hne ⊢
      exact hF2.rank_lt c (hlive c hc).1 hne
    · intro c hc
      rw [hpar]
      exact hF2.rep_par c (hlive c hc).1
    · intro c hc hs
      rw [hpar] at hs
      exact hF2.rep_self c (hlive c hc).1 hs
    · intro c hc
      obtain ⟨l1, _, l3, l4⟩ := hlive c hc
      have p1 := hF.rep_live c l1
      have := hlive2 _ p1.1 (by rw [p1.2, hF.rep_rep c l1]; exact l4)
      rw [l3]
      exact ⟨this.1, this.2.trans p1.2⟩
    · intro c hc
      rw [hpar]
      exact hF2.rep_root c (hlive c hc).1
    · intro c hc
      obtain ⟨l1, l2, l3, l4⟩ := hlive c hc
      rw [l3]
      have hco := hF.rep_conn c l1
      apply @conn_avoid g _ _ c0 _ _ _ hco
      · intro d hd
        have hoc : owns g (owner g c) c := ⟨l1.2.1, rfl⟩
        have hod := hd.owns_right hoc
        have hr := hF.rep_of_conn l1.2.2 hd
        rintro rfl
        exact l4 ⟨hod.2.symm.trans hown.2, hr⟩
      · intro d hd
        unfold owns
        rw [hboard, howner, if_neg hd]
    · intro a b ha hb hab hadj
      obtain ⟨a1, _, a3, _⟩ := hlive a ha
      obtain ⟨b1, _, b3, _⟩ := hlive b hb
      rw [a3, b3] at hab
      exact hF.rep_adj a b a1 b1 hab hadj
    · intro c hc hne
      exact hF.rank_rep c (hlive c hc).1 hne
  · rw [hpl]
    simp only
    have hset : roots_in g1 (region g rep c0 q g1) q = (roots g q).erase (rep c0) := by
      ext c
      rw [mem_roots_in, Finset.mem_erase, mem_roots, hboard, hpar, howner]
      constructor
      · rintro ⟨h1, h2, h3, h4⟩
        have hne : c ≠ c0 := by
          rintro rfl
          rw [if_pos rfl] at h3
          exact hq0 h3.symm
        rw [if_neg hne] at h3
        have hl : live g (fun _ => True) c := ⟨trivial, h1, by rw [h3]; exact hq0⟩
        have hroot := (compress_root_iff hF ps hps c hl).mp h4
        refine ⟨?_, h1, h3, hroot⟩
        rintro rfl
        rcases h2 with a | a
        · exact a ⟨h3, hF.rep_rep c0 hl0⟩
        · exact a (hvis _)
      · rintro ⟨h0, h1, h3, h4⟩
        have hl : live g (fun _ => True) c := ⟨trivial, h1, by rw [h3]; exact hq0⟩
        have hrc : rep c = c := hF.rep_self c hl h4
        have hne : c ≠ c0 := by
          rintro rfl
          exact h0 hrc.symm
        refine ⟨h1, ?_, by rw [if_neg hne]; exact h3, (compress_root_iff hF ps hps c hl).mpr h4⟩
        left
        rintro ⟨_, a2⟩
        rw [hrc] at a2
        exact h0 a2
    rw [hset, Finset.card_erase_of_mem hroot0, hC.areas_eq q hq]
    exact dec64_of_pos (Finset.card_pos.mpr ⟨_, hroot0⟩)
  · intro p hp hpq
    ext c
    rw [mem_roots, mem_roots, hboard, hpar, howner]
    constructor
    · rintro ⟨h1, h3, h4⟩
      have hne : c ≠ c0 := by
        rintro rfl
        rw [if_pos rfl] at h3
        exact hp h3.symm
      rw [if_neg hne] at h3
      have hl : live g (fun _ => True) c := ⟨trivial, h1, by rw [h3]; exact hp⟩
      exact ⟨h1, h3, (compress_root_iff hF ps hps c hl).mp h4⟩
    · rintro ⟨h1, h3, h4⟩
      have hne : c ≠ c0 := by
        rintro rfl
        exact hpq (h3.symm.trans hown.2)
      have hl : live g (fun _ => True) c := ⟨trivial, h1, by rw [h3]; exact hp⟩
      exact ⟨h1, by rw [if_neg hne]; exact h3, (compress_root_iff hF ps hps c hl).mpr h4⟩
  · intro i hi; exact absurd hi (Nat.not_lt_zero _)

/-! ## A flood fill adds one tree to the forest -/

theorem fill_forest {h h2 : gamma} {D D2 inN : field_t → Prop} [DecidablePred inN]
    {s : field_t} {q : Nat} {rep1 : field_t → field_t} {rk1 : field_t → Nat}
    (hF1 : ForestOn h D rep1 rk1)
    (hw : h2.width = h.width) (hh : h2.height = h.height)
    (hpa : h2.player_arr = h.player_arr)
    (hD2 : ∀ c, D2 c ↔ D c ∨ inN c)
    (hdisj : ∀ c, live h D c → ¬ inN c)
    (hN : ∀ c, inN c → owns h q c ∧ Conn h q s c)
    (hq : q ≠ 0) (hs : inN s)
    (hparN : ∀ c, inN c → par h2 c = s) (hparD : ∀ c, ¬ inN c → par h2 c = par h c)
    (hadj : ∀ a b, inN a → live h D b → owner h b = q → adjacent a b → False) :
    ForestOn h2 D2 (fun c => if inN c then s else rep1 c)
      (fun c => if inN c then (if c = s then 1 else 0) else rk1 c) := by
  have hown : ∀ c, owner h2 c = owner h c := by
    intro c; unfold owner; rw [hpa]
  have hboard : ∀ c, on_board h2 c ↔ on_board h c := by
    intro c; unfold on_board; rw [hw, hh]
  have hconn : ∀ p a b, Conn h2 p a b ↔ Conn h p a b := fun p a b => Conn_congr hw hh hpa p a b
  have hcase : ∀ c, live h2 D2 c → inN c ∨ (¬ inN c ∧ live h D c) := by
    intro c hc
    by_cases hn : inN c
    · exact Or.inl hn
    · right
      refine ⟨hn, ?_, (hboard c).mp hc.2.1, by rw [← hown]; exact hc.2.2⟩
      rcases (hD2 c).mp hc.1 with a | a
      · exact a
      · exact absurd a hn
  have hup : ∀ c, live h D c → live h2 D2 c := by
    intro c hc
    exact ⟨(hD2 c).mpr (Or.inl hc.1), (hboard c).mpr hc.2.1, by rw [hown]; exact hc.2.2⟩
  have hs_own := (hN s hs).1
  have hs_live : live h2 D2 s :=
    ⟨(hD2 s).mpr (Or.inr hs), (hboard s).mpr hs_own.1, by rw [hown, hs_own.2]; exact hq⟩
  constructor
  · intro c hc
    rcases hcase c hc with hn | ⟨hn, hl⟩
    · rw [hparN c hn, hown, hown, hs_own.2, (hN c hn).1.2]
      exact ⟨hs_live, rfl⟩
    · rw [hparD c hn, hown, hown]
      have := hF1.par_live c hl
      exact ⟨hup _ this.1, this.2⟩
  · intro c hc hne
    rcases hcase c hc with hn | ⟨hn, hl⟩
    · rw [hparN c hn] at hne ⊢
      have hcs : c ≠ s := fun e => hne e.symm
      simp only [if_pos hn, if_pos hs, if_neg hcs, if_true]
      omega
    · rw [hparD c hn] at hne ⊢
      have h1 := hF1.par_live c hl
      simp only [if_neg hn, if_neg (hdisj _ h1.1)]
      exact hF1.rank_lt c hl hne
  · intro c hc
    rcases hcase c hc with hn | ⟨hn, hl⟩
    · rw [hparN c hn]
      simp only [if_pos hn, if_pos hs]
    · rw [hparD c hn]
      have h1 := hF1.par_live c hl
      simp only [if_neg hn, if_neg (hdisj _ h1.1)]
      exact hF1.rep_par c hl
  · intro c hc hself
    rcases hcase c hc with hn | ⟨hn, hl⟩
    · rw [hparN c hn] at hself
      simp only [if_pos hn]
      exact hself
    · rw [hparD c hn] at hself
      simp only [if_neg hn]
      exact hF1.rep_self c hl hself
  · intro c hc
    rcases hcase c hc with hn | ⟨hn, hl⟩
    · simp only [if_pos hn]
      rw [hown, hown, hs_own.2, (hN c hn).1.2]
      exact ⟨hs_live, rfl⟩
    · simp only [if_neg hn]
      rw [hown, hown]
      have := hF1.rep_live c hl
      exact ⟨hup _ this.1, this.2⟩
  · intro c hc
    rcases hcase c hc with hn | ⟨hn, hl⟩
    · simp only [if_pos hn]
      exact hparN s hs
    · simp only [if_neg hn]
      have h1 := hF1.rep_live c hl
      rw [hparD _ (hdisj _ h1.1)]
      exact hF1.rep_root c hl
  · intro c hc
    rcases hcase c hc with hn | ⟨hn, hl⟩
    · simp only [if_pos hn]
      rw [hconn, hown, (hN c hn).1.2]
      exact (hN c hn).2.conn_symm
    · simp only [if_neg hn]
      rw [hconn, hown]
      exact hF1.rep_conn c hl
  · intro a b ha hb hab hadjab
    rw [hown, hown] at hab
    rcases hcase a ha with hna | ⟨hna, hla⟩
    · rcases hcase b hb with hnb | ⟨hnb, hlb⟩
      · simp only [if_pos hna, if_pos hnb]
      · exact absurd hadjab
          (fun hx => hadj a b hna hlb (by rw [← hab]; exact (hN a hna).1.2) hx)
    · rcases hcase b hb with hnb | ⟨hnb, hlb⟩
      · exact absurd (adjacent_symm hadjab)
          (fun hx => hadj b a hnb hla (by rw [hab]; exact (hN b hnb).1.2) hx)
      · simp only [if_neg hna, if_neg hnb]
        exact hF1.rep_adj a b hla hlb hab hadjab
  · intro c hc hne
    rcases hcase c hc with hn | ⟨hn, hl⟩
    · simp only [if_pos hn] at hne ⊢
      have hcs : c ≠ s := fun e => hne e.symm
      simp only [if_pos hs, if_neg hcs, if_true]
      omega
    · simp only [if_neg hn] at hne ⊢
      have h1 := hF1.rep_live c hl
      simp only [if_neg (hdisj _ h1.1)]
      exact hF1.rank_rep c hl hne

/-! ## The `for` loop of `delete_util` -/

theorem VReach.vreach_mono {h h2 : gamma} {c0 c : field_t}
    (hb : ∀ d, on_board h d → on_board h2 d) (hv : ∀ d, vis h d ≠ 0 → vis h2 d ≠ 0)
    (hr : VReach h c0 c) : VReach h2 c0 c :=
  Relation.ReflTransGen.mono (fun _ b hab => ⟨hab.1, hb b hab.2.1, hv b hab.2.2⟩) hr

theorem DelInv.del_owner_eq {g : gamma} {rep : field_t → field_t} {c0 : field_t} {q k : Nat}
    {h : gamma} (hI : DelInv g rep c0 q k h) (c : field_t) :
    owner h c = if c = c0 then 0 else owner g c := by
  unfold owner
  rw [hI.player_arr]
  exact set2D_cell _ _ _ _

theorem DelInv.del_on_board_iff {g : gamma} {rep : field_t → field_t} {c0 : field_t} {q k : Nat}
    {h : gamma} (hI : DelInv g rep c0 q k h) (c : field_t) : on_board h c ↔ on_board g c := by
  unfold on_board
  rw [hI.width, hI.height]

theorem DelInv.del_owns_iff {g : gamma} {rep : field_t → field_t} {c0 : field_t} {q k : Nat}
    {h : gamma} (hI : DelInv g rep c0 q k h) (p : Nat) (hp : p ≠ 0) (c : field_t) :
    owns h p c ↔ (owns g p c ∧ c ≠ c0) := by
  unfold owns
  rw [hI.del_on_board_iff, hI.del_owner_eq]
  by_cases hc : c = c0
  · rw [if_pos hc]
    constructor
    · rintro ⟨_, e⟩; exact absurd e.symm hp
    · rintro ⟨_, e⟩; exact absurd hc e
  · rw [if_neg hc]
    constructor
    · rintro ⟨a, b⟩; exact ⟨⟨a, b⟩, hc⟩
    · rintro ⟨⟨a, b⟩, _⟩; exact ⟨a, b⟩

theorem roots_in_card_le {g : gamma} (D : field_t → Prop) [DecidablePred D] (p : Nat) :
    (roots_in g D p).card ≤ g.width * g.height := by
  rw [← card_board]; exact Finset.card_filter_le _ _

/-- A flood fill started by `delete_util` from the unvisited neighbour `nbr c0 k`. -/
theorem delete_fill {g h h1 h2 : gamma} {rep : field_t → field_t} {rk : field_t → Nat}
    {c0 : field_t} {q k : Nat}
    (hC : Core g) (hF : ForestOn g (fun _ => True) rep rk) (hq : valid_player g q)
    (hown : owns g q c0) (hI : DelInv g rep c0 q k h) (hk : k < 4)
    (hc : on_board h (nbr c0 k) ∧ vis h (nbr c0 k) = 0 ∧ owner h (nbr c0 k) = q)
    (hh1 : h1 = (set_parent_dfs h (nbr c0 k) (nbr c0 k).x (nbr c0 k).y q).1)
    (f1 : FrameP q h1 h2) (f2 : h2.parents = h1.parents)
    (f3 : (h2.players (q - 1)).num_of_areas = inc64 (h1.players (q - 1)).num_of_areas) :
    DelInv g rep c0 q (k + 1) h2 := by
  have hq0 : q ≠ 0 := by have := hq.1; omega
  have hw : h.width < UINT32_MOD := by rw [hI.width]; exact hC.width_lt
  have hh : h.height < UINT32_MOD := by rw [hI.height]; exact hC.height_lt
  have hs : owns h q (nbr c0 k) := ⟨hc.1, hc.2.2⟩
  have hst : h.stack.items = [] := by rw [hI.stack]; exact hC.stack_empty
  have hsz : h.stack.size = h.width * h.height := by
    rw [hI.stack, hI.width, hI.height]; exact hC.stack_size
  obtain ⟨d1, d2, d3, d4, d5, d6, _⟩ :=
    set_parent_dfs_spec hw hh hs hc.2.1 hst hsz hI.vis_closed
  rw [← hh1] at d1 d2 d3 d4 d5 d6
  have hb0 : on_board g c0 := hown.1
  have hsg := (hI.del_owns_iff q hq0 _).mp hs
  have hadj0 : adjacent c0 (nbr c0 k) :=
    nbr_on_board_adjacent hC.width_lt hC.height_lt hb0 hk hsg.1.1
  have hl0 : live g (fun _ => True) c0 := ⟨trivial, hown.1, by rw [hown.2]; exact hq0⟩
  have hls : live g (fun _ => True) (nbr c0 k) :=
    ⟨trivial, hsg.1.1, by rw [hsg.1.2]; exact hq0⟩
  have hreps : rep (nbr c0 k) = rep c0 :=
    (hF.rep_adj c0 _ hl0 hls (hown.2.trans hsg.1.2.symm) hadj0).symm
  have hmono_g : ∀ a b, Conn h q a b → Conn g q a b :=
    fun a b => Conn.conn_mono (fun c hcc => ((hI.del_owns_iff q hq0 c).mp hcc).1)
  have hrepN : ∀ c, Conn h q (nbr c0 k) c → rep c = rep c0 := by
    intro c hcc
    rw [← hF.rep_of_conn hq0 (hmono_g _ _ hcc)]
    exact hreps
  have hvis2 : ∀ c, vis h2 c = vis h1 c := by
    intro c; unfold vis; rw [f1.visited]
  have hpar2 : ∀ c, par h2 c = par h1 c := by
    intro c; unfold par; rw [f2]
  have hown2 : ∀ p c, owns h2 p c ↔ owns h p c :=
    fun p c => (f1.framep_owns_iff p c).trans (d1.framev_owns_iff p c)
  have hboard2 : ∀ c, on_board h2 c ↔ on_board h c :=
    fun c => (f1.framep_on_board_iff c).trans (d1.framev_on_board_iff c)
  have howner2 : ∀ c, owner h2 c = owner h c :=
    fun c => (f1.framep_owner_eq c).trans (d1.framev_owner_eq c)
  have hvisN : ∀ c, owns h q c → Conn h q (nbr c0 k) c → vis h1 c ≠ 0 := by
    intro c hoc hcc
    by_cases hv : vis h c = 0
    · exact (d4 c hv).mpr ⟨hoc, hcc⟩
    · exact d3 c hv
  have hN : ∀ c, (vis h c = 0 ∧ vis h1 c ≠ 0) →
      owns h q c ∧ Conn h q (nbr c0 k) c := fun c hn => (d4 c hn.1).mp hn.2
  have hregion : ∀ c, region g rep c0 q h2 c ↔
      region g rep c0 q h c ∨ (vis h c = 0 ∧ vis h1 c ≠ 0) := by
    intro c
    unfold region
    rw [hvis2]
    constructor
    · rintro (a | a)
      · exact Or.inl (Or.inl a)
      · by_cases hv : vis h c = 0
        · exact Or.inr ⟨hv, a⟩
        · exact Or.inl (Or.inr hv)
    · rintro ((a | a) | a)
      · exact Or.inl a
      · exact Or.inr (d3 c a)
      · exact Or.inr a.2
  have hdisj : ∀ c, live h (region g rep c0 q h) c → ¬ (vis h c = 0 ∧ vis h1 c ≠ 0) := by
    intro c hl hn
    obtain ⟨n1, n2⟩ := hN c hn
    rcases hl.1 with a | a
    · exact a ⟨((hI.del_owns_iff q hq0 c).mp n1).1.2, hrepN c n2⟩
    · exact a hn.1
  have hparN : ∀ c, (vis h c = 0 ∧ vis h1 c ≠ 0) → par h2 c = nbr c0 k := by
    intro c hn
    obtain ⟨n1, n2⟩ := hN c hn
    rw [hpar2]
    exact d5 c hn.1 n1 n2
  have hparD : ∀ c, ¬ (vis h c = 0 ∧ vis h1 c ≠ 0) → par h2 c = par h c := by
    intro c hn
    rw [hpar2]
    apply d6
    by_cases hv : vis h c = 0
    · right
      intro hx
      exact hn ⟨hv, (d4 c hv).mpr hx⟩
    · exact Or.inl hv
  have hsN : vis h (nbr c0 k) = 0 ∧ vis h1 (nbr c0 k) ≠ 0 :=
    ⟨hc.2.1, (d4 _ hc.2.1).mpr ⟨hs, Conn.conn_refl _ _ _⟩⟩
  have hareas_h : (h.players (q - 1)).num_of_areas + 1 < UINT64_MOD := by
    rw [hI.areas]
    have := roots_in_card_le (g := h) (region g rep c0 q h) q
    have := board_bound hw hh
    omega
  constructor
  · rw [f1.width, d1.width]; exact hI.width
  · rw [f1.height, d1.height]; exact hI.height
  · rw [f1.num_of_players, d1.num_of_players]; exact hI.num_of_players
  · rw [f1.max_num_of_areas, d1.max_num_of_areas]; exact hI.max_num_of_areas
  · rw [f1.player_arr, d1.player_arr]; exact hI.player_arr
  · rw [f1.empty_fields, d1.empty_fields]; exact hI.empty_fields
  · intro i hi
    rw [f1.players_ne i hi, d1.players]
    exact hI.others i hi
  · rw [f1.busy, d1.players]; exact hI.busy
  · rw [f1.golden, d1.players]; exact hI.golden
  · rw [f1.stack, d2]; exact hI.stack
  · intro c hcv
    rw [hvis2] at hcv
    rw [hown2]
    by_cases hv : vis h c = 0
    · obtain ⟨n1, n2⟩ := hN c ⟨hv, hcv⟩
      exact ⟨n1, hrepN c n2⟩
    · exact hI.vis_in c hv
  · intro a b ha hoa hob hadj
    rw [hvis2] at ha ⊢
    rw [hown2] at hoa hob
    by_cases hv : vis h a = 0
    · obtain ⟨_, n2⟩ := hN a ⟨hv, ha⟩
      exact hvisN b hob (n2.conn_trans (Conn.single ⟨hadj, hoa, hob⟩))
    · exact d3 b (hI.vis_closed a b hv hoa hob hadj)
  · intro c hcv
    rw [hvis2] at hcv
    have hvm : ∀ d, vis h d ≠ 0 → vis h2 d ≠ 0 := fun d hd => by rw [hvis2]; exact d3 d hd
    by_cases hv : vis h c = 0
    · obtain ⟨n1, n2⟩ := hN c ⟨hv, hcv⟩
      have hbase : VReach h2 c0 (nbr c0 k) :=
        Relation.ReflTransGen.single ⟨hadj0, (hboard2 _).mpr hc.1, by rw [hvis2]; exact hsN.2⟩
      have hgen : ∀ d, Conn h q (nbr c0 k) d → VReach h2 c0 d := by
        intro d hd
        induction hd with
        | refl => exact hbase
        | tail hab hbc ih =>
          rename_i b1 b2
          exact Relation.ReflTransGen.tail ih
            ⟨hbc.1, (hboard2 _).mpr hbc.2.2.1, by
              rw [hvis2]; exact hvisN b2 hbc.2.2 (hab.trans (Conn.single hbc))⟩
      exact hgen c n2
    · exact VReach.vreach_mono (fun d hd => (hboard2 d).mpr hd) hvm (hI.vis_reach c hv)
  · obtain ⟨rep1, rk1, hF1⟩ := hI.forest
    refine ⟨_, _, @fill_forest _ _ _ _ (fun c => vis h c = 0 ∧ vis h1 c ≠ 0) _ _ _ _ _ hF1
      (f1.width.trans d1.width) (f1.height.trans d1.height)
      (f1.player_arr.trans d1.player_arr) hregion hdisj hN hq0 hsN hparN hparD ?_⟩
    intro a b hna hlb hob hadj
    obtain ⟨n1, n2⟩ := hN a hna
    have hbo : owns h q b := ⟨hlb.2.1, hob⟩
    have hvb : vis h1 b ≠ 0 := hvisN b hbo (n2.conn_trans (Conn.single ⟨hadj, n1, hbo⟩))
    have hvb2 : vis h b ≠ 0 := by
      by_contra hv
      exact hdisj b hlb ⟨hv, hvb⟩
    exact hI.vis_closed b a hvb2 hbo n1 (adjacent_symm hadj) hna.1
  · rw [f3, d1.players, inc64_of_lt hareas_h, hI.areas]
    have hset : roots_in h2 (region g rep c0 q h2) q =
        insert (nbr c0 k) (roots_in h (region g rep c0 q h) q) := by
      ext c
      rw [Finset.mem_insert, mem_roots_in, mem_roots_in, hboard2, howner2, hregion]
      by_cases hn : vis h c = 0 ∧ vis h1 c ≠ 0
      · rw [hparN c hn]
        constructor
        · rintro ⟨_, _, _, e⟩; exact Or.inl e.symm
        · rintro (e | ⟨a1, a2, a3, _⟩)
          · subst e
            exact ⟨hc.1, Or.inr hn, hc.2.2, rfl⟩
          · exact absurd hn (hdisj c ⟨a2, a1, by rw [a3]; exact hq0⟩)
      · rw [hparD c hn]
        constructor
        · rintro ⟨a1, a2 | a2, a3, a4⟩
          · exact Or.inr ⟨a1, a2, a3, a4⟩
          · exact absurd a2 hn
        · rintro (e | ⟨a1, a2, a3, a4⟩)
          · subst e; exact absurd hsN hn
          · exact ⟨a1, Or.inl a2, a3, a4⟩
    rw [hset, Finset.card_insert_of_not_mem]
    rw [mem_roots_in]
    rintro ⟨a1, a2, a3, _⟩
    exact hdisj _ ⟨a2, a1, by rw [a3]; exact hq0⟩ hsN
  · intro p hp hpq
    rw [← hI.roots_other p hp hpq]
    ext c
    rw [mem_roots, mem_roots, hboard2, howner2]
    have hkeep : owner h c = p → par h2 c = par h c := by
      intro ho
      apply hparD
      intro hn
      exact hpq (ho.symm.trans (hN c hn).1.2)
    constructor
    · rintro ⟨a1, a2, a3⟩
      exact ⟨a1, a2, by rw [← hkeep a2]; exact a3⟩
    · rintro ⟨a1, a2, a3⟩
      exact ⟨a1, a2, by rw [hkeep a2]; exact a3⟩
  · intro i hi ho
    rw [hvis2]
    rw [hown2] at ho
    by_cases hik : i = k
    · subst hik; exact hsN.2
    · exact d3 _ (hI.nb_done i (by omega) ho)

theorem delete_util_step_skip (x y q : Nat) (h : gamma) (i : Nat)
    (hc : dfs_condition h (add32 x (x_dir i)) (add32 y (y_dir i)) q = false) :
    delete_util_step x y q h i = h := by
  unfold delete_util_step
  simp only
  rw [if_neg (by rw [hc]; exact Bool.false_ne_true)]

theorem delete_util_step_fill (x y q : Nat) (h : gamma) (i : Nat)
    (hc : dfs_condition h (add32 x (x_dir i)) (add32 y (y_dir i)) q = true) :
    delete_util_step x y q h i =
      { inc_areas (set_parent_dfs h { x := add32 x (x_dir i), y := add32 y (y_dir i) }
          (add32 x (x_dir i)) (add32 y (y_dir i)) q).1 q with
        areas_size := set2D
          (inc_areas (set_parent_dfs h { x := add32 x (x_dir i), y := add32 y (y_dir i) }
            (add32 x (x_dir i)) (add32 y (y_dir i)) q).1 q).areas_size
          (add32 x (x_dir i)) (add32 y (y_dir i))
          (set_parent_dfs h { x := add32 x (x_dir i), y := add32 y (y_dir i) }
            (add32 x (x_dir i)) (add32 y (y_dir i)) q).2 } := by
  unfold delete_util_step
  simp only
  rw [if_pos hc]

/-- One iteration of the `for` loop of `delete_util`. -/
theorem delete_step {g h : gamma} {rep : field_t → field_t} {rk : field_t → Nat}
    {c0 : field_t} {q k : Nat}
    (hC : Core g) (hF : ForestOn g (fun _ => True) rep rk) (hq : valid_player g q)
    (hown : owns g q c0) (hI : DelInv g rep c0 q k h) (hk : k < 4) :
    DelInv g rep c0 q (k + 1) (delete_util_step c0.x c0.y q h k) := by
  cases hc : dfs_condition h (add32 c0.x (x_dir k)) (add32 c0.y (y_dir k)) q
  · rw [delete_util_step_skip _ _ _ _ _ hc]
    have hno : ¬ (on_board h (nbr c0 k) ∧ vis h (nbr c0 k) = 0 ∧ owner h (nbr c0 k) = q) := by
      intro hx
      have := (dfs_condition_iff h (nbr c0 k) q).mpr hx
      change dfs_condition h (add32 c0.x (x_dir k)) (add32 c0.y (y_dir k)) q = true at this
      rw [hc] at this
      exact Bool.false_ne_true this
    refine ⟨hI.width, hI.height, hI.num_of_players, hI.max_num_of_areas, hI.player_arr,
      hI.empty_fields, hI.others, hI.busy, hI.golden, hI.stack, hI.vis_in, hI.vis_closed,
      hI.vis_reach, hI.forest, hI.areas, hI.roots_other, ?_⟩
    intro i hi ho
    by_cases hik : i = k
    · subst hik
      intro hv
      exact hno ⟨ho.1, hv, ho.2⟩
    · exact hI.nb_done i (by omega) ho
  · rw [delete_util_step_fill _ _ _ _ _ hc]
    have hc2 : on_board h (nbr c0 k) ∧ vis h (nbr c0 k) = 0 ∧ owner h (nbr c0 k) = q :=
      (dfs_condition_iff h (nbr c0 k) q).mp hc
    refine delete_fill hC hF hq hown hI hk hc2 rfl ?_ rfl ?_
    · exact (FrameP.inc_areas q _).framep_trans (FrameP.areas_size q _ _)
    · change ((inc_areas _ q).players (q - 1)).num_of_areas = _
      rw [inc_areas_players_same]
      rfl

/-- The state of `delete_util` after its `for` loop. -/
theorem delete_loop_spec {g h : gamma} {rep : field_t → field_t} {rk : field_t → Nat}
    {c0 : field_t} {q : Nat}
    (hC : Core g) (hF : ForestOn g (fun _ => True) rep rk) (hq : valid_player g q)
    (hown : owns g q c0) (hI : DelInv g rep c0 q 0 h) :
    DelInv g rep c0 q 4 ((List.range DIRECTIONS).foldl (delete_util_step c0.x c0.y q) h) := by
  rw [range_directions]
  simp only [List.foldl]
  exact delete_step hC hF hq hown (delete_step hC hF hq hown (delete_step hC hF hq hown
    (delete_step hC hF hq hown hI (by omega)) (by omega)) (by omega)) (by omega)

/-- After the `for` loop of `delete_util` the flood fills cover the whole former area of the
vacated cell. -/
theorem delete_cover {g h : gamma} {rep : field_t → field_t} {rk : field_t → Nat}
    {c0 : field_t} {q : Nat}
    (hC : Core g) (hF : ForestOn g (fun _ => True) rep rk) (hq : valid_player g q)
    (hown : owns g q c0) (hI : DelInv g rep c0 q 4 h) (c : field_t)
    (hl : live h (fun _ => True) c) : region g rep c0 q h c := by
  have hq0 : q ≠ 0 := by have := hq.1; omega
  have hne : c ≠ c0 := by
    intro e
    have := hI.del_owner_eq c
    rw [if_pos e] at this
    exact hl.2.2 this
  have hoc : owner h c = owner g c := by rw [hI.del_owner_eq, if_neg hne]
  have hbc : on_board g c := (hI.del_on_board_iff c).mp hl.2.1
  by_cases hin : owner g c = q ∧ rep c = rep c0
  · right
    have hlc : live g (fun _ => True) c := ⟨trivial, hbc, by rw [hin.1]; exact hq0⟩
    have hl0 : live g (fun _ => True) c0 := ⟨trivial, hown.1, by rw [hown.2]; exact hq0⟩
    have k1 : Conn g q c (rep c) := by
      have := hF.rep_conn c hlc
      rw [hin.1] at this
      exact this
    have k2 : Conn g q c0 (rep c0) := by
      have := hF.rep_conn c0 hl0
      rw [hown.2] at this
      exact this
    have k3 : Conn g q c c0 := by
      rw [hin.2] at k1
      exact k1.conn_trans k2.conn_symm
    obtain ⟨n, n1, n2, n3⟩ := conn_through (hI.del_owns_iff q hq0) k3 hne
    have hbn : on_board g n := (hI.del_on_board_iff n).mp n2.1
    obtain ⟨i, hi, hni⟩ := adjacent_is_nbr hC.width_lt hC.height_lt hown.1 hbn (adjacent_symm n1)
    have hvn : vis h n ≠ 0 := by
      rw [hni]
      apply hI.nb_done i hi
      rw [← hni]
      exact n2
    exact closed_conn hI.vis_closed n3.conn_symm hvn
  · exact Or.inl hin

theorem cells_of_removed_zero {g h : gamma} {c0 : field_t}
    (hb : ∀ c, on_board h c ↔ on_board g c)
    (ho : ∀ c, owner h c = if c = c0 then 0 else owner g c) (hc0 : on_board g c0) :
    cells_of h 0 = insert c0 (cells_of g 0) := by
  ext c
  rw [mem_cells_of, Finset.mem_insert, mem_cells_of, hb, ho]
  by_cases hc : c = c0
  · subst hc; simp [hc0]
  · simp [hc]

theorem cells_of_removed_same {g h : gamma} {c0 : field_t} {q : Nat} (hq : q ≠ 0)
    (hb : ∀ c, on_board h c ↔ on_board g c)
    (ho : ∀ c, owner h c = if c = c0 then 0 else owner g c) :
    cells_of h q = (cells_of g q).erase c0 := by
  ext c
  rw [mem_cells_of, Finset.mem_erase, mem_cells_of, hb, ho]
  by_cases hc : c = c0
  · subst hc
    simp only [if_true, ne_eq, not_true_eq_false, false_and, iff_false, not_and]
    intro _ e
    exact hq e.symm
  · simp [hc]

theorem cells_of_removed_other {g h : gamma} {c0 : field_t} {q p : Nat} (hp : p ≠ 0)
    (hpq : p ≠ q) (hb : ∀ c, on_board h c ↔ on_board g c)
    (ho : ∀ c, owner h c = if c = c0 then 0 else owner g c) (hc0 : owner g c0 = q) :
    cells_of h p = cells_of g p := by
  ext c
  rw [mem_cells_of, mem_cells_of, hb, ho]
  by_cases hc : c = c0
  · subst hc
    rw [if_pos rfl, hc0]
    constructor
    · rintro ⟨_, e⟩; exact absurd e.symm hp
    · rintro ⟨_, e⟩; exact absurd e.symm hpq
  · rw [if_neg hc]

/-- The end of `delete_util`: the state `g3` after `init_visited`. -/
theorem delete_final {g g2 g3 : gamma} {rep : field_t → field_t} {rk : field_t → Nat}
    {c0 : field_t} {q : Nat}
    (hC : Core g) (hF : ForestOn g (fun _ => True) rep rk) (hq : valid_player g q)
    (hown : owns g q c0) (hI : DelInv g rep c0 q 4 g2)
    (hfv : FrameV g2 g3) (hpar : g3.parents = g2.parents) (hst : g3.stack = g2.stack)
    (hvz : ∀ x y, g3.visited x y = 0) :
    Core g3 ∧ Removed g q c0 g3 := by
  have hq0 : q ≠ 0 := by have := hq.1; omega
  have hw : g3.width = g.width := hfv.width.trans hI.width
  have hh : g3.height = g.height := hfv.height.trans hI.height
  have hnp : g3.num_of_players = g.num_of_players := hfv.num_of_players.trans hI.num_of_players
  have hb : ∀ c, on_board g3 c ↔ on_board g c := by
    intro c; unfold on_board; rw [hw, hh]
  have ho : ∀ c, owner g3 c = if c = c0 then 0 else owner g c := by
    intro c; rw [hfv.framev_owner_eq]; exact hI.del_owner_eq c
  have hvp : ∀ p, valid_player g3 p ↔ valid_player g p := by
    intro p; unfold valid_player; rw [hnp]
  have hcov := delete_cover hC hF hq hown hI
  have hroots : ∀ p, roots g3 p = roots g2 p := by
    intro p
    rw [← roots_in_true, ← roots_in_true]
    exact roots_in_congr _ p hfv.width hfv.height hfv.player_arr hpar
  have hmem0 : c0 ∈ cells_of g q := mem_cells_of.mpr hown
  refine ⟨?_, ?_⟩
  · constructor
    · rw [hw]; exact hC.width_pos
    · rw [hw]; exact hC.width_lt
    · rw [hh]; exact hC.height_pos
    · rw [hh]; exact hC.height_lt
    · rw [hnp]; exact hC.players_pos
    · rw [hnp]; exact hC.players_lt
    · rw [hfv.max_num_of_areas, hI.max_num_of_areas]; exact hC.areas_pos
    · rw [hfv.max_num_of_areas, hI.max_num_of_areas]; exact hC.areas_lt
    · intro c hc
      rw [ho, hnp]
      by_cases e : c = c0
      · rw [if_pos e]; exact Nat.zero_le _
      · rw [if_neg e]; exact hC.owner_le c ((hb c).mp hc)
    · rw [hfv.empty_fields, hI.empty_fields, hC.empty_eq,
        cells_of_removed_zero hb ho hown.1, Finset.card_insert_of_not_mem]
      rw [mem_cells_of]
      rintro ⟨_, e⟩
      rw [hown.2] at e
      exact hq0 e
    · intro p hp
      have hp0 : p ≠ 0 := by have := hp.1; omega
      have hpg := (hvp p).mp hp
      rw [hfv.players]
      by_cases hpq : p = q
      · subst hpq
        have h1 := hI.busy
        rw [hC.busy_eq p hpg] at h1
        rw [cells_of_removed_same hq0 hb ho, Finset.card_erase_of_mem hmem0]
        omega
      · have hidx : p - 1 ≠ q - 1 := by have := hq.1; omega
        rw [hI.others _ hidx, hC.busy_eq p hpg,
          cells_of_removed_other hp0 hpq hb ho hown.2]
    · intro p hp
      have hp0 : p ≠ 0 := by have := hp.1; omega
      have hpg := (hvp p).mp hp
      rw [hfv.players, hroots]
      by_cases hpq : p = q
      · subst hpq
        rw [hI.areas]
        congr 1
        ext c
        rw [mem_roots_in, mem_roots]
        constructor
        · rintro ⟨a1, _, a3, a4⟩; exact ⟨a1, a3, a4⟩
        · rintro ⟨a1, a3, a4⟩
          exact ⟨a1, hcov c ⟨trivial, a1, by rw [a3]; exact hp0⟩, a3, a4⟩
      · have hidx : p - 1 ≠ q - 1 := by have := hq.1; omega
        rw [hI.others _ hidx, hC.areas_eq p hpg, hI.roots_other p hp0 hpq]
    · obtain ⟨rep1, rk1, hF1⟩ := hI.forest
      have hF2 : ForestOn g2 (fun _ => True) rep1 rk1 :=
        hF1.weaken (fun c hc => ⟨hcov c hc, hc.2⟩) (fun c hc => ⟨trivial, hc.2⟩)
      exact ⟨rep1, rk1, hF2.forest_congr hfv.width hfv.height hfv.player_arr hpar⟩
    · exact hvz
    · rw [hst, hI.stack]; exact hC.stack_empty
    · rw [hst, hI.stack, hw, hh]; exact hC.stack_size
  · constructor
    · exact hw
    · exact hh
    · exact hnp
    · rw [hfv.max_num_of_areas, hI.max_num_of_areas]
    · rw [hfv.player_arr, hI.player_arr]
    · rw [hfv.empty_fields, hI.empty_fields]
    · intro i hi; rw [hfv.players]; exact hI.others i hi
    · rw [hfv.players]; exact hI.busy
    · rw [hfv.players]; exact hI.golden

theorem delete_util_unfold (g : gamma) (x y q : Nat) :
    delete_util g x y q =
      init_visited ((List.range DIRECTIONS).foldl (delete_util_step x y q)
        (delete_field g q x y)) x y := rfl

/-- The call `delete_util(g, x, y, q)` on a cell owned by `q` keeps the invariant and has
exactly the visible effect of removing the stone. -/
theorem delete_util_spec {g : gamma} {c0 : field_t} {q : Nat}
    (hC : Core g) (hq : valid_player g q) (hown : owns g q c0) :
    Core (delete_util g c0.x c0.y q) ∧ Removed g q c0 (delete_util g c0.x c0.y q) := by
  obtain ⟨rep, rk, hF⟩ := hC.forest
  have hq0 : q ≠ 0 := by have := hq.1; omega
  have hl0 : live g (fun _ => True) c0 := ⟨trivial, hown.1, by rw [hown.2]; exact hq0⟩
  obtain ⟨ps, hfp, hps⟩ := find_parent_spec hF c0 hl0
  have hps2 : ∀ d : field_t, live g (fun _ => True) d →
      (ps d.x d.y = par g d ∨ ps d.x d.y = rep d) := by
    intro d _
    rcases hps d with a | a
    · exact Or.inl a
    · exact Or.inr a.2
  have hfp2 : find_parent g { x := c0.x, y := c0.y } = ({ g with parents := ps }, rep c0) := hfp
  have hI0 : DelInv g rep c0 q 0 (delete_field g q c0.x c0.y) := by
    apply delete_field_inv hC hF hq hown hps2 <;> (unfold delete_field; rw [hfp2])
    rfl
  have hI4 := delete_loop_spec hC hF hq hown hI0
  rw [delete_util_unfold]
  have hb2 : on_board ((List.range DIRECTIONS).foldl (delete_util_step c0.x c0.y q)
      (delete_field g q c0.x c0.y)) c0 := (hI4.del_on_board_iff c0).mpr hown.1
  obtain ⟨i1, i2, i3, i4⟩ := init_visited_spec
    (by rw [hI4.width]; exact hC.width_lt) (by rw [hI4.height]; exact hC.height_lt) hb2
    (by rw [hI4.stack]; exact hC.stack_empty)
    (by rw [hI4.stack, hI4.width, hI4.height]; exact hC.stack_size) hI4.vis_reach
  exact delete_final hC hF hq hown hI4 i1 i2 i3 i4

/-! ## The area counter and the components of the board -/

/-- Under the invariant the area counter of a valid player is the number of connected
components of the cells of that player. -/
theorem Core.areas_card {g : gamma} (hC : Core g) {p : Nat} (hp : valid_player g p) :
    (g.players (p - 1)).num_of_areas = Nat.card (Area g p) := by
  obtain ⟨rep, rk, hF⟩ := hC.forest
  have hp0 : p ≠ 0 := by have := hp.1; omega
  have hl : ∀ c, owns g p c → live g (fun _ => True) c :=
    fun c hc => ⟨trivial, hc.1, by rw [hc.2]; exact hp0⟩
  rw [hC.areas_eq p hp]
  symm
  apply card_area_eq (roots g p) rep
  · intro c hc
    have h1 := hF.rep_live c (hl c hc)
    rw [mem_roots]
    exact ⟨h1.1.2.1, h1.2.trans hc.2, hF.rep_root c (hl c hc)⟩
  · intro r hr
    rw [mem_roots] at hr
    exact ⟨⟨hr.1, hr.2.1⟩, hF.rep_self r (hl r ⟨hr.1, hr.2.1⟩) hr.2.2⟩
  · intro c hc
    have := hF.rep_conn c (hl c hc)
    rw [hc.2] at this
    exact this
  · intro a b ha hb hab
    exact hF.rep_adj a b (hl a ha) (hl b hb) (ha.2.trans hb.2.symm) hab

/-- The components of a player depend on the dimensions and the ownership map only. -/
theorem area_card_congr {g g1 : gamma} (hw : g1.width = g.width) (hh : g1.height = g.height)
    (hp : g1.player_arr = g.player_arr) (p : Nat) :
    Nat.card (Area g1 p) = Nat.card (Area g p) := by
  cases g; cases g1
  simp only at hw hh hp
  subst hw hh hp
  rfl

theorem mem_p_neighbours {g : gamma} {c n : field_t} {p : Nat} :
    n ∈ p_neighbours g c p ↔ owns g p n ∧ adjacent c n := by
  simp [p_neighbours, mem_board, owns, on_board, and_assoc]

theorem set2D_set2D {α : Type} (a : Nat → Nat → α) (x y : Nat) (v w : α) :
    set2D (set2D a x y v) x y w = set2D a x y w := by
  funext i j
  unfold set2D
  by_cases h : i = x ∧ j = y
  · rw [if_pos h, if_pos h]
  · rw [if_neg h, if_neg h, if_neg h]

theorem set2D_self {α : Type} (a : Nat → Nat → α) (x y : Nat) :
    set2D a x y (a x y) = a := by
  funext i j
  unfold set2D
  by_cases h : i = x ∧ j = y
  · rw [if_pos h, h.1, h.2]
  · rw [if_neg h]

/-! ## `gamma_move` -/

theorem gamma_move_of_ok {g : gamma} {p x y : Nat} (h : move_ok g p x y) :
    gamma_move g p x y = (true, move_util g x y p) := by
  obtain ⟨h1, h2, h3, h4⟩ := h
  have e1 := wrong_player_false_iff.mpr h1
  have e2 := wrong_field_false_iff.mpr h2
  unfold gamma_move
  rw [e1, e2]
  simp only [Bool.or_self, Bool.false_eq_true, if_false]
  rw [if_neg (by simp [h3, NO_PLAYER])]
  rw [if_neg]
  simp only [Bool.and_eq_true, decide_eq_true_eq, beq_iff_eq]
  exact h4

theorem gamma_move_of_not_ok {g : gamma} {p x y : Nat} (h : ¬ move_ok g p x y) :
    gamma_move g p x y = (false, g) := by
  unfold gamma_move
  by_cases c1 : (wrong_player p g || wrong_field x y g) = true
  · rw [if_pos c1]
  rw [if_neg c1]
  by_cases c2 : (g.player_arr x y != NO_PLAYER) = true
  · rw [if_pos c2]
  rw [if_neg c2]
  by_cases c3 : (decide ((g.players (p - 1)).num_of_areas ≥ g.max_num_of_areas)
      && count_neighbours g x y p == 0) = true
  · rw [if_pos c3]
  exfalso
  apply h
  simp only [Bool.or_eq_true, not_or, Bool.not_eq_true] at c1
  refine ⟨wrong_player_false_iff.mp c1.1, wrong_field_false_iff.mp c1.2, ?_, ?_⟩
  · simpa [NO_PLAYER] using c2
  · simpa using c3

theorem gamma_move_true_iff (g : gamma) (p x y : Nat) :
    (gamma_move g p x y).1 = true ↔ move_ok g p x y := by
  by_cases h : move_ok g p x y
  · rw [gamma_move_of_ok h]; exact ⟨fun _ => h, fun _ => rfl⟩
  · rw [gamma_move_of_not_ok h]
    exact ⟨fun e => absurd e Bool.false_ne_true, fun e => absurd e h⟩

theorem Inv.inv_congr {g g1 : gamma} (hI : Inv g) (hC : Core g1)
    (hn : g1.num_of_players = g.num_of_players)
    (hm : g1.max_num_of_areas = g.max_num_of_areas)
    (ha : ∀ p, valid_player g p →
      (g1.players (p - 1)).num_of_areas = (g.players (p - 1)).num_of_areas) : Inv g1 := by
  refine ⟨hC, ?_⟩
  intro p hp
  have hp2 : valid_player g p := by unfold valid_player at hp ⊢; rw [← hn]; exact hp
  rw [ha p hp2, hm]
  exact hI.areas_le p hp2

/-- A placement accepted by `gamma_move`: the invariant is kept. The cap of the other
players is only needed for them. -/
theorem move_util_inv {g : gamma} {p : Nat} {c0 : field_t} (hI : Inv g)
    (hok : move_ok g p c0.x c0.y) :
    Inv (move_util g c0.x c0.y p) ∧ Placed g p c0 (move_util g c0.x c0.y p) := by
  obtain ⟨h1, h2', h3, h4⟩ := hok
  have h2 : on_board g c0 := h2'
  obtain ⟨rep, rk, hF⟩ := hI.core.forest
  obtain ⟨m1, m2, m3⟩ := move_util_spec hI.core hF h1 h2 h3
  refine ⟨⟨m1, ?_⟩, m2⟩
  intro q hq
  have hq2 : valid_player g q := by unfold valid_player at hq ⊢; rw [← m2.num_of_players]; exact hq
  rw [m2.max_num_of_areas]
  by_cases hqp : q = p
  · subst hqp
    have hle := hI.areas_le q hq2
    by_cases hlt : (g.players (q - 1)).num_of_areas < g.max_num_of_areas
    · omega
    · have hcnt : count_neighbours g c0.x c0.y q ≠ 0 := fun e => h4 ⟨by omega, e⟩
      rw [Ne, count_neighbours_eq_zero_iff hI.core.width_lt hI.core.height_lt h2] at hcnt
      push_neg at hcnt
      obtain ⟨d, hd1, hd2, _⟩ := hcnt
      have hpos : 0 < ((p_neighbours g c0 q).image rep).card := by
        apply Finset.card_pos.mpr
        exact ⟨rep d, Finset.mem_image_of_mem rep (mem_p_neighbours.mpr ⟨hd1, hd2⟩)⟩
      omega
  · rw [m2.others _ (player_index_ne h1.1 hq2.1 hqp)]
    exact hI.areas_le q hq2

/-- Whenever `gamma_move` fails the state is returned untouched. -/
theorem gamma_move_false_state (g : gamma) (p x y : Nat)
    (h : (gamma_move g p x y).1 = false) : (gamma_move g p x y).2 = g := by
  by_cases hok : move_ok g p x y
  · rw [gamma_move_of_ok hok] at h
    exact absurd h.symm Bool.false_ne_true
  · rw [gamma_move_of_not_ok hok]

theorem gamma_move_inv {g : gamma} (hI : Inv g) (p x y : Nat) :
    Inv (gamma_move g p x y).2 := by
  by_cases hok : move_ok g p x y
  · rw [gamma_move_of_ok hok]
    exact (@move_util_inv g p { x := x, y := y } hI hok).1
  · rw [gamma_move_of_not_ok hok]
    exact hI

/-! ## States with the same board -/

theorem SameShape.shape_refl (g : gamma) : SameShape g g :=
  ⟨rfl, rfl, rfl, rfl, fun _ _ => rfl, fun _ => rfl⟩

theorem SameShape.shape_trans {g h k : gamma} (h1 : SameShape g h) (h2 : SameShape h k) :
    SameShape g k :=
  ⟨h2.width.trans h1.width, h2.height.trans h1.height,
    h2.num_of_players.trans h1.num_of_players, h2.max_num_of_areas.trans h1.max_num_of_areas,
    fun i hi => (h2.outside i (by rw [h1.num_of_players]; exact hi)).trans (h1.outside i hi),
    fun i => (h2.golden i).trans (h1.golden i)⟩

theorem SameShape.valid_iff {g h : gamma} (hs : SameShape g h) (p : Nat) :
    valid_player h p ↔ valid_player g p := by
  unfold valid_player; rw [hs.num_of_players]

theorem SameShape.shape_on_board_iff {g h : gamma} (hs : SameShape g h) (c : field_t) :
    on_board h c ↔ on_board g c := by
  unfold on_board; rw [hs.width, hs.height]

theorem Removed.removed_shape {g g1 : gamma} {q : Nat} {c0 : field_t} (hr : Removed g q c0 g1)
    (hq : valid_player g q) : SameShape g g1 := by
  refine ⟨hr.width, hr.height, hr.num_of_players, hr.max_num_of_areas, ?_, ?_⟩
  · intro i hi
    apply hr.others
    have := hq.1; have := hq.2; omega
  · intro i
    by_cases h : i = q - 1
    · subst h; exact hr.golden
    · rw [hr.others i h]

theorem Placed.placed_shape {g g1 : gamma} {p : Nat} {c0 : field_t} (hr : Placed g p c0 g1)
    (hp : valid_player g p) : SameShape g g1 := by
  refine ⟨hr.width, hr.height, hr.num_of_players, hr.max_num_of_areas, ?_, ?_⟩
  · intro i hi
    apply hr.others
    have := hp.1; have := hp.2; omega
  · intro i
    by_cases h : i = p - 1
    · subst h; exact hr.golden
    · rw [hr.others i h]

/-- Two states satisfying the invariant with the same board, golden flags and limits
cannot be told apart by the public queries. -/
theorem same_observable_of_core {g g1 : gamma} (hC : Core g) (hC1 : Core g1)
    (hs : SameShape g g1) (hpa : g1.player_arr = g.player_arr) : same_observable g g1 := by
  refine ⟨hs.width, hs.height, hs.num_of_players, hs.max_num_of_areas, ?_, ?_, hpa⟩
  · rw [hC.empty_eq, hC1.empty_eq, cells_of_congr hs.width hs.height hpa]
  · funext i
    by_cases hi : g.num_of_players ≤ i
    · exact hs.outside i hi
    · have hv : valid_player g (i + 1) := ⟨by omega, by omega⟩
      have hv1 : valid_player g1 (i + 1) := (hs.valid_iff _).mpr hv
      have e1 := hC.areas_card hv
      have e2 := hC1.areas_card hv1
      have e3 := hC.busy_eq _ hv
      have e4 := hC1.busy_eq _ hv1
      rw [Nat.add_sub_cancel] at e1 e2 e3 e4
      apply player_ext (hs.golden i)
      · rw [e1, e2]; exact area_card_congr hs.width hs.height hpa _
      · rw [e3, e4, cells_of_congr hs.width hs.height hpa]

theorem same_observable.obs_inv {g g1 : gamma} (h : same_observable g g1) (hI : Inv g)
    (hC : Core g1) : Inv g1 := by
  obtain ⟨_, _, h3, h4, _, h6, _⟩ := h
  exact hI.inv_congr hC h3 h4 (fun p _ => by rw [h6])

/-! ## Vacating a cell and taking it back -/

theorem Removed.removed_owner_eq {g g1 : gamma} {q : Nat} {c0 : field_t} (hr : Removed g q c0 g1)
    (c : field_t) : owner g1 c = if c = c0 then 0 else owner g c := by
  unfold owner
  rw [hr.player_arr]
  exact set2D_cell _ _ _ _

theorem Placed.placed_owner_eq {g g1 : gamma} {p : Nat} {c0 : field_t} (hr : Placed g p c0 g1)
    (c : field_t) : owner g1 c = if c = c0 then p else owner g c := by
  unfold owner
  rw [hr.player_arr]
  exact set2D_cell _ _ _ _

/-- The cell `c0` of `q` has been vacated (state `g1`) and is taken back by `move_util`:
the result cannot be told apart from the state before, and the area counter in between is
the former one plus the number of distinct trees among the neighbours minus one. -/
theorem restore_of_removed {g g1 : gamma} {q : Nat} {c0 : field_t} (hC : Core g)
    (hq : valid_player g q) (hown : owns g q c0) (d1 : Core g1) (d2 : Removed g q c0 g1)
    {rep1 : field_t → field_t} {rk1 : field_t → Nat}
    (hF1 : ForestOn g1 (fun _ => True) rep1 rk1) :
    Core (move_util g1 c0.x c0.y q) ∧ same_observable g (move_util g1 c0.x c0.y q) ∧
      (g.players (q - 1)).num_of_areas + ((p_neighbours g1 c0 q).image rep1).card =
        (g1.players (q - 1)).num_of_areas + 1 := by
  have hq1 : valid_player g1 q := ((d2.removed_shape hq).valid_iff q).mpr hq
  have hb1 : on_board g1 c0 := ((d2.removed_shape hq).shape_on_board_iff c0).mpr hown.1
  have hfree : owner g1 c0 = 0 := by rw [d2.removed_owner_eq, if_pos rfl]
  obtain ⟨m1, m2, m3⟩ := move_util_spec d1 hF1 hq1 hb1 hfree
  generalize move_util g1 c0.x c0.y q = g2 at m1 m2 m3 ⊢
  have hs : SameShape g g2 := (d2.removed_shape hq).shape_trans (m2.placed_shape hq1)
  have hpa : g2.player_arr = g.player_arr := by
    rw [m2.player_arr, d2.player_arr, set2D_set2D]
    have : q = g.player_arr c0.x c0.y := hown.2.symm
    rw [this]
    exact set2D_self _ _ _
  have hso := same_observable_of_core hC m1 hs hpa
  refine ⟨m1, hso, ?_⟩
  rw [← m3, hso.2.2.2.2.2.1]

/-- The free cell `c0` has been taken for `p` (state `g1`) and vacated again (state `g2`):
the result cannot be told apart from the state before. -/
theorem undo_of_placed {g g1 g2 : gamma} {p : Nat} {c0 : field_t} (hC : Core g)
    (hp : valid_player g p) (hfree : owner g c0 = 0)
    (m2 : Placed g p c0 g1) (d1 : Core g2) (d2 : Removed g1 p c0 g2) :
    same_observable g g2 := by
  have hp1 : valid_player g1 p := ((m2.placed_shape hp).valid_iff p).mpr hp
  refine same_observable_of_core hC d1 ((m2.placed_shape hp).shape_trans (d2.removed_shape hp1)) ?_
  rw [d2.player_arr, m2.player_arr, set2D_set2D]
  have : (0 : Nat) = g.player_arr c0.x c0.y := hfree.symm
  rw [this]
  exact set2D_self _ _ _

/-! ## `delete_and_move` -/

theorem image_card_of_count_zero {g : gamma} {c : field_t} {p : Nat}
    (hw : g.width < UINT32_MOD) (hh : g.height < UINT32_MOD) (hc : on_board g c)
    (rep : field_t → field_t) (h : count_neighbours g c.x c.y p = 0) :
    ((p_neighbours g c p).image rep).card = 0 := by
  rw [count_neighbours_eq_zero_iff hw hh hc] at h
  have : p_neighbours g c p = ∅ := by
    apply Finset.eq_empty_of_forall_not_mem
    intro d hd
    rw [mem_p_neighbours] at hd
    exact h d hd.1 hd.2
  rw [this]
  rfl

theorem image_card_of_count_pos {g : gamma} {c : field_t} {p : Nat}
    (hw : g.width < UINT32_MOD) (hh : g.height < UINT32_MOD) (hc : on_board g c)
    (rep : field_t → field_t) (h : count_neighbours g c.x c.y p ≠ 0) :
    0 < ((p_neighbours g c p).image rep).card := by
  rw [Ne, count_neighbours_eq_zero_iff hw hh hc] at h
  push_neg at h
  obtain ⟨d, hd1, hd2, _⟩ := h
  exact Finset.card_pos.mpr ⟨rep d, Finset.mem_image_of_mem rep (mem_p_neighbours.mpr ⟨hd1, hd2⟩)⟩

theorem count_zero_congr {g g1 : gamma} {c : field_t} {p : Nat}
    (hw : g.width < UINT32_MOD) (hh : g.height < UINT32_MOD) (hc : on_board g c)
    (hw1 : g1.width = g.width) (hh1 : g1.height = g.height)
    (ho : ∀ d, owns g1 p d ↔ owns g p d) :
    count_neighbours g1 c.x c.y p = 0 ↔ count_neighbours g c.x c.y p = 0 := by
  have hc1 : on_board g1 c := by unfold on_board at hc ⊢; rw [hw1, hh1]; exact hc
  rw [count_neighbours_eq_zero_iff hw hh hc,
    count_neighbours_eq_zero_iff (by rw [hw1]; exact hw) (by rw [hh1]; exact hh) hc1]
  constructor
  · intro h d hd; exact h d ((ho d).mpr hd)
  · intro h d hd; exact h d ((ho d).mp hd)

theorem Core.valid_owner {g : gamma} (hC : Core g) {c : field_t} (hb : on_board g c)
    (h0 : owner g c ≠ 0) : valid_player g (owner g c) :=
  ⟨Nat.one_le_iff_ne_zero.mpr h0, hC.owner_le c hb⟩

/-- The heart of the golden move: `g1` is the state after the cell `c0` of `q` has been
vacated. -/
theorem golden_core {g g1 : gamma} {p q : Nat} {c0 : field_t} (hI : Inv g)
    (hp : valid_player g p) (hb : on_board g c0) (hq : owner g c0 = q) (hqp : q ≠ p)
    (hq0 : q ≠ 0) (d1 : Core g1) (d2 : Removed g q c0 g1) :
    move_ok g1 q c0.x c0.y ∧
    (move_ok g1 p c0.x c0.y ↔
      ¬ ((g.players (p - 1)).num_of_areas ≥ g.max_num_of_areas ∧
        count_neighbours g c0.x c0.y p = 0)) ∧
    Nat.card (Area (reassign g c0.x c0.y p) q) = (g1.players (q - 1)).num_of_areas ∧
    (Nat.card (Area (reassign g c0.x c0.y p) p) ≤ g.max_num_of_areas ↔
      ¬ ((g.players (p - 1)).num_of_areas ≥ g.max_num_of_areas ∧
        count_neighbours g c0.x c0.y p = 0)) ∧
    ((g1.players (q - 1)).num_of_areas ≤ g.max_num_of_areas → Inv g1) := by
  have hqv : valid_player g q := by rw [← hq]; exact hI.core.valid_owner hb (by rw [hq]; exact hq0)
  have hown : owns g q c0 := ⟨hb, hq⟩
  have hs := d2.removed_shape hqv
  have hp1 : valid_player g1 p := (hs.valid_iff p).mpr hp
  have hq1 : valid_player g1 q := (hs.valid_iff q).mpr hqv
  have hb1 : on_board g1 c0 := (hs.shape_on_board_iff c0).mpr hb
  have hfree : owner g1 c0 = 0 := by rw [d2.removed_owner_eq, if_pos rfl]
  have hp0 : p ≠ 0 := by have := hp.1; omega
  have hidx : p - 1 ≠ q - 1 := by have := hp.1; have := hqv.1; omega
  have hidx2 : q - 1 ≠ p - 1 := fun e => hidx e.symm
  obtain ⟨rep1, rk1, hF1⟩ := d1.forest
  obtain ⟨_, _, r3⟩ := restore_of_removed hI.core hqv hown d1 d2 hF1
  have hownp : ∀ d, owns g1 p d ↔ owns g p d := by
    intro d
    unfold owns
    rw [hs.shape_on_board_iff, d2.removed_owner_eq]
    by_cases hd : d = c0
    · rw [if_pos hd, hd, hq]
      constructor
      · rintro ⟨_, e⟩; exact absurd e.symm hp0
      · rintro ⟨_, e⟩; exact absurd e hqp
    · rw [if_neg hd]
  have hcnt : count_neighbours g1 c0.x c0.y p = 0 ↔ count_neighbours g c0.x c0.y p = 0 :=
    count_zero_congr hI.core.width_lt hI.core.height_lt hb hs.width hs.height hownp
  have hareas_p : (g1.players (p - 1)).num_of_areas = (g.players (p - 1)).num_of_areas := by
    rw [d2.others _ hidx]
  obtain ⟨m1, m2, m3⟩ := move_util_spec d1 hF1 hp1 hb1 hfree
  generalize move_util g1 c0.x c0.y p = gm at m1 m2 m3
  have hsm := m2.placed_shape hp1
  have hpa : (reassign g c0.x c0.y p).player_arr = gm.player_arr := by
    rw [m2.player_arr, d2.player_arr, set2D_set2D]
    rfl
  have hwm : (reassign g c0.x c0.y p).width = gm.width := (hs.shape_trans hsm).width.symm
  have hhm : (reassign g c0.x c0.y p).height = gm.height := (hs.shape_trans hsm).height.symm
  have hcardq : Nat.card (Area (reassign g c0.x c0.y p) q) = (g1.players (q - 1)).num_of_areas := by
    rw [area_card_congr hwm hhm hpa q, ← m1.areas_card ((hsm.valid_iff q).mpr hq1),
      m2.others _ hidx2]
  have hcardp : Nat.card (Area (reassign g c0.x c0.y p) p) = (gm.players (p - 1)).num_of_areas := by
    rw [area_card_congr hwm hhm hpa p, ← m1.areas_card ((hsm.valid_iff p).mpr hp1)]
  refine ⟨⟨hq1, hb1, hfree, ?_⟩, ?_, hcardq, ?_, ?_⟩
  · rintro ⟨hge, hc⟩
    have := image_card_of_count_zero d1.width_lt d1.height_lt hb1 rep1 hc
    have := hI.areas_le q hqv
    rw [hs.max_num_of_areas] at hge
    omega
  · unfold move_ok
    rw [hareas_p, hs.max_num_of_areas, hcnt]
    constructor
    · intro h; exact h.2.2.2
    · intro h; exact ⟨hp1, hb1, hfree, h⟩
  · rw [hcardp]
    have hle := hI.areas_le p hp
    constructor
    · rintro h ⟨hge, hc⟩
      have := image_card_of_count_zero d1.width_lt d1.height_lt hb1 rep1 (hcnt.mpr hc)
      omega
    · intro h
      by_cases hlt : (g.players (p - 1)).num_of_areas < g.max_num_of_areas
      · omega
      · have hc : count_neighbours g c0.x c0.y p ≠ 0 := fun e => h ⟨by omega, e⟩
        have := image_card_of_count_pos d1.width_lt d1.height_lt hb1 rep1
          (fun e => hc (hcnt.mp e))
        omega
  · intro hle
    refine ⟨d1, ?_⟩
    intro r hr
    have hr2 : valid_player g r := (hs.valid_iff r).mp hr
    rw [hs.max_num_of_areas]
    by_cases hrq : r = q
    · rw [hrq]; exact hle
    · rw [d2.others _ (player_index_ne hqv.1 hr2.1 hrq)]
      exact hI.areas_le r hr2

theorem delete_and_move_unfold (g : gamma) (x y n : Nat) :
    delete_and_move g x y n =
      if decide ((g.players (n - 1)).num_of_areas ≥ g.max_num_of_areas)
          && count_neighbours g x y n == 0 then (false, g)
      else if ((delete_util g x y (g.player_arr x y)).players
          (g.player_arr x y - 1)).num_of_areas >
          (delete_util g x y (g.player_arr x y)).max_num_of_areas then
        (false, (gamma_move (delete_util g x y (g.player_arr x y)) (g.player_arr x y) x y).2)
      else if !(gamma_move (delete_util g x y (g.player_arr x y)) n x y).1 then
        (false, (gamma_move (gamma_move (delete_util g x y (g.player_arr x y)) n x y).2
          (g.player_arr x y) x y).2)
      else (true, (gamma_move (delete_util g x y (g.player_arr x y)) n x y).2) := rfl

theorem same_observable.obs_refl (g : gamma) : same_observable g g :=
  ⟨rfl, rfl, rfl, rfl, rfl, rfl, rfl⟩

theorem same_observable.obs_trans {g h k : gamma} (h1 : same_observable g h)
    (h2 : same_observable h k) : same_observable g k := by
  obtain ⟨a1, a2, a3, a4, a5, a6, a7⟩ := h1
  obtain ⟨b1, b2, b3, b4, b5, b6, b7⟩ := h2
  exact ⟨b1.trans a1, b2.trans a2, b3.trans a3, b4.trans a4, b5.trans a5, b6.trans a6,
    b7.trans a7⟩

theorem same_observable.obs_shape {g h : gamma} (h1 : same_observable g h) : SameShape g h := by
  obtain ⟨a1, a2, a3, a4, _, a6, _⟩ := h1
  exact ⟨a1, a2, a3, a4, fun i _ => by rw [a6], fun i => by rw [a6]⟩

/-- The effect of `delete_and_move` on a cell owned by another player, in terms of the
state `g1` after `delete_util`. -/
theorem delete_and_move_core {g g1 : gamma} {p q : Nat} {c0 : field_t} (hI : Inv g)
    (hp : valid_player g p) (hb : on_board g c0) (hq : g.player_arr c0.x c0.y = q)
    (hqp : q ≠ p) (hq0 : q ≠ 0) (d1 : Core g1) (d2 : Removed g q c0 g1)
    (r : Bool × gamma)
    (hr : r = if decide ((g.players (p - 1)).num_of_areas ≥ g.max_num_of_areas)
          && count_neighbours g c0.x c0.y p == 0 then (false, g)
      else if (g1.players (q - 1)).num_of_areas > g1.max_num_of_areas then
        (false, (gamma_move g1 q c0.x c0.y).2)
      else if !(gamma_move g1 p c0.x c0.y).1 then
        (false, (gamma_move (gamma_move g1 p c0.x c0.y).2 q c0.x c0.y).2)
      else (true, (gamma_move g1 p c0.x c0.y).2)) :
    Inv r.2 ∧ (r.1 = true ↔ golden_ok g p c0.x c0.y) ∧
    (r.1 = false → same_observable g r.2) ∧
    (r.1 = true → SameShape g r.2 ∧ r.2.player_arr = set2D g.player_arr c0.x c0.y p) := by
  have hqo : owner g c0 = q := hq
  have hqv : valid_player g q := by
    rw [← hqo]; exact hI.core.valid_owner hb (by rw [hqo]; exact hq0)
  have hown : owns g q c0 := ⟨hb, hq⟩
  obtain ⟨k1, k2, k3, k4, k5⟩ := golden_core hI hp hb hqo hqp hq0 d1 d2
  have hgo : golden_ok g p c0.x c0.y →
      (g1.players (q - 1)).num_of_areas ≤ g.max_num_of_areas ∧
      ¬ ((g.players (p - 1)).num_of_areas ≥ g.max_num_of_areas ∧
        count_neighbours g c0.x c0.y p = 0) := by
    rintro ⟨_, _, _, _, a5, a6⟩
    rw [hq, k3] at a5
    exact ⟨a5, k4.mp a6⟩
  by_cases hA : (g.players (p - 1)).num_of_areas ≥ g.max_num_of_areas ∧
      count_neighbours g c0.x c0.y p = 0
  · have hc : (decide ((g.players (p - 1)).num_of_areas ≥ g.max_num_of_areas)
        && count_neighbours g c0.x c0.y p == 0) = true := by
      simp only [Bool.and_eq_true, decide_eq_true_eq, beq_iff_eq]; exact hA
    rw [if_pos hc] at hr
    subst hr
    refine ⟨hI, ⟨fun e => absurd e Bool.false_ne_true, fun e => absurd hA (hgo e).2⟩,
      fun _ => same_observable.obs_refl g, fun e => absurd e Bool.false_ne_true⟩
  · have hc : ¬ (decide ((g.players (p - 1)).num_of_areas ≥ g.max_num_of_areas)
        && count_neighbours g c0.x c0.y p == 0) = true := by
      simp only [Bool.and_eq_true, decide_eq_true_eq, beq_iff_eq]; exact hA
    rw [if_neg hc] at hr
    by_cases hgt : (g1.players (q - 1)).num_of_areas > g1.max_num_of_areas
    · rw [if_pos hgt, gamma_move_of_ok k1] at hr
      obtain ⟨rep1, rk1, hF1⟩ := d1.forest
      obtain ⟨r1, r2, _⟩ := restore_of_removed hI.core hqv hown d1 d2 hF1
      have hr1 : r = (false, move_util g1 c0.x c0.y q) := hr
      generalize move_util g1 c0.x c0.y q = gr at hr1 r1 r2
      subst hr1
      refine ⟨r2.obs_inv hI r1, ⟨fun e => absurd e Bool.false_ne_true, fun e => ?_⟩,
        fun _ => r2, fun e => absurd e Bool.false_ne_true⟩
      have := (hgo e).1
      rw [d2.max_num_of_areas] at hgt
      omega
    · rw [if_neg hgt, gamma_move_of_ok (k2.mpr hA)] at hr
      rw [if_neg (by simp)] at hr
      have hle : (g1.players (q - 1)).num_of_areas ≤ g.max_num_of_areas := by
        rw [d2.max_num_of_areas] at hgt; omega
      obtain ⟨m1, m2⟩ := move_util_inv (k5 hle) (k2.mpr hA)
      have hp1 : valid_player g1 p := ((d2.removed_shape hqv).valid_iff p).mpr hp
      have hr1 : r = (true, move_util g1 c0.x c0.y p) := hr
      generalize move_util g1 c0.x c0.y p = gm at hr1 m1 m2
      subst hr1
      refine ⟨m1, ⟨fun _ => ?_, fun _ => rfl⟩, fun e => absurd e.symm Bool.false_ne_true,
        fun _ => ⟨(d2.removed_shape hqv).shape_trans (m2.placed_shape hp1), ?_⟩⟩
      · refine ⟨hp, hb, by rw [hq]; exact hqp, by rw [hq]; exact hq0, ?_, k4.mpr hA⟩
        rw [hq, k3]; exact hle
      · change gm.player_arr = _
        rw [m2.player_arr, d2.player_arr, set2D_set2D]

/-- The effect of `delete_and_move` on a cell owned by another player. -/
theorem delete_and_move_spec {g : gamma} {p : Nat} {c0 : field_t} (hI : Inv g)
    (hp : valid_player g p) (hb : on_board g c0) (hne : g.player_arr c0.x c0.y ≠ p)
    (h0 : g.player_arr c0.x c0.y ≠ 0) :
    Inv (delete_and_move g c0.x c0.y p).2 ∧
    ((delete_and_move g c0.x c0.y p).1 = true ↔ golden_ok g p c0.x c0.y) ∧
    ((delete_and_move g c0.x c0.y p).1 = false →
      same_observable g (delete_and_move g c0.x c0.y p).2) ∧
    ((delete_and_move g c0.x c0.y p).1 = true →
      SameShape g (delete_and_move g c0.x c0.y p).2 ∧
      (delete_and_move g c0.x c0.y p).2.player_arr = set2D g.player_arr c0.x c0.y p) := by
  have hqv : valid_player g (g.player_arr c0.x c0.y) := hI.core.valid_owner hb h0
  obtain ⟨d1, d2⟩ := delete_util_spec hI.core hqv ⟨hb, rfl⟩
  exact delete_and_move_core hI hp hb rfl hne h0 d1 d2 _ (delete_and_move_unfold g c0.x c0.y p)

/-! ## The golden flag -/

theorem set_golden_players (g : gamma) (p : Nat) (b : Bool) (i : Nat) :
    (set_golden g p b).players i =
      if i = p - 1 then { g.players (p - 1) with has_played_golden_move := b }
      else g.players i := rfl

theorem set_golden_busy (g : gamma) (p : Nat) (b : Bool) (i : Nat) :
    ((set_golden g p b).players i).busy_fields = (g.players i).busy_fields := by
  rw [set_golden_players]
  by_cases h : i = p - 1
  · rw [if_pos h, h]
  · rw [if_neg h]

theorem set_golden_areas (g : gamma) (p : Nat) (b : Bool) (i : Nat) :
    ((set_golden g p b).players i).num_of_areas = (g.players i).num_of_areas := by
  rw [set_golden_players]
  by_cases h : i = p - 1
  · rw [if_pos h, h]
  · rw [if_neg h]

theorem set_golden_flag_same (g : gamma) (p : Nat) (b : Bool) :
    ((set_golden g p b).players (p - 1)).has_played_golden_move = b := by
  rw [set_golden_players, if_pos rfl]

theorem set_golden_flag_ne (g : gamma) (p : Nat) (b : Bool) (i : Nat) (h : i ≠ p - 1) :
    ((set_golden g p b).players i).has_played_golden_move =
      (g.players i).has_played_golden_move := by
  rw [set_golden_players, if_neg h]

theorem gamma_ext {g h : gamma} (e1 : g.width = h.width) (e2 : g.height = h.height)
    (e3 : g.num_of_players = h.num_of_players) (e4 : g.max_num_of_areas = h.max_num_of_areas)
    (e5 : g.empty_fields = h.empty_fields) (e6 : g.players = h.players)
    (e7 : g.player_arr = h.player_arr) (e8 : g.parents = h.parents)
    (e9 : g.areas_size = h.areas_size) (e10 : g.visited = h.visited)
    (e11 : g.stack = h.stack) : g = h := by
  cases g; cases h
  simp only at e1 e2 e3 e4 e5 e6 e7 e8 e9 e10 e11
  subst e1 e2 e3 e4 e5 e6 e7 e8 e9 e10 e11
  rfl

theorem set_golden_set_golden (g : gamma) (p : Nat) (a b : Bool) :
    set_golden (set_golden g p a) p b = set_golden g p b := by
  apply gamma_ext <;> try rfl
  funext i
  apply player_ext
  · by_cases h : i = p - 1
    · rw [h, set_golden_flag_same, set_golden_flag_same]
    · rw [set_golden_flag_ne _ _ _ _ h, set_golden_flag_ne _ _ _ _ h,
        set_golden_flag_ne _ _ _ _ h]
  · rw [set_golden_areas, set_golden_areas, set_golden_areas]
  · rw [set_golden_busy, set_golden_busy, set_golden_busy]

theorem set_golden_self (g : gamma) (p : Nat) :
    set_golden g p (g.players (p - 1)).has_played_golden_move = g := by
  apply gamma_ext <;> try rfl
  funext i
  rw [set_golden_players]
  by_cases h : i = p - 1
  · rw [if_pos h, h]
  · rw [if_neg h]

theorem set_golden_core {g : gamma} (hC : Core g) (p : Nat) (b : Bool) :
    Core (set_golden g p b) := by
  have hr : ∀ q, roots (set_golden g p b) q = roots g q := by
    intro q
    rw [← roots_in_true, ← roots_in_true]
    exact roots_in_congr _ q rfl rfl rfl rfl
  constructor
  · exact hC.width_pos
  · exact hC.width_lt
  · exact hC.height_pos
  · exact hC.height_lt
  · exact hC.players_pos
  · exact hC.players_lt
  · exact hC.areas_pos
  · exact hC.areas_lt
  · exact hC.owner_le
  · exact hC.empty_eq
  · intro q hq
    rw [set_golden_busy]
    exact hC.busy_eq q hq
  · intro q hq
    rw [set_golden_areas, hr]
    exact hC.areas_eq q hq
  · obtain ⟨rep, rk, hF⟩ := hC.forest
    exact ⟨rep, rk, hF.forest_congr rfl rfl rfl rfl⟩
  · exact hC.visited_zero
  · exact hC.stack_empty
  · exact hC.stack_size

theorem set_golden_inv {g : gamma} (hI : Inv g) (p : Nat) (b : Bool) :
    Inv (set_golden g p b) :=
  hI.inv_congr (set_golden_core hI.core p b) rfl rfl (fun _ _ => set_golden_areas g p b _)

theorem SameShape.set_golden {g h : gamma} (hs : SameShape g h) (p : Nat) (b : Bool) :
    SameShape (set_golden g p b) (set_golden h p b) := by
  refine ⟨hs.width, hs.height, hs.num_of_players, hs.max_num_of_areas, ?_, ?_⟩
  · intro i hi
    have hi2 : g.num_of_players ≤ i := hi
    rw [set_golden_players, set_golden_players]
    by_cases e : i = p - 1
    · rw [if_pos e, if_pos e, ← e, hs.outside i hi2]
    · rw [if_neg e, if_neg e, hs.outside i hi2]
  · intro i
    by_cases e : i = p - 1
    · rw [e, set_golden_flag_same, set_golden_flag_same]
    · rw [set_golden_flag_ne _ _ _ _ e, set_golden_flag_ne _ _ _ _ e, hs.golden]

theorem golden_ok_congr {g g1 : gamma} (hw : g1.width = g.width) (hh : g1.height = g.height)
    (hn : g1.num_of_players = g.num_of_players)
    (hm : g1.max_num_of_areas = g.max_num_of_areas) (hp : g1.player_arr = g.player_arr)
    (p x y : Nat) : golden_ok g1 p x y ↔ golden_ok g p x y := by
  cases g; cases g1
  simp only at hw hh hn hm hp
  subst hw hh hn hm hp
  exact Iff.rfl

/-! ## `gamma_golden_move` -/

theorem gamma_golden_move_unfold (g : gamma) (p x y : Nat) :
    gamma_golden_move g p x y =
      if wrong_player p g || wrong_field x y g then (false, g)
      else if (g.players (p - 1)).has_played_golden_move then (false, g)
      else if g.player_arr x y == p then (false, g)
      else if no_field x y g then (false, g)
      else if (delete_and_move g x y p).1 then (true, set_golden (delete_and_move g x y p).2 p true)
      else (false, (delete_and_move g x y p).2) := rfl

/-- The effect of `gamma_golden_move` in a state satisfying the invariant. -/
theorem gamma_golden_move_spec {g : gamma} (hI : Inv g) (p x y : Nat) :
    Inv (gamma_golden_move g p x y).2 ∧
    ((gamma_golden_move g p x y).1 = true ↔
      ((g.players (p - 1)).has_played_golden_move = false ∧ golden_ok g p x y)) ∧
    ((gamma_golden_move g p x y).1 = false →
      same_observable g (gamma_golden_move g p x y).2) ∧
    ((gamma_golden_move g p x y).1 = true →
      SameShape (set_golden g p true) (gamma_golden_move g p x y).2 ∧
      (gamma_golden_move g p x y).2.player_arr = set2D g.player_arr x y p) := by
  have hfalse : ¬ ((g.players (p - 1)).has_played_golden_move = false ∧ golden_ok g p x y) →
      Inv (false, g).2 ∧
      ((false, g).1 = true ↔
        ((g.players (p - 1)).has_played_golden_move = false ∧ golden_ok g p x y)) ∧
      ((false, g).1 = false → same_observable g (false, g).2) ∧
      ((false, g).1 = true →
        SameShape (set_golden g p true) (false, g).2 ∧
        (false, g).2.player_arr = set2D g.player_arr x y p) :=
    fun hn => ⟨hI, ⟨fun e => absurd e Bool.false_ne_true, fun e => absurd e hn⟩,
      fun _ => same_observable.obs_refl g, fun e => absurd e Bool.false_ne_true⟩
  rw [gamma_golden_move_unfold]
  by_cases c1 : (wrong_player p g || wrong_field x y g) = true
  · rw [if_pos c1]
    apply hfalse
    rintro ⟨_, h1, h2, _⟩
    rw [← wrong_player_false_iff] at h1
    rw [← wrong_field_false_iff] at h2
    rw [h1, h2] at c1
    exact Bool.false_ne_true c1
  rw [if_neg c1]
  simp only [Bool.or_eq_true, not_or, Bool.not_eq_true] at c1
  have hp := wrong_player_false_iff.mp c1.1
  have hb : on_board g { x := x, y := y } := wrong_field_false_iff.mp c1.2
  by_cases c2 : (g.players (p - 1)).has_played_golden_move = true
  · rw [if_pos c2]
    apply hfalse
    rintro ⟨h1, _⟩
    rw [h1] at c2
    exact Bool.false_ne_true c2
  rw [if_neg c2]
  by_cases c3 : (g.player_arr x y == p) = true
  · rw [if_pos c3]
    apply hfalse
    rintro ⟨_, _, _, h3, _⟩
    exact h3 (beq_iff_eq.mp c3)
  rw [if_neg c3]
  by_cases c4 : no_field x y g = true
  · rw [if_pos c4]
    apply hfalse
    rintro ⟨_, _, _, _, h4, _⟩
    unfold no_field NO_PLAYER at c4
    exact h4 (beq_iff_eq.mp c4)
  rw [if_neg c4]
  have hne : g.player_arr x y ≠ p := fun e => c3 (beq_iff_eq.mpr e)
  have h0 : g.player_arr x y ≠ 0 := by
    intro e
    apply c4
    unfold no_field NO_PLAYER
    exact beq_iff_eq.mpr e
  have hflag : (g.players (p - 1)).has_played_golden_move = false := by
    simpa using c2
  obtain ⟨s1, s2, s3, s4⟩ := @delete_and_move_spec g p { x := x, y := y } hI hp hb hne h0
  generalize delete_and_move g x y p = r at s1 s2 s3 s4
  obtain ⟨b, h⟩ := r
  cases b
  · rw [if_neg Bool.false_ne_true]
    refine ⟨s1, ⟨fun e => absurd e Bool.false_ne_true, fun e => ?_⟩, s3,
      fun e => absurd e Bool.false_ne_true⟩
    exact absurd (s2.mpr e.2) Bool.false_ne_true
  · rw [if_pos rfl]
    obtain ⟨t1, t2⟩ := s4 rfl
    exact ⟨set_golden_inv s1 p true, ⟨fun _ => ⟨hflag, s2.mp rfl⟩, fun _ => rfl⟩,
      fun e => absurd e.symm Bool.false_ne_true, fun _ => ⟨t1.set_golden p true, t2⟩⟩

/-! ## A cell whose removal splits no area -/

theorem SConn.sconn_mono {S T : Finset field_t} (h : S ⊆ T) {a b : field_t} (hc : SConn S a b) :
    SConn T a b :=
  Relation.ReflTransGen.mono (fun _ _ hab => ⟨hab.1, h hab.2.1, h hab.2.2⟩) hc

theorem SConn.sconn_symm {S : Finset field_t} {a b : field_t} (hc : SConn S a b) : SConn S b a := by
  induction hc with
  | refl => exact Relation.ReflTransGen.refl
  | tail _ hbc ih =>
    exact Relation.ReflTransGen.head ⟨adjacent_symm hbc.1, hbc.2.2, hbc.2.1⟩ ih

/-- Growing a connected set by adjacent cells until it is closed in `S`; the cell added
last can be removed without disconnecting the rest. -/
theorem grow_component (S : Finset field_t) : ∀ (n : Nat) (T : Finset field_t),
    (S \ T).card = n → T ⊆ S → (∀ a ∈ T, ∀ b ∈ T, SConn T a b) →
    (∃ v ∈ T, ∀ a ∈ T.erase v, ∀ b ∈ T.erase v, SConn (T.erase v) a b) →
    ∃ T1 : Finset field_t, T1 ⊆ S ∧
      (∃ v ∈ T1, ∀ a ∈ T1.erase v, ∀ b ∈ T1.erase v, SConn (T1.erase v) a b) ∧
      (∀ t ∈ T1, ∀ u ∈ S, adjacent t u → u ∈ T1) := by
  intro n
  induction n with
  | zero =>
    intro T hn hsub _ hv
    refine ⟨T, hsub, hv, ?_⟩
    intro t _ u hu _
    by_contra hnu
    have : u ∈ S \ T := Finset.mem_sdiff.mpr ⟨hu, hnu⟩
    rw [Finset.card_eq_zero] at hn
    rw [hn] at this
    exact absurd this (Finset.not_mem_empty u)
  | succ n ih =>
    intro T hn hsub hconn hv
    by_cases hcl : ∀ t ∈ T, ∀ u ∈ S, adjacent t u → u ∈ T
    · exact ⟨T, hsub, hv, hcl⟩
    · push_neg at hcl
      obtain ⟨t, ht, u, hu, htu, hnu⟩ := hcl
      have hsub1 : insert u T ⊆ S := Finset.insert_subset hu hsub
      have hTsub : T ⊆ insert u T := Finset.subset_insert u T
      have hcard : (S \ insert u T).card = n := by
        have e : S \ insert u T = (S \ T).erase u := by
          ext c
          simp only [Finset.mem_sdiff, Finset.mem_insert, Finset.mem_erase, not_or]
          tauto
        rw [e, Finset.card_erase_of_mem (Finset.mem_sdiff.mpr ⟨hu, hnu⟩), hn]
        rfl
      have hto : ∀ a ∈ insert u T, SConn (insert u T) a t := by
        intro a ha
        rcases Finset.mem_insert.mp ha with e | ha1
        · rw [e]
          exact Relation.ReflTransGen.single
            ⟨adjacent_symm htu, Finset.mem_insert_self u T, hTsub ht⟩
        · exact (hconn a ha1 t ht).sconn_mono hTsub
      apply ih (insert u T) hcard hsub1
      · intro a ha b hb
        exact (hto a ha).trans (hto b hb).sconn_symm
      · refine ⟨u, Finset.mem_insert_self u T, ?_⟩
        rw [Finset.erase_insert hnu]
        exact hconn

/-- Every nonempty finite set of cells has a cell whose neighbours in the set stay
connected to each other once the cell is removed. -/
theorem exists_noncut (S : Finset field_t) (hS : S.Nonempty) :
    ∃ v ∈ S, ∀ a ∈ S, ∀ b ∈ S, a ≠ v → b ≠ v → adjacent v a → adjacent v b →
      SConn (S.erase v) a b := by
  obtain ⟨r, hr⟩ := hS
  obtain ⟨T, hsub, ⟨v, hv, hconn⟩, hcl⟩ := grow_component S (S \ {r}).card {r} rfl
    (Finset.singleton_subset_iff.mpr hr)
    (by
      intro a ha b hb
      rw [Finset.mem_singleton] at ha hb
      rw [ha, hb]
      exact Relation.ReflTransGen.refl)
    ⟨r, Finset.mem_singleton_self r, by
      intro a ha
      rw [Finset.erase_singleton] at ha
      exact absurd ha (Finset.not_mem_empty a)⟩
  refine ⟨v, hsub hv, ?_⟩
  intro a ha b hb hav hbv hadja hadjb
  have ha1 : a ∈ T.erase v := Finset.mem_erase.mpr ⟨hav, hcl v hv a ha hadja⟩
  have hb1 : b ∈ T.erase v := Finset.mem_erase.mpr ⟨hbv, hcl v hv b hb hadjb⟩
  exact (hconn a ha1 b hb1).sconn_mono (Finset.erase_subset_erase v hsub)

/-! ## Existence of a legal golden move -/

/-- A player below the cap can take a suitably chosen cell of any other player that owns
one. -/
theorem exists_golden {g : gamma} (hI : Inv g) {p q : Nat} (hp : valid_player g p)
    (hq : valid_player g q) (hqp : q ≠ p) (hbusy : 0 < (g.players (q - 1)).busy_fields)
    (hlt : (g.players (p - 1)).num_of_areas < g.max_num_of_areas) :
    ∃ x y, golden_ok g p x y := by
  have hq0 : q ≠ 0 := by have := hq.1; omega
  have hne : (cells_of g q).Nonempty := by
    rw [hI.core.busy_eq q hq] at hbusy
    exact Finset.card_pos.mp hbusy
  obtain ⟨v, hv, hcut⟩ := exists_noncut (cells_of g q) hne
  have hown : owns g q v := mem_cells_of.mp hv
  obtain ⟨d1, d2⟩ := delete_util_spec hI.core hq hown
  generalize delete_util g v.x v.y q = g1 at d1 d2
  obtain ⟨k1, k2, k3, k4, k5⟩ := golden_core hI hp hown.1 hown.2 hqp hq0 d1 d2
  obtain ⟨rep1, rk1, hF1⟩ := d1.forest
  obtain ⟨_, _, r3⟩ := restore_of_removed hI.core hq hown d1 d2 hF1
  have hs := d2.removed_shape hq
  have hown1 : ∀ c, owns g1 q c ↔ (owns g q c ∧ c ≠ v) := by
    intro c
    unfold owns
    rw [hs.shape_on_board_iff, d2.removed_owner_eq]
    by_cases hc : c = v
    · rw [if_pos hc]
      constructor
      · rintro ⟨_, e⟩; exact absurd e.symm hq0
      · rintro ⟨_, e⟩; exact absurd hc e
    · rw [if_neg hc]
      constructor
      · rintro ⟨a, b⟩; exact ⟨⟨a, b⟩, hc⟩
      · rintro ⟨⟨a, b⟩, _⟩; exact ⟨a, b⟩
  have hconn : ∀ a b, SConn ((cells_of g q).erase v) a b → Conn g1 q a b := by
    intro a b hab
    refine Relation.ReflTransGen.mono ?_ hab
    intro c d hcd
    have hc := Finset.mem_erase.mp hcd.2.1
    have hd := Finset.mem_erase.mp hcd.2.2
    exact ⟨hcd.1, (hown1 c).mpr ⟨mem_cells_of.mp hc.2, hc.1⟩,
      (hown1 d).mpr ⟨mem_cells_of.mp hd.2, hd.1⟩⟩
  have hle1 : ((p_neighbours g1 v q).image rep1).card ≤ 1 := by
    rw [Finset.card_le_one]
    intro a ha b hb
    obtain ⟨a1, ha1, rfl⟩ := Finset.mem_image.mp ha
    obtain ⟨b1, hb1, rfl⟩ := Finset.mem_image.mp hb
    rw [mem_p_neighbours] at ha1 hb1
    have oa := (hown1 a1).mp ha1.1
    have ob := (hown1 b1).mp hb1.1
    exact hF1.rep_of_conn hq0 (hconn a1 b1 (hcut a1 (mem_cells_of.mpr oa.1) b1
      (mem_cells_of.mpr ob.1) oa.2 ob.2 ha1.2 hb1.2))
  have hqle := hI.areas_le q hq
  refine ⟨v.x, v.y, hp, hown.1, ?_, ?_, ?_, ?_⟩
  · intro e; exact hqp (hown.2.symm.trans e)
  · intro e; exact hq0 (hown.2.symm.trans e)
  · have e : g.player_arr v.x v.y = q := hown.2
    rw [e, k3]
    omega
  · apply k4.mpr
    rintro ⟨hge, _⟩
    omega

/-! ## `golden_no_checking_nor_changing` -/

theorem golden_no_checking_unfold (g : gamma) (p x y : Nat) :
    golden_no_checking_nor_changing g p x y =
      if wrong_player p g || wrong_field x y g then (false, g)
      else ((gamma_golden_move (set_golden g p false) p x y).1,
        set_golden (gamma_golden_move (set_golden g p false) p x y).2 p
          (g.players (p - 1)).has_played_golden_move) := rfl

/-- The speculative golden move: the flags are restored, the cell is reassigned exactly
when the move is legal apart from the flag. -/
theorem golden_no_checking_spec {g : gamma} (hI : Inv g) (p x y : Nat) :
    Inv (golden_no_checking_nor_changing g p x y).2 ∧
    SameShape g (golden_no_checking_nor_changing g p x y).2 ∧
    ((golden_no_checking_nor_changing g p x y).1 = true ↔ golden_ok g p x y) ∧
    ((golden_no_checking_nor_changing g p x y).1 = false →
      (golden_no_checking_nor_changing g p x y).2.player_arr = g.player_arr) ∧
    ((golden_no_checking_nor_changing g p x y).1 = true →
      (golden_no_checking_nor_changing g p x y).2.player_arr = set2D g.player_arr x y p) := by
  rw [golden_no_checking_unfold]
  by_cases c1 : (wrong_player p g || wrong_field x y g) = true
  · rw [if_pos c1]
    refine ⟨hI, SameShape.shape_refl g, ⟨fun e => absurd e Bool.false_ne_true, ?_⟩, fun _ => rfl,
      fun e => absurd e Bool.false_ne_true⟩
    rintro ⟨h1, h2, _⟩
    rw [← wrong_player_false_iff] at h1
    rw [← wrong_field_false_iff] at h2
    rw [h1, h2] at c1
    exact absurd c1 Bool.false_ne_true
  rw [if_neg c1]
  have hIa := set_golden_inv hI p false
  obtain ⟨s1, s2, s3, s4⟩ := gamma_golden_move_spec hIa p x y
  have hok : golden_ok (set_golden g p false) p x y ↔ golden_ok g p x y :=
    golden_ok_congr rfl rfl rfl rfl rfl p x y
  rw [set_golden_flag_same, hok] at s2
  generalize gamma_golden_move (set_golden g p false) p x y = r at s1 s2 s3 s4
  have hback : ∀ b, set_golden (set_golden (set_golden g p false) p b) p
      (g.players (p - 1)).has_played_golden_move = g := by
    intro b
    rw [set_golden_set_golden, set_golden_set_golden, set_golden_self]
  have hback2 : set_golden (set_golden g p false) p
      (g.players (p - 1)).has_played_golden_move = g := by
    rw [set_golden_set_golden, set_golden_self]
  refine ⟨set_golden_inv s1 p _, ?_, ⟨fun e => (s2.mp e).2, fun e => s2.mpr ⟨rfl, e⟩⟩, ?_, ?_⟩
  · obtain ⟨b, h⟩ := r
    cases b
    · have := (s3 rfl).obs_shape.set_golden p (g.players (p - 1)).has_played_golden_move
      rw [hback2] at this
      exact this
    · have := (s4 rfl).1.set_golden p (g.players (p - 1)).has_played_golden_move
      rw [hback true] at this
      exact this
  · intro e
    exact (s3 e).2.2.2.2.2.2
  · intro e
    exact (s4 e).2

/-! ## The board scan of `gamma_golden_possible` -/

/-- After a legal speculative golden move of `p` the former owner can take the cell
back. -/
theorem golden_reverse {g h : gamma} {p i j : Nat} (hI : Inv g) (hok : golden_ok g p i j)
    (hs : SameShape g h) (hpa : h.player_arr = set2D g.player_arr i j p) :
    golden_ok h (g.player_arr i j) i j ∧
      set2D h.player_arr i j (g.player_arr i j) = g.player_arr := by
  obtain ⟨h1, h2, h3, h4, _, _⟩ := hok
  have hqv : valid_player g (g.player_arr i j) :=
    @Core.valid_owner g hI.core { x := i, y := j } h2 h4
  have hp0 : p ≠ 0 := by have := h1.1; omega
  have hcell : h.player_arr i j = p := by
    rw [hpa]; unfold set2D; rw [if_pos ⟨rfl, rfl⟩]
  have hback : set2D h.player_arr i j (g.player_arr i j) = g.player_arr := by
    rw [hpa, set2D_set2D]
    exact set2D_self _ _ _
  have hcard : ∀ r, valid_player g r →
      Nat.card (Area (reassign h i j (g.player_arr i j)) r) ≤ h.max_num_of_areas := by
    intro r hr
    have e : Nat.card (Area (reassign h i j (g.player_arr i j)) r) = Nat.card (Area g r) :=
      @area_card_congr g (reassign h i j (g.player_arr i j)) hs.width hs.height hback r
    rw [e, ← hI.core.areas_card hr, hs.max_num_of_areas]
    exact hI.areas_le r hr
  refine ⟨⟨(hs.valid_iff _).mpr hqv, (hs.shape_on_board_iff _).mpr h2, ?_, ?_, ?_, ?_⟩, hback⟩
  · rw [hcell]; exact fun e => h3 e.symm
  · rw [hcell]; exact hp0
  · rw [hcell]; exact hcard p h1
  · exact hcard _ hqv

theorem golden_possible_scan_cons (p i j : Nat) (rest : List (Nat × Nat)) (g : gamma) :
    golden_possible_scan p ((i, j) :: rest) g =
      if (golden_no_checking_nor_changing g p i j).1 then
        (true, (golden_no_checking_nor_changing
          (golden_no_checking_nor_changing g p i j).2 (g.player_arr i j) i j).2)
      else golden_possible_scan p rest (golden_no_checking_nor_changing g p i j).2 := rfl

/-- The board scan finds a legal golden move exactly when the listed cells contain one, and
leaves a state that cannot be told apart from the one before. -/
theorem golden_possible_scan_spec (p : Nat) : ∀ (l : List (Nat × Nat)) (g : gamma), Inv g →
    Inv (golden_possible_scan p l g).2 ∧ same_observable g (golden_possible_scan p l g).2 ∧
    ((golden_possible_scan p l g).1 = true ↔ ∃ c ∈ l, golden_ok g p c.1 c.2) := by
  intro l
  induction l with
  | nil =>
    intro g hI
    refine ⟨hI, same_observable.obs_refl g, ⟨fun e => absurd e Bool.false_ne_true, ?_⟩⟩
    rintro ⟨c, hc, _⟩
    exact absurd hc (List.not_mem_nil c)
  | cons c rest ih =>
    intro g hI
    obtain ⟨i, j⟩ := c
    rw [golden_possible_scan_cons]
    obtain ⟨s1, s2, s3, s4, s5⟩ := golden_no_checking_spec hI p i j
    generalize golden_no_checking_nor_changing g p i j = r at s1 s2 s3 s4 s5
    obtain ⟨b, h⟩ := r
    cases b
    · rw [if_neg Bool.false_ne_true]
      have hso : same_observable g h := same_observable_of_core hI.core s1.core s2 (s4 rfl)
      obtain ⟨t1, t2, t3⟩ := ih h s1
      refine ⟨t1, hso.obs_trans t2, ?_⟩
      rw [t3]
      have hcg : ∀ c : Nat × Nat, golden_ok h p c.1 c.2 ↔ golden_ok g p c.1 c.2 :=
        fun c => golden_ok_congr s2.width s2.height s2.num_of_players s2.max_num_of_areas
          (s4 rfl) p c.1 c.2
      constructor
      · rintro ⟨c, hc, hk⟩
        exact ⟨c, List.mem_cons_of_mem _ hc, (hcg c).mp hk⟩
      · rintro ⟨c, hc, hk⟩
        rcases List.mem_cons.mp hc with e | hc1
        · subst e
          exact absurd (s3.mpr hk) Bool.false_ne_true
        · exact ⟨c, hc1, (hcg c).mpr hk⟩
    · rw [if_pos rfl]
      have hok : golden_ok g p i j := s3.mp rfl
      obtain ⟨r1, r2⟩ := golden_reverse hI hok s2 (s5 rfl)
      obtain ⟨u1, u2, u3, _, u5⟩ := golden_no_checking_spec s1 (g.player_arr i j) i j
      have hpa := u5 (u3.mpr r1)
      generalize golden_no_checking_nor_changing h (g.player_arr i j) i j = rr at u1 u2 hpa
      refine ⟨u1, same_observable_of_core hI.core u1.core (s2.shape_trans u2) (hpa.trans r2),
        ⟨fun _ => ⟨(i, j), List.mem_cons_self _ _, hok⟩, fun _ => rfl⟩⟩

theorem mem_scan_order {w h : Nat} {c : Nat × Nat} :
    c ∈ scan_order w h ↔ c.1 < w ∧ c.2 < h := by
  obtain ⟨i, j⟩ := c
  simp only [scan_order, List.mem_flatMap, List.mem_range, List.mem_map, Prod.mk.injEq]
  constructor
  · rintro ⟨a, ha, b, hb, rfl, rfl⟩; exact ⟨ha, hb⟩
  · rintro ⟨ha, hb⟩; exact ⟨i, ha, j, hb, rfl, rfl⟩

theorem fold_or_true (c : Nat → Bool) : ∀ (l : List Nat) (b0 : Bool),
    l.foldl (fun b i => if c i then true else b) b0 = true ↔
      (b0 = true ∨ ∃ i ∈ l, c i = true) := by
  intro l
  induction l with
  | nil => intro b0; simp
  | cons a l ih =>
    intro b0
    rw [List.foldl_cons, ih]
    by_cases ha : c a = true
    · rw [if_pos ha]
      constructor
      · intro _; exact Or.inr ⟨a, List.mem_cons_self _ _, ha⟩
      · intro _; exact Or.inl rfl
    · rw [if_neg ha]
      constructor
      · rintro (h | ⟨i, hi, hc⟩)
        · exact Or.inl h
        · exact Or.inr ⟨i, List.mem_cons_of_mem _ hi, hc⟩
      · rintro (h | ⟨i, hi, hc⟩)
        · exact Or.inl h
        · rcases List.mem_cons.mp hi with e | hi1
          · subst e; exact absurd hc ha
          · exact Or.inr ⟨i, hi1, hc⟩

/-- The heuristic of `gamma_golden_possible`: some other player owns a cell. -/
theorem golden_possible_heuristic_iff (g : gamma) (p : Nat) :
    golden_possible_heuristic g p = true ↔
      ∃ i, i < g.num_of_players ∧ i ≠ p - 1 ∧ 0 < (g.players i).busy_fields := by
  unfold golden_possible_heuristic
  rw [fold_or_true (fun i => i != p - 1 && decide ((g.players i).busy_fields > 0))]
  simp only [Bool.false_eq_true, false_or, List.mem_range, Bool.and_eq_true, bne_iff_ne,
    ne_eq, decide_eq_true_eq, gt_iff_lt]

/-! ## `gamma_golden_possible` -/

theorem golden_ok_heuristic {g : gamma} (hI : Inv g) {p x y : Nat} (hok : golden_ok g p x y) :
    ∃ i, i < g.num_of_players ∧ i ≠ p - 1 ∧ 0 < (g.players i).busy_fields := by
  obtain ⟨h1, h2, h3, h4, _, _⟩ := hok
  have hqv : valid_player g (g.player_arr x y) :=
    @Core.valid_owner g hI.core { x := x, y := y } h2 h4
  refine ⟨g.player_arr x y - 1, ?_, ?_, ?_⟩
  · have := hqv.1; have := hqv.2; omega
  · have := hqv.1; have := h1.1; omega
  · rw [hI.core.busy_eq _ hqv]
    apply Finset.card_pos.mpr
    exact ⟨{ x := x, y := y }, mem_cells_of.mpr ⟨h2, rfl⟩⟩

theorem gamma_golden_possible_unfold (g : gamma) (p : Nat) :
    gamma_golden_possible g p =
      if wrong_player p g then (false, g)
      else if (g.players (p - 1)).has_played_golden_move then (false, g)
      else if !golden_possible_heuristic g p then (false, g)
      else if (g.players (p - 1)).num_of_areas < g.max_num_of_areas then (true, g)
      else golden_possible_scan p (scan_order g.width g.height) g := rfl

/-- The query `gamma_golden_possible`: it answers whether some golden move of `p` is legal
and leaves a state that cannot be told apart from the one before. -/
theorem gamma_golden_possible_spec {g : gamma} (hI : Inv g) (p : Nat) :
    Inv (gamma_golden_possible g p).2 ∧ same_observable g (gamma_golden_possible g p).2 ∧
    ((gamma_golden_possible g p).1 = true ↔
      ((g.players (p - 1)).has_played_golden_move = false ∧ ∃ x y, golden_ok g p x y)) := by
  have hfalse : ¬ ((g.players (p - 1)).has_played_golden_move = false ∧
      ∃ x y, golden_ok g p x y) →
      Inv (false, g).2 ∧ same_observable g (false, g).2 ∧
      ((false, g).1 = true ↔
        ((g.players (p - 1)).has_played_golden_move = false ∧ ∃ x y, golden_ok g p x y)) :=
    fun hn => ⟨hI, same_observable.obs_refl g, ⟨fun e => absurd e Bool.false_ne_true,
      fun e => absurd e hn⟩⟩
  rw [gamma_golden_possible_unfold]
  by_cases c1 : wrong_player p g = true
  · rw [if_pos c1]
    apply hfalse
    rintro ⟨_, x, y, h1, _⟩
    rw [← wrong_player_false_iff] at h1
    rw [h1] at c1
    exact absurd c1 Bool.false_ne_true
  rw [if_neg c1]
  have hp : valid_player g p := wrong_player_false_iff.mp (by simpa using c1)
  by_cases c2 : (g.players (p - 1)).has_played_golden_move = true
  · rw [if_pos c2]
    apply hfalse
    rintro ⟨h1, _⟩
    rw [h1] at c2
    exact absurd c2 Bool.false_ne_true
  rw [if_neg c2]
  have hflag : (g.players (p - 1)).has_played_golden_move = false := by simpa using c2
  by_cases c3 : golden_possible_heuristic g p = true
  · rw [c3, if_neg (by simp)]
    by_cases c4 : (g.players (p - 1)).num_of_areas < g.max_num_of_areas
    · rw [if_pos c4]
      refine ⟨hI, same_observable.obs_refl g, ⟨fun _ => ⟨hflag, ?_⟩, fun _ => rfl⟩⟩
      obtain ⟨i, hi1, hi2, hi3⟩ := (golden_possible_heuristic_iff g p).mp c3
      have hq : valid_player g (i + 1) := ⟨by omega, by omega⟩
      have hqp : i + 1 ≠ p := by have := hp.1; omega
      exact exists_golden hI hp hq hqp (by rw [Nat.add_sub_cancel]; exact hi3) c4
    · rw [if_neg c4]
      obtain ⟨s1, s2, s3⟩ := golden_possible_scan_spec p (scan_order g.width g.height) g hI
      refine ⟨s1, s2, ?_⟩
      rw [s3]
      constructor
      · rintro ⟨c, _, hc⟩
        exact ⟨hflag, c.1, c.2, hc⟩
      · rintro ⟨_, x, y, hk⟩
        exact ⟨(x, y), mem_scan_order.mpr hk.2.1, hk⟩
  · have c3f : golden_possible_heuristic g p = false := by simpa using c3
    rw [c3f, if_pos (by simp)]
    apply hfalse
    rintro ⟨_, x, y, hk⟩
    exact c3 ((golden_possible_heuristic_iff g p).mpr (golden_ok_heuristic hI hk))

/-! ## `gamma_move_possible` -/

theorem gamma_move_possible_unfold (g : gamma) (p x y : Nat) :
    gamma_move_possible g p x y =
      if wrong_field x y g || wrong_player p g then (false, g)
      else if !(gamma_move g p x y).1 then (false, (gamma_move g p x y).2)
      else (true, delete_util (gamma_move g p x y).2 x y p) := rfl

/-- The stone placed by `gamma_move_possible` (state `g1`) is removed again. -/
theorem move_possible_undo {g g1 : gamma} {p : Nat} {c0 : field_t} (hI : Inv g)
    (hp : valid_player g p) (hfree : owner g c0 = 0) (hb : on_board g c0)
    (m1 : Core g1) (m2 : Placed g p c0 g1) :
    Inv (delete_util g1 c0.x c0.y p) ∧ same_observable g (delete_util g1 c0.x c0.y p) := by
  have hp1 : valid_player g1 p := ((m2.placed_shape hp).valid_iff p).mpr hp
  have hown : owns g1 p c0 :=
    ⟨((m2.placed_shape hp).shape_on_board_iff _).mpr hb, by rw [m2.placed_owner_eq, if_pos rfl]⟩
  obtain ⟨d1, d2⟩ := delete_util_spec m1 hp1 hown
  generalize delete_util g1 c0.x c0.y p = g2 at d1 d2
  have hso := undo_of_placed hI.core hp hfree m2 d1 d2
  exact ⟨hso.obs_inv hI d1, hso⟩

/-- The query `gamma_move_possible` leaves a state that cannot be told apart from the one
before. -/
theorem gamma_move_possible_spec {g : gamma} (hI : Inv g) (p x y : Nat) :
    Inv (gamma_move_possible g p x y).2 ∧
    same_observable g (gamma_move_possible g p x y).2 := by
  rw [gamma_move_possible_unfold]
  by_cases c1 : (wrong_field x y g || wrong_player p g) = true
  · rw [if_pos c1]
    exact ⟨hI, same_observable.obs_refl g⟩
  rw [if_neg c1]
  by_cases hok : move_ok g p x y
  · obtain ⟨m1, m2⟩ := @move_util_inv g p { x := x, y := y } hI hok
    have hr := gamma_move_of_ok hok
    generalize gamma_move g p x y = r at hr
    change Inv (move_util g x y p) at m1
    change Placed g p { x := x, y := y } (move_util g x y p) at m2
    generalize move_util g x y p = g1 at hr m1 m2
    subst hr
    exact @move_possible_undo g g1 p { x := x, y := y } hI hok.1 hok.2.2.1 hok.2.1 m1.core m2
  · rw [gamma_move_of_not_ok hok, if_pos (by simp)]
    exact ⟨hI, same_observable.obs_refl g⟩

/-! ## Every state of a game satisfies the invariant -/

theorem gamma_new_inv {width height players areas : Nat} {g : gamma}
    (hw : width < UINT32_MOD) (hh : height < UINT32_MOD) (hp : players < UINT32_MOD)
    (ha : areas < UINT32_MOD) (hnew : gamma_new width height players areas = some g) :
    Inv g := by
  unfold gamma_new at hnew
  by_cases hc : width < 1 ∨ height < 1 ∨ players < 1 ∨ areas < 1
  · rw [if_pos hc] at hnew
    exact absurd hnew (by simp)
  rw [if_neg hc] at hnew
  push_neg at hc
  obtain ⟨c1, c2, c3, c4⟩ := hc
  have hg := Option.some.inj hnew
  have e1 : g.width = width := by rw [← hg]
  have e2 : g.height = height := by rw [← hg]
  have e3 : g.num_of_players = players := by rw [← hg]
  have e4 : g.max_num_of_areas = areas := by rw [← hg]
  have e5 : g.empty_fields = (width * height) % UINT64_MOD := by rw [← hg]
  have e6 : ∀ i, g.players i =
      { has_played_golden_move := false, num_of_areas := 0, busy_fields := 0 } := by
    intro i; rw [← hg]
  have e7 : ∀ c, owner g c = 0 := by intro c; rw [← hg]; rfl
  have e8 : ∀ x y, g.visited x y = 0 := by intro x y; rw [← hg]
  have e9 : g.stack = init_stack ((width * height) % UINT64_MOD) := by rw [← hg]
  clear hnew hg
  have hwl : g.width < UINT32_MOD := by rw [e1]; exact hw
  have hhl : g.height < UINT32_MOD := by rw [e2]; exact hh
  have hbound := board_bound hwl hhl
  rw [e1, e2] at hbound
  have hmod : (width * height) % UINT64_MOD = width * height := Nat.mod_eq_of_lt (by omega)
  have hnone : ∀ p, p ≠ 0 → cells_of g p = ∅ := by
    intro p hp0
    apply Finset.eq_empty_of_forall_not_mem
    intro c hc
    rw [mem_cells_of, e7] at hc
    exact hp0 hc.2.symm
  have hnoroot : ∀ p, p ≠ 0 → roots g p = ∅ := by
    intro p hp0
    apply Finset.eq_empty_of_forall_not_mem
    intro c hc
    rw [mem_roots, e7] at hc
    exact hp0 hc.2.1.symm
  have hdead : ∀ c, ¬ live g (fun _ => True) c := fun c hl => hl.2.2 (e7 c)
  refine ⟨?_, ?_⟩
  · constructor
    · rw [e1]; omega
    · exact hwl
    · rw [e2]; omega
    · exact hhl
    · rw [e3]; omega
    · rw [e3]; exact hp
    · rw [e4]; omega
    · rw [e4]; exact ha
    · intro c _; rw [e7]; exact Nat.zero_le _
    · rw [e5, hmod]
      have : cells_of g 0 = board g := by
        ext c
        rw [mem_cells_of, mem_board]
        exact ⟨fun h => h.1, fun h => ⟨h, e7 c⟩⟩
      rw [this, card_board, e1, e2]
    · intro p hpv
      have hp0 : p ≠ 0 := by have := hpv.1; omega
      rw [e6, hnone p hp0]; rfl
    · intro p hpv
      have hp0 : p ≠ 0 := by have := hpv.1; omega
      rw [e6, hnoroot p hp0]; rfl
    · refine ⟨fun c => c, fun _ => 0, ?_⟩
      constructor <;> intro c <;> intros <;> exact absurd (by assumption) (hdead c)
    · exact e8
    · rw [e9]; rfl
    · rw [e9, e1, e2]; exact hmod
  · intro p _
    rw [e6]
    exact Nat.zero_le _

/-- Every state of a game satisfies the invariant. -/
theorem Reachable.reach_inv {g : gamma} (h : Reachable g) : Inv g := by
  induction h with
  | new width height players areas g hw hh hp ha hnew => exact gamma_new_inv hw hh hp ha hnew
  | move g player x y _ ih => exact gamma_move_inv ih player x y
  | golden_move g player x y _ ih => exact (gamma_golden_move_spec ih player x y).1
  | golden_possible g player _ ih => exact (gamma_golden_possible_spec ih player).1
  | move_possible g player x y _ ih => exact (gamma_move_possible_spec ih player x y).1

/-! ## Auxiliary facts for the contract theorems -/

/-- The rendering of the board reads the dimensions, the ownership map and the busy counters
only. -/
theorem gamma_board_congr {g h : gamma} (hs : same_observable g h) :
    gamma_board h = gamma_board g := by
  obtain ⟨a1, a2, a3, _, _, a6, a7⟩ := hs
  cases g; cases h
  simp only at a1 a2 a3 a6 a7
  subst a1 a2 a3 a6 a7
  rfl

theorem Steps.reachable {g0 g : gamma} (hs : Steps g0 g) (h0 : Reachable g0) :
    Reachable g := by
  induction hs with
  | start => exact h0
  | move g player x y _ ih => exact Reachable.move g player x y ih
  | golden_move g player x y _ ih => exact Reachable.golden_move g player x y ih
  | golden_possible g player _ ih => exact Reachable.golden_possible g player ih
  | move_possible g player x y _ ih => exact Reachable.move_possible g player x y ih

theorem gamma_move_shape {g : gamma} (hI : Inv g) (p x y : Nat) :
    SameShape g (gamma_move g p x y).2 := by
  by_cases hok : move_ok g p x y
  · rw [gamma_move_of_ok hok]
    exact ((@move_util_inv g p { x := x, y := y } hI hok).2).placed_shape hok.1
  · rw [gamma_move_of_not_ok hok]
    exact SameShape.shape_refl g

theorem gamma_golden_move_max {g : gamma} (hI : Inv g) (p x y : Nat) :
    (gamma_golden_move g p x y).2.max_num_of_areas = g.max_num_of_areas := by
  obtain ⟨_, _, s3, s4⟩ := gamma_golden_move_spec hI p x y
  generalize gamma_golden_move g p x y = r at s3 s4
  obtain ⟨b, h⟩ := r
  cases b
  · exact (s3 rfl).2.2.2.1
  · exact (s4 rfl).1.max_num_of_areas

/-- The cap on the number of areas is never changed by the public calls. -/
theorem Steps.max_eq {g0 g : gamma} (hs : Steps g0 g) (h0 : Reachable g0) :
    g.max_num_of_areas = g0.max_num_of_areas := by
  induction hs with
  | start => rfl
  | move g player x y hs ih =>
    rw [(gamma_move_shape (hs.reachable h0).reach_inv player x y).max_num_of_areas, ih]
  | golden_move g player x y hs ih =>
    rw [gamma_golden_move_max (hs.reachable h0).reach_inv player x y, ih]
  | golden_possible g player hs ih =>
    rw [(gamma_golden_possible_spec (hs.reachable h0).reach_inv player).2.1.2.2.2.1, ih]
  | move_possible g player x y hs ih =>
    rw [(gamma_move_possible_spec (hs.reachable h0).reach_inv player x y).2.2.2.2.1, ih]

theorem gamma_new_max {width height players areas : Nat} {g : gamma}
    (hnew : gamma_new width height players areas = some g) : g.max_num_of_areas = areas := by
  unfold gamma_new at hnew
  by_cases hc : width < 1 ∨ height < 1 ∨ players < 1 ∨ areas < 1
  · rw [if_pos hc] at hnew
    exact absurd hnew (by simp)
  · rw [if_neg hc] at hnew
    rw [← Option.some.inj hnew]

theorem new_2x2_reachable : Reachable new_2x2 :=
  Reachable.new 2 2 2 1 new_2x2 (by decide) (by decide) (by decide) (by decide)
    (Option.some_get _).symm

/-- The counter read by `gamma_player_areas` fits the returned `uint32_t`. -/
theorem gamma_player_areas_eq {g : gamma} (hI : Inv g) {p : Nat} (hp : valid_player g p) :
    gamma_player_areas g p = (g.players (p - 1)).num_of_areas := by
  unfold gamma_player_areas
  rw [wrong_player_false_iff.mpr hp, if_neg Bool.false_ne_true]
  apply Nat.mod_eq_of_lt
  have := hI.areas_le p hp
  have := hI.core.areas_lt
  omega

theorem gamma_busy_fields_eq {g : gamma} {p : Nat} (hp : valid_player g p) :
    gamma_busy_fields g p = (g.players (p - 1)).busy_fields := by
  unfold gamma_busy_fields
  rw [wrong_player_false_iff.mpr hp, if_neg Bool.false_ne_true]

/-- The number of areas of `p` touching `c0` is the number of distinct roots among the
neighbours of `c0` owned by `p`. -/
theorem neighbour_areas_ncard {g : gamma} {rep : field_t → field_t} {rk : field_t → Nat}
    (hF : ForestOn g (fun _ => True) rep rk) {p : Nat} (hp : p ≠ 0) (c0 : field_t) :
    (neighbour_areas g p c0).ncard = ((p_neighbours g c0 p).image rep).card := by
  have hl : ∀ c, owns g p c → live g (fun _ => True) c :=
    fun c hc => ⟨trivial, hc.1, by rw [hc.2]; exact hp⟩
  have hconn : ∀ c, owns g p c → Conn g p c (rep c) := by
    intro c hc
    have := hF.rep_conn c (hl c hc)
    rw [hc.2] at this
    exact this
  let f : Area g p → field_t := Quot.lift (fun c => rep c.1)
    (fun a b hab => hF.rep_adj a.1 b.1 (hl a.1 a.2) (hl b.1 b.2) (a.2.2.trans b.2.2.symm) hab)
  have hinj : Function.Injective f := by
    intro A B
    induction A using Quot.ind with | mk a => ?_
    induction B using Quot.ind with | mk b => ?_
    intro e
    have e1 : rep a.1 = rep b.1 := e
    have hab : Conn g p a.1 b.1 := by
      have h1 := hconn a.1 a.2
      rw [e1] at h1
      exact h1.conn_trans (hconn b.1 b.2).conn_symm
    obtain ⟨a, ha⟩ := a
    obtain ⟨b, hb⟩ := b
    exact area_mk_eq_of_conn hab ha hb
  have himg : f '' neighbour_areas g p c0 = ↑((p_neighbours g c0 p).image rep) := by
    ext r
    simp only [Set.mem_image, Finset.coe_image, Finset.mem_coe]
    constructor
    · rintro ⟨A, ⟨c, hc1, rfl⟩, rfl⟩
      exact ⟨c.1, mem_p_neighbours.mpr ⟨c.2, hc1⟩, rfl⟩
    · rintro ⟨c, hc, rfl⟩
      rw [mem_p_neighbours] at hc
      exact ⟨Quot.mk _ ⟨c, hc.1⟩, ⟨⟨c, hc.1⟩, hc.2, rfl⟩, rfl⟩
  rw [← Set.ncard_image_of_injective _ hinj, himg, Set.ncard_coe_Finset]

/-- A stone placed next to no cell of its owner becomes an area of its own: the cell is its
own parent and the recorded size of its area is 1. -/
theorem move_util_single {g : gamma} {p : Nat} {c0 : field_t} (hC : Core g)
    (hp : valid_player g p) (hb : on_board g c0) (hfree : owner g c0 = 0)
    (hnone : ∀ d, owns g p d → adjacent c0 d → False) :
    (move_util g c0.x c0.y p).parents c0.x c0.y = c0 ∧
    (move_util g c0.x c0.y p).areas_size c0.x c0.y = 1 := by
  obtain ⟨rep, rk, hF⟩ := hC.forest
  have hp0 : p ≠ 0 := by have := hp.1; omega
  have hb0 : on_board (take_field g c0.x c0.y p) c0 := hb
  have hF0 : ForestOn (take_field g c0.x c0.y p) (fun c => c ≠ c0) rep rk :=
    take_field_forest hF c0.x c0.y p hfree
  have hI := @move_loop_spec (take_field g c0.x c0.y p) c0 p rep rk hC.width_lt hC.height_lt
    hb0 hp0 hF0
  rw [move_util_unfold]
  generalize (List.range DIRECTIONS).foldl (move_util_step c0.x c0.y p)
    { g := take_field g c0.x c0.y p, neigbours := fun _ => { x := 0, y := 0 }, l := 0 } = st
    at hI ⊢
  have hl : st.l = 0 := by
    by_contra hne
    obtain ⟨h1, h2⟩ := hI.nb_ok 0 (by omega)
    have hd : st.neigbours 0 ≠ c0 := fun e => adjacent_ne h2 e.symm
    have h3 : owns g p (st.neigbours 0) := by
      unfold owns at h1 ⊢
      rw [take_field_owner, if_neg hd] at h1
      exact h1
    exact hnone _ h3 h2
  rw [if_pos hl]
  exact ⟨set2D_same _ _ _ _, set2D_same _ _ _ _⟩

/-! ## The contract of the engine -/

/-- C1: in every reachable state and for every valid player `p`, `gamma_player_areas(p)`
equals the number of areas of `p`, that is the number of connected components of the set
of cells owned by `p` under edge adjacency. -/
theorem player_areas_eq_components (g : gamma) (p : Nat) (hR : Reachable g)
    (hp : valid_player g p) : gamma_player_areas g p = Nat.card (Area g p) := by
  rw [gamma_player_areas_eq hR.reach_inv hp]
  exact hR.reach_inv.core.areas_card hp

theorem player_areas_eq_components_witness :
    Reachable (gamma_move new_2x2 1 0 0).2 ∧ valid_player (gamma_move new_2x2 1 0 0).2 1 ∧
      gamma_player_areas (gamma_move new_2x2 1 0 0).2 1 =
        Nat.card (Area (gamma_move new_2x2 1 0 0).2 1) :=
  ⟨Reachable.move _ 1 0 0 new_2x2_reachable, ⟨by decide, by decide⟩,
    player_areas_eq_components _ 1 (Reachable.move _ 1 0 0 new_2x2_reachable)
      ⟨by decide, by decide⟩⟩

/-- C2: in every state produced from a successful `gamma_new(width, height, players, areas)`
by any sequence of `gamma_move`, `gamma_golden_move`, `gamma_golden_possible` and
`gamma_move_possible` calls, successful or failed, the area counter of every valid player,
the value returned by `gamma_player_areas` and the number of areas on the board are at most
the value `areas` passed to `gamma_new`. -/
theorem areas_le_max (width height players areas : Nat) (g0 g : gamma)
    (hw : width < UINT32_MOD) (hh : height < UINT32_MOD) (hn : players < UINT32_MOD)
    (ha : areas < UINT32_MOD) (hnew : gamma_new width height players areas = some g0)
    (hs : Steps g0 g) (p : Nat) (hp : valid_player g p) :
    (g.players (p - 1)).num_of_areas ≤ areas ∧ gamma_player_areas g p ≤ areas ∧
      Nat.card (Area g p) ≤ areas ∧ gamma_max_areas g = areas := by
  have h0 : Reachable g0 := Reachable.new width height players areas g0 hw hh hn ha hnew
  have hR := hs.reachable h0
  have hmax : g.max_num_of_areas = areas := (hs.max_eq h0).trans (gamma_new_max hnew)
  have hle := hR.reach_inv.areas_le p hp
  rw [hmax] at hle
  refine ⟨hle, ?_, ?_, hmax⟩
  · rw [gamma_player_areas_eq hR.reach_inv hp]; exact hle
  · rw [← hR.reach_inv.core.areas_card hp]; exact hle

theorem areas_le_max_witness :
    (2 < UINT32_MOD ∧ 1 < UINT32_MOD) ∧ gamma_new 2 2 2 1 = some new_2x2 ∧
      Steps new_2x2 (gamma_move new_2x2 2 1 1).2 ∧
      valid_player (gamma_move new_2x2 2 1 1).2 2 ∧
      (((gamma_move new_2x2 2 1 1).2.players (2 - 1)).num_of_areas ≤ 1 ∧
        gamma_player_areas (gamma_move new_2x2 2 1 1).2 2 ≤ 1 ∧
        Nat.card (Area (gamma_move new_2x2 2 1 1).2 2) ≤ 1 ∧
        gamma_max_areas (gamma_move new_2x2 2 1 1).2 = 1) :=
  ⟨⟨by decide, by decide⟩, (Option.some_get _).symm, Steps.move _ 2 1 1 Steps.start,
    ⟨by decide, by decide⟩,
    areas_le_max 2 2 2 1 new_2x2 _ (by decide) (by decide) (by decide) (by decide)
      (Option.some_get _).symm (Steps.move _ 2 1 1 Steps.start) 2 ⟨by decide, by decide⟩⟩

/-- C3: in every reachable state and for all arguments, whenever `gamma_golden_move` returns
false the string of `gamma_board` is the same before and after the call, and the empty-cell
count and the busy count, area count and golden flag of every player are unchanged; this
covers the failures that vacate the cell and roll back. -/
theorem golden_move_false_unchanged (g : gamma) (p x y : Nat) (hR : Reachable g)
    (hf : (gamma_golden_move g p x y).1 = false) :
    gamma_board (gamma_golden_move g p x y).2 = gamma_board g ∧
    (gamma_golden_move g p x y).2.empty_fields = g.empty_fields ∧
    ∀ q, ((gamma_golden_move g p x y).2.players (q - 1)).busy_fields =
        (g.players (q - 1)).busy_fields ∧
      ((gamma_golden_move g p x y).2.players (q - 1)).num_of_areas =
        (g.players (q - 1)).num_of_areas ∧
      ((gamma_golden_move g p x y).2.players (q - 1)).has_played_golden_move =
        (g.players (q - 1)).has_played_golden_move := by
  have hso := (gamma_golden_move_spec hR.reach_inv p x y).2.2.1 hf
  refine ⟨gamma_board_congr hso, hso.2.2.2.2.1, ?_⟩
  intro q
  rw [hso.2.2.2.2.2.1]
  exact ⟨rfl, rfl, rfl⟩

theorem golden_move_false_unchanged_witness :
    Reachable (gamma_move new_2x2 1 0 0).2 ∧
    (gamma_golden_move (gamma_move new_2x2 1 0 0).2 2 1 1).1 = false ∧
    (gamma_board (gamma_golden_move (gamma_move new_2x2 1 0 0).2 2 1 1).2 =
        gamma_board (gamma_move new_2x2 1 0 0).2 ∧
      (gamma_golden_move (gamma_move new_2x2 1 0 0).2 2 1 1).2.empty_fields =
        (gamma_move new_2x2 1 0 0).2.empty_fields ∧
      ∀ q, ((gamma_golden_move (gamma_move new_2x2 1 0 0).2 2 1 1).2.players
            (q - 1)).busy_fields =
          ((gamma_move new_2x2 1 0 0).2.players (q - 1)).busy_fields ∧
        ((gamma_golden_move (gamma_move new_2x2 1 0 0).2 2 1 1).2.players
            (q - 1)).num_of_areas =
          ((gamma_move new_2x2 1 0 0).2.players (q - 1)).num_of_areas ∧
        ((gamma_golden_move (gamma_move new_2x2 1 0 0).2 2 1 1).2.players
            (q - 1)).has_played_golden_move =
          ((gamma_move new_2x2 1 0 0).2.players (q - 1)).has_played_golden_move) :=
  ⟨Reachable.move _ 1 0 0 new_2x2_reachable, by decide,
    golden_move_false_unchanged _ 2 1 1 (Reachable.move _ 1 0 0 new_2x2_reachable)
      (by decide)⟩

/-- C4: in every reachable state `gamma_golden_move(p, x, y)` returns true exactly when `p`
is a valid player, `(x, y)` is on the board, `p` has not used the golden move, `(x, y)` is
owned by a player `q` other than `p`, and on the board with `(x, y)` reassigned from `q` to
`p` both `q` and `p` have at most max-areas areas; otherwise it returns false. -/
theorem golden_move_true_iff (g : gamma) (p x y : Nat) (hR : Reachable g) :
    ((gamma_golden_move g p x y).1 = true ↔
      (valid_player g p ∧ on_board g { x := x, y := y } ∧
        (g.players (p - 1)).has_played_golden_move = false ∧
        g.player_arr x y ≠ 0 ∧ g.player_arr x y ≠ p ∧
        Nat.card (Area (reassign g x y p) (g.player_arr x y)) ≤ gamma_max_areas g ∧
        Nat.card (Area (reassign g x y p) p) ≤ gamma_max_areas g)) ∧
    ((gamma_golden_move g p x y).1 = false ↔
      ¬ (valid_player g p ∧ on_board g { x := x, y := y } ∧
        (g.players (p - 1)).has_played_golden_move = false ∧
        g.player_arr x y ≠ 0 ∧ g.player_arr x y ≠ p ∧
        Nat.card (Area (reassign g x y p) (g.player_arr x y)) ≤ gamma_max_areas g ∧
        Nat.card (Area (reassign g x y p) p) ≤ gamma_max_areas g)) := by
  have h := (gamma_golden_move_spec hR.reach_inv p x y).2.1
  have h1 : (gamma_golden_move g p x y).1 = true ↔
      (valid_player g p ∧ on_board g { x := x, y := y } ∧
        (g.players (p - 1)).has_played_golden_move = false ∧
        g.player_arr x y ≠ 0 ∧ g.player_arr x y ≠ p ∧
        Nat.card (Area (reassign g x y p) (g.player_arr x y)) ≤ gamma_max_areas g ∧
        Nat.card (Area (reassign g x y p) p) ≤ gamma_max_areas g) := by
    rw [h]
    unfold golden_ok gamma_max_areas
    constructor
    · rintro ⟨a, b1, b2, b3, b4, b5, b6⟩; exact ⟨b1, b2, a, b4, b3, b5, b6⟩
    · rintro ⟨b1, b2, a, b4, b3, b5, b6⟩; exact ⟨a, b1, b2, b3, b4, b5, b6⟩
  refine ⟨h1, ?_⟩
  rw [← h1]
  cases (gamma_golden_move g p x y).1 <;> simp

theorem golden_move_true_iff_witness :
    Reachable (gamma_move new_2x2 1 0 0).2 ∧
    (((gamma_golden_move (gamma_move new_2x2 1 0 0).2 2 0 0).1 = true ↔
      (valid_player (gamma_move new_2x2 1 0 0).2 2 ∧
        on_board (gamma_move new_2x2 1 0 0).2 { x := 0, y := 0 } ∧
        (((gamma_move new_2x2 1 0 0).2).players (2 - 1)).has_played_golden_move = false ∧
        ((gamma_move new_2x2 1 0 0).2).player_arr 0 0 ≠ 0 ∧
        ((gamma_move new_2x2 1 0 0).2).player_arr 0 0 ≠ 2 ∧
        Nat.card (Area (reassign (gamma_move new_2x2 1 0 0).2 0 0 2)
          (((gamma_move new_2x2 1 0 0).2).player_arr 0 0)) ≤
            gamma_max_areas (gamma_move new_2x2 1 0 0).2 ∧
        Nat.card (Area (reassign (gamma_move new_2x2 1 0 0).2 0 0 2) 2) ≤
          gamma_max_areas (gamma_move new_2x2 1 0 0).2)) ∧
    ((gamma_golden_move (gamma_move new_2x2 1 0 0).2 2 0 0).1 = false ↔
      ¬ (valid_player (gamma_move new_2x2 1 0 0).2 2 ∧
        on_board (gamma_move new_2x2 1 0 0).2 { x := 0, y := 0 } ∧
        (((gamma_move new_2x2 1 0 0).2).players (2 - 1)).has_played_golden_move = false ∧
        ((gamma_move new_2x2 1 0 0).2).player_arr 0 0 ≠ 0 ∧
        ((gamma_move new_2x2 1 0 0).2).player_arr 0 0 ≠ 2 ∧
        Nat.card (Area (reassign (gamma_move new_2x2 1 0 0).2 0 0 2)
          (((gamma_move new_2x2 1 0 0).2).player_arr 0 0)) ≤
            gamma_max_areas (gamma_move new_2x2 1 0 0).2 ∧
        Nat.card (Area (reassign (gamma_move new_2x2 1 0 0).2 0 0 2) 2) ≤
          gamma_max_areas (gamma_move new_2x2 1 0 0).2))) :=
  ⟨Reachable.move _ 1 0 0 new_2x2_reachable,
    golden_move_true_iff _ 2 0 0 (Reachable.move _ 1 0 0 new_2x2_reachable)⟩

/-- C5: in every reachable state and for every valid player `p`, `gamma_golden_possible(p)`
returns true if and only if there is a cell `(x, y)` for which `gamma_golden_move(p, x, y)`,
called in that same state, returns true. In particular, when `p` has not used the golden
move, some other player owns a cell and the area count of `p` is below max-areas (the
branch answering true without a scan), such a cell exists. -/
theorem golden_possible_iff (g : gamma) (p : Nat) (hR : Reachable g)
    (hp : valid_player g p) :
    ((gamma_golden_possible g p).1 = true ↔
      ∃ x y, (gamma_golden_move g p x y).1 = true) ∧
    ((g.players (p - 1)).has_played_golden_move = false →
      (∃ c, on_board g c ∧ owner g c ≠ 0 ∧ owner g c ≠ p) →
      gamma_player_areas g p < gamma_max_areas g →
      (gamma_golden_possible g p).1 = true ∧
        ∃ x y, (gamma_golden_move g p x y).1 = true) := by
  have hI := hR.reach_inv
  have h1 := (gamma_golden_possible_spec hI p).2.2
  have h2 : ∀ x y, (gamma_golden_move g p x y).1 = true ↔
      ((g.players (p - 1)).has_played_golden_move = false ∧ golden_ok g p x y) :=
    fun x y => (gamma_golden_move_spec hI p x y).2.1
  have h3 : (gamma_golden_possible g p).1 = true ↔
      ∃ x y, (gamma_golden_move g p x y).1 = true := by
    rw [h1]
    constructor
    · rintro ⟨a, x, y, b⟩; exact ⟨x, y, (h2 x y).mpr ⟨a, b⟩⟩
    · rintro ⟨x, y, b⟩; exact ⟨((h2 x y).mp b).1, x, y, ((h2 x y).mp b).2⟩
  refine ⟨h3, ?_⟩
  rintro hflag ⟨c, hc1, hc2, hc3⟩ hlt
  rw [gamma_player_areas_eq hI hp] at hlt
  have hq := hI.core.valid_owner hc1 hc2
  have hbusy : 0 < (g.players (owner g c - 1)).busy_fields := by
    rw [hI.core.busy_eq _ hq]
    exact Finset.card_pos.mpr ⟨c, mem_cells_of.mpr ⟨hc1, rfl⟩⟩
  obtain ⟨x, y, hok⟩ := exists_golden hI hp hq hc3 hbusy hlt
  have h4 : ∃ x y, (gamma_golden_move g p x y).1 = true := ⟨x, y, (h2 x y).mpr ⟨hflag, hok⟩⟩
  exact ⟨h3.mpr h4, h4⟩

theorem golden_possible_iff_witness :
    Reachable (gamma_move new_2x2 1 0 0).2 ∧ valid_player (gamma_move new_2x2 1 0 0).2 2 ∧
    (((gamma_golden_possible (gamma_move new_2x2 1 0 0).2 2).1 = true ↔
      ∃ x y, (gamma_golden_move (gamma_move new_2x2 1 0 0).2 2 x y).1 = true) ∧
    ((((gamma_move new_2x2 1 0 0).2).players (2 - 1)).has_played_golden_move = false →
      (∃ c, on_board (gamma_move new_2x2 1 0 0).2 c ∧
        owner (gamma_move new_2x2 1 0 0).2 c ≠ 0 ∧
        owner (gamma_move new_2x2 1 0 0).2 c ≠ 2) →
      gamma_player_areas (gamma_move new_2x2 1 0 0).2 2 <
        gamma_max_areas (gamma_move new_2x2 1 0 0).2 →
      (gamma_golden_possible (gamma_move new_2x2 1 0 0).2 2).1 = true ∧
        ∃ x y, (gamma_golden_move (gamma_move new_2x2 1 0 0).2 2 x y).1 = true)) :=
  ⟨Reachable.move _ 1 0 0 new_2x2_reachable, ⟨by decide, by decide⟩,
    golden_possible_iff _ 2 (Reachable.move _ 1 0 0 new_2x2_reachable)
      ⟨by decide, by decide⟩⟩

/-- C6: in every reachable state and for every argument `p`, `gamma_golden_possible(p)` has
no observable effect: the owner of every cell, the `gamma_board` string, the empty-cell
count and the busy count, area count and golden flag of every player are the same after
the call as before, whatever the call returns. -/
theorem golden_possible_no_effect (g : gamma) (p : Nat) (hR : Reachable g) :
    (∀ x y, (gamma_golden_possible g p).2.player_arr x y = g.player_arr x y) ∧
    gamma_board (gamma_golden_possible g p).2 = gamma_board g ∧
    (gamma_golden_possible g p).2.empty_fields = g.empty_fields ∧
    ∀ q, ((gamma_golden_possible g p).2.players (q - 1)).busy_fields =
        (g.players (q - 1)).busy_fields ∧
      ((gamma_golden_possible g p).2.players (q - 1)).num_of_areas =
        (g.players (q - 1)).num_of_areas ∧
      ((gamma_golden_possible g p).2.players (q - 1)).has_played_golden_move =
        (g.players (q - 1)).has_played_golden_move := by
  have hso := (gamma_golden_possible_spec hR.reach_inv p).2.1
  refine ⟨?_, gamma_board_congr hso, hso.2.2.2.2.1, ?_⟩
  · intro x y
    rw [hso.2.2.2.2.2.2]
  · intro q
    rw [hso.2.2.2.2.2.1]
    exact ⟨rfl, rfl, rfl⟩

theorem golden_possible_no_effect_witness :
    Reachable (gamma_move new_2x2 1 0 0).2 ∧
    ((∀ x y, (gamma_golden_possible (gamma_move new_2x2 1 0 0).2 2).2.player_arr x y =
        ((gamma_move new_2x2 1 0 0).2).player_arr x y) ∧
    gamma_board (gamma_golden_possible (gamma_move new_2x2 1 0 0).2 2).2 =
      gamma_board (gamma_move new_2x2 1 0 0).2 ∧
    (gamma_golden_possible (gamma_move new_2x2 1 0 0).2 2).2.empty_fields =
      ((gamma_move new_2x2 1 0 0).2).empty_fields ∧
    ∀ q, ((gamma_golden_possible (gamma_move new_2x2 1 0 0).2 2).2.players
          (q - 1)).busy_fields =
        (((gamma_move new_2x2 1 0 0).2).players (q - 1)).busy_fields ∧
      ((gamma_golden_possible (gamma_move new_2x2 1 0 0).2 2).2.players
          (q - 1)).num_of_areas =
        (((gamma_move new_2x2 1 0 0).2).players (q - 1)).num_of_areas ∧
      ((gamma_golden_possible (gamma_move new_2x2 1 0 0).2 2).2.players
          (q - 1)).has_played_golden_move =
        (((gamma_move new_2x2 1 0 0).2).players (q - 1)).has_played_golden_move) :=
  ⟨Reachable.move _ 1 0 0 new_2x2_reachable,
    golden_possible_no_effect _ 2 (Reachable.move _ 1 0 0 new_2x2_reachable)⟩

/-- C7: in every reachable state and for all arguments, `gamma_move(p, x, y)` returns false
exactly when `p` is 0 or greater than the player count, or `x >= width` or `y >= height`, or
the cell is already owned, or the area count of `p` is at least max-areas and no
edge-neighbour of `(x, y)` is owned by `p`; otherwise it returns true. In particular a
player below the cap succeeds on every empty cell of the board. -/
theorem gamma_move_false_iff (g : gamma) (p x y : Nat) (hR : Reachable g) :
    ((gamma_move g p x y).1 = false ↔
      (p = 0 ∨ g.num_of_players < p ∨ g.width ≤ x ∨ g.height ≤ y ∨ g.player_arr x y ≠ 0 ∨
        (g.max_num_of_areas ≤ (g.players (p - 1)).num_of_areas ∧
          ∀ d, adjacent { x := x, y := y } d → ¬ owns g p d))) ∧
    ((gamma_move g p x y).1 = true ↔
      ¬ (p = 0 ∨ g.num_of_players < p ∨ g.width ≤ x ∨ g.height ≤ y ∨ g.player_arr x y ≠ 0 ∨
        (g.max_num_of_areas ≤ (g.players (p - 1)).num_of_areas ∧
          ∀ d, adjacent { x := x, y := y } d → ¬ owns g p d))) ∧
    (valid_player g p → on_board g { x := x, y := y } → g.player_arr x y = 0 →
      (g.players (p - 1)).num_of_areas < g.max_num_of_areas →
      (gamma_move g p x y).1 = true) := by
  have hC := hR.reach_inv.core
  have key : move_ok g p x y ↔
      ¬ (p = 0 ∨ g.num_of_players < p ∨ g.width ≤ x ∨ g.height ≤ y ∨ g.player_arr x y ≠ 0 ∨
        (g.max_num_of_areas ≤ (g.players (p - 1)).num_of_areas ∧
          ∀ d, adjacent { x := x, y := y } d → ¬ owns g p d)) := by
    unfold move_ok valid_player on_board
    by_cases hb : x < g.width ∧ y < g.height
    · have hcnt := @count_neighbours_eq_zero_iff g { x := x, y := y } p hC.width_lt
        hC.height_lt hb
      have hcnt2 : count_neighbours g x y p = 0 ↔
          ∀ d, adjacent { x := x, y := y } d → ¬ owns g p d := by
        rw [hcnt]
        exact ⟨fun h d hd ho => h d ho hd, fun h d ho hd => h d hd ho⟩
      rw [hcnt2]
      constructor
      · rintro ⟨⟨a1, a2⟩, ⟨a3, a4⟩, a5, a6⟩
        rintro (b | b | b | b | b | b)
        · omega
        · omega
        · have : x < g.width := a3
          omega
        · have : y < g.height := a4
          omega
        · exact b a5
        · exact a6 ⟨b.1, b.2⟩
      · intro h
        push_neg at h
        obtain ⟨b1, b2, b3, b4, b5, b6⟩ := h
        refine ⟨⟨by omega, by omega⟩, hb, b5, ?_⟩
        rintro ⟨c1, c2⟩
        obtain ⟨d, hd1, hd2⟩ := b6 c1
        exact c2 d hd1 hd2
    · constructor
      · rintro ⟨_, a2, _⟩
        exact absurd a2 hb
      · intro h
        push_neg at h
        exact absurd ⟨by omega, by omega⟩ hb
  have ht : (gamma_move g p x y).1 = true ↔
      ¬ (p = 0 ∨ g.num_of_players < p ∨ g.width ≤ x ∨ g.height ≤ y ∨ g.player_arr x y ≠ 0 ∨
        (g.max_num_of_areas ≤ (g.players (p - 1)).num_of_areas ∧
          ∀ d, adjacent { x := x, y := y } d → ¬ owns g p d)) :=
    (gamma_move_true_iff g p x y).trans key
  refine ⟨?_, ht, ?_⟩
  · rw [← not_iff_not, ← ht]
    cases (gamma_move g p x y).1 <;> simp
  · intro h1 h2 h3 h4
    rw [gamma_move_true_iff]
    exact ⟨h1, h2, h3, fun h => by omega⟩

theorem gamma_move_false_iff_witness :
    Reachable (gamma_move new_2x2 1 0 0).2 ∧
    (((gamma_move (gamma_move new_2x2 1 0 0).2 1 1 1).1 = false ↔
      (1 = 0 ∨ ((gamma_move new_2x2 1 0 0).2).num_of_players < 1 ∨
        ((gamma_move new_2x2 1 0 0).2).width ≤ 1 ∨
        ((gamma_move new_2x2 1 0 0).2).height ≤ 1 ∨
        ((gamma_move new_2x2 1 0 0).2).player_arr 1 1 ≠ 0 ∨
        (((gamma_move new_2x2 1 0 0).2).max_num_of_areas ≤
            (((gamma_move new_2x2 1 0 0).2).players (1 - 1)).num_of_areas ∧
          ∀ d, adjacent { x := 1, y := 1 } d → ¬ owns (gamma_move new_2x2 1 0 0).2 1 d))) ∧
    ((gamma_move (gamma_move new_2x2 1 0 0).2 1 1 1).1 = true ↔
      ¬ (1 = 0 ∨ ((gamma_move new_2x2 1 0 0).2).num_of_players < 1 ∨
        ((gamma_move new_2x2 1 0 0).2).width ≤ 1 ∨
        ((gamma_move new_2x2 1 0 0).2).height ≤ 1 ∨
        ((gamma_move new_2x2 1 0 0).2).player_arr 1 1 ≠ 0 ∨
        (((gamma_move new_2x2 1 0 0).2).max_num_of_areas ≤
            (((gamma_move new_2x2 1 0 0).2).players (1 - 1)).num_of_areas ∧
          ∀ d, adjacent { x := 1, y := 1 } d → ¬ owns (gamma_move new_2x2 1 0 0).2 1 d))) ∧
    (valid_player (gamma_move new_2x2 1 0 0).2 1 →
      on_board (gamma_move new_2x2 1 0 0).2 { x := 1, y := 1 } →
      ((gamma_move new_2x2 1 0 0).2).player_arr 1 1 = 0 →
      (((gamma_move new_2x2 1 0 0).2).players (1 - 1)).num_of_areas <
        ((gamma_move new_2x2 1 0 0).2).max_num_of_areas →
      (gamma_move (gamma_move new_2x2 1 0 0).2 1 1 1).1 = true)) :=
  ⟨Reachable.move _ 1 0 0 new_2x2_reachable,
    gamma_move_false_iff _ 1 1 1 (Reachable.move _ 1 0 0 new_2x2_reachable)⟩

/-- C8: whenever `gamma_move` returns false the complete game state is identical to the
state before the call: the ownership map, the empty-cell count, the counters and golden
flag of every player, and the internal parent map, area-size map, visited markers and
stack. -/
theorem gamma_move_false_identity (g : gamma) (p x y : Nat)
    (hf : (gamma_move g p x y).1 = false) :
    (gamma_move g p x y).2 = g ∧
    (gamma_move g p x y).2.player_arr = g.player_arr ∧
    (gamma_move g p x y).2.empty_fields = g.empty_fields ∧
    (gamma_move g p x y).2.players = g.players ∧
    (gamma_move g p x y).2.parents = g.parents ∧
    (gamma_move g p x y).2.areas_size = g.areas_size ∧
    (gamma_move g p x y).2.visited = g.visited ∧
    (gamma_move g p x y).2.stack = g.stack := by
  have h := gamma_move_false_state g p x y hf
  rw [h]
  exact ⟨rfl, rfl, rfl, rfl, rfl, rfl, rfl, rfl⟩

theorem gamma_move_false_identity_witness :
    (gamma_move (gamma_move new_2x2 1 0 0).2 1 1 1).1 = false ∧
    ((gamma_move (gamma_move new_2x2 1 0 0).2 1 1 1).2 = (gamma_move new_2x2 1 0 0).2 ∧
    (gamma_move (gamma_move new_2x2 1 0 0).2 1 1 1).2.player_arr =
      ((gamma_move new_2x2 1 0 0).2).player_arr ∧
    (gamma_move (gamma_move new_2x2 1 0 0).2 1 1 1).2.empty_fields =
      ((gamma_move new_2x2 1 0 0).2).empty_fields ∧
    (gamma_move (gamma_move new_2x2 1 0 0).2 1 1 1).2.players =
      ((gamma_move new_2x2 1 0 0).2).players ∧
    (gamma_move (gamma_move new_2x2 1 0 0).2 1 1 1).2.parents =
      ((gamma_move new_2x2 1 0 0).2).parents ∧
    (gamma_move (gamma_move new_2x2 1 0 0).2 1 1 1).2.areas_size =
      ((gamma_move new_2x2 1 0 0).2).areas_size ∧
    (gamma_move (gamma_move new_2x2 1 0 0).2 1 1 1).2.visited =
      ((gamma_move new_2x2 1 0 0).2).visited ∧
    (gamma_move (gamma_move new_2x2 1 0 0).2 1 1 1).2.stack =
      ((gamma_move new_2x2 1 0 0).2).stack) :=
  ⟨by decide, gamma_move_false_identity _ 1 1 1 (by decide)⟩

/-- The visible effect of an accepted `gamma_move`, in terms of the state `g1` after
`move_util`. -/
theorem placed_effect {g g1 : gamma} {p : Nat} {c0 : field_t} (hp : valid_player g p)
    (m2 : Placed g p c0 g1) :
    g1.player_arr c0.x c0.y = p ∧
    (∀ i j, ¬ (i = c0.x ∧ j = c0.y) → g1.player_arr i j = g.player_arr i j) ∧
    g1.empty_fields + 1 = g.empty_fields ∧
    gamma_busy_fields g1 p = gamma_busy_fields g p + 1 ∧
    (∀ q, 1 ≤ q → q ≠ p →
      (g1.players (q - 1)).busy_fields = (g.players (q - 1)).busy_fields ∧
      (g1.players (q - 1)).num_of_areas = (g.players (q - 1)).num_of_areas) ∧
    (∀ q, (g1.players (q - 1)).has_played_golden_move =
      (g.players (q - 1)).has_played_golden_move) := by
  have hp1 : valid_player g1 p := ((m2.placed_shape hp).valid_iff p).mpr hp
  refine ⟨?_, ?_, m2.empty_fields, ?_, ?_, ?_⟩
  · rw [m2.player_arr]; unfold set2D; rw [if_pos ⟨rfl, rfl⟩]
  · intro i j hij
    rw [m2.player_arr]; unfold set2D; rw [if_neg hij]
  · rw [gamma_busy_fields_eq hp1, gamma_busy_fields_eq hp, m2.busy]
  · intro q hq hqp
    rw [m2.others _ (player_index_ne hp.1 hq hqp)]
    exact ⟨rfl, rfl⟩
  · intro q
    exact (m2.placed_shape hp).golden _

/-- C9: whenever `gamma_move(p, x, y)` returns true in a reachable state, afterwards the cell
`(x, y)` is owned by `p` and every other cell has the owner it had before, the empty-cell
count is smaller by exactly 1, `gamma_busy_fields(p)` is larger by exactly 1, and the busy
count and area count of every other player and the golden flag of every player are
unchanged. -/
theorem gamma_move_true_effect (g : gamma) (p x y : Nat) (hR : Reachable g)
    (ht : (gamma_move g p x y).1 = true) :
    (gamma_move g p x y).2.player_arr x y = p ∧
    (∀ i j, ¬ (i = x ∧ j = y) →
      (gamma_move g p x y).2.player_arr i j = g.player_arr i j) ∧
    (gamma_move g p x y).2.empty_fields + 1 = g.empty_fields ∧
    gamma_busy_fields (gamma_move g p x y).2 p = gamma_busy_fields g p + 1 ∧
    (∀ q, 1 ≤ q → q ≠ p →
      ((gamma_move g p x y).2.players (q - 1)).busy_fields =
        (g.players (q - 1)).busy_fields ∧
      ((gamma_move g p x y).2.players (q - 1)).num_of_areas =
        (g.players (q - 1)).num_of_areas) ∧
    (∀ q, ((gamma_move g p x y).2.players (q - 1)).has_played_golden_move =
      (g.players (q - 1)).has_played_golden_move) := by
  have hok := (gamma_move_true_iff g p x y).mp ht
  obtain ⟨_, m2⟩ := @move_util_inv g p { x := x, y := y } hR.reach_inv hok
  have e : (gamma_move g p x y).2 = move_util g x y p := by rw [gamma_move_of_ok hok]
  rw [e]
  exact placed_effect hok.1 m2

theorem gamma_move_true_effect_witness :
    Reachable new_2x2 ∧ (gamma_move new_2x2 1 0 1).1 = true ∧
    ((gamma_move new_2x2 1 0 1).2.player_arr 0 1 = 1 ∧
    (∀ i j, ¬ (i = 0 ∧ j = 1) →
      (gamma_move new_2x2 1 0 1).2.player_arr i j = new_2x2.player_arr i j) ∧
    (gamma_move new_2x2 1 0 1).2.empty_fields + 1 = new_2x2.empty_fields ∧
    gamma_busy_fields (gamma_move new_2x2 1 0 1).2 1 = gamma_busy_fields new_2x2 1 + 1 ∧
    (∀ q, 1 ≤ q → q ≠ 1 →
      ((gamma_move new_2x2 1 0 1).2.players (q - 1)).busy_fields =
        (new_2x2.players (q - 1)).busy_fields ∧
      ((gamma_move new_2x2 1 0 1).2.players (q - 1)).num_of_areas =
        (new_2x2.players (q - 1)).num_of_areas) ∧
    (∀ q, ((gamma_move new_2x2 1 0 1).2.players (q - 1)).has_played_golden_move =
      (new_2x2.players (q - 1)).has_played_golden_move)) :=
  ⟨new_2x2_reachable, by decide,
    gamma_move_true_effect new_2x2 1 0 1 new_2x2_reachable (by decide)⟩

/-- The area counter after an accepted placement, in terms of the state after
`move_util`. -/
theorem placed_areas {g : gamma} {p : Nat} {c0 : field_t} (hI : Inv g)
    (hok : move_ok g p c0.x c0.y) :
    ((move_util g c0.x c0.y p).players (p - 1)).num_of_areas +
        (neighbour_areas g p c0).ncard = (g.players (p - 1)).num_of_areas + 1 ∧
    gamma_player_areas (move_util g c0.x c0.y p) p + (neighbour_areas g p c0).ncard =
      gamma_player_areas g p + 1 ∧
    ((∀ d, adjacent c0 d → ¬ owns g p d) →
      (move_util g c0.x c0.y p).parents c0.x c0.y = c0 ∧
      (move_util g c0.x c0.y p).areas_size c0.x c0.y = 1) := by
  obtain ⟨rep, rk, hF⟩ := hI.core.forest
  have hp0 : p ≠ 0 := by have := hok.1.1; omega
  have hb : on_board g c0 := hok.2.1
  have hfree : owner g c0 = 0 := hok.2.2.1
  obtain ⟨_, m2, m3⟩ := move_util_spec hI.core hF hok.1 hb hfree
  obtain ⟨i1, _⟩ := move_util_inv hI hok
  have hp1 : valid_player (move_util g c0.x c0.y p) p := ((m2.placed_shape hok.1).valid_iff p).mpr hok.1
  rw [← neighbour_areas_ncard hF hp0 c0] at m3
  refine ⟨m3, ?_, ?_⟩
  · rw [gamma_player_areas_eq i1 hp1, gamma_player_areas_eq hI hok.1]
    exact m3
  · intro hnone
    exact move_util_single hI.core hok.1 hb hfree (fun d ho ha => hnone d ha ho)

/-- C10: whenever `gamma_move(p, x, y)` returns true in a reachable state, the area count of
`p` after the call equals its value before plus 1 minus `d`, where `d` is the number of
distinct areas of `p` that contain an edge-neighbour of `(x, y)` before the move: plus 1
when no neighbour belongs to `p` (the cell becomes a singleton area of size 1), unchanged
when all neighbours of `p` lie in one area, and decreased by `d - 1` when `d >= 2` areas
are merged. -/
theorem gamma_move_true_areas (g : gamma) (p x y : Nat) (hR : Reachable g)
    (ht : (gamma_move g p x y).1 = true) :
    gamma_player_areas (gamma_move g p x y).2 p +
        (neighbour_areas g p { x := x, y := y }).ncard = gamma_player_areas g p + 1 ∧
    ((gamma_move g p x y).2.players (p - 1)).num_of_areas +
        (neighbour_areas g p { x := x, y := y }).ncard =
      (g.players (p - 1)).num_of_areas + 1 ∧
    ((∀ d, adjacent { x := x, y := y } d → ¬ owns g p d) →
      gamma_player_areas (gamma_move g p x y).2 p = gamma_player_areas g p + 1 ∧
      (gamma_move g p x y).2.parents x y = { x := x, y := y } ∧
      (gamma_move g p x y).2.areas_size x y = 1) ∧
    ((neighbour_areas g p { x := x, y := y }).ncard = 1 →
      gamma_player_areas (gamma_move g p x y).2 p = gamma_player_areas g p) ∧
    (2 ≤ (neighbour_areas g p { x := x, y := y }).ncard →
      gamma_player_areas (gamma_move g p x y).2 p +
        ((neighbour_areas g p { x := x, y := y }).ncard - 1) = gamma_player_areas g p) := by
  have hok := (gamma_move_true_iff g p x y).mp ht
  obtain ⟨a1, a2, a3⟩ := @placed_areas g p { x := x, y := y } hR.reach_inv hok
  have e : (gamma_move g p x y).2 = move_util g x y p := by rw [gamma_move_of_ok hok]
  rw [e]
  change ((move_util g x y p).players (p - 1)).num_of_areas + _ = _ at a1
  change gamma_player_areas (move_util g x y p) p + _ = _ at a2
  generalize move_util g x y p = g1 at a1 a2 a3 ⊢
  refine ⟨a2, a1, ?_, ?_, ?_⟩
  · intro hnone
    have hz : (neighbour_areas g p { x := x, y := y }).ncard = 0 := by
      have : neighbour_areas g p { x := x, y := y } = ∅ := by
        apply Set.eq_empty_of_forall_not_mem
        rintro A ⟨c, hc, _⟩
        exact hnone c.1 hc c.2
      rw [this]
      exact Set.ncard_empty _
    rw [hz] at a2
    exact ⟨a2, a3 hnone⟩
  · intro h1
    omega
  · intro h2
    omega

theorem gamma_move_true_areas_witness :
    Reachable (gamma_move new_2x2 1 0 0).2 ∧
    (gamma_move (gamma_move new_2x2 1 0 0).2 1 0 1).1 = true ∧
    (gamma_player_areas (gamma_move (gamma_move new_2x2 1 0 0).2 1 0 1).2 1 +
        (neighbour_areas (gamma_move new_2x2 1 0 0).2 1 { x := 0, y := 1 }).ncard =
      gamma_player_areas (gamma_move new_2x2 1 0 0).2 1 + 1 ∧
    ((gamma_move (gamma_move new_2x2 1 0 0).2 1 0 1).2.players (1 - 1)).num_of_areas +
        (neighbour_areas (gamma_move new_2x2 1 0 0).2 1 { x := 0, y := 1 }).ncard =
      (((gamma_move new_2x2 1 0 0).2).players (1 - 1)).num_of_areas + 1 ∧
    ((∀ d, adjacent { x := 0, y := 1 } d → ¬ owns (gamma_move new_2x2 1 0 0).2 1 d) →
      gamma_player_areas (gamma_move (gamma_move new_2x2 1 0 0).2 1 0 1).2 1 =
        gamma_player_areas (gamma_move new_2x2 1 0 0).2 1 + 1 ∧
      (gamma_move (gamma_move new_2x2 1 0 0).2 1 0 1).2.parents 0 1 = { x := 0, y := 1 } ∧
      (gamma_move (gamma_move new_2x2 1 0 0).2 1 0 1).2.areas_size 0 1 = 1) ∧
    ((neighbour_areas (gamma_move new_2x2 1 0 0).2 1 { x := 0, y := 1 }).ncard = 1 →
      gamma_player_areas (gamma_move (gamma_move new_2x2 1 0 0).2 1 0 1).2 1 =
        gamma_player_areas (gamma_move new_2x2 1 0 0).2 1) ∧
    (2 ≤ (neighbour_areas (gamma_move new_2x2 1 0 0).2 1 { x := 0, y := 1 }).ncard →
      gamma_player_areas (gamma_move (gamma_move new_2x2 1 0 0).2 1 0 1).2 1 +
        ((neighbour_areas (gamma_move new_2x2 1 0 0).2 1 { x := 0, y := 1 }).ncard - 1) =
      gamma_player_areas (gamma_move new_2x2 1 0 0).2 1)) :=
  ⟨Reachable.move _ 1 0 0 new_2x2_reachable, by decide,
    gamma_move_true_areas _ 1 0 1 (Reachable.move _ 1 0 0 new_2x2_reachable) (by decide)⟩

/-! ## The effect of a successful golden move -/

/-- The components of a player depend only on the set of cells of that player. -/
theorem area_card_of_owns {g h : gamma} {p : Nat} (ho : ∀ c, owns h p c ↔ owns g p c) :
    Nat.card (Area h p) = Nat.card (Area g p) := by
  have key : ∀ P Q : field_t → Prop, P = Q →
      Nat.card (Quot (fun a b : { c : field_t // P c } => adjacent a.1 b.1)) =
        Nat.card (Quot (fun a b : { c : field_t // Q c } => adjacent a.1 b.1)) := by
    intro P Q e
    subst e
    rfl
  exact key (owns h p) (owns g p) (funext fun c => propext (ho c))

theorem owner_of_reassigned {g h : gamma} {p : Nat} {c0 : field_t}
    (hpa : h.player_arr = set2D g.player_arr c0.x c0.y p) (c : field_t) :
    owner h c = if c = c0 then p else owner g c := by
  unfold owner
  rw [hpa]
  exact set2D_cell _ _ _ _

theorem cells_of_reassigned_new {g h : gamma} {p : Nat} {c0 : field_t}
    (hb : ∀ c, on_board h c ↔ on_board g c)
    (ho : ∀ c, owner h c = if c = c0 then p else owner g c) (hc0 : on_board g c0) :
    cells_of h p = insert c0 (cells_of g p) := by
  ext c
  rw [mem_cells_of, Finset.mem_insert, mem_cells_of, hb, ho]
  by_cases hc : c = c0
  · subst hc; simp [hc0]
  · simp [hc]

theorem cells_of_reassigned_old {g h : gamma} {p q : Nat} {c0 : field_t} (hqp : q ≠ p)
    (hb : ∀ c, on_board h c ↔ on_board g c)
    (ho : ∀ c, owner h c = if c = c0 then p else owner g c) :
    cells_of h q = (cells_of g q).erase c0 := by
  ext c
  rw [mem_cells_of, Finset.mem_erase, mem_cells_of, hb, ho]
  by_cases hc : c = c0
  · subst hc
    simp only [if_true, ne_eq, not_true_eq_false, false_and, iff_false, not_and]
    intro _ e
    exact hqp e.symm
  · simp [hc]

theorem owns_reassigned_other {g h : gamma} {p r : Nat} {c0 : field_t} (hrp : r ≠ p)
    (hrq : r ≠ owner g c0) (hb : ∀ c, on_board h c ↔ on_board g c)
    (ho : ∀ c, owner h c = if c = c0 then p else owner g c) (c : field_t) :
    owns h r c ↔ owns g r c := by
  unfold owns
  rw [hb, ho]
  by_cases hc : c = c0
  · rw [if_pos hc, hc]
    constructor
    · rintro ⟨_, e⟩; exact absurd e.symm hrp
    · rintro ⟨_, e⟩; exact absurd e.symm hrq
  · rw [if_neg hc]

/-- The visible difference between two states satisfying the invariant whose boards differ
in the cell `c0` only, which passed from `q` to `p`. -/
theorem reassigned_effect {g h : gamma} {p q : Nat} {c0 : field_t} (hC : Core g)
    (hC1 : Core h) (hp : valid_player g p) (hq : valid_player g q) (hqp : q ≠ p)
    (hown : owns g q c0) (hw : h.width = g.width) (hh : h.height = g.height)
    (hn : h.num_of_players = g.num_of_players)
    (hpa : h.player_arr = set2D g.player_arr c0.x c0.y p) :
    h.player_arr c0.x c0.y = p ∧
    (∀ i j, ¬ (i = c0.x ∧ j = c0.y) → h.player_arr i j = g.player_arr i j) ∧
    gamma_busy_fields h p = gamma_busy_fields g p + 1 ∧
    gamma_busy_fields h q + 1 = gamma_busy_fields g q ∧
    h.empty_fields = g.empty_fields ∧
    (∀ r, valid_player g r → r ≠ p → r ≠ q →
      (h.players (r - 1)).busy_fields = (g.players (r - 1)).busy_fields ∧
      (h.players (r - 1)).num_of_areas = (g.players (r - 1)).num_of_areas) := by
  have hb : ∀ c, on_board h c ↔ on_board g c := by
    intro c; unfold on_board; rw [hw, hh]
  have ho := owner_of_reassigned hpa
  have hv : ∀ r, valid_player h r ↔ valid_player g r := by
    intro r; unfold valid_player; rw [hn]
  have hp0 : p ≠ 0 := by have := hp.1; omega
  have hq0 : q ≠ 0 := by have := hq.1; omega
  refine ⟨?_, ?_, ?_, ?_, ?_, ?_⟩
  · rw [hpa]; unfold set2D; rw [if_pos ⟨rfl, rfl⟩]
  · intro i j hij
    rw [hpa]; unfold set2D; rw [if_neg hij]
  · rw [gamma_busy_fields_eq ((hv p).mpr hp), gamma_busy_fields_eq hp,
      hC1.busy_eq p ((hv p).mpr hp), hC.busy_eq p hp,
      cells_of_reassigned_new hb ho hown.1, Finset.card_insert_of_not_mem]
    rw [mem_cells_of, hown.2]
    rintro ⟨_, e⟩
    exact hqp e
  · rw [gamma_busy_fields_eq ((hv q).mpr hq), gamma_busy_fields_eq hq,
      hC1.busy_eq q ((hv q).mpr hq), hC.busy_eq q hq,
      cells_of_reassigned_old hqp hb ho,
      Finset.card_erase_of_mem (mem_cells_of.mpr hown)]
    have : 0 < (cells_of g q).card := Finset.card_pos.mpr ⟨c0, mem_cells_of.mpr hown⟩
    omega
  · rw [hC1.empty_eq, hC.empty_eq]
    congr 1
    ext c
    rw [mem_cells_of, mem_cells_of]
    exact owns_reassigned_other (fun e => hp0 e.symm)
      (fun e => hq0 (hown.2.symm.trans e.symm)) hb ho c
  · intro r hr hrp hrq
    have hor : ∀ c, owns h r c ↔ owns g r c :=
      owns_reassigned_other hrp (fun e => hrq (e.trans hown.2)) hb ho
    refine ⟨?_, ?_⟩
    · rw [hC1.busy_eq r ((hv r).mpr hr), hC.busy_eq r hr]
      congr 1
      ext c
      rw [mem_cells_of, mem_cells_of]
      exact hor c
    · rw [hC1.areas_card ((hv r).mpr hr), hC.areas_card hr]
      exact area_card_of_owns hor

/-- C11: whenever `gamma_golden_move(p, x, y)` returns true in a reachable state in which
`q` owned `(x, y)`: afterwards `(x, y)` is owned by `p` and every other cell keeps its
owner; `gamma_busy_fields(p)` is larger by 1, `gamma_busy_fields(q)` is smaller by 1 and the
empty-cell count is unchanged; the golden flag of `p` is set and the flag of every other
player is unchanged; the players other than `p` and `q` keep their busy and area counts. -/
theorem golden_move_true_effect (g : gamma) (p q x y : Nat) (hR : Reachable g)
    (hq : g.player_arr x y = q) (ht : (gamma_golden_move g p x y).1 = true) :
    (gamma_golden_move g p x y).2.player_arr x y = p ∧
    (∀ i j, ¬ (i = x ∧ j = y) →
      (gamma_golden_move g p x y).2.player_arr i j = g.player_arr i j) ∧
    gamma_busy_fields (gamma_golden_move g p x y).2 p = gamma_busy_fields g p + 1 ∧
    gamma_busy_fields (gamma_golden_move g p x y).2 q + 1 = gamma_busy_fields g q ∧
    (gamma_golden_move g p x y).2.empty_fields = g.empty_fields ∧
    ((gamma_golden_move g p x y).2.players (p - 1)).has_played_golden_move = true ∧
    (∀ r, 1 ≤ r → r ≠ p →
      ((gamma_golden_move g p x y).2.players (r - 1)).has_played_golden_move =
        (g.players (r - 1)).has_played_golden_move) ∧
    (∀ r, valid_player g r → r ≠ p → r ≠ q →
      ((gamma_golden_move g p x y).2.players (r - 1)).busy_fields =
        (g.players (r - 1)).busy_fields ∧
      ((gamma_golden_move g p x y).2.players (r - 1)).num_of_areas =
        (g.players (r - 1)).num_of_areas) := by
  have hI := hR.reach_inv
  obtain ⟨s1, s2, _, s4⟩ := gamma_golden_move_spec hI p x y
  obtain ⟨hflag, hp, hb, hne, h0, _, _⟩ := s2.mp ht
  obtain ⟨t1, t2⟩ := s4 ht
  generalize gamma_golden_move g p x y = r at s1 t1 t2 ⊢
  rw [hq] at hne h0
  have hqv : valid_player g q := by
    have := @Core.valid_owner g hI.core { x := x, y := y } hb (by
      change g.player_arr x y ≠ 0
      rw [hq]; exact h0)
    change valid_player g (g.player_arr x y) at this
    rw [hq] at this
    exact this
  obtain ⟨e1, e2, e3, e4, e5, e6⟩ := @reassigned_effect g r.2 p q { x := x, y := y }
    hI.core s1.core hp hqv hne ⟨hb, hq⟩ t1.width t1.height t1.num_of_players t2
  refine ⟨e1, e2, e3, e4, e5, ?_, ?_, e6⟩
  · rw [t1.golden, set_golden_flag_same]
  · intro r1 hr1 hr1p
    rw [t1.golden, set_golden_flag_ne _ _ _ _ (player_index_ne hp.1 hr1 hr1p)]

theorem golden_move_true_effect_witness :
    Reachable (gamma_move new_2x2 1 0 0).2 ∧
    ((gamma_move new_2x2 1 0 0).2).player_arr 0 0 = 1 ∧
    (gamma_golden_move (gamma_move new_2x2 1 0 0).2 2 0 0).1 = true ∧
    ((gamma_golden_move (gamma_move new_2x2 1 0 0).2 2 0 0).2.player_arr 0 0 = 2 ∧
    (∀ i j, ¬ (i = 0 ∧ j = 0) →
      (gamma_golden_move (gamma_move new_2x2 1 0 0).2 2 0 0).2.player_arr i j =
        ((gamma_move new_2x2 1 0 0).2).player_arr i j) ∧
    gamma_busy_fields (gamma_golden_move (gamma_move new_2x2 1 0 0).2 2 0 0).2 2 =
      gamma_busy_fields (gamma_move new_2x2 1 0 0).2 2 + 1 ∧
    gamma_busy_fields (gamma_golden_move (gamma_move new_2x2 1 0 0).2 2 0 0).2 1 + 1 =
      gamma_busy_fields (gamma_move new_2x2 1 0 0).2 1 ∧
    (gamma_golden_move (gamma_move new_2x2 1 0 0).2 2 0 0).2.empty_fields =
      ((gamma_move new_2x2 1 0 0).2).empty_fields ∧
    ((gamma_golden_move (gamma_move new_2x2 1 0 0).2 2 0 0).2.players
      (2 - 1)).has_played_golden_move = true ∧
    (∀ r, 1 ≤ r → r ≠ 2 →
      ((gamma_golden_move (gamma_move new_2x2 1 0 0).2 2 0 0).2.players
          (r - 1)).has_played_golden_move =
        (((gamma_move new_2x2 1 0 0).2).players (r - 1)).has_played_golden_move) ∧
    (∀ r, valid_player (gamma_move new_2x2 1 0 0).2 r → r ≠ 2 → r ≠ 1 →
      ((gamma_golden_move (gamma_move new_2x2 1 0 0).2 2 0 0).2.players
          (r - 1)).busy_fields =
        (((gamma_move new_2x2 1 0 0).2).players (r - 1)).busy_fields ∧
      ((gamma_golden_move (gamma_move new_2x2 1 0 0).2 2 0 0).2.players
          (r - 1)).num_of_areas =
        (((gamma_move new_2x2 1 0 0).2).players (r - 1)).num_of_areas)) :=
  ⟨Reachable.move _ 1 0 0 new_2x2_reachable, by decide, by decide,
    golden_move_true_effect _ 2 1 0 0 (Reachable.move _ 1 0 0 new_2x2_reachable)
      (by decide) (by decide)⟩

/-! ## The golden flag is never cleared -/

theorem gamma_golden_move_flags {g : gamma} (hI : Inv g) (p x y i : Nat)
    (h : (g.players i).has_played_golden_move = true) :
    ((gamma_golden_move g p x y).2.players i).has_played_golden_move = true := by
  obtain ⟨_, _, s3, s4⟩ := gamma_golden_move_spec hI p x y
  generalize gamma_golden_move g p x y = r at s3 s4
  obtain ⟨b, g1⟩ := r
  cases b
  · rw [(s3 rfl).2.2.2.2.2.1]; exact h
  · rw [(s4 rfl).1.golden]
    by_cases e : i = p - 1
    · rw [e, set_golden_flag_same]
    · rw [set_golden_flag_ne _ _ _ _ e]; exact h

/-- A golden flag that is set stays set under every public call. -/
theorem Steps.flag_kept {g0 g : gamma} (hs : Steps g0 g) (h0 : Reachable g0) (i : Nat)
    (h : (g0.players i).has_played_golden_move = true) :
    (g.players i).has_played_golden_move = true := by
  induction hs with
  | start => exact h
  | move g player x y hs ih =>
    rw [(gamma_move_shape (hs.reachable h0).reach_inv player x y).golden]
    exact ih
  | golden_move g player x y hs ih =>
    exact gamma_golden_move_flags (hs.reachable h0).reach_inv player x y i ih
  | golden_possible g player hs ih =>
    rw [(gamma_golden_possible_spec (hs.reachable h0).reach_inv player).2.1.2.2.2.2.2.1]
    exact ih
  | move_possible g player x y hs ih =>
    rw [(gamma_move_possible_spec (hs.reachable h0).reach_inv player x y).2.2.2.2.2.2.1]
    exact ih

/-- C12: the golden move is single-use. Once `gamma_golden_move(p, x0, y0)` has returned
true in a reachable state, then in every state produced from the resulting one by any
sequence of public calls (by any player, probes by `gamma_golden_possible` included) the
golden flag of `p` is set, every call `gamma_golden_move(p, x, y)` returns false and
`gamma_golden_possible(p)` returns false. -/
theorem golden_move_single_use (g0 g : gamma) (p x0 y0 : Nat) (hR : Reachable g0)
    (ht : (gamma_golden_move g0 p x0 y0).1 = true)
    (hs : Steps (gamma_golden_move g0 p x0 y0).2 g) (x y : Nat) :
    (g.players (p - 1)).has_played_golden_move = true ∧
    (gamma_golden_move g p x y).1 = false ∧ (gamma_golden_possible g p).1 = false := by
  have hR1 : Reachable (gamma_golden_move g0 p x0 y0).2 := Reachable.golden_move g0 p x0 y0 hR
  have hset : ((gamma_golden_move g0 p x0 y0).2.players (p - 1)).has_played_golden_move
      = true := by
    rw [((gamma_golden_move_spec hR.reach_inv p x0 y0).2.2.2 ht).1.golden,
      set_golden_flag_same]
  have hflag := hs.flag_kept hR1 (p - 1) hset
  have hI := (hs.reachable hR1).reach_inv
  refine ⟨hflag, ?_, ?_⟩
  · have h1 := (gamma_golden_move_spec hI p x y).2.1
    cases hb : (gamma_golden_move g p x y).1
    · rfl
    · have := (h1.mp hb).1
      rw [hflag] at this
      exact absurd this.symm Bool.false_ne_true
  · have h1 := (gamma_golden_possible_spec hI p).2.2
    cases hb : (gamma_golden_possible g p).1
    · rfl
    · have := (h1.mp hb).1
      rw [hflag] at this
      exact absurd this.symm Bool.false_ne_true

theorem golden_move_single_use_witness :
    Reachable (gamma_move new_2x2 1 0 0).2 ∧
    (gamma_golden_move (gamma_move new_2x2 1 0 0).2 2 0 0).1 = true ∧
    Steps (gamma_golden_move (gamma_move new_2x2 1 0 0).2 2 0 0).2
      (gamma_golden_possible
        (gamma_move (gamma_golden_move (gamma_move new_2x2 1 0 0).2 2 0 0).2 1 1 1).2 2).2 ∧
    (((gamma_golden_possible
        (gamma_move (gamma_golden_move (gamma_move new_2x2 1 0 0).2 2 0 0).2 1 1 1).2
          2).2.players (2 - 1)).has_played_golden_move = true ∧
    (gamma_golden_move (gamma_golden_possible
        (gamma_move (gamma_golden_move (gamma_move new_2x2 1 0 0).2 2 0 0).2 1 1 1).2 2).2
          2 1 1).1 = false ∧
    (gamma_golden_possible (gamma_golden_possible
        (gamma_move (gamma_golden_move (gamma_move new_2x2 1 0 0).2 2 0 0).2 1 1 1).2 2).2
          2).1 = false) :=
  ⟨Reachable.move _ 1 0 0 new_2x2_reachable, by decide,
    Steps.golden_possible _ 2 (Steps.move _ 1 1 1 Steps.start),
    golden_move_single_use _ _ 2 0 0 (Reachable.move _ 1 0 0 new_2x2_reachable) (by decide)
      (Steps.golden_possible _ 2 (Steps.move _ 1 1 1 Steps.start)) 1 1⟩

/-! ## The counters and the ownership map -/

/-- The board is the disjoint union of the cells of the owners `0, ..., num_of_players`. -/
theorem board_card_sum {g : gamma} (hC : Core g) :
    (cells_of g 0).card + (Finset.range g.num_of_players).sum
      (fun i => (cells_of g (i + 1)).card) = g.width * g.height := by
  have h1 : (board g).card = (Finset.range (g.num_of_players + 1)).sum
      (fun k => ((board g).filter (fun c => owner g c = k)).card) := by
    apply Finset.card_eq_sum_card_fiberwise
    intro c hc
    rw [Finset.mem_range]
    have := hC.owner_le c (mem_board.mp hc)
    omega
  rw [card_board, Finset.sum_range_succ'] at h1
  rw [h1, Nat.add_comm]
  rfl

/-- C13: in every reachable state the counters agree with the ownership map: for every
valid player `p`, `gamma_busy_fields(p)` is the number of cells whose owner is `p`, and the
empty-cell count is the number of unowned cells; consequently the empty-cell count plus the
sum of the busy counts of all players is `width * height`. -/
theorem counters_agree (g : gamma) (hR : Reachable g) :
    (∀ p, valid_player g p → gamma_busy_fields g p = (cells_of g p).card) ∧
    g.empty_fields = (cells_of g 0).card ∧
    g.empty_fields + (Finset.range g.num_of_players).sum
      (fun i => gamma_busy_fields g (i + 1)) = g.width * g.height := by
  have hC := hR.reach_inv.core
  have h1 : ∀ p, valid_player g p → gamma_busy_fields g p = (cells_of g p).card := by
    intro p hp
    rw [gamma_busy_fields_eq hp, hC.busy_eq p hp]
  refine ⟨h1, hC.empty_eq, ?_⟩
  rw [hC.empty_eq, ← board_card_sum hC]
  congr 1
  apply Finset.sum_congr rfl
  intro i hi
  rw [Finset.mem_range] at hi
  exact h1 (i + 1) ⟨by omega, by omega⟩

theorem counters_agree_witness :
    Reachable (gamma_move new_2x2 1 0 0).2 ∧
    ((∀ p, valid_player (gamma_move new_2x2 1 0 0).2 p →
      gamma_busy_fields (gamma_move new_2x2 1 0 0).2 p =
        (cells_of (gamma_move new_2x2 1 0 0).2 p).card) ∧
    ((gamma_move new_2x2 1 0 0).2).empty_fields =
      (cells_of (gamma_move new_2x2 1 0 0).2 0).card ∧
    ((gamma_move new_2x2 1 0 0).2).empty_fields +
      (Finset.range ((gamma_move new_2x2 1 0 0).2).num_of_players).sum
        (fun i => gamma_busy_fields (gamma_move new_2x2 1 0 0).2 (i + 1)) =
      ((gamma_move new_2x2 1 0 0).2).width * ((gamma_move new_2x2 1 0 0).2).height) :=
  ⟨Reachable.move _ 1 0 0 new_2x2_reachable,
    counters_agree _ (Reachable.move _ 1 0 0 new_2x2_reachable)⟩

/-! ## `gamma_free_fields` -/

/-- A counting loop over `0, ..., n - 1` with a 64-bit counter that cannot wrap. -/
theorem fold_count (b : Nat → Bool) : ∀ (n c0 : Nat), c0 + n < UINT64_MOD →
    (List.range n).foldl (fun c j => if b j = true then inc64 c else c) c0 =
      c0 + ((Finset.range n).filter (fun j => b j = true)).card := by
  intro n
  induction n with
  | zero => intro c0 _; simp
  | succ n ih =>
    intro c0 hlt
    rw [List.range_succ, List.foldl_append, ih c0 (by omega), Finset.range_succ,
      Finset.filter_insert]
    have hle : ((Finset.range n).filter (fun j => b j = true)).card ≤ n := by
      have := Finset.card_filter_le (Finset.range n) (fun j => b j = true)
      rw [Finset.card_range] at this
      exact this
    simp only [List.foldl_cons, List.foldl_nil]
    by_cases hb : b n = true
    · rw [if_pos hb, if_pos hb, Finset.card_insert_of_not_mem (by simp),
        inc64_of_lt (by omega)]
      omega
    · rw [if_neg hb, if_neg hb]

theorem free_fields_column_eq (g : gamma) (p i c : Nat) (hc : c + g.height < UINT64_MOD) :
    free_fields_column g p i c = c + ((Finset.range g.height).filter (fun j =>
      (no_field i j g && decide (count_neighbours g i j p > 0)) = true)).card := by
  unfold free_fields_column
  exact fold_count (fun j => no_field i j g && decide (count_neighbours g i j p > 0))
    g.height c hc

theorem free_fields_outer (g : gamma) (p : Nat) : ∀ n, n * g.height + g.height < UINT64_MOD →
    (List.range n).foldl (fun c i => free_fields_column g p i c) 0 =
      (Finset.range n).sum (fun i => ((Finset.range g.height).filter (fun j =>
        (no_field i j g && decide (count_neighbours g i j p > 0)) = true)).card) ∧
    (Finset.range n).sum (fun i => ((Finset.range g.height).filter (fun j =>
        (no_field i j g && decide (count_neighbours g i j p > 0)) = true)).card) ≤
      n * g.height := by
  intro n
  induction n with
  | zero => intro _; simp
  | succ n ih =>
    intro hlt
    have hlt1 : n * g.height + g.height < UINT64_MOD := by
      have : (n + 1) * g.height = n * g.height + g.height := Nat.succ_mul n g.height
      omega
    obtain ⟨i1, i2⟩ := ih hlt1
    have hle : ((Finset.range g.height).filter (fun j =>
        (no_field n j g && decide (count_neighbours g n j p > 0)) = true)).card ≤ g.height := by
      have := Finset.card_filter_le (Finset.range g.height) (fun j =>
        (no_field n j g && decide (count_neighbours g n j p > 0)) = true)
      rw [Finset.card_range] at this
      exact this
    have hmul : (n + 1) * g.height = n * g.height + g.height := Nat.succ_mul n g.height
    rw [List.range_succ, List.foldl_append, i1, Finset.sum_range_succ]
    simp only [List.foldl_cons, List.foldl_nil]
    rw [free_fields_column_eq g p n _ (by omega)]
    exact ⟨rfl, by omega⟩

/-- The number of cells of the board satisfying a condition on their coordinates, counted
column by column. -/
theorem board_filter_card (g : gamma) (b : Nat → Nat → Bool) :
    ((board g).filter (fun c => b c.x c.y = true)).card =
      (Finset.range g.width).sum (fun i =>
        ((Finset.range g.height).filter (fun j => b i j = true)).card) := by
  rw [Finset.card_filter]
  unfold board cells
  rw [Finset.sum_image, Finset.sum_product]
  · apply Finset.sum_congr rfl
    intro i _
    rw [Finset.card_filter]
  · intro a _ c _ e
    have e1 : a.1 = c.1 := congrArg field_t.x e
    have e2 : a.2 = c.2 := congrArg field_t.y e
    exact Prod.ext e1 e2

theorem free_cond_iff {g : gamma} {p : Nat} (hw : g.width < UINT32_MOD)
    (hh : g.height < UINT32_MOD) {c : field_t} (hc : on_board g c) :
    (no_field c.x c.y g && decide (count_neighbours g c.x c.y p > 0)) = true ↔
      (owner g c = 0 ∧ ∃ d, adjacent c d ∧ owns g p d) := by
  have h1 : count_neighbours g c.x c.y p > 0 ↔ ∃ d, adjacent c d ∧ owns g p d := by
    rw [gt_iff_lt, Nat.pos_iff_ne_zero, Ne, count_neighbours_eq_zero_iff hw hh hc]
    constructor
    · intro h
      push_neg at h
      obtain ⟨d, hd1, hd2, _⟩ := h
      exact ⟨d, hd2, hd1⟩
    · rintro ⟨d, hd1, hd2⟩ h
      exact h d hd2 hd1
  rw [Bool.and_eq_true, decide_eq_true_eq, h1]
  unfold no_field NO_PLAYER owner
  rw [beq_iff_eq]

/-- The three cases of `gamma_free_fields` for a valid player. -/
theorem gamma_free_fields_spec {g : gamma} {p : Nat} (hw : g.width < UINT32_MOD)
    (hh : g.height < UINT32_MOD) (hp : valid_player g p) :
    ((g.players (p - 1)).num_of_areas < g.max_num_of_areas →
      gamma_free_fields g p = g.empty_fields) ∧
    ((g.players (p - 1)).num_of_areas = g.max_num_of_areas →
      gamma_free_fields g p =
        Set.ncard { c : field_t | on_board g c ∧ owner g c = 0 ∧
          ∃ d, adjacent c d ∧ owns g p d }) ∧
    (g.max_num_of_areas < (g.players (p - 1)).num_of_areas → gamma_free_fields g p = 0) := by
  have hwp := wrong_player_false_iff.mpr hp
  refine ⟨?_, ?_, ?_⟩
  · intro hlt
    unfold gamma_free_fields
    rw [hwp, if_neg Bool.false_ne_true, if_neg (by omega), if_neg (by omega)]
  · intro heq
    unfold gamma_free_fields
    rw [hwp, if_neg Bool.false_ne_true, if_neg (by omega), if_pos heq]
    have hbb := board_bound hw hh
    have hbound : g.width * g.height + g.height < UINT64_MOD := by
      unfold UINT32_MOD at hw hh
      unfold UINT64_MOD
      have h1 : g.width ≤ 4294967295 := by omega
      have h2 : g.height ≤ 4294967295 := by omega
      have := Nat.mul_le_mul h1 h2
      omega
    rw [(free_fields_outer g p g.width hbound).1,
      ← board_filter_card g (fun i j => no_field i j g && decide (count_neighbours g i j p > 0)),
      ← Set.ncard_coe_Finset]
    congr 1
    ext c
    simp only [Finset.coe_filter, Set.mem_setOf_eq, mem_board]
    constructor
    · rintro ⟨h1, h2⟩
      exact ⟨h1, (free_cond_iff hw hh h1).mp h2⟩
    · rintro ⟨h1, h2⟩
      exact ⟨h1, (free_cond_iff hw hh h1).mpr h2⟩
  · intro hgt
    unfold gamma_free_fields
    rw [hwp, if_neg Bool.false_ne_true, if_pos hgt]

/-- C14: for every state (with `width` and `height` in the range of `uint32_t`) and every
valid player `p`, `gamma_free_fields(p)` returns the empty-cell count when the area count
of `p` is below max-areas, the number of unowned cells of the board that have at least one
edge-neighbour owned by `p` when the area count equals max-areas, and 0 when the area count
exceeds max-areas. -/
theorem free_fields_cases (g : gamma) (p : Nat) (hw : g.width < UINT32_MOD)
    (hh : g.height < UINT32_MOD) (hp : valid_player g p) :
    ((g.players (p - 1)).num_of_areas < gamma_max_areas g →
      gamma_free_fields g p = g.empty_fields) ∧
    ((g.players (p - 1)).num_of_areas = gamma_max_areas g →
      gamma_free_fields g p =
        Set.ncard { c : field_t | on_board g c ∧ owner g c = 0 ∧
          ∃ d, adjacent c d ∧ owns g p d }) ∧
    (gamma_max_areas g < (g.players (p - 1)).num_of_areas → gamma_free_fields g p = 0) :=
  gamma_free_fields_spec hw hh hp

theorem new_3x3_reachable : Reachable new_3x3 :=
  Reachable.new 3 3 2 1 new_3x3 (by decide) (by decide) (by decide) (by decide)
    (Option.some_get _).symm

theorem free_fields_cases_witness :
    (gamma_move (gamma_move (gamma_move new_3x3 1 0 0).2 1 1 0).2 1 2 0).2.width
      < UINT32_MOD ∧
    (gamma_move (gamma_move (gamma_move new_3x3 1 0 0).2 1 1 0).2 1 2 0).2.height
      < UINT32_MOD ∧
    valid_player (gamma_move (gamma_move (gamma_move new_3x3 1 0 0).2 1 1 0).2 1 2 0).2 1 ∧
    ((((gamma_move (gamma_move (gamma_move new_3x3 1 0 0).2 1 1 0).2 1 2 0).2.players
        (1 - 1)).num_of_areas <
        gamma_max_areas (gamma_move (gamma_move (gamma_move new_3x3 1 0 0).2 1 1 0).2 1 2 0).2 →
      gamma_free_fields (gamma_move (gamma_move (gamma_move new_3x3 1 0 0).2 1 1 0).2 1 2 0).2 1 =
        (gamma_move (gamma_move (gamma_move new_3x3 1 0 0).2 1 1 0).2 1 2 0).2.empty_fields) ∧
    (((gamma_move (gamma_move (gamma_move new_3x3 1 0 0).2 1 1 0).2 1 2 0).2.players
        (1 - 1)).num_of_areas =
        gamma_max_areas (gamma_move (gamma_move (gamma_move new_3x3 1 0 0).2 1 1 0).2 1 2 0).2 →
      gamma_free_fields (gamma_move (gamma_move (gamma_move new_3x3 1 0 0).2 1 1 0).2 1 2 0).2 1 =
        Set.ncard { c : field_t |
          on_board (gamma_move (gamma_move (gamma_move new_3x3 1 0 0).2 1 1 0).2 1 2 0).2 c ∧
          owner (gamma_move (gamma_move (gamma_move new_3x3 1 0 0).2 1 1 0).2 1 2 0).2 c = 0 ∧
          ∃ d, adjacent c d ∧
            owns (gamma_move (gamma_move (gamma_move new_3x3 1 0 0).2 1 1 0).2 1 2 0).2 1 d }) ∧
    (gamma_max_areas (gamma_move (gamma_move (gamma_move new_3x3 1 0 0).2 1 1 0).2 1 2 0).2 <
        ((gamma_move (gamma_move (gamma_move new_3x3 1 0 0).2 1 1 0).2 1 2 0).2.players
          (1 - 1)).num_of_areas →
      gamma_free_fields (gamma_move (gamma_move (gamma_move new_3x3 1 0 0).2 1 1 0).2 1 2 0).2 1
        = 0)) ∧
    ((gamma_move (gamma_move (gamma_move new_3x3 1 0 0).2 1 1 0).2 1 2 0).2.players
      (1 - 1)).num_of_areas = 1 ∧
    gamma_max_areas (gamma_move (gamma_move (gamma_move new_3x3 1 0 0).2 1 1 0).2 1 2 0).2 = 1 ∧
    gamma_free_fields (gamma_move (gamma_move (gamma_move new_3x3 1 0 0).2 1 1 0).2 1 2 0).2 1
      = 3 ∧
    (gamma_move (gamma_move (gamma_move new_3x3 1 0 0).2 1 1 0).2 1 2 0).2.empty_fields = 6 :=
  ⟨by decide, by decide, ⟨by decide, by decide⟩,
    free_fields_cases _ 1 (by decide) (by decide) ⟨by decide, by decide⟩,
    by decide, by decide, by decide, by decide⟩

/-- C15: in every reachable state and for every valid player `p`, `gamma_free_fields(p)` is
the number of cells `(x, y)` of the board for which `gamma_move(p, x, y)`, called in that
state, returns true. -/
theorem free_fields_eq_legal_moves (g : gamma) (p : Nat) (hR : Reachable g)
    (hp : valid_player g p) :
    gamma_free_fields g p =
      Set.ncard { c : field_t | on_board g c ∧ (gamma_move g p c.x c.y).1 = true } := by
  have hI := hR.reach_inv
  have hC := hI.core
  obtain ⟨f1, f2, _⟩ := @gamma_free_fields_spec g p hC.width_lt hC.height_lt hp
  have hle := hI.areas_le p hp
  have hmove : ∀ c : field_t, on_board g c → ((gamma_move g p c.x c.y).1 = true ↔
      (owner g c = 0 ∧ ¬ ((g.players (p - 1)).num_of_areas ≥ g.max_num_of_areas ∧
        count_neighbours g c.x c.y p = 0))) := by
    intro c hc
    rw [gamma_move_true_iff]
    unfold move_ok
    constructor
    · rintro ⟨_, _, a3, a4⟩; exact ⟨a3, a4⟩
    · rintro ⟨a3, a4⟩; exact ⟨hp, hc, a3, a4⟩
  by_cases hlt : (g.players (p - 1)).num_of_areas < g.max_num_of_areas
  · rw [f1 hlt, hC.empty_eq, ← Set.ncard_coe_Finset]
    congr 1
    ext c
    simp only [Finset.mem_coe, mem_cells_of, Set.mem_setOf_eq]
    constructor
    · rintro ⟨h1, h2⟩
      exact ⟨h1, (hmove c h1).mpr ⟨h2, fun h => by omega⟩⟩
    · rintro ⟨h1, h2⟩
      exact ⟨h1, ((hmove c h1).mp h2).1⟩
  · have heq : (g.players (p - 1)).num_of_areas = g.max_num_of_areas := by omega
    rw [f2 heq]
    congr 1
    ext c
    simp only [Set.mem_setOf_eq]
    constructor
    · rintro ⟨h1, h2, d, hd1, hd2⟩
      refine ⟨h1, (hmove c h1).mpr ⟨h2, ?_⟩⟩
      rintro ⟨_, hz⟩
      exact (count_neighbours_eq_zero_iff hC.width_lt hC.height_lt h1).mp hz d hd2 hd1
    · rintro ⟨h1, h2⟩
      obtain ⟨a1, a2⟩ := (hmove c h1).mp h2
      refine ⟨h1, a1, ?_⟩
      have hnz : ¬ count_neighbours g c.x c.y p = 0 := fun hz => a2 ⟨by omega, hz⟩
      rw [count_neighbours_eq_zero_iff hC.width_lt hC.height_lt h1] at hnz
      push_neg at hnz
      obtain ⟨d, hd1, hd2, _⟩ := hnz
      exact ⟨d, hd2, hd1⟩

theorem free_fields_eq_legal_moves_witness :
    Reachable (gamma_move new_2x2 1 0 0).2 ∧ valid_player (gamma_move new_2x2 1 0 0).2 1 ∧
    gamma_free_fields (gamma_move new_2x2 1 0 0).2 1 =
      Set.ncard { c : field_t | on_board (gamma_move new_2x2 1 0 0).2 c ∧
        (gamma_move (gamma_move new_2x2 1 0 0).2 1 c.x c.y).1 = true } :=
  ⟨Reachable.move _ 1 0 0 new_2x2_reachable, ⟨by decide, by decide⟩,
    free_fields_eq_legal_moves _ 1 (Reachable.move _ 1 0 0 new_2x2_reachable)
      ⟨by decide, by decide⟩⟩

/-- The answer of `gamma_golden_possible` is the same in two states that cannot be told
apart. -/
theorem golden_possible_congr {g h : gamma} (hI : Inv g) (hI1 : Inv h)
    (hso : same_observable g h) (p : Nat) :
    (gamma_golden_possible h p).1 = (gamma_golden_possible g p).1 := by
  have h1 := (gamma_golden_possible_spec hI p).2.2
  have h2 := (gamma_golden_possible_spec hI1 p).2.2
  have hok : ∀ x y, golden_ok h p x y ↔ golden_ok g p x y := fun x y =>
    golden_ok_congr hso.1 hso.2.1 hso.2.2.1 hso.2.2.2.1 hso.2.2.2.2.2.2 p x y
  have h3 : (gamma_golden_possible h p).1 = true ↔ (gamma_golden_possible g p).1 = true := by
    rw [h1, h2, hso.2.2.2.2.2.1]
    constructor
    · rintro ⟨a, x, y, b⟩; exact ⟨a, x, y, (hok x y).mp b⟩
    · rintro ⟨a, x, y, b⟩; exact ⟨a, x, y, (hok x y).mpr b⟩
  cases ha : (gamma_golden_possible h p).1 <;> cases hb : (gamma_golden_possible g p).1
  · rfl
  · rw [h3.mpr hb] at ha; exact absurd ha.symm Bool.false_ne_true
  · rw [h3.mp ha] at hb; exact absurd hb.symm Bool.false_ne_true
  · rfl

/-- C16: in every reachable state and for every player `p`, calling
`gamma_golden_possible(p)` twice in a row with no call in between returns the same answer
both times, and after the second call the observable state is still the one before the
first call. -/
theorem golden_possible_twice (g : gamma) (p : Nat) (hR : Reachable g) :
    (gamma_golden_possible (gamma_golden_possible g p).2 p).1 =
      (gamma_golden_possible g p).1 ∧
    same_observable g (gamma_golden_possible (gamma_golden_possible g p).2 p).2 := by
  have hI := hR.reach_inv
  obtain ⟨s1, s2, _⟩ := gamma_golden_possible_spec hI p
  obtain ⟨_, t2, _⟩ := gamma_golden_possible_spec s1 p
  exact ⟨golden_possible_congr hI s1 s2 p, s2.obs_trans t2⟩

theorem golden_possible_twice_witness :
    Reachable (gamma_move new_2x2 1 0 0).2 ∧
    ((gamma_golden_possible (gamma_golden_possible (gamma_move new_2x2 1 0 0).2 2).2 2).1 =
      (gamma_golden_possible (gamma_move new_2x2 1 0 0).2 2).1 ∧
    same_observable (gamma_move new_2x2 1 0 0).2
      (gamma_golden_possible (gamma_golden_possible (gamma_move new_2x2 1 0 0).2 2).2 2).2) :=
  ⟨Reachable.move _ 1 0 0 new_2x2_reachable,
    golden_possible_twice _ 2 (Reachable.move _ 1 0 0 new_2x2_reachable)⟩

/-- C17: for every state and all arguments, `gamma_move_possible(p, x, y)` returns exactly
the value that `gamma_move(p, x, y)` returns when called in the same state: true if and only
if the move is legal, false for an illegal move and for an invalid player or coordinate. -/
theorem move_possible_eq_move (g : gamma) (p x y : Nat) :
    (gamma_move_possible g p x y).1 = (gamma_move g p x y).1 ∧
    ((gamma_move_possible g p x y).1 = true ↔ move_ok g p x y) ∧
    ((wrong_player p g = true ∨ wrong_field x y g = true) →
      (gamma_move_possible g p x y).1 = false) := by
  have h1 : (gamma_move_possible g p x y).1 = (gamma_move g p x y).1 := by
    by_cases hok : move_ok g p x y
    · have e1 := wrong_player_false_iff.mpr hok.1
      have e2 := wrong_field_false_iff.mpr hok.2.1
      have hr := gamma_move_of_ok hok
      rw [gamma_move_possible_unfold, e1, e2]
      generalize gamma_move g p x y = r at hr
      subst hr
      rfl
    · have hr := gamma_move_of_not_ok hok
      rw [gamma_move_possible_unfold]
      generalize gamma_move g p x y = r at hr
      subst hr
      by_cases c1 : (wrong_field x y g || wrong_player p g) = true
      · rw [if_pos c1]
      · rw [if_neg c1]
        rfl
  refine ⟨h1, ?_, ?_⟩
  · rw [h1]; exact gamma_move_true_iff g p x y
  · intro hw
    rw [h1]
    have hno : ¬ move_ok g p x y := by
      rintro ⟨a1, a2, _⟩
      rw [← wrong_player_false_iff] at a1
      rw [← wrong_field_false_iff] at a2
      rcases hw with e | e
      · rw [a1] at e; exact Bool.false_ne_true e
      · rw [a2] at e; exact Bool.false_ne_true e
    rw [gamma_move_of_not_ok hno]

/-- C18: in every reachable state and for all arguments, `gamma_move_possible(p, x, y)`
leaves the observable state unchanged although it places and then removes a stone: after the
call the owner of every cell, the empty-cell count and the busy count, area count and golden
flag of every player equal their values before the call, whatever the call returns. -/
theorem move_possible_no_effect (g : gamma) (p x y : Nat) (hR : Reachable g) :
    (∀ i j, (gamma_move_possible g p x y).2.player_arr i j = g.player_arr i j) ∧
    (gamma_move_possible g p x y).2.empty_fields = g.empty_fields ∧
    (∀ q, ((gamma_move_possible g p x y).2.players (q - 1)).busy_fields =
        (g.players (q - 1)).busy_fields ∧
      ((gamma_move_possible g p x y).2.players (q - 1)).num_of_areas =
        (g.players (q - 1)).num_of_areas ∧
      ((gamma_move_possible g p x y).2.players (q - 1)).has_played_golden_move =
        (g.players (q - 1)).has_played_golden_move) ∧
    gamma_board (gamma_move_possible g p x y).2 = gamma_board g := by
  have hso := (gamma_move_possible_spec hR.reach_inv p x y).2
  refine ⟨?_, hso.2.2.2.2.1, ?_, gamma_board_congr hso⟩
  · intro i j
    rw [hso.2.2.2.2.2.2]
  · intro q
    rw [hso.2.2.2.2.2.1]
    exact ⟨rfl, rfl, rfl⟩

theorem move_possible_no_effect_witness :
    Reachable (gamma_move new_2x2 1 0 0).2 ∧
    ((∀ i j, (gamma_move_possible (gamma_move new_2x2 1 0 0).2 1 0 1).2.player_arr i j =
        ((gamma_move new_2x2 1 0 0).2).player_arr i j) ∧
    (gamma_move_possible (gamma_move new_2x2 1 0 0).2 1 0 1).2.empty_fields =
      ((gamma_move new_2x2 1 0 0).2).empty_fields ∧
    (∀ q, ((gamma_move_possible (gamma_move new_2x2 1 0 0).2 1 0 1).2.players
          (q - 1)).busy_fields =
        (((gamma_move new_2x2 1 0 0).2).players (q - 1)).busy_fields ∧
      ((gamma_move_possible (gamma_move new_2x2 1 0 0).2 1 0 1).2.players
          (q - 1)).num_of_areas =
        (((gamma_move new_2x2 1 0 0).2).players (q - 1)).num_of_areas ∧
      ((gamma_move_possible (gamma_move new_2x2 1 0 0).2 1 0 1).2.players
          (q - 1)).has_played_golden_move =
        (((gamma_move new_2x2 1 0 0).2).players (q - 1)).has_played_golden_move) ∧
    gamma_board (gamma_move_possible (gamma_move new_2x2 1 0 0).2 1 0 1).2 =
      gamma_board (gamma_move new_2x2 1 0 0).2) :=
  ⟨Reachable.move _ 1 0 0 new_2x2_reachable,
    move_possible_no_effect _ 1 0 1 (Reachable.move _ 1 0 0 new_2x2_reachable)⟩

theorem move_possible_eq_move_witness :
    (gamma_move_possible (gamma_move new_2x2 1 0 0).2 1 1 1).1 =
      (gamma_move (gamma_move new_2x2 1 0 0).2 1 1 1).1 ∧
    ((gamma_move_possible (gamma_move new_2x2 1 0 0).2 1 1 1).1 = true ↔
      move_ok (gamma_move new_2x2 1 0 0).2 1 1 1) ∧
    ((wrong_player 1 (gamma_move new_2x2 1 0 0).2 = true ∨
        wrong_field 1 1 (gamma_move new_2x2 1 0 0).2 = true) →
      (gamma_move_possible (gamma_move new_2x2 1 0 0).2 1 1 1).1 = false) :=
  move_possible_eq_move (gamma_move new_2x2 1 0 0).2 1 1 1

/-- C19: scenario A. On a new 4 by 4 board with 2 players and max-areas 2,
`gamma_move(1, 0, 0)` and `gamma_move(1, 1, 0)` both succeed and then
`gamma_player_areas(1) = 1` and `gamma_busy_fields(1) = 2`; `gamma_move(1, 3, 3)` then
succeeds and `gamma_player_areas(1) = 2` and `gamma_busy_fields(1) = 3`; a further
`gamma_move(1, 3, 0)` returns false and changes nothing. -/
theorem scenario_a :
    gamma_new 4 4 2 2 = some new_4x4 ∧
    (gamma_move new_4x4 1 0 0).1 = true ∧
    (gamma_move (gamma_move new_4x4 1 0 0).2 1 1 0).1 = true ∧
    gamma_player_areas (gamma_move (gamma_move new_4x4 1 0 0).2 1 1 0).2 1 = 1 ∧
    gamma_busy_fields (gamma_move (gamma_move new_4x4 1 0 0).2 1 1 0).2 1 = 2 ∧
    (gamma_move (gamma_move (gamma_move new_4x4 1 0 0).2 1 1 0).2 1 3 3).1 = true ∧
    gamma_player_areas
      (gamma_move (gamma_move (gamma_move new_4x4 1 0 0).2 1 1 0).2 1 3 3).2 1 = 2 ∧
    gamma_busy_fields
      (gamma_move (gamma_move (gamma_move new_4x4 1 0 0).2 1 1 0).2 1 3 3).2 1 = 3 ∧
    (gamma_move
      (gamma_move (gamma_move (gamma_move new_4x4 1 0 0).2 1 1 0).2 1 3 3).2 1 3 0).1
        = false ∧
    (gamma_move
      (gamma_move (gamma_move (gamma_move new_4x4 1 0 0).2 1 1 0).2 1 3 3).2 1 3 0).2 =
      (gamma_move (gamma_move (gamma_move new_4x4 1 0 0).2 1 1 0).2 1 3 3).2 :=
  ⟨(Option.some_get _).symm, by decide, by decide, by decide, by decide, by decide, by decide,
    by decide, by decide, gamma_move_false_state _ 1 3 0 (by decide)⟩

/-- The cells of `p` form exactly two areas when they split into two sets `A` and `B`, each
connected from a base cell, with no cell of `A` next to a cell of `B`. -/
theorem area_card_two {g : gamma} {p : Nat} {A B : Finset field_t} {a0 b0 : field_t}
    (hcells : cells_of g p = A ∪ B) (ha0 : a0 ∈ A) (hb0 : b0 ∈ B)
    (hdisj : ∀ a ∈ A, a ∉ B)
    (hconnA : ∀ a ∈ A, SConn A a0 a) (hconnB : ∀ b ∈ B, SConn B b0 b)
    (hsep : ∀ a ∈ A, ∀ b ∈ B, ¬ adjacent a b) :
    Nat.card (Area g p) = 2 := by
  classical
  have hmem : ∀ c, owns g p c ↔ (c ∈ A ∨ c ∈ B) := by
    intro c
    have h := @mem_cells_of g p c
    rw [hcells, Finset.mem_union] at h
    exact h.symm
  have hne : a0 ≠ b0 := fun e => hdisj a0 ha0 (e ▸ hb0)
  have hmono : ∀ (S : Finset field_t), (∀ c ∈ S, owns g p c) →
      ∀ a b, SConn S a b → Conn g p a b := by
    intro S hS a b hab
    exact Relation.ReflTransGen.mono
      (fun c d hcd => ⟨hcd.1, hS c hcd.2.1, hS d hcd.2.2⟩) hab
  have hAo : ∀ c ∈ A, owns g p c := fun c hc => (hmem c).mpr (Or.inl hc)
  have hBo : ∀ c ∈ B, owns g p c := fun c hc => (hmem c).mpr (Or.inr hc)
  have hcard : ({a0, b0} : Finset field_t).card = 2 := Finset.card_pair hne
  rw [← hcard]
  apply card_area_eq ({a0, b0} : Finset field_t) (fun c => if c ∈ A then a0 else b0)
  · intro c _
    by_cases hc : c ∈ A
    · simp [hc]
    · simp [hc]
  · intro r hr
    rw [Finset.mem_insert, Finset.mem_singleton] at hr
    rcases hr with e | e
    · subst e
      exact ⟨hAo r ha0, if_pos ha0⟩
    · subst e
      exact ⟨hBo r hb0, if_neg (fun h => hdisj r h hb0)⟩
  · intro c hc
    by_cases hcA : c ∈ A
    · simp only [hcA, if_true]
      exact (hmono A hAo a0 c (hconnA c hcA)).conn_symm
    · simp only [hcA, if_false]
      have hcB : c ∈ B := ((hmem c).mp hc).resolve_left hcA
      exact (hmono B hBo b0 c (hconnB c hcB)).conn_symm
  · intro a b ha hb hab
    by_cases haA : a ∈ A <;> by_cases hbA : b ∈ A
    · simp [haA, hbA]
    · have hbB : b ∈ B := ((hmem b).mp hb).resolve_left hbA
      exact absurd hab (hsep a haA b hbB)
    · have haB : a ∈ B := ((hmem a).mp ha).resolve_left haA
      exact absurd (adjacent_symm hab) (hsep b hbA a haB)
    · simp [haA, hbA]

/-- C20: scenario B (split). In every reachable state in which player 1 owns exactly six
cells, if player 2 makes a successful `gamma_golden_move` onto a cell of player 1 whose
removal leaves the five remaining cells of player 1 in two edge-connected parts `A` and `B`
(each connected from a base cell, no cell of `A` next to a cell of `B`), then afterwards
`gamma_player_areas(1) = 2` and `gamma_busy_fields(1) = 5`. That the six cells formed one
area before the move is not needed for the conclusion. -/
theorem scenario_b_split (g : gamma) (x y : Nat) (A B : Finset field_t) (a0 b0 : field_t)
    (hR : Reachable g) (hbusy : gamma_busy_fields g 1 = 6) (hown : g.player_arr x y = 1)
    (ht : (gamma_golden_move g 2 x y).1 = true)
    (hcells : (cells_of g 1).erase { x := x, y := y } = A ∪ B)
    (ha0 : a0 ∈ A) (hb0 : b0 ∈ B) (hdisj : ∀ a ∈ A, a ∉ B)
    (hconnA : ∀ a ∈ A, SConn A a0 a) (hconnB : ∀ b ∈ B, SConn B b0 b)
    (hsep : ∀ a ∈ A, ∀ b ∈ B, ¬ adjacent a b) :
    gamma_player_areas (gamma_golden_move g 2 x y).2 1 = 2 ∧
    gamma_busy_fields (gamma_golden_move g 2 x y).2 1 = 5 ∧
    (A ∪ B).card = 5 := by
  have hI := hR.reach_inv
  obtain ⟨s1, s2, _, s4⟩ := gamma_golden_move_spec hI 2 x y
  obtain ⟨_, hp, hb, _, _, _, _⟩ := s2.mp ht
  obtain ⟨t1, t2⟩ := s4 ht
  have hqv : valid_player g 1 := ⟨Nat.le_refl 1, by have := hp.2; omega⟩
  have hcard6 : (cells_of g 1).card = 6 := by
    rw [← hI.core.busy_eq 1 hqv, ← gamma_busy_fields_eq hqv]; exact hbusy
  have hmem0 : ({ x := x, y := y } : field_t) ∈ cells_of g 1 := mem_cells_of.mpr ⟨hb, hown⟩
  generalize gamma_golden_move g 2 x y = r at s1 t1 t2 ⊢
  have hq1 : valid_player r.2 1 := by
    unfold valid_player at hqv ⊢
    rw [t1.num_of_players]
    exact hqv
  obtain ⟨_, _, _, e4, _, _⟩ := @reassigned_effect g r.2 2 1 { x := x, y := y }
    hI.core s1.core hp hqv (by decide) ⟨hb, hown⟩ t1.width t1.height t1.num_of_players t2
  have hbd : ∀ c, on_board r.2 c ↔ on_board g c := by
    intro c; unfold on_board; rw [t1.width, t1.height]; rfl
  have hcells1 : cells_of r.2 1 = A ∪ B := by
    rw [← hcells]
    exact cells_of_reassigned_old (by decide) hbd (owner_of_reassigned t2)
  refine ⟨?_, by omega, ?_⟩
  · rw [gamma_player_areas_eq s1 hq1, s1.core.areas_card hq1]
    exact area_card_two hcells1 ha0 hb0 hdisj hconnA hconnB hsep
  · rw [← hcells, Finset.card_erase_of_mem hmem0, hcard6]

theorem scenario_b_split_witness :
    Reachable (gamma_move (gamma_move (gamma_move (gamma_move (gamma_move
      (gamma_move new_6x1 1 0 0).2 1 1 0).2 1 2 0).2 1 3 0).2 1 4 0).2 1 5 0).2 ∧
    gamma_busy_fields (gamma_move (gamma_move (gamma_move (gamma_move (gamma_move
      (gamma_move new_6x1 1 0 0).2 1 1 0).2 1 2 0).2 1 3 0).2 1 4 0).2 1 5 0).2 1 = 6 ∧
    gamma_player_areas (gamma_move (gamma_move (gamma_move (gamma_move (gamma_move
      (gamma_move new_6x1 1 0 0).2 1 1 0).2 1 2 0).2 1 3 0).2 1 4 0).2 1 5 0).2 1 = 1 ∧
    (gamma_golden_move (gamma_move (gamma_move (gamma_move (gamma_move (gamma_move
      (gamma_move new_6x1 1 0 0).2 1 1 0).2 1 2 0).2 1 3 0).2 1 4 0).2 1 5 0).2 2 2 0).1
        = true ∧
    (gamma_player_areas (gamma_golden_move (gamma_move (gamma_move (gamma_move (gamma_move
      (gamma_move (gamma_move new_6x1 1 0 0).2 1 1 0).2 1 2 0).2 1 3 0).2 1 4 0).2
        1 5 0).2 2 2 0).2 1 = 2 ∧
    gamma_busy_fields (gamma_golden_move (gamma_move (gamma_move (gamma_move (gamma_move
      (gamma_move (gamma_move new_6x1 1 0 0).2 1 1 0).2 1 2 0).2 1 3 0).2 1 4 0).2
        1 5 0).2 2 2 0).2 1 = 5 ∧
    (({ { x := 0, y := 0 }, { x := 1, y := 0 } } : Finset field_t) ∪
      { { x := 3, y := 0 }, { x := 4, y := 0 }, { x := 5, y := 0 } }).card = 5) :=
  ⟨Reachable.move _ 1 5 0 (Reachable.move _ 1 4 0 (Reachable.move _ 1 3 0
      (Reachable.move _ 1 2 0 (Reachable.move _ 1 1 0 (Reachable.move _ 1 0 0
        (Reachable.new 6 1 2 2 new_6x1 (by decide) (by decide) (by decide) (by decide)
          (Option.some_get _).symm)))))),
    by decide, by decide, by decide,
    scenario_b_split _ 2 0 { { x := 0, y := 0 }, { x := 1, y := 0 } }
      { { x := 3, y := 0 }, { x := 4, y := 0 }, { x := 5, y := 0 } }
      { x := 0, y := 0 } { x := 4, y := 0 }
      (Reachable.move _ 1 5 0 (Reachable.move _ 1 4 0 (Reachable.move _ 1 3 0
        (Reachable.move _ 1 2 0 (Reachable.move _ 1 1 0 (Reachable.move _ 1 0 0
          (Reachable.new 6 1 2 2 new_6x1 (by decide) (by decide) (by decide) (by decide)
            (Option.some_get _).symm)))))))
      (by decide) (by decide) (by decide) (by decide) (by decide) (by decide) (by decide)
      (by
        intro a ha
        rw [Finset.mem_insert, Finset.mem_singleton] at ha
        rcases ha with e | e
        · rw [e]; exact Relation.ReflTransGen.refl
        · rw [e]; exact Relation.ReflTransGen.single ⟨by decide, by decide, by decide⟩)
      (by
        intro b hb
        rw [Finset.mem_insert, Finset.mem_insert, Finset.mem_singleton] at hb
        rcases hb with e | e | e
        · rw [e]; exact Relation.ReflTransGen.single ⟨by decide, by decide, by decide⟩
        · rw [e]; exact Relation.ReflTransGen.refl
        · rw [e]; exact Relation.ReflTransGen.single ⟨by decide, by decide, by decide⟩)
      (by decide)⟩

/-! ## `gamma_new` and the queries on an invalid player -/

theorem gamma_new_eq_none_iff (width height players areas : Nat) :
    gamma_new width height players areas = none ↔
      (width = 0 ∨ height = 0 ∨ players = 0 ∨ areas = 0) := by
  unfold gamma_new
  by_cases hc : width < 1 ∨ height < 1 ∨ players < 1 ∨ areas < 1
  · rw [if_pos hc]
    exact ⟨fun _ => by omega, fun _ => rfl⟩
  · rw [if_neg hc]
    refine ⟨fun h => absurd h (by simp), fun h => absurd ?_ hc⟩
    omega

/-- C21: setting allocation failure aside, `gamma_new(width, height, players, areas)`
returns no instance if and only if at least one of the four arguments is 0; otherwise the
new game has every cell unowned, and for every valid player `p` the queries give
`gamma_busy_fields(p) = 0`, `gamma_player_areas(p) = 0`, `gamma_golden_possible(p) = false`
and `gamma_free_fields(p) = width * height`, the exact product without wraparound, and
`gamma_max_areas` returns `areas`. -/
theorem gamma_new_spec (width height players areas : Nat) (hw : width < UINT32_MOD)
    (hh : height < UINT32_MOD) (hn : players < UINT32_MOD) (ha : areas < UINT32_MOD) :
    (gamma_new width height players areas = none ↔
      (width = 0 ∨ height = 0 ∨ players = 0 ∨ areas = 0)) ∧
    ∀ g, gamma_new width height players areas = some g →
      (∀ x y, g.player_arr x y = 0) ∧ gamma_max_areas g = areas ∧
      ∀ p, valid_player g p →
        gamma_busy_fields g p = 0 ∧ gamma_player_areas g p = 0 ∧
        (gamma_golden_possible g p).1 = false ∧
        gamma_free_fields g p = width * height := by
  refine ⟨gamma_new_eq_none_iff width height players areas, ?_⟩
  intro g hnew
  have hI := gamma_new_inv hw hh hn ha hnew
  have hmax := gamma_new_max hnew
  have hnew2 := hnew
  unfold gamma_new at hnew2
  by_cases hc : width < 1 ∨ height < 1 ∨ players < 1 ∨ areas < 1
  · rw [if_pos hc] at hnew2
    exact absurd hnew2 (by simp)
  rw [if_neg hc] at hnew2
  have hg := Option.some.inj hnew2
  have e1 : g.width = width := by rw [← hg]
  have e2 : g.height = height := by rw [← hg]
  have e5 : g.empty_fields = (width * height) % UINT64_MOD := by rw [← hg]
  have e6 : ∀ i, g.players i =
      { has_played_golden_move := false, num_of_areas := 0, busy_fields := 0 } := by
    intro i; rw [← hg]
  have e7 : ∀ x y, g.player_arr x y = 0 := by intro x y; rw [← hg]
  clear hnew2 hg
  have hbound := board_bound hI.core.width_lt hI.core.height_lt
  rw [e1, e2] at hbound
  refine ⟨e7, hmax, ?_⟩
  intro p hp
  refine ⟨?_, ?_, ?_, ?_⟩
  · rw [gamma_busy_fields_eq hp, e6]
  · rw [gamma_player_areas_eq hI hp, e6]
  · have hno : ¬ (gamma_golden_possible g p).1 = true := by
      intro ht
      obtain ⟨_, x, y, hok⟩ := (gamma_golden_possible_spec hI p).2.2.mp ht
      exact hok.2.2.2.1 (e7 x y)
    cases hb : (gamma_golden_possible g p).1
    · rfl
    · exact absurd hb hno
  · have hlt : (g.players (p - 1)).num_of_areas < g.max_num_of_areas := by
      rw [e6, hmax]
      change 0 < areas
      omega
    rw [(gamma_free_fields_spec hI.core.width_lt hI.core.height_lt hp).1 hlt, e5]
    exact Nat.mod_eq_of_lt (by omega)

theorem gamma_new_spec_witness :
    (65536 < UINT32_MOD ∧ 65537 < UINT32_MOD ∧ 3 < UINT32_MOD ∧ 2 < UINT32_MOD) ∧
    ((gamma_new 65536 65537 3 2 = none ↔ (65536 = 0 ∨ 65537 = 0 ∨ 3 = 0 ∨ 2 = 0)) ∧
    ∀ g, gamma_new 65536 65537 3 2 = some g →
      (∀ x y, g.player_arr x y = 0) ∧ gamma_max_areas g = 2 ∧
      ∀ p, valid_player g p →
        gamma_busy_fields g p = 0 ∧ gamma_player_areas g p = 0 ∧
        (gamma_golden_possible g p).1 = false ∧
        gamma_free_fields g p = 65536 * 65537) :=
  ⟨⟨by decide, by decide, by decide, by decide⟩,
    gamma_new_spec 65536 65537 3 2 (by decide) (by decide) (by decide) (by decide)⟩

/-- C25: for every state and every player number `p` that is 0 or greater than the player
count, the queries report the zero or false sentinel and change nothing:
`gamma_busy_fields(p) = 0`, `gamma_free_fields(p) = 0`, `gamma_player_areas(p) = 0` and
`gamma_golden_possible(p)` returns false and leaves the state as it is. -/
theorem invalid_player_queries (g : gamma) (p : Nat) (hp : p = 0 ∨ g.num_of_players < p) :
    gamma_busy_fields g p = 0 ∧ gamma_free_fields g p = 0 ∧ gamma_player_areas g p = 0 ∧
    (gamma_golden_possible g p).1 = false ∧ (gamma_golden_possible g p).2 = g := by
  have hw : wrong_player p g = true := by
    unfold wrong_player
    rw [Bool.or_eq_true, decide_eq_true_eq, decide_eq_true_eq]
    omega
  refine ⟨?_, ?_, ?_, ?_, ?_⟩
  · unfold gamma_busy_fields; rw [if_pos hw]
  · unfold gamma_free_fields; rw [if_pos hw]
  · unfold gamma_player_areas; rw [if_pos hw]
  · rw [gamma_golden_possible_unfold, if_pos hw]
  · rw [gamma_golden_possible_unfold, if_pos hw]

theorem invalid_player_queries_witness :
    (3 = 0 ∨ ((gamma_move new_2x2 1 0 0).2).num_of_players < 3) ∧
    (gamma_busy_fields (gamma_move new_2x2 1 0 0).2 3 = 0 ∧
      gamma_free_fields (gamma_move new_2x2 1 0 0).2 3 = 0 ∧
      gamma_player_areas (gamma_move new_2x2 1 0 0).2 3 = 0 ∧
      (gamma_golden_possible (gamma_move new_2x2 1 0 0).2 3).1 = false ∧
      (gamma_golden_possible (gamma_move new_2x2 1 0 0).2 3).2 =
        (gamma_move new_2x2 1 0 0).2) :=
  ⟨Or.inr (by decide), invalid_player_queries _ 3 (Or.inr (by decide))⟩

/-- C27: in every reachable state and for every valid player `p`, the stored area count of
`p` equals the number of distinct roots among the cells of `p`, that is the number of cells
owned by `p` that are their own parent. -/
theorem area_count_eq_roots (g : gamma) (p : Nat) (hR : Reachable g)
    (hp : valid_player g p) :
    (g.players (p - 1)).num_of_areas =
      ((board g).filter (fun c => owner g c = p ∧ par g c = c)).card ∧
    (g.players (p - 1)).num_of_areas =
      Set.ncard { c : field_t | owns g p c ∧ par g c = c } ∧
    gamma_player_areas g p = Set.ncard { c : field_t | owns g p c ∧ par g c = c } := by
  have hI := hR.reach_inv
  have h1 : (g.players (p - 1)).num_of_areas =
      ((board g).filter (fun c => owner g c = p ∧ par g c = c)).card := hI.core.areas_eq p hp
  have h2 : ((board g).filter (fun c => owner g c = p ∧ par g c = c)).card =
      Set.ncard { c : field_t | owns g p c ∧ par g c = c } := by
    rw [← Set.ncard_coe_Finset]
    congr 1
    ext c
    simp only [Finset.coe_filter, Set.mem_setOf_eq, mem_board, owns, and_assoc]
  exact ⟨h1, h1.trans h2, (gamma_player_areas_eq hI hp).trans (h1.trans h2)⟩

theorem area_count_eq_roots_witness :
    Reachable (gamma_move new_2x2 1 0 0).2 ∧ valid_player (gamma_move new_2x2 1 0 0).2 1 ∧
    ((((gamma_move new_2x2 1 0 0).2).players (1 - 1)).num_of_areas =
      ((board (gamma_move new_2x2 1 0 0).2).filter (fun c =>
        owner (gamma_move new_2x2 1 0 0).2 c = 1 ∧
          par (gamma_move new_2x2 1 0 0).2 c = c)).card ∧
    (((gamma_move new_2x2 1 0 0).2).players (1 - 1)).num_of_areas =
      Set.ncard { c : field_t | owns (gamma_move new_2x2 1 0 0).2 1 c ∧
        par (gamma_move new_2x2 1 0 0).2 c = c } ∧
    gamma_player_areas (gamma_move new_2x2 1 0 0).2 1 =
      Set.ncard { c : field_t | owns (gamma_move new_2x2 1 0 0).2 1 c ∧
        par (gamma_move new_2x2 1 0 0).2 c = c }) :=
  ⟨Reachable.move _ 1 0 0 new_2x2_reachable, ⟨by decide, by decide⟩,
    area_count_eq_roots _ 1 (Reachable.move _ 1 0 0 new_2x2_reachable)
      ⟨by decide, by decide⟩⟩

/-! ## Parent chains -/

theorem chain_zero (g : gamma) (c : field_t) : chain g c 0 = c := rfl

theorem chain_succ (g : gamma) (c : field_t) (k : Nat) :
    chain g c (k + 1) = chain g (par g c) k := by
  unfold chain
  exact Function.iterate_succ_apply (par g) k c

theorem chain_succ_par (g : gamma) (c : field_t) (k : Nat) :
    chain g c (k + 1) = par g (chain g c k) := by
  unfold chain
  exact Function.iterate_succ_apply' (par g) k c

theorem chain_live {g : gamma} {D : field_t → Prop} {rep : field_t → field_t}
    {rk : field_t → Nat} (hF : ForestOn g D rep rk) {c : field_t} (hc : live g D c) :
    ∀ k, live g D (chain g c k) ∧ owner g (chain g c k) = owner g c ∧
      rep (chain g c k) = rep c := by
  intro k
  induction k with
  | zero => exact ⟨hc, rfl, rfl⟩
  | succ k ih =>
    rw [chain_succ_par]
    obtain ⟨i1, i2, i3⟩ := ih
    have h1 := hF.par_live _ i1
    exact ⟨h1.1, h1.2.trans i2, (hF.rep_par _ i1).trans i3⟩

theorem chain_of_root {g : gamma} {c : field_t} (h : par g c = c) (k : Nat) :
    chain g c k = c := by
  induction k with
  | zero => rfl
  | succ k ih => rw [chain_succ, h, ih]

/-- The cells of the owner of `c` ranked above `c`: the measure of the parent chain. -/
theorem rank_above_card_lt {g : gamma} {D : field_t → Prop} {rep : field_t → field_t}
    {rk : field_t → Nat} (hF : ForestOn g D rep rk) {c : field_t} (hc : live g D c)
    (hne : par g c ≠ c) :
    ((cells_of g (owner g (par g c))).filter (fun e => rk (par g c) < rk e)).card <
      ((cells_of g (owner g c)).filter (fun e => rk c < rk e)).card := by
  have hp := hF.par_live c hc
  have hlt := hF.rank_lt c hc hne
  apply Finset.card_lt_card
  rw [Finset.ssubset_iff_of_subset]
  · refine ⟨par g c, ?_, ?_⟩
    · rw [Finset.mem_filter, mem_cells_of]
      exact ⟨⟨hp.1.2.1, hp.2⟩, hlt⟩
    · rw [Finset.mem_filter]
      rintro ⟨_, h⟩
      exact Nat.lt_irrefl _ h
  · intro e he
    rw [Finset.mem_filter, mem_cells_of] at he ⊢
    rw [hp.2] at he
    exact ⟨he.1, Nat.lt_trans hlt he.2⟩

/-- Following parent links reaches a root within as many steps as there are cells ranked
above the start. -/
theorem chain_terminates {g : gamma} {D : field_t → Prop} {rep : field_t → field_t}
    {rk : field_t → Nat} (hF : ForestOn g D rep rk) : ∀ (n : Nat) (c : field_t),
    live g D c → ((cells_of g (owner g c)).filter (fun e => rk c < rk e)).card ≤ n →
    ∃ k, k ≤ n ∧ par g (chain g c k) = chain g c k ∧
      (∀ j, j < k → par g (chain g c j) ≠ chain g c j) ∧
      (∀ i j, i < j → j ≤ k → rk (chain g c i) < rk (chain g c j)) := by
  intro n
  induction n with
  | zero =>
    intro c hc hcard
    have hroot : par g c = c := by
      by_contra hne
      have := rank_above_card_lt hF hc hne
      omega
    exact ⟨0, Nat.le_refl 0, hroot, fun j hj => absurd hj (Nat.not_lt_zero j),
      fun i j hij hj => by omega⟩
  | succ n ih =>
    intro c hc hcard
    by_cases hroot : par g c = c
    · exact ⟨0, Nat.zero_le _, hroot, fun j hj => absurd hj (Nat.not_lt_zero j),
        fun i j hij hj => by omega⟩
    · have hlt := rank_above_card_lt hF hc hroot
      obtain ⟨k, hk1, hk2, hk3, hk4⟩ := ih (par g c) (hF.par_live c hc).1 (by omega)
      refine ⟨k + 1, by omega, ?_, ?_, ?_⟩
      · rw [chain_succ]; exact hk2
      · intro j hj
        cases j with
        | zero => exact hroot
        | succ j =>
          rw [chain_succ]
          exact hk3 j (by omega)
      · intro i j hij hj
        cases j with
        | zero => omega
        | succ j =>
          rw [chain_succ g c j]
          cases i with
          | zero =>
            have h0 : rk c < rk (par g c) := hF.rank_lt c hc hroot
            rw [chain_zero]
            by_cases hj0 : j = 0
            · rw [hj0, chain_zero]; exact h0
            · have := hk4 0 j (by omega) (by omega)
              rw [chain_zero] at this
              exact Nat.lt_trans h0 this
          | succ i =>
            rw [chain_succ g c i]
            exact hk4 i j (by omega) (by omega)

theorem rank_above_card_lt_cells {g : gamma} {D : field_t → Prop} {rk : field_t → Nat}
    {c : field_t} (hc : live g D c) :
    ((cells_of g (owner g c)).filter (fun e => rk c < rk e)).card <
      (cells_of g (owner g c)).card := by
  apply Finset.card_lt_card
  rw [Finset.ssubset_iff_of_subset (Finset.filter_subset _ _)]
  refine ⟨c, mem_cells_of.mpr ⟨hc.2.1, rfl⟩, ?_⟩
  rw [Finset.mem_filter]
  rintro ⟨_, h⟩
  exact Nat.lt_irrefl _ h

/-- The root reached by following parent links is the root given by the forest. -/
theorem reaches_root_iff {g : gamma} {D : field_t → Prop} {rep : field_t → field_t}
    {rk : field_t → Nat} (hF : ForestOn g D rep rk) {a : field_t} (ha : live g D a)
    (r : field_t) : reaches_root g a r ↔ r = rep a := by
  constructor
  · rintro ⟨k, hk, hr⟩
    obtain ⟨l1, _, l3⟩ := chain_live hF ha k
    rw [hk] at l1 l3
    rw [← l3]
    exact (hF.rep_self r l1 hr).symm
  · intro e
    obtain ⟨k, _, hk, _, _⟩ := chain_terminates hF _ a ha (Nat.le_refl _)
    obtain ⟨l1, _, l3⟩ := chain_live hF ha k
    have : chain g a k = rep a := by
      rw [← l3]
      exact (hF.rep_self _ l1 hk).symm
    refine ⟨k, by rw [e]; exact this, ?_⟩
    rw [e]
    exact hF.rep_root a ha

/-- Two forests on the same parent links have the same roots. -/
theorem rep_unique {g : gamma} {D : field_t → Prop} {rep rep1 : field_t → field_t}
    {rk rk1 : field_t → Nat} (hF : ForestOn g D rep rk) (hF1 : ForestOn g D rep1 rk1)
    {c : field_t} (hc : live g D c) : rep1 c = rep c :=
  (reaches_root_iff hF hc (rep1 c)).mp ((reaches_root_iff hF1 hc (rep1 c)).mpr rfl)

/-- C28: in every reachable state and for every owned cell `c`, following parent links from
`c` never cycles: after `k` steps, with `k` below the number of cells of the owner of `c`
(hence at most the number of owned cells), it reaches a cell that is its own parent; the
cells of the chain are pairwise distinct, lie on the board and are owned by the owner of
`c`. -/
theorem parent_chain_terminates (g : gamma) (c : field_t) (hR : Reachable g)
    (hb : on_board g c) (ho : owner g c ≠ 0) :
    ∃ k, k < (cells_of g (owner g c)).card ∧ par g (chain g c k) = chain g c k ∧
      (∀ j, j < k → par g (chain g c j) ≠ chain g c j) ∧
      (∀ j, j ≤ k → on_board g (chain g c j) ∧ owner g (chain g c j) = owner g c) ∧
      (∀ i j, i < j → j ≤ k → chain g c i ≠ chain g c j) := by
  obtain ⟨rep, rk, hF⟩ := hR.reach_inv.core.forest
  have hc : live g (fun _ => True) c := ⟨trivial, hb, ho⟩
  obtain ⟨k, hk1, hk2, hk3, hk4⟩ := chain_terminates hF _ c hc (Nat.le_refl _)
  have hlt := @rank_above_card_lt_cells g (fun _ => True) rk c hc
  refine ⟨k, by omega, hk2, hk3, ?_, ?_⟩
  · intro j _
    obtain ⟨l1, l2, _⟩ := chain_live hF hc j
    exact ⟨l1.2.1, l2⟩
  · intro i j hij hj e
    have := hk4 i j hij hj
    rw [e] at this
    exact Nat.lt_irrefl _ this

theorem parent_chain_terminates_witness :
    Reachable (gamma_move (gamma_move new_2x2 1 0 0).2 1 0 1).2 ∧
    on_board (gamma_move (gamma_move new_2x2 1 0 0).2 1 0 1).2 { x := 0, y := 1 } ∧
    owner (gamma_move (gamma_move new_2x2 1 0 0).2 1 0 1).2 { x := 0, y := 1 } ≠ 0 ∧
    ∃ k, k < (cells_of (gamma_move (gamma_move new_2x2 1 0 0).2 1 0 1).2
        (owner (gamma_move (gamma_move new_2x2 1 0 0).2 1 0 1).2 { x := 0, y := 1 })).card ∧
      par (gamma_move (gamma_move new_2x2 1 0 0).2 1 0 1).2
        (chain (gamma_move (gamma_move new_2x2 1 0 0).2 1 0 1).2 { x := 0, y := 1 } k) =
        chain (gamma_move (gamma_move new_2x2 1 0 0).2 1 0 1).2 { x := 0, y := 1 } k ∧
      (∀ j, j < k → par (gamma_move (gamma_move new_2x2 1 0 0).2 1 0 1).2
        (chain (gamma_move (gamma_move new_2x2 1 0 0).2 1 0 1).2 { x := 0, y := 1 } j) ≠
        chain (gamma_move (gamma_move new_2x2 1 0 0).2 1 0 1).2 { x := 0, y := 1 } j) ∧
      (∀ j, j ≤ k →
        on_board (gamma_move (gamma_move new_2x2 1 0 0).2 1 0 1).2
          (chain (gamma_move (gamma_move new_2x2 1 0 0).2 1 0 1).2 { x := 0, y := 1 } j) ∧
        owner (gamma_move (gamma_move new_2x2 1 0 0).2 1 0 1).2
          (chain (gamma_move (gamma_move new_2x2 1 0 0).2 1 0 1).2 { x := 0, y := 1 } j) =
          owner (gamma_move (gamma_move new_2x2 1 0 0).2 1 0 1).2 { x := 0, y := 1 }) ∧
      (∀ i j, i < j → j ≤ k →
        chain (gamma_move (gamma_move new_2x2 1 0 0).2 1 0 1).2 { x := 0, y := 1 } i ≠
        chain (gamma_move (gamma_move new_2x2 1 0 0).2 1 0 1).2 { x := 0, y := 1 } j) :=
  ⟨Reachable.move _ 1 0 1 (Reachable.move _ 1 0 0 new_2x2_reachable),
    ⟨by decide, by decide⟩, by decide,
    parent_chain_terminates _ { x := 0, y := 1 }
      (Reachable.move _ 1 0 1 (Reachable.move _ 1 0 0 new_2x2_reachable))
      ⟨by decide, by decide⟩ (by decide)⟩

/-! ## The forest and the areas -/

theorem same_root_iff_rep {g : gamma} {rep : field_t → field_t} {rk : field_t → Nat}
    (hF : ForestOn g (fun _ => True) rep rk) {a b : field_t}
    (ha : live g (fun _ => True) a) (hb : live g (fun _ => True) b) :
    same_root g a b ↔ rep a = rep b := by
  constructor
  · rintro ⟨r, h1, h2⟩
    rw [reaches_root_iff hF ha] at h1
    rw [reaches_root_iff hF hb] at h2
    exact h1.symm.trans h2
  · intro e
    exact ⟨rep a, (reaches_root_iff hF ha _).mpr rfl, (reaches_root_iff hF hb _).mpr e⟩

theorem same_root_iff_conn {g : gamma} (hC : Core g) {a b : field_t}
    (ha : on_board g a ∧ owner g a ≠ 0) (hb : on_board g b ∧ owner g b ≠ 0) :
    same_root g a b ↔ (owner g a = owner g b ∧ Conn g (owner g a) a b) := by
  obtain ⟨rep, rk, hF⟩ := hC.forest
  have la : live g (fun _ => True) a := ⟨trivial, ha.1, ha.2⟩
  have lb : live g (fun _ => True) b := ⟨trivial, hb.1, hb.2⟩
  rw [same_root_iff_rep hF la lb]
  constructor
  · intro e
    have ho : owner g a = owner g b := by
      rw [← (hF.rep_live a la).2, ← (hF.rep_live b lb).2, e]
    refine ⟨ho, (hF.rep_conn a la).conn_trans ?_⟩
    rw [e, ho]
    exact (hF.rep_conn b lb).conn_symm
  · rintro ⟨_, hc⟩
    exact hF.rep_of_conn ha.2 hc

/-- C26: in every reachable state and for any two owned cells `a` and `b`, following
parent links from `a` and from `b` reaches the same root exactly when `a` and `b` have the
same owner and are connected by a path of edge-adjacent cells of that owner; and after a
`gamma_golden_move` that returns false the two cells reach a common root exactly when they
did before the call. -/
theorem forest_represents_areas (g : gamma) (a b : field_t) (hR : Reachable g)
    (ha : on_board g a ∧ owner g a ≠ 0) (hb : on_board g b ∧ owner g b ≠ 0) :
    (same_root g a b ↔ (owner g a = owner g b ∧ Conn g (owner g a) a b)) ∧
    ∀ p x y, (gamma_golden_move g p x y).1 = false →
      (same_root (gamma_golden_move g p x y).2 a b ↔ same_root g a b) := by
  refine ⟨same_root_iff_conn hR.reach_inv.core ha hb, ?_⟩
  intro p x y hf
  obtain ⟨hI, _, hso, _⟩ := gamma_golden_move_spec hR.reach_inv p x y
  have hs := hso hf
  generalize (gamma_golden_move g p x y).2 = g1 at hI hs
  obtain ⟨hw, hh, _, _, _, _, hp⟩ := hs
  have eo : ∀ c, owner g1 c = owner g c := fun c => by unfold owner; rw [hp]
  have eb : ∀ c, on_board g1 c ↔ on_board g c := fun c => by unfold on_board; rw [hw, hh]
  rw [same_root_iff_conn hI.core ⟨(eb a).mpr ha.1, by rw [eo]; exact ha.2⟩
    ⟨(eb b).mpr hb.1, by rw [eo]; exact hb.2⟩, same_root_iff_conn hR.reach_inv.core ha hb,
    eo, eo, Conn_congr hw hh hp]

/-! ## Decimal helpers -/

theorem digits_length_le_of_lt {n : Nat} (h : n < UINT64_MOD) : (Nat.digits 10 n).length ≤ 20 := by
  by_cases hn : n = 0
  · subst hn; simp
  · by_contra hlen
    have h1 := Nat.base_pow_length_digits_le 10 n (by omega) hn
    have h2 : 10 ^ 21 ≤ 10 ^ (Nat.digits 10 n).length :=
      Nat.pow_le_pow_right (by omega) (by omega)
    have h3 : UINT64_MOD = 18446744073709551616 := by decide
    have h4 : (10 : Nat) ^ 21 = 1000000000000000000000 := by norm_num
    omega

theorem digit_count_loop_eq : ∀ (fuel n count : Nat), (Nat.digits 10 n).length ≤ fuel →
    count + (Nat.digits 10 n).length < UINT32_MOD →
    digit_count_loop fuel n count = count + (Nat.digits 10 n).length := by
  intro fuel
  induction fuel with
  | zero =>
    intro n count h _
    have : (Nat.digits 10 n).length = 0 := by omega
    rw [this]
    rfl
  | succ fuel ih =>
    intro n count h hc
    unfold digit_count_loop
    by_cases hn : n = 0
    · subst hn
      simp
    · rw [if_neg hn]
      have hd := Nat.digits_def' (b := 10) (by omega) (Nat.pos_of_ne_zero hn)
      rw [hd] at h hc ⊢
      rw [List.length_cons] at h hc ⊢
      rw [Nat.mod_eq_of_lt (by omega), ih (n / 10) (count + 1) (by omega) (by omega)]
      omega

/-- For a positive `n` below `2^64`, `digit_count` is the number of decimal digits. -/
theorem digit_count_eq {n : Nat} (hn : n ≠ 0) (h : n < UINT64_MOD) :
    digit_count n = (Nat.digits 10 n).length := by
  unfold digit_count
  rw [if_neg hn]
  have hl := digits_length_le_of_lt h
  have h3 : UINT32_MOD = 4294967296 := by decide
  rw [digit_count_loop_eq 20 n 0 hl (by omega)]
  omega

theorem digit_count_zero : digit_count 0 = 1 := rfl

theorem digit_count_pos {n : Nat} (h : n < UINT64_MOD) : 1 ≤ digit_count n := by
  by_cases hn : n = 0
  · subst hn; exact Nat.le_refl 1
  · rw [digit_count_eq hn h]
    have hne : Nat.digits 10 n ≠ [] := Nat.digits_ne_nil_iff_ne_zero.mpr hn
    exact List.length_pos.mpr hne

theorem digit_count_le_20 {n : Nat} (h : n < UINT64_MOD) : digit_count n ≤ 20 := by
  by_cases hn : n = 0
  · subst hn; decide
  · rw [digit_count_eq hn h]
    exact digits_length_le_of_lt h

theorem digit_count_mono {n m : Nat} (hn : n ≠ 0) (hnm : n ≤ m) (hm : m < UINT64_MOD) :
    digit_count n ≤ digit_count m := by
  rw [digit_count_eq hn (by omega), digit_count_eq (by omega) hm]
  exact Nat.le_digits_len_le 10 n m hnm

theorem decimal_step {n : Nat} (hn : n ≠ 0) :
    decimal n = decimal (n / 10) ++ [Char.ofNat (n % 10 + 48)] := by
  unfold decimal
  rw [Nat.digits_def' (b := 10) (by omega) (Nat.pos_of_ne_zero hn)]
  simp

theorem decimal_length (n : Nat) : (decimal n).length = (Nat.digits 10 n).length := by
  unfold decimal
  simp

/-- The digits written by `write_int` are the decimal digits of the number. -/
theorem write_int_digits_eq : ∀ (k n : Nat), (Nat.digits 10 n).length = k →
    write_int_digits k n = decimal n := by
  intro k
  induction k with
  | zero =>
    intro n h
    have : n = 0 := Nat.digits_eq_nil_iff_eq_zero.mp (List.length_eq_zero.mp h)
    subst this
    simp [write_int_digits, decimal]
  | succ k ih =>
    intro n h
    have hn : n ≠ 0 := by
      rintro rfl
      simp at h
    unfold write_int_digits
    rw [decimal_step hn, ih (n / 10)]
    rw [Nat.digits_def' (b := 10) (by omega) (Nat.pos_of_ne_zero hn), List.length_cons] at h
    omega

theorem write_int_digits_length (k n : Nat) : (write_int_digits k n).length = k := by
  induction k generalizing n with
  | zero => rfl
  | succ k ih =>
    unfold write_int_digits
    rw [List.length_append, ih]
    rfl

/-- The width of the interactive rendering in terms of the decimal digits of the number of
players. -/
theorem field_width_interactive_eq {g : gamma} (h0 : 1 ≤ g.num_of_players)
    (h1 : g.num_of_players < UINT32_MOD) :
    gamma_field_width_interactive g =
      if (Nat.digits 10 g.num_of_players).length = 1 then 1
      else (Nat.digits 10 g.num_of_players).length + 1 := by
  have h3 : UINT32_MOD = 4294967296 := by decide
  have h4 : UINT64_MOD = 18446744073709551616 := by decide
  have hlt : g.num_of_players < UINT64_MOD := by omega
  have hd := digit_count_eq (n := g.num_of_players) (by omega) hlt
  have hp := digit_count_pos hlt
  have hl := digit_count_le_20 hlt
  unfold gamma_field_width_interactive
  simp only
  rw [hd] at hp hl ⊢
  by_cases c : (Nat.digits 10 g.num_of_players).length = 1
  · rw [if_pos c, c]
    rfl
  · rw [if_neg c, if_pos (by omega), Nat.mod_eq_of_lt (by omega)]

/-! ## The field widths of the two renderings -/

theorem gamma_golden_move_players {g : gamma} (hI : Inv g) (p x y : Nat) :
    (gamma_golden_move g p x y).2.num_of_players = g.num_of_players := by
  obtain ⟨_, _, s3, s4⟩ := gamma_golden_move_spec hI p x y
  generalize gamma_golden_move g p x y = r at s3 s4
  obtain ⟨b, h⟩ := r
  cases b
  · exact (s3 rfl).2.2.1
  · exact (s4 rfl).1.num_of_players

/-- The number of players is never changed by the public calls. -/
theorem Steps.players_eq {g0 g : gamma} (hs : Steps g0 g) (h0 : Reachable g0) :
    g.num_of_players = g0.num_of_players := by
  induction hs with
  | start => rfl
  | move g player x y hs ih =>
    rw [(gamma_move_shape (hs.reachable h0).reach_inv player x y).num_of_players, ih]
  | golden_move g player x y hs ih =>
    rw [gamma_golden_move_players (hs.reachable h0).reach_inv player x y, ih]
  | golden_possible g player hs ih =>
    rw [(gamma_golden_possible_spec (hs.reachable h0).reach_inv player).2.1.2.2.1, ih]
  | move_possible g player x y hs ih =>
    rw [(gamma_move_possible_spec (hs.reachable h0).reach_inv player x y).2.2.2.1, ih]

theorem gamma_new_players {width height players areas : Nat} {g : gamma}
    (hnew : gamma_new width height players areas = some g) : g.num_of_players = players := by
  unfold gamma_new at hnew
  by_cases hc : width < 1 ∨ height < 1 ∨ players < 1 ∨ areas < 1
  · rw [if_pos hc] at hnew
    exact absurd hnew (by simp)
  · rw [if_neg hc] at hnew
    rw [← Option.some.inj hnew]

theorem max_width_fold_one (g : gamma) : ∀ l : List Nat,
    (∀ i ∈ l, (g.players i).busy_fields > 0 → digit_count ((i + 1) % UINT32_MOD) ≤ 1) →
    l.foldl (fun mw i =>
      if (g.players i).busy_fields > 0 then
        let d := digit_count ((i + 1) % UINT32_MOD)
        if d > mw then d else mw
      else mw) 1 = 1 := by
  intro l
  induction l with
  | nil => intro _; rfl
  | cons a l ih =>
    intro h
    rw [List.foldl_cons]
    have ha := h a (List.mem_cons_self a l)
    have e : (if (g.players a).busy_fields > 0 then
        let d := digit_count ((a + 1) % UINT32_MOD)
        if d > 1 then d else 1
      else 1) = 1 := by
      by_cases c : (g.players a).busy_fields > 0
      · rw [if_pos c]
        simp only
        rw [if_neg (by have := ha c; omega)]
      · rw [if_neg c]
    rw [e]
    exact ih (fun i hi => h i (List.mem_cons_of_mem a hi))

/-- When every player owning a cell has a one-digit number the compact width is 1. -/
theorem find_max_number_width_one {g : gamma}
    (h : ∀ i, i < g.num_of_players → (g.players i).busy_fields > 0 →
      digit_count ((i + 1) % UINT32_MOD) ≤ 1) : find_max_number_width g = 1 := by
  unfold find_max_number_width
  simp only
  rw [max_width_fold_one g _ (fun i hi => h i (List.mem_range.mp hi))]
  rfl

theorem digit_count_small {n : Nat} (h : n < 10) : digit_count n = 1 := by
  interval_cases n <;> rfl

/-- The field widths passed to the rendering routine: in every state `g` of a session
started by `gamma_new(width, height, players, areas)`, `gamma_board_interactive` calls
`gamma_board_helper` with `gamma_field_width_interactive` and `gamma_board` with the compact
width; the interactive width is 1 when `players` has one decimal digit and the number of
digits plus 1 otherwise, so it is the same in every state of the session; with 10 players
and player 10 owning no cell the compact width is 1 and the interactive width 3. What
`gamma_board_helper` writes for a width is not stated here. -/
theorem interactive_width_fixed (width height players areas : Nat) (g0 g : gamma)
    (hw : width < UINT32_MOD) (hh : height < UINT32_MOD) (hn : players < UINT32_MOD)
    (ha : areas < UINT32_MOD) (hnew : gamma_new width height players areas = some g0)
    (hs : Steps g0 g) :
    gamma_board_interactive g = gamma_board_helper g (gamma_field_width_interactive g) ∧
    gamma_board g = gamma_board_helper g (find_max_number_width g) ∧
    gamma_field_width_interactive g =
      (if (Nat.digits 10 players).length = 1 then 1 else (Nat.digits 10 players).length + 1) ∧
    gamma_field_width_interactive g = gamma_field_width_interactive g0 ∧
    (players = 10 → (∀ c, on_board g c → owner g c ≠ 10) →
      find_max_number_width g = 1 ∧ gamma_field_width_interactive g = 3) := by
  have h0 : Reachable g0 := Reachable.new width height players areas g0 hw hh hn ha hnew
  have hR : Reachable g := hs.reachable h0
  have hp0 : g0.num_of_players = players := gamma_new_players hnew
  have hp : g.num_of_players = players := (hs.players_eq h0).trans hp0
  have hC := hR.reach_inv.core
  have e1 : gamma_field_width_interactive g =
      (if (Nat.digits 10 players).length = 1 then 1 else (Nat.digits 10 players).length + 1) := by
    rw [field_width_interactive_eq hC.players_pos hC.players_lt, hp]
  have e2 : gamma_field_width_interactive g = gamma_field_width_interactive g0 := by
    unfold gamma_field_width_interactive
    rw [hp, hp0]
  refine ⟨rfl, rfl, e1, e2, ?_⟩
  intro h10 hfree
  subst h10
  refine ⟨find_max_number_width_one ?_, ?_⟩
  · intro i hi hb
    rw [hp] at hi
    have h3 : UINT32_MOD = 4294967296 := by decide
    rw [Nat.mod_eq_of_lt (by omega)]
    by_cases h9 : i = 9
    · subst h9
      have hbusy := hC.busy_eq 10 ⟨by omega, by omega⟩
      have hempty : cells_of g 10 = ∅ := by
        apply Finset.eq_empty_of_forall_not_mem
        intro c hc
        rw [mem_cells_of] at hc
        exact hfree c hc.1 hc.2
      rw [hempty, Finset.card_empty] at hbusy
      change (g.players 9).busy_fields = 0 at hbusy
      omega
    · exact Nat.le_of_eq (digit_count_small (by omega))
  · rw [e1]
    norm_num

theorem interactive_width_fixed_witness :
    2 < UINT32_MOD ∧ 2 < UINT32_MOD ∧ 10 < UINT32_MOD ∧ 1 < UINT32_MOD ∧
    gamma_new 2 2 10 1 = some ((gamma_new 2 2 10 1).get rfl) ∧
    Steps ((gamma_new 2 2 10 1).get rfl) (gamma_move ((gamma_new 2 2 10 1).get rfl) 3 0 0).2 ∧
    (gamma_board_interactive (gamma_move ((gamma_new 2 2 10 1).get rfl) 3 0 0).2 =
      gamma_board_helper (gamma_move ((gamma_new 2 2 10 1).get rfl) 3 0 0).2
        (gamma_field_width_interactive (gamma_move ((gamma_new 2 2 10 1).get rfl) 3 0 0).2) ∧
    gamma_board (gamma_move ((gamma_new 2 2 10 1).get rfl) 3 0 0).2 =
      gamma_board_helper (gamma_move ((gamma_new 2 2 10 1).get rfl) 3 0 0).2
        (find_max_number_width (gamma_move ((gamma_new 2 2 10 1).get rfl) 3 0 0).2) ∧
    gamma_field_width_interactive (gamma_move ((gamma_new 2 2 10 1).get rfl) 3 0 0).2 =
      (if (Nat.digits 10 10).length = 1 then 1 else (Nat.digits 10 10).length + 1) ∧
    gamma_field_width_interactive (gamma_move ((gamma_new 2 2 10 1).get rfl) 3 0 0).2 =
      gamma_field_width_interactive ((gamma_new 2 2 10 1).get rfl) ∧
    (10 = 10 →
      (∀ c, on_board (gamma_move ((gamma_new 2 2 10 1).get rfl) 3 0 0).2 c →
        owner (gamma_move ((gamma_new 2 2 10 1).get rfl) 3 0 0).2 c ≠ 10) →
      find_max_number_width (gamma_move ((gamma_new 2 2 10 1).get rfl) 3 0 0).2 = 1 ∧
      gamma_field_width_interactive (gamma_move ((gamma_new 2 2 10 1).get rfl) 3 0 0).2 = 3)) :=
  ⟨by decide, by decide, by decide, by decide, (Option.some_get _).symm,
    Steps.move _ 3 0 0 Steps.start,
    interactive_width_fixed 2 2 10 1 _ _ (by decide) (by decide) (by decide) (by decide)
      (Option.some_get _).symm (Steps.move _ 3 0 0 Steps.start)⟩

/-! ## Rendering: the padding loop and a single field -/

theorem field_text_eq (w o : Nat) :
    field_text w o = cell_text o ++ List.replicate (w - (cell_text o).length) ' ' := rfl

theorem render_ext {a b : render_t} (h1 : a.buffer = b.buffer) (h2 : a.it = b.it) : a = b := by
  cases a; cases b; simp only at h1 h2; rw [h1, h2]

theorem pad_loop_stop (W old fuel : Nat) (r : render_t)
    (h : ¬ (r.it + (UINT64_MOD - old)) % UINT64_MOD < W) : pad_loop W old fuel r = r := by
  cases fuel with
  | zero => rfl
  | succ fuel =>
    unfold pad_loop
    rw [if_neg h]

/-- While the write index has not wrapped past its 32-bit snapshot the loop pads the field
with spaces up to the width `W`. -/
theorem pad_loop_fill (W old : Nat) : ∀ (fuel : Nat) (r : render_t), old ≤ r.it →
    r.it - old ≤ W → W - (r.it - old) ≤ fuel → old + W < UINT64_MOD →
    pad_loop W old fuel r =
      { buffer := r.buffer ++ List.replicate (W - (r.it - old)) ' ', it := old + W } := by
  have h4 : UINT64_MOD = 18446744073709551616 := by decide
  intro fuel
  induction fuel with
  | zero =>
    intro r h1 h2 h3 _
    have e : W - (r.it - old) = 0 := by omega
    rw [e]
    apply render_ext
    · simp [pad_loop]
    · simp only [pad_loop]; omega
  | succ fuel ih =>
    intro r h1 h2 h3 h5
    have hmod : (r.it + (UINT64_MOD - old)) % UINT64_MOD = r.it - old := by
      rw [h4] at h5 ⊢
      omega
    by_cases hc : r.it - old < W
    · unfold pad_loop
      rw [hmod, if_pos hc]
      have hinc : inc64 r.it = r.it + 1 := by
        unfold inc64
        rw [h4] at h5 ⊢
        omega
      rw [hinc, ih _ (by simp only; omega) (by simp only; omega) (by simp only; omega) h5]
      apply render_ext
      · simp only
        have e : W - (r.it - old) = (W - (r.it + 1 - old)) + 1 := by omega
        rw [e, List.replicate_succ, List.append_assoc]
        rfl
      · rfl
    · have e : W - (r.it - old) = 0 := by omega
      rw [pad_loop_stop W old _ r (by rw [hmod]; exact hc), e]
      apply render_ext
      · simp
      · simp only; omega

theorem cell_text_length_pos (o : Nat) : 1 ≤ (cell_text o).length := by
  unfold cell_text
  by_cases h : o = 0
  · rw [if_pos h]; exact Nat.le_refl 1
  · rw [if_neg h, decimal_length]
    exact List.length_pos.mpr (Nat.digits_ne_nil_iff_ne_zero.mpr h)

theorem cell_text_length_le (o : Nat) (ho : o < UINT64_MOD) : (cell_text o).length ≤ 20 := by
  unfold cell_text
  by_cases h : o = 0
  · rw [if_pos h]; decide
  · rw [if_neg h, decimal_length]
    exact digits_length_le_of_lt ho

/-- The state of the rendering after the text of a field and before its padding. -/
theorem board_cell_eq (g : gamma) (W : Nat) (r : render_t) (i j : Nat)
    (ho : g.player_arr j (g.height - i - 1) < UINT64_MOD)
    (hit : r.it + 20 < UINT64_MOD) :
    board_cell g W r i j = pad_loop W (r.it % UINT32_MOD) W
      { buffer := r.buffer ++ cell_text (g.player_arr j (g.height - i - 1)),
        it := r.it + (cell_text (g.player_arr j (g.height - i - 1))).length } := by
  have h4 : UINT64_MOD = 18446744073709551616 := by decide
  unfold board_cell
  simp only
  generalize g.player_arr j (g.height - i - 1) = o at ho
  have hl := cell_text_length_le o ho
  by_cases h : o = 0
  · subst h
    have e1 : (0 : Nat) = NO_PLAYER := rfl
    rw [if_pos e1]
    have hinc : inc64 r.it = r.it + 1 := by
      unfold inc64
      rw [h4] at hit ⊢
      omega
    rw [hinc]
    rfl
  · have e1 : ¬ o = NO_PLAYER := h
    rw [if_neg e1]
    have hd := digit_count_eq h ho
    have hc : cell_text o = decimal o := by unfold cell_text; rw [if_neg h]
    rw [hc] at hl ⊢
    rw [decimal_length] at hl ⊢
    rw [hd, write_int_digits_eq _ o rfl]
    have hm : (r.it + (Nat.digits 10 o).length) % UINT64_MOD =
        r.it + (Nat.digits 10 o).length := by
      rw [h4] at hit ⊢
      omega
    rw [hm]

/-- A field that starts below index `2^32` is padded to the width `W`. -/
theorem board_cell_nowrap (g : gamma) (W : Nat) (r : render_t) (i j : Nat)
    (ho : g.player_arr j (g.height - i - 1) < UINT64_MOD)
    (hit : r.it < UINT32_MOD) (hW : W < UINT32_MOD)
    (hlen : (cell_text (g.player_arr j (g.height - i - 1))).length ≤ W) :
    board_cell g W r i j =
      { buffer := r.buffer ++ field_text W (g.player_arr j (g.height - i - 1)),
        it := r.it + W } := by
  have h3 : UINT32_MOD = 4294967296 := by decide
  have h4 : UINT64_MOD = 18446744073709551616 := by decide
  rw [board_cell_eq g W r i j ho (by omega), Nat.mod_eq_of_lt hit,
    pad_loop_fill W r.it W _ (by simp only; omega) (by simp only; omega) (by simp only; omega)
      (by omega)]
  apply render_ext
  · simp only
    rw [field_text_eq, List.append_assoc, Nat.add_sub_cancel_left]
  · rfl

/-- A field that starts at index `2^32` or later gets no padding at all: the 32-bit
snapshot `old_it` lost the upper bits of the index. -/
theorem board_cell_wrap (g : gamma) (W : Nat) (r : render_t) (i j : Nat)
    (ho : g.player_arr j (g.height - i - 1) < UINT64_MOD)
    (hit : UINT32_MOD ≤ r.it) (hit2 : r.it + 20 < UINT64_MOD) (hW : W < UINT32_MOD) :
    board_cell g W r i j =
      { buffer := r.buffer ++ cell_text (g.player_arr j (g.height - i - 1)),
        it := r.it + (cell_text (g.player_arr j (g.height - i - 1))).length } := by
  have h3 : UINT32_MOD = 4294967296 := by decide
  have h4 : UINT64_MOD = 18446744073709551616 := by decide
  rw [board_cell_eq g W r i j ho hit2]
  apply pad_loop_stop
  have hl := cell_text_length_le _ ho
  simp only
  rw [h3] at hit hW ⊢
  rw [h4] at hit2 ⊢
  omega

/-! ## Rendering a row longer than `2^32` characters -/

theorem field_text_length {w o : Nat} (h : (cell_text o).length ≤ w) :
    (field_text w o).length = w := by
  rw [field_text_eq, List.length_append, List.length_replicate]
  omega

theorem cell_text_zero : cell_text 0 = ['.'] := rfl

/-- The row `i` of a rendering with fields of width 3 that starts at index 0, when every
owner entry has at most three digits and only the cell `x = 0` may be owned: the first
`1431655766` fields are padded to three characters and reach index `2^32 + 2`; every later
field is a single dot without padding. -/
theorem wide_row (g : gamma) (i : Nat)
    (hown : ∀ j, g.player_arr j (g.height - i - 1) < UINT64_MOD ∧
      (cell_text (g.player_arr j (g.height - i - 1))).length ≤ 3)
    (hfree : ∀ j, 1 ≤ j → g.player_arr j (g.height - i - 1) = 0) :
    ∀ n, n ≤ 2147483648 →
      ((List.range n).foldl (fun r2 j => board_cell g 3 r2 i j) { buffer := [], it := 0 }).it =
        ((List.range n).foldl (fun r2 j => board_cell g 3 r2 i j)
          { buffer := [], it := 0 }).buffer.length ∧
      ((List.range n).foldl (fun r2 j => board_cell g 3 r2 i j) { buffer := [], it := 0 }).it =
        (if n ≤ 1431655766 then 3 * n else 4294967298 + (n - 1431655766)) ∧
      (1431655767 ≤ n → ∃ b, ((List.range n).foldl (fun r2 j => board_cell g 3 r2 i j)
          { buffer := [], it := 0 }).buffer = b ++ ['.']) ∧
      (1431655768 ≤ n → ∃ b, ((List.range n).foldl (fun r2 j => board_cell g 3 r2 i j)
          { buffer := [], it := 0 }).buffer = b ++ ['.', '.']) := by
  have h3 : UINT32_MOD = 4294967296 := by decide
  have h4 : UINT64_MOD = 18446744073709551616 := by decide
  intro n
  induction n with
  | zero =>
    intro _
    refine ⟨rfl, rfl, fun h => ?_, fun h => ?_⟩ <;> omega
  | succ n ih =>
    intro hn
    obtain ⟨i1, i2, i3, i4⟩ := ih (by omega)
    rw [List.range_succ, List.foldl_append, List.foldl_cons, List.foldl_nil]
    generalize (List.range n).foldl (fun r2 j => board_cell g 3 r2 i j)
      { buffer := [], it := 0 } = r at i1 i2 i3 i4
    by_cases hlow : n < 1431655766
    · rw [if_pos (by omega)] at i2
      rw [board_cell_nowrap g 3 r i n (hown n).1 (by omega) (by omega) (hown n).2]
      simp only
      rw [List.length_append, field_text_length (hown n).2, if_pos (by omega)]
      refine ⟨by omega, by omega, fun h => ?_, fun h => ?_⟩ <;> omega
    · have hit : r.it = 4294967298 + (n - 1431655766) := by
        rw [i2]
        by_cases e : n ≤ 1431655766
        · rw [if_pos e]; omega
        · rw [if_neg e]
      rw [board_cell_wrap g 3 r i n (hown n).1 (by omega) (by omega) (by omega),
        hfree n (by omega), cell_text_zero]
      simp only
      rw [List.length_append, if_neg (by omega)]
      refine ⟨?_, ?_, fun _ => ⟨r.buffer, rfl⟩, fun h => ?_⟩
      · simp only [List.length_cons, List.length_nil]; omega
      · simp only [List.length_cons, List.length_nil]; omega
      · obtain ⟨b, hb⟩ := i3 (by omega)
        exact ⟨b, by rw [hb, List.append_assoc]; rfl⟩

/-- The rendering with fields of width 3 of a board of one row of `2^31` cells on which
only the cell `x = 0` may be owned has `5010795181` characters and ends with two dots and
the newline. -/
theorem wide_helper (g : gamma) (hw : g.width = 2147483648) (hh : g.height = 1)
    (hown : ∀ j, g.player_arr j 0 < UINT64_MOD ∧ (cell_text (g.player_arr j 0)).length ≤ 3)
    (hfree : ∀ j, 1 ≤ j → g.player_arr j 0 = 0) :
    (gamma_board_helper g 3).length = 5010795181 ∧
    ∃ b, gamma_board_helper g 3 = b ++ ['.', '.', '\n'] := by
  have e0 : g.height - 0 - 1 = 0 := by omega
  obtain ⟨i1, i2, _, i4⟩ := wide_row g 0 (fun j => by rw [e0]; exact hown j)
    (fun j hj => by rw [e0]; exact hfree j hj) g.width (by omega)
  unfold gamma_board_helper
  have e1 : List.range g.height = [0] := by rw [hh]; rfl
  rw [e1, List.foldl_cons, List.foldl_nil]
  simp only
  generalize (List.range g.width).foldl (fun r2 j => board_cell g 3 r2 0 j)
    { buffer := [], it := 0 } = r at i1 i2 i4
  rw [if_neg (by omega)] at i2
  constructor
  · rw [List.length_append, ← i1, i2]
    simp only [List.length_cons, List.length_nil]
    omega
  · obtain ⟨b, hb⟩ := i4 (by omega)
    exact ⟨b, by rw [hb, List.append_assoc]; rfl⟩

/-! ## The board of one row of `2^31` cells -/

theorem new_wide_eq : gamma_new 2147483648 1 10 1 = some new_wide := (Option.some_get _).symm

theorem new_wide_reachable : Reachable new_wide :=
  Reachable.new 2147483648 1 10 1 new_wide (by decide) (by decide) (by decide) (by decide)
    new_wide_eq

theorem new_wide_fields : new_wide.width = 2147483648 ∧ new_wide.height = 1 ∧
    new_wide.num_of_players = 10 ∧ new_wide.max_num_of_areas = 1 ∧
    (∀ x y, new_wide.player_arr x y = 0) ∧
    ∀ i, new_wide.players i =
      { has_played_golden_move := false, num_of_areas := 0, busy_fields := 0 } := by
  have hnew := new_wide_eq
  unfold gamma_new at hnew
  rw [if_neg (by omega)] at hnew
  have hg := Option.some.inj hnew
  refine ⟨?_, ?_, ?_, ?_, ?_, ?_⟩
  · rw [← hg]
  · rw [← hg]
  · rw [← hg]
  · rw [← hg]
  · intro x y; rw [← hg]
  · intro i; rw [← hg]

theorem new_wide_move_ok : move_ok new_wide 10 0 0 := by
  obtain ⟨e1, e2, e3, e4, e5, e6⟩ := new_wide_fields
  refine ⟨⟨by omega, by omega⟩, ⟨?_, ?_⟩, e5 0 0, ?_⟩
  · change 0 < new_wide.width; omega
  · change 0 < new_wide.height; omega
  · rintro ⟨h, _⟩
    rw [e6, e4] at h
    change 0 ≥ 1 at h
    omega

theorem wide_played_eq : wide_played = move_util new_wide 0 0 10 := by
  unfold wide_played
  rw [gamma_move_of_ok new_wide_move_ok]

theorem wide_played_reachable : Reachable wide_played :=
  Reachable.move new_wide 10 0 0 new_wide_reachable

theorem wide_played_fields : wide_played.width = 2147483648 ∧ wide_played.height = 1 ∧
    wide_played.num_of_players = 10 ∧
    (∀ x y, wide_played.player_arr x y = if x = 0 ∧ y = 0 then 10 else 0) ∧
    ∀ i, (wide_played.players i).busy_fields = if i = 9 then 1 else 0 := by
  obtain ⟨e1, e2, e3, e4, e5, e6⟩ := new_wide_fields
  have hP := (@move_util_inv new_wide 10 { x := 0, y := 0 } new_wide_reachable.reach_inv
    new_wide_move_ok).2
  change Placed new_wide 10 { x := 0, y := 0 } (move_util new_wide 0 0 10) at hP
  rw [← wide_played_eq] at hP
  refine ⟨hP.width.trans e1, hP.height.trans e2, hP.num_of_players.trans e3, ?_, ?_⟩
  · intro x y
    rw [hP.player_arr]
    unfold set2D
    by_cases c : x = 0 ∧ y = 0
    · rw [if_pos c, if_pos c]
    · rw [if_neg c, if_neg c]; exact e5 x y
  · intro i
    by_cases c : i = 9
    · subst c
      rw [if_pos rfl]
      have := hP.busy
      rw [e6] at this
      exact this
    · rw [if_neg c, hP.others i c, e6]

theorem cell_text_ten : (cell_text 10).length = 2 := by
  unfold cell_text
  rw [if_neg (by omega), decimal_length]
  norm_num

theorem wide_played_width : find_max_number_width wide_played = 3 := by
  obtain ⟨_, _, e3, _, e5⟩ := wide_played_fields
  unfold find_max_number_width
  rw [e3]
  have hr : List.range 10 = [0, 1, 2, 3, 4, 5, 6, 7, 8, 9] := by decide
  rw [hr]
  simp only [List.foldl_cons, List.foldl_nil, e5]
  decide

/-- C22: the state after `gamma_new(2147483648, 1, 10, 1)` and `gamma_move(g, 10, 0, 0)` is
reachable, its compact field width is 3, and `gamma_board` returns `5010795181` characters
for it instead of the `height * (width * 3 + 1) = 6442450945` characters of a rendering in
which every field has three characters. -/
theorem board_wide_length :
    Reachable wide_played ∧ wide_played.width = 2147483648 ∧ wide_played.height = 1 ∧
    find_max_number_width wide_played = 3 ∧
    (gamma_board wide_played).length = 5010795181 ∧
    wide_played.height * (wide_played.width * find_max_number_width wide_played + 1) =
      6442450945 := by
  obtain ⟨e1, e2, _, e4, _⟩ := wide_played_fields
  refine ⟨wide_played_reachable, e1, e2, wide_played_width, ?_, ?_⟩
  · unfold gamma_board
    rw [wide_played_width]
    refine (wide_helper wide_played e1 e2 ?_ ?_).1
    · intro j
      rw [e4]
      by_cases c : j = 0 ∧ 0 = 0
      · rw [if_pos c]
        exact ⟨by decide, by rw [cell_text_ten]; omega⟩
      · rw [if_neg c]
        exact ⟨by decide, by decide⟩
    · intro j hj
      rw [e4, if_neg (by omega)]
  · rw [e1, e2, wide_played_width]

theorem new_wide_interactive_width : gamma_field_width_interactive new_wide = 3 := by
  unfold gamma_field_width_interactive
  rw [new_wide_fields.2.2.1]
  decide

/-- C24: on the empty board of `gamma_new(2147483648, 1, 10, 1)` the interactive field width
is 3 and `gamma_write_field(g, s, 2147483647, 0)` returns true and writes a dot and two
spaces into `s[0..2]`, while the string of `gamma_board_interactive` has only `5010795181`
characters and ends with two dots and the newline: the field of the last cell is a single
dot there. -/
theorem write_field_wide (s : Nat → Char) :
    Reachable new_wide ∧ gamma_field_width_interactive new_wide = 3 ∧
    gamma_write_field new_wide s 2147483647 0 =
      (true, set1D (set1D (set1D s 0 '.') 1 ' ') 2 ' ') ∧
    (gamma_board_interactive new_wide).length = 5010795181 ∧
    ∃ b, gamma_board_interactive new_wide = b ++ ['.', '.', '\n'] := by
  obtain ⟨e1, e2, e3, e4, e5, e6⟩ := new_wide_fields
  have hboard := wide_helper new_wide e1 e2
    (fun j => by rw [e5]; exact ⟨by decide, by decide⟩) (fun j _ => e5 j 0)
  refine ⟨new_wide_reachable, new_wide_interactive_width, ?_, ?_, ?_⟩
  · unfold gamma_write_field
    have hwf : wrong_field 2147483647 0 new_wide = false := by
      unfold wrong_field
      rw [e1, e2]
      decide
    rw [hwf, e5, new_wide_interactive_width]
    rfl
  · unfold gamma_board_interactive
    rw [new_wide_interactive_width]
    exact hboard.1
  · unfold gamma_board_interactive
    rw [new_wide_interactive_width]
    exact hboard.2

theorem forest_represents_areas_witness :
    Reachable (gamma_move (gamma_move new_2x2 1 0 0).2 1 0 1).2 ∧
    (on_board (gamma_move (gamma_move new_2x2 1 0 0).2 1 0 1).2 { x := 0, y := 0 } ∧
      owner (gamma_move (gamma_move new_2x2 1 0 0).2 1 0 1).2 { x := 0, y := 0 } ≠ 0) ∧
    (on_board (gamma_move (gamma_move new_2x2 1 0 0).2 1 0 1).2 { x := 0, y := 1 } ∧
      owner (gamma_move (gamma_move new_2x2 1 0 0).2 1 0 1).2 { x := 0, y := 1 } ≠ 0) ∧
    ((same_root (gamma_move (gamma_move new_2x2 1 0 0).2 1 0 1).2 { x := 0, y := 0 }
        { x := 0, y := 1 } ↔
      (owner (gamma_move (gamma_move new_2x2 1 0 0).2 1 0 1).2 { x := 0, y := 0 } =
        owner (gamma_move (gamma_move new_2x2 1 0 0).2 1 0 1).2 { x := 0, y := 1 } ∧
       Conn (gamma_move (gamma_move new_2x2 1 0 0).2 1 0 1).2
        (owner (gamma_move (gamma_move new_2x2 1 0 0).2 1 0 1).2 { x := 0, y := 0 })
        { x := 0, y := 0 } { x := 0, y := 1 })) ∧
     ∀ p x y, (gamma_golden_move (gamma_move (gamma_move new_2x2 1 0 0).2 1 0 1).2 p x y).1 =
        false →
      (same_root (gamma_golden_move (gamma_move (gamma_move new_2x2 1 0 0).2 1 0 1).2 p x y).2
          { x := 0, y := 0 } { x := 0, y := 1 } ↔
        same_root (gamma_move (gamma_move new_2x2 1 0 0).2 1 0 1).2 { x := 0, y := 0 }
          { x := 0, y := 1 })) :=
  ⟨Reachable.move _ 1 0 1 (Reachable.move _ 1 0 0 new_2x2_reachable),
    ⟨⟨by decide, by decide⟩, by decide⟩, ⟨⟨by decide, by decide⟩, by decide⟩,
    forest_represents_areas _ { x := 0, y := 0 } { x := 0, y := 1 }
      (Reachable.move _ 1 0 1 (Reachable.move _ 1 0 0 new_2x2_reachable))
      ⟨⟨by decide, by decide⟩, by decide⟩ ⟨⟨by decide, by decide⟩, by decide⟩⟩

/-! ## Area sizes: trees and areas -/

theorem mem_tree {g : gamma} {rep : field_t → field_t} {c d : field_t} :
    d ∈ tree g rep c ↔ on_board g d ∧ owner g d ≠ 0 ∧ rep d = c := by
  unfold tree
  rw [Finset.mem_filter, mem_board]

/-- The tree of a root is its area. -/
theorem tree_eq_comp {g : gamma} {rep : field_t → field_t} {rk : field_t → Nat}
    (hF : ForestOn g (fun _ => True) rep rk) {c : field_t} (hc : is_root g c) :
    comp g c = ↑(tree g rep c) := by
  have lc : live g (fun _ => True) c := ⟨trivial, hc.1, hc.2.1⟩
  have hrc : rep c = c := hF.rep_self c lc hc.2.2
  ext d
  rw [Finset.mem_coe, mem_tree]
  constructor
  · rintro ⟨ho, hconn⟩
    refine ⟨ho.1, by rw [ho.2]; exact hc.2.1, ?_⟩
    rw [hF.rep_of_conn hc.2.1 hconn, hrc]
  · rintro ⟨hb, ho, hr⟩
    have ld : live g (fun _ => True) d := ⟨trivial, hb, ho⟩
    have h1 := hF.rep_live d ld
    have h2 := hF.rep_conn d ld
    rw [hr] at h1 h2
    refine ⟨⟨hb, h1.2.symm⟩, ?_⟩
    rw [h1.2]
    exact h2

theorem size_on_iff {g : gamma} {rep : field_t → field_t} {rk : field_t → Nat}
    (hF : ForestOn g (fun _ => True) rep rk) : SizeInv g ↔ SizeOn g rep := by
  constructor
  · intro h c
    refine ⟨fun hc => ?_, (h c).2⟩
    rw [(h c).1 hc, tree_eq_comp hF hc, Set.ncard_coe_Finset]
  · intro h c
    refine ⟨fun hc => ?_, (h c).2⟩
    rw [(h c).1 hc, tree_eq_comp hF hc, Set.ncard_coe_Finset]

theorem tree_card_le (g : gamma) (rep : field_t → field_t) (c : field_t) :
    (tree g rep c).card ≤ g.width * g.height := by
  rw [← card_board]
  exact Finset.card_le_card (Finset.filter_subset _ _)

/-- The trees of the cells of `R` are disjoint: together they have as many cells as the
set of owned cells with a root in `R`. -/
theorem tree_sum (g : gamma) (rep : field_t → field_t) (R : Finset field_t) :
    R.sum (fun r => (tree g rep r).card) =
      ((board g).filter (fun d => owner g d ≠ 0 ∧ rep d ∈ R)).card := by
  rw [Finset.card_eq_sum_card_fiberwise (f := rep) (t := R)
    (fun d hd => (Finset.mem_filter.mp hd).2.2)]
  apply Finset.sum_congr rfl
  intro r hr
  congr 1
  ext d
  rw [mem_tree, Finset.mem_filter, Finset.mem_filter, mem_board]
  constructor
  · rintro ⟨a, b, c⟩
    exact ⟨⟨a, b, by rw [c]; exact hr⟩, c⟩
  · rintro ⟨⟨a, b, _⟩, c⟩
    exact ⟨a, b, c⟩

theorem tree_sum_le (g : gamma) (rep : field_t → field_t) (R : Finset field_t) :
    R.sum (fun r => (tree g rep r).card) ≤ g.width * g.height := by
  rw [tree_sum, ← card_board]
  exact Finset.card_le_card (Finset.filter_subset _ _)

/-! ## Area sizes in the `for` loop of `move_util` -/

/-- A step of the `for` loop of `move_util` changes the area sizes only for the first
neighbour found: the entry of its root is increased by one. -/
theorem move_size_step {g0 : gamma} {c0 : field_t} {p : Nat} {rep : field_t → field_t}
    {rk : field_t → Nat} {k : Nat} {st : move_loop_t}
    (hw : g0.width < UINT32_MOD) (hh : g0.height < UINT32_MOD) (hc0 : on_board g0 c0)
    (hp : p ≠ 0) (hk : k < 4) (hI : MoveLoopInv g0 c0 p rep rk k st)
    (hS : 0 < st.l → st.g.areas_size = set2D g0.areas_size (rep (st.neigbours 0)).x
      (rep (st.neigbours 0)).y
      (inc64 (g0.areas_size (rep (st.neigbours 0)).x (rep (st.neigbours 0)).y))) :
    0 < (move_util_step c0.x c0.y p st k).l →
      (move_util_step c0.x c0.y p st k).g.areas_size =
        set2D g0.areas_size (rep ((move_util_step c0.x c0.y p st k).neigbours 0)).x
          (rep ((move_util_step c0.x c0.y p st k).neigbours 0)).y
          (inc64 (g0.areas_size (rep ((move_util_step c0.x c0.y p st k).neigbours 0)).x
            (rep ((move_util_step c0.x c0.y p st k).neigbours 0)).y)) := by
  have hc0eq : ({ x := c0.x, y := c0.y } : field_t) = c0 := rfl
  by_cases hown : owns st.g p (nbr c0 k)
  · have hown0 : owns g0 p (nbr c0 k) := (hI.frame.framep_owns_iff p _).mp hown
    have hadj : adjacent c0 (nbr c0 k) := nbr_on_board_adjacent hw hh hc0 hk hown0.1
    have hne : nbr c0 k ≠ c0 := fun h => adjacent_ne hadj h.symm
    by_cases hl : st.l = 0
    · have hst : st.g = g0 := hI.none hl
      have e := move_util_step_first c0.x c0.y p st k hown hl
      rw [hc0eq, hst] at e
      rw [e]
      have hFa : ForestOn (dec_areas g0 p) (fun c => c ≠ c0) rep rk := by
        have := hI.forest
        rw [hst] at this
        exact this.forest_congr rfl rfl rfl rfl
      have hlive : live (dec_areas g0 p) (fun c => c ≠ c0) (nbr c0 k) := by
        refine ⟨hne, hown0.1, ?_⟩
        change owner g0 (nbr c0 k) ≠ 0
        rw [hown0.2]; exact hp
      obtain ⟨ps, hps1, _⟩ := find_parent_spec hFa (nbr c0 k) hlive
      rw [hps1]
      intro _
      simp only [hl, set1D_same]
      rfl
    · have e := move_util_step_more c0.x c0.y p st k hown hl
      rw [hc0eq] at e
      rw [e]
      intro _
      simp only
      rw [set1D_ne _ _ _ _ (by omega)]
      exact hS (Nat.pos_of_ne_zero hl)
  · have e := move_util_step_skip c0.x c0.y p st k hown
    rw [e]
    exact hS

/-- The area sizes after the `for` loop of `move_util`. -/
theorem move_loop_sizes {g0 : gamma} {c0 : field_t} {p : Nat} {rep : field_t → field_t}
    {rk : field_t → Nat} (hw : g0.width < UINT32_MOD) (hh : g0.height < UINT32_MOD)
    (hc0 : on_board g0 c0) (hp : p ≠ 0)
    (hF : ForestOn g0 (fun c => c ≠ c0) rep rk) :
    0 < ((List.range DIRECTIONS).foldl (move_util_step c0.x c0.y p)
        { g := g0, neigbours := fun _ => { x := 0, y := 0 }, l := 0 }).l →
      ((List.range DIRECTIONS).foldl (move_util_step c0.x c0.y p)
        { g := g0, neigbours := fun _ => { x := 0, y := 0 }, l := 0 }).g.areas_size =
      set2D g0.areas_size
        (rep (((List.range DIRECTIONS).foldl (move_util_step c0.x c0.y p)
          { g := g0, neigbours := fun _ => { x := 0, y := 0 }, l := 0 }).neigbours 0)).x
        (rep (((List.range DIRECTIONS).foldl (move_util_step c0.x c0.y p)
          { g := g0, neigbours := fun _ => { x := 0, y := 0 }, l := 0 }).neigbours 0)).y
        (inc64 (g0.areas_size
          (rep (((List.range DIRECTIONS).foldl (move_util_step c0.x c0.y p)
            { g := g0, neigbours := fun _ => { x := 0, y := 0 }, l := 0 }).neigbours 0)).x
          (rep (((List.range DIRECTIONS).foldl (move_util_step c0.x c0.y p)
            { g := g0, neigbours := fun _ => { x := 0, y := 0 }, l := 0 }).neigbours 0)).y)) := by
  have h0 : MoveLoopInv g0 c0 p rep rk 0
      { g := g0, neigbours := fun _ => { x := 0, y := 0 }, l := 0 } := by
    constructor
    · exact FrameP.framep_refl p g0
    · exact hF
    · intro q _; rfl
    · intro j hj; simp at hj
    · intro i hi; omega
    · intro _; rfl
    · intro h; simp at h
  have h1 := move_loop_step hw hh hc0 hp (by omega : 0 < 4) h0
  have h2 := move_loop_step hw hh hc0 hp (by omega : 1 < 4) h1
  have h3 := move_loop_step hw hh hc0 hp (by omega : 2 < 4) h2
  rw [range_directions]
  simp only [List.foldl]
  exact move_size_step hw hh hc0 hp (by omega) h3
    (move_size_step hw hh hc0 hp (by omega) h2
      (move_size_step hw hh hc0 hp (by omega) h1
        (move_size_step hw hh hc0 hp (by omega) h0
          (fun h => absurd h (Nat.lt_irrefl 0)))))

/-! ## Area sizes in `remove_same_areas` -/

theorem union_areas_areas_size (g : gamma) (a b : field_t) :
    (union_areas g a b).areas_size =
      set2D (set2D g.areas_size a.x a.y
        ((g.areas_size a.x a.y + g.areas_size b.x b.y) % UINT64_MOD)) b.x b.y 0 := rfl

/-- One step of the merging loop: the size of an absorbed root is added to the entry of the
accumulator and its own entry is cleared. -/
theorem accumulate_size_step {h : gamma} {c0 acc r0 : field_t} {p : Nat}
    {rep : field_t → field_t} {rk : field_t → Nat} {T : Finset field_t} {np : Nat → field_t}
    {it : Nat} (hF : ForestOn h (fun c => c ≠ c0) (merged_rep rep T acc) rk)
    (hacc : acc ∈ T) (hr0 : np it = r0) (hr0_live : live h (fun c => c ≠ c0) r0)
    (hr0_rep : rep r0 = r0) :
    (remove_same_areas_step acc p (h, np) it).1.areas_size =
      if r0 ∈ T then h.areas_size
      else set2D (set2D h.areas_size acc.x acc.y
        ((h.areas_size acc.x acc.y + h.areas_size r0.x r0.y) % UINT64_MOD)) r0.x r0.y 0 := by
  obtain ⟨ps, e1, _⟩ := find_parent_spec hF (np it) (by rw [hr0]; exact hr0_live)
  rw [hr0] at e1
  rw [remove_same_areas_step_eq acc p h np it ps _ (by rw [hr0]; exact e1)]
  by_cases hmem : r0 ∈ T
  · have hm : merged_rep rep T acc r0 = acc := by
      unfold merged_rep; rw [hr0_rep, if_pos hmem]
    rw [if_pos hm, if_pos hmem]
  · have hm : merged_rep rep T acc r0 = r0 := by
      unfold merged_rep; rw [hr0_rep, if_neg hmem]
    have hne : r0 ≠ acc := fun e => hmem (e ▸ hacc)
    rw [hm, if_neg hne, if_neg hmem]
    rfl

theorem size_sum_mono (g : gamma) {S T : Finset field_t} (h : S ⊆ T) :
    size_sum g S ≤ size_sum g T := by
  unfold size_sum
  exact Finset.sum_le_sum_of_subset h

/-- The area sizes during the merging loop of `remove_same_areas`: the accumulator holds the
sum of the sizes of the roots met so far, the other roots met so far hold 0. -/
theorem accumulate_sizes {h1 : gamma} {c0 : field_t} {p : Nat} {rep : field_t → field_t}
    {rk : field_t → Nat} (sorted : Nat → field_t) (l : Nat) (hp : p ≠ 0)
    (hF1 : ForestOn h1 (fun c => c ≠ c0) rep rk)
    (hs : ∀ j, j < l → live h1 (fun c => c ≠ c0) (sorted j) ∧ rep (sorted j) = sorted j ∧
      owner h1 (sorted j) = p ∧ Conn h1 p (sorted j) (sorted 0))
    (hareas : (h1.players (p - 1)).num_of_areas = (roots_in h1 (fun c => c ≠ c0) p).card)
    (hbound : size_sum h1 ((Finset.range l).image sorted) < UINT64_MOD) :
    ∀ m, m + 1 ≤ l → ∀ c : field_t,
      ((List.range' 1 m).foldl (remove_same_areas_step (sorted 0) p) (h1, sorted)).1.areas_size
          c.x c.y =
        if c = sorted 0 then size_sum h1 ((Finset.range (m + 1)).image sorted)
        else if c ∈ (Finset.range (m + 1)).image sorted then 0
        else h1.areas_size c.x c.y := by
  intro m
  induction m with
  | zero =>
    intro _ c
    simp only [List.range'_zero, List.foldl_nil]
    have himg : (Finset.range (0 + 1)).image sorted = {sorted 0} := by simp
    rw [himg]
    by_cases hc : c = sorted 0
    · rw [if_pos hc, hc]
      simp [size_sum]
    · rw [if_neg hc, if_neg (by simpa using hc)]
  | succ m ih =>
    intro hm c
    have ih1 := ih (by omega)
    obtain ⟨f1, ⟨rk1, f2⟩, f3, _, _, _, _⟩ :=
      accumulate_loop sorted l hp hF1 hs hareas m (by omega)
    rw [List.range'_1_concat, List.foldl_append]
    simp only [List.foldl_cons, List.foldl_nil]
    generalize hst : (List.range' 1 m).foldl (remove_same_areas_step (sorted 0) p) (h1, sorted)
      = st at f1 f2 f3 ih1 ⊢
    have h0 := hs 0 (by omega)
    have hm1 := hs (m + 1) (by omega)
    have hacc : sorted 0 ∈ (Finset.range (m + 1)).image sorted :=
      Finset.mem_image.mpr ⟨0, Finset.mem_range.mpr (by omega), rfl⟩
    have hstep := @accumulate_size_step st.1 c0 (sorted 0) (sorted (m + 1)) p _ _ _
      st.2 (1 + m) f2 hacc (by rw [f3 (1 + m) (by omega)]; congr 1; omega)
      ((f1.live_iff _ _).mpr hm1.1) hm1.2.1
    have himg : (Finset.range (m + 1 + 1)).image sorted =
        insert (sorted (m + 1)) ((Finset.range (m + 1)).image sorted) := by
      rw [Finset.range_succ, Finset.image_insert]
    have hsub : (Finset.range (m + 1 + 1)).image sorted ⊆ (Finset.range l).image sorted := by
      apply Finset.image_subset_image
      intro j hj
      rw [Finset.mem_range] at hj ⊢
      omega
    have hle := size_sum_mono h1 hsub
    change (remove_same_areas_step (sorted 0) p (st.1, st.2) (1 + m)).1.areas_size c.x c.y = _
    rw [hstep]
    by_cases hmem : sorted (m + 1) ∈ (Finset.range (m + 1)).image sorted
    · rw [if_pos hmem, himg, Finset.insert_eq_of_mem hmem]
      exact ih1 c
    · rw [if_neg hmem, set2D_cell, set2D_cell]
      have hne : sorted (m + 1) ≠ sorted 0 := fun e => hmem (e ▸ hacc)
      have hsum : size_sum h1 (insert (sorted (m + 1)) ((Finset.range (m + 1)).image sorted)) =
          h1.areas_size (sorted (m + 1)).x (sorted (m + 1)).y +
            size_sum h1 ((Finset.range (m + 1)).image sorted) := by
        unfold size_sum
        rw [Finset.sum_insert hmem]
      rw [himg] at hle ⊢
      by_cases c1 : c = sorted (m + 1)
      · rw [if_pos c1, c1, if_neg hne, if_pos (Finset.mem_insert_self _ _)]
      · rw [if_neg c1]
        by_cases c2 : c = sorted 0
        · rw [if_pos c2, if_pos c2]
          have a1 := ih1 (sorted 0)
          rw [if_pos rfl] at a1
          have a2 := ih1 (sorted (m + 1))
          rw [if_neg hne, if_neg hmem] at a2
          rw [a1, a2, hsum, Nat.mod_eq_of_lt (by omega)]
          omega
        · rw [if_neg c2, if_neg c2, ih1 c, if_neg c2]
          by_cases c3 : c ∈ (Finset.range (m + 1)).image sorted
          · rw [if_pos c3, if_pos (Finset.mem_insert_of_mem c3)]
          · rw [if_neg c3, if_neg]
            rw [Finset.mem_insert]
            rintro (a | a)
            · exact c1 a
            · exact c3 a

/-- The call `remove_same_areas` with the area sizes: besides merging the trees of the
listed neighbours into the tree of one of their roots, it stores the sum of the sizes of
the merged roots at that root and 0 at the others. -/
theorem remove_same_areas_full {h : gamma} {c0 : field_t} {p : Nat} {rep : field_t → field_t}
    {rk : field_t → Nat} {nb : Nat → field_t} {l : Nat} (hp : p ≠ 0) (hl : 0 < l)
    (hF : ForestOn h (fun c => c ≠ c0) rep rk) (hc0 : owns h p c0)
    (hnb : ∀ j, j < l → owns h p (nb j) ∧ adjacent c0 (nb j))
    (hareas : (h.players (p - 1)).num_of_areas = (roots_in h (fun c => c ≠ c0) p).card)
    (hbound : size_sum h ((Finset.range l).image (fun j => rep (nb j))) < UINT64_MOD) :
    ∃ (acc : field_t) (rk1 : field_t → Nat),
      FrameP p h (remove_same_areas h nb l p) ∧
      ForestOn (remove_same_areas h nb l p) (fun c => c ≠ c0)
        (merged_rep rep ((Finset.range l).image (fun j => rep (nb j))) acc) rk1 ∧
      acc ∈ (Finset.range l).image (fun j => rep (nb j)) ∧
      roots_in (remove_same_areas h nb l p) (fun c => c ≠ c0) p =
        (roots_in h (fun c => c ≠ c0) p).filter
          (fun r => r ∉ (Finset.range l).image (fun j => rep (nb j)) ∨ r = acc) ∧
      (∀ q, q ≠ 0 → q ≠ p →
        roots_in (remove_same_areas h nb l p) (fun c => c ≠ c0) q =
          roots_in h (fun c => c ≠ c0) q) ∧
      par (remove_same_areas h nb l p) c0 = par h c0 ∧
      ∀ c : field_t, (remove_same_areas h nb l p).areas_size c.x c.y =
        if c = acc then size_sum h ((Finset.range l).image (fun j => rep (nb j)))
        else if c ∈ (Finset.range l).image (fun j => rep (nb j)) then 0
        else h.areas_size c.x c.y := by
  have hlive : ∀ j, j < l → live h (fun c => c ≠ c0) (nb j) := by
    intro j hj
    obtain ⟨h1, h2⟩ := hnb j hj
    exact ⟨fun e => adjacent_ne h2 e.symm, h1.1, by rw [h1.2]; exact hp⟩
  obtain ⟨ps, np, e1, e2, e3⟩ := remove_same_areas_find_spec hF nb l hlive
  have e3b : ∀ d : field_t, live h (fun c => c ≠ c0) d →
      (ps d.x d.y = par h d ∨ ps d.x d.y = rep d) := by
    intro d _
    rcases e3 d with e | ⟨_, e⟩
    · exact Or.inl e
    · exact Or.inr e
  have hpc0 : ps c0.x c0.y = par h c0 := by
    rcases e3 c0 with e | ⟨hl, _⟩
    · exact e
    · exact absurd rfl hl.1
  have hF1 := hF.compress ps e3b
  have hroots1 : ∀ q, q ≠ 0 → roots_in { h with parents := ps } (fun c => c ≠ c0) q =
      roots_in h (fun c => c ≠ c0) q := fun q hq => roots_in_compress hF ps e3b q hq
  have hse := sort_n_parents_same { h with parents := ps } np l
  have himg : (Finset.range l).image (sort_n_parents { h with parents := ps } np l) =
      (Finset.range l).image (fun j => rep (nb j)) := by
    rw [image_same_entries hse]
    apply Finset.image_congr
    intro j hj
    exact e2 j (Finset.mem_range.mp (Finset.mem_coe.mp hj))
  have hsorted : ∀ j, j < l → ∃ i, i < l ∧
      sort_n_parents { h with parents := ps } np l j = rep (nb i) := by
    intro j hj
    obtain ⟨i, hi, e⟩ := hse.1 j hj
    exact ⟨i, hi, e.trans (e2 i hi)⟩
  have hconn0 : ∀ i, i < l → Conn h p (rep (nb i)) c0 := by
    intro i hi
    have a1 := hF.rep_conn (nb i) (hlive i hi)
    rw [(hnb i hi).1.2] at a1
    exact a1.conn_symm.conn_trans (Conn.single ⟨adjacent_symm (hnb i hi).2, (hnb i hi).1, hc0⟩)
  have hs : ∀ j, j < l →
      live { h with parents := ps } (fun c => c ≠ c0)
        (sort_n_parents { h with parents := ps } np l j) ∧
      rep (sort_n_parents { h with parents := ps } np l j) =
        sort_n_parents { h with parents := ps } np l j ∧
      owner { h with parents := ps } (sort_n_parents { h with parents := ps } np l j) = p ∧
      Conn { h with parents := ps } p (sort_n_parents { h with parents := ps } np l j)
        (sort_n_parents { h with parents := ps } np l 0) := by
    intro j hj
    obtain ⟨i, hi, e⟩ := hsorted j hj
    obtain ⟨i0, hi0, e0⟩ := hsorted 0 hl
    rw [e, e0]
    have a1 := hF.rep_live (nb i) (hlive i hi)
    refine ⟨a1.1, hF.rep_rep (nb i) (hlive i hi), a1.2.trans (hnb i hi).1.2, ?_⟩
    exact (Conn_congr rfl rfl rfl p _ _).mpr ((hconn0 i hi).conn_trans (hconn0 i0 hi0).conn_symm)
  have hareas1 : (({ h with parents := ps } : gamma).players (p - 1)).num_of_areas =
      (roots_in { h with parents := ps } (fun c => c ≠ c0) p).card := by
    rw [hroots1 p hp]; exact hareas
  have hbound1 : size_sum { h with parents := ps }
      ((Finset.range l).image (sort_n_parents { h with parents := ps } np l)) < UINT64_MOD := by
    rw [himg]; exact hbound
  have hloop := accumulate_loop (sort_n_parents { h with parents := ps } np l) l hp hF1 hs
    hareas1 (l - 1) (by omega)
  have hsizes := accumulate_sizes (sort_n_parents { h with parents := ps } np l) l hp hF1 hs
    hareas1 hbound1 (l - 1) (by omega)
  have hl1 : l - 1 + 1 = l := by omega
  rw [hl1, himg] at hloop hsizes
  obtain ⟨f1, ⟨rk1, f2⟩, _, f4, f5, _, f7⟩ := hloop
  have hdef : remove_same_areas h nb l p =
      ((List.range' 1 (l - 1)).foldl
        (remove_same_areas_step (sort_n_parents { h with parents := ps } np l 0) p)
        ({ h with parents := ps }, sort_n_parents { h with parents := ps } np l)).1 := by
    unfold remove_same_areas
    simp only [e1]
  rw [hdef]
  refine ⟨_, rk1, (FrameP.parents p h ps).framep_trans f1, f2, ?_, ?_, ?_, f7.trans hpc0, ?_⟩
  · rw [← himg]
    exact Finset.mem_image.mpr ⟨0, Finset.mem_range.mpr hl, rfl⟩
  · rw [f4, hroots1 p hp]
  · intro q hq hqp
    rw [f5 q hq hqp, hroots1 q hq]
  · intro c
    exact hsizes c

/-! ## Area sizes after placing a stone -/

theorem board_congr {g G1 : gamma} (hw : G1.width = g.width) (hh : G1.height = g.height) :
    board G1 = board g := by
  unfold board
  rw [hw, hh]

theorem size_sum_trees {g : gamma} {rep : field_t → field_t} (hS : SizeOn g rep)
    {R : Finset field_t} (hR : ∀ r, r ∈ R → is_root g r) :
    size_sum g R = ((board g).filter (fun d => owner g d ≠ 0 ∧ rep d ∈ R)).card := by
  rw [← tree_sum]
  unfold size_sum
  apply Finset.sum_congr rfl
  intro r hr
  exact (hS r).1 (hR r hr)

/-- The sizes after a stone without a neighbour of its owner was placed on `c0`. -/
theorem size_on_single {g G1 : gamma} {c0 : field_t} {p : Nat} {rep : field_t → field_t}
    (hS : SizeOn g rep) (hw : G1.width = g.width) (hh : G1.height = g.height)
    (hown : ∀ c, owner G1 c = if c = c0 then p else owner g c) (hp : p ≠ 0)
    (hfree : owner g c0 = 0) (hb : on_board g c0)
    (hrep : ∀ d, on_board g d → owner g d ≠ 0 → rep d ≠ c0)
    (hroot : ∀ c, is_root G1 c ↔ (c = c0 ∨ is_root g c))
    (hsz : ∀ c : field_t, G1.areas_size c.x c.y = if c = c0 then 1 else g.areas_size c.x c.y) :
    SizeOn G1 (fun c => if c = c0 then c0 else rep c) := by
  have hnr0 : ¬ is_root g c0 := fun h => h.2.1 hfree
  intro c
  constructor
  · intro hc
    rw [hsz]
    by_cases c1 : c = c0
    · rw [if_pos c1, c1]
      have e : tree G1 (fun c => if c = c0 then c0 else rep c) c0 = {c0} := by
        ext d
        rw [mem_tree, Finset.mem_singleton, hown]
        unfold on_board
        rw [hw, hh]
        constructor
        · rintro ⟨a1, a2, a3⟩
          by_contra hd
          rw [if_neg hd] at a2 a3
          exact hrep d a1 a2 a3
        · intro hd
          rw [hd, if_pos rfl]
          exact ⟨hb, hp, if_pos rfl⟩
      rw [e, Finset.card_singleton]
    · rw [if_neg c1]
      have hcg : is_root g c := by
        rcases (hroot c).mp hc with a | a
        · exact absurd a c1
        · exact a
      rw [(hS c).1 hcg]
      congr 1
      ext d
      rw [mem_tree, mem_tree, hown]
      unfold on_board
      rw [hw, hh]
      by_cases hd : d = c0
      · subst hd
        rw [if_pos rfl, if_pos rfl]
        constructor
        · rintro ⟨_, a2, _⟩; exact absurd hfree a2
        · rintro ⟨_, _, a3⟩; exact absurd a3.symm c1
      · rw [if_neg hd, if_neg hd]
  · intro hc
    rw [hsz]
    have c1 : c ≠ c0 := fun e => hc ((hroot c).mpr (Or.inl e))
    rw [if_neg c1]
    exact (hS c).2 (fun h => hc ((hroot c).mpr (Or.inr h)))

/-- The sizes after a stone was placed on `c0` and the trees of the roots in `R`, those of
its neighbours, were merged into the tree of `acc`. -/
theorem size_on_merged {g G1 : gamma} {c0 acc : field_t} {p : Nat} {rep : field_t → field_t}
    {R : Finset field_t}
    (hS : SizeOn g rep) (hw : G1.width = g.width) (hh : G1.height = g.height)
    (hown : ∀ c, owner G1 c = if c = c0 then p else owner g c) (hp : p ≠ 0)
    (hfree : owner g c0 = 0) (hb : on_board g c0)
    (hR : ∀ r, r ∈ R → is_root g r) (hacc : acc ∈ R)
    (hroot : ∀ c, is_root G1 c ↔ (is_root g c ∧ (c ∉ R ∨ c = acc)))
    (hsz : ∀ c : field_t, G1.areas_size c.x c.y =
      if c = acc then size_sum g R + 1 else if c ∈ R then 0 else g.areas_size c.x c.y) :
    SizeOn G1 (fun c => if c = c0 then acc else merged_rep rep R acc c) := by
  have hnr0 : ¬ is_root g c0 := fun h => h.2.1 hfree
  have hacc0 : acc ≠ c0 := fun e => hnr0 (e ▸ hR acc hacc)
  intro c
  constructor
  · intro hc
    obtain ⟨hcg, hcr⟩ := (hroot c).mp hc
    rw [hsz]
    by_cases c1 : c = acc
    · rw [if_pos c1, c1, size_sum_trees hS hR]
      have e : tree G1 (fun c => if c = c0 then acc else merged_rep rep R acc c) acc =
          insert c0 ((board g).filter (fun d => owner g d ≠ 0 ∧ rep d ∈ R)) := by
        ext d
        rw [mem_tree, Finset.mem_insert, Finset.mem_filter, mem_board, hown]
        unfold on_board
        rw [hw, hh]
        by_cases hd : d = c0
        · subst hd
          rw [if_pos rfl, if_pos rfl]
          exact ⟨fun _ => Or.inl rfl, fun _ => ⟨hb, hp, rfl⟩⟩
        · rw [if_neg hd, if_neg hd]
          unfold merged_rep
          constructor
          · rintro ⟨a1, a2, a3⟩
            right
            refine ⟨a1, a2, ?_⟩
            by_cases hr : rep d ∈ R
            · exact hr
            · rw [if_neg hr] at a3
              rw [a3]; exact hacc
          · rintro (a | ⟨a1, a2, a3⟩)
            · exact absurd a hd
            · exact ⟨a1, a2, if_pos a3⟩
      rw [e, Finset.card_insert_of_not_mem]
      rw [Finset.mem_filter]
      rintro ⟨_, a, _⟩
      exact a hfree
    · have hcR : c ∉ R := by
        rcases hcr with a | a
        · exact a
        · exact absurd a c1
      rw [if_neg c1, if_neg hcR, (hS c).1 hcg]
      congr 1
      ext d
      rw [mem_tree, mem_tree, hown]
      unfold on_board
      rw [hw, hh]
      by_cases hd : d = c0
      · subst hd
        rw [if_pos rfl, if_pos rfl]
        constructor
        · rintro ⟨_, a2, _⟩; exact absurd hfree a2
        · rintro ⟨_, _, a3⟩; exact absurd a3.symm c1
      · rw [if_neg hd, if_neg hd]
        unfold merged_rep
        by_cases hr : rep d ∈ R
        · rw [if_pos hr]
          constructor
          · rintro ⟨_, _, a3⟩; exact absurd (a3 ▸ hr) hcR
          · rintro ⟨_, _, a3⟩; exact absurd a3.symm c1
        · rw [if_neg hr]
  · intro hc
    rw [hsz]
    by_cases c1 : c = acc
    · exact absurd ((hroot c).mpr ⟨c1 ▸ hR acc hacc, Or.inr c1⟩) hc
    · rw [if_neg c1]
      by_cases c2 : c ∈ R
      · rw [if_pos c2]
      · rw [if_neg c2]
        exact (hS c).2 (fun h => hc ((hroot c).mpr ⟨h, Or.inl c2⟩))

theorem size_sum_bump (g : gamma) (sz : Nat → Nat → Nat) {R : Finset field_t} {r0 : field_t}
    (hr0 : r0 ∈ R)
    (hsz : sz = set2D g.areas_size r0.x r0.y (g.areas_size r0.x r0.y + 1)) :
    R.sum (fun r => sz r.x r.y) = size_sum g R + 1 := by
  unfold size_sum
  rw [← Finset.add_sum_erase R _ hr0, ← Finset.add_sum_erase R (fun r => g.areas_size r.x r.y) hr0]
  have e1 : sz r0.x r0.y = g.areas_size r0.x r0.y + 1 := by rw [hsz, set2D_same]
  have e2 : (R.erase r0).sum (fun r => sz r.x r.y) =
      (R.erase r0).sum (fun r => g.areas_size r.x r.y) := by
    apply Finset.sum_congr rfl
    intro r hr
    rw [hsz, set2D_cell, if_neg (Finset.ne_of_mem_erase hr)]
  rw [e1, e2]
  omega

/-- Placing a stone with `move_util` keeps the invariant of the area sizes. -/
theorem move_util_sizes {g : gamma} {p : Nat} {c0 : field_t} (hC : Core g) (hSI : SizeInv g)
    (hp : valid_player g p) (hb : on_board g c0) (hfree : owner g c0 = 0) :
    SizeInv (move_util g c0.x c0.y p) := by
  obtain ⟨rep, rk, hF⟩ := hC.forest
  have hS := (size_on_iff hF).mp hSI
  have hp0 : p ≠ 0 := by have := hp.1; omega
  have hw := hC.width_lt
  have hh := hC.height_lt
  have hbb := board_bound hw hh
  have hb0 : on_board (take_field g c0.x c0.y p) c0 := hb
  have hown0 : owner (take_field g c0.x c0.y p) c0 = p := by
    rw [take_field_owner]
    exact if_pos rfl
  have hF0 : ForestOn (take_field g c0.x c0.y p) (fun c => c ≠ c0) rep rk :=
    take_field_forest hF c0.x c0.y p hfree
  have hI := @move_loop_spec (take_field g c0.x c0.y p) _ _ _ _ hw hh hb0 hp0 hF0
  have hsizes := @move_loop_sizes (take_field g c0.x c0.y p) _ _ _ _ hw hh hb0 hp0 hF0
  have hroots0 : ∀ q, q ≠ 0 →
      roots_in (take_field g c0.x c0.y p) (fun c => c ≠ c0) q = roots g q :=
    fun q hq => take_field_roots_in g c0.x c0.y p q hq hfree
  have hareas_g := hC.areas_eq p hp
  have hareas0 : ((take_field g c0.x c0.y p).players (p - 1)).num_of_areas =
      (g.players (p - 1)).num_of_areas + 1 := by
    rw [take_field_players_same]
    exact inc64_of_lt (hC.num_areas_lt hp)
  have hnr0 : ¬ is_root g c0 := fun h => h.2.1 hfree
  have hownG : ∀ c, owner (take_field g c0.x c0.y p) c = if c = c0 then p else owner g c :=
    fun c => take_field_owner g c0.x c0.y p c
  rw [move_util_unfold]
  generalize hst : (List.range DIRECTIONS).foldl (move_util_step c0.x c0.y p)
    { g := take_field g c0.x c0.y p, neigbours := fun _ => { x := 0, y := 0 }, l := 0 } = st
    at hI hsizes ⊢
  by_cases hl : st.l = 0
  · -- no neighbour of `p`: a new area of size 1
    rw [if_pos hl]
    have hg := hI.none hl
    rw [hg]
    have hnone : ∀ d, owns (take_field g c0.x c0.y p) p d → adjacent c0 d → False := by
      intro d hd hadj
      obtain ⟨i, hi, e⟩ := adjacent_is_nbr hw hh hb0 hd.1 hadj
      obtain ⟨j, hj, _⟩ := hI.nb_all i hi (e ▸ hd)
      omega
    have hps : ∀ d : field_t, live (take_field g c0.x c0.y p) (fun c => c ≠ c0) d →
        (set2D (take_field g c0.x c0.y p).parents c0.x c0.y c0 d.x d.y =
            par (take_field g c0.x c0.y p) d ∨
         set2D (take_field g c0.x c0.y p).parents c0.x c0.y c0 d.x d.y = rep d) := by
      intro d hd
      left
      rw [set2D_cell, if_neg hd.1]
      rfl
    generalize hG1 : ({ take_field g c0.x c0.y p with
        parents := set2D (take_field g c0.x c0.y p).parents c0.x c0.y { x := c0.x, y := c0.y }
        areas_size := set2D (take_field g c0.x c0.y p).areas_size c0.x c0.y 1 } : gamma) = G1
    have e1 : G1.width = g.width := by rw [← hG1]; rfl
    have e2 : G1.height = g.height := by rw [← hG1]; rfl
    have e3 : G1.player_arr = (take_field g c0.x c0.y p).player_arr := by rw [← hG1]
    have e4 : G1.parents = set2D (take_field g c0.x c0.y p).parents c0.x c0.y c0 := by
      rw [← hG1]
    have e5 : G1.areas_size = set2D g.areas_size c0.x c0.y 1 := by rw [← hG1]; rfl
    have hF1 : ForestOn G1 (fun c => c ≠ c0) rep rk :=
      (hF0.compress _ hps).forest_congr e1 e2 e3 e4
    have hown1 : ∀ c, owner G1 c = if c = c0 then p else owner g c := by
      intro c
      unfold owner
      rw [e3]
      exact hownG c
    have hpar1 : ∀ c, par G1 c = if c = c0 then c0 else par g c := by
      intro c
      unfold par
      rw [e4, set2D_cell]
      rfl
    have hnone1 : ∀ d, owns G1 p d → adjacent c0 d → False :=
      fun d hd => hnone d ((@owns_congr (take_field g c0.x c0.y p) G1 e1 e2 e3 p d).mp hd)
    have hFfull := extend_forest_single hF1 (by rw [hown1, if_pos rfl])
      (by rw [hpar1, if_pos rfl]) hnone1
    apply (size_on_iff hFfull).mpr
    apply size_on_single hS e1 e2 hown1 hp0 hfree hb
    · intro d hd ho e
      have := (hF.rep_live d ⟨trivial, hd, ho⟩).2
      rw [e, hfree] at this
      exact ho this.symm
    · intro c
      unfold is_root on_board
      rw [hown1, hpar1, e1, e2]
      by_cases hc : c = c0
      · subst hc
        rw [if_pos rfl, if_pos rfl]
        exact ⟨fun _ => Or.inl rfl, fun _ => ⟨hb, hp0, rfl⟩⟩
      · rw [if_neg hc, if_neg hc]
        exact ⟨fun h => Or.inr h, fun h => h.resolve_left hc⟩
    · intro c
      rw [e5, set2D_cell]
  · -- some neighbour of `p`: join and merge
    rw [if_neg hl]
    have hpos : 0 < st.l := Nat.pos_of_ne_zero hl
    have hsome := hI.some hpos
    have hsz := hsizes hpos
    have hc0s : owns st.g p c0 := (hI.frame.framep_owns_iff p c0).mpr ⟨hb0, hown0⟩
    have hnb : ∀ j, j < st.l → owns st.g p (st.neigbours j) ∧ adjacent c0 (st.neigbours j) := by
      intro j hj
      have := hI.nb_ok j hj
      exact ⟨(hI.frame.framep_owns_iff p _).mpr this.1, this.2⟩
    have hareas_s : (st.g.players (p - 1)).num_of_areas =
        (roots_in st.g (fun c => c ≠ c0) p).card := by
      rw [hsome.1, hareas0, hI.roots p hp0, hroots0 p hp0, ← hareas_g]
      rw [dec64_of_pos (by omega)]
      omega
    have hRroots : (Finset.range st.l).image (fun j => rep (st.neigbours j)) ⊆
        roots_in st.g (fun c => c ≠ c0) p := by
      intro r hr
      obtain ⟨j, hj, e⟩ := Finset.mem_image.mp hr
      obtain ⟨a1, a2⟩ := hnb j (Finset.mem_range.mp hj)
      have hlj : live st.g (fun c => c ≠ c0) (st.neigbours j) :=
        ⟨fun e => adjacent_ne a2 e.symm, a1.1, by rw [a1.2]; exact hp0⟩
      have b1 := hI.forest.rep_live _ hlj
      rw [← e, mem_roots_in]
      exact ⟨b1.1.2.1, b1.1.1, b1.2.trans a1.2, hI.forest.rep_root _ hlj⟩
    have hR : ∀ r, r ∈ (Finset.range st.l).image (fun j => rep (st.neigbours j)) →
        is_root g r ∧ owner g r = p := by
      intro r hr
      have := hRroots hr
      rw [hI.roots p hp0, hroots0 p hp0, mem_roots] at this
      exact ⟨⟨this.1, by rw [this.2.1]; exact hp0, this.2.2⟩, this.2.1⟩
    have hmem0 : rep (st.neigbours 0) ∈ (Finset.range st.l).image (fun j => rep (st.neigbours j)) :=
      Finset.mem_image.mpr ⟨0, Finset.mem_range.mpr hpos, rfl⟩
    have hr0size : g.areas_size (rep (st.neigbours 0)).x (rep (st.neigbours 0)).y + 1 <
        UINT64_MOD := by
      rw [(hS _).1 (hR _ hmem0).1]
      have := tree_card_le g rep (rep (st.neigbours 0))
      omega
    rw [take_field_areas_size, inc64_of_lt hr0size] at hsz
    have hsum : size_sum st.g ((Finset.range st.l).image (fun j => rep (st.neigbours j))) =
        size_sum g ((Finset.range st.l).image (fun j => rep (st.neigbours j))) + 1 :=
      size_sum_bump g st.g.areas_size hmem0 hsz
    have hsum_le : size_sum g ((Finset.range st.l).image (fun j => rep (st.neigbours j))) ≤
        g.width * g.height := by
      rw [size_sum_trees hS (fun r hr => (hR r hr).1), ← card_board]
      exact Finset.card_le_card (Finset.filter_subset _ _)
    obtain ⟨acc, rk1, f1, f2, f3, f4, f5, f7, f8⟩ :=
      remove_same_areas_full hp0 hpos hI.forest hc0s hnb hareas_s (by rw [hsum]; omega)
    have hfr : FrameP p (take_field g c0.x c0.y p)
        (remove_same_areas st.g st.neigbours st.l p) := hI.frame.framep_trans f1
    have hl0 : live st.g (fun c => c ≠ c0) (st.neigbours 0) := by
      obtain ⟨a1, a2⟩ := hnb 0 hpos
      exact ⟨fun e => adjacent_ne a2 e.symm, a1.1, by rw [a1.2]; exact hp0⟩
    have hr_live := hI.forest.rep_live _ hl0
    have hr_rep : rep (rep (st.neigbours 0)) = rep (st.neigbours 0) := hI.forest.rep_rep _ hl0
    have hown1 : owner (remove_same_areas st.g st.neigbours st.l p) c0 = p :=
      (hfr.framep_owner_eq c0).trans hown0
    have hpar1 : par (remove_same_areas st.g st.neigbours st.l p) c0 = rep (st.neigbours 0) :=
      f7.trans hsome.2
    have hr1 : live (remove_same_areas st.g st.neigbours st.l p) (fun c => c ≠ c0)
        (rep (st.neigbours 0)) := (f1.live_iff _ _).mpr hr_live.1
    have hro1 : owner (remove_same_areas st.g st.neigbours st.l p) (rep (st.neigbours 0)) = p := by
      rw [f1.framep_owner_eq, hr_live.2, (hnb 0 hpos).1.2]
    have hracc : merged_rep rep ((Finset.range st.l).image (fun j => rep (st.neigbours j))) acc
        (rep (st.neigbours 0)) = acc := by
      unfold merged_rep
      rw [hr_rep, if_pos hmem0]
    have hconn_nb : ∀ j, j < st.l → Conn st.g p c0 (rep (st.neigbours j)) := by
      intro j hj
      obtain ⟨a1, a2⟩ := hnb j hj
      have hlj : live st.g (fun c => c ≠ c0) (st.neigbours j) :=
        ⟨fun e => adjacent_ne a2 e.symm, a1.1, by rw [a1.2]; exact hp0⟩
      have a3 := hI.forest.rep_conn _ hlj
      rw [a1.2] at a3
      exact (Conn.single ⟨a2, hc0s, a1⟩).conn_trans a3
    have hconn1 : Conn (remove_same_areas st.g st.neigbours st.l p) p c0 acc := by
      rw [f1.framep_conn_iff]
      obtain ⟨j, hj, e⟩ := Finset.mem_image.mp f3
      rw [← e]
      exact hconn_nb j (Finset.mem_range.mp hj)
    have hadj1 : ∀ d, owns (remove_same_areas st.g st.neigbours st.l p) p d → adjacent c0 d →
        merged_rep rep ((Finset.range st.l).image (fun j => rep (st.neigbours j))) acc d
          = acc := by
      intro d hd hadj
      have hd0 : owns (take_field g c0.x c0.y p) p d := (hfr.framep_owns_iff p d).mp hd
      obtain ⟨i, hi, e⟩ := adjacent_is_nbr hw hh hb0 hd0.1 hadj
      obtain ⟨j, hj, e2⟩ := hI.nb_all i hi (e ▸ hd0)
      unfold merged_rep
      rw [if_pos]
      rw [e, ← e2]
      exact Finset.mem_image.mpr ⟨j, Finset.mem_range.mpr hj, rfl⟩
    have hFfull := extend_forest f2 hown1 hpar1 hr1 hro1 hracc hconn1 hadj1
    have hnotroot : par (remove_same_areas st.g st.neigbours st.l p) c0 ≠ c0 := by
      rw [hpar1]; exact hr_live.1.1
    clear hpar1 hr1 hro1 hconn1 hadj1 hown1 f2 f7
    generalize remove_same_areas st.g st.neigbours st.l p = G1 at f1 f4 f5 f8 hfr hFfull hnotroot ⊢
    have hownG1 : ∀ c, owner G1 c = if c = c0 then p else owner g c := by
      intro c
      rw [hfr.framep_owner_eq]
      exact hownG c
    apply (size_on_iff hFfull).mpr
    apply size_on_merged hS hfr.width hfr.height hownG1 hp0 hfree hb
      (fun r hr => (hR r hr).1) f3
    · intro c
      by_cases hc : c = c0
      · subst hc
        exact ⟨fun h => absurd h.2.2 hnotroot, fun h => absurd h.1 hnr0⟩
      · have hbG : on_board G1 c ↔ on_board g c := by
          unfold on_board
          rw [hfr.width, hfr.height]
          exact Iff.rfl
        have hoG : owner G1 c = owner g c := by rw [hownG1, if_neg hc]
        by_cases hq : owner g c = p
        · have hiff : is_root G1 c ↔ c ∈ roots_in G1 (fun c => c ≠ c0) p := by
            rw [mem_roots_in]
            unfold is_root
            rw [hoG, hq]
            exact ⟨fun h => ⟨h.1, hc, rfl, h.2.2⟩, fun h => ⟨h.1, hp0, h.2.2.2⟩⟩
          rw [hiff, f4, Finset.mem_filter, hI.roots p hp0, hroots0 p hp0, mem_roots]
          unfold is_root
          rw [hq]
          constructor
          · rintro ⟨⟨a1, _, a3⟩, a4⟩; exact ⟨⟨a1, hp0, a3⟩, a4⟩
          · rintro ⟨⟨a1, _, a3⟩, a4⟩; exact ⟨⟨a1, rfl, a3⟩, a4⟩
        · by_cases hq0 : owner g c = 0
          · constructor
            · intro h; exact absurd (hoG ▸ hq0) h.2.1
            · intro h; exact absurd hq0 h.1.2.1
          · have hiff : is_root G1 c ↔ c ∈ roots_in G1 (fun c => c ≠ c0) (owner g c) := by
              rw [mem_roots_in]
              unfold is_root
              rw [hoG]
              exact ⟨fun h => ⟨h.1, hc, rfl, h.2.2⟩, fun h => ⟨h.1, hq0, h.2.2.2⟩⟩
            rw [hiff, f5 _ hq0 hq, hI.roots _ hq0, hroots0 _ hq0, mem_roots]
            have hcR : c ∉ (Finset.range st.l).image (fun j => rep (st.neigbours j)) :=
              fun h => hq (hR c h).2
            unfold is_root
            constructor
            · rintro ⟨a1, _, a3⟩; exact ⟨⟨a1, hq0, a3⟩, Or.inl hcR⟩
            · rintro ⟨⟨a1, _, a3⟩, _⟩; exact ⟨a1, rfl, a3⟩
    · intro c
      rw [f8 c, hsum]
      by_cases c1 : c = acc
      · rw [if_pos c1, if_pos c1]
      · rw [if_neg c1, if_neg c1]
        by_cases c2 : c ∈ (Finset.range st.l).image (fun j => rep (st.neigbours j))
        · rw [if_pos c2, if_pos c2]
        · have c3 : c ≠ rep (st.neigbours 0) := fun e => c2 (by rw [e]; exact hmem0)
          rw [if_neg c2, if_neg c2, hsz, set2D_cell, if_neg c3]

/-! ## Area sizes while a stone is removed -/

theorem comp_congr {g g1 : gamma} (hw : g1.width = g.width) (hh : g1.height = g.height)
    (hp : g1.player_arr = g.player_arr) (c : field_t) : comp g1 c = comp g c := by
  have ho : owner g1 c = owner g c := by unfold owner; rw [hp]
  ext d
  unfold comp
  rw [Set.mem_setOf_eq, Set.mem_setOf_eq, ho, owns_congr hw hh hp, Conn_congr hw hh hp]

/-- The sizes after `delete_field`: the entry of the root of the vacated cell is cleared. -/
theorem del_size_init {g g1 : gamma} {rep : field_t → field_t} {rk : field_t → Nat}
    {c0 : field_t} {q : Nat} {ps : Nat → Nat → field_t}
    (hC : Core g) (hF : ForestOn g (fun _ => True) rep rk) (hSI : SizeInv g)
    (hq : valid_player g q) (hown : owns g q c0)
    (hps : ∀ d : field_t, live g (fun _ => True) d →
      (ps d.x d.y = par g d ∨ ps d.x d.y = rep d))
    (e5 : g1.parents = ps) (e9 : g1.visited = g.visited)
    (esz : g1.areas_size = set2D g.areas_size (rep c0).x (rep c0).y 0) :
    DelSize g rep c0 q g1 := by
  have hq0 : q ≠ 0 := by have := hq.1; omega
  have hl0 : live g (fun _ => True) c0 := ⟨trivial, hown.1, by rw [hown.2]; exact hq0⟩
  have hvis : ∀ c, vis g1 c = 0 := by
    intro c; unfold vis; rw [e9]; exact hC.visited_zero _ _
  have hr0 := hF.rep_live c0 hl0
  constructor
  · intro c hc
    rw [esz, set2D_cell, if_neg]
    rintro rfl
    exact hc ⟨hr0.1.2.1, hr0.2.trans hown.2, hF.rep_rep c0 hl0⟩
  · intro c hc _
    unfold par
    rw [e5]
    exact compress_root_iff hF ps hps c hc
  · intro c _ _ _ hv
    exact absurd (hvis c) hv
  · intro c hb ho hr _
    rw [esz, set2D_cell]
    by_cases hc : c = rep c0
    · rw [if_pos hc]
    · rw [if_neg hc]
      apply (hSI c).2
      intro hroot
      have := hF.rep_self c ⟨trivial, hroot.1, hroot.2.1⟩ hroot.2.2
      exact hc (this.symm.trans hr)

/-- A flood fill from the seed `s`: the seed becomes the root of its new area and its entry
receives the number of cells of that area. -/
theorem del_size_fill {g h h2 : gamma} {rep : field_t → field_t} {rk : field_t → Nat}
    {c0 s : field_t} {q k cnt : Nat}
    (hF : ForestOn g (fun _ => True) rep rk) (hq : q ≠ 0)
    (hI : DelInv g rep c0 q k h) (hS : DelSize g rep c0 q h)
    (hs : owns h q s) (hv : vis h s = 0) (hsA : rep s = rep c0)
    (hw : h2.width = h.width) (hh : h2.height = h.height)
    (hpa : h2.player_arr = h.player_arr)
    (v1 : ∀ c, vis h c ≠ 0 → vis h2 c ≠ 0)
    (v2 : ∀ c, vis h c = 0 → (vis h2 c ≠ 0 ↔ owns h q c ∧ Conn h q s c))
    (p1 : ∀ c, vis h c = 0 → owns h q c → Conn h q s c → par h2 c = s)
    (p2 : ∀ c, (vis h c ≠ 0 ∨ ¬ (owns h q c ∧ Conn h q s c)) → par h2 c = par h c)
    (hcnt : cnt + (unvisited h2 q).card = (unvisited h q).card)
    (sz : h2.areas_size = set2D h.areas_size s.x s.y cnt) :
    DelSize g rep c0 q h2 := by
  have hsg := (hI.del_owns_iff q hq s).mp hs
  have hN_unv : ∀ c, owns h q c → Conn h q s c → vis h c = 0 := by
    intro c _ hconn
    by_contra hne
    exact (closed_conn hI.vis_closed hconn.conn_symm hne) hv
  have hmono : ∀ c, owns h q c → owns g q c := fun c hc => ((hI.del_owns_iff q hq c).mp hc).1
  have hNA : ∀ c, owns h q c → Conn h q s c →
      (on_board g c ∧ owner g c = q ∧ rep c = rep c0) := by
    intro c hc hconn
    have a1 := hmono c hc
    have a2 : Conn g q s c := Conn.conn_mono hmono hconn
    exact ⟨a1.1, a1.2, (hF.rep_of_conn hq a2).symm.trans hsA⟩
  have hcomp : comp (reassign g c0.x c0.y 0) s = comp h s :=
    (@comp_congr (reassign g c0.x c0.y 0) h hI.width hI.height hI.player_arr s).symm
  have hcount : cnt = Set.ncard (comp (reassign g c0.x c0.y 0) s) := by
    have e1 : (unvisited h q).filter (fun c => ¬ vis h2 c ≠ 0) = unvisited h2 q := by
      ext c
      rw [Finset.mem_filter, mem_unvisited, mem_unvisited]
      unfold on_board owner
      rw [hw, hh, hpa]
      constructor
      · rintro ⟨⟨a1, _, a3⟩, a4⟩
        exact ⟨a1, not_not.mp a4, a3⟩
      · rintro ⟨a1, a2, a3⟩
        refine ⟨⟨a1, ?_, a3⟩, not_not.mpr a2⟩
        by_contra hne
        exact v1 c hne a2
    have e2 := Finset.filter_card_add_filter_neg_card_eq_card (s := unvisited h q)
      (fun c => vis h2 c ≠ 0)
    rw [e1] at e2
    have e3 : comp h s = ↑((unvisited h q).filter (fun c => vis h2 c ≠ 0)) := by
      ext d
      unfold comp
      rw [Set.mem_setOf_eq, Finset.mem_coe, Finset.mem_filter, mem_unvisited, hs.2]
      constructor
      · rintro ⟨a1, a2⟩
        have a3 := hN_unv d a1 a2.conn_symm
        exact ⟨⟨a1.1, a3, a1.2⟩, (v2 d a3).mpr ⟨a1, a2.conn_symm⟩⟩
      · rintro ⟨⟨a1, a2, a3⟩, a4⟩
        have := (v2 d a2).mp a4
        exact ⟨this.1, this.2.conn_symm⟩
    rw [hcomp, e3, Set.ncard_coe_Finset]
    omega
  have hs_vis : vis h2 s ≠ 0 := (v2 s hv).mpr ⟨hs, Conn.conn_refl h q s⟩
  have hs_par : par h2 s = s := p1 s hv hs (Conn.conn_refl h q s)
  constructor
  · intro c hc
    have hcs : c ≠ s := by
      rintro rfl
      exact hc ⟨hsg.1.1, hsg.1.2, hsA⟩
    rw [sz, set2D_cell, if_neg hcs]
    exact hS.out_size c hc
  · intro c hc hn
    rw [p2 c (Or.inr (fun hx => hn (hNA c hx.1 hx.2).2))]
    exact hS.out_root c hc hn
  · intro c hb ho hr hv2 hp2
    rw [sz, set2D_cell]
    by_cases hcs : c = s
    · rw [if_pos hcs, hcs]
      exact hcount
    · rw [if_neg hcs]
      by_cases hN : owns h q c ∧ Conn h q s c
      · have := p1 c (hN_unv c hN.1 hN.2) hN.1 hN.2
        rw [hp2] at this
        exact absurd this hcs
      · have hvc : vis h c ≠ 0 := by
          intro hz
          exact hN ((v2 c hz).mp hv2)
        rw [p2 c (Or.inr hN)] at hp2
        exact hS.in_root c hb ho hr hvc hp2
  · intro c hb ho hr hn
    rw [sz, set2D_cell]
    by_cases hcs : c = s
    · subst hcs
      exact absurd ⟨hs_vis, hs_par⟩ hn
    · rw [if_neg hcs]
      apply hS.in_zero c hb ho hr
      rintro ⟨a1, a2⟩
      apply hn
      refine ⟨v1 c a1, ?_⟩
      rw [p2 c (Or.inl a1)]
      exact a2

/-- One iteration of the `for` loop of `delete_util` keeps the invariant of the sizes. -/
theorem del_size_step {g h : gamma} {rep : field_t → field_t} {rk : field_t → Nat}
    {c0 : field_t} {q k : Nat}
    (hC : Core g) (hF : ForestOn g (fun _ => True) rep rk) (hq : valid_player g q)
    (hown : owns g q c0) (hI : DelInv g rep c0 q k h) (hS : DelSize g rep c0 q h)
    (hk : k < 4) :
    DelSize g rep c0 q (delete_util_step c0.x c0.y q h k) := by
  have hq0 : q ≠ 0 := by have := hq.1; omega
  cases hc : dfs_condition h (add32 c0.x (x_dir k)) (add32 c0.y (y_dir k)) q
  · rw [delete_util_step_skip _ _ _ _ _ hc]
    exact hS
  · rw [delete_util_step_fill _ _ _ _ _ hc]
    have hc2 : on_board h (nbr c0 k) ∧ vis h (nbr c0 k) = 0 ∧ owner h (nbr c0 k) = q :=
      (dfs_condition_iff h (nbr c0 k) q).mp hc
    have hs : owns h q (nbr c0 k) := ⟨hc2.1, hc2.2.2⟩
    have hsg := (hI.del_owns_iff q hq0 _).mp hs
    have hadj : adjacent c0 (nbr c0 k) :=
      nbr_on_board_adjacent hC.width_lt hC.height_lt hown.1 hk hsg.1.1
    have hsA : rep (nbr c0 k) = rep c0 :=
      hF.rep_adj _ _ ⟨trivial, hsg.1.1, by rw [hsg.1.2]; exact hq0⟩
        ⟨trivial, hown.1, by rw [hown.2]; exact hq0⟩ (hsg.1.2.trans hown.2.symm)
        (adjacent_symm hadj)
    obtain ⟨s1, _, s3, s4, s5, s6, s7⟩ := set_parent_dfs_spec
      (by rw [hI.width]; exact hC.width_lt) (by rw [hI.height]; exact hC.height_lt) hs hc2.2.1
      (by rw [hI.stack]; exact hC.stack_empty)
      (by rw [hI.stack, hI.width, hI.height]; exact hC.stack_size) hI.vis_closed
    change DelSize g rep c0 q
      { inc_areas (set_parent_dfs h (nbr c0 k) (nbr c0 k).x (nbr c0 k).y q).1 q with
        areas_size := set2D
          (inc_areas (set_parent_dfs h (nbr c0 k) (nbr c0 k).x (nbr c0 k).y q).1 q).areas_size
          (nbr c0 k).x (nbr c0 k).y
          (set_parent_dfs h (nbr c0 k) (nbr c0 k).x (nbr c0 k).y q).2 }
    generalize set_parent_dfs h (nbr c0 k) (nbr c0 k).x (nbr c0 k).y q = res at s1 s3 s4 s5 s6 s7 ⊢
    refine del_size_fill hF hq0 hI hS hs hc2.2.1 hsA s1.width s1.height s1.player_arr s3 s4 s5 s6
      s7 ?_
    change set2D res.1.areas_size (nbr c0 k).x (nbr c0 k).y res.2 = _
    rw [s1.areas_size]

/-- The sizes after the `for` loop of `delete_util`. -/
theorem del_size_loop {g h : gamma} {rep : field_t → field_t} {rk : field_t → Nat}
    {c0 : field_t} {q : Nat}
    (hC : Core g) (hF : ForestOn g (fun _ => True) rep rk) (hq : valid_player g q)
    (hown : owns g q c0) (hI : DelInv g rep c0 q 0 h) (hS : DelSize g rep c0 q h) :
    DelSize g rep c0 q ((List.range DIRECTIONS).foldl (delete_util_step c0.x c0.y q) h) := by
  have h1 := delete_step hC hF hq hown hI (by omega : 0 < 4)
  have h2 := delete_step hC hF hq hown h1 (by omega : 1 < 4)
  have h3 := delete_step hC hF hq hown h2 (by omega : 2 < 4)
  rw [range_directions]
  simp only [List.foldl]
  exact del_size_step hC hF hq hown h3
    (del_size_step hC hF hq hown h2
      (del_size_step hC hF hq hown h1
        (del_size_step hC hF hq hown hI hS (by omega)) (by omega)) (by omega)) (by omega)

/-- An area of `g` away from the vacated cell `c0` is the same area after the removal. -/
theorem comp_removed {g : gamma} {rep : field_t → field_t} {rk : field_t → Nat}
    {c0 c : field_t} {q : Nat} (hF : ForestOn g (fun _ => True) rep rk)
    (hown : owns g q c0) (hc : live g (fun _ => True) c)
    (hn : ¬ (owner g c = q ∧ rep c = rep c0)) :
    comp (reassign g c0.x c0.y 0) c = comp g c := by
  have hne : c ≠ c0 := by
    rintro rfl
    exact hn ⟨hown.2, rfl⟩
  have hoR : ∀ d, owner (reassign g c0.x c0.y 0) d = if d = c0 then 0 else owner g d := by
    intro d
    unfold owner reassign
    exact set2D_cell _ _ _ _
  have hoc : owner (reassign g c0.x c0.y 0) c = owner g c := by rw [hoR, if_neg hne]
  have hsub : ∀ d, owns (reassign g c0.x c0.y 0) (owner g c) d → owns g (owner g c) d := by
    intro d hd
    refine ⟨hd.1, ?_⟩
    have := hd.2
    rw [hoR] at this
    by_cases hd0 : d = c0
    · rw [if_pos hd0] at this
      exact absurd this.symm hc.2.2
    · rw [if_neg hd0] at this
      exact this
  ext d
  unfold comp
  rw [Set.mem_setOf_eq, Set.mem_setOf_eq, hoc]
  constructor
  · rintro ⟨a1, a2⟩
    exact ⟨hsub d a1, Conn.conn_mono hsub a2⟩
  · rintro ⟨a1, a2⟩
    have hav : ∀ e, Conn g (owner g c) d e → e ≠ c0 := by
      intro e he
      rintro rfl
      have hoe := he.owns_right a1
      have hr : rep e = rep c :=
        (hF.rep_of_conn hc.2.2 he).symm.trans (hF.rep_of_conn hc.2.2 a2)
      exact hn ⟨hoe.2.symm.trans hown.2, hr.symm⟩
    have hd0 : d ≠ c0 := hav d (Conn.conn_refl g _ d)
    have hown2 : ∀ e, e ≠ c0 →
        (owns (reassign g c0.x c0.y 0) (owner g c) e ↔ owns g (owner g c) e) := by
      intro e he
      unfold owns
      rw [hoR, if_neg he]
      exact Iff.rfl
    exact ⟨(hown2 d hd0).mpr a1, conn_avoid hown2 a2 hav⟩

/-- The sizes after the `for` loop of `delete_util` and the clearing of the visited markers
satisfy the invariant of the area sizes. -/
theorem del_size_final {g g2 g3 : gamma} {rep : field_t → field_t} {rk : field_t → Nat}
    {c0 : field_t} {q : Nat}
    (hC : Core g) (hF : ForestOn g (fun _ => True) rep rk) (hSI : SizeInv g)
    (hq : valid_player g q) (hown : owns g q c0) (hI : DelInv g rep c0 q 4 g2)
    (hS : DelSize g rep c0 q g2) (hfv : FrameV g2 g3) (hpar : g3.parents = g2.parents) :
    SizeInv g3 := by
  have hq0 : q ≠ 0 := by have := hq.1; omega
  have hl0 : live g (fun _ => True) c0 := ⟨trivial, hown.1, by rw [hown.2]; exact hq0⟩
  have hw3 : g3.width = g.width := hfv.width.trans hI.width
  have hh3 : g3.height = g.height := hfv.height.trans hI.height
  have hp3 : g3.player_arr = (reassign g c0.x c0.y 0).player_arr :=
    hfv.player_arr.trans hI.player_arr
  have hcomp3 : ∀ c, comp g3 c = comp (reassign g c0.x c0.y 0) c :=
    fun c => @comp_congr (reassign g c0.x c0.y 0) g3 hw3 hh3 hp3 c
  have ho3 : ∀ c, owner g3 c = if c = c0 then 0 else owner g c := by
    intro c
    unfold owner
    rw [hp3]
    exact set2D_cell _ _ _ _
  have hb3 : ∀ c, on_board g3 c ↔ on_board g c := by
    intro c; unfold on_board; rw [hw3, hh3]
  have hpar3 : ∀ c, par g3 c = par g2 c := by
    intro c; unfold par; rw [hpar]
  have hsz3 : ∀ c : field_t, g3.areas_size c.x c.y = g2.areas_size c.x c.y := by
    intro c; rw [hfv.areas_size]
  intro c
  by_cases hA : on_board g c ∧ owner g c = q ∧ rep c = rep c0
  · obtain ⟨hb, ho, hr⟩ := hA
    by_cases hc0 : c = c0
    · have hnr : ¬ is_root g3 c := by
        intro h
        have := h.2.1
        rw [ho3, if_pos hc0] at this
        exact this rfl
      refine ⟨fun h => absurd h hnr, fun _ => ?_⟩
      rw [hsz3]
      apply hS.in_zero c hb ho hr
      rintro ⟨hv, _⟩
      have := (hI.vis_in c hv).1.2
      rw [hI.del_owner_eq, if_pos hc0] at this
      exact hq0 this.symm
    · have ho2 : owner g2 c = q := by rw [hI.del_owner_eq, if_neg hc0]; exact ho
      have hl2 : live g2 (fun _ => True) c :=
        ⟨trivial, (hI.del_on_board_iff c).mpr hb, by rw [ho2]; exact hq0⟩
      have hv : vis g2 c ≠ 0 := by
        rcases delete_cover hC hF hq hown hI c hl2 with a | a
        · exact absurd ⟨ho, hr⟩ a
        · exact a
      constructor
      · intro hroot
        have hp2 : par g2 c = c := by rw [← hpar3]; exact hroot.2.2
        rw [hsz3, hS.in_root c hb ho hr hv hp2, hcomp3]
      · intro hroot
        rw [hsz3]
        apply hS.in_zero c hb ho hr
        rintro ⟨_, hp2⟩
        apply hroot
        refine ⟨(hb3 c).mpr hb, ?_, by rw [hpar3]; exact hp2⟩
        rw [ho3, if_neg hc0, ho]
        exact hq0
  · have hc0 : c ≠ c0 := by
      rintro rfl
      exact hA ⟨hown.1, hown.2, rfl⟩
    have hoc : owner g3 c = owner g c := by rw [ho3, if_neg hc0]
    rw [hsz3, hS.out_size c hA]
    by_cases hl : on_board g c ∧ owner g c ≠ 0
    · have hlc : live g (fun _ => True) c := ⟨trivial, hl.1, hl.2⟩
      have hn : ¬ (owner g c = q ∧ rep c = rep c0) := fun h => hA ⟨hl.1, h.1, h.2⟩
      have hroot : is_root g3 c ↔ is_root g c := by
        unfold is_root
        rw [hb3, hoc, hpar3, hS.out_root c hlc hn]
      constructor
      · intro h3
        rw [(hSI c).1 (hroot.mp h3), hcomp3, comp_removed hF hown hlc hn]
      · intro h3
        exact (hSI c).2 (fun h => h3 (hroot.mpr h))
    · constructor
      · intro h3
        exact absurd ⟨(hb3 c).mp h3.1, by rw [← hoc]; exact h3.2.1⟩ hl
      · intro _
        exact (hSI c).2 (fun h => hl ⟨h.1, h.2.1⟩)

/-- Removing a stone with `delete_util` keeps the invariant of the area sizes. -/
theorem delete_util_sizes {g : gamma} {c0 : field_t} {q : Nat}
    (hC : Core g) (hSI : SizeInv g) (hq : valid_player g q) (hown : owns g q c0) :
    SizeInv (delete_util g c0.x c0.y q) := by
  obtain ⟨rep, rk, hF⟩ := hC.forest
  have hq0 : q ≠ 0 := by have := hq.1; omega
  have hl0 : live g (fun _ => True) c0 := ⟨trivial, hown.1, by rw [hown.2]; exact hq0⟩
  obtain ⟨ps, hfp, hps⟩ := find_parent_spec hF c0 hl0
  have hps2 : ∀ d : field_t, live g (fun _ => True) d →
      (ps d.x d.y = par g d ∨ ps d.x d.y = rep d) := by
    intro d _
    rcases hps d with a | a
    · exact Or.inl a
    · exact Or.inr a.2
  have hfp2 : find_parent g { x := c0.x, y := c0.y } = ({ g with parents := ps }, rep c0) := hfp
  have hI0 : DelInv g rep c0 q 0 (delete_field g q c0.x c0.y) := by
    apply delete_field_inv hC hF hq hown hps2 <;> (unfold delete_field; rw [hfp2])
    rfl
  have hS0 : DelSize g rep c0 q (delete_field g q c0.x c0.y) := by
    apply del_size_init hC hF hSI hq hown hps2 <;> (unfold delete_field; rw [hfp2])
  have hI4 := delete_loop_spec hC hF hq hown hI0
  have hS4 := del_size_loop hC hF hq hown hI0 hS0
  rw [delete_util_unfold]
  have hb2 : on_board ((List.range DIRECTIONS).foldl (delete_util_step c0.x c0.y q)
      (delete_field g q c0.x c0.y)) c0 := (hI4.del_on_board_iff c0).mpr hown.1
  obtain ⟨i1, i2, _, _⟩ := init_visited_spec
    (by rw [hI4.width]; exact hC.width_lt) (by rw [hI4.height]; exact hC.height_lt) hb2
    (by rw [hI4.stack]; exact hC.stack_empty)
    (by rw [hI4.stack, hI4.width, hI4.height]; exact hC.stack_size) hI4.vis_reach
  exact del_size_final hC hF hSI hq hown hI4 hS4 i1 i2

/-! ## The area sizes under the public calls -/

theorem size_inv_congr {g g1 : gamma} (hw : g1.width = g.width) (hh : g1.height = g.height)
    (hpa : g1.player_arr = g.player_arr) (hpar : g1.parents = g.parents)
    (hsz : g1.areas_size = g.areas_size) (hS : SizeInv g) : SizeInv g1 := by
  have hroot : ∀ c, is_root g1 c ↔ is_root g c := by
    intro c
    unfold is_root on_board owner par
    rw [hw, hh, hpa, hpar]
  intro c
  rw [hsz, hroot, comp_congr hw hh hpa]
  exact hS c

theorem set_golden_sizes {g : gamma} (hS : SizeInv g) (p : Nat) (b : Bool) :
    SizeInv (set_golden g p b) :=
  size_inv_congr rfl rfl rfl rfl rfl hS

theorem gamma_move_sizes {g : gamma} (hC : Core g) (hS : SizeInv g) (p x y : Nat) :
    Core (gamma_move g p x y).2 ∧ SizeInv (gamma_move g p x y).2 := by
  by_cases hok : move_ok g p x y
  · rw [gamma_move_of_ok hok]
    obtain ⟨rep, rk, hF⟩ := hC.forest
    obtain ⟨h1, h2, h3, _⟩ := hok
    have hb : on_board g ({ x := x, y := y } : field_t) := h2
    have s1 := (@move_util_spec g p { x := x, y := y } rep rk hC hF h1 hb h3).1
    have s2 := @move_util_sizes g p { x := x, y := y } hC hS h1 hb h3
    change Core (move_util g x y p) at s1
    change SizeInv (move_util g x y p) at s2
    change Core (move_util g x y p) ∧ SizeInv (move_util g x y p)
    exact ⟨s1, s2⟩
  · rw [gamma_move_of_not_ok hok]
    exact ⟨hC, hS⟩

theorem delete_util_core_sizes {g : gamma} (hC : Core g) (hS : SizeInv g) {x y : Nat}
    (hb : on_board g { x := x, y := y }) (h0 : g.player_arr x y ≠ 0) :
    Core (delete_util g x y (g.player_arr x y)) ∧
      SizeInv (delete_util g x y (g.player_arr x y)) := by
  have hq : valid_player g (g.player_arr x y) :=
    @Core.valid_owner g hC { x := x, y := y } hb h0
  have hown : owns g (g.player_arr x y) { x := x, y := y } := ⟨hb, rfl⟩
  have s1 := (@delete_util_spec g { x := x, y := y } _ hC hq hown).1
  have s2 := @delete_util_sizes g { x := x, y := y } _ hC hS hq hown
  change Core (delete_util g x y (g.player_arr x y)) at s1
  change SizeInv (delete_util g x y (g.player_arr x y)) at s2
  exact ⟨s1, s2⟩

theorem delete_and_move_sizes {g : gamma} (hC : Core g) (hS : SizeInv g) (x y n : Nat)
    (hb : on_board g { x := x, y := y }) (h0 : g.player_arr x y ≠ 0) :
    Core (delete_and_move g x y n).2 ∧ SizeInv (delete_and_move g x y n).2 := by
  obtain ⟨d1, d2⟩ := delete_util_core_sizes hC hS hb h0
  rw [delete_and_move_unfold]
  generalize delete_util g x y (g.player_arr x y) = g1 at d1 d2 ⊢
  by_cases c1 : (decide ((g.players (n - 1)).num_of_areas ≥ g.max_num_of_areas)
      && count_neighbours g x y n == 0) = true
  · rw [if_pos c1]
    exact ⟨hC, hS⟩
  rw [if_neg c1]
  by_cases c2 : (g1.players (g.player_arr x y - 1)).num_of_areas > g1.max_num_of_areas
  · rw [if_pos c2]
    exact gamma_move_sizes d1 d2 _ x y
  rw [if_neg c2]
  have m := gamma_move_sizes d1 d2 n x y
  by_cases c3 : (!(gamma_move g1 n x y).1) = true
  · rw [if_pos c3]
    exact gamma_move_sizes m.1 m.2 _ x y
  · rw [if_neg c3]
    exact m

theorem gamma_golden_move_sizes {g : gamma} (hC : Core g) (hS : SizeInv g) (p x y : Nat) :
    Core (gamma_golden_move g p x y).2 ∧ SizeInv (gamma_golden_move g p x y).2 := by
  rw [gamma_golden_move_unfold]
  by_cases c1 : (wrong_player p g || wrong_field x y g) = true
  · rw [if_pos c1]; exact ⟨hC, hS⟩
  rw [if_neg c1]
  by_cases c2 : (g.players (p - 1)).has_played_golden_move = true
  · rw [if_pos c2]; exact ⟨hC, hS⟩
  rw [if_neg c2]
  by_cases c3 : (g.player_arr x y == p) = true
  · rw [if_pos c3]; exact ⟨hC, hS⟩
  rw [if_neg c3]
  by_cases c4 : no_field x y g = true
  · rw [if_pos c4]; exact ⟨hC, hS⟩
  rw [if_neg c4]
  simp only [Bool.or_eq_true, not_or, Bool.not_eq_true] at c1
  have hb : on_board g { x := x, y := y } := wrong_field_false_iff.mp c1.2
  have h0 : g.player_arr x y ≠ 0 := by
    intro e
    apply c4
    unfold no_field
    rw [e]
    rfl
  have d := delete_and_move_sizes hC hS x y p hb h0
  generalize delete_and_move g x y p = r at d ⊢
  by_cases c5 : r.1 = true
  · rw [if_pos c5]
    exact ⟨set_golden_core d.1 p true, set_golden_sizes d.2 p true⟩
  · rw [if_neg c5]
    exact d

theorem golden_no_checking_sizes {g : gamma} (hC : Core g) (hS : SizeInv g) (p x y : Nat) :
    Core (golden_no_checking_nor_changing g p x y).2 ∧
      SizeInv (golden_no_checking_nor_changing g p x y).2 := by
  rw [golden_no_checking_unfold]
  by_cases c1 : (wrong_player p g || wrong_field x y g) = true
  · rw [if_pos c1]; exact ⟨hC, hS⟩
  rw [if_neg c1]
  have d := gamma_golden_move_sizes (set_golden_core hC p false) (set_golden_sizes hS p false)
    p x y
  generalize gamma_golden_move (set_golden g p false) p x y = r at d ⊢
  exact ⟨set_golden_core d.1 p _, set_golden_sizes d.2 p _⟩

theorem golden_possible_scan_sizes (p : Nat) : ∀ (l : List (Nat × Nat)) (g : gamma),
    Core g → SizeInv g →
    Core (golden_possible_scan p l g).2 ∧ SizeInv (golden_possible_scan p l g).2 := by
  intro l
  induction l with
  | nil => intro g hC hS; exact ⟨hC, hS⟩
  | cons c rest ih =>
    intro g hC hS
    obtain ⟨i, j⟩ := c
    rw [golden_possible_scan_cons]
    have d := golden_no_checking_sizes hC hS p i j
    generalize golden_no_checking_nor_changing g p i j = r at d ⊢
    by_cases c1 : r.1 = true
    · rw [if_pos c1]
      exact golden_no_checking_sizes d.1 d.2 _ i j
    · rw [if_neg c1]
      exact ih r.2 d.1 d.2

theorem gamma_golden_possible_sizes {g : gamma} (hC : Core g) (hS : SizeInv g) (p : Nat) :
    Core (gamma_golden_possible g p).2 ∧ SizeInv (gamma_golden_possible g p).2 := by
  rw [gamma_golden_possible_unfold]
  by_cases c1 : wrong_player p g = true
  · rw [if_pos c1]; exact ⟨hC, hS⟩
  rw [if_neg c1]
  by_cases c2 : (g.players (p - 1)).has_played_golden_move = true
  · rw [if_pos c2]; exact ⟨hC, hS⟩
  rw [if_neg c2]
  by_cases c3 : (!golden_possible_heuristic g p) = true
  · rw [if_pos c3]; exact ⟨hC, hS⟩
  rw [if_neg c3]
  by_cases c4 : (g.players (p - 1)).num_of_areas < g.max_num_of_areas
  · rw [if_pos c4]; exact ⟨hC, hS⟩
  rw [if_neg c4]
  exact golden_possible_scan_sizes p _ g hC hS

theorem gamma_move_possible_sizes {g : gamma} (hC : Core g) (hS : SizeInv g) (p x y : Nat) :
    Core (gamma_move_possible g p x y).2 ∧ SizeInv (gamma_move_possible g p x y).2 := by
  rw [gamma_move_possible_unfold]
  by_cases c1 : (wrong_field x y g || wrong_player p g) = true
  · rw [if_pos c1]; exact ⟨hC, hS⟩
  rw [if_neg c1]
  have m := gamma_move_sizes hC hS p x y
  by_cases hok : move_ok g p x y
  · have hr := gamma_move_of_ok hok
    obtain ⟨rep, rk, hF⟩ := hC.forest
    have hb : on_board g ({ x := x, y := y } : field_t) := hok.2.1
    have hP := (@move_util_spec g p { x := x, y := y } rep rk hC hF hok.1 hb hok.2.2.1).2.1
    change Placed g p { x := x, y := y } (move_util g x y p) at hP
    rw [hr] at m ⊢
    simp only [Bool.not_true, Bool.false_eq_true, if_false]
    generalize move_util g x y p = g1 at m hP ⊢
    have hq : valid_player g1 p := by
      unfold valid_player
      rw [hP.num_of_players]
      exact hok.1
    have hown : owns g1 p { x := x, y := y } := by
      constructor
      · unfold on_board
        rw [hP.width, hP.height]
        exact hb
      · unfold owner
        rw [hP.player_arr, set2D_same]
    have s1 := (@delete_util_spec g1 { x := x, y := y } p m.1 hq hown).1
    have s2 := @delete_util_sizes g1 { x := x, y := y } p m.1 m.2 hq hown
    change Core (delete_util g1 x y p) at s1
    change SizeInv (delete_util g1 x y p) at s2
    exact ⟨s1, s2⟩
  · have hr := gamma_move_of_not_ok hok
    rw [hr]
    simp only [Bool.not_false, if_true]
    exact ⟨hC, hS⟩

theorem gamma_new_sizes {width height players areas : Nat} {g : gamma}
    (hnew : gamma_new width height players areas = some g) : SizeInv g := by
  unfold gamma_new at hnew
  by_cases hc : width < 1 ∨ height < 1 ∨ players < 1 ∨ areas < 1
  · rw [if_pos hc] at hnew
    exact absurd hnew (by simp)
  rw [if_neg hc] at hnew
  have hg := Option.some.inj hnew
  have e1 : ∀ x y, g.player_arr x y = 0 := by intro x y; rw [← hg]
  have e2 : ∀ x y, g.areas_size x y = 0 := by intro x y; rw [← hg]
  intro c
  have hnr : ¬ is_root g c := fun h => h.2.1 (e1 c.x c.y)
  exact ⟨fun h => absurd h hnr, fun _ => e2 c.x c.y⟩

/-- In every reachable state the area sizes satisfy their invariant. -/
theorem Reachable.reach_sizes {g : gamma} (h : Reachable g) : SizeInv g := by
  induction h with
  | new width height players areas g hw hh hp ha hnew => exact gamma_new_sizes hnew
  | move g player x y hr ih => exact (gamma_move_sizes hr.reach_inv.core ih player x y).2
  | golden_move g player x y hr ih =>
    exact (gamma_golden_move_sizes hr.reach_inv.core ih player x y).2
  | golden_possible g player hr ih =>
    exact (gamma_golden_possible_sizes hr.reach_inv.core ih player).2
  | move_possible g player x y hr ih =>
    exact (gamma_move_possible_sizes hr.reach_inv.core ih player x y).2

/-! ## Claims on the area sizes -/

/-- C29: in every reachable state, for every root `r` (an owned on-board cell that is its own
parent) the area-size entry of `r` is the number of owned cells whose parent chain ends at
`r`; and for every player the sum of the area-size entries over the roots of the player is
the busy count of the player. -/
theorem root_size_eq_tree (g : gamma) (hR : Reachable g) :
    (∀ r, is_root g r → g.areas_size r.x r.y =
      Set.ncard { d | on_board g d ∧ owner g d ≠ 0 ∧ reaches_root g d r }) ∧
    ∀ p, valid_player g p →
      (roots g p).sum (fun r => g.areas_size r.x r.y) = gamma_busy_fields g p := by
  have hC := hR.reach_inv.core
  obtain ⟨rep, rk, hF⟩ := hC.forest
  have hS := (size_on_iff hF).mp hR.reach_sizes
  constructor
  · intro r hr
    rw [(hS r).1 hr]
    have e : { d | on_board g d ∧ owner g d ≠ 0 ∧ reaches_root g d r } = ↑(tree g rep r) := by
      ext d
      rw [Set.mem_setOf_eq, Finset.mem_coe, mem_tree]
      constructor
      · rintro ⟨a1, a2, a3⟩
        exact ⟨a1, a2, ((reaches_root_iff hF ⟨trivial, a1, a2⟩ r).mp a3).symm⟩
      · rintro ⟨a1, a2, a3⟩
        exact ⟨a1, a2, (reaches_root_iff hF ⟨trivial, a1, a2⟩ r).mpr a3.symm⟩
    rw [e, Set.ncard_coe_Finset]
  · intro p hp
    have hp0 : p ≠ 0 := by have := hp.1; omega
    rw [gamma_busy_fields_eq hp, hC.busy_eq p hp]
    have e1 : (roots g p).sum (fun r => g.areas_size r.x r.y) =
        (roots g p).sum (fun r => (tree g rep r).card) := by
      apply Finset.sum_congr rfl
      intro r hr
      rw [mem_roots] at hr
      exact (hS r).1 ⟨hr.1, by rw [hr.2.1]; exact hp0, hr.2.2⟩
    rw [e1, tree_sum]
    congr 1
    ext d
    rw [Finset.mem_filter, mem_board, mem_cells_of, mem_roots]
    constructor
    · rintro ⟨a1, a2, _, a4, _⟩
      exact ⟨a1, ((hF.rep_live d ⟨trivial, a1, a2⟩).2).symm.trans a4⟩
    · rintro ⟨a1, a2⟩
      have hl : live g (fun _ => True) d := ⟨trivial, a1, by rw [a2]; exact hp0⟩
      have h1 := hF.rep_live d hl
      exact ⟨a1, hl.2.2, h1.1.2.1, h1.2.trans a2, hF.rep_root d hl⟩

theorem root_size_eq_tree_witness :
    Reachable (gamma_move (gamma_move new_2x2 1 0 0).2 1 0 1).2 ∧
    ((∀ r, is_root (gamma_move (gamma_move new_2x2 1 0 0).2 1 0 1).2 r →
      (gamma_move (gamma_move new_2x2 1 0 0).2 1 0 1).2.areas_size r.x r.y =
        Set.ncard { d | on_board (gamma_move (gamma_move new_2x2 1 0 0).2 1 0 1).2 d ∧
          owner (gamma_move (gamma_move new_2x2 1 0 0).2 1 0 1).2 d ≠ 0 ∧
          reaches_root (gamma_move (gamma_move new_2x2 1 0 0).2 1 0 1).2 d r }) ∧
    ∀ p, valid_player (gamma_move (gamma_move new_2x2 1 0 0).2 1 0 1).2 p →
      (roots (gamma_move (gamma_move new_2x2 1 0 0).2 1 0 1).2 p).sum
          (fun r => (gamma_move (gamma_move new_2x2 1 0 0).2 1 0 1).2.areas_size r.x r.y) =
        gamma_busy_fields (gamma_move (gamma_move new_2x2 1 0 0).2 1 0 1).2 p) :=
  ⟨Reachable.move _ 1 0 1 (Reachable.move _ 1 0 0 new_2x2_reachable),
    root_size_eq_tree _ (Reachable.move _ 1 0 1 (Reachable.move _ 1 0 0 new_2x2_reachable))⟩

/-- C30: in every reachable state the area-size entry of every cell that is not an area
root is 0: of every owned on-board cell whose parent is another cell, of every unowned
cell, and generally of every cell that is not an owned on-board cell with itself as
parent. -/
theorem non_root_size_zero (g : gamma) (c : field_t) (hR : Reachable g) :
    (on_board g c → owner g c ≠ 0 → par g c ≠ c → g.areas_size c.x c.y = 0) ∧
    (owner g c = 0 → g.areas_size c.x c.y = 0) ∧
    (¬ is_root g c → g.areas_size c.x c.y = 0) := by
  have h := (hR.reach_sizes c).2
  exact ⟨fun _ _ hp => h (fun hr => hp hr.2.2), fun ho => h (fun hr => hr.2.1 ho), h⟩

theorem non_root_size_zero_witness :
    Reachable (gamma_move (gamma_move new_2x2 1 0 0).2 1 0 1).2 ∧
    ((on_board (gamma_move (gamma_move new_2x2 1 0 0).2 1 0 1).2 { x := 0, y := 1 } →
      owner (gamma_move (gamma_move new_2x2 1 0 0).2 1 0 1).2 { x := 0, y := 1 } ≠ 0 →
      par (gamma_move (gamma_move new_2x2 1 0 0).2 1 0 1).2 { x := 0, y := 1 } ≠
        { x := 0, y := 1 } →
      (gamma_move (gamma_move new_2x2 1 0 0).2 1 0 1).2.areas_size 0 1 = 0) ∧
    (owner (gamma_move (gamma_move new_2x2 1 0 0).2 1 0 1).2 { x := 0, y := 1 } = 0 →
      (gamma_move (gamma_move new_2x2 1 0 0).2 1 0 1).2.areas_size 0 1 = 0) ∧
    (¬ is_root (gamma_move (gamma_move new_2x2 1 0 0).2 1 0 1).2 { x := 0, y := 1 } →
      (gamma_move (gamma_move new_2x2 1 0 0).2 1 0 1).2.areas_size 0 1 = 0)) :=
  ⟨Reachable.move _ 1 0 1 (Reachable.move _ 1 0 0 new_2x2_reachable),
    non_root_size_zero _ { x := 0, y := 1 }
      (Reachable.move _ 1 0 1 (Reachable.move _ 1 0 0 new_2x2_reachable))⟩

/-! ## Rendering a board whose text fits below index `2^32` -/

theorem flatMap_length_const {α : Type} (l : List α) (f : α → List Char) (k : Nat)
    (h : ∀ a, a ∈ l → (f a).length = k) : (l.flatMap f).length = l.length * k := by
  induction l with
  | nil => simp
  | cons a l ih =>
    rw [List.flatMap_cons, List.length_append, h a (List.mem_cons_self a l),
      ih (fun b hb => h b (List.mem_cons_of_mem a hb)), List.length_cons, Nat.succ_mul]
    omega

/-- A row whose fields all start below index `2^32`: every field is padded to `W`. -/
theorem small_row (g : gamma) (W i : Nat) (hW : W < UINT32_MOD)
    (hown : ∀ j, j < g.width → g.player_arr j (g.height - i - 1) < UINT64_MOD ∧
      (cell_text (g.player_arr j (g.height - i - 1))).length ≤ W) :
    ∀ n, n ≤ g.width → ∀ r : render_t, r.it + n * W ≤ UINT32_MOD →
      (List.range n).foldl (fun r2 j => board_cell g W r2 i j) r =
        { buffer := r.buffer ++
            (List.range n).flatMap (fun j => field_text W (g.player_arr j (g.height - i - 1))),
          it := r.it + n * W } := by
  intro n
  induction n with
  | zero =>
    intro _ r _
    apply render_ext
    · simp
    · simp
  | succ n ih =>
    intro hn r hr
    have hW1 : 1 ≤ W := Nat.le_trans (cell_text_length_pos _) (hown n (by omega)).2
    have hmul : (n + 1) * W = n * W + W := Nat.succ_mul n W
    rw [List.range_succ, List.foldl_append, List.foldl_cons, List.foldl_nil,
      ih (by omega) r (by omega),
      board_cell_nowrap g W _ i n (hown n (by omega)).1 (by simp only; omega) hW
        (hown n (by omega)).2]
    apply render_ext
    · simp only
      rw [List.flatMap_append, List.flatMap_singleton, List.append_assoc]
    · simp only
      omega

/-- The rows of a rendering that fits below index `2^32`. -/
theorem small_rows (g : gamma) (W : Nat) (hW : W < UINT32_MOD)
    (hown : ∀ i j, i < g.height → j < g.width →
      g.player_arr j (g.height - i - 1) < UINT64_MOD ∧
      (cell_text (g.player_arr j (g.height - i - 1))).length ≤ W)
    (hsize : g.height * (g.width * W + 1) ≤ UINT32_MOD) :
    ∀ m, m ≤ g.height →
      (List.range m).foldl (fun r i =>
        let r1 := (List.range g.width).foldl (fun r2 j => board_cell g W r2 i j) r
        { buffer := r1.buffer ++ ['\n'], it := inc64 r1.it }) { buffer := [], it := 0 } =
      { buffer := (List.range m).flatMap (fun i =>
          (List.range g.width).flatMap
            (fun j => field_text W (g.player_arr j (g.height - i - 1))) ++ ['\n']),
        it := m * (g.width * W + 1) } := by
  have h3 : UINT32_MOD = 4294967296 := by decide
  have h4 : UINT64_MOD = 18446744073709551616 := by decide
  intro m
  induction m with
  | zero =>
    intro _
    apply render_ext
    · simp
    · simp
  | succ m ih =>
    intro hm
    have hle : (m + 1) * (g.width * W + 1) ≤ g.height * (g.width * W + 1) :=
      Nat.mul_le_mul_right _ hm
    have hmul : (m + 1) * (g.width * W + 1) = m * (g.width * W + 1) + (g.width * W + 1) :=
      Nat.succ_mul m _
    rw [List.range_succ, List.foldl_append, List.foldl_cons, List.foldl_nil, ih (by omega)]
    simp only
    rw [small_row g W m hW (fun j hj => hown m j (by omega) hj) g.width (Nat.le_refl _) _
      (by simp only; omega)]
    apply render_ext
    · simp only
      rw [List.flatMap_append, List.flatMap_singleton, List.append_assoc]
    · simp only
      unfold inc64
      rw [Nat.mod_eq_of_lt (by omega)]
      omega

/-- When the text fits below index `2^32` and no owner entry is longer than the field
width, `gamma_board_helper` produces the board text: the rows from `y = height - 1` down to
`y = 0`, each made of the fields of the cells `x = 0, ..., width - 1` padded to `W`
characters and followed by a newline. -/
theorem board_helper_small (g : gamma) (W : Nat) (hW : W < UINT32_MOD)
    (hown : ∀ x y, x < g.width → y < g.height →
      g.player_arr x y < UINT64_MOD ∧ (cell_text (g.player_arr x y)).length ≤ W)
    (hsize : g.height * (g.width * W + 1) ≤ UINT32_MOD) :
    gamma_board_helper g W = board_text g W ∧
    (gamma_board_helper g W).length = g.height * (g.width * W + 1) := by
  have hrows := small_rows g W hW
    (fun i j hi hj => hown j (g.height - i - 1) hj (by omega)) hsize g.height (Nat.le_refl _)
  have e1 : gamma_board_helper g W = board_text g W := by
    unfold gamma_board_helper board_text
    rw [hrows]
    have hsub : ∀ i, g.height - 1 - i = g.height - i - 1 := fun i => by omega
    simp only [hsub]
  refine ⟨e1, ?_⟩
  unfold gamma_board_helper
  rw [hrows]
  simp only
  rw [flatMap_length_const _ _ (g.width * W + 1), List.length_range]
  intro i hi
  rw [List.length_append, flatMap_length_const _ _ W, List.length_range]
  · rfl
  · intro j hj
    exact field_text_length
      (hown j _ (List.mem_range.mp hj) (by have := List.mem_range.mp hi; omega)).2

/-! ## The two renderings of a reachable state -/

theorem max_width_fold_bounds (g : gamma) : ∀ (l : List Nat) (mw0 : Nat),
    (∀ i, i ∈ l → i + 1 < UINT32_MOD) →
    mw0 ≤ l.foldl (fun mw i =>
      if (g.players i).busy_fields > 0 then
        let d := digit_count ((i + 1) % UINT32_MOD)
        if d > mw then d else mw
      else mw) mw0 ∧
    l.foldl (fun mw i =>
      if (g.players i).busy_fields > 0 then
        let d := digit_count ((i + 1) % UINT32_MOD)
        if d > mw then d else mw
      else mw) mw0 ≤ max mw0 20 ∧
    ∀ i, i ∈ l → (g.players i).busy_fields > 0 →
      digit_count (i + 1) ≤ l.foldl (fun mw i =>
        if (g.players i).busy_fields > 0 then
          let d := digit_count ((i + 1) % UINT32_MOD)
          if d > mw then d else mw
        else mw) mw0 := by
  have h3 : UINT32_MOD = 4294967296 := by decide
  have h4 : UINT64_MOD = 18446744073709551616 := by decide
  intro l
  induction l with
  | nil =>
    intro mw0 _
    refine ⟨Nat.le_refl _, Nat.le_max_left _ _, fun i hi => absurd hi (List.not_mem_nil i)⟩
  | cons a l ih =>
    intro mw0 hl
    have ha := hl a (List.mem_cons_self a l)
    have hmod : (a + 1) % UINT32_MOD = a + 1 := Nat.mod_eq_of_lt ha
    have h20 : digit_count (a + 1) ≤ 20 := digit_count_le_20 (by omega)
    rw [List.foldl_cons, hmod]
    obtain ⟨i1, i2, i3⟩ := ih
      (if (g.players a).busy_fields > 0 then
        let d := digit_count (a + 1)
        if d > mw0 then d else mw0
      else mw0) (fun i hi => hl i (List.mem_cons_of_mem a hi))
    have hstep : mw0 ≤ (if (g.players a).busy_fields > 0 then
        let d := digit_count (a + 1)
        if d > mw0 then d else mw0
      else mw0) ∧
      (if (g.players a).busy_fields > 0 then
        let d := digit_count (a + 1)
        if d > mw0 then d else mw0
      else mw0) ≤ max mw0 20 ∧
      ((g.players a).busy_fields > 0 → digit_count (a + 1) ≤
        (if (g.players a).busy_fields > 0 then
          let d := digit_count (a + 1)
          if d > mw0 then d else mw0
        else mw0)) := by
      by_cases c1 : (g.players a).busy_fields > 0
      · rw [if_pos c1]
        simp only
        by_cases c2 : digit_count (a + 1) > mw0
        · rw [if_pos c2]
          exact ⟨by omega, by omega, fun _ => Nat.le_refl _⟩
        · rw [if_neg c2]
          exact ⟨Nat.le_refl _, Nat.le_max_left _ _, fun _ => by omega⟩
      · rw [if_neg c1]
        exact ⟨Nat.le_refl _, Nat.le_max_left _ _, fun h => absurd h c1⟩
    generalize (if (g.players a).busy_fields > 0 then
        let d := digit_count (a + 1)
        if d > mw0 then d else mw0
      else mw0) = mw1 at i1 i2 i3 hstep
    refine ⟨by omega, ?_, ?_⟩
    · have := hstep.2.1
      omega
    · intro i hi hb
      rcases List.mem_cons.mp hi with e | e
      · rw [e]
        have := hstep.2.2 (e ▸ hb)
        omega
      · exact i3 i e hb

/-- The compact width is at most 21 and at least the number of digits of every player that
owns a cell. -/
theorem find_max_number_width_bounds {g : gamma} (hn : g.num_of_players < UINT32_MOD) :
    1 ≤ find_max_number_width g ∧ find_max_number_width g ≤ 21 ∧
    ∀ p, 1 ≤ p → p ≤ g.num_of_players → (g.players (p - 1)).busy_fields > 0 →
      digit_count p ≤ find_max_number_width g := by
  have h3 : UINT32_MOD = 4294967296 := by decide
  obtain ⟨i1, i2, i3⟩ := max_width_fold_bounds g (List.range g.num_of_players) 1
    (fun i hi => by have := List.mem_range.mp hi; omega)
  unfold find_max_number_width
  simp only
  generalize (List.range g.num_of_players).foldl (fun mw i =>
      if (g.players i).busy_fields > 0 then
        let d := digit_count ((i + 1) % UINT32_MOD)
        if d > mw then d else mw
      else mw) 1 = mw at i1 i2 i3
  have hmw : mw ≤ 20 := by
    have : max 1 20 = 20 := by decide
    omega
  have hval : mw ≤ (if mw > 1 then (mw + 1) % UINT32_MOD else mw) ∧
      (if mw > 1 then (mw + 1) % UINT32_MOD else mw) ≤ 21 := by
    by_cases c : mw > 1
    · rw [if_pos c, Nat.mod_eq_of_lt (by omega)]
      omega
    · rw [if_neg c]
      omega
  refine ⟨by omega, hval.2, ?_⟩
  intro p hp1 hp2 hb
  have := i3 (p - 1) (List.mem_range.mpr (by omega)) hb
  rw [Nat.sub_add_cancel hp1] at this
  omega

theorem cell_text_length_eq {o : Nat} (ho : o < UINT64_MOD) :
    (cell_text o).length = digit_count o := by
  unfold cell_text
  by_cases h : o = 0
  · rw [if_pos h, h]
    rfl
  · rw [if_neg h, decimal_length, digit_count_eq h ho]

/-- In a reachable state no owner entry is longer than the compact field width. -/
theorem owner_fits_compact {g : gamma} (hC : Core g) {c : field_t} (hb : on_board g c) :
    owner g c < UINT64_MOD ∧ (cell_text (owner g c)).length ≤ find_max_number_width g := by
  have h3 : UINT32_MOD = 4294967296 := by decide
  have h4 : UINT64_MOD = 18446744073709551616 := by decide
  have hle := hC.owner_le c hb
  have hn := hC.players_lt
  have ho : owner g c < UINT64_MOD := by omega
  obtain ⟨b1, _, b3⟩ := find_max_number_width_bounds hn
  refine ⟨ho, ?_⟩
  rw [cell_text_length_eq ho]
  by_cases h0 : owner g c = 0
  · rw [h0]
    exact b1
  · apply b3 (owner g c) (by omega) hle
    rw [hC.busy_eq (owner g c) ⟨by omega, hle⟩]
    exact Finset.card_pos.mpr ⟨c, mem_cells_of.mpr ⟨hb, rfl⟩⟩

/-- In a reachable state no owner entry is longer than the interactive field width. -/
theorem owner_fits_interactive {g : gamma} (hC : Core g) {c : field_t} (hb : on_board g c) :
    owner g c < UINT64_MOD ∧
      (cell_text (owner g c)).length ≤ gamma_field_width_interactive g ∧
      gamma_field_width_interactive g ≤ 21 := by
  have h3 : UINT32_MOD = 4294967296 := by decide
  have h4 : UINT64_MOD = 18446744073709551616 := by decide
  have hle := hC.owner_le c hb
  have hn := hC.players_lt
  have hn1 := hC.players_pos
  have ho : owner g c < UINT64_MOD := by omega
  have hnl : g.num_of_players < UINT64_MOD := by omega
  have d1 := digit_count_pos hnl
  have d2 := digit_count_le_20 hnl
  have hW : digit_count g.num_of_players ≤ gamma_field_width_interactive g ∧
      gamma_field_width_interactive g ≤ 21 := by
    unfold gamma_field_width_interactive
    simp only
    by_cases c1 : digit_count g.num_of_players > 1
    · rw [if_pos c1, Nat.mod_eq_of_lt (by omega)]
      omega
    · rw [if_neg c1]
      omega
  refine ⟨ho, ?_, hW.2⟩
  rw [cell_text_length_eq ho]
  by_cases h0 : owner g c = 0
  · rw [h0]
    have : digit_count 0 = 1 := rfl
    omega
  · have := digit_count_mono h0 hle hnl
    omega

/-- For a reachable state whose compact rendering fits below index `2^32`, `gamma_board`
returns the board text with the compact field width and its length is
`height * (width * w + 1)`. -/
theorem gamma_board_small (g : gamma) (hR : Reachable g)
    (hsize : g.height * (g.width * find_max_number_width g + 1) ≤ UINT32_MOD) :
    gamma_board g = board_text g (find_max_number_width g) ∧
    (gamma_board g).length = g.height * (g.width * find_max_number_width g + 1) := by
  have h3 : UINT32_MOD = 4294967296 := by decide
  have hC := hR.reach_inv.core
  obtain ⟨_, b2, _⟩ := find_max_number_width_bounds hC.players_lt
  exact board_helper_small g _ (by omega)
    (fun x y hx hy => @owner_fits_compact g hC { x := x, y := y } ⟨hx, hy⟩) hsize

/-- For a reachable state whose interactive rendering fits below index `2^32`,
`gamma_board_interactive` returns the board text with the interactive field width. -/
theorem gamma_board_interactive_small (g : gamma) (hR : Reachable g)
    (hsize : g.height * (g.width * gamma_field_width_interactive g + 1) ≤ UINT32_MOD) :
    gamma_board_interactive g = board_text g (gamma_field_width_interactive g) ∧
    (gamma_board_interactive g).length =
      g.height * (g.width * gamma_field_width_interactive g + 1) := by
  have h3 : UINT32_MOD = 4294967296 := by decide
  have hC := hR.reach_inv.core
  have hW : gamma_field_width_interactive g ≤ 21 :=
    (@owner_fits_interactive g hC { x := 0, y := 0 } ⟨hC.width_pos, hC.height_pos⟩).2.2
  exact board_helper_small g _ (by omega)
    (fun x y hx hy =>
      ⟨(@owner_fits_interactive g hC { x := x, y := y } ⟨hx, hy⟩).1,
        (@owner_fits_interactive g hC { x := x, y := y } ⟨hx, hy⟩).2.1⟩) hsize

/-! ## Writing a single field -/

theorem getD_replicate_space (m j : Nat) : (List.replicate m ' ').getD j ' ' = ' ' := by
  by_cases h : j < m
  · rw [List.getD_eq_getElem _ _ (by rw [List.length_replicate]; exact h),
      List.getElem_replicate]
  · rw [List.getD_eq_default _ _ (by rw [List.length_replicate]; omega)]

/-- The characters of a padded field: those of the unpadded text, then spaces. -/
theorem field_text_getD (w o k : Nat) :
    (field_text w o).getD k ' ' =
      if k < (cell_text o).length then (cell_text o).getD k ' ' else ' ' := by
  rw [field_text_eq]
  by_cases h : k < (cell_text o).length
  · rw [if_pos h, List.getD_append _ _ _ _ h]
  · rw [if_neg h, List.getD_append_right _ _ _ _ (by omega), getD_replicate_space]

/-- The loop of `write_int` writes the decimal digits of `n` at the indices from `l` on. -/
theorem write_int_loop_spec (count l : Nat) (hc : count < UINT32_MOD)
    (hl : count + l < UINT64_MOD) :
    ∀ (fuel : Nat) (s : Nat → Char) (n it : Nat), it ≤ count → count - it ≤ fuel →
      (Nat.digits 10 n).length = count - it →
      ∀ k, write_int_loop count l fuel s n it k =
        if l ≤ k ∧ k < l + (count - it) then (decimal n).getD (k - l) ' ' else s k := by
  have h3 : UINT32_MOD = 4294967296 := by decide
  have h4 : UINT64_MOD = 18446744073709551616 := by decide
  intro fuel
  induction fuel with
  | zero =>
    intro s n it h1 h2 _ k
    rw [if_neg (by omega)]
    rfl
  | succ fuel ih =>
    intro s n it h1 h2 hd k
    unfold write_int_loop
    by_cases hit : it < count
    · rw [if_pos hit]
      have hn : n ≠ 0 := by
        rintro rfl
        rw [Nat.digits_zero, List.length_nil] at hd
        omega
      have hdig := Nat.digits_def' (b := 10) (by omega) (Nat.pos_of_ne_zero hn)
      have hd2 : (Nat.digits 10 (n / 10)).length = count - (it + 1) := by
        rw [hdig, List.length_cons] at hd
        omega
      have hidx : (count + l - it - 1) % UINT64_MOD = l + (count - (it + 1)) := by
        rw [Nat.mod_eq_of_lt (by omega)]
        omega
      rw [Nat.mod_eq_of_lt (by omega : it + 1 < UINT32_MOD), hidx,
        ih _ (n / 10) (it + 1) (by omega) (by omega) hd2 k, decimal_step hn]
      have hlen : (decimal (n / 10)).length = count - (it + 1) := by
        rw [decimal_length, hd2]
      by_cases c1 : l ≤ k ∧ k < l + (count - (it + 1))
      · rw [if_pos c1, if_pos (by omega), List.getD_append _ _ _ _ (by omega)]
      · rw [if_neg c1]
        unfold set1D
        by_cases c2 : k = l + (count - (it + 1))
        · rw [if_pos c2, if_pos (by omega), List.getD_append_right _ _ _ _ (by omega)]
          have : k - l - (decimal (n / 10)).length = 0 := by omega
          rw [this]
          rfl
        · rw [if_neg c2, if_neg (by omega)]
    · rw [if_neg hit, if_neg (by omega)]

/-- The padding loop of `gamma_write_field` writes spaces from the index `it` up to the
width. -/
theorem space_loop_spec (width : Nat) (hw : width < UINT32_MOD) :
    ∀ (fuel : Nat) (r : (Nat → Char) × Nat), width - r.2 ≤ fuel →
      ∀ k, (space_loop width fuel r).1 k = if r.2 ≤ k ∧ k < width then ' ' else r.1 k := by
  have h3 : UINT32_MOD = 4294967296 := by decide
  intro fuel
  induction fuel with
  | zero =>
    intro r h k
    rw [if_neg (by omega)]
    rfl
  | succ fuel ih =>
    intro r h k
    unfold space_loop
    by_cases hit : r.2 < width
    · rw [if_pos hit, ih _ (by simp only; rw [Nat.mod_eq_of_lt (by omega)]; omega) k]
      simp only
      rw [Nat.mod_eq_of_lt (by omega)]
      unfold set1D
      by_cases c1 : k = r.2
      · rw [if_neg (by omega), if_pos c1, if_pos (by omega)]
      · rw [if_neg c1]
        by_cases c2 : r.2 + 1 ≤ k ∧ k < width
        · rw [if_pos c2, if_pos (by omega)]
        · rw [if_neg c2, if_neg (by omega)]
    · rw [if_neg hit, if_neg (by omega)]

/-- The call `gamma_write_field(g, s, x, y)` in a reachable state: it returns false and
leaves `s` as it is when the cell is off the board; otherwise it returns true and writes
the `W = gamma_field_width_interactive(g)` characters of the padded field of the cell (a dot
or the decimal id of the owner, then spaces) into `s[0..W-1]` and leaves every later position
of `s` untouched. -/
theorem gamma_write_field_spec (g : gamma) (s : Nat → Char) (x y : Nat) (hR : Reachable g) :
    (¬ (x < g.width ∧ y < g.height) → gamma_write_field g s x y = (false, s)) ∧
    (x < g.width → y < g.height →
      (gamma_write_field g s x y).1 = true ∧
      (field_text (gamma_field_width_interactive g) (g.player_arr x y)).length =
        gamma_field_width_interactive g ∧
      ∀ k, (gamma_write_field g s x y).2 k =
        if k < gamma_field_width_interactive g then
          (field_text (gamma_field_width_interactive g) (g.player_arr x y)).getD k ' '
        else s k) := by
  have h3 : UINT32_MOD = 4294967296 := by decide
  have h4 : UINT64_MOD = 18446744073709551616 := by decide
  have hC := hR.reach_inv.core
  constructor
  · intro h
    have hwf : wrong_field x y g = true := by
      cases hb : wrong_field x y g
      · exact absurd (wrong_field_false_iff.mp hb) h
      · rfl
    unfold gamma_write_field
    rw [if_pos hwf]
  · intro hx hy
    have hb : on_board g { x := x, y := y } := ⟨hx, hy⟩
    have hwf : wrong_field x y g = false := wrong_field_false_iff.mpr hb
    obtain ⟨f1, f2, f3⟩ := @owner_fits_interactive g hC { x := x, y := y } hb
    change g.player_arr x y < UINT64_MOD at f1
    change (cell_text (g.player_arr x y)).length ≤ gamma_field_width_interactive g at f2
    have hlen := cell_text_length_eq f1
    unfold gamma_write_field
    rw [if_neg (by rw [hwf]; exact Bool.false_ne_true)]
    simp only
    refine ⟨trivial, field_text_length f2, ?_⟩
    intro k
    rw [field_text_getD]
    generalize gamma_field_width_interactive g = W at f2 f3 ⊢
    generalize g.player_arr x y = o at f1 f2 hlen ⊢
    by_cases ho : o = NO_PLAYER
    · rw [if_pos ho]
      have ho0 : o = 0 := ho
      subst ho0
      rw [space_loop_spec W (by omega) W _ (by simp only; omega) k]
      simp only
      unfold set1D
      have hct : (cell_text 0).length = 1 := rfl
      rw [hct] at f2 ⊢
      by_cases c1 : k = 0
      · subst c1
        rw [if_neg (show ¬ (1 ≤ 0 ∧ 0 < W) by omega), if_pos rfl, if_pos (show 0 < W by omega),
          if_pos (show 0 < 1 by omega)]
        rfl
      · rw [if_neg c1]
        by_cases c2 : k < W
        · rw [if_pos (show 1 ≤ k ∧ k < W by omega), if_pos c2,
            if_neg (show ¬ k < 1 by omega)]
        · rw [if_neg (show ¬ (1 ≤ k ∧ k < W) by omega), if_neg c2]
    · rw [if_neg ho]
      have ho0 : o ≠ 0 := ho
      have hdc := digit_count_eq ho0 f1
      have hd20 := digit_count_le_20 f1
      have hct : cell_text o = decimal o := by unfold cell_text; rw [if_neg ho0]
      rw [hct] at f2 hlen ⊢
      have hit : (write_int s 0 o).2 % UINT32_MOD = digit_count o := by
        unfold write_int
        simp only
        rw [Nat.zero_add, Nat.mod_eq_of_lt (by omega : digit_count o < UINT64_MOD),
          Nat.mod_eq_of_lt (by omega : digit_count o < UINT32_MOD)]
      rw [space_loop_spec W (by omega) W _ (by simp only; omega) k]
      simp only
      rw [hit]
      unfold write_int
      simp only
      rw [write_int_loop_spec (digit_count o) 0 (by omega) (by omega) (digit_count o) s o 0
        (Nat.zero_le _) (by omega) (by rw [hdc]; omega) k]
      rw [hlen, Nat.sub_zero, Nat.zero_add, Nat.sub_zero]
      by_cases c1 : k < digit_count o
      · rw [if_neg (show ¬ (digit_count o ≤ k ∧ k < W) by omega),
          if_pos (show 0 ≤ k ∧ k < digit_count o from ⟨Nat.zero_le k, c1⟩),
          if_pos (show k < W by omega), if_pos c1]
      · rw [if_neg (show ¬ (0 ≤ k ∧ k < digit_count o) by omega)]
        by_cases c2 : k < W
        · rw [if_pos (show digit_count o ≤ k ∧ k < W by omega), if_pos c2, if_neg c1]
        · rw [if_neg (show ¬ (digit_count o ≤ k ∧ k < W) by omega), if_neg c2]

/-! ## Scratch data, rollback and reversal of the golden move -/

/-- C34: in every reachable state the visited marker of every cell is 0 and the traversal
stack is empty; the same holds for the state left by `gamma_golden_move`,
`gamma_golden_possible` and `gamma_move_possible` called with arbitrary arguments, whatever
they return; and `init_visited`, run by `delete_util` after the flood fills of the `for`
loop, leaves no marker and an empty stack. -/
theorem scratch_clean (g : gamma) (hR : Reachable g) :
    ((∀ x y, g.visited x y = 0) ∧ g.stack.items = []) ∧
    (∀ p x y, (∀ a b, (gamma_golden_move g p x y).2.visited a b = 0) ∧
      (gamma_golden_move g p x y).2.stack.items = []) ∧
    (∀ p, (∀ a b, (gamma_golden_possible g p).2.visited a b = 0) ∧
      (gamma_golden_possible g p).2.stack.items = []) ∧
    (∀ p x y, (∀ a b, (gamma_move_possible g p x y).2.visited a b = 0) ∧
      (gamma_move_possible g p x y).2.stack.items = []) ∧
    ∀ (c : field_t) (q : Nat), owns g q c → q ≠ 0 →
      (∀ a b, (init_visited ((List.range DIRECTIONS).foldl (delete_util_step c.x c.y q)
        (delete_field g q c.x c.y)) c.x c.y).visited a b = 0) ∧
      (init_visited ((List.range DIRECTIONS).foldl (delete_util_step c.x c.y q)
        (delete_field g q c.x c.y)) c.x c.y).stack.items = [] := by
  have hC := hR.reach_inv.core
  refine ⟨⟨hC.visited_zero, hC.stack_empty⟩, fun p x y => ?_, fun p => ?_, fun p x y => ?_,
    fun c q hown hq => ?_⟩
  · have h := (Reachable.golden_move g p x y hR).reach_inv.core
    exact ⟨h.visited_zero, h.stack_empty⟩
  · have h := (Reachable.golden_possible g p hR).reach_inv.core
    exact ⟨h.visited_zero, h.stack_empty⟩
  · have h := (Reachable.move_possible g p x y hR).reach_inv.core
    exact ⟨h.visited_zero, h.stack_empty⟩
  · have hqv : valid_player g q := by
      rw [← hown.2]
      exact hC.valid_owner hown.1 (by rw [hown.2]; exact hq)
    have h := (delete_util_spec hC hqv hown).1
    rw [delete_util_unfold] at h
    exact ⟨h.visited_zero, h.stack_empty⟩

theorem scratch_clean_witness :
    Reachable (gamma_move new_2x2 1 0 0).2 ∧
    ((∀ x y, (gamma_move new_2x2 1 0 0).2.visited x y = 0) ∧
      (gamma_move new_2x2 1 0 0).2.stack.items = []) ∧
    (∀ p x y, (∀ a b, (gamma_golden_move (gamma_move new_2x2 1 0 0).2 p x y).2.visited a b = 0) ∧
      (gamma_golden_move (gamma_move new_2x2 1 0 0).2 p x y).2.stack.items = []) ∧
    (∀ p, (∀ a b, (gamma_golden_possible (gamma_move new_2x2 1 0 0).2 p).2.visited a b = 0) ∧
      (gamma_golden_possible (gamma_move new_2x2 1 0 0).2 p).2.stack.items = []) ∧
    (∀ p x y, (∀ a b, (gamma_move_possible (gamma_move new_2x2 1 0 0).2 p x y).2.visited a b = 0) ∧
      (gamma_move_possible (gamma_move new_2x2 1 0 0).2 p x y).2.stack.items = []) ∧
    ∀ (c : field_t) (q : Nat), owns (gamma_move new_2x2 1 0 0).2 q c → q ≠ 0 →
      (∀ a b, (init_visited ((List.range DIRECTIONS).foldl (delete_util_step c.x c.y q)
        (delete_field (gamma_move new_2x2 1 0 0).2 q c.x c.y)) c.x c.y).visited a b = 0) ∧
      (init_visited ((List.range DIRECTIONS).foldl (delete_util_step c.x c.y q)
        (delete_field (gamma_move new_2x2 1 0 0).2 q c.x c.y)) c.x c.y).stack.items = [] :=
  ⟨Reachable.move _ 1 0 0 new_2x2_reachable,
    scratch_clean _ (Reachable.move _ 1 0 0 new_2x2_reachable)⟩

/-- After the cell `(x, y)` of another player has been vacated by `delete_util`, its former
owner may place a stone on it again. -/
theorem rollback_move_ok {g : gamma} (hI : Inv g) {p x y : Nat} (hp : valid_player g p)
    (hb : on_board g { x := x, y := y }) (h0 : g.player_arr x y ≠ 0)
    (hne : g.player_arr x y ≠ p) :
    move_ok (delete_util g x y (g.player_arr x y)) (g.player_arr x y) x y := by
  have hqv : valid_player g (g.player_arr x y) :=
    @Core.valid_owner g hI.core { x := x, y := y } hb h0
  have hd := @delete_util_spec g { x := x, y := y } (g.player_arr x y) hI.core hqv ⟨hb, rfl⟩
  exact (@golden_core g _ p (g.player_arr x y) { x := x, y := y } hI hp hb rfl hne h0
    hd.1 hd.2).1

/-- The two rollback calls of `delete_and_move` return true in every state that satisfies
the engine invariant. -/
theorem rollback_true {g : gamma} (hI : Inv g) {p x y : Nat} (hp : valid_player g p)
    (hb : on_board g { x := x, y := y }) (h0 : g.player_arr x y ≠ 0)
    (hne : g.player_arr x y ≠ p) :
    (gamma_move (delete_util g x y (g.player_arr x y)) (g.player_arr x y) x y).1 = true ∧
    ((gamma_move (delete_util g x y (g.player_arr x y)) p x y).1 = false →
      (gamma_move (gamma_move (delete_util g x y (g.player_arr x y)) p x y).2
        (g.player_arr x y) x y).1 = true) := by
  have h := (gamma_move_true_iff _ _ _ _).mpr (rollback_move_ok hI hp hb h0 hne)
  refine ⟨h, fun hf => ?_⟩
  rw [gamma_move_false_state _ _ _ _ hf]
  exact h

theorem ScanState.scan_inv {g h : gamma} (hS : ScanState g h) (hI : Inv g) : Inv h := by
  induction hS with
  | start => exact hI
  | trial h player i j _ ih => exact (golden_no_checking_spec ih player i j).1
  | flag h player b _ ih => exact set_golden_inv ih player b

/-- C36: let `g` be a reachable state and `h` a state in which an internal call of a public
call on `g` runs (`g` itself included). For a valid player `p` and an on-board cell
`(x, y)` of `h` owned by another player `q` (the situation in which `gamma_golden_move`
calls `delete_and_move`), both rollback calls of `delete_and_move` return true: the call
`gamma_move(q, x, y)` made right after `delete_util` when the area count of `q` exceeds
the cap, and the call `gamma_move(q, x, y)` made after the rejected `gamma_move(p, x, y)`.
The first conjunct recalls the body of `delete_and_move`, whose failing branches discard
the values returned by these calls. -/
theorem rollback_never_fails (g h : gamma) (p x y : Nat) (hR : Reachable g)
    (hS : ScanState g h) (hp : valid_player h p) (hb : on_board h { x := x, y := y })
    (h0 : h.player_arr x y ≠ 0) (hne : h.player_arr x y ≠ p) :
    (delete_and_move h x y p =
      if decide ((h.players (p - 1)).num_of_areas ≥ h.max_num_of_areas)
          && count_neighbours h x y p == 0 then (false, h)
      else if ((delete_util h x y (h.player_arr x y)).players
          (h.player_arr x y - 1)).num_of_areas >
          (delete_util h x y (h.player_arr x y)).max_num_of_areas then
        (false, (gamma_move (delete_util h x y (h.player_arr x y)) (h.player_arr x y) x y).2)
      else if !(gamma_move (delete_util h x y (h.player_arr x y)) p x y).1 then
        (false, (gamma_move (gamma_move (delete_util h x y (h.player_arr x y)) p x y).2
          (h.player_arr x y) x y).2)
      else (true, (gamma_move (delete_util h x y (h.player_arr x y)) p x y).2)) ∧
    (gamma_move (delete_util h x y (h.player_arr x y)) (h.player_arr x y) x y).1 = true ∧
    ((gamma_move (delete_util h x y (h.player_arr x y)) p x y).1 = false →
      (gamma_move (gamma_move (delete_util h x y (h.player_arr x y)) p x y).2
        (h.player_arr x y) x y).1 = true) :=
  ⟨delete_and_move_unfold h x y p, rollback_true (hS.scan_inv hR.reach_inv) hp hb h0 hne⟩

/-- The reversing call of the scan of `gamma_golden_possible` returns true and restores the
owner entries, in every state that satisfies the engine invariant. -/
theorem reversal_true {g : gamma} (hI : Inv g) (p i j : Nat)
    (h : (golden_no_checking_nor_changing g p i j).1 = true) :
    (golden_no_checking_nor_changing (golden_no_checking_nor_changing g p i j).2
      (g.player_arr i j) i j).1 = true ∧
    (golden_no_checking_nor_changing (golden_no_checking_nor_changing g p i j).2
      (g.player_arr i j) i j).2.player_arr = g.player_arr := by
  obtain ⟨s1, s2, s3, _, s5⟩ := golden_no_checking_spec hI p i j
  obtain ⟨r1, r2⟩ := golden_reverse hI (s3.mp h) s2 (s5 h)
  obtain ⟨_, _, u3, _, u5⟩ := golden_no_checking_spec s1 (g.player_arr i j) i j
  exact ⟨u3.mpr r1, (u5 (u3.mpr r1)).trans r2⟩

/-- C37: let `g` be a reachable state and `h` a state in which an internal call of a public
call on `g` runs (`g` itself included, and every state of the scan of
`gamma_golden_possible`). Whenever the trial
`golden_no_checking_nor_changing(h, player, i, j)` returns true, the reversing call
`golden_no_checking_nor_changing(player_it, i, j)` on the state left by the trial, with
`player_it` the owner of `(i, j)` before the trial, returns true as well; after it the
cell `(i, j)` belongs to `player_it` again and so does every other cell to its owner. -/
theorem reversal_never_fails (g h : gamma) (p i j : Nat) (hR : Reachable g)
    (hS : ScanState g h) (ht : (golden_no_checking_nor_changing h p i j).1 = true) :
    (golden_no_checking_nor_changing (golden_no_checking_nor_changing h p i j).2
      (h.player_arr i j) i j).1 = true ∧
    (golden_no_checking_nor_changing (golden_no_checking_nor_changing h p i j).2
      (h.player_arr i j) i j).2.player_arr i j = h.player_arr i j ∧
    (golden_no_checking_nor_changing (golden_no_checking_nor_changing h p i j).2
      (h.player_arr i j) i j).2.player_arr = h.player_arr := by
  obtain ⟨a, b⟩ := reversal_true (hS.scan_inv hR.reach_inv) p i j ht
  exact ⟨a, by rw [b], b⟩

theorem rollback_never_fails_witness :
    Reachable (gamma_move new_2x2 1 0 0).2 ∧
    ScanState (gamma_move new_2x2 1 0 0).2 (gamma_move new_2x2 1 0 0).2 ∧ valid_player (gamma_move new_2x2 1 0 0).2 2 ∧
    on_board (gamma_move new_2x2 1 0 0).2 { x := 0, y := 0 } ∧
    (gamma_move new_2x2 1 0 0).2.player_arr 0 0 ≠ 0 ∧
    (gamma_move new_2x2 1 0 0).2.player_arr 0 0 ≠ 2 ∧
    (delete_and_move (gamma_move new_2x2 1 0 0).2 0 0 2 =
      if decide ((((gamma_move new_2x2 1 0 0).2).players (2 - 1)).num_of_areas ≥
            ((gamma_move new_2x2 1 0 0).2).max_num_of_areas)
          && count_neighbours (gamma_move new_2x2 1 0 0).2 0 0 2 == 0 then
        (false, (gamma_move new_2x2 1 0 0).2)
      else if ((delete_util (gamma_move new_2x2 1 0 0).2 0 0
          ((gamma_move new_2x2 1 0 0).2.player_arr 0 0)).players
          ((gamma_move new_2x2 1 0 0).2.player_arr 0 0 - 1)).num_of_areas >
          (delete_util (gamma_move new_2x2 1 0 0).2 0 0
            ((gamma_move new_2x2 1 0 0).2.player_arr 0 0)).max_num_of_areas then
        (false, (gamma_move (delete_util (gamma_move new_2x2 1 0 0).2 0 0
          ((gamma_move new_2x2 1 0 0).2.player_arr 0 0))
          ((gamma_move new_2x2 1 0 0).2.player_arr 0 0) 0 0).2)
      else if !(gamma_move (delete_util (gamma_move new_2x2 1 0 0).2 0 0
          ((gamma_move new_2x2 1 0 0).2.player_arr 0 0)) 2 0 0).1 then
        (false, (gamma_move (gamma_move (delete_util (gamma_move new_2x2 1 0 0).2 0 0
          ((gamma_move new_2x2 1 0 0).2.player_arr 0 0)) 2 0 0).2
          ((gamma_move new_2x2 1 0 0).2.player_arr 0 0) 0 0).2)
      else (true, (gamma_move (delete_util (gamma_move new_2x2 1 0 0).2 0 0
        ((gamma_move new_2x2 1 0 0).2.player_arr 0 0)) 2 0 0).2)) ∧
    (gamma_move (delete_util (gamma_move new_2x2 1 0 0).2 0 0
      ((gamma_move new_2x2 1 0 0).2.player_arr 0 0))
      ((gamma_move new_2x2 1 0 0).2.player_arr 0 0) 0 0).1 = true ∧
    ((gamma_move (delete_util (gamma_move new_2x2 1 0 0).2 0 0
        ((gamma_move new_2x2 1 0 0).2.player_arr 0 0)) 2 0 0).1 = false →
      (gamma_move (gamma_move (delete_util (gamma_move new_2x2 1 0 0).2 0 0
        ((gamma_move new_2x2 1 0 0).2.player_arr 0 0)) 2 0 0).2
        ((gamma_move new_2x2 1 0 0).2.player_arr 0 0) 0 0).1 = true) :=
  ⟨Reachable.move _ 1 0 0 new_2x2_reachable, ScanState.start, by unfold valid_player; decide,
    by unfold on_board; decide, by decide, by decide,
    rollback_never_fails (gamma_move new_2x2 1 0 0).2 (gamma_move new_2x2 1 0 0).2 2 0 0
      (Reachable.move _ 1 0 0 new_2x2_reachable) ScanState.start (by unfold valid_player; decide)
      (by unfold on_board; decide) (by decide) (by decide)⟩

theorem reversal_never_fails_witness :
    Reachable (gamma_move new_2x2 1 0 0).2 ∧
    ScanState (gamma_move new_2x2 1 0 0).2 (gamma_move new_2x2 1 0 0).2 ∧
    (golden_no_checking_nor_changing (gamma_move new_2x2 1 0 0).2 2 0 0).1 = true ∧
    (golden_no_checking_nor_changing
      (golden_no_checking_nor_changing (gamma_move new_2x2 1 0 0).2 2 0 0).2
      ((gamma_move new_2x2 1 0 0).2.player_arr 0 0) 0 0).1 = true ∧
    (golden_no_checking_nor_changing
      (golden_no_checking_nor_changing (gamma_move new_2x2 1 0 0).2 2 0 0).2
      ((gamma_move new_2x2 1 0 0).2.player_arr 0 0) 0 0).2.player_arr 0 0 =
        (gamma_move new_2x2 1 0 0).2.player_arr 0 0 ∧
    (golden_no_checking_nor_changing
      (golden_no_checking_nor_changing (gamma_move new_2x2 1 0 0).2 2 0 0).2
      ((gamma_move new_2x2 1 0 0).2.player_arr 0 0) 0 0).2.player_arr =
        (gamma_move new_2x2 1 0 0).2.player_arr :=
  ⟨Reachable.move _ 1 0 0 new_2x2_reachable, ScanState.start, by decide,
    reversal_never_fails (gamma_move new_2x2 1 0 0).2 (gamma_move new_2x2 1 0 0).2 2 0 0
      (Reachable.move _ 1 0 0 new_2x2_reachable) ScanState.start (by decide)⟩

/-- C40: on the board of `gamma_new(2147483648, 1, 10, 1)` rendered with `max_width = 3`
the write index is `4294967298` after the first `1431655766` fields and `4294967299`
after the next one: the field of the cell `x = 1431655766` is a single dot without
padding, because the padding loop compares `it - old_it` with `old_it = 2`, the low 32
bits of `4294967298`; the rendering has `5010795181` characters instead of
`height * (width * 3 + 1) = 6442450945`. -/
theorem board_field_unpadded :
    ((List.range 1431655766).foldl (fun r j => board_cell new_wide 3 r 0 j)
      { buffer := [], it := 0 }).it = 4294967298 ∧
    ((List.range 1431655767).foldl (fun r j => board_cell new_wide 3 r 0 j)
      { buffer := [], it := 0 }).it = 4294967299 ∧
    (∀ b : List Char, board_cell new_wide 3 { buffer := b, it := 4294967298 } 0 1431655766 =
      { buffer := b ++ ['.'], it := 4294967299 }) ∧
    (gamma_board_helper new_wide 3).length = 5010795181 ∧
    new_wide.height * (new_wide.width * 3 + 1) = 6442450945 := by
  obtain ⟨e1, e2, e3, e4, e5, e6⟩ := new_wide_fields
  have hown : ∀ j, new_wide.player_arr j (new_wide.height - 0 - 1) < UINT64_MOD ∧
      (cell_text (new_wide.player_arr j (new_wide.height - 0 - 1))).length ≤ 3 :=
    fun j => by rw [e5]; exact ⟨by decide, by decide⟩
  have hfree : ∀ j, 1 ≤ j → new_wide.player_arr j (new_wide.height - 0 - 1) = 0 :=
    fun j _ => e5 j _
  refine ⟨?_, ?_, fun b => ?_, ?_, ?_⟩
  · have h := (wide_row new_wide 0 hown hfree 1431655766 (by omega)).2.1
    rw [h, if_pos (by omega)]
  · have h := (wide_row new_wide 0 hown hfree 1431655767 (by omega)).2.1
    rw [h, if_neg (by omega)]
  · rw [board_cell_wrap new_wide 3 { buffer := b, it := 4294967298 } 0 1431655766
      (by rw [e5]; decide) (show UINT32_MOD ≤ 4294967298 by decide)
      (show 4294967298 + 20 < UINT64_MOD by decide) (by decide), e5]
    rfl
  · exact (wide_helper new_wide e1 e2 (fun j => by rw [e5]; exact ⟨by decide, by decide⟩)
      (fun j _ => e5 j 0)).1
  · rw [e1, e2]

/-! ## Neighbour coordinates in 32-bit arithmetic -/

theorem nbr_inj {g : gamma} {c : field_t} {i j : Nat} (hw : g.width < UINT32_MOD)
    (hh : g.height < UINT32_MOD) (hc : on_board g c) (hi : i < 4) (hj : j < 4)
    (hn : on_board g (nbr c i)) (he : nbr c i = nbr c j) : i = j := by
  unfold nbr at he hn
  unfold on_board at hc hn
  simp only [field_t.mk.injEq] at he hn
  unfold add32 at he hn
  unfold UINT32_MOD at hw hh
  have h4 : i = 0 ∨ i = 1 ∨ i = 2 ∨ i = 3 := by omega
  have h5 : j = 0 ∨ j = 1 ∨ j = 2 ∨ j = 3 := by omega
  rcases h4 with rfl | rfl | rfl | rfl <;> rcases h5 with rfl | rfl | rfl | rfl <;>
    simp only [x_dir, y_dir] at he hn <;> omega

theorem nbr_in_range {g : gamma} {c : field_t} {i : Nat} (hw : g.width < UINT32_MOD)
    (hh : g.height < UINT32_MOD) (hc : on_board g c) (hi : i < 4) :
    (on_board g (nbr c i) ↔
      (0 ≤ (c.x : Int) + x_dir i ∧ (c.x : Int) + x_dir i < g.width ∧
        0 ≤ (c.y : Int) + y_dir i ∧ (c.y : Int) + y_dir i < g.height)) ∧
    (on_board g (nbr c i) →
      ((nbr c i).x : Int) = (c.x : Int) + x_dir i ∧ ((nbr c i).y : Int) = (c.y : Int) + y_dir i) := by
  unfold nbr on_board
  unfold on_board at hc
  simp only
  unfold add32
  unfold UINT32_MOD at hw hh
  have h4 : i = 0 ∨ i = 1 ∨ i = 2 ∨ i = 3 := by omega
  rcases h4 with rfl | rfl | rfl | rfl <;> simp only [x_dir, y_dir] <;> omega

theorem count_neighbours_eq_card {g : gamma} {c : field_t} {p : Nat}
    (hw : g.width < UINT32_MOD) (hh : g.height < UINT32_MOD) (hc : on_board g c) :
    count_neighbours g c.x c.y p = (p_neighbours g c p).card := by
  classical
  have key : ∀ i, (!wrong_field (add32 c.x (x_dir i)) (add32 c.y (y_dir i)) g &&
      g.player_arr (add32 c.x (x_dir i)) (add32 c.y (y_dir i)) == p) = true ↔
      owns g p (nbr c i) := fun i => owned_cond_iff g (nbr c i) p
  have e1 : p_neighbours g c p =
      ((Finset.range 4).filter (fun i => owns g p (nbr c i))).image (nbr c) := by
    ext d
    rw [mem_p_neighbours, Finset.mem_image]
    constructor
    · rintro ⟨h1, h2⟩
      obtain ⟨i, hi, rfl⟩ := adjacent_is_nbr hw hh hc h1.1 h2
      exact ⟨i, Finset.mem_filter.mpr ⟨Finset.mem_range.mpr hi, h1⟩, rfl⟩
    · rintro ⟨i, hi, rfl⟩
      obtain ⟨a, b⟩ := Finset.mem_filter.mp hi
      exact ⟨b, nbr_on_board_adjacent hw hh hc (Finset.mem_range.mp a) b.1⟩
  rw [e1, Finset.card_image_of_injOn]
  · rw [Finset.card_filter]
    simp only [Finset.sum_range_succ, Finset.sum_range_zero]
    have hdef : count_neighbours g c.x c.y p =
        [0, 1, 2, 3].foldl (fun l i =>
          if (!wrong_field (add32 c.x (x_dir i)) (add32 c.y (y_dir i)) g &&
            g.player_arr (add32 c.x (x_dir i)) (add32 c.y (y_dir i)) == p) then l + 1 else l) 0 :=
      rfl
    rw [hdef]
    simp only [List.foldl_cons, List.foldl_nil]
    by_cases h0 : owns g p (nbr c 0) <;> by_cases h1 : owns g p (nbr c 1) <;>
      by_cases h2 : owns g p (nbr c 2) <;> by_cases h3 : owns g p (nbr c 3) <;>
      simp only [key, h0, h1, h2, h3, if_true, if_false]
  · intro i hi j hj he
    have hi2 := Finset.mem_filter.mp (Finset.mem_coe.mp hi)
    have hj2 := Finset.mem_filter.mp (Finset.mem_coe.mp hj)
    exact nbr_inj hw hh hc (Finset.mem_range.mp hi2.1) (Finset.mem_range.mp hj2.1) hi2.2.1 he

/-- C39: on a board with `1 ≤ width, height ≤ 2^32 - 1` and for an on-board cell `c`, the
neighbour coordinates `c.x + x_dir[i]`, `c.y + y_dir[i]` computed in `uint32_t` pass the
range check `!wrong_field` exactly when the integer coordinates lie on the board, and then
they are these integer coordinates; the wrapped coordinates (`x - 1` at `x = 0`, `y - 1` at
`y = 0`, `x + 1` at `x = width - 1`, `y + 1` at `y = height - 1`) are rejected; every
accepted neighbour shares an edge with `c`; and `count_neighbours(x, y, p)` is the number
of on-board cells owned by `p` that share an edge with `c`. -/
theorem neighbours_no_wraparound (g : gamma) (c : field_t) (p : Nat)
    (hw : 1 ≤ g.width ∧ g.width ≤ 4294967295) (hh : 1 ≤ g.height ∧ g.height ≤ 4294967295)
    (hc : on_board g c) :
    (∀ i, i < 4 →
      (wrong_field (add32 c.x (x_dir i)) (add32 c.y (y_dir i)) g = false ↔
        (0 ≤ (c.x : Int) + x_dir i ∧ (c.x : Int) + x_dir i < g.width ∧
          0 ≤ (c.y : Int) + y_dir i ∧ (c.y : Int) + y_dir i < g.height)) ∧
      (wrong_field (add32 c.x (x_dir i)) (add32 c.y (y_dir i)) g = false →
        (add32 c.x (x_dir i) : Int) = (c.x : Int) + x_dir i ∧
        (add32 c.y (y_dir i) : Int) = (c.y : Int) + y_dir i ∧
        adjacent c { x := add32 c.x (x_dir i), y := add32 c.y (y_dir i) })) ∧
    (c.x = 0 → wrong_field (add32 c.x (x_dir 3)) (add32 c.y (y_dir 3)) g = true) ∧
    (c.y = 0 → wrong_field (add32 c.x (x_dir 2)) (add32 c.y (y_dir 2)) g = true) ∧
    (c.x = g.width - 1 → wrong_field (add32 c.x (x_dir 1)) (add32 c.y (y_dir 1)) g = true) ∧
    (c.y = g.height - 1 → wrong_field (add32 c.x (x_dir 0)) (add32 c.y (y_dir 0)) g = true) ∧
    count_neighbours g c.x c.y p =
      ((board g).filter (fun n => owner g n = p ∧ adjacent c n)).card := by
  have hw2 : g.width < UINT32_MOD := by unfold UINT32_MOD; omega
  have hh2 : g.height < UINT32_MOD := by unfold UINT32_MOD; omega
  have hwf : ∀ i, wrong_field (add32 c.x (x_dir i)) (add32 c.y (y_dir i)) g = false ↔
      on_board g (nbr c i) := fun i => wrong_field_false_iff
  have hwt : ∀ i, ¬ on_board g (nbr c i) →
      wrong_field (add32 c.x (x_dir i)) (add32 c.y (y_dir i)) g = true := by
    intro i hn
    cases hb : wrong_field (add32 c.x (x_dir i)) (add32 c.y (y_dir i)) g
    · exact absurd ((hwf i).mp hb) hn
    · rfl
  have hrng : ∀ i, i < 4 → ¬ (0 ≤ (c.x : Int) + x_dir i ∧ (c.x : Int) + x_dir i < g.width ∧
      0 ≤ (c.y : Int) + y_dir i ∧ (c.y : Int) + y_dir i < g.height) →
      wrong_field (add32 c.x (x_dir i)) (add32 c.y (y_dir i)) g = true :=
    fun i hi hn => hwt i (fun hb => hn ((nbr_in_range hw2 hh2 hc hi).1.mp hb))
  refine ⟨fun i hi => ⟨?_, fun hf => ?_⟩, fun h0 => ?_, fun h0 => ?_, fun h0 => ?_,
    fun h0 => ?_, ?_⟩
  · rw [hwf i]
    exact (nbr_in_range hw2 hh2 hc hi).1
  · have hb := (hwf i).mp hf
    have h2 := (nbr_in_range hw2 hh2 hc hi).2 hb
    exact ⟨h2.1, h2.2, nbr_on_board_adjacent hw2 hh2 hc hi hb⟩
  · apply hrng 3 (by omega)
    simp only [x_dir, y_dir]
    omega
  · apply hrng 2 (by omega)
    simp only [x_dir, y_dir]
    omega
  · apply hrng 1 (by omega)
    simp only [x_dir, y_dir]
    omega
  · apply hrng 0 (by omega)
    simp only [x_dir, y_dir]
    omega
  · exact count_neighbours_eq_card hw2 hh2 hc

theorem neighbours_no_wraparound_witness :
    (1 ≤ new_2x2.width ∧ new_2x2.width ≤ 4294967295) ∧
    (1 ≤ new_2x2.height ∧ new_2x2.height ≤ 4294967295) ∧
    on_board new_2x2 { x := 0, y := 1 } ∧
    count_neighbours new_2x2 0 1 1 =
      ((board new_2x2).filter
        (fun n => owner new_2x2 n = 1 ∧ adjacent { x := 0, y := 1 } n)).card :=
  ⟨by decide, by decide, by unfold on_board; decide,
    (neighbours_no_wraparound new_2x2 { x := 0, y := 1 } 1 (by decide) (by decide)
      (by unfold on_board; decide)).2.2.2.2.2⟩

/-! ## Path compression in `find_parent` -/

theorem chain_add (g : gamma) (c : field_t) (a b : Nat) :
    chain g c (a + b) = chain g (chain g c a) b := by
  unfold chain
  rw [Nat.add_comm]
  exact Function.iterate_add_apply (par g) b a c

theorem chain_root_stable {g : gamma} {c : field_t} {k : Nat}
    (h : par g (chain g c k) = chain g c k) {m : Nat} (hm : k ≤ m) :
    chain g c m = chain g c k := by
  obtain ⟨d, rfl⟩ := Nat.exists_eq_add_of_le hm
  rw [chain_add, chain_of_root h]

theorem reaches_root_unique {g : gamma} {c r r1 : field_t} (h : reaches_root g c r)
    (h1 : reaches_root g c r1) : r = r1 := by
  obtain ⟨k, hk, hr⟩ := h
  obtain ⟨k1, hk1, hr1⟩ := h1
  rw [← hk] at hr
  rw [← hk1] at hr1
  rcases Nat.le_total k k1 with hle | hle
  · rw [← hk, ← hk1, chain_root_stable hr hle]
  · rw [← hk, ← hk1, chain_root_stable hr1 hle]

/-- With fuel above the distance `k` of `f` to its root, `find_parent` returns the root,
redirects every cell of the path to it and leaves every other parent entry alone. -/
theorem find_parent_fuel_exact (g : gamma) : ∀ (fuel : Nat) (f : field_t) (k : Nat),
    k < fuel → par g (chain g f k) = chain g f k →
    ∃ ps : Nat → Nat → field_t,
      find_parent_fuel fuel g f = ({ g with parents := ps }, chain g f k) ∧
      (∀ j, j ≤ k → ps (chain g f j).x (chain g f j).y = chain g f k) ∧
      (∀ d : field_t, (∀ j, j ≤ k → chain g f j ≠ d) → ps d.x d.y = par g d) := by
  intro fuel
  induction fuel with
  | zero => intro f k h; exact absurd h (Nat.not_lt_zero _)
  | succ n ih =>
    intro f k hk hroot
    unfold find_parent_fuel
    by_cases hf : f = g.parents f.x f.y
    · have h1 : field_equals f (g.parents f.x f.y) = true := (field_equals_iff _ _).mpr hf
      have hpf : par g f = f := hf.symm
      rw [if_pos h1]
      refine ⟨g.parents, ?_, fun j _ => ?_, fun d _ => rfl⟩
      · rw [chain_of_root hpf, ← hf]
      · rw [chain_of_root hpf, chain_of_root hpf]
        exact hpf
    · have h1 : ¬ (field_equals f (g.parents f.x f.y) = true) := by
        rw [field_equals_iff]; exact hf
      rw [if_neg h1]
      have hk0 : k ≠ 0 := by
        intro e
        rw [e, chain_zero] at hroot
        exact hf hroot.symm
      obtain ⟨k1, rfl⟩ := Nat.exists_eq_succ_of_ne_zero hk0
      have hroot1 : par g (chain g (par g f) k1) = chain g (par g f) k1 := by
        rw [← chain_succ]; exact hroot
      obtain ⟨ps, hps1, hps2, hps3⟩ := ih (par g f) k1 (by omega) hroot1
      change find_parent_fuel n g (par g f) = _ at hps1
      change ∃ ps1, ({ (find_parent_fuel n g (par g f)).1 with
        parents := set2D (find_parent_fuel n g (par g f)).1.parents f.x f.y
          (find_parent_fuel n g (par g f)).2 }, (find_parent_fuel n g (par g f)).2) = _ ∧ _
      rw [hps1, chain_succ]
      refine ⟨set2D ps f.x f.y (chain g (par g f) k1), rfl, ?_, ?_⟩
      · intro j hj
        rw [set2D_cell]
        by_cases hjf : chain g f j = f
        · rw [if_pos hjf]
        · rw [if_neg hjf]
          have hj0 : j ≠ 0 := fun e => hjf (by rw [e, chain_zero])
          obtain ⟨j1, rfl⟩ := Nat.exists_eq_succ_of_ne_zero hj0
          rw [chain_succ]
          exact hps2 j1 (by omega)
      · intro d hd
        rw [set2D_cell]
        have hdf : d ≠ f := fun e => hd 0 (Nat.zero_le _) (by rw [chain_zero, e])
        rw [if_neg hdf]
        apply hps3 d
        intro j hj
        rw [← chain_succ]
        exact hd (j + 1) (by omega)

theorem acyclic_chain_owned {g : gamma} (hA : acyclic_parents g) {c : field_t}
    (hb : on_board g c) (ho : owner g c ≠ 0) :
    ∀ k, on_board g (chain g c k) ∧ owner g (chain g c k) ≠ 0 := by
  intro k
  induction k with
  | zero => exact ⟨hb, ho⟩
  | succ k ih =>
    rw [chain_succ_par]
    exact hA.1 _ ih.1 ih.2

/-- In an acyclic state the parent chain of an owned cell reaches a root in fewer steps
than the board has cells. -/
theorem acyclic_reaches_root {g : gamma} (hA : acyclic_parents g) {c : field_t}
    (hb : on_board g c) (ho : owner g c ≠ 0) :
    ∃ k, k < g.width * g.height ∧ par g (chain g c k) = chain g c k := by
  have hmap : ∀ i ∈ Finset.range (g.width * g.height + 1), chain g c i ∈ board g :=
    fun i _ => mem_board.mpr (acyclic_chain_owned hA hb ho i).1
  have hcard : (board g).card < (Finset.range (g.width * g.height + 1)).card := by
    rw [card_board, Finset.card_range]
    omega
  obtain ⟨i, hi, j, hj, hne, he⟩ := Finset.exists_ne_map_eq_of_card_lt_of_maps_to hcard hmap
  have key : ∀ a b, a < b → b ≤ g.width * g.height → chain g c a = chain g c b →
      ∃ k, k < g.width * g.height ∧ par g (chain g c k) = chain g c k := by
    intro a b hab hb2 hab2
    obtain ⟨m, rfl⟩ := Nat.exists_eq_add_of_lt hab
    refine ⟨a, by omega, ?_⟩
    have hl := acyclic_chain_owned hA hb ho a
    apply hA.2 (chain g c a) m hl.1 hl.2
    rw [← chain_add, hab2]
    congr 1
  have hi2 := Finset.mem_range.mp hi
  have hj2 := Finset.mem_range.mp hj
  rcases Nat.lt_or_gt_of_ne hne with h | h
  · exact key i j h (by omega) he
  · exact key j i h (by omega) he.symm

/-- Redirecting the cells of the parent path of `f` to the root of the path keeps the root
reached from every cell. -/
theorem compress_reaches {g : gamma} {ps : Nat → Nat → field_t} {f : field_t} {k : Nat}
    (hroot : par g (chain g f k) = chain g f k)
    (hps2 : ∀ j, j ≤ k → ps (chain g f j).x (chain g f j).y = chain g f k)
    (hps3 : ∀ d : field_t, (∀ j, j ≤ k → chain g f j ≠ d) → ps d.x d.y = par g d) :
    ∀ (m : Nat) (c r : field_t), chain g c m = r → par g r = r →
      reaches_root { g with parents := ps } c r := by
  have hpar : ∀ c, par { g with parents := ps } c = ps c.x c.y := fun c => rfl
  have hfix : ∀ r, par g r = r → par { g with parents := ps } r = r := by
    intro r hr
    rw [hpar]
    by_cases hon : ∃ j, j ≤ k ∧ chain g f j = r
    · obtain ⟨j, hj, rfl⟩ := hon
      rw [hps2 j hj]
      exact chain_root_stable hr hj
    · rw [hps3 r (fun j hj e => hon ⟨j, hj, e⟩)]
      exact hr
  intro m
  induction m with
  | zero =>
    intro c r hc hr
    rw [chain_zero] at hc
    subst hc
    exact ⟨0, rfl, hfix c hr⟩
  | succ m ih =>
    intro c r hc hr
    by_cases hon : ∃ j, j ≤ k ∧ chain g f j = c
    · obtain ⟨j, hj, rfl⟩ := hon
      have h1 : reaches_root g (chain g f j) (chain g f k) := by
        refine ⟨k - j, ?_, hroot⟩
        rw [← chain_add]
        congr 1
        omega
      have h2 : reaches_root g (chain g f j) r := ⟨m + 1, hc, hr⟩
      have e := reaches_root_unique h1 h2
      rw [← e]
      refine ⟨1, ?_, hfix _ hroot⟩
      rw [chain_succ, chain_zero, hpar]
      exact hps2 j hj
    · rw [chain_succ] at hc
      obtain ⟨m1, a1, a2⟩ := ih (par g c) r hc hr
      refine ⟨m1 + 1, ?_, a2⟩
      rw [chain_succ, hpar, hps3 c (fun j hj e => hon ⟨j, hj, e⟩)]
      exact a1

theorem forest_rank_chain {g : gamma} {D : field_t → Prop} {rep : field_t → field_t}
    {rk : field_t → Nat} (hF : ForestOn g D rep rk) {c : field_t} (hc : live g D c) :
    ∀ k, rk c ≤ rk (chain g c k) := by
  intro k
  induction k with
  | zero => exact Nat.le_refl _
  | succ k ih =>
    rw [chain_succ_par]
    by_cases e : par g (chain g c k) = chain g c k
    · rw [e]; exact ih
    · have := hF.rank_lt _ (chain_live hF hc k).1 e
      omega

/-- The parent links of a state with a ranked forest are acyclic. -/
theorem forest_acyclic {g : gamma} {rep : field_t → field_t} {rk : field_t → Nat}
    (hF : ForestOn g (fun _ => True) rep rk) : acyclic_parents g := by
  constructor
  · intro c hb ho
    have h := (hF.par_live c ⟨trivial, hb, ho⟩).1
    exact ⟨h.2.1, h.2.2⟩
  · intro c k hb ho hk
    by_contra hne
    have hl : live g (fun _ => True) c := ⟨trivial, hb, ho⟩
    have h1 := hF.rank_lt c hl hne
    have h2 := forest_rank_chain hF (hF.par_live c hl).1 k
    rw [← chain_succ, hk] at h2
    omega

theorem Reachable.reach_acyclic {g : gamma} (hR : Reachable g) : acyclic_parents g := by
  obtain ⟨rep, rk, hF⟩ := hR.reach_inv.core.forest
  exact forest_acyclic hF

/-- C32: in a state whose parent links are acyclic and for an owned on-board cell `f`,
`find_parent(f)` returns the root reached from `f` by following parent links (the cell
`chain g f k` for some `k`, its own parent); after the call every cell of the path
`chain g f 0, ..., chain g f k` has the root as its parent entry, the parent entry of
every cell off the path is unchanged, the area sizes and every other field of the state
are unchanged, and from every owned cell the same root is reached as before the call. -/
theorem find_parent_compresses (g : gamma) (f : field_t) (hA : acyclic_parents g)
    (hb : on_board g f) (ho : owner g f ≠ 0) :
    reaches_root g f (find_parent g f).2 ∧
    ∃ k, chain g f k = (find_parent g f).2 ∧
      (∀ j, j ≤ k → par (find_parent g f).1 (chain g f j) = (find_parent g f).2) ∧
      (∀ d, (∀ j, j ≤ k → chain g f j ≠ d) → par (find_parent g f).1 d = par g d) ∧
      (find_parent g f).1.areas_size = g.areas_size ∧
      (find_parent g f).1 = { g with parents := (find_parent g f).1.parents } ∧
      ∀ c r, on_board g c → owner g c ≠ 0 →
        (reaches_root (find_parent g f).1 c r ↔ reaches_root g c r) := by
  obtain ⟨k, hk, hroot⟩ := acyclic_reaches_root hA hb ho
  obtain ⟨ps, e, hps2, hps3⟩ := find_parent_fuel_exact g (g.width * g.height) f k hk hroot
  change find_parent g f = _ at e
  rw [e]
  refine ⟨⟨k, rfl, hroot⟩, k, rfl, hps2, hps3, rfl, rfl, ?_⟩
  intro c r hcb hco
  have hA2 : ∀ r1, reaches_root g c r1 → reaches_root { g with parents := ps } c r1 := by
    rintro r1 ⟨m, h1, h2⟩
    exact compress_reaches hroot hps2 hps3 m c r1 h1 h2
  constructor
  · intro h
    obtain ⟨m, _, hm⟩ := acyclic_reaches_root hA hcb hco
    have h0 : reaches_root g c (chain g c m) := ⟨m, rfl, hm⟩
    rw [reaches_root_unique h (hA2 _ h0)]
    exact h0
  · exact hA2 r

theorem find_parent_compresses_witness :
    acyclic_parents (gamma_move (gamma_move new_2x2 1 0 0).2 1 0 1).2 ∧
    on_board (gamma_move (gamma_move new_2x2 1 0 0).2 1 0 1).2 { x := 0, y := 1 } ∧
    owner (gamma_move (gamma_move new_2x2 1 0 0).2 1 0 1).2 { x := 0, y := 1 } ≠ 0 ∧
    reaches_root (gamma_move (gamma_move new_2x2 1 0 0).2 1 0 1).2 { x := 0, y := 1 }
      (find_parent (gamma_move (gamma_move new_2x2 1 0 0).2 1 0 1).2 { x := 0, y := 1 }).2 :=
  ⟨(Reachable.move _ 1 0 1 (Reachable.move _ 1 0 0 new_2x2_reachable)).reach_acyclic,
    by unfold on_board; decide, by unfold owner; decide,
    (find_parent_compresses _ { x := 0, y := 1 }
      (Reachable.move _ 1 0 1 (Reachable.move _ 1 0 0 new_2x2_reachable)).reach_acyclic
      (by unfold on_board; decide) (by unfold owner; decide)).1⟩

/-! ## `sort_n_parents` sorts by decreasing area size -/

/-- One pass of the inner loop of `sort_n_parents` over the indices below `t`: the entry
with the smallest area size among the first `t + 1` entries ends at index `t`. -/
theorem sort_inner_pass (g : gamma) : ∀ (t : Nat) (np : Nat → field_t),
    (∀ i, i ≤ t →
      g.areas_size ((List.range t).foldl (fun np2 j => sort_inner_step g np2 j) np t).x
          ((List.range t).foldl (fun np2 j => sort_inner_step g np2 j) np t).y ≤
        g.areas_size ((List.range t).foldl (fun np2 j => sort_inner_step g np2 j) np i).x
          ((List.range t).foldl (fun np2 j => sort_inner_step g np2 j) np i).y) ∧
    (∀ i, t < i → (List.range t).foldl (fun np2 j => sort_inner_step g np2 j) np i = np i) ∧
    (∀ u, u ≤ t → ∃ v, v ≤ t ∧
      (List.range t).foldl (fun np2 j => sort_inner_step g np2 j) np u = np v) := by
  intro t
  induction t with
  | zero =>
    intro np
    refine ⟨fun i hi => ?_, fun i _ => rfl, fun u hu => ⟨u, hu, rfl⟩⟩
    have : i = 0 := by omega
    subst this
    exact Nat.le_refl _
  | succ t ih =>
    intro np
    obtain ⟨h1, h2, h3⟩ := ih np
    rw [List.range_succ, List.foldl_append, List.foldl_cons, List.foldl_nil]
    generalize (List.range t).foldl (fun np2 j => sort_inner_step g np2 j) np = b at h1 h2 h3
    unfold sort_inner_step parents_compare
    by_cases hc : g.areas_size (b t).x (b t).y < g.areas_size (b (t + 1)).x (b (t + 1)).y
    · rw [if_pos (decide_eq_true hc)]
      refine ⟨fun i hi => ?_, fun i hi => ?_, fun u hu => ?_⟩
      · rw [set1D_ne _ _ _ _ (show t + 1 ≠ t by omega), set1D_same]
        by_cases e1 : i = t
        · subst e1
          rw [set1D_same]
          omega
        · rw [set1D_ne _ _ _ _ e1]
          by_cases e2 : i = t + 1
          · subst e2
            rw [set1D_same]
          · rw [set1D_ne _ _ _ _ e2]
            exact h1 i (by omega)
      · rw [set1D_ne _ _ _ _ (show i ≠ t by omega), set1D_ne _ _ _ _ (show i ≠ t + 1 by omega)]
        exact h2 i (by omega)
      · by_cases e1 : u = t
        · subst e1
          rw [set1D_same]
          exact ⟨u + 1, by omega, h2 (u + 1) (by omega)⟩
        · rw [set1D_ne _ _ _ _ e1]
          by_cases e2 : u = t + 1
          · subst e2
            rw [set1D_same]
            obtain ⟨v, hv, e⟩ := h3 t (Nat.le_refl _)
            exact ⟨v, by omega, e⟩
          · rw [set1D_ne _ _ _ _ e2]
            obtain ⟨v, hv, e⟩ := h3 u (by omega)
            exact ⟨v, by omega, e⟩
    · rw [if_neg (by simpa using hc)]
      refine ⟨fun i hi => ?_, fun i hi => h2 i (by omega), fun u hu => ?_⟩
      · by_cases e2 : i = t + 1
        · subst e2
          exact Nat.le_refl _
        · have := h1 i (by omega)
          omega
      · by_cases e2 : u = t + 1
        · subst e2
          exact ⟨t + 1, Nat.le_refl _, h2 (t + 1) (by omega)⟩
        · obtain ⟨v, hv, e⟩ := h3 u (by omega)
          exact ⟨v, by omega, e⟩

theorem sort_outer_pass (g : gamma) (l : Nat) : ∀ (i : Nat) (np : Nat → field_t), i ≤ l →
    ∀ u v, u < v → v < l → l ≤ v + i →
      g.areas_size ((List.range i).foldl (fun np i =>
          (List.range (l - i - 1)).foldl (fun np2 j => sort_inner_step g np2 j) np) np v).x
          ((List.range i).foldl (fun np i =>
          (List.range (l - i - 1)).foldl (fun np2 j => sort_inner_step g np2 j) np) np v).y ≤
        g.areas_size ((List.range i).foldl (fun np i =>
          (List.range (l - i - 1)).foldl (fun np2 j => sort_inner_step g np2 j) np) np u).x
          ((List.range i).foldl (fun np i =>
          (List.range (l - i - 1)).foldl (fun np2 j => sort_inner_step g np2 j) np) np u).y := by
  intro i
  induction i with
  | zero => intro np _ u v _ h1 h2; omega
  | succ i ih =>
    intro np hi u v huv hv hl
    have hq := ih np (by omega)
    rw [List.range_succ, List.foldl_append, List.foldl_cons, List.foldl_nil]
    generalize (List.range i).foldl (fun np i =>
      (List.range (l - i - 1)).foldl (fun np2 j => sort_inner_step g np2 j) np) np = a at hq
    obtain ⟨h1, h2, h3⟩ := sort_inner_pass g (l - i - 1) a
    by_cases hvt : v = l - i - 1
    · subst hvt
      exact h1 u (by omega)
    · rw [h2 v (by omega)]
      by_cases hut : l - i - 1 < u
      · rw [h2 u hut]
        exact hq u v huv hv (by omega)
      · obtain ⟨w, hw, e⟩ := h3 u (by omega)
        rw [e]
        exact hq w v (by omega) hv (by omega)

/-- The array returned by `sort_n_parents` is ordered by decreasing area size. -/
theorem sort_n_parents_sorted (g : gamma) (np : Nat → field_t) (l : Nat) (u v : Nat)
    (huv : u < v) (hv : v < l) :
    g.areas_size (sort_n_parents g np l v).x (sort_n_parents g np l v).y ≤
      g.areas_size (sort_n_parents g np l u).x (sort_n_parents g np l u).y :=
  sort_outer_pass g l l np (Nat.le_refl _) u v huv hv (by omega)

/-! ## The merges of `remove_same_areas` -/

theorem remove_same_areas_eq_merge (g : gamma) (nb : Nat → field_t) (l p : Nat) :
    remove_same_areas g nb l p = (merge_state g nb l p (l - 1)).1 := rfl

theorem move_util_eq_loop (g : gamma) (x y p : Nat) :
    move_util g x y p =
      if (move_loop g x y p).l = 0 then
        { move_loop g x y p |>.g with
          parents := set2D (move_loop g x y p).g.parents x y { x := x, y := y }
          areas_size := set2D (move_loop g x y p).g.areas_size x y 1 }
      else remove_same_areas (move_loop g x y p).g (move_loop g x y p).neigbours
        (move_loop g x y p).l p := rfl

/-- The merge of iteration `it = m + 1` of the `while` loop of `remove_same_areas`: when
the root found for `n_parents[it]` differs from the accumulator, its area size is at most
that of the accumulator, and `union_areas` clears its size, makes the accumulator its
parent and adds its size to that of the accumulator. -/
theorem merge_step_spec {h : gamma} {c0 : field_t} {p : Nat} {rep : field_t → field_t}
    {rk : field_t → Nat} {nb : Nat → field_t} {l : Nat} (hp : p ≠ 0) (hl : 0 < l)
    (hF : ForestOn h (fun c => c ≠ c0) rep rk) (hc0 : owns h p c0)
    (hnb : ∀ j, j < l → owns h p (nb j) ∧ adjacent c0 (nb j))
    (hareas : (h.players (p - 1)).num_of_areas = (roots_in h (fun c => c ≠ c0) p).card)
    (hbound : size_sum h ((Finset.range l).image (fun j => rep (nb j))) < UINT64_MOD)
    (m : Nat) (hm : m + 2 ≤ l)
    (hne : (find_parent (merge_state h nb l p m).1 ((merge_state h nb l p m).2 (m + 1))).2 ≠
      (merge_start h nb l).2 0) :
    (find_parent (merge_state h nb l p m).1 ((merge_state h nb l p m).2 (m + 1))).1.areas_size
        (find_parent (merge_state h nb l p m).1 ((merge_state h nb l p m).2 (m + 1))).2.x
        (find_parent (merge_state h nb l p m).1 ((merge_state h nb l p m).2 (m + 1))).2.y ≤
      (find_parent (merge_state h nb l p m).1 ((merge_state h nb l p m).2 (m + 1))).1.areas_size
        ((merge_start h nb l).2 0).x ((merge_start h nb l).2 0).y ∧
    (find_parent (merge_state h nb l p m).1 ((merge_state h nb l p m).2 (m + 1))).1.areas_size
        ((merge_start h nb l).2 0).x ((merge_start h nb l).2 0).y +
      (find_parent (merge_state h nb l p m).1 ((merge_state h nb l p m).2 (m + 1))).1.areas_size
        (find_parent (merge_state h nb l p m).1 ((merge_state h nb l p m).2 (m + 1))).2.x
        (find_parent (merge_state h nb l p m).1 ((merge_state h nb l p m).2 (m + 1))).2.y <
      UINT64_MOD := by
  have hlive : ∀ j, j < l → live h (fun c => c ≠ c0) (nb j) := by
    intro j hj
    obtain ⟨h1, h2⟩ := hnb j hj
    exact ⟨fun e => adjacent_ne h2 e.symm, h1.1, by rw [h1.2]; exact hp⟩
  obtain ⟨ps, np, e1, e2, e3⟩ := remove_same_areas_find_spec hF nb l hlive
  have e3b : ∀ d : field_t, live h (fun c => c ≠ c0) d →
      (ps d.x d.y = par h d ∨ ps d.x d.y = rep d) := by
    intro d _
    rcases e3 d with e | ⟨_, e⟩
    · exact Or.inl e
    · exact Or.inr e
  have hF1 := hF.compress ps e3b
  have hroots1 : ∀ q, q ≠ 0 → roots_in { h with parents := ps } (fun c => c ≠ c0) q =
      roots_in h (fun c => c ≠ c0) q := fun q hq => roots_in_compress hF ps e3b q hq
  have hse := sort_n_parents_same { h with parents := ps } np l
  have hsrt := sort_n_parents_sorted { h with parents := ps } np l
  have himg : (Finset.range l).image (sort_n_parents { h with parents := ps } np l) =
      (Finset.range l).image (fun j => rep (nb j)) := by
    rw [image_same_entries hse]
    apply Finset.image_congr
    intro j hj
    exact e2 j (Finset.mem_range.mp (Finset.mem_coe.mp hj))
  have hsorted : ∀ j, j < l → ∃ i, i < l ∧
      sort_n_parents { h with parents := ps } np l j = rep (nb i) := by
    intro j hj
    obtain ⟨i, hi, e⟩ := hse.1 j hj
    exact ⟨i, hi, e.trans (e2 i hi)⟩
  have hconn0 : ∀ i, i < l → Conn h p (rep (nb i)) c0 := by
    intro i hi
    have a1 := hF.rep_conn (nb i) (hlive i hi)
    rw [(hnb i hi).1.2] at a1
    exact a1.conn_symm.conn_trans (Conn.single ⟨adjacent_symm (hnb i hi).2, (hnb i hi).1, hc0⟩)
  have hs : ∀ j, j < l →
      live { h with parents := ps } (fun c => c ≠ c0)
        (sort_n_parents { h with parents := ps } np l j) ∧
      rep (sort_n_parents { h with parents := ps } np l j) =
        sort_n_parents { h with parents := ps } np l j ∧
      owner { h with parents := ps } (sort_n_parents { h with parents := ps } np l j) = p ∧
      Conn { h with parents := ps } p (sort_n_parents { h with parents := ps } np l j)
        (sort_n_parents { h with parents := ps } np l 0) := by
    intro j hj
    obtain ⟨i, hi, e⟩ := hsorted j hj
    obtain ⟨i0, hi0, e0⟩ := hsorted 0 hl
    rw [e, e0]
    have a1 := hF.rep_live (nb i) (hlive i hi)
    refine ⟨a1.1, hF.rep_rep (nb i) (hlive i hi), a1.2.trans (hnb i hi).1.2, ?_⟩
    exact (Conn_congr rfl rfl rfl p _ _).mpr ((hconn0 i hi).conn_trans (hconn0 i0 hi0).conn_symm)
  have hareas1 : (({ h with parents := ps } : gamma).players (p - 1)).num_of_areas =
      (roots_in { h with parents := ps } (fun c => c ≠ c0) p).card := by
    rw [hroots1 p hp]; exact hareas
  have hbound1 : size_sum { h with parents := ps }
      ((Finset.range l).image (sort_n_parents { h with parents := ps } np l)) < UINT64_MOD := by
    rw [himg]; exact hbound
  have hloop := accumulate_loop (sort_n_parents { h with parents := ps } np l) l hp hF1 hs
    hareas1 m (by omega)
  have hsizes := accumulate_sizes (sort_n_parents { h with parents := ps } np l) l hp hF1 hs
    hareas1 hbound1 m (by omega)
  have hstart : merge_start h nb l =
      ({ h with parents := ps }, sort_n_parents { h with parents := ps } np l) := by
    unfold merge_start
    rw [e1]
  have hstate : merge_state h nb l p m =
      (List.range' 1 m).foldl
        (remove_same_areas_step (sort_n_parents { h with parents := ps } np l 0) p)
        ({ h with parents := ps }, sort_n_parents { h with parents := ps } np l) := by
    unfold merge_state
    rw [hstart]
  rw [hstate, hstart] at hne ⊢
  obtain ⟨f1, ⟨rk1, f2⟩, f3, _, _, _, _⟩ := hloop
  have hsub : (Finset.range (m + 1 + 1)).image (sort_n_parents { h with parents := ps } np l) ⊆
      (Finset.range l).image (sort_n_parents { h with parents := ps } np l) := by
    apply Finset.image_subset_image
    intro j hj
    rw [Finset.mem_range] at hj ⊢
    omega
  have hle := size_sum_mono ({ h with parents := ps } : gamma) hsub
  have hord := hsrt 0 (m + 1) (by omega) (by omega)
  generalize sort_n_parents { h with parents := ps } np l = sorted at *
  generalize (List.range' 1 m).foldl (remove_same_areas_step (sorted 0) p)
    ({ h with parents := ps }, sorted) = st at *
  have hm1 := hs (m + 1) (by omega)
  have hlv : live st.1 (fun c => c ≠ c0) (st.2 (m + 1)) := by
    rw [f3 (m + 1) (by omega)]
    exact (f1.live_iff _ _).mpr hm1.1
  obtain ⟨ps2, e4, _⟩ := find_parent_spec f2 (st.2 (m + 1)) hlv
  rw [e4] at hne ⊢
  rw [f3 (m + 1) (by omega)] at hne ⊢
  have hacc : sorted 0 ∈ (Finset.range (m + 1)).image sorted :=
    Finset.mem_image.mpr ⟨0, Finset.mem_range.mpr (by omega), rfl⟩
  have hnot : sorted (m + 1) ∉ (Finset.range (m + 1)).image sorted := by
    intro hmem
    apply hne
    simp only
    unfold merged_rep
    rw [hm1.2.1, if_pos hmem]
  have hmr : merged_rep rep ((Finset.range (m + 1)).image sorted) (sorted 0) (sorted (m + 1)) =
      sorted (m + 1) := by
    unfold merged_rep
    rw [hm1.2.1, if_neg hnot]
  simp only [hmr]
  have hne0 : sorted (m + 1) ≠ sorted 0 := fun e => hnot (e ▸ hacc)
  have a1 := hsizes (sorted 0)
  rw [if_pos rfl] at a1
  have a2 := hsizes (sorted (m + 1))
  rw [if_neg hne0, if_neg hnot] at a2
  rw [a1, a2]
  have hsingle : ({ h with parents := ps } : gamma).areas_size (sorted 0).x (sorted 0).y ≤
      size_sum { h with parents := ps } ((Finset.range (m + 1)).image sorted) := by
    unfold size_sum
    exact Finset.single_le_sum (f := fun r : field_t =>
      ({ h with parents := ps } : gamma).areas_size r.x r.y) (fun _ _ => Nat.zero_le _) hacc
  have hsum : size_sum { h with parents := ps }
      ((Finset.range (m + 1 + 1)).image sorted) =
      ({ h with parents := ps } : gamma).areas_size (sorted (m + 1)).x (sorted (m + 1)).y +
        size_sum { h with parents := ps } ((Finset.range (m + 1)).image sorted) := by
    rw [Finset.range_succ, Finset.image_insert]
    unfold size_sum
    rw [Finset.sum_insert hnot]
  constructor
  · omega
  · omega

/-- The state in which `move_util` calls `remove_same_areas`: the forest of the cells other
than the placed cell `c0`, the listed neighbours, the area counter and the bound on the
sizes of the roots of the neighbours. -/
theorem move_merge_ctx {g : gamma} {p : Nat} {c0 : field_t} (hC : Core g) (hSI : SizeInv g)
    (hp : valid_player g p) (hb : on_board g c0) (hfree : owner g c0 = 0)
    (hpos : 0 < (move_loop g c0.x c0.y p).l) :
    ∃ (rep : field_t → field_t) (rk : field_t → Nat),
      ForestOn (move_loop g c0.x c0.y p).g (fun c => c ≠ c0) rep rk ∧
      owns (move_loop g c0.x c0.y p).g p c0 ∧
      (∀ j, j < (move_loop g c0.x c0.y p).l →
        owns (move_loop g c0.x c0.y p).g p ((move_loop g c0.x c0.y p).neigbours j) ∧
        adjacent c0 ((move_loop g c0.x c0.y p).neigbours j)) ∧
      ((move_loop g c0.x c0.y p).g.players (p - 1)).num_of_areas =
        (roots_in (move_loop g c0.x c0.y p).g (fun c => c ≠ c0) p).card ∧
      size_sum (move_loop g c0.x c0.y p).g ((Finset.range (move_loop g c0.x c0.y p).l).image
        (fun j => rep ((move_loop g c0.x c0.y p).neigbours j))) < UINT64_MOD := by
  obtain ⟨rep, rk, hF⟩ := hC.forest
  have hS := (size_on_iff hF).mp hSI
  have hp0 : p ≠ 0 := by have := hp.1; omega
  have hw := hC.width_lt
  have hh := hC.height_lt
  have hbb := board_bound hw hh
  have hb0 : on_board (take_field g c0.x c0.y p) c0 := hb
  have hown0 : owner (take_field g c0.x c0.y p) c0 = p := by
    rw [take_field_owner]
    exact if_pos rfl
  have hF0 : ForestOn (take_field g c0.x c0.y p) (fun c => c ≠ c0) rep rk :=
    take_field_forest hF c0.x c0.y p hfree
  have hI := @move_loop_spec (take_field g c0.x c0.y p) _ _ _ _ hw hh hb0 hp0 hF0
  have hsizes := @move_loop_sizes (take_field g c0.x c0.y p) _ _ _ _ hw hh hb0 hp0 hF0
  have hroots0 : ∀ q, q ≠ 0 →
      roots_in (take_field g c0.x c0.y p) (fun c => c ≠ c0) q = roots g q :=
    fun q hq => take_field_roots_in g c0.x c0.y p q hq hfree
  have hareas_g := hC.areas_eq p hp
  have hareas0 : ((take_field g c0.x c0.y p).players (p - 1)).num_of_areas =
      (g.players (p - 1)).num_of_areas + 1 := by
    rw [take_field_players_same]
    exact inc64_of_lt (hC.num_areas_lt hp)
  unfold move_loop at hpos ⊢
  generalize hst : (List.range DIRECTIONS).foldl (move_util_step c0.x c0.y p)
    { g := take_field g c0.x c0.y p, neigbours := fun _ => { x := 0, y := 0 }, l := 0 } = st at hI hsizes hpos ⊢
  have hsome := hI.some hpos
  have hsz := hsizes hpos
  have hc0s : owns st.g p c0 := (hI.frame.framep_owns_iff p c0).mpr ⟨hb0, hown0⟩
  have hnb : ∀ j, j < st.l → owns st.g p (st.neigbours j) ∧ adjacent c0 (st.neigbours j) := by
    intro j hj
    have := hI.nb_ok j hj
    exact ⟨(hI.frame.framep_owns_iff p _).mpr this.1, this.2⟩
  have hareas_s : (st.g.players (p - 1)).num_of_areas =
      (roots_in st.g (fun c => c ≠ c0) p).card := by
    rw [hsome.1, hareas0, hI.roots p hp0, hroots0 p hp0, ← hareas_g]
    rw [dec64_of_pos (by omega)]
    omega
  have hRroots : (Finset.range st.l).image (fun j => rep (st.neigbours j)) ⊆
      roots_in st.g (fun c => c ≠ c0) p := by
    intro r hr
    obtain ⟨j, hj, e⟩ := Finset.mem_image.mp hr
    obtain ⟨a1, a2⟩ := hnb j (Finset.mem_range.mp hj)
    have hlj : live st.g (fun c => c ≠ c0) (st.neigbours j) :=
      ⟨fun e => adjacent_ne a2 e.symm, a1.1, by rw [a1.2]; exact hp0⟩
    have b1 := hI.forest.rep_live _ hlj
    rw [← e, mem_roots_in]
    exact ⟨b1.1.2.1, b1.1.1, b1.2.trans a1.2, hI.forest.rep_root _ hlj⟩
  have hR : ∀ r, r ∈ (Finset.range st.l).image (fun j => rep (st.neigbours j)) →
      is_root g r ∧ owner g r = p := by
    intro r hr
    have := hRroots hr
    rw [hI.roots p hp0, hroots0 p hp0, mem_roots] at this
    exact ⟨⟨this.1, by rw [this.2.1]; exact hp0, this.2.2⟩, this.2.1⟩
  have hmem0 : rep (st.neigbours 0) ∈ (Finset.range st.l).image (fun j => rep (st.neigbours j)) :=
    Finset.mem_image.mpr ⟨0, Finset.mem_range.mpr hpos, rfl⟩
  have hr0size : g.areas_size (rep (st.neigbours 0)).x (rep (st.neigbours 0)).y + 1 <
      UINT64_MOD := by
    rw [(hS _).1 (hR _ hmem0).1]
    have := tree_card_le g rep (rep (st.neigbours 0))
    omega
  rw [take_field_areas_size, inc64_of_lt hr0size] at hsz
  have hsum : size_sum st.g ((Finset.range st.l).image (fun j => rep (st.neigbours j))) =
      size_sum g ((Finset.range st.l).image (fun j => rep (st.neigbours j))) + 1 :=
    size_sum_bump g st.g.areas_size hmem0 hsz
  have hsum_le : size_sum g ((Finset.range st.l).image (fun j => rep (st.neigbours j))) ≤
      g.width * g.height := by
    rw [size_sum_trees hS (fun r hr => (hR r hr).1), ← card_board]
    exact Finset.card_le_card (Finset.filter_subset _ _)
  exact ⟨rep, rk, hI.forest, hc0s, hnb, hareas_s, by rw [hsum]; omega⟩

theorem union_areas_effect (g : gamma) (acc r : field_t) (hne : r ≠ acc)
    (hb : g.areas_size acc.x acc.y + g.areas_size r.x r.y < UINT64_MOD) :
    (union_areas g acc r).areas_size r.x r.y = 0 ∧ par (union_areas g acc r) r = acc ∧
    (union_areas g acc r).areas_size acc.x acc.y =
      g.areas_size acc.x acc.y + g.areas_size r.x r.y := by
  refine ⟨?_, ?_, ?_⟩
  · rw [union_areas_areas_size, set2D_cell, if_pos rfl]
  · change set2D g.parents r.x r.y acc r.x r.y = acc
    rw [set2D_cell, if_pos rfl]
  · rw [union_areas_areas_size, set2D_cell, if_neg hne.symm, set2D_cell, if_pos rfl,
      Nat.mod_eq_of_lt hb]

theorem ScanState.scan_sizes {g h : gamma} (hS : ScanState g h) (hC : Core g)
    (hSI : SizeInv g) : Core h ∧ SizeInv h := by
  induction hS with
  | start => exact ⟨hC, hSI⟩
  | trial h player i j _ ih => exact golden_no_checking_sizes ih.1 ih.2 player i j
  | flag h player b _ ih => exact ⟨set_golden_core ih.1 player b, set_golden_sizes ih.2 player b⟩

theorem MoveState.move_sizes {g h : gamma} (hS : MoveState g h) (hC : Core g)
    (hSI : SizeInv g) : Core h ∧ SizeInv h := by
  cases hS with
  | scan _ hs => exact hs.scan_sizes hC hSI
  | vacated h1 x y hs hb h0 =>
    obtain ⟨a, b⟩ := hs.scan_sizes hC hSI
    exact delete_util_core_sizes a b hb h0

theorem remove_same_areas_step_union (acc : field_t) (p : Nat) (st : gamma × (Nat → field_t))
    (it : Nat) (hne : (find_parent st.1 (st.2 it)).2 ≠ acc) :
    (remove_same_areas_step acc p st it).1 =
      dec_areas (union_areas (find_parent st.1 (st.2 it)).1 acc
        (find_parent st.1 (st.2 it)).2) p := by
  unfold remove_same_areas_step
  simp only [set1D_same]
  rw [(field_equals_false_iff _ _).mpr hne]
  rfl

/-- The merges of `remove_same_areas` called by `move_util` in a state with the invariants
of the forest and of the area sizes. -/
theorem merge_sizes {h : gamma} {p x y m : Nat} (hC : Core h) (hSI : SizeInv h)
    (hp : valid_player h p) (hb : on_board h { x := x, y := y }) (hfree : h.player_arr x y = 0)
    (hm : m + 2 ≤ (move_loop h x y p).l)
    (hne : (merge_found (move_loop h x y p).g (move_loop h x y p).neigbours
      (move_loop h x y p).l p m).2 ≠
      merge_acc (move_loop h x y p).g (move_loop h x y p).neigbours (move_loop h x y p).l) :
    (merge_found (move_loop h x y p).g (move_loop h x y p).neigbours
        (move_loop h x y p).l p m).1.areas_size
        (merge_found (move_loop h x y p).g (move_loop h x y p).neigbours
          (move_loop h x y p).l p m).2.x
        (merge_found (move_loop h x y p).g (move_loop h x y p).neigbours
          (move_loop h x y p).l p m).2.y ≤
      (merge_found (move_loop h x y p).g (move_loop h x y p).neigbours
        (move_loop h x y p).l p m).1.areas_size
        (merge_acc (move_loop h x y p).g (move_loop h x y p).neigbours (move_loop h x y p).l).x
        (merge_acc (move_loop h x y p).g (move_loop h x y p).neigbours (move_loop h x y p).l).y ∧
    (merge_found (move_loop h x y p).g (move_loop h x y p).neigbours
        (move_loop h x y p).l p m).1.areas_size
        (merge_acc (move_loop h x y p).g (move_loop h x y p).neigbours (move_loop h x y p).l).x
        (merge_acc (move_loop h x y p).g (move_loop h x y p).neigbours (move_loop h x y p).l).y +
      (merge_found (move_loop h x y p).g (move_loop h x y p).neigbours
        (move_loop h x y p).l p m).1.areas_size
        (merge_found (move_loop h x y p).g (move_loop h x y p).neigbours
          (move_loop h x y p).l p m).2.x
        (merge_found (move_loop h x y p).g (move_loop h x y p).neigbours
          (move_loop h x y p).l p m).2.y < UINT64_MOD := by
  have hpos : 0 < (move_loop h x y p).l := by omega
  obtain ⟨rep, rk, c1, c2, c3, c4, c5⟩ :=
    @move_merge_ctx h p { x := x, y := y } hC hSI hp hb hfree hpos
  have hp0 : p ≠ 0 := by have := hp.1; omega
  change m + 2 ≤ (move_loop h x y p).l at hm
  generalize move_loop h x y p = L at hm hne hpos c1 c2 c3 c4 c5 ⊢
  exact merge_step_spec hp0 hpos c1 c2 c3 c4 c5 m hm hne

theorem new_6x1_reachable : Reachable new_6x1 :=
  Reachable.new 6 1 2 2 new_6x1 (by decide) (by decide) (by decide) (by decide)
    (Option.some_get _).symm

/-- C33: let `g` be a reachable state and `h` a state in which `gamma_move` runs during a
public call on `g` (`g` itself included), with `p` a valid player and `(x, y)` a free
on-board cell, so that `move_util` runs. Let `L` be the loop state with which
`remove_same_areas` is called, `A` its accumulator (the surviving root) and `F` the state
and the root found by `find_parent` in the iteration `it = m + 1 < l` of its `while` loop.
When the root found differs from the accumulator, the iteration calls
`union_areas(g, A, root)`; the area size of the absorbed root is then at most that of `A`;
after the call the size entry of the absorbed root is 0, its parent is `A`, and the size
entry of `A` is the sum of the two sizes. -/
theorem merge_absorbs_smaller (g h : gamma) (p x y m : Nat) (L : move_loop_t)
    (A : field_t) (F : gamma × field_t) (hR : Reachable g) (hS : MoveState g h)
    (hp : valid_player h p) (hb : on_board h { x := x, y := y }) (hfree : h.player_arr x y = 0)
    (hL : L = move_loop h x y p) (hA : A = merge_acc L.g L.neigbours L.l)
    (hF : F = merge_found L.g L.neigbours L.l p m) (hm : m + 2 ≤ L.l) (hne : F.2 ≠ A) :
    (remove_same_areas_step A p (merge_state L.g L.neigbours L.l p m) (m + 1)).1 =
      dec_areas (union_areas F.1 A F.2) p ∧
    F.1.areas_size F.2.x F.2.y ≤ F.1.areas_size A.x A.y ∧
    (union_areas F.1 A F.2).areas_size F.2.x F.2.y = 0 ∧
    par (union_areas F.1 A F.2) F.2 = A ∧
    (union_areas F.1 A F.2).areas_size A.x A.y =
      F.1.areas_size A.x A.y + F.1.areas_size F.2.x F.2.y := by
  subst hL hA hF
  obtain ⟨hC, hSI⟩ := hS.move_sizes hR.reach_inv.core hR.reach_sizes
  obtain ⟨s1, s2⟩ := merge_sizes hC hSI hp hb hfree hm hne
  obtain ⟨u1, u2, u3⟩ := union_areas_effect _ _ _ hne s2
  exact ⟨remove_same_areas_step_union _ p _ (m + 1) hne, s1, u1, u2, u3⟩

theorem merge_absorbs_smaller_witness :
    Reachable (gamma_move (gamma_move new_6x1 1 0 0).2 1 2 0).2 ∧
    MoveState (gamma_move (gamma_move new_6x1 1 0 0).2 1 2 0).2
      (gamma_move (gamma_move new_6x1 1 0 0).2 1 2 0).2 ∧
    valid_player (gamma_move (gamma_move new_6x1 1 0 0).2 1 2 0).2 1 ∧
    on_board (gamma_move (gamma_move new_6x1 1 0 0).2 1 2 0).2 { x := 1, y := 0 } ∧
    (gamma_move (gamma_move new_6x1 1 0 0).2 1 2 0).2.player_arr 1 0 = 0 ∧
    0 + 2 ≤ (move_loop (gamma_move (gamma_move new_6x1 1 0 0).2 1 2 0).2 1 0 1).l ∧
    (merge_found (move_loop (gamma_move (gamma_move new_6x1 1 0 0).2 1 2 0).2 1 0 1).g
      (move_loop (gamma_move (gamma_move new_6x1 1 0 0).2 1 2 0).2 1 0 1).neigbours
      (move_loop (gamma_move (gamma_move new_6x1 1 0 0).2 1 2 0).2 1 0 1).l 1 0).2 ≠
      merge_acc (move_loop (gamma_move (gamma_move new_6x1 1 0 0).2 1 2 0).2 1 0 1).g
        (move_loop (gamma_move (gamma_move new_6x1 1 0 0).2 1 2 0).2 1 0 1).neigbours
        (move_loop (gamma_move (gamma_move new_6x1 1 0 0).2 1 2 0).2 1 0 1).l ∧
    (union_areas
      (merge_found (move_loop (gamma_move (gamma_move new_6x1 1 0 0).2 1 2 0).2 1 0 1).g
        (move_loop (gamma_move (gamma_move new_6x1 1 0 0).2 1 2 0).2 1 0 1).neigbours
        (move_loop (gamma_move (gamma_move new_6x1 1 0 0).2 1 2 0).2 1 0 1).l 1 0).1
      (merge_acc (move_loop (gamma_move (gamma_move new_6x1 1 0 0).2 1 2 0).2 1 0 1).g
        (move_loop (gamma_move (gamma_move new_6x1 1 0 0).2 1 2 0).2 1 0 1).neigbours
        (move_loop (gamma_move (gamma_move new_6x1 1 0 0).2 1 2 0).2 1 0 1).l)
      (merge_found (move_loop (gamma_move (gamma_move new_6x1 1 0 0).2 1 2 0).2 1 0 1).g
        (move_loop (gamma_move (gamma_move new_6x1 1 0 0).2 1 2 0).2 1 0 1).neigbours
        (move_loop (gamma_move (gamma_move new_6x1 1 0 0).2 1 2 0).2 1 0 1).l 1 0).2).areas_size
      (merge_found (move_loop (gamma_move (gamma_move new_6x1 1 0 0).2 1 2 0).2 1 0 1).g
        (move_loop (gamma_move (gamma_move new_6x1 1 0 0).2 1 2 0).2 1 0 1).neigbours
        (move_loop (gamma_move (gamma_move new_6x1 1 0 0).2 1 2 0).2 1 0 1).l 1 0).2.x
      (merge_found (move_loop (gamma_move (gamma_move new_6x1 1 0 0).2 1 2 0).2 1 0 1).g
        (move_loop (gamma_move (gamma_move new_6x1 1 0 0).2 1 2 0).2 1 0 1).neigbours
        (move_loop (gamma_move (gamma_move new_6x1 1 0 0).2 1 2 0).2 1 0 1).l 1 0).2.y = 0 :=
  ⟨Reachable.move _ 1 2 0 (Reachable.move _ 1 0 0 new_6x1_reachable),
    MoveState.scan _ ScanState.start, by unfold valid_player; decide,
    by unfold on_board; decide, by decide, by decide, by decide,
    (merge_absorbs_smaller (gamma_move (gamma_move new_6x1 1 0 0).2 1 2 0).2
      (gamma_move (gamma_move new_6x1 1 0 0).2 1 2 0).2 1 1 0 0 _ _ _
      (Reachable.move _ 1 2 0 (Reachable.move _ 1 0 0 new_6x1_reachable))
      (MoveState.scan _ ScanState.start) (by unfold valid_player; decide)
      (by unfold on_board; decide) (by decide) rfl rfl rfl (by decide) (by decide)).2.2.1⟩

/-! ## Parent entries while a stone is removed -/

/-- The result of `find_parent` in a state with a ranked forest, with the exact set of
changed parent entries: those of the parent path of the cell. -/
theorem find_parent_path {g : gamma} {rep : field_t → field_t} {rk : field_t → Nat}
    (hF : ForestOn g (fun _ => True) rep rk) (c : field_t) (hc : live g (fun _ => True) c) :
    ∃ ps : Nat → Nat → field_t,
      find_parent g c = ({ g with parents := ps }, rep c) ∧
      (∀ d : field_t, live g (fun _ => True) d →
        (ps d.x d.y = par g d ∨ ps d.x d.y = rep d)) ∧
      (∀ d : field_t, ¬ (on_board g d ∧ owner g d = owner g c ∧ rep d = rep c) →
        ps d.x d.y = par g d) := by
  obtain ⟨k, hk, hroot⟩ := acyclic_reaches_root (forest_acyclic hF) hc.2.1 hc.2.2
  obtain ⟨ps, e, hps2, hps3⟩ := find_parent_fuel_exact g (g.width * g.height) c k hk hroot
  have hrep : chain g c k = rep c := (reaches_root_iff hF hc _).mp ⟨k, rfl, hroot⟩
  rw [hrep] at e hps2
  refine ⟨ps, e, fun d _ => ?_, fun d hd => ?_⟩
  · by_cases hon : ∃ j, j ≤ k ∧ chain g c j = d
    · obtain ⟨j, hj, rfl⟩ := hon
      right
      rw [hps2 j hj, (chain_live hF hc j).2.2]
    · left
      exact hps3 d (fun j hj e => hon ⟨j, hj, e⟩)
  · apply hps3 d
    intro j _ e
    apply hd
    rw [← e]
    exact ⟨(chain_live hF hc j).1.2.1, (chain_live hF hc j).2.1, (chain_live hF hc j).2.2⟩

/-- The parent entries after `delete_field`. -/
theorem del_par_init {g g1 : gamma} {rep : field_t → field_t} {c0 : field_t} {q : Nat}
    {ps : Nat → Nat → field_t} (hC : Core g) (hown : owns g q c0)
    (hps : ∀ d : field_t, ¬ (on_board g d ∧ owner g d = owner g c0 ∧ rep d = rep c0) →
      ps d.x d.y = par g d)
    (e5 : g1.parents = ps) (e9 : g1.visited = g.visited) :
    DelPar g rep c0 q 0 g1 := by
  constructor
  · intro c hc
    unfold par
    rw [e5]
    apply hps c
    rintro ⟨hb, a, b⟩
    exact hc ⟨hb, a.trans hown.2, b⟩
  · intro c hv
    exfalso
    apply hv
    unfold vis
    rw [e9]
    exact hC.visited_zero _ _

/-- A flood fill from the seed `nbr c0 k`: the cells it covers get the seed as parent, and
the seed is the first neighbour of `c0` connected to them. -/
theorem del_par_fill {g h h2 : gamma} {rep : field_t → field_t} {rk : field_t → Nat}
    {c0 : field_t} {q k : Nat}
    (hF : ForestOn g (fun _ => True) rep rk) (hq : q ≠ 0) (hown : owns g q c0)
    (hI : DelInv g rep c0 q k h) (hP : DelPar g rep c0 q k h)
    (hs : owns h q (nbr c0 k)) (hadj : adjacent c0 (nbr c0 k))
    (v2 : ∀ c, vis h c = 0 → (vis h2 c ≠ 0 ↔ owns h q c ∧ Conn h q (nbr c0 k) c))
    (p1 : ∀ c, vis h c = 0 → owns h q c → Conn h q (nbr c0 k) c → par h2 c = nbr c0 k)
    (p2 : ∀ c, (vis h c ≠ 0 ∨ ¬ (owns h q c ∧ Conn h q (nbr c0 k) c)) → par h2 c = par h c) :
    DelPar g rep c0 q (k + 1) h2 := by
  have hsg := (hI.del_owns_iff q hq _).mp hs
  have hl0 : live g (fun _ => True) c0 := ⟨trivial, hown.1, by rw [hown.2]; exact hq⟩
  have hsA : rep (nbr c0 k) = rep c0 :=
    hF.rep_adj _ _ ⟨trivial, hsg.1.1, by rw [hsg.1.2]; exact hq⟩ hl0
      (hsg.1.2.trans hown.2.symm) (adjacent_symm hadj)
  have hmono : ∀ c, owns h q c → owns g q c := fun c hc => ((hI.del_owns_iff q hq c).mp hc).1
  have hcg : ∀ a b, Conn (reassign g c0.x c0.y 0) q a b ↔ Conn h q a b :=
    fun a b => (@Conn_congr (reassign g c0.x c0.y 0) h hI.width hI.height hI.player_arr q a b).symm
  have hNA : ∀ c, owns h q c → Conn h q (nbr c0 k) c →
      (on_board g c ∧ owner g c = q ∧ rep c = rep c0) := by
    intro c hc hconn
    have a1 := hmono c hc
    have a2 : Conn g q (nbr c0 k) c := Conn.conn_mono hmono hconn
    exact ⟨a1.1, a1.2, (hF.rep_of_conn hq a2).symm.trans hsA⟩
  constructor
  · intro c hc
    rw [p2 c (Or.inr (fun hx => hc (hNA c hx.1 hx.2)))]
    exact hP.out_par c hc
  · intro c hv2
    by_cases hvc : vis h c = 0
    · have hN := (v2 c hvc).mp hv2
      refine ⟨k, by omega, hsg.1, (hcg _ _).mpr hN.2, ?_, p1 c hvc hN.1 hN.2⟩
      rintro j hj ⟨a1, a2⟩
      have hadj2 : nbr c0 j ≠ c0 := by
        intro e
        have a3 := ((hcg _ _).mp a2).owns_left hN.1
        rw [e] at a3
        exact ((hI.del_owns_iff q hq c0).mp a3).2 rfl
      have hoj : owns h q (nbr c0 j) := (hI.del_owns_iff q hq _).mpr ⟨a1, hadj2⟩
      have hvj := hI.nb_done j hj hoj
      exact (closed_conn hI.vis_closed ((hcg _ _).mp a2) hvj) hvc
    · obtain ⟨i, hi, b1, b2, b3, b4⟩ := hP.in_par c hvc
      exact ⟨i, by omega, b1, b2, b3, (p2 c (Or.inl hvc)).trans b4⟩

theorem DelPar.del_par_mono {g h : gamma} {rep : field_t → field_t} {c0 : field_t} {q k : Nat}
    (hP : DelPar g rep c0 q k h) : DelPar g rep c0 q (k + 1) h := by
  refine ⟨hP.out_par, fun c hv => ?_⟩
  obtain ⟨i, hi, b⟩ := hP.in_par c hv
  exact ⟨i, by omega, b⟩

/-- One iteration of the `for` loop of `delete_util` keeps the invariant of the parents. -/
theorem del_par_step {g h : gamma} {rep : field_t → field_t} {rk : field_t → Nat}
    {c0 : field_t} {q k : Nat}
    (hC : Core g) (hF : ForestOn g (fun _ => True) rep rk) (hq : valid_player g q)
    (hown : owns g q c0) (hI : DelInv g rep c0 q k h) (hP : DelPar g rep c0 q k h)
    (hk : k < 4) :
    DelPar g rep c0 q (k + 1) (delete_util_step c0.x c0.y q h k) := by
  have hq0 : q ≠ 0 := by have := hq.1; omega
  cases hc : dfs_condition h (add32 c0.x (x_dir k)) (add32 c0.y (y_dir k)) q
  · rw [delete_util_step_skip _ _ _ _ _ hc]
    exact hP.del_par_mono
  · rw [delete_util_step_fill _ _ _ _ _ hc]
    have hc2 : on_board h (nbr c0 k) ∧ vis h (nbr c0 k) = 0 ∧ owner h (nbr c0 k) = q :=
      (dfs_condition_iff h (nbr c0 k) q).mp hc
    have hs : owns h q (nbr c0 k) := ⟨hc2.1, hc2.2.2⟩
    have hsg := (hI.del_owns_iff q hq0 _).mp hs
    have hadj : adjacent c0 (nbr c0 k) :=
      nbr_on_board_adjacent hC.width_lt hC.height_lt hown.1 hk hsg.1.1
    obtain ⟨_, _, _, s4, s5, s6, _⟩ := set_parent_dfs_spec
      (by rw [hI.width]; exact hC.width_lt) (by rw [hI.height]; exact hC.height_lt) hs hc2.2.1
      (by rw [hI.stack]; exact hC.stack_empty)
      (by rw [hI.stack, hI.width, hI.height]; exact hC.stack_size) hI.vis_closed
    change DelPar g rep c0 q (k + 1)
      { inc_areas (set_parent_dfs h (nbr c0 k) (nbr c0 k).x (nbr c0 k).y q).1 q with
        areas_size := set2D
          (inc_areas (set_parent_dfs h (nbr c0 k) (nbr c0 k).x (nbr c0 k).y q).1 q).areas_size
          (nbr c0 k).x (nbr c0 k).y
          (set_parent_dfs h (nbr c0 k) (nbr c0 k).x (nbr c0 k).y q).2 }
    generalize set_parent_dfs h (nbr c0 k) (nbr c0 k).x (nbr c0 k).y q = res at s4 s5 s6 ⊢
    exact del_par_fill hF hq0 hown hI hP hs hadj s4 s5 s6

/-- The parent entries after the `for` loop of `delete_util`. -/
theorem del_par_loop {g h : gamma} {rep : field_t → field_t} {rk : field_t → Nat}
    {c0 : field_t} {q : Nat}
    (hC : Core g) (hF : ForestOn g (fun _ => True) rep rk) (hq : valid_player g q)
    (hown : owns g q c0) (hI : DelInv g rep c0 q 0 h) (hP : DelPar g rep c0 q 0 h) :
    DelPar g rep c0 q 4 ((List.range DIRECTIONS).foldl (delete_util_step c0.x c0.y q) h) := by
  have h1 := delete_step hC hF hq hown hI (by omega : 0 < 4)
  have h2 := delete_step hC hF hq hown h1 (by omega : 1 < 4)
  have h3 := delete_step hC hF hq hown h2 (by omega : 2 < 4)
  rw [range_directions]
  simp only [List.foldl]
  exact del_par_step hC hF hq hown h3
    (del_par_step hC hF hq hown h2
      (del_par_step hC hF hq hown h1
        (del_par_step hC hF hq hown hI hP (by omega)) (by omega)) (by omega)) (by omega)

/-- The parent entries after `delete_util`: outside the former area of the vacated cell they
are unchanged, and every other cell of that area has as parent the first neighbour of the
vacated cell connected to it on the board without that cell. -/
theorem delete_util_parents {g : gamma} {rep : field_t → field_t} {rk : field_t → Nat}
    {c0 : field_t} {q : Nat}
    (hC : Core g) (hF : ForestOn g (fun _ => True) rep rk) (hq : valid_player g q)
    (hown : owns g q c0) :
    (∀ c : field_t, ¬ (on_board g c ∧ owner g c = q ∧ rep c = rep c0) →
      par (delete_util g c0.x c0.y q) c = par g c) ∧
    ∀ c, owns g q c → c ≠ c0 → rep c = rep c0 →
      ∃ i, i < 4 ∧ owns g q (nbr c0 i) ∧
        Conn (reassign g c0.x c0.y 0) q (nbr c0 i) c ∧
        (∀ j, j < i →
          ¬ (owns g q (nbr c0 j) ∧ Conn (reassign g c0.x c0.y 0) q (nbr c0 j) c)) ∧
        par (delete_util g c0.x c0.y q) c = nbr c0 i := by
  have hq0 : q ≠ 0 := by have := hq.1; omega
  have hl0 : live g (fun _ => True) c0 := ⟨trivial, hown.1, by rw [hown.2]; exact hq0⟩
  obtain ⟨ps, hfp, hps2, hps3⟩ := find_parent_path hF c0 hl0
  have hfp2 : find_parent g { x := c0.x, y := c0.y } = ({ g with parents := ps }, rep c0) := hfp
  have hI0 : DelInv g rep c0 q 0 (delete_field g q c0.x c0.y) := by
    apply delete_field_inv hC hF hq hown hps2 <;> (unfold delete_field; rw [hfp2])
    rfl
  have hP0 : DelPar g rep c0 q 0 (delete_field g q c0.x c0.y) := by
    apply del_par_init hC hown hps3 <;> (unfold delete_field; rw [hfp2])
  have hI4 := delete_loop_spec hC hF hq hown hI0
  have hP4 := del_par_loop hC hF hq hown hI0 hP0
  rw [delete_util_unfold]
  have hb2 : on_board ((List.range DIRECTIONS).foldl (delete_util_step c0.x c0.y q)
      (delete_field g q c0.x c0.y)) c0 := (hI4.del_on_board_iff c0).mpr hown.1
  obtain ⟨_, i2, _, _⟩ := init_visited_spec
    (by rw [hI4.width]; exact hC.width_lt) (by rw [hI4.height]; exact hC.height_lt) hb2
    (by rw [hI4.stack]; exact hC.stack_empty)
    (by rw [hI4.stack, hI4.width, hI4.height]; exact hC.stack_size) hI4.vis_reach
  generalize (List.range DIRECTIONS).foldl (delete_util_step c0.x c0.y q)
    (delete_field g q c0.x c0.y) = g2 at hI4 hP4 i2 ⊢
  have hpar3 : ∀ c, par (init_visited g2 c0.x c0.y) c = par g2 c := by
    intro c; unfold par; rw [i2]
  constructor
  · intro c hc
    rw [hpar3]
    exact hP4.out_par c hc
  · intro c hc hne hr
    have ho2 : owner g2 c = q := by rw [hI4.del_owner_eq, if_neg hne]; exact hc.2
    have hl2 : live g2 (fun _ => True) c :=
      ⟨trivial, (hI4.del_on_board_iff c).mpr hc.1, by rw [ho2]; exact hq0⟩
    have hv : vis g2 c ≠ 0 := by
      rcases delete_cover hC hF hq hown hI4 c hl2 with a | a
      · exact absurd ⟨hc.2, hr⟩ a
      · exact a
    obtain ⟨i, hi, b1, b2, b3, b4⟩ := hP4.in_par c hv
    exact ⟨i, hi, b1, b2, b3, (hpar3 c).trans b4⟩

/-! ## The areas after a stone is removed -/

/-- In a state with a ranked forest the cells connected to the cell `c0` of `q` are the cells
of `q` with the root of `c0`. -/
theorem conn_iff_rep {g : gamma} {rep : field_t → field_t} {rk : field_t → Nat}
    (hF : ForestOn g (fun _ => True) rep rk) {q : Nat} (hq : q ≠ 0) {c0 : field_t}
    (hown : owns g q c0) (c : field_t) :
    Conn g q c c0 ↔ (on_board g c ∧ owner g c = q ∧ rep c = rep c0) := by
  constructor
  · intro h
    have ho := h.owns_left hown
    exact ⟨ho.1, ho.2, hF.rep_of_conn hq h⟩
  · rintro ⟨hb, ho, hr⟩
    have k1 := hF.rep_conn c ⟨trivial, hb, by rw [ho]; exact hq⟩
    have k2 := hF.rep_conn c0 ⟨trivial, hown.1, by rw [hown.2]; exact hq⟩
    rw [ho, hr] at k1
    rw [hown.2] at k2
    exact k1.conn_trans k2.conn_symm

/-- The cells of the former area of the vacated cell after `delete_util`. -/
theorem delete_util_regroup_cells {g : gamma} {c0 : field_t} {q : Nat}
    (hC : Core g) (hSI : SizeInv g) (hq : valid_player g q) (hown : owns g q c0) :
    (∀ d, d ≠ c0 → Conn g q d c0 →
      ∃ i, i < 4 ∧ owns g q (nbr c0 i) ∧ Conn (reassign g c0.x c0.y 0) q (nbr c0 i) d ∧
        (∀ j, j < i →
          ¬ (owns g q (nbr c0 j) ∧ Conn (reassign g c0.x c0.y 0) q (nbr c0 j) d)) ∧
        par (delete_util g c0.x c0.y q) d = nbr c0 i ∧
        par (delete_util g c0.x c0.y q) (nbr c0 i) = nbr c0 i ∧
        (delete_util g c0.x c0.y q).areas_size (nbr c0 i).x (nbr c0 i).y =
          Set.ncard { e | owns (reassign g c0.x c0.y 0) q e ∧
            Conn (reassign g c0.x c0.y 0) q e d }) ∧
    (∀ c, ¬ Conn g q c c0 →
      par (delete_util g c0.x c0.y q) c = par g c ∧
      (delete_util g c0.x c0.y q).areas_size c.x c.y = g.areas_size c.x c.y) := by
  obtain ⟨rep, rk, hF⟩ := hC.forest
  have hq0 : q ≠ 0 := by have := hq.1; omega
  obtain ⟨hpo, hpi⟩ := delete_util_parents hC hF hq hown
  have hRm := (delete_util_spec hC hq hown).2
  have hS1 := delete_util_sizes hC hSI hq hown
  generalize delete_util g c0.x c0.y q = g1 at hpo hpi hRm hS1 ⊢
  have hadjn : ∀ i, i < 4 → owns g q (nbr c0 i) → adjacent c0 (nbr c0 i) :=
    fun i hi ho => nbr_on_board_adjacent hC.width_lt hC.height_lt hown.1 hi ho.1
  have hseed : ∀ i, i < 4 → owns g q (nbr c0 i) →
      nbr c0 i ≠ c0 ∧ Conn g q (nbr c0 i) c0 := by
    intro i hi ho
    exact ⟨fun e => adjacent_ne (hadjn i hi ho) e.symm,
      Conn.single ⟨adjacent_symm (hadjn i hi ho), ho, hown⟩⟩
  have hcell : ∀ d, d ≠ c0 → Conn g q d c0 →
      ∃ i, i < 4 ∧ owns g q (nbr c0 i) ∧ Conn (reassign g c0.x c0.y 0) q (nbr c0 i) d ∧
        (∀ j, j < i →
          ¬ (owns g q (nbr c0 j) ∧ Conn (reassign g c0.x c0.y 0) q (nbr c0 j) d)) ∧
        par g1 d = nbr c0 i := by
    intro d hne hconn
    have hd := (conn_iff_rep hF hq0 hown d).mp hconn
    exact hpi d ⟨hd.1, hd.2.1⟩ hne hd.2.2
  have hsize_out : ∀ c : field_t, ¬ (on_board g c ∧ owner g c = q ∧ rep c = rep c0) →
      g1.areas_size c.x c.y = g.areas_size c.x c.y := by
    intro c hc
    by_cases hc0 : c = c0
    · exact absurd ⟨hc0 ▸ hown.1, hc0 ▸ hown.2, by rw [hc0]⟩ hc
    have hw1 : g1.width = g.width := hRm.width
    have hh1 : g1.height = g.height := hRm.height
    have ho1 : owner g1 c = owner g c := by
      unfold owner
      rw [hRm.player_arr, set2D_cell, if_neg hc0]
    have hroot : is_root g1 c ↔ is_root g c := by
      unfold is_root on_board
      rw [hw1, hh1, ho1, hpo c hc]
    by_cases hr : is_root g c
    · rw [(hS1 c).1 (hroot.mpr hr), (hSI c).1 hr]
      have hl : live g (fun _ => True) c := ⟨trivial, hr.1, hr.2.1⟩
      have hn : ¬ (owner g c = q ∧ rep c = rep c0) := fun h => hc ⟨hr.1, h.1, h.2⟩
      rw [← comp_removed hF hown hl hn]
      congr 1
      exact @comp_congr (reassign g c0.x c0.y 0) g1 hw1 hh1
        hRm.player_arr c
    · rw [(hS1 c).2 (fun h => hr (hroot.mp h)), (hSI c).2 hr]
  refine ⟨fun d hne hconn => ?_, fun c hc => ?_⟩
  · obtain ⟨i, hi, b1, b2, b3, b4⟩ := hcell d hne hconn
    obtain ⟨s1, s2⟩ := hseed i hi b1
    refine ⟨i, hi, b1, b2, b3, b4, ?_⟩
    obtain ⟨i1, hi1, c1, c2, c3, c4⟩ := hcell (nbr c0 i) s1 s2
    have hii : i1 = i := by
      rcases Nat.lt_trichotomy i1 i with h | h | h
      · exact absurd ⟨c1, c2.conn_trans b2⟩ (b3 i1 h)
      · exact h
      · exact absurd ⟨b1, Conn.conn_refl _ q _⟩ (c3 i h)
    rw [hii] at c4
    refine ⟨c4, ?_⟩
    have hw1 : g1.width = g.width := hRm.width
    have hh1 : g1.height = g.height := hRm.height
    have ho1 : owner g1 (nbr c0 i) = q := by
      unfold owner
      rw [hRm.player_arr, set2D_cell, if_neg s1]
      exact b1.2
    have hroot : is_root g1 (nbr c0 i) :=
      ⟨by unfold on_board; rw [hw1, hh1]; exact b1.1, by rw [ho1]; exact hq0, c4⟩
    rw [(hS1 _).1 hroot]
    congr 1
    have e1 := @comp_congr (reassign g c0.x c0.y 0) g1 hw1 hh1
      hRm.player_arr (nbr c0 i)
    rw [e1]
    have ho0 : owner (reassign g c0.x c0.y 0) (nbr c0 i) = q := by
      change set2D g.player_arr c0.x c0.y 0 (nbr c0 i).x (nbr c0 i).y = q
      rw [set2D_cell, if_neg s1]
      exact b1.2
    ext e
    unfold comp
    rw [Set.mem_setOf_eq, Set.mem_setOf_eq, ho0]
    constructor
    · rintro ⟨a1, a2⟩; exact ⟨a1, a2.conn_trans b2⟩
    · rintro ⟨a1, a2⟩; exact ⟨a1, a2.conn_trans b2.conn_symm⟩
  · have hn : ¬ (on_board g c ∧ owner g c = q ∧ rep c = rep c0) :=
      fun h => hc ((conn_iff_rep hF hq0 hown c).mpr h)
    exact ⟨hpo c hn, hsize_out c hn⟩

/-- The number of areas of the former owner after `delete_util`: one area less, plus one
area for every connected component of the former area without the vacated cell. -/
theorem delete_util_regroup_count {g : gamma} {c0 : field_t} {q : Nat}
    (hC : Core g) (hSI : SizeInv g) (hq : valid_player g q) (hown : owns g q c0) :
    ((delete_util g c0.x c0.y q).players (q - 1)).num_of_areas + 1 =
      (g.players (q - 1)).num_of_areas +
        Set.ncard { S : Set field_t | ∃ d, d ≠ c0 ∧ Conn g q d c0 ∧
          S = { e | owns (reassign g c0.x c0.y 0) q e ∧
            Conn (reassign g c0.x c0.y 0) q e d } } := by
  classical
  obtain ⟨rep, rk, hF⟩ := hC.forest
  have hq0 : q ≠ 0 := by have := hq.1; omega
  have hl0 : live g (fun _ => True) c0 := ⟨trivial, hown.1, by rw [hown.2]; exact hq0⟩
  obtain ⟨hcell, hother⟩ := delete_util_regroup_cells hC hSI hq hown
  obtain ⟨hC1, hRm⟩ := delete_util_spec hC hq hown
  have hq1 : valid_player (delete_util g c0.x c0.y q) q := by
    unfold valid_player
    rw [hRm.num_of_players]
    exact hq
  have ha1 := hC1.areas_eq q hq1
  have ha := hC.areas_eq q hq
  rw [ha1, ha]
  clear ha1 ha hC1 hq1
  generalize delete_util g c0.x c0.y q = g1 at hcell hother hRm ⊢
  have hadjn : ∀ i, i < 4 → owns g q (nbr c0 i) → adjacent c0 (nbr c0 i) :=
    fun i hi ho => nbr_on_board_adjacent hC.width_lt hC.height_lt hown.1 hi ho.1
  have hseed : ∀ i, i < 4 → owns g q (nbr c0 i) →
      nbr c0 i ≠ c0 ∧ Conn g q (nbr c0 i) c0 := by
    intro i hi ho
    exact ⟨fun e => adjacent_ne (hadjn i hi ho) e.symm,
      Conn.single ⟨adjacent_symm (hadjn i hi ho), ho, hown⟩⟩
  have ho1 : ∀ c, owner g1 c = if c = c0 then 0 else owner g c := by
    intro c
    unfold owner
    rw [hRm.player_arr]
    exact set2D_cell _ _ _ _
  have hb1 : ∀ c, on_board g1 c ↔ on_board g c := by
    intro c; unfold on_board; rw [hRm.width, hRm.height]
  have hown0 : ∀ c, c ≠ c0 → owns g q c → owns (reassign g c0.x c0.y 0) q c := by
    intro c hc ho
    refine ⟨ho.1, ?_⟩
    change set2D g.player_arr c0.x c0.y 0 c.x c.y = q
    rw [set2D_cell, if_neg hc]
    exact ho.2
  have hrep0 : Conn g q (rep c0) c0 := by
    have := hF.rep_conn c0 hl0
    rw [hown.2] at this
    exact this.conn_symm
  have hroot_out : ∀ c, c ∈ roots g q → c ≠ rep c0 → ¬ Conn g q c c0 := by
    intro c hc hne hconn
    rw [mem_roots] at hc
    have h1 := (conn_iff_rep hF hq0 hown c).mp hconn
    have h2 := hF.rep_self c ⟨trivial, hc.1, by rw [hc.2.1]; exact hq0⟩ hc.2.2
    exact hne (h2.symm.trans h1.2.2)
  have hseed_root : ∀ i, i < 4 → owns g q (nbr c0 i) →
      (∀ j, j < i → ¬ (owns g q (nbr c0 j) ∧
        Conn (reassign g c0.x c0.y 0) q (nbr c0 j) (nbr c0 i))) →
      par g1 (nbr c0 i) = nbr c0 i := by
    intro i hi ho hmin
    obtain ⟨s1, s2⟩ := hseed i hi ho
    obtain ⟨i1, hi1, c1, c2, c3, c4, _⟩ := hcell (nbr c0 i) s1 s2
    have hii : i1 = i := by
      rcases Nat.lt_trichotomy i1 i with h | h | h
      · exact absurd ⟨c1, c2⟩ (hmin i1 h)
      · exact h
      · exact absurd ⟨ho, Conn.conn_refl _ q _⟩ (c3 i h)
    rw [hii] at c4
    exact c4
  have hR : roots g1 q = (roots g q).erase (rep c0) ∪
      ((Finset.range 4).filter (fun i => owns g q (nbr c0 i) ∧
        ∀ j, j < i → ¬ (owns g q (nbr c0 j) ∧
          Conn (reassign g c0.x c0.y 0) q (nbr c0 j) (nbr c0 i)))).image (nbr c0) := by
    ext c
    rw [mem_roots, Finset.mem_union, Finset.mem_erase, Finset.mem_image]
    constructor
    · rintro ⟨hb, ho, hp⟩
      have hne : c ≠ c0 := by
        intro e
        rw [ho1, if_pos e] at ho
        exact hq0 ho.symm
      rw [ho1, if_neg hne] at ho
      have hbg := (hb1 c).mp hb
      by_cases hA : Conn g q c c0
      · right
        obtain ⟨i, hi, b1, b2, b3, b4, _⟩ := hcell c hne hA
        have e : nbr c0 i = c := b4.symm.trans hp
        refine ⟨i, Finset.mem_filter.mpr ⟨Finset.mem_range.mpr hi, b1, ?_⟩, e⟩
        rw [e]
        exact b3
      · left
        refine ⟨?_, mem_roots.mpr ⟨hbg, ho, ((hother c hA).1).symm.trans hp⟩⟩
        rintro rfl
        exact hA hrep0
    · rintro (⟨hne, hc⟩ | ⟨i, hi, rfl⟩)
      · have hA := hroot_out c hc hne
        rw [mem_roots] at hc
        have hc0 : c ≠ c0 := by
          rintro rfl
          exact hA (Conn.conn_refl _ _ _)
        exact ⟨(hb1 c).mpr hc.1, by rw [ho1, if_neg hc0]; exact hc.2.1,
          ((hother c hA).1).trans hc.2.2⟩
      · obtain ⟨hi1, hi2, hi3⟩ := Finset.mem_filter.mp hi
        have hi4 := Finset.mem_range.mp hi1
        obtain ⟨s1, _⟩ := hseed i hi4 hi2
        exact ⟨(hb1 _).mpr hi2.1, by rw [ho1, if_neg s1]; exact hi2.2,
          hseed_root i hi4 hi2 hi3⟩
  have hdisj : Disjoint ((roots g q).erase (rep c0))
      (((Finset.range 4).filter (fun i => owns g q (nbr c0 i) ∧
        ∀ j, j < i → ¬ (owns g q (nbr c0 j) ∧
          Conn (reassign g c0.x c0.y 0) q (nbr c0 j) (nbr c0 i)))).image (nbr c0)) := by
    rw [Finset.disjoint_left]
    intro c hc1 hc2
    rw [Finset.mem_erase] at hc1
    obtain ⟨i, hi, rfl⟩ := Finset.mem_image.mp hc2
    obtain ⟨hi1, hi2, _⟩ := Finset.mem_filter.mp hi
    exact hroot_out _ hc1.2 hc1.1 (hseed i (Finset.mem_range.mp hi1) hi2).2
  have hmem0 : rep c0 ∈ roots g q := by
    have h1 := hF.rep_live c0 hl0
    exact mem_roots.mpr ⟨h1.1.2.1, h1.2.trans hown.2, hF.rep_root c0 hl0⟩
  have hK : Set.ncard { S : Set field_t | ∃ d, d ≠ c0 ∧ Conn g q d c0 ∧
      S = { e | owns (reassign g c0.x c0.y 0) q e ∧
        Conn (reassign g c0.x c0.y 0) q e d } } =
      (((Finset.range 4).filter (fun i => owns g q (nbr c0 i) ∧
        ∀ j, j < i → ¬ (owns g q (nbr c0 j) ∧
          Conn (reassign g c0.x c0.y 0) q (nbr c0 j) (nbr c0 i)))).image (nbr c0)).card := by
    rw [← Set.ncard_coe_Finset]
    have himg : { S : Set field_t | ∃ d, d ≠ c0 ∧ Conn g q d c0 ∧
        S = { e | owns (reassign g c0.x c0.y 0) q e ∧
          Conn (reassign g c0.x c0.y 0) q e d } } =
        (fun r : field_t => { e | owns (reassign g c0.x c0.y 0) q e ∧
          Conn (reassign g c0.x c0.y 0) q e r }) ''
        (↑(((Finset.range 4).filter (fun i => owns g q (nbr c0 i) ∧
          ∀ j, j < i → ¬ (owns g q (nbr c0 j) ∧
            Conn (reassign g c0.x c0.y 0) q (nbr c0 j) (nbr c0 i)))).image (nbr c0)) :
          Set field_t) := by
      ext S
      rw [Set.mem_setOf_eq, Set.mem_image]
      constructor
      · rintro ⟨d, hd1, hd2, rfl⟩
        obtain ⟨i, hi, b1, b2, b3, _⟩ := hcell d hd1 hd2
        refine ⟨nbr c0 i, ?_, ?_⟩
        · rw [Finset.mem_coe, Finset.mem_image]
          refine ⟨i, Finset.mem_filter.mpr ⟨Finset.mem_range.mpr hi, b1, ?_⟩, rfl⟩
          rintro j hj ⟨a1, a2⟩
          exact b3 j hj ⟨a1, a2.conn_trans b2⟩
        · ext e
          simp only [Set.mem_setOf_eq]
          constructor
          · rintro ⟨a1, a2⟩; exact ⟨a1, a2.conn_trans b2⟩
          · rintro ⟨a1, a2⟩; exact ⟨a1, a2.conn_trans b2.conn_symm⟩
      · rintro ⟨r, hr, rfl⟩
        rw [Finset.mem_coe, Finset.mem_image] at hr
        obtain ⟨i, hi, rfl⟩ := hr
        obtain ⟨hi1, hi2, _⟩ := Finset.mem_filter.mp hi
        obtain ⟨s1, s2⟩ := hseed i (Finset.mem_range.mp hi1) hi2
        exact ⟨nbr c0 i, s1, s2, rfl⟩
    rw [himg]
    apply Set.ncard_image_of_injOn
    intro r hr r1 hr1 he
    rw [Finset.mem_coe, Finset.mem_image] at hr hr1
    obtain ⟨i, hi, rfl⟩ := hr
    obtain ⟨i1, hi1, rfl⟩ := hr1
    obtain ⟨a1, a2, a3⟩ := Finset.mem_filter.mp hi
    obtain ⟨b1, b2, b3⟩ := Finset.mem_filter.mp hi1
    have s1 := (hseed i (Finset.mem_range.mp a1) a2).1
    have t1 := (hseed i1 (Finset.mem_range.mp b1) b2).1
    have hmem : nbr c0 i ∈ { e | owns (reassign g c0.x c0.y 0) q e ∧
        Conn (reassign g c0.x c0.y 0) q e (nbr c0 i) } :=
      ⟨hown0 _ s1 a2, Conn.conn_refl _ _ _⟩
    have he2 : { e | owns (reassign g c0.x c0.y 0) q e ∧
        Conn (reassign g c0.x c0.y 0) q e (nbr c0 i) } =
        { e | owns (reassign g c0.x c0.y 0) q e ∧
        Conn (reassign g c0.x c0.y 0) q e (nbr c0 i1) } := he
    rw [he2] at hmem
    have hconn := hmem.2
    have hii : i = i1 := by
      rcases Nat.lt_trichotomy i i1 with h | h | h
      · exact absurd ⟨a2, hconn⟩ (b3 i h)
      · exact h
      · exact absurd ⟨b2, hconn.conn_symm⟩ (a3 i1 h)
    rw [hii]
  rw [hK, hR, Finset.card_union_of_disjoint hdisj, Finset.card_erase_of_mem hmem0]
  have := Finset.card_pos.mpr ⟨_, hmem0⟩
  omega

/-- C31: let `g` be a reachable state and `h` a state in which an internal call of a public
call on `g` runs (`g` itself included), and let `delete_util` vacate the cell `c0` owned by
`q` in `h`. Every other cell `d` of the former area of `c0` gets as parent the first
neighbour of `c0`, in the order `(x, y+1), (x+1, y), (x, y-1), (x-1, y)`, that is connected
to `d` by cells of `q` without `c0`; that neighbour is its own parent and its area-size
entry is the number of cells of the connected component of `d`. The area counter of `q`
becomes its old value minus 1 plus the number of these components, in particular the old
value minus 1 when `c0` has no neighbour owned by `q`. The parent and the area-size entry
of every cell outside the former area of `c0` are unchanged. -/
theorem delete_util_regroups (g h : gamma) (c0 : field_t) (q : Nat) (hR : Reachable g)
    (hS : ScanState g h) (hq : q ≠ 0) (hown : owns h q c0) :
    (∀ d, d ≠ c0 → Conn h q d c0 →
      ∃ i, i < 4 ∧ owns h q (nbr c0 i) ∧ Conn (reassign h c0.x c0.y 0) q (nbr c0 i) d ∧
        (∀ j, j < i →
          ¬ (owns h q (nbr c0 j) ∧ Conn (reassign h c0.x c0.y 0) q (nbr c0 j) d)) ∧
        par (delete_util h c0.x c0.y q) d = nbr c0 i ∧
        par (delete_util h c0.x c0.y q) (nbr c0 i) = nbr c0 i ∧
        (delete_util h c0.x c0.y q).areas_size (nbr c0 i).x (nbr c0 i).y =
          Set.ncard { e | owns (reassign h c0.x c0.y 0) q e ∧
            Conn (reassign h c0.x c0.y 0) q e d }) ∧
    ((delete_util h c0.x c0.y q).players (q - 1)).num_of_areas + 1 =
      (h.players (q - 1)).num_of_areas +
        Set.ncard { S : Set field_t | ∃ d, d ≠ c0 ∧ Conn h q d c0 ∧
          S = { e | owns (reassign h c0.x c0.y 0) q e ∧
            Conn (reassign h c0.x c0.y 0) q e d } } ∧
    ((∀ i, i < 4 → ¬ owns h q (nbr c0 i)) →
      ((delete_util h c0.x c0.y q).players (q - 1)).num_of_areas + 1 =
        (h.players (q - 1)).num_of_areas) ∧
    (∀ c, ¬ Conn h q c c0 →
      par (delete_util h c0.x c0.y q) c = par h c ∧
      (delete_util h c0.x c0.y q).areas_size c.x c.y = h.areas_size c.x c.y) := by
  obtain ⟨hC, hSI⟩ := hS.scan_sizes hR.reach_inv.core hR.reach_sizes
  have hqv : valid_player h q := by
    rw [← hown.2]
    exact hC.valid_owner hown.1 (by rw [hown.2]; exact hq)
  obtain ⟨hcell, hother⟩ := delete_util_regroup_cells hC hSI hqv hown
  have hcount := delete_util_regroup_count hC hSI hqv hown
  refine ⟨hcell, hcount, fun hno => ?_, hother⟩
  have hempty : { S : Set field_t | ∃ d, d ≠ c0 ∧ Conn h q d c0 ∧
      S = { e | owns (reassign h c0.x c0.y 0) q e ∧
        Conn (reassign h c0.x c0.y 0) q e d } } = ∅ := by
    rw [Set.eq_empty_iff_forall_not_mem]
    rintro S ⟨d, hd1, hd2, _⟩
    obtain ⟨i, hi, b1, _⟩ := hcell d hd1 hd2
    exact hno i hi b1
  rw [hempty, Set.ncard_empty] at hcount
  exact hcount

theorem delete_util_regroups_witness :
    Reachable (gamma_move (gamma_move (gamma_move new_6x1 1 0 0).2 1 1 0).2 1 2 0).2 ∧
    ScanState (gamma_move (gamma_move (gamma_move new_6x1 1 0 0).2 1 1 0).2 1 2 0).2
      (gamma_move (gamma_move (gamma_move new_6x1 1 0 0).2 1 1 0).2 1 2 0).2 ∧
    (1 : Nat) ≠ 0 ∧
    owns (gamma_move (gamma_move (gamma_move new_6x1 1 0 0).2 1 1 0).2 1 2 0).2 1
      { x := 1, y := 0 } ∧
    ∀ c, ¬ Conn (gamma_move (gamma_move (gamma_move new_6x1 1 0 0).2 1 1 0).2 1 2 0).2 1 c
        { x := 1, y := 0 } →
      par (delete_util (gamma_move (gamma_move (gamma_move new_6x1 1 0 0).2 1 1 0).2 1 2 0).2
        1 0 1) c =
        par (gamma_move (gamma_move (gamma_move new_6x1 1 0 0).2 1 1 0).2 1 2 0).2 c ∧
      (delete_util (gamma_move (gamma_move (gamma_move new_6x1 1 0 0).2 1 1 0).2 1 2 0).2
        1 0 1).areas_size c.x c.y =
        (gamma_move (gamma_move (gamma_move new_6x1 1 0 0).2 1 1 0).2 1 2 0).2.areas_size
          c.x c.y :=
  ⟨Reachable.move _ 1 2 0 (Reachable.move _ 1 1 0 (Reachable.move _ 1 0 0 new_6x1_reachable)),
    ScanState.start, by decide, by unfold owns on_board owner; decide,
    (delete_util_regroups _ _ { x := 1, y := 0 } 1
      (Reachable.move _ 1 2 0 (Reachable.move _ 1 1 0 (Reachable.move _ 1 0 0 new_6x1_reachable)))
      ScanState.start (by decide) (by unfold owns on_board owner; decide)).2.2.2⟩

/-! ## The stack never fills during the flood fills -/

theorem stack_push_bounded_eq (cap : Nat) (s : stack_t) (x y : Nat)
    (h : s.items.length < cap) (hs : s.size = cap) :
    stack_push_bounded cap s x y = some (stack_push s x y) := by
  unfold stack_push_bounded
  rw [if_pos ⟨h, hs⟩]

theorem fold_bounded_four {α : Type} (f : α → Nat → Option α) (g : α → Nat → α) (a : α)
    (h0 : f a 0 = some (g a 0)) (h1 : f (g a 0) 1 = some (g (g a 0) 1))
    (h2 : f (g (g a 0) 1) 2 = some (g (g (g a 0) 1) 2))
    (h3 : f (g (g (g a 0) 1) 2) 3 = some (g (g (g (g a 0) 1) 2) 3)) :
    fold_bounded f (List.range DIRECTIONS) a = some ((List.range DIRECTIONS).foldl g a) := by
  rw [range_directions]
  simp only [fold_bounded, List.foldl, h0, h1, h2, h3, Option.some_bind]

theorem set_parent_dfs_step_bounded_eq (f : field_t) (q : Nat) (h : gamma) (k : Nat)
    (hr : h.stack.items.length < h.width * h.height)
    (hs : h.stack.size = h.width * h.height) :
    set_parent_dfs_step_bounded f q h k = some (set_parent_dfs_step f q h k) := by
  unfold set_parent_dfs_step_bounded set_parent_dfs_step
  by_cases hc : dfs_condition h (add32 f.x (x_dir k)) (add32 f.y (y_dir k)) q = true
  · simp only [hc, if_true]
    rw [stack_push_bounded_eq _ _ _ _ hr hs]
    rfl
  · simp only [hc]
    rfl

/-- The scan of the four neighbours of the popped cell `f` never finds the stack full. -/
theorem dfs_scan_bounded {h0 : gamma} {s f : field_t} {q : Nat} {h : gamma}
    (hw : h0.width < UINT32_MOD) (hh : h0.height < UINT32_MOD)
    (hI : DfsInv h0 s q (fun c => c = f) h)
    (hf : owns h0 q f) (hf0 : vis h0 f = 0) (hf1 : vis h f ≠ 0)
    (hsz0 : h0.stack.size = h0.width * h0.height)
    (hB : h.stack.items.length + (unvisited h q).card < h.stack.size) :
    fold_bounded (set_parent_dfs_step_bounded f q) (List.range DIRECTIONS) h =
      some ((List.range DIRECTIONS).foldl (set_parent_dfs_step f q) h) := by
  have hroom : ∀ a : gamma, DfsInv h0 s q (fun c => c = f) a →
      a.stack.items.length + (unvisited a q).card = h.stack.items.length + (unvisited h q).card →
      a.stack.items.length < a.width * a.height ∧ a.stack.size = a.width * a.height := by
    intro a ha hsum
    have e1 : a.stack.size = h0.width * h0.height := ha.size.trans hsz0
    have e2 : h.stack.size = h0.width * h0.height := hI.size.trans hsz0
    rw [ha.frame.width, ha.frame.height]
    exact ⟨by omega, e1⟩
  have hsz : ∀ {a b : gamma}, DfsInv h0 s q (fun c => c = f) a →
      DfsInv h0 s q (fun c => c = f) b → b.stack.size = a.stack.size :=
    fun ha hb => hb.size.trans ha.size.symm
  obtain ⟨a1, a2, a3, a4, a5⟩ := dfs_step hw hh hI hf hf0 hf1 (k := 0) (by omega)
    (fun i hi => absurd hi (Nat.not_lt_zero _)) hB
  obtain ⟨b1, b2, b3, b4, b5⟩ := dfs_step hw hh a1 hf hf0 a4 (k := 1) (by omega) a2
    (by rw [a3, hsz hI a1]; exact hB)
  obtain ⟨c1, c2, c3, c4, c5⟩ := dfs_step hw hh b1 hf hf0 b4 (k := 2) (by omega) b2
    (by rw [b3, a3, hsz hI b1]; exact hB)
  have r0 := hroom h hI rfl
  have r1 := hroom _ a1 a3
  have r2 := hroom _ b1 (b3.trans a3)
  have r3 := hroom _ c1 (c3.trans (b3.trans a3))
  exact fold_bounded_four _ _ h
    (set_parent_dfs_step_bounded_eq f q _ 0 r0.1 r0.2)
    (set_parent_dfs_step_bounded_eq f q _ 1 r1.1 r1.2)
    (set_parent_dfs_step_bounded_eq f q _ 2 r2.1 r2.2)
    (set_parent_dfs_step_bounded_eq f q _ 3 r3.1 r3.2)

theorem set_parent_dfs_loop_bounded_nil (parent : field_t) (p fuel : Nat) (g : gamma)
    (count : Nat) (h : g.stack.items = []) :
    set_parent_dfs_loop_bounded parent p fuel g count = some (g, count) := by
  cases fuel with
  | zero => rfl
  | succ n =>
    unfold set_parent_dfs_loop_bounded
    rw [if_pos ((is_stack_empty_iff _).mpr h)]

theorem set_parent_dfs_loop_bounded_cons (parent : field_t) (p fuel : Nat) (g : gamma)
    (count : Nat) (f : field_t) (rest : List field_t) (h : g.stack.items = f :: rest) :
    set_parent_dfs_loop_bounded parent p (fuel + 1) g count =
      (fold_bounded (set_parent_dfs_step_bounded f p) (List.range DIRECTIONS)
          { g with
            stack := { g.stack with items := rest }
            parents := set2D g.parents f.x f.y parent }).bind
        (fun g3 => set_parent_dfs_loop_bounded parent p fuel g3 (inc64 count)) := by
  have hne : ¬ (is_stack_empty g.stack = true) := by
    rw [is_stack_empty_iff, h]; simp
  rw [set_parent_dfs_loop_bounded, if_neg hne]
  simp only [stack_pop_cons g.stack f rest h]

/-- The loop of `set_parent_dfs` never finds the stack full. -/
theorem dfs_loop_bounded {h0 : gamma} {s : field_t} {q : Nat}
    (hw : h0.width < UINT32_MOD) (hh : h0.height < UINT32_MOD)
    (hsz0 : h0.stack.size = h0.width * h0.height) :
    ∀ (fuel : Nat) (h : gamma) (count : Nat),
      DfsInv h0 s q (fun _ => False) h →
      h.stack.items.length + (unvisited h q).card ≤ h.stack.size →
      set_parent_dfs_loop_bounded s q fuel h count =
        some (set_parent_dfs_loop s q fuel h count) := by
  intro fuel
  induction fuel with
  | zero => intro h count _ _; rfl
  | succ n ih =>
    intro h count hI hsize
    by_cases hs : h.stack.items = []
    · rw [set_parent_dfs_loop_bounded_nil s q (n + 1) h count hs,
        set_parent_dfs_loop_nil s q (n + 1) h count hs]
    · obtain ⟨f, rest, hs2⟩ := List.exists_cons_of_ne_nil hs
      rw [set_parent_dfs_loop_bounded_cons s q n h count f rest hs2,
        set_parent_dfs_loop_cons s q n h count f rest hs2]
      have hlen : h.stack.items.length = rest.length + 1 := by rw [hs2]; rfl
      obtain ⟨p1, p2, p3, p4, p5, p6⟩ := @dfs_pop h0 s f q h
        { h with
          stack := { h.stack with items := rest }
          parents := set2D h.parents f.x f.y s }
        rest hI hs2 ⟨rfl, rfl, rfl, rfl, rfl, rfl, rfl, rfl⟩ rfl rfl rfl rfl
      obtain ⟨s1, s2, s3⟩ := @dfs_iter _ _ _ _ _
        { h with
          stack := { h.stack with items := rest }
          parents := set2D h.parents f.x f.y s }
        _ hw hh hI hs2 ⟨rfl, rfl, rfl, rfl, rfl, rfl, rfl, rfl⟩ rfl rfl rfl rfl (by omega)
      have hB : ({ h with
          stack := { h.stack with items := rest }
          parents := set2D h.parents f.x f.y s } : gamma).stack.items.length +
          (unvisited ({ h with
          stack := { h.stack with items := rest }
          parents := set2D h.parents f.x f.y s } : gamma) q).card <
          ({ h with
          stack := { h.stack with items := rest }
          parents := set2D h.parents f.x f.y s } : gamma).stack.size := by
        rw [p6]
        change rest.length + (unvisited h q).card < h.stack.size
        omega
      rw [dfs_scan_bounded hw hh p1 p2 p3 p4 hsz0 hB, Option.some_bind]
      generalize (List.range DIRECTIONS).foldl (set_parent_dfs_step f q)
        { h with
          stack := { h.stack with items := rest }
          parents := set2D h.parents f.x f.y s } = h2 at s1 s2 s3 ⊢
      exact ih h2 (inc64 count) s1 (by omega)

/-- The flood fill `set_parent_dfs` never finds the stack full. -/
theorem set_parent_dfs_bounded_eq {h0 : gamma} {s : field_t} {q : Nat}
    (hw : h0.width < UINT32_MOD) (hh : h0.height < UINT32_MOD)
    (hs : owns h0 q s) (hv : vis h0 s = 0) (hst : h0.stack.items = [])
    (hsz : h0.stack.size = h0.width * h0.height) :
    set_parent_dfs_bounded h0 s s.x s.y q = some (set_parent_dfs h0 s s.x s.y q) := by
  obtain ⟨i1, i2⟩ := @dfs_start _
    { h0 with
      stack := stack_push h0.stack s.x s.y
      visited := set2D h0.visited s.x s.y 1 }
    _ _ hs hv hst hsz ⟨rfl, rfl, rfl, rfl, rfl, rfl, rfl, rfl⟩ rfl rfl rfl
  have hpos : 0 < h0.width * h0.height := by
    have := hs.1
    unfold on_board at this
    exact Nat.mul_pos (by omega) (by omega)
  unfold set_parent_dfs_bounded
  rw [stack_push_bounded_eq _ _ _ _ (by rw [hst]; exact hpos) hsz, Option.some_bind,
    set_parent_dfs_unfold]
  change set_parent_dfs_loop_bounded s q (h0.width * h0.height)
    { h0 with
      stack := stack_push h0.stack s.x s.y
      visited := set2D h0.visited s.x s.y 1 } 0 =
    some (set_parent_dfs_loop s q (h0.width * h0.height)
      { h0 with
        stack := stack_push h0.stack s.x s.y
        visited := set2D h0.visited s.x s.y 1 } 0)
  generalize ({ h0 with
      stack := stack_push h0.stack s.x s.y
      visited := set2D h0.visited s.x s.y 1 } : gamma) = h2 at i1 i2 ⊢
  have hU := unvisited_card_le h0 q
  have hsz2 : h2.stack.size = h0.stack.size := i1.size
  exact dfs_loop_bounded hw hh hsz (h0.width * h0.height) h2 0 i1 (by omega)

theorem init_visited_step_bounded_eq (f : field_t) (h : gamma) (k : Nat)
    (hr : h.stack.items.length < h.width * h.height)
    (hs : h.stack.size = h.width * h.height) :
    init_visited_step_bounded f h k = some (init_visited_step f h k) := by
  unfold init_visited_step_bounded init_visited_step
  by_cases hc : (!wrong_field (add32 f.x (x_dir k)) (add32 f.y (y_dir k)) h &&
      h.visited (add32 f.x (x_dir k)) (add32 f.y (y_dir k)) != 0) = true
  · simp only [hc, if_true]
    rw [stack_push_bounded_eq _ _ _ _ hr hs]
    rfl
  · simp only [hc]
    rfl

/-- The scan of the four neighbours of the cell popped by `init_visited` never finds the
stack full. -/
theorem clear_scan_bounded {h0 : gamma} {c0 f : field_t} {h : gamma}
    (hI : ClearInv h0 c0 (fun c => c = f) h)
    (hsz0 : h0.stack.size = h0.width * h0.height)
    (hB : h.stack.items.length + (marked h).card < h.stack.size) :
    fold_bounded (init_visited_step_bounded f) (List.range DIRECTIONS) h =
      some ((List.range DIRECTIONS).foldl (init_visited_step f) h) := by
  have hroom : ∀ a : gamma, ClearInv h0 c0 (fun c => c = f) a →
      a.stack.items.length + (marked a).card = h.stack.items.length + (marked h).card →
      a.stack.items.length < a.width * a.height ∧ a.stack.size = a.width * a.height := by
    intro a ha hsum
    have e1 : a.stack.size = h0.width * h0.height := ha.size.trans hsz0
    have e2 : h.stack.size = h0.width * h0.height := hI.size.trans hsz0
    rw [ha.frame.width, ha.frame.height]
    exact ⟨by omega, e1⟩
  have hsz : ∀ {a b : gamma}, ClearInv h0 c0 (fun c => c = f) a →
      ClearInv h0 c0 (fun c => c = f) b → b.stack.size = a.stack.size :=
    fun ha hb => hb.size.trans ha.size.symm
  obtain ⟨a1, a2, a3⟩ := clear_step hI (k := 0) (fun i hi => absurd hi (Nat.not_lt_zero _)) hB
  obtain ⟨b1, b2, b3⟩ := clear_step a1 (k := 1) a2 (by rw [a3, hsz hI a1]; exact hB)
  obtain ⟨c1, c2, c3⟩ := clear_step b1 (k := 2) b2 (by rw [b3, a3, hsz hI b1]; exact hB)
  have r0 := hroom h hI rfl
  have r1 := hroom _ a1 a3
  have r2 := hroom _ b1 (b3.trans a3)
  have r3 := hroom _ c1 (c3.trans (b3.trans a3))
  exact fold_bounded_four _ _ h
    (init_visited_step_bounded_eq f _ 0 r0.1 r0.2)
    (init_visited_step_bounded_eq f _ 1 r1.1 r1.2)
    (init_visited_step_bounded_eq f _ 2 r2.1 r2.2)
    (init_visited_step_bounded_eq f _ 3 r3.1 r3.2)

theorem init_visited_loop_bounded_nil (fuel : Nat) (g : gamma) (h : g.stack.items = []) :
    init_visited_loop_bounded fuel g = some g := by
  cases fuel with
  | zero => rfl
  | succ n =>
    unfold init_visited_loop_bounded
    rw [if_pos ((is_stack_empty_iff _).mpr h)]

theorem init_visited_loop_bounded_cons (fuel : Nat) (g : gamma) (f : field_t)
    (rest : List field_t) (h : g.stack.items = f :: rest) :
    init_visited_loop_bounded (fuel + 1) g =
      (fold_bounded (init_visited_step_bounded f) (List.range DIRECTIONS)
          { g with stack := { g.stack with items := rest } }).bind
        (fun g2 => init_visited_loop_bounded fuel g2) := by
  have hne : ¬ (is_stack_empty g.stack = true) := by
    rw [is_stack_empty_iff, h]; simp
  rw [init_visited_loop_bounded, if_neg hne]
  simp only [stack_pop_cons g.stack f rest h]

/-- Popping the cell `f` in `init_visited`. -/
theorem clear_pop {h0 : gamma} {c0 f : field_t} {h h1 : gamma} {rest : List field_t}
    (hI : ClearInv h0 c0 (fun _ => False) h) (hst : h.stack.items = f :: rest)
    (e1 : FrameV h h1) (e2 : h1.parents = h.parents)
    (e3 : h1.visited = h.visited) (e4 : h1.stack.items = rest)
    (e5 : h1.stack.size = h.stack.size) :
    ClearInv h0 c0 (fun c => c = f) h1 ∧ marked h1 = marked h := by
  have hvis : ∀ c, vis h1 c = vis h c := by
    intro c; unfold vis; rw [e3]
  have hm : marked h1 = marked h := by
    ext c
    rw [mem_marked, mem_marked, hvis, e1.framev_on_board_iff]
  refine ⟨?_, hm⟩
  constructor
  · exact hI.frame.framev_trans e1
  · rw [e2]; exact hI.parents
  · rw [e5]; exact hI.size
  · rw [hvis]; exact hI.start
  · intro c hc
    rw [hvis] at hc ⊢
    exact hI.mono c hc
  · intro c hcs
    rw [e4] at hcs
    exact hI.stack_on c (by rw [hst]; exact List.mem_cons_of_mem _ hcs)
  · intro c hcc
    rw [hvis] at hcc
    rw [e4]
    rcases hI.done c hcc with a | a | a
    · rw [hst, List.mem_cons] at a
      rcases a with a | a
      · right; left; exact a
      · left; exact a
    · exact absurd a id
    · right; right
      intro d hd hadj
      rw [hvis]
      exact a d hd hadj

/-- The loop of `init_visited` never finds the stack full. -/
theorem clear_loop_bounded {h0 : gamma} {c0 : field_t}
    (hw : h0.width < UINT32_MOD) (hh : h0.height < UINT32_MOD)
    (hsz0 : h0.stack.size = h0.width * h0.height) :
    ∀ (fuel : Nat) (h : gamma),
      ClearInv h0 c0 (fun _ => False) h →
      h.stack.items.length + (marked h).card ≤ h.stack.size →
      init_visited_loop_bounded fuel h = some (init_visited_loop fuel h) := by
  intro fuel
  induction fuel with
  | zero => intro h _ _; rfl
  | succ n ih =>
    intro h hI hsize
    by_cases hs : h.stack.items = []
    · rw [init_visited_loop_bounded_nil (n + 1) h hs, init_visited_loop_nil (n + 1) h hs]
    · obtain ⟨f, rest, hs2⟩ := List.exists_cons_of_ne_nil hs
      rw [init_visited_loop_bounded_cons n h f rest hs2, init_visited_loop_cons n h f rest hs2]
      have hlen : h.stack.items.length = rest.length + 1 := by rw [hs2]; rfl
      obtain ⟨p1, p2⟩ := @clear_pop h0 c0 f h
        { h with stack := { h.stack with items := rest } }
        rest hI hs2 ⟨rfl, rfl, rfl, rfl, rfl, rfl, rfl, rfl⟩ rfl rfl rfl rfl
      obtain ⟨s1, s2, s3⟩ := @clear_iter _ _ _ _
        { h with stack := { h.stack with items := rest } }
        _ hw hh hI hs2 ⟨rfl, rfl, rfl, rfl, rfl, rfl, rfl, rfl⟩ rfl rfl rfl rfl (by omega)
      have hB : ({ h with stack := { h.stack with items := rest } } : gamma).stack.items.length +
          (marked ({ h with stack := { h.stack with items := rest } } : gamma)).card <
          ({ h with stack := { h.stack with items := rest } } : gamma).stack.size := by
        rw [p2]
        change rest.length + (marked h).card < h.stack.size
        omega
      rw [clear_scan_bounded p1 hsz0 hB, Option.some_bind]
      generalize (List.range DIRECTIONS).foldl (init_visited_step f)
        { h with stack := { h.stack with items := rest } } = h2 at s1 s2 s3 ⊢
      exact ih h2 s1 (by omega)

/-- The start of `init_visited`: the start cell is pushed and its marker cleared. -/
theorem clear_start {h0 h2 : gamma} {c0 : field_t} (hc0 : on_board h0 c0)
    (hst : h0.stack.items = []) (hsz : h0.stack.size = h0.width * h0.height)
    (e1 : FrameV h0 h2) (e2 : h2.parents = h0.parents)
    (e3 : h2.visited = set2D h0.visited c0.x c0.y 0)
    (e4 : h2.stack = stack_push h0.stack c0.x c0.y) :
    ClearInv h0 c0 (fun _ => False) h2 ∧
      h2.stack.items.length + (marked h2).card ≤ h0.width * h0.height := by
  have hpos : 0 < h0.width * h0.height := by
    unfold on_board at hc0
    exact Nat.mul_pos (by omega) (by omega)
  have hvis : ∀ c, vis h2 c = if c = c0 then 0 else vis h0 c := by
    intro c
    unfold vis
    rw [e3]
    exact set2D_cell _ _ _ _
  have hitems : h2.stack.items = [c0] := by
    rw [e4, stack_push_items, hst]
  constructor
  · constructor
    · exact e1
    · exact e2
    · rw [e4, stack_push_size _ _ _ (by rw [hst, hsz]; exact hpos)]
    · rw [hvis, if_pos rfl]
    · intro c hc
      rw [hvis] at hc ⊢
      by_cases hcc : c = c0
      · rw [if_pos hcc] at hc; exact absurd rfl hc
      · rw [if_neg hcc]
    · intro c hc
      rw [hitems, List.mem_singleton] at hc
      rw [hc]; exact hc0
    · intro c hcc
      left
      rw [hitems, List.mem_singleton]
      rcases hcc with a | a
      · exact a
      · by_contra hne
        have := a.2
        rw [hvis, if_neg hne] at this
        exact a.1 this
  · rw [hitems]
    have hsub : marked h2 ⊆ (board h0).erase c0 := by
      intro c hc
      rw [mem_marked] at hc
      rw [Finset.mem_erase, mem_board]
      refine ⟨?_, (e1.framev_on_board_iff c).mp hc.1⟩
      rintro rfl
      have := hc.2
      rw [hvis, if_pos rfl] at this
      exact this rfl
    have := Finset.card_le_card hsub
    rw [Finset.card_erase_of_mem (mem_board.mpr hc0), card_board] at this
    simp only [List.length_singleton]
    omega

/-- The traversal `init_visited` never finds the stack full. -/
theorem init_visited_bounded_eq {h0 : gamma} {c0 : field_t}
    (hw : h0.width < UINT32_MOD) (hh : h0.height < UINT32_MOD)
    (hc0 : on_board h0 c0) (hst : h0.stack.items = [])
    (hsz : h0.stack.size = h0.width * h0.height) :
    init_visited_bounded h0 c0.x c0.y = some (init_visited h0 c0.x c0.y) := by
  have hpos : 0 < h0.width * h0.height := by
    unfold on_board at hc0
    exact Nat.mul_pos (by omega) (by omega)
  obtain ⟨i1, i2⟩ := @clear_start h0
    { h0 with
      stack := stack_push h0.stack c0.x c0.y
      visited := set2D h0.visited c0.x c0.y 0 } c0 hc0 hst hsz
    ⟨rfl, rfl, rfl, rfl, rfl, rfl, rfl, rfl⟩ rfl rfl rfl
  unfold init_visited_bounded
  rw [stack_push_bounded_eq _ _ _ _ (by rw [hst]; exact hpos) hsz, Option.some_bind,
    init_visited_unfold]
  change init_visited_loop_bounded (h0.width * h0.height)
    { h0 with
      stack := stack_push h0.stack c0.x c0.y
      visited := set2D h0.visited c0.x c0.y 0 } =
    some (init_visited_loop (h0.width * h0.height)
      { h0 with
        stack := stack_push h0.stack c0.x c0.y
        visited := set2D h0.visited c0.x c0.y 0 })
  generalize ({ h0 with
      stack := stack_push h0.stack c0.x c0.y
      visited := set2D h0.visited c0.x c0.y 0 } : gamma) = h2 at i1 i2 ⊢
  have hsz2 : h2.stack.size = h0.stack.size := i1.size
  exact clear_loop_bounded hw hh hsz (h0.width * h0.height) h2 i1 (by omega)

/-- One iteration of the `for` loop of `delete_util` never finds the stack full. -/
theorem delete_step_bounded {g h : gamma} {rep : field_t → field_t} {c0 : field_t} {q k : Nat}
    (hC : Core g) (hI : DelInv g rep c0 q k h) :
    delete_util_step_bounded c0.x c0.y q h k = some (delete_util_step c0.x c0.y q h k) := by
  cases hc : dfs_condition h (add32 c0.x (x_dir k)) (add32 c0.y (y_dir k)) q
  · rw [delete_util_step_skip _ _ _ _ _ hc]
    unfold delete_util_step_bounded
    simp only [hc]
    rfl
  · rw [delete_util_step_fill _ _ _ _ _ hc]
    have hc2 : on_board h (nbr c0 k) ∧ vis h (nbr c0 k) = 0 ∧ owner h (nbr c0 k) = q :=
      (dfs_condition_iff h (nbr c0 k) q).mp hc
    have hs : owns h q (nbr c0 k) := ⟨hc2.1, hc2.2.2⟩
    have e := set_parent_dfs_bounded_eq
      (by rw [hI.width]; exact hC.width_lt) (by rw [hI.height]; exact hC.height_lt) hs hc2.2.1
      (by rw [hI.stack]; exact hC.stack_empty)
      (by rw [hI.stack, hI.width, hI.height]; exact hC.stack_size)
    change set_parent_dfs_bounded h { x := add32 c0.x (x_dir k), y := add32 c0.y (y_dir k) }
      (add32 c0.x (x_dir k)) (add32 c0.y (y_dir k)) q = _ at e
    unfold delete_util_step_bounded
    simp only [hc, if_true, e, Option.map_some']
    rfl

/-- The call `delete_util` on a cell owned by `q` never finds the stack full: every
`stack_push` of its flood fills is made with fewer than `width * height` entries on a
stack of capacity `width * height`. -/
theorem delete_util_bounded_eq {g : gamma} {c0 : field_t} {q : Nat}
    (hC : Core g) (hq : valid_player g q) (hown : owns g q c0) :
    delete_util_bounded g c0.x c0.y q = some (delete_util g c0.x c0.y q) := by
  obtain ⟨rep, rk, hF⟩ := hC.forest
  have hq0 : q ≠ 0 := by have := hq.1; omega
  have hl0 : live g (fun _ => True) c0 := ⟨trivial, hown.1, by rw [hown.2]; exact hq0⟩
  obtain ⟨ps, hfp, hps2, _⟩ := find_parent_path hF c0 hl0
  have hfp2 : find_parent g { x := c0.x, y := c0.y } = ({ g with parents := ps }, rep c0) := hfp
  have hI0 : DelInv g rep c0 q 0 (delete_field g q c0.x c0.y) := by
    apply delete_field_inv hC hF hq hown hps2 <;> (unfold delete_field; rw [hfp2])
    rfl
  have hI1 := delete_step hC hF hq hown hI0 (by omega : 0 < 4)
  have hI2 := delete_step hC hF hq hown hI1 (by omega : 1 < 4)
  have hI3 := delete_step hC hF hq hown hI2 (by omega : 2 < 4)
  have hI4 := delete_loop_spec hC hF hq hown hI0
  have hfold := fold_bounded_four (delete_util_step_bounded c0.x c0.y q)
    (delete_util_step c0.x c0.y q) (delete_field g q c0.x c0.y)
    (delete_step_bounded hC hI0) (delete_step_bounded hC hI1) (delete_step_bounded hC hI2)
    (delete_step_bounded hC hI3)
  have hb2 : on_board ((List.range DIRECTIONS).foldl (delete_util_step c0.x c0.y q)
      (delete_field g q c0.x c0.y)) c0 := (hI4.del_on_board_iff c0).mpr hown.1
  have hinit := @init_visited_bounded_eq
    ((List.range DIRECTIONS).foldl (delete_util_step c0.x c0.y q) (delete_field g q c0.x c0.y))
    c0 (by rw [hI4.width]; exact hC.width_lt) (by rw [hI4.height]; exact hC.height_lt) hb2
    (by rw [hI4.stack]; exact hC.stack_empty)
    (by rw [hI4.stack, hI4.width, hI4.height]; exact hC.stack_size)
  rw [delete_util_unfold]
  unfold delete_util_bounded
  simp only
  rw [hfold, Option.some_bind]
  exact hinit

theorem stack_push_bounded_some (cap : Nat) (s : stack_t) (x y : Nat) (s1 : stack_t)
    (h : stack_push_bounded cap s x y = some s1) :
    s.items.length < cap ∧ s.size = cap ∧ is_full s = false ∧
      s1 = { s with items := { x := x, y := y } :: s.items } := by
  unfold stack_push_bounded at h
  by_cases hc : s.items.length < cap ∧ s.size = cap
  · rw [if_pos hc] at h
    have hnf : is_full s = false := by
      unfold is_full
      simp
      omega
    refine ⟨hc.1, hc.2, hnf, ?_⟩
    rw [← Option.some.inj h]
    unfold stack_push
    rw [hnf]
    rfl
  · rw [if_neg hc] at h
    exact absurd h (by simp)

/-- C38: let `g` be a reachable state and `h` a state in which an internal call of a public
call on `g` runs (`g` itself included), and let `delete_util`, the only caller of the flood
fills, be called on the cell `c0` owned by `q`. The traversal stack of `h` is empty with
capacity `width * height`, and the run of `delete_util` in which every `stack_push` is
guarded by the bound succeeds and gives the state of the unguarded run: at each
`stack_push` of `set_parent_dfs` and `init_visited` the stack has capacity
`width * height` and fewer entries, so `is_full` is false and `resize` is not executed;
the capacity is still `width * height` after the call. -/
theorem stack_never_full (g h : gamma) (c0 : field_t) (q : Nat) (hR : Reachable g)
    (hS : ScanState g h) (hq : q ≠ 0) (hown : owns h q c0) :
    (h.stack.items = [] ∧ h.stack.size = h.width * h.height) ∧
    delete_util_bounded h c0.x c0.y q = some (delete_util h c0.x c0.y q) ∧
    (delete_util h c0.x c0.y q).stack.size = h.width * h.height ∧
    ∀ (cap : Nat) (s : stack_t) (x y : Nat) (s1 : stack_t),
      stack_push_bounded cap s x y = some s1 →
      s.items.length < cap ∧ s.size = cap ∧ is_full s = false ∧
        s1 = { s with items := { x := x, y := y } :: s.items } := by
  have hC := (hS.scan_inv hR.reach_inv).core
  have hqv : valid_player h q := by
    rw [← hown.2]
    exact hC.valid_owner hown.1 (by rw [hown.2]; exact hq)
  obtain ⟨d1, d2⟩ := delete_util_spec hC hqv hown
  refine ⟨⟨hC.stack_empty, hC.stack_size⟩, delete_util_bounded_eq hC hqv hown, ?_,
    stack_push_bounded_some⟩
  rw [d1.stack_size, d2.width, d2.height]

theorem stack_never_full_witness :
    Reachable (gamma_move (gamma_move (gamma_move new_6x1 1 0 0).2 1 1 0).2 1 2 0).2 ∧
    ScanState (gamma_move (gamma_move (gamma_move new_6x1 1 0 0).2 1 1 0).2 1 2 0).2
      (gamma_move (gamma_move (gamma_move new_6x1 1 0 0).2 1 1 0).2 1 2 0).2 ∧
    (1 : Nat) ≠ 0 ∧
    owns (gamma_move (gamma_move (gamma_move new_6x1 1 0 0).2 1 1 0).2 1 2 0).2 1
      { x := 1, y := 0 } ∧
    delete_util_bounded (gamma_move (gamma_move (gamma_move new_6x1 1 0 0).2 1 1 0).2 1 2 0).2
        1 0 1 =
      some (delete_util (gamma_move (gamma_move (gamma_move new_6x1 1 0 0).2 1 1 0).2 1 2 0).2
        1 0 1) :=
  ⟨Reachable.move _ 1 2 0 (Reachable.move _ 1 1 0 (Reachable.move _ 1 0 0 new_6x1_reachable)),
    ScanState.start, by decide, by unfold owns on_board owner; decide,
    (stack_never_full _ _ { x := 1, y := 0 } 1
      (Reachable.move _ 1 2 0 (Reachable.move _ 1 1 0 (Reachable.move _ 1 0 0 new_6x1_reachable)))
      ScanState.start (by decide) (by unfold owns on_board owner; decide)).2.1⟩

/-! ## Termination: the fuel of the loops is never used up -/

/-- Once the loop of `set_parent_dfs` has ended with an empty stack, more fuel changes
nothing. -/
theorem dfs_loop_stable (s : field_t) (q : Nat) : ∀ (n : Nat) (g : gamma) (c : Nat),
    (set_parent_dfs_loop s q n g c).1.stack.items = [] →
    ∀ m, n ≤ m → set_parent_dfs_loop s q m g c = set_parent_dfs_loop s q n g c := by
  intro n
  induction n with
  | zero =>
    intro g c h m _
    have hg : g.stack.items = [] := h
    rw [set_parent_dfs_loop_nil s q m g c hg, set_parent_dfs_loop_nil s q 0 g c hg]
  | succ n ih =>
    intro g c h m hm
    obtain ⟨m1, rfl⟩ := Nat.exists_eq_add_of_le hm
    have e : n + 1 + m1 = (n + m1) + 1 := by omega
    rw [e]
    by_cases hs : g.stack.items = []
    · rw [set_parent_dfs_loop_nil s q _ g c hs, set_parent_dfs_loop_nil s q _ g c hs]
    · obtain ⟨f, rest, hs2⟩ := List.exists_cons_of_ne_nil hs
      rw [set_parent_dfs_loop_cons s q n g c f rest hs2] at h ⊢
      rw [set_parent_dfs_loop_cons s q (n + m1) g c f rest hs2]
      exact ih _ _ h (n + m1) (by omega)

/-- Once the loop of `init_visited` has ended with an empty stack, more fuel changes
nothing. -/
theorem clear_loop_stable : ∀ (n : Nat) (g : gamma),
    (init_visited_loop n g).stack.items = [] →
    ∀ m, n ≤ m → init_visited_loop m g = init_visited_loop n g := by
  intro n
  induction n with
  | zero =>
    intro g h m _
    have hg : g.stack.items = [] := h
    rw [init_visited_loop_nil m g hg, init_visited_loop_nil 0 g hg]
  | succ n ih =>
    intro g h m hm
    obtain ⟨m1, rfl⟩ := Nat.exists_eq_add_of_le hm
    have e : n + 1 + m1 = (n + m1) + 1 := by omega
    rw [e]
    by_cases hs : g.stack.items = []
    · rw [init_visited_loop_nil _ g hs, init_visited_loop_nil _ g hs]
    · obtain ⟨f, rest, hs2⟩ := List.exists_cons_of_ne_nil hs
      rw [init_visited_loop_cons n g f rest hs2] at h ⊢
      rw [init_visited_loop_cons (n + m1) g f rest hs2]
      exact ih _ h (n + m1) (by omega)

/-- With fuel above the distance `k` of `f` to its root the result of `find_parent` does not
depend on the fuel. -/
theorem find_parent_fuel_stable (g : gamma) : ∀ (n : Nat) (f : field_t) (k : Nat),
    k < n → par g (chain g f k) = chain g f k →
    find_parent_fuel n g f = find_parent_fuel (k + 1) g f := by
  intro n
  induction n with
  | zero => intro f k h; exact absurd h (Nat.not_lt_zero _)
  | succ n ih =>
    intro f k hk hroot
    unfold find_parent_fuel
    by_cases hf : f = g.parents f.x f.y
    · have h1 : field_equals f (g.parents f.x f.y) = true := (field_equals_iff _ _).mpr hf
      rw [if_pos h1, if_pos h1]
    · have h1 : ¬ (field_equals f (g.parents f.x f.y) = true) := by
        rw [field_equals_iff]; exact hf
      rw [if_neg h1, if_neg h1]
      have hk0 : k ≠ 0 := by
        intro e
        rw [e, chain_zero] at hroot
        exact hf hroot.symm
      obtain ⟨k1, rfl⟩ := Nat.exists_eq_succ_of_ne_zero hk0
      have hroot1 : par g (chain g (par g f) k1) = chain g (par g f) k1 := by
        rw [← chain_succ]; exact hroot
      have e := ih (par g f) k1 (by omega) hroot1
      change find_parent_fuel n g (g.parents f.x f.y) =
        find_parent_fuel (k1 + 1) g (g.parents f.x f.y) at e
      simp only [e]

/-- The parent chain of a cell of a ranked forest reaches its root in fewer steps than
there are owned cells. -/
theorem find_parent_depth {g : gamma} {D : field_t → Prop} {rep : field_t → field_t}
    {rk : field_t → Nat} (hF : ForestOn g D rep rk) {f : field_t} (hf : live g D f) :
    ∃ d, d < ((board g).filter (fun c => owner g c ≠ 0)).card ∧
      d < g.width * g.height ∧ par g (chain g f d) = chain g f d := by
  obtain ⟨k, hk, hroot, _⟩ := chain_terminates hF _ f hf (Nat.le_refl _)
  have h1 := @rank_above_card_lt_cells g D rk f hf
  have h2 : (cells_of g (owner g f)).card ≤ ((board g).filter (fun c => owner g c ≠ 0)).card := by
    apply Finset.card_le_card
    intro c hc
    rw [mem_cells_of] at hc
    rw [Finset.mem_filter, mem_board]
    exact ⟨hc.1, by rw [hc.2]; exact hf.2.2⟩
  have h3 : ((board g).filter (fun c => owner g c ≠ 0)).card ≤ g.width * g.height := by
    rw [← card_board]
    exact Finset.card_filter_le _ _
  exact ⟨k, by omega, by omega, hroot⟩

theorem scan_order_length (w h : Nat) : (scan_order w h).length = w * h := by
  unfold scan_order
  induction w with
  | zero => simp
  | succ w ih =>
    rw [List.range_succ, List.flatMap_append, List.length_append, ih]
    simp [Nat.succ_mul]

theorem golden_possible_trials_le (p : Nat) : ∀ (l : List (Nat × Nat)) (g : gamma),
    golden_possible_trials p l g ≤ l.length := by
  intro l
  induction l with
  | nil => intro g; exact Nat.le_refl _
  | cons c rest ih =>
    intro g
    obtain ⟨i, j⟩ := c
    unfold golden_possible_trials
    simp only [List.length_cons]
    split
    · omega
    · have := ih (golden_no_checking_nor_changing g p i j).2
      omega

/-! ## The number of pops of the flood fills -/

theorem set_parent_dfs_pops_nil (parent : field_t) (p fuel : Nat) (g : gamma)
    (h : g.stack.items = []) : set_parent_dfs_pops parent p fuel g = 0 := by
  cases fuel with
  | zero => rfl
  | succ n =>
    unfold set_parent_dfs_pops
    rw [if_pos ((is_stack_empty_iff _).mpr h)]

theorem set_parent_dfs_pops_cons (parent : field_t) (p fuel : Nat) (g : gamma)
    (f : field_t) (rest : List field_t) (h : g.stack.items = f :: rest) :
    set_parent_dfs_pops parent p (fuel + 1) g =
      1 + set_parent_dfs_pops parent p fuel
        ((List.range DIRECTIONS).foldl (set_parent_dfs_step f p)
          { g with
            stack := { g.stack with items := rest }
            parents := set2D g.parents f.x f.y parent }) := by
  have hne : ¬ (is_stack_empty g.stack = true) := by
    rw [is_stack_empty_iff, h]; simp
  rw [set_parent_dfs_pops, if_neg hne]
  simp only [stack_pop_cons g.stack f rest h]

theorem set_parent_dfs_pops_le (s : field_t) (q : Nat) : ∀ (n : Nat) (g : gamma),
    set_parent_dfs_pops s q n g ≤ n := by
  intro n
  induction n with
  | zero => intro g; exact Nat.le_refl _
  | succ n ih =>
    intro g
    by_cases hs : g.stack.items = []
    · rw [set_parent_dfs_pops_nil s q _ g hs]; omega
    · obtain ⟨f, rest, hs2⟩ := List.exists_cons_of_ne_nil hs
      rw [set_parent_dfs_pops_cons s q n g f rest hs2]
      have := ih ((List.range DIRECTIONS).foldl (set_parent_dfs_step f q)
          { g with
            stack := { g.stack with items := rest }
            parents := set2D g.parents f.x f.y s })
      omega

/-- Once the loop of `set_parent_dfs` has ended with an empty stack, more fuel adds no
pop. -/
theorem set_parent_dfs_pops_stable (s : field_t) (q : Nat) : ∀ (n : Nat) (g : gamma) (c : Nat),
    (set_parent_dfs_loop s q n g c).1.stack.items = [] →
    ∀ m, n ≤ m → set_parent_dfs_pops s q m g = set_parent_dfs_pops s q n g := by
  intro n
  induction n with
  | zero =>
    intro g c h m _
    have hg : g.stack.items = [] := h
    rw [set_parent_dfs_pops_nil s q m g hg, set_parent_dfs_pops_nil s q 0 g hg]
  | succ n ih =>
    intro g c h m hm
    obtain ⟨m1, rfl⟩ := Nat.exists_eq_add_of_le hm
    have e : n + 1 + m1 = (n + m1) + 1 := by omega
    rw [e]
    by_cases hs : g.stack.items = []
    · rw [set_parent_dfs_pops_nil s q _ g hs, set_parent_dfs_pops_nil s q _ g hs]
    · obtain ⟨f, rest, hs2⟩ := List.exists_cons_of_ne_nil hs
      rw [set_parent_dfs_loop_cons s q n g c f rest hs2] at h
      rw [set_parent_dfs_pops_cons s q n g f rest hs2,
        set_parent_dfs_pops_cons s q (n + m1) g f rest hs2]
      rw [ih _ _ h (n + m1) (by omega)]

theorem init_visited_pops_nil (fuel : Nat) (g : gamma) (h : g.stack.items = []) :
    init_visited_pops fuel g = 0 := by
  cases fuel with
  | zero => rfl
  | succ n =>
    unfold init_visited_pops
    rw [if_pos ((is_stack_empty_iff _).mpr h)]

theorem init_visited_pops_cons (fuel : Nat) (g : gamma) (f : field_t) (rest : List field_t)
    (h : g.stack.items = f :: rest) :
    init_visited_pops (fuel + 1) g =
      1 + init_visited_pops fuel
        ((List.range DIRECTIONS).foldl (init_visited_step f)
          { g with stack := { g.stack with items := rest } }) := by
  have hne : ¬ (is_stack_empty g.stack = true) := by
    rw [is_stack_empty_iff, h]; simp
  rw [init_visited_pops, if_neg hne]
  simp only [stack_pop_cons g.stack f rest h]

theorem init_visited_pops_le : ∀ (n : Nat) (g : gamma), init_visited_pops n g ≤ n := by
  intro n
  induction n with
  | zero => intro g; exact Nat.le_refl _
  | succ n ih =>
    intro g
    by_cases hs : g.stack.items = []
    · rw [init_visited_pops_nil _ g hs]; omega
    · obtain ⟨f, rest, hs2⟩ := List.exists_cons_of_ne_nil hs
      rw [init_visited_pops_cons n g f rest hs2]
      have := ih ((List.range DIRECTIONS).foldl (init_visited_step f)
          { g with stack := { g.stack with items := rest } })
      omega

/-- Once the loop of `init_visited` has ended with an empty stack, more fuel adds no
pop. -/
theorem init_visited_pops_stable : ∀ (n : Nat) (g : gamma),
    (init_visited_loop n g).stack.items = [] →
    ∀ m, n ≤ m → init_visited_pops m g = init_visited_pops n g := by
  intro n
  induction n with
  | zero =>
    intro g h m _
    have hg : g.stack.items = [] := h
    rw [init_visited_pops_nil m g hg, init_visited_pops_nil 0 g hg]
  | succ n ih =>
    intro g h m hm
    obtain ⟨m1, rfl⟩ := Nat.exists_eq_add_of_le hm
    have e : n + 1 + m1 = (n + m1) + 1 := by omega
    rw [e]
    by_cases hs : g.stack.items = []
    · rw [init_visited_pops_nil _ g hs, init_visited_pops_nil _ g hs]
    · obtain ⟨f, rest, hs2⟩ := List.exists_cons_of_ne_nil hs
      rw [init_visited_loop_cons n g f rest hs2] at h
      rw [init_visited_pops_cons n g f rest hs2, init_visited_pops_cons (n + m1) g f rest hs2]
      rw [ih _ h (n + m1) (by omega)]

/-- The loop of `set_parent_dfs` ends after at most `width * height` pops: with any
number of iterations allowed it makes at most that many, and with that many allowed (or
more) it yields the result of `set_parent_dfs`, whose stack is empty. -/
theorem set_parent_dfs_terminates {h0 : gamma} {s : field_t} {q : Nat}
    (hw : h0.width < UINT32_MOD) (hh : h0.height < UINT32_MOD)
    (hs : owns h0 q s) (hv : vis h0 s = 0) (hst : h0.stack.items = [])
    (hsz : h0.stack.size = h0.width * h0.height) :
    (set_parent_dfs h0 s s.x s.y q).1.stack.items = [] ∧
    (∀ n, set_parent_dfs_pops s q n
      { h0 with
        stack := stack_push h0.stack s.x s.y
        visited := set2D h0.visited s.x s.y 1 } ≤ h0.width * h0.height) ∧
    (∀ n, h0.width * h0.height ≤ n → set_parent_dfs_loop s q n
      { h0 with
        stack := stack_push h0.stack s.x s.y
        visited := set2D h0.visited s.x s.y 1 } 0 = set_parent_dfs h0 s s.x s.y q) := by
  obtain ⟨i1, i2⟩ := @dfs_start _
    { h0 with
      stack := stack_push h0.stack s.x s.y
      visited := set2D h0.visited s.x s.y 1 }
    _ _ hs hv hst hsz ⟨rfl, rfl, rfl, rfl, rfl, rfl, rfl, rfl⟩ rfl rfl rfl
  rw [set_parent_dfs_unfold]
  generalize ({ h0 with
      stack := stack_push h0.stack s.x s.y
      visited := set2D h0.visited s.x s.y 1 } : gamma) = h2 at i1 i2 ⊢
  have hU := unvisited_card_le h0 q
  have hbb := board_bound hw hh
  have hsz2 : h2.stack.size = h0.stack.size := i1.size
  obtain ⟨_, r2, _⟩ := dfs_loop_spec hw hh (h0.width * h0.height) h2 0 i1
    (by omega) (by omega) (by omega)
  refine ⟨r2, fun n => ?_, fun n hn => dfs_loop_stable s q _ h2 0 r2 n hn⟩
  rcases Nat.le_total n (h0.width * h0.height) with hn | hn
  · exact (set_parent_dfs_pops_le s q n h2).trans hn
  · rw [set_parent_dfs_pops_stable s q _ h2 0 r2 n hn]
    exact set_parent_dfs_pops_le s q _ h2

/-- The loop of `init_visited` ends after at most `width * height` pops: with any number
of iterations allowed it makes at most that many, and with that many allowed (or more) it
yields the result of `init_visited`, whose stack is empty. -/
theorem init_visited_terminates {h0 : gamma} {c0 : field_t}
    (hw : h0.width < UINT32_MOD) (hh : h0.height < UINT32_MOD)
    (hc0 : on_board h0 c0) (hst : h0.stack.items = [])
    (hsz : h0.stack.size = h0.width * h0.height) :
    (init_visited h0 c0.x c0.y).stack.items = [] ∧
    (∀ n, init_visited_pops n
      { h0 with
        stack := stack_push h0.stack c0.x c0.y
        visited := set2D h0.visited c0.x c0.y 0 } ≤ h0.width * h0.height) ∧
    (∀ n, h0.width * h0.height ≤ n → init_visited_loop n
      { h0 with
        stack := stack_push h0.stack c0.x c0.y
        visited := set2D h0.visited c0.x c0.y 0 } = init_visited h0 c0.x c0.y) := by
  obtain ⟨i1, i2⟩ := @clear_start h0
    { h0 with
      stack := stack_push h0.stack c0.x c0.y
      visited := set2D h0.visited c0.x c0.y 0 } c0 hc0 hst hsz
    ⟨rfl, rfl, rfl, rfl, rfl, rfl, rfl, rfl⟩ rfl rfl rfl
  rw [init_visited_unfold]
  generalize ({ h0 with
      stack := stack_push h0.stack c0.x c0.y
      visited := set2D h0.visited c0.x c0.y 0 } : gamma) = h2 at i1 i2 ⊢
  have hsz2 : h2.stack.size = h0.stack.size := i1.size
  obtain ⟨_, r2⟩ := clear_loop_spec hw hh (h0.width * h0.height) h2 i1 (by omega) (by omega)
  refine ⟨r2, fun n => ?_, fun n hn => clear_loop_stable _ h2 r2 n hn⟩
  rcases Nat.le_total n (h0.width * h0.height) with hn | hn
  · exact (init_visited_pops_le n h2).trans hn
  · rw [init_visited_pops_stable _ h2 r2 n hn]
    exact init_visited_pops_le _ h2

/-! ## The depth of `find_parent` -/

/-- When the parent chain of `f` reaches a root after `d` steps, `find_parent` nests at
most `d + 1` calls. -/
theorem find_parent_calls_le (g : gamma) : ∀ (n : Nat) (f : field_t) (d : Nat),
    par g (chain g f d) = chain g f d → find_parent_calls n g f ≤ d + 1 := by
  intro n
  induction n with
  | zero => intro f d _; exact Nat.zero_le _
  | succ n ih =>
    intro f d hroot
    unfold find_parent_calls
    by_cases hf : f = g.parents f.x f.y
    · have h1 : field_equals f (g.parents f.x f.y) = true := (field_equals_iff _ _).mpr hf
      rw [if_pos h1]
      omega
    · have h1 : ¬ (field_equals f (g.parents f.x f.y) = true) := by
        rw [field_equals_iff]; exact hf
      rw [if_neg h1]
      have hd0 : d ≠ 0 := by
        intro e
        rw [e, chain_zero] at hroot
        exact hf hroot.symm
      obtain ⟨d1, rfl⟩ := Nat.exists_eq_succ_of_ne_zero hd0
      have hroot1 : par g (chain g (par g f) d1) = chain g (par g f) d1 := by
        rw [← chain_succ]; exact hroot
      have e := ih (par g f) d1 hroot1
      change find_parent_calls n g (g.parents f.x f.y) ≤ d1 + 1 at e
      omega

/-- In a ranked forest `find_parent` on a live cell nests at most as many calls as there
are owned cells. -/
theorem find_parent_terminates {g : gamma} {D : field_t → Prop} {rep : field_t → field_t}
    {rk : field_t → Nat} (hF : ForestOn g D rep rk) {f : field_t} (hf : live g D f) :
    find_parent_bounded g f := by
  obtain ⟨d, hd1, hd2, hroot⟩ := find_parent_depth hF hf
  unfold find_parent_bounded owned_cells
  refine ⟨fun n => ?_, fun n hn => ?_⟩
  · have := find_parent_calls_le g n f d hroot
    omega
  · rw [find_parent_fuel_stable g n f d (by omega) hroot]
    unfold find_parent
    rw [find_parent_fuel_stable g (g.width * g.height) f d hd2 hroot]

/-- The loop state of `move_util` before the iteration `i` of its `for` loop. -/
theorem move_loop_upto_inv {g0 : gamma} {c0 : field_t} {p : Nat} {rep : field_t → field_t}
    {rk : field_t → Nat} (hw : g0.width < UINT32_MOD) (hh : g0.height < UINT32_MOD)
    (hc0 : on_board g0 c0) (hp : p ≠ 0)
    (hF : ForestOn g0 (fun c => c ≠ c0) rep rk) :
    ∀ i, i ≤ 4 → MoveLoopInv g0 c0 p rep rk i
      ((List.range i).foldl (move_util_step c0.x c0.y p)
        { g := g0, neigbours := fun _ => { x := 0, y := 0 }, l := 0 }) := by
  intro i
  induction i with
  | zero =>
    intro _
    constructor
    · exact FrameP.framep_refl p g0
    · exact hF
    · intro q _; rfl
    · intro j hj; simp at hj
    · intro i hi; omega
    · intro _; rfl
    · intro h; simp at h
  | succ i ih =>
    intro hi
    rw [List.range_succ, List.foldl_append]
    exact move_loop_step hw hh hc0 hp (by omega) (ih (by omega))

/-- The call of `find_parent` in the iteration `i` of the `for` loop of `move_util`, made
for the first neighbour owned by the player. -/
theorem move_first_find {g : gamma} {p : Nat} {c0 : field_t} (hC : Core g)
    (hp : valid_player g p) (hb : on_board g c0) (hfree : owner g c0 = 0) {i : Nat}
    (hi : i < 4) (hown : owns (move_loop_upto g c0.x c0.y p i).g p (nbr c0 i)) :
    find_parent_bounded (dec_areas (move_loop_upto g c0.x c0.y p i).g p) (nbr c0 i) := by
  obtain ⟨rep, rk, hF⟩ := hC.forest
  have hp0 : p ≠ 0 := by have := hp.1; omega
  have hw := hC.width_lt
  have hh := hC.height_lt
  have hb0 : on_board (take_field g c0.x c0.y p) c0 := hb
  have hF0 : ForestOn (take_field g c0.x c0.y p) (fun c => c ≠ c0) rep rk :=
    take_field_forest hF c0.x c0.y p hfree
  have hI := @move_loop_upto_inv (take_field g c0.x c0.y p) _ _ _ _ hw hh hb0 hp0 hF0 i
    (by omega)
  unfold move_loop_upto at hown ⊢
  generalize (List.range i).foldl (move_util_step c0.x c0.y p)
    { g := take_field g c0.x c0.y p, neigbours := fun _ => { x := 0, y := 0 }, l := 0 } = st
    at hI hown ⊢
  have hown0 : owns (take_field g c0.x c0.y p) p (nbr c0 i) :=
    (hI.frame.framep_owns_iff p _).mp hown
  have hadj : adjacent c0 (nbr c0 i) := nbr_on_board_adjacent hw hh hb0 hi hown0.1
  have hne : nbr c0 i ≠ c0 := fun h => adjacent_ne hadj h.symm
  have hFa : ForestOn (dec_areas st.g p) (fun c => c ≠ c0) rep rk :=
    hI.forest.forest_congr rfl rfl rfl rfl
  have hlive : live (dec_areas st.g p) (fun c => c ≠ c0) (nbr c0 i) := by
    refine ⟨hne, hown.1, ?_⟩
    change owner st.g (nbr c0 i) ≠ 0
    rw [hown.2]; exact hp0
  exact find_parent_terminates hFa hlive

/-- The call of `find_parent` in the iteration `j` of the first loop of
`remove_same_areas`. -/
theorem merge_find_roots {h : gamma} {c0 : field_t} {p : Nat} {rep : field_t → field_t}
    {rk : field_t → Nat} {nb : Nat → field_t} {l : Nat} (hp : p ≠ 0)
    (hF : ForestOn h (fun c => c ≠ c0) rep rk)
    (hnb : ∀ j, j < l → owns h p (nb j) ∧ adjacent c0 (nb j)) (j : Nat) (hj : j < l) :
    find_parent_bounded (remove_same_areas_find h nb j).1 (nb j) := by
  have hlive : ∀ j, j < l → live h (fun c => c ≠ c0) (nb j) := by
    intro j hj
    obtain ⟨h1, h2⟩ := hnb j hj
    exact ⟨fun e => adjacent_ne h2 e.symm, h1.1, by rw [h1.2]; exact hp⟩
  obtain ⟨ps, np, e1, _, e3⟩ := remove_same_areas_find_spec hF nb j
    (fun k hk => hlive k (by omega))
  have e3b : ∀ d : field_t, live h (fun c => c ≠ c0) d →
      (ps d.x d.y = par h d ∨ ps d.x d.y = rep d) := by
    intro d _
    rcases e3 d with e | ⟨_, e⟩
    · exact Or.inl e
    · exact Or.inr e
  have hF1 := hF.compress ps e3b
  rw [e1]
  exact find_parent_terminates hF1 (hlive j hj)

/-- The call of `find_parent` in the iteration `it = m + 1` of the `while` loop of
`remove_same_areas`. -/
theorem merge_find_loop {h : gamma} {c0 : field_t} {p : Nat} {rep : field_t → field_t}
    {rk : field_t → Nat} {nb : Nat → field_t} {l : Nat} (hp : p ≠ 0) (hl : 0 < l)
    (hF : ForestOn h (fun c => c ≠ c0) rep rk) (hc0 : owns h p c0)
    (hnb : ∀ j, j < l → owns h p (nb j) ∧ adjacent c0 (nb j))
    (hareas : (h.players (p - 1)).num_of_areas = (roots_in h (fun c => c ≠ c0) p).card)
    (m : Nat) (hm : m + 2 ≤ l) :
    find_parent_bounded (merge_state h nb l p m).1 ((merge_state h nb l p m).2 (m + 1)) := by
  have hlive : ∀ j, j < l → live h (fun c => c ≠ c0) (nb j) := by
    intro j hj
    obtain ⟨h1, h2⟩ := hnb j hj
    exact ⟨fun e => adjacent_ne h2 e.symm, h1.1, by rw [h1.2]; exact hp⟩
  obtain ⟨ps, np, e1, e2, e3⟩ := remove_same_areas_find_spec hF nb l hlive
  have e3b : ∀ d : field_t, live h (fun c => c ≠ c0) d →
      (ps d.x d.y = par h d ∨ ps d.x d.y = rep d) := by
    intro d _
    rcases e3 d with e | ⟨_, e⟩
    · exact Or.inl e
    · exact Or.inr e
  have hF1 := hF.compress ps e3b
  have hroots1 : ∀ q, q ≠ 0 → roots_in { h with parents := ps } (fun c => c ≠ c0) q =
      roots_in h (fun c => c ≠ c0) q := fun q hq => roots_in_compress hF ps e3b q hq
  have hse := sort_n_parents_same { h with parents := ps } np l
  have hsorted : ∀ j, j < l → ∃ i, i < l ∧
      sort_n_parents { h with parents := ps } np l j = rep (nb i) := by
    intro j hj
    obtain ⟨i, hi, e⟩ := hse.1 j hj
    exact ⟨i, hi, e.trans (e2 i hi)⟩
  have hconn0 : ∀ i, i < l → Conn h p (rep (nb i)) c0 := by
    intro i hi
    have a1 := hF.rep_conn (nb i) (hlive i hi)
    rw [(hnb i hi).1.2] at a1
    exact a1.conn_symm.conn_trans (Conn.single ⟨adjacent_symm (hnb i hi).2, (hnb i hi).1, hc0⟩)
  have hs : ∀ j, j < l →
      live { h with parents := ps } (fun c => c ≠ c0)
        (sort_n_parents { h with parents := ps } np l j) ∧
      rep (sort_n_parents { h with parents := ps } np l j) =
        sort_n_parents { h with parents := ps } np l j ∧
      owner { h with parents := ps } (sort_n_parents { h with parents := ps } np l j) = p ∧
      Conn { h with parents := ps } p (sort_n_parents { h with parents := ps } np l j)
        (sort_n_parents { h with parents := ps } np l 0) := by
    intro j hj
    obtain ⟨i, hi, e⟩ := hsorted j hj
    obtain ⟨i0, hi0, e0⟩ := hsorted 0 hl
    rw [e, e0]
    have a1 := hF.rep_live (nb i) (hlive i hi)
    refine ⟨a1.1, hF.rep_rep (nb i) (hlive i hi), a1.2.trans (hnb i hi).1.2, ?_⟩
    exact (Conn_congr rfl rfl rfl p _ _).mpr ((hconn0 i hi).conn_trans (hconn0 i0 hi0).conn_symm)
  have hareas1 : (({ h with parents := ps } : gamma).players (p - 1)).num_of_areas =
      (roots_in { h with parents := ps } (fun c => c ≠ c0) p).card := by
    rw [hroots1 p hp]; exact hareas
  have hloop := accumulate_loop (sort_n_parents { h with parents := ps } np l) l hp hF1 hs
    hareas1 m (by omega)
  have hstart : merge_start h nb l =
      ({ h with parents := ps }, sort_n_parents { h with parents := ps } np l) := by
    unfold merge_start
    rw [e1]
  have hstate : merge_state h nb l p m =
      (List.range' 1 m).foldl
        (remove_same_areas_step (sort_n_parents { h with parents := ps } np l 0) p)
        ({ h with parents := ps }, sort_n_parents { h with parents := ps } np l) := by
    unfold merge_state
    rw [hstart]
  rw [hstate]
  obtain ⟨f1, ⟨rk1, f2⟩, f3, _, _, _, _⟩ := hloop
  have hm1 := hs (m + 1) (by omega)
  generalize sort_n_parents { h with parents := ps } np l = sorted at *
  generalize (List.range' 1 m).foldl (remove_same_areas_step (sorted 0) p)
    ({ h with parents := ps }, sorted) = st at *
  have hlv : live st.1 (fun c => c ≠ c0) (st.2 (m + 1)) := by
    rw [f3 (m + 1) (by omega)]
    exact (f1.live_iff _ _).mpr hm1.1
  exact find_parent_terminates f2 hlv

/-! ## Pushes, the states of the loop of `delete_util`, and the rendering loops -/

/-- An iteration of the `for` loop of `set_parent_dfs` either changes nothing, or it finds
the marker of the neighbour at 0, sets it to 1 and pushes the neighbour. -/
theorem set_parent_dfs_step_cases (f : field_t) (p : Nat) (k : gamma) (i : Nat) :
    set_parent_dfs_step f p k i = k ∨
    (k.visited (nbr f i).x (nbr f i).y = 0 ∧
      (set_parent_dfs_step f p k i).visited (nbr f i).x (nbr f i).y = 1 ∧
      set_parent_dfs_step f p k i =
        { k with
          visited := set2D k.visited (nbr f i).x (nbr f i).y 1
          stack := stack_push k.stack (nbr f i).x (nbr f i).y }) := by
  cases hc : dfs_condition k (nbr f i).x (nbr f i).y p
  · left
    have hc2 : dfs_condition k (add32 f.x (x_dir i)) (add32 f.y (y_dir i)) p = false := hc
    unfold set_parent_dfs_step
    simp only [hc2]
    rfl
  · right
    have hc2 : dfs_condition k (add32 f.x (x_dir i)) (add32 f.y (y_dir i)) p = true := hc
    have e : set_parent_dfs_step f p k i =
        { k with
          visited := set2D k.visited (nbr f i).x (nbr f i).y 1
          stack := stack_push k.stack (nbr f i).x (nbr f i).y } := by
      unfold set_parent_dfs_step
      simp only [hc2, if_true]
      rfl
    refine ⟨((dfs_condition_iff k (nbr f i) p).mp hc).2.1, ?_, e⟩
    rw [e]
    simp only
    rw [set2D_cell, if_pos rfl]

/-- An iteration of the `for` loop of `init_visited` either changes nothing, or it finds
the marker of the neighbour different from 0, sets it to 0 and pushes the neighbour. -/
theorem init_visited_step_cases (f : field_t) (k : gamma) (i : Nat) :
    init_visited_step f k i = k ∨
    (k.visited (nbr f i).x (nbr f i).y ≠ 0 ∧
      (init_visited_step f k i).visited (nbr f i).x (nbr f i).y = 0 ∧
      init_visited_step f k i =
        { k with
          visited := set2D k.visited (nbr f i).x (nbr f i).y 0
          stack := stack_push k.stack (nbr f i).x (nbr f i).y }) := by
  cases hc : (!wrong_field (nbr f i).x (nbr f i).y k && k.visited (nbr f i).x (nbr f i).y != 0)
  · left
    have hc2 : (!wrong_field (add32 f.x (x_dir i)) (add32 f.y (y_dir i)) k &&
        k.visited (add32 f.x (x_dir i)) (add32 f.y (y_dir i)) != 0) = false := hc
    unfold init_visited_step
    simp only [hc2]
    rfl
  · right
    have hc2 : (!wrong_field (add32 f.x (x_dir i)) (add32 f.y (y_dir i)) k &&
        k.visited (add32 f.x (x_dir i)) (add32 f.y (y_dir i)) != 0) = true := hc
    have e : init_visited_step f k i =
        { k with
          visited := set2D k.visited (nbr f i).x (nbr f i).y 0
          stack := stack_push k.stack (nbr f i).x (nbr f i).y } := by
      unfold init_visited_step
      simp only [hc2, if_true]
      rfl
    refine ⟨?_, ?_, e⟩
    · simp only [Bool.and_eq_true, bne_iff_ne] at hc
      exact hc.2
    · rw [e]
      simp only
      rw [set2D_cell, if_pos rfl]

/-- The state of `delete_util` before the iteration `i` of its `for` loop. -/
theorem delete_loop_upto_inv {g : gamma} {rep : field_t → field_t} {rk : field_t → Nat}
    {c0 : field_t} {q : Nat}
    (hC : Core g) (hF : ForestOn g (fun _ => True) rep rk) (hq : valid_player g q)
    (hown : owns g q c0) (hI : DelInv g rep c0 q 0 (delete_field g q c0.x c0.y)) :
    ∀ i, i ≤ 4 → DelInv g rep c0 q i (delete_loop_upto g c0.x c0.y q i) := by
  intro i
  induction i with
  | zero => intro _; exact hI
  | succ i ih =>
    intro hi
    unfold delete_loop_upto
    rw [List.range_succ, List.foldl_append]
    exact delete_step hC hF hq hown (ih (by omega)) (by omega)

/-- The padding loop of `gamma_board_helper` ends after at most `W` iterations, `W` being
the field width. -/
theorem pad_loop_stable (W old : Nat) (hW : W < UINT64_MOD) : ∀ (fuel : Nat) (r : render_t),
    r.it < UINT64_MOD → W - (r.it + (UINT64_MOD - old)) % UINT64_MOD ≤ fuel →
    ∀ n, fuel ≤ n → pad_loop W old n r = pad_loop W old fuel r := by
  have h4 : UINT64_MOD = 18446744073709551616 := by decide
  intro fuel
  induction fuel with
  | zero =>
    intro r _ h2 n _
    have hstop : ¬ (r.it + (UINT64_MOD - old)) % UINT64_MOD < W := by omega
    rw [pad_loop_stop W old n r hstop, pad_loop_stop W old 0 r hstop]
  | succ fuel ih =>
    intro r h1 h2 n hn
    by_cases hc : (r.it + (UINT64_MOD - old)) % UINT64_MOD < W
    · obtain ⟨n1, rfl⟩ : ∃ n1, n = n1 + 1 := ⟨n - 1, by omega⟩
      unfold pad_loop
      rw [if_pos hc, if_pos hc]
      apply ih
      · simp only
        unfold inc64
        exact Nat.mod_lt _ (by rw [h4]; omega)
      · simp only
        unfold inc64
        rw [h4] at h1 h2 hc hW ⊢
        omega
      · omega
    · rw [pad_loop_stop W old n r hc, pad_loop_stop W old _ r hc]

/-- The loop of `digit_count` ends after at most 20 iterations on a 64-bit number. -/
theorem digit_count_loop_stable (n : Nat) (hn : n < UINT64_MOD) (k : Nat) (hk : 20 ≤ k) :
    digit_count_loop k n 0 = digit_count_loop 20 n 0 := by
  have hl := digits_length_le_of_lt hn
  have h3 : UINT32_MOD = 4294967296 := by decide
  rw [digit_count_loop_eq k n 0 (by omega) (by omega),
    digit_count_loop_eq 20 n 0 hl (by omega)]

/-! ## Termination of the public calls -/

/-- C35: let `g` be a reachable state, `h` a state in which an internal call of a public
call on `g` runs (`g` itself included), and let `delete_util` be called on the cell `c0` of
`h` owned by `q`. The loops whose length is not fixed by a `for` bound end by their own
exit test:
(1) each call of `set_parent_dfs` made by the `for` loop of `delete_util` ends with an
empty stack after at most `width * height` pops: whatever number of iterations is allowed,
the `while` loop makes at most `width * height`, and with that many allowed (or more) it
yields the result of `set_parent_dfs`;
(2) the same holds for the call of `init_visited` that ends `delete_util`;
(3) an iteration of the `for` loop of `set_parent_dfs` pushes a cell only when it finds its
marker at 0 and sets it to 1, and one of `init_visited` only when it finds the marker
different from 0 and sets it to 0;
(4) each call of `find_parent` nests at most as many calls as there are owned cells: the
one of `delete_field`, and, in every state `m` in which `gamma_move` runs on a free
on-board cell for a valid player, the one of the `for` loop of `move_util` and those of
the two loops of `remove_same_areas`;
(5) the scan of `gamma_golden_possible` makes at most `width * height` trials;
(6) the padding loop of `gamma_board_helper` ends after at most `max_width` iterations and
the loop of `digit_count` after at most 20. -/
theorem public_calls_terminate (g h : gamma) (c0 : field_t) (q : Nat) (hR : Reachable g)
    (hS : ScanState g h) (hq : q ≠ 0) (hown : owns h q c0) :
    (∀ i, i < DIRECTIONS →
      dfs_condition (delete_loop_upto h c0.x c0.y q i) (nbr c0 i).x (nbr c0 i).y q = true →
      (set_parent_dfs (delete_loop_upto h c0.x c0.y q i) (nbr c0 i)
        (nbr c0 i).x (nbr c0 i).y q).1.stack.items = [] ∧
      (∀ n, set_parent_dfs_pops (nbr c0 i) q n
        (set_parent_dfs_start (delete_loop_upto h c0.x c0.y q i) (nbr c0 i).x (nbr c0 i).y) ≤
          h.width * h.height) ∧
      (∀ n, h.width * h.height ≤ n →
        set_parent_dfs_loop (nbr c0 i) q n
          (set_parent_dfs_start (delete_loop_upto h c0.x c0.y q i) (nbr c0 i).x (nbr c0 i).y)
          0 =
        set_parent_dfs (delete_loop_upto h c0.x c0.y q i) (nbr c0 i)
          (nbr c0 i).x (nbr c0 i).y q)) ∧
    (delete_util h c0.x c0.y q =
        init_visited (delete_loop_upto h c0.x c0.y q DIRECTIONS) c0.x c0.y ∧
      (init_visited (delete_loop_upto h c0.x c0.y q DIRECTIONS) c0.x c0.y).stack.items = [] ∧
      (∀ n, init_visited_pops n
        (init_visited_start (delete_loop_upto h c0.x c0.y q DIRECTIONS) c0.x c0.y) ≤
          h.width * h.height) ∧
      (∀ n, h.width * h.height ≤ n →
        init_visited_loop n
          (init_visited_start (delete_loop_upto h c0.x c0.y q DIRECTIONS) c0.x c0.y) =
        init_visited (delete_loop_upto h c0.x c0.y q DIRECTIONS) c0.x c0.y)) ∧
    ((∀ (k : gamma) (f : field_t) (p i : Nat),
        set_parent_dfs_step f p k i = k ∨
        (k.visited (nbr f i).x (nbr f i).y = 0 ∧
          (set_parent_dfs_step f p k i).visited (nbr f i).x (nbr f i).y = 1 ∧
          set_parent_dfs_step f p k i =
            { k with
              visited := set2D k.visited (nbr f i).x (nbr f i).y 1
              stack := stack_push k.stack (nbr f i).x (nbr f i).y })) ∧
      (∀ (k : gamma) (f : field_t) (i : Nat),
        init_visited_step f k i = k ∨
        (k.visited (nbr f i).x (nbr f i).y ≠ 0 ∧
          (init_visited_step f k i).visited (nbr f i).x (nbr f i).y = 0 ∧
          init_visited_step f k i =
            { k with
              visited := set2D k.visited (nbr f i).x (nbr f i).y 0
              stack := stack_push k.stack (nbr f i).x (nbr f i).y }))) ∧
    (find_parent_bounded h c0 ∧
      ∀ (m : gamma) (p x y : Nat), MoveState g m → valid_player m p →
        on_board m { x := x, y := y } → m.player_arr x y = 0 →
        (∀ i, i < DIRECTIONS →
          owns (move_loop_upto m x y p i).g p (nbr { x := x, y := y } i) →
          find_parent_bounded (dec_areas (move_loop_upto m x y p i).g p)
            (nbr { x := x, y := y } i)) ∧
        (∀ j, j < (move_loop m x y p).l →
          find_parent_bounded
            (remove_same_areas_find (move_loop m x y p).g (move_loop m x y p).neigbours j).1
            ((move_loop m x y p).neigbours j)) ∧
        (∀ k, k + 2 ≤ (move_loop m x y p).l →
          find_parent_bounded
            (merge_state (move_loop m x y p).g (move_loop m x y p).neigbours
              (move_loop m x y p).l p k).1
            ((merge_state (move_loop m x y p).g (move_loop m x y p).neigbours
              (move_loop m x y p).l p k).2 (k + 1)))) ∧
    ((scan_order g.width g.height).length = g.width * g.height ∧
      ∀ p, golden_possible_trials p (scan_order g.width g.height) g ≤ g.width * g.height) ∧
    ((∀ (W old : Nat) (r : render_t), W < UINT64_MOD → r.it < UINT64_MOD →
        ∀ n, W ≤ n → pad_loop W old n r = pad_loop W old W r) ∧
      ∀ n k : Nat, n < UINT64_MOD → 20 ≤ k →
        digit_count_loop k n 0 = digit_count_loop 20 n 0) := by
  have hC := (hS.scan_inv hR.reach_inv).core
  have hqv : valid_player h q := by
    rw [← hown.2]
    exact hC.valid_owner hown.1 (by rw [hown.2]; exact hq)
  obtain ⟨rep, rk, hF⟩ := hC.forest
  have hl0 : live h (fun _ => True) c0 := ⟨trivial, hown.1, by rw [hown.2]; exact hq⟩
  obtain ⟨ps, hfp, hps2, _⟩ := find_parent_path hF c0 hl0
  have hfp2 : find_parent h { x := c0.x, y := c0.y } = ({ h with parents := ps }, rep c0) := hfp
  have hI0 : DelInv h rep c0 q 0 (delete_field h q c0.x c0.y) := by
    apply delete_field_inv hC hF hqv hown hps2 <;> (unfold delete_field; rw [hfp2])
    rfl
  have hIi := delete_loop_upto_inv hC hF hqv hown hI0
  have e4 : DIRECTIONS = 4 := rfl
  refine ⟨fun i hi hc => ?_, ?_, ⟨fun k f p i => set_parent_dfs_step_cases f p k i,
      fun k f i => init_visited_step_cases f k i⟩,
    ⟨find_parent_terminates hF hl0, fun m p x y hM hp hb hfree => ?_⟩,
    ⟨scan_order_length _ _, fun p => ?_⟩, ⟨fun W old r hW hr n hn => ?_, fun n k hn hk =>
      digit_count_loop_stable n hn k hk⟩⟩
  · have hD := hIi i (by rw [e4] at hi; omega)
    generalize delete_loop_upto h c0.x c0.y q i = hk at hD hc ⊢
    have hc2 := (dfs_condition_iff hk (nbr c0 i) q).mp hc
    have t := @set_parent_dfs_terminates hk (nbr c0 i) q
      (by rw [hD.width]; exact hC.width_lt) (by rw [hD.height]; exact hC.height_lt)
      ⟨hc2.1, hc2.2.2⟩ hc2.2.1 (by rw [hD.stack]; exact hC.stack_empty)
      (by rw [hD.stack, hD.width, hD.height]; exact hC.stack_size)
    have hwd : hk.width * hk.height = h.width * h.height := by rw [hD.width, hD.height]
    rw [← hwd]
    exact t
  · rw [e4]
    have hD := hIi 4 (Nat.le_refl _)
    refine ⟨rfl, ?_⟩
    generalize delete_loop_upto h c0.x c0.y q 4 = hk at hD ⊢
    have hb2 : on_board hk c0 := (hD.del_on_board_iff c0).mpr hown.1
    have t := @init_visited_terminates hk c0
      (by rw [hD.width]; exact hC.width_lt) (by rw [hD.height]; exact hC.height_lt) hb2
      (by rw [hD.stack]; exact hC.stack_empty)
      (by rw [hD.stack, hD.width, hD.height]; exact hC.stack_size)
    have hwd : hk.width * hk.height = h.width * h.height := by rw [hD.width, hD.height]
    rw [← hwd]
    exact t
  · obtain ⟨hCm, hSIm⟩ := hM.move_sizes hR.reach_inv.core hR.reach_sizes
    have hp0 : p ≠ 0 := by have := hp.1; omega
    refine ⟨fun i hi ho => ?_, fun j hj => ?_, fun k hk => ?_⟩
    · exact @move_first_find m p { x := x, y := y } hCm hp hb hfree i
        (by rw [e4] at hi; exact hi) ho
    · have hpos : 0 < (move_loop m x y p).l := by omega
      obtain ⟨rep1, rk1, c1, _, c3, _, _⟩ :=
        @move_merge_ctx m p { x := x, y := y } hCm hSIm hp hb hfree hpos
      change j < (move_loop m x y p).l at hj
      generalize move_loop m x y p = L at hj c1 c3 ⊢
      exact merge_find_roots hp0 c1 c3 j hj
    · have hpos : 0 < (move_loop m x y p).l := by omega
      obtain ⟨rep1, rk1, c1, c2, c3, c4, _⟩ :=
        @move_merge_ctx m p { x := x, y := y } hCm hSIm hp hb hfree hpos
      change k + 2 ≤ (move_loop m x y p).l at hk
      generalize move_loop m x y p = L at hk hpos c1 c2 c3 c4 ⊢
      exact merge_find_loop hp0 hpos c1 c2 c3 c4 k hk
  · rw [← scan_order_length g.width g.height]
    exact golden_possible_trials_le p _ g
  · exact pad_loop_stable W old hW W r hr (Nat.sub_le _ _) n hn

theorem public_calls_terminate_witness :
    Reachable (gamma_move (gamma_move (gamma_move new_6x1 1 0 0).2 1 1 0).2 1 2 0).2 ∧
    ScanState (gamma_move (gamma_move (gamma_move new_6x1 1 0 0).2 1 1 0).2 1 2 0).2
      (gamma_move (gamma_move (gamma_move new_6x1 1 0 0).2 1 1 0).2 1 2 0).2 ∧
    (1 : Nat) ≠ 0 ∧
    owns (gamma_move (gamma_move (gamma_move new_6x1 1 0 0).2 1 1 0).2 1 2 0).2 1
      { x := 1, y := 0 } ∧
    (init_visited (delete_loop_upto
        (gamma_move (gamma_move (gamma_move new_6x1 1 0 0).2 1 1 0).2 1 2 0).2 1 0 1
        DIRECTIONS) 1 0).stack.items = [] ∧
    (∀ n, init_visited_pops n
      (init_visited_start (delete_loop_upto
        (gamma_move (gamma_move (gamma_move new_6x1 1 0 0).2 1 1 0).2 1 2 0).2 1 0 1
        DIRECTIONS) 1 0) ≤
      (gamma_move (gamma_move (gamma_move new_6x1 1 0 0).2 1 1 0).2 1 2 0).2.width *
        (gamma_move (gamma_move (gamma_move new_6x1 1 0 0).2 1 1 0).2 1 2 0).2.height) :=
  ⟨Reachable.move _ 1 2 0 (Reachable.move _ 1 1 0 (Reachable.move _ 1 0 0 new_6x1_reachable)),
    ScanState.start, by decide, by unfold owns on_board owner; decide,
    (public_calls_terminate _ _ { x := 1, y := 0 } 1
      (Reachable.move _ 1 2 0 (Reachable.move _ 1 1 0 (Reachable.move _ 1 0 0 new_6x1_reachable)))
      ScanState.start (by decide) (by unfold owns on_board owner; decide)).2.1.2.1,
    (public_calls_terminate _ _ { x := 1, y := 0 } 1
      (Reachable.move _ 1 2 0 (Reachable.move _ 1 1 0 (Reachable.move _ 1 0 0 new_6x1_reachable)))
      ScanState.start (by decide) (by unfold owns on_board owner; decide)).2.1.2.2.1⟩

/-! ## The interactive rendering of a row longer than `2^32` characters -/

/-- The board text with fields of width `w` has `height * (width * w + 1)` characters when
no owner entry is longer than `w`. -/
theorem board_text_length (g : gamma) (w : Nat)
    (h : ∀ x y, (cell_text (g.player_arr x y)).length ≤ w) :
    (board_text g w).length = g.height * (g.width * w + 1) := by
  unfold board_text
  rw [flatMap_length_const (List.range g.height) _ (g.width * w + 1), List.length_range]
  intro i _
  rw [List.length_append,
    flatMap_length_const (List.range g.width) _ w (fun j _ => field_text_length (h j _)),
    List.length_range]
  rfl

/-- The board text of a one-row board whose last cell is unowned ends with the padded
field of that cell and the newline. -/
theorem board_text_last (g : gamma) (n : Nat) (hw : g.width = n + 1) (hh : g.height = 1)
    (hfree : g.player_arr n 0 = 0) :
    ∃ b, board_text g 3 = b ++ ['.', ' ', ' ', '\n'] := by
  unfold board_text
  have e1 : List.range g.height = [0] := by rw [hh]; rfl
  have e0 : g.height - 1 - 0 = 0 := by omega
  rw [e1, List.flatMap_singleton, hw, List.range_succ, List.flatMap_append,
    List.flatMap_singleton, e0, hfree]
  exact ⟨_, by rw [List.append_assoc]; rfl⟩

/-- C23: the state `g` returned by `gamma_new(2147483648, 1, 10, 1)` is reachable, it has
10 players and no owned cell, `gamma_board` uses the field width 1 and returns the board
text with fields of one character, and the field width of `gamma_board_interactive` is
`W = gamma_field_width_interactive(g) = 3`; but the string of `gamma_board_interactive` is
not the same layout with fields of `W` characters: that text has
`height * (width * 3 + 1) = 6442450945` characters and ends with a dot, two spaces and
the newline, while the string returned has `5010795181` characters and ends with two dots
and the newline. -/
theorem interactive_layout_wide :
    Reachable new_wide ∧ new_wide.num_of_players = 10 ∧ (∀ c, owner new_wide c = 0) ∧
    find_max_number_width new_wide = 1 ∧ gamma_field_width_interactive new_wide = 3 ∧
    gamma_board new_wide = board_text new_wide (find_max_number_width new_wide) ∧
    (board_text new_wide (gamma_field_width_interactive new_wide)).length = 6442450945 ∧
    (∃ b, board_text new_wide (gamma_field_width_interactive new_wide) =
      b ++ ['.', ' ', ' ', '\n']) ∧
    (gamma_board_interactive new_wide).length = 5010795181 ∧
    (∃ b, gamma_board_interactive new_wide = b ++ ['.', '.', '\n']) ∧
    gamma_board_interactive new_wide ≠
      board_text new_wide (gamma_field_width_interactive new_wide) := by
  obtain ⟨e1, e2, e3, e4, e5, e6⟩ := new_wide_fields
  have h3 : UINT32_MOD = 4294967296 := by decide
  have hboard := wide_helper new_wide e1 e2
    (fun j => by rw [e5]; exact ⟨by decide, by decide⟩) (fun j _ => e5 j 0)
  have hone : find_max_number_width new_wide = 1 := by
    apply find_max_number_width_one
    intro i _ hb
    rw [e6] at hb
    exact absurd hb (by decide)
  have hW := new_wide_interactive_width
  have hlen : (board_text new_wide 3).length = 6442450945 := by
    rw [board_text_length new_wide 3 (fun x y => by rw [e5]; decide), e1, e2]
  have hint : (gamma_board_interactive new_wide).length = 5010795181 := by
    unfold gamma_board_interactive
    rw [hW]
    exact hboard.1
  refine ⟨new_wide_reachable, e3, fun c => e5 c.x c.y, hone, hW, ?_, ?_, ?_, hint, ?_, ?_⟩
  · exact (gamma_board_small new_wide new_wide_reachable
      (by rw [hone, e1, e2, h3]; omega)).1
  · rw [hW]; exact hlen
  · rw [hW]
    exact board_text_last new_wide 2147483647 e1 e2 (e5 _ _)
  · unfold gamma_board_interactive
    rw [hW]
    exact hboard.2
  · intro e
    rw [hW] at e
    rw [e, hlen] at hint
    omega

end GammaGame
